import Mathlib

namespace PenAstar

/-! ### Single-precision arithmetic (the `float` expressions of penalty.h and xbdv.h) -/

/-- A finite non-negative `float`, held as the fraction `num / den`. The expressions embedded
here only produce values between `2^-5` and `2^64`, so the exponent range of the format
(overflow to infinity, subnormal numbers) is not modelled. -/
structure F32 where
  num : Nat
  den : Nat
deriving DecidableEq, Repr

/-- The quotient `a / b` rounded to the nearest integer, a tie going to the even one. -/
def round_half_even (a b : Nat) : Nat :=
  if b < 2 * (a % b) ∨ (2 * (a % b) = b ∧ (a / b) % 2 = 1) then a / b + 1 else a / b

/-- `⌊log₂ n⌋` by repeated halving (`0` for `n < 2`); `fuel` bounds the number of halvings. -/
def halvings : Nat → Nat → Nat
  | 0, _ => 0
  | fuel + 1, n => if n < 2 then 0 else halvings fuel (n / 2) + 1

/-- The position of the leading bit of `n`: `⌊log₂ n⌋`. -/
def leading_bit (n : Nat) : Nat := halvings n n

namespace F32

/-- IEEE 754 round-to-nearest-even of the fraction `num / den` to the 24-bit significand of
`float`. With `bn = ⌊log₂ num⌋` and `bd = ⌊log₂ den⌋` the quotient of `A = num * 2^(bd+24)`
by `B = den * 2^bn` lies between `2^23` and `2^25`: the significand is `A / B` rounded when
that quotient is below `2^24`, and `A / (2 * B)` rounded otherwise; the result is the
significand times the power of two that was divided out. -/
def round (num den : Nat) : F32 :=
  if num = 0 then ⟨0, 1⟩
  else if num * 2 ^ (leading_bit den + 24) < 2 ^ 24 * (den * 2 ^ leading_bit num) then
    ⟨round_half_even (num * 2 ^ (leading_bit den + 24)) (den * 2 ^ leading_bit num) *
        2 ^ leading_bit num,
      2 ^ (leading_bit den + 24)⟩
  else
    ⟨round_half_even (num * 2 ^ (leading_bit den + 24)) (2 * (den * 2 ^ leading_bit num)) *
        2 ^ (leading_bit num + 1),
      2 ^ (leading_bit den + 24)⟩

/-- The rational number the float stands for. -/
def val (a : F32) : ℚ := (a.num : ℚ) / (a.den : ℚ)

/-- Conversion of an unsigned integer to `float` (the usual arithmetic conversion of a
`uint32_t` operand that meets a `float` operand). -/
def of_nat (w : Nat) : F32 := round w 1

/-- The `float` sum `a + b`. -/
def add (a b : F32) : F32 := round (a.num * b.den + b.num * a.den) (a.den * b.den)

/-- The `float` product `a * b`. -/
def mul (a b : F32) : F32 := round (a.num * b.num) (a.den * b.den)

/-- The comparison `a < b`. -/
def lt (a b : F32) : Bool := decide (a.num * b.den < b.num * a.den)

/-- The comparison `a <= b`. -/
def le (a b : F32) : Bool := decide (a.num * b.den ≤ b.num * a.den)

/-- Conversion of a `float` to `uint32_t`: the fractional part is discarded. (A value of
`2^32` or more has no defined conversion; the expressions embedded here stay below it for
weights and lengths in the safe range.) -/
def to_uint32 (a : F32) : Nat := a.num / a.den

end F32

end PenAstar

/-!
pen-astar: shallow embedding of the routing core

Machine integers (`uint32_t`, `node_t`) are natural numbers; where the C++
arithmetic can wrap, the sum is reduced modulo `2 ^ 32` explicitly.
Vectors are lists; `v[i]` is `List.getD`, an assignment `v[i] = x` is `List.set`.
-/

namespace PenAstar

/-- Word size of `uint32_t` arithmetic. -/
def wrap32 : Nat := 2 ^ 32

/-- Modelled from the spec: `base/constants.h` is not part of the sources at hand. It
declares the two sentinels `inf_weight` ("unreachable") and `invalid_id` ("no node");
their values are parameters of the embedding. -/
structure Constants where
  inf_weight : Nat
  invalid_id : Nat
deriving DecidableEq, Repr

/-- Sentinel values used for concrete evaluation: the largest signed 32-bit value for
`inf_weight` and the largest unsigned 32-bit value for `invalid_id`. -/
def stdConstants : Constants := ⟨2147483647, 4294967295⟩

/-- `struct Edge { node_t target; uint32_t weight; }` (graph.h). -/
structure Edge where
  target : Nat
  weight : Nat
deriving DecidableEq, Repr, Inhabited

/-- `struct Path { std::vector<node_t> nodes; uint32_t length; }` (graph.h). -/
structure Path where
  nodes : List Nat
  length : Nat
deriving DecidableEq, Repr

/-- `class Graph` (graph.h): forward and reverse adjacency lists. -/
structure Graph where
  adj_list : List (List Edge)
  rev_adj_list : List (List Edge)
deriving DecidableEq, Repr

namespace Graph

/-- `Graph(uint32_t size)`: both adjacency vectors hold `size` empty lists. -/
def new (size : Nat) : Graph :=
  ⟨List.replicate size [], List.replicate size []⟩

/-- `get_out_arcs(n)` is `adj_list[n]`. -/
def get_out_arcs (g : Graph) (n : Nat) : List Edge := g.adj_list.getD n []

/-- `get_rev_out_arcs(n)` is `rev_adj_list[n]`. -/
def get_rev_out_arcs (g : Graph) (n : Nat) : List Edge := g.rev_adj_list.getD n []

/-- `size()` is `adj_list.size()`. -/
def size (g : Graph) : Nat := g.adj_list.length

/-- The scanning loop of `add_edge` on one list: at the first entry whose target is
`target` the weight is lowered to `weight` when it was larger, and the loop breaks.
`none` when no entry matched (`forward_found` stays false). -/
def lower_first : List Edge → Nat → Nat → Option (List Edge)
  | [], _, _ => none
  | e :: es, target, weight =>
    if e.target = target then
      some ((if e.weight > weight then { e with weight := weight } else e) :: es)
    else
      (lower_first es target weight).map (fun r => e :: r)

/-- One side of `add_edge`: the scanning loop followed by `push_back` when nothing
was found. -/
def add_arc (edges : List Edge) (target weight : Nat) : List Edge :=
  match lower_first edges target weight with
  | some r => r
  | none => edges ++ [⟨target, weight⟩]

/-- Weight stored by `add_edge` for the arc: the smaller of the old and the new weight,
the new weight when the arc was absent. -/
def merged_weight (old : Option Nat) (w : Nat) : Nat :=
  match old with
  | some p => min w p
  | none => w

/-- `void add_edge(node_t source, Edge e)`. -/
def add_edge (g : Graph) (source : Nat) (e : Edge) : Graph :=
  { adj_list := g.adj_list.set source (add_arc (g.adj_list.getD source []) e.target e.weight)
    rev_adj_list :=
      g.rev_adj_list.set e.target (add_arc (g.rev_adj_list.getD e.target []) source e.weight) }

/-- Index of the first entry of `edges` whose target is `v` (the search loops of
`remove_edge`). -/
def find_target : List Edge → Nat → Option Nat
  | [], _ => none
  | e :: es, v => if e.target = v then some 0 else (find_target es v).map Nat.succ

/-- The three statements `buffer = l.back(); l[i] = buffer; l.pop_back();`. -/
def swap_pop (edges : List Edge) (i : Nat) : List Edge :=
  (edges.set i (edges.getLastD default)).dropLast

/-- `bool remove_edge(node_t u, node_t v)`: the graph afterwards and the returned flag. -/
def remove_edge (g : Graph) (u v : Nat) : Graph × Bool :=
  match find_target (g.adj_list.getD u []) v with
  | none => (g, false)
  | some i =>
    let adj := g.adj_list.set u (swap_pop (g.adj_list.getD u []) i)
    match find_target (g.rev_adj_list.getD v []) u with
    | none => (⟨adj, g.rev_adj_list⟩, true)
    | some j => (⟨adj, g.rev_adj_list.set v (swap_pop (g.rev_adj_list.getD v []) j)⟩, true)

/-- The search loop of `get_edge_weight`: weight of the first entry with target `v`. -/
def first_weight : List Edge → Nat → Option Nat
  | [], _ => none
  | e :: es, v => if e.target = v then some e.weight else first_weight es v

/-- `uint32_t get_edge_weight(node_t u, node_t v) const`. -/
def get_edge_weight (c : Constants) (g : Graph) (u v : Nat) : Nat :=
  (first_weight (g.get_out_arcs u) v).getD c.inf_weight

/-- The loops of `change_edge_weight`: the first entry with target `v` gets the new
weight, then the loop breaks. -/
def set_first : List Edge → Nat → Nat → List Edge
  | [], _, _ => []
  | e :: es, v, w => if e.target = v then { e with weight := w } :: es else e :: set_first es v w

/-- `void change_edge_weight(node_t u, node_t v, uint32_t new_weight)`. -/
def change_edge_weight (g : Graph) (u v new_weight : Nat) : Graph :=
  { adj_list := g.adj_list.set u (set_first (g.adj_list.getD u []) v new_weight)
    rev_adj_list := g.rev_adj_list.set v (set_first (g.rev_adj_list.getD v []) u new_weight) }

/-- First loop of `disconnect_node`, with `i + 1` iterations left: the loop index is `i`
and `out_arcs` is a live reference into the graph being changed. -/
def disconnect_out (node : Nat) : Nat → Graph → Graph
  | 0, g => g
  | i + 1, g =>
    disconnect_out node i (g.remove_edge node ((g.get_out_arcs node).getD i default).target).1

/-- Second loop of `disconnect_node`, over the live reference `rev_out_arcs`. -/
def disconnect_in (node : Nat) : Nat → Graph → Graph
  | 0, g => g
  | i + 1, g =>
    disconnect_in node i (g.remove_edge ((g.get_rev_out_arcs node).getD i default).target node).1

/-- `void disconnect_node(node_t node)`. -/
def disconnect_node (g : Graph) (node : Nat) : Graph :=
  let g1 := disconnect_out node (g.get_out_arcs node).length g
  disconnect_in node (g1.get_rev_out_arcs node).length g1

/-- `uint32_t n_edges() const`; the counter is a `uint32_t`. -/
def n_edges (g : Graph) : Nat :=
  g.adj_list.foldl (fun ret l => (ret + l.length) % wrap32) 0

/-- Graph consistency: the two adjacency vectors have one length, every forward entry
has its mirror entry with the same weight and conversely, and no list holds two entries
with one target. -/
def Consistent (g : Graph) : Prop :=
  g.adj_list.length = g.rev_adj_list.length ∧
  (∀ u v w, (⟨v, w⟩ : Edge) ∈ g.get_out_arcs u ↔ (⟨u, w⟩ : Edge) ∈ g.get_rev_out_arcs v) ∧
  (∀ u, ((g.get_out_arcs u).map Edge.target).Nodup) ∧
  (∀ v, ((g.get_rev_out_arcs v).map Edge.target).Nodup)

end Graph

/-- A mutating call on a `Graph`. -/
inductive GraphOp where
  | add_edge (source : Nat) (e : Edge)
  | remove_edge (u v : Nat)
  | change_edge_weight (u v new_weight : Nat)
  | disconnect_node (node : Nat)
deriving DecidableEq, Repr

/-- The node ids of a call are nodes of a graph with `n` nodes. -/
def GraphOp.valid (n : Nat) : GraphOp → Prop
  | .add_edge source e => source < n ∧ e.target < n
  | .remove_edge u v => u < n ∧ v < n
  | .change_edge_weight u v _ => u < n ∧ v < n
  | .disconnect_node node => node < n

/-- Effect of one call. -/
def GraphOp.apply (g : Graph) : GraphOp → Graph
  | .add_edge source e => g.add_edge source e
  | .remove_edge u v => (g.remove_edge u v).1
  | .change_edge_weight u v w => g.change_edge_weight u v w
  | .disconnect_node node => g.disconnect_node node

/-- Effect of a sequence of calls, first call first. -/
def run_ops (g : Graph) (ops : List GraphOp) : Graph := ops.foldl GraphOp.apply g

end PenAstar

namespace PenAstar

/-- Result of a call that contains a loop or an unchecked vector access: the value, or the
reason why the C++ call yields none (an index outside its vector, `pop` on an empty queue,
or a loop that is still running when the fuel is used up). -/
inductive Outcome (α : Type) where
  | ok (a : α)
  | out_of_range
  | empty_pop
  | no_fuel
deriving DecidableEq, Repr

/-! ### TimestampVector (timestamp_vector.h) -/

/-- `class TimestampVector<T>`: entries are pairs (value, stamp); `t` is the epoch. -/
structure TimestampVector where
  vec : List (Nat × Nat)
  default_value : Nat
  t : Nat
deriving DecidableEq, Repr

namespace TimestampVector

/-- `void step_time()`: `t++` on a `uint32_t`. -/
def step_time (v : TimestampVector) : TimestampVector :=
  { v with t := (v.t + 1) % wrap32 }

/-- Constructor: `size` value-initialised pairs, `t = 0`, then `step_time()`. -/
def new (size default_value : Nat) : TimestampVector :=
  step_time ⟨List.replicate size (0, 0), default_value, 0⟩

/-- `void set(uint32_t index, T value)`. -/
def set (v : TimestampVector) (index value : Nat) : TimestampVector :=
  { v with vec := v.vec.set index (value, v.t) }

/-- `const uint32_t get(uint32_t index)`. -/
def get (v : TimestampVector) (index : Nat) : Nat :=
  if (v.vec.getD index (0, 0)).2 ≠ v.t then v.default_value else (v.vec.getD index (0, 0)).1

/-- `bool has(uint32_t index)`. -/
def has (v : TimestampVector) (index : Nat) : Bool :=
  (v.vec.getD index (0, 0)).2 = v.t

end TimestampVector

/-! ### MinIDQueue (base/id_queue.h) -/

/-- `struct IDKeyPair { unsigned id; unsigned key; }`. -/
structure IDKeyPair where
  id : Nat
  key : Nat
deriving DecidableEq, Repr

/-- Modelled from the spec: `base/id_queue.h` (class `MinIDQueue`) is not part of the sources
at hand. The spec describes an addressable min-priority queue with at most one entry per
id and leaves the order among equal keys open; the model keeps the entries in insertion
order and `pop` takes the first entry of least key. -/
structure MinIDQueue where
  entries : List IDKeyPair
deriving DecidableEq, Repr

namespace MinIDQueue

/-- `MinIDQueue(unsigned id_count)`: the empty queue. -/
def new (_id_count : Nat) : MinIDQueue := ⟨[]⟩

/-- `bool empty() const`. -/
def empty (q : MinIDQueue) : Bool := q.entries.isEmpty

/-- `bool contains_id(unsigned id)`. -/
def contains_id (q : MinIDQueue) (id : Nat) : Bool := q.entries.any (fun p => decide (p.id = id))

/-- `void push(IDKeyPair p)`. -/
def push (q : MinIDQueue) (p : IDKeyPair) : MinIDQueue := ⟨q.entries ++ [p]⟩

/-- `void decrease_key(IDKeyPair p)`: the entry of `p.id` gets the key `p.key`. -/
def decrease_key (q : MinIDQueue) (p : IDKeyPair) : MinIDQueue :=
  ⟨q.entries.map (fun x => if x.id = p.id then p else x)⟩

/-- `unsigned get_key(unsigned id) const`: key of the entry of `id` (0 when absent). -/
def get_key (q : MinIDQueue) (id : Nat) : Nat :=
  match q.entries.find? (fun p => decide (p.id = id)) with
  | some p => p.key
  | none => 0

/-- First entry of least key. -/
def min_entry : List IDKeyPair → Option IDKeyPair
  | [] => none
  | p :: ps =>
    match min_entry ps with
    | none => some p
    | some m => if p.key ≤ m.key then some p else some m

/-- `IDKeyPair peek() const`. -/
def peek (q : MinIDQueue) : Option IDKeyPair := min_entry q.entries

/-- `IDKeyPair pop()`: the entry of least key and the queue without it; `none` on an empty
queue. -/
def pop (q : MinIDQueue) : Option (IDKeyPair × MinIDQueue) :=
  match min_entry q.entries with
  | none => none
  | some m => some (m, ⟨q.entries.filter (fun p => decide (p.id ≠ m.id))⟩)

/-- `void clear()`. -/
def clear (_q : MinIDQueue) : MinIDQueue := ⟨[]⟩

end MinIDQueue

/-! ### DijkstraService (dijkstra.h) -/

/-- `class DijkstraService`; the field `g` is the graph the reference points to. -/
structure DijkstraService where
  g : Graph
  dist_vec : TimestampVector
  parent_vec : TimestampVector
  queue : MinIDQueue
  blacklisted : Nat
  max_dist : Nat
  search_space : List Nat
deriving DecidableEq, Repr

namespace DijkstraService

/-- Constructor `DijkstraService(const Graph& _g)`. -/
def new (c : Constants) (g : Graph) : DijkstraService :=
  { g := g
    dist_vec := TimestampVector.new g.size c.inf_weight
    parent_vec := TimestampVector.new g.size c.invalid_id
    queue := MinIDQueue.new g.size
    blacklisted := c.invalid_id
    max_dist := c.inf_weight
    search_space := [] }

/-- `void set_source(node_t source)`. -/
def set_source (c : Constants) (s : DijkstraService) (source : Nat) : DijkstraService :=
  { s with
    dist_vec := s.dist_vec.set source 0
    parent_vec := s.parent_vec.set source c.invalid_id
    queue := s.queue.push ⟨source, 0⟩ }

/-- `void set_blacklisted(node_t n)`. -/
def set_blacklisted (s : DijkstraService) (n : Nat) : DijkstraService :=
  { s with blacklisted := n }

/-- `void set_max_dist(uint32_t dist)`. -/
def set_max_dist (s : DijkstraService) (dist : Nat) : DijkstraService :=
  { s with max_dist := dist }

/-- Body of the loop of `step` for one arc `e` of the popped node `best`. -/
def relax (s : DijkstraService) (best : Nat) (e : Edge) : DijkstraService :=
  if e.target = s.blacklisted then s
  else if (s.dist_vec.get best + e.weight) % wrap32 < s.dist_vec.get e.target then
    let dist_vec := s.dist_vec.set e.target ((s.dist_vec.get best + e.weight) % wrap32)
    let parent_vec := s.parent_vec.set e.target best
    { s with
      dist_vec := dist_vec
      parent_vec := parent_vec
      queue :=
        if ¬ s.queue.contains_id e.target then s.queue.push ⟨e.target, dist_vec.get e.target⟩
        else s.queue.decrease_key ⟨e.target, dist_vec.get e.target⟩ }
  else s

/-- `node_t step()`: the popped node and the state afterwards; `none` when the queue is
empty. -/
def step (s : DijkstraService) : Option (Nat × DijkstraService) :=
  match s.queue.pop with
  | none => none
  | some (p, q) =>
    some (p.id, (s.g.get_out_arcs p.id).foldl (fun st e => relax st p.id e)
      { s with queue := q, search_space := s.search_space ++ [p.id] })

/-- `bool is_settled(node_t n)`. -/
def is_settled (s : DijkstraService) (n : Nat) : Bool :=
  s.dist_vec.has n && ! s.queue.contains_id n

/-- The `while ((cur = step()) != target)` loop of `run_until_target_found`. -/
def run_until_target_found_loop (target : Nat) : Nat → DijkstraService → Outcome DijkstraService
  | 0, _ => Outcome.no_fuel
  | fuel + 1, s =>
    match s.step with
    | none => Outcome.empty_pop
    | some (cur, s1) =>
      if cur = target then Outcome.ok s1
      else if s1.queue.empty || decide (s1.dist_vec.get cur ≥ s1.max_dist) then Outcome.ok s1
      else run_until_target_found_loop target fuel s1

/-- `void run_until_target_found(node_t target)`. -/
def run_until_target_found (fuel : Nat) (s : DijkstraService) (target : Nat) :
    Outcome DijkstraService :=
  if s.is_settled target || s.queue.empty then Outcome.ok s
  else run_until_target_found_loop target fuel s

/-- `void run_until_done()`. -/
def run_until_done : Nat → DijkstraService → Outcome DijkstraService
  | 0, _ => Outcome.no_fuel
  | fuel + 1, s =>
    if s.queue.empty then Outcome.ok s
    else
      match s.step with
      | none => Outcome.empty_pop
      | some (_, s1) => run_until_done fuel s1

/-- `uint32_t get_dist(node_t n)`. -/
def get_dist (s : DijkstraService) (n : Nat) : Nat := s.dist_vec.get n

/-- The `while (target != invalid_id)` loop of `get_path`; `path` is built by `push_back`. -/
def get_path_loop (c : Constants) (s : DijkstraService) :
    Nat → Nat → List Nat → Outcome (List Nat)
  | 0, _, _ => Outcome.no_fuel
  | fuel + 1, target, path =>
    if target = c.invalid_id then Outcome.ok path
    else if target < s.parent_vec.vec.length then
      get_path_loop c s fuel (s.parent_vec.get target) (path ++ [target])
    else Outcome.out_of_range

/-- `Path get_path(node_t target)`. -/
def get_path (c : Constants) (fuel : Nat) (s : DijkstraService) (target : Nat) : Outcome Path :=
  if target < s.dist_vec.vec.length then
    if s.get_dist target = c.inf_weight then Outcome.ok ⟨[], s.get_dist target⟩
    else
      match get_path_loop c s fuel target [] with
      | Outcome.ok path => Outcome.ok ⟨path.reverse, s.get_dist target⟩
      | Outcome.out_of_range => Outcome.out_of_range
      | Outcome.empty_pop => Outcome.empty_pop
      | Outcome.no_fuel => Outcome.no_fuel
  else Outcome.out_of_range

/-- `const std::vector<node_t>& get_search_space()`. -/
def get_search_space (s : DijkstraService) : List Nat := s.search_space

/-- `void finish()`. -/
def finish (c : Constants) (s : DijkstraService) : DijkstraService :=
  { s with
    dist_vec := s.dist_vec.step_time
    queue := s.queue.clear
    search_space := []
    blacklisted := c.invalid_id
    max_dist := c.inf_weight }

end DijkstraService

/-! ### Walks and distances (specification side) -/

/-- `Walk A s n d`: there is a walk from `s` to `n` of total weight `d` along arcs allowed
by `A` (`A u e`: the arc `e` leaves `u`). -/
inductive Walk (A : Nat → Edge → Prop) (s : Nat) : Nat → Nat → Prop where
  | nil : Walk A s s 0
  | snoc {u d : Nat} (e : Edge) : Walk A s u d → A u e → Walk A s e.target (d + e.weight)

/-- The arcs of a graph: `e` is stored in `get_out_arcs(u)`. -/
def Graph.arc (g : Graph) (u : Nat) (e : Edge) : Prop := e ∈ g.get_out_arcs u

/-- `n` can be reached from `s` in `g`. -/
def Reachable (g : Graph) (s n : Nat) : Prop := ∃ d, Walk g.arc s n d

/-- `d` is the least total weight of a walk from `s` to `n` in `g`. -/
def IsDist (g : Graph) (s n d : Nat) : Prop :=
  Walk g.arc s n d ∧ ∀ d', Walk g.arc s n d' → d ≤ d'

/-- Every stored arc of `g` leads to a node of `g`. -/
def Graph.TargetsValid (g : Graph) : Prop :=
  ∀ u, ∀ e ∈ g.get_out_arcs u, e.target < g.size

/-- Relaxing an arc out of a node at its shortest distance below `inf_weight` does not
wrap round `2 ^ 32`. -/
def NoWrapFrom (c : Constants) (g : Graph) (s : Nat) : Prop :=
  ∀ u d, IsDist g s u d → d < c.inf_weight → ∀ e ∈ g.get_out_arcs u, d + e.weight < wrap32

/-- `IsPath g nodes d`: consecutive nodes of the non-empty list `nodes` are joined by arcs
of `g` whose weights sum to `d`. -/
inductive IsPath (g : Graph) : List Nat → Nat → Prop where
  | single (u : Nat) : IsPath g [u] 0
  | cons {u : Nat} {rest : List Nat} {d : Nat} (e : Edge) :
      e ∈ g.get_out_arcs u → IsPath g (e.target :: rest) d →
      IsPath g (u :: e.target :: rest) (e.weight + d)

/-- The triangle of scenario S1: arcs 0→1 (3), 1→2 (4), 0→2 (10). -/
def triangle : Graph :=
  (((Graph.new 3).add_edge 0 ⟨1, 3⟩).add_edge 1 ⟨2, 4⟩).add_edge 0 ⟨2, 10⟩

end PenAstar

namespace PenAstar

/-- The arcs a search with blacklisted node `bl` may use: stored arcs whose target is not
`bl`. -/
def Graph.arc_avoiding (g : Graph) (bl : Nat) (u : Nat) (e : Edge) : Prop :=
  e ∈ g.get_out_arcs u ∧ e.target ≠ bl

namespace DijkstraService

/-- Soundness invariant of a search from `src` on `g` with blacklisted node `bl`: every
distance entry of the current epoch is below `inf_weight` and is the weight of a walk
from `src`, and queued nodes have an entry. -/
structure Sound (c : Constants) (g : Graph) (bl src : Nat) (s : DijkstraService) : Prop where
  hg : s.g = g
  hbl : s.blacklisted = bl
  hlen : s.dist_vec.vec.length = g.size
  hplen : s.parent_vec.vec.length = g.size
  hdef : s.dist_vec.default_value = c.inf_weight
  hval : ∀ x, s.dist_vec.has x = true →
    x < g.size ∧ s.dist_vec.get x < c.inf_weight ∧
      Walk (g.arc_avoiding bl) src x (s.dist_vec.get x)
  hq : ∀ p ∈ s.queue.entries, s.dist_vec.has p.id = true

/-- Full invariant of a search that never stops early. `best` is the node whose arcs are
being relaxed and `pending` the arcs of `best` still to be relaxed (`pending = []` between
two calls of `step`). -/
structure Exact (c : Constants) (g : Graph) (bl src : Nat) (best : Nat) (pending : List Edge)
    (s : DijkstraService) : Prop where
  sound : Sound c g bl src s
  hqn : (s.queue.entries.map IDKeyPair.id).Nodup
  hqk : ∀ p ∈ s.queue.entries, p.key = s.dist_vec.get p.id
  hS : ∀ x ∈ s.search_space, s.dist_vec.has x = true ∧ s.queue.contains_id x = false ∧
    ∀ d', Walk (g.arc_avoiding bl) src x d' → s.dist_vec.get x ≤ d'
  hSn : s.search_space.Nodup
  hcov : ∀ x, s.dist_vec.has x = true → x ∈ s.search_space ∨ s.queue.contains_id x = true
  hrel : ∀ u ∈ s.search_space, ∀ e, g.arc_avoiding bl u e →
    (u = best ∧ e ∈ pending) ∨ s.dist_vec.get e.target ≤ s.dist_vec.get u + e.weight
  hmono : ∀ u ∈ s.search_space, ∀ p ∈ s.queue.entries, s.dist_vec.get u ≤ p.key
  hsrc : s.dist_vec.has src = true ∧ s.dist_vec.get src = 0 ∧
    s.parent_vec.get src = c.invalid_id
  hpend : ∀ e ∈ pending, e ∈ g.get_out_arcs best ∧ s.dist_vec.get best + e.weight < wrap32
  hbest : pending ≠ [] →
    best ∈ s.search_space ∧ ∀ u ∈ s.search_space, s.dist_vec.get u ≤ s.dist_vec.get best
  hpar : ∀ x, s.dist_vec.has x = true → x ≠ src →
    s.parent_vec.get x ∈ s.search_space ∧
    (x ∈ s.search_space →
      s.search_space.indexOf (s.parent_vec.get x) < s.search_space.indexOf x) ∧
    ∃ e, e ∈ g.get_out_arcs (s.parent_vec.get x) ∧ e.target = x ∧
      s.dist_vec.get x = s.dist_vec.get (s.parent_vec.get x) + e.weight

end DijkstraService

end PenAstar

namespace PenAstar

/-! ### BoolSet (boolset.h) -/

/-- `class BoolSet`. -/
structure BoolSet where
  vec : List Bool
  delete_list : List Nat
deriving DecidableEq, Repr

namespace BoolSet

/-- `BoolSet(uint32_t size)`. -/
def new (size : Nat) : BoolSet := ⟨List.replicate size false, []⟩

/-- `void set(node_t id)`. -/
def set (b : BoolSet) (id : Nat) : BoolSet :=
  ⟨b.vec.set id true, b.delete_list ++ [id]⟩

/-- `bool has(node_t id) const`. -/
def has (b : BoolSet) (id : Nat) : Bool := b.vec.getD id false

/-- `void clear()`: the ids of `delete_list` are reset from the back. -/
def clear (b : BoolSet) : BoolSet :=
  ⟨b.delete_list.reverse.foldl (fun v id => v.set id false) b.vec, []⟩

/-- `uint32_t size() const`: the length of `delete_list`. -/
def size (b : BoolSet) : Nat := b.delete_list.length % wrap32

end BoolSet

/-! ### Contraction (util.h, contraction.h) -/

/-- `order_to_ranking` (util.h): `ret[order[i]] = i` for `i = 0 .. order.size() - 1`. -/
def order_to_ranking (order : List Nat) : List Nat :=
  (List.range order.length).foldl (fun ret i => ret.set (order.getD i 0) i)
    (List.replicate order.length 0)

/-- Body of the inner loop of `split_graph` and of the split in
`contract_node_and_split`: the arc `n → e.target` goes to the forward graph when
`ranking[n] < ranking[e.target]`, else reversed to the backward graph. -/
def split_add (ranking : List Nat) (fb : Graph × Graph) (n : Nat) (e : Edge) : Graph × Graph :=
  if ranking.getD n 0 < ranking.getD e.target 0 then (fb.1.add_edge n e, fb.2)
  else (fb.1, fb.2.add_edge e.target ⟨n, e.weight⟩)

/-- `split_graph` (util.h). -/
def split_graph (ch : Graph) (ranking : List Nat) : Graph × Graph :=
  (List.range ch.size).foldl
    (fun fb n => (ch.get_out_arcs n).foldl (fun fb2 e => split_add ranking fb2 n e) fb)
    (Graph.new ch.size, Graph.new ch.size)

/-- `struct ContractionHierarchy`. -/
structure ContractionHierarchy where
  forward_graph : Graph
  backward_graph : Graph
  ranking : List Nat
deriving DecidableEq, Repr

/-- Inner loop of `get_contraction_shortcuts` for the in-arc `r` (from `r.target` into
`node`): one witness search per out-arc `o`. `acc` is `shortcut_list`. -/
def shortcuts_inner (fuel : Nat) (r : Edge) :
    List Edge → DijkstraService → List (Nat × Edge) → Outcome (DijkstraService × List (Nat × Edge))
  | [], ds, acc => Outcome.ok (ds, acc)
  | o :: os, ds, acc =>
    match (ds.set_max_dist ((r.weight + o.weight) % wrap32)).run_until_target_found fuel o.target with
    | Outcome.ok ds1 =>
      if ds1.get_dist o.target > (r.weight + o.weight) % wrap32 then
        shortcuts_inner fuel r os ds1 (acc ++ [(r.target, ⟨o.target, (r.weight + o.weight) % wrap32⟩)])
      else shortcuts_inner fuel r os ds1 acc
    | Outcome.out_of_range => Outcome.out_of_range
    | Outcome.empty_pop => Outcome.empty_pop
    | Outcome.no_fuel => Outcome.no_fuel

/-- Outer loop of `get_contraction_shortcuts` over the in-arcs of `node`. -/
def shortcuts_outer (c : Constants) (fuel : Nat) (node : Nat) (out_arcs : List Edge) :
    List Edge → DijkstraService → List (Nat × Edge) → Outcome (DijkstraService × List (Nat × Edge))
  | [], ds, acc => Outcome.ok (ds, acc)
  | r :: rs, ds, acc =>
    match shortcuts_inner fuel r out_arcs ((ds.set_blacklisted node).set_source c r.target) acc with
    | Outcome.ok (ds1, acc1) => shortcuts_outer c fuel node out_arcs rs (ds1.finish c) acc1
    | Outcome.out_of_range => Outcome.out_of_range
    | Outcome.empty_pop => Outcome.empty_pop
    | Outcome.no_fuel => Outcome.no_fuel

/-- `get_contraction_shortcuts(g, node, dijkstra_service)`. The service holds a reference
to the graph object `g`, so its field `g` is the current graph. The result is the service
afterwards and the contents of `shortcut_list`. -/
def get_contraction_shortcuts (c : Constants) (fuel : Nat) (g : Graph) (node : Nat)
    (ds : DijkstraService) : Outcome (DijkstraService × List (Nat × Edge)) :=
  shortcuts_outer c fuel node (g.get_out_arcs node) (g.get_rev_out_arcs node)
    { ds with g := g } []

/-- State threaded through `contract_graph`: the working graph, the two output graphs and
the witness-search service. -/
structure ContractState where
  g : Graph
  forward_graph : Graph
  backward_graph : Graph
  ds : DijkstraService
deriving DecidableEq, Repr

/-- Loop of `contract_node_and_split` over the shortcuts: `g.add_edge` and the split. -/
def add_shortcuts_split (ranking : List Nat) (st : ContractState) :
    List (Nat × Edge) → ContractState
  | [] => st
  | sc :: rest =>
    let fb := split_add ranking (st.forward_graph, st.backward_graph) sc.1 sc.2
    add_shortcuts_split ranking
      { st with g := st.g.add_edge sc.1 sc.2, forward_graph := fb.1, backward_graph := fb.2 } rest

/-- `contract_node_and_split`. -/
def contract_node_and_split (c : Constants) (fuel : Nat) (ranking : List Nat)
    (st : ContractState) (node : Nat) : Outcome ContractState :=
  match get_contraction_shortcuts c fuel st.g node st.ds with
  | Outcome.ok (ds1, shortcuts) =>
    let st1 := add_shortcuts_split ranking { st with ds := ds1 } shortcuts
    Outcome.ok { st1 with g := st1.g.disconnect_node node }
  | Outcome.out_of_range => Outcome.out_of_range
  | Outcome.empty_pop => Outcome.empty_pop
  | Outcome.no_fuel => Outcome.no_fuel

/-- The loop of `contract_graph` over `order`. -/
def contract_loop (c : Constants) (fuel : Nat) (ranking : List Nat) :
    List Nat → ContractState → Outcome ContractState
  | [], st => Outcome.ok st
  | node :: rest, st =>
    match contract_node_and_split c fuel ranking st node with
    | Outcome.ok st1 => contract_loop c fuel ranking rest st1
    | Outcome.out_of_range => Outcome.out_of_range
    | Outcome.empty_pop => Outcome.empty_pop
    | Outcome.no_fuel => Outcome.no_fuel

/-- `contract_graph(g, order)`; `fuel` bounds each witness search. -/
def contract_graph (c : Constants) (fuel : Nat) (g : Graph) (order : List Nat) :
    Outcome ContractionHierarchy :=
  let ranking := order_to_ranking order
  let g_split := split_graph g ranking
  match contract_loop c fuel ranking order ⟨g, g_split.1, g_split.2, DijkstraService.new c g⟩ with
  | Outcome.ok st => Outcome.ok ⟨st.forward_graph, st.backward_graph, ranking⟩
  | Outcome.out_of_range => Outcome.out_of_range
  | Outcome.empty_pop => Outcome.empty_pop
  | Outcome.no_fuel => Outcome.no_fuel

/-- The double loop of `dijkstra_on_ch` over the two search spaces: `(best_dist,
best_node)` after all pairs. -/
def best_meet (fs bs : DijkstraService) (init : Nat × Nat) : Nat × Nat :=
  fs.search_space.foldl
    (fun acc x =>
      bs.search_space.foldl
        (fun acc2 y =>
          if x = y then
            if (fs.get_dist x + bs.get_dist y) % wrap32 < acc2.1 then
              ((fs.get_dist x + bs.get_dist y) % wrap32, x)
            else acc2
          else acc2)
        acc)
    init

/-- `dijkstra_on_ch(start, end, forward_service, backward_service, graph_size,
calculate_path)`. -/
def dijkstra_on_ch (c : Constants) (fuel : Nat) (start end_ : Nat)
    (forward_service backward_service : DijkstraService) (calculate_path : Bool) :
    Outcome Path :=
  match (forward_service.set_source c start).run_until_done fuel with
  | Outcome.ok fs =>
    match (backward_service.set_source c end_).run_until_done fuel with
    | Outcome.ok bs =>
      let best := best_meet fs bs (c.inf_weight, c.invalid_id)
      if calculate_path then
        match fs.get_path c fuel best.2 with
        | Outcome.ok fp =>
          match bs.get_path c fuel best.2 with
          | Outcome.ok bp => Outcome.ok ⟨fp.nodes ++ bp.nodes.reverse.drop 1, best.1⟩
          | Outcome.out_of_range => Outcome.out_of_range
          | Outcome.empty_pop => Outcome.empty_pop
          | Outcome.no_fuel => Outcome.no_fuel
        | Outcome.out_of_range => Outcome.out_of_range
        | Outcome.empty_pop => Outcome.empty_pop
        | Outcome.no_fuel => Outcome.no_fuel
      else Outcome.ok ⟨[], best.1⟩
    | Outcome.out_of_range => Outcome.out_of_range
    | Outcome.empty_pop => Outcome.empty_pop
    | Outcome.no_fuel => Outcome.no_fuel
  | Outcome.out_of_range => Outcome.out_of_range
  | Outcome.empty_pop => Outcome.empty_pop
  | Outcome.no_fuel => Outcome.no_fuel

/-- The CH query of the claim: `contract_graph` on a copy of `g`, then `dijkstra_on_ch` with
two fresh services on the forward and the backward graph (`calculate_path` at its default
`true`). -/
def ch_query (c : Constants) (fuel : Nat) (g : Graph) (order : List Nat) (s t : Nat) :
    Outcome Path :=
  match contract_graph c fuel g order with
  | Outcome.ok ch =>
    dijkstra_on_ch c fuel s t (DijkstraService.new c ch.forward_graph)
      (DijkstraService.new c ch.backward_graph) true
  | Outcome.out_of_range => Outcome.out_of_range
  | Outcome.empty_pop => Outcome.empty_pop
  | Outcome.no_fuel => Outcome.no_fuel

/-- The square of scenario S5: arcs 0→1 (2), 1→3 (2), 0→2 (5), 2→3 (1). -/
def square : Graph :=
  ((((Graph.new 4).add_edge 0 ⟨1, 2⟩).add_edge 1 ⟨3, 2⟩).add_edge 0 ⟨2, 5⟩).add_edge 2 ⟨3, 1⟩

/-! ### CHPotentialService (potentials.h) -/

/-- `class CHPotentialService`. -/
structure CHPotentialService where
  forward_graph : Graph
  backward_graph : Graph
  backward_search : DijkstraService
  potentials : TimestampVector
  target : Nat
deriving DecidableEq, Repr

namespace CHPotentialService

/-- Constructor `CHPotentialService(const ContractionHierarchy& ch)`. -/
def new (c : Constants) (ch : ContractionHierarchy) : CHPotentialService :=
  { forward_graph := ch.forward_graph
    backward_graph := ch.backward_graph
    backward_search := DijkstraService.new c ch.backward_graph
    potentials := TimestampVector.new ch.backward_graph.size c.inf_weight
    target := c.invalid_id }

/-- The loop of `get_potential` over the up-arcs of `node`; `rec` is the recursive call
`get_potential(up_arcs[i].target)`, evaluated before `potentials.get(node)` is read. -/
def get_potential_arcs (rec : CHPotentialService → Nat → Outcome (Nat × CHPotentialService))
    (node : Nat) : List Edge → CHPotentialService → Outcome CHPotentialService
  | [], s => Outcome.ok s
  | e :: es, s =>
    match rec s e.target with
    | Outcome.ok (p, s1) =>
      get_potential_arcs rec node es
        { s1 with potentials :=
            s1.potentials.set node (min (s1.potentials.get node) ((p + e.weight) % wrap32)) }
    | Outcome.out_of_range => Outcome.out_of_range
    | Outcome.empty_pop => Outcome.empty_pop
    | Outcome.no_fuel => Outcome.no_fuel

/-- `uint32_t get_potential(node_t node)`: the memoised recursion over the up-arcs; `fuel`
bounds the recursion depth. -/
def get_potential : Nat → CHPotentialService → Nat → Outcome (Nat × CHPotentialService)
  | 0, _, _ => Outcome.no_fuel
  | fuel + 1, s, node =>
    if ¬ s.potentials.has node then
      match get_potential_arcs (get_potential fuel) node (s.forward_graph.get_out_arcs node)
          { s with potentials := s.potentials.set node (s.backward_search.get_dist node) } with
      | Outcome.ok s1 => Outcome.ok (s1.potentials.get node, s1)
      | Outcome.out_of_range => Outcome.out_of_range
      | Outcome.empty_pop => Outcome.empty_pop
      | Outcome.no_fuel => Outcome.no_fuel
    else Outcome.ok (s.potentials.get node, s)

/-- `void set_target(node_t _target)`. -/
def set_target (c : Constants) (fuel : Nat) (s : CHPotentialService) (target : Nat) :
    Outcome CHPotentialService :=
  match ((s.backward_search.finish c).set_source c target).run_until_done fuel with
  | Outcome.ok bs =>
    Outcome.ok { s with backward_search := bs, potentials := s.potentials.step_time,
                        target := target }
  | Outcome.out_of_range => Outcome.out_of_range
  | Outcome.empty_pop => Outcome.empty_pop
  | Outcome.no_fuel => Outcome.no_fuel

end CHPotentialService

end PenAstar

namespace PenAstar

/-! ### AStarService (astar.h) with a `CHPotentialService` as heuristic -/

/-- `class AStarService`. The heuristic provider is held by reference; the field `heur` is
the provider's current state (its memo table changes with every call). -/
structure AStarService where
  g : Graph
  heur : CHPotentialService
  closed_list : List Nat
  dist_vec : TimestampVector
  prev_vec : TimestampVector
  queue : MinIDQueue
  max_dist : Nat
deriving DecidableEq, Repr

namespace AStarService

/-- Constructor: both vectors get one extra `step_time()`. -/
def new (c : Constants) (g : Graph) (heur : CHPotentialService) : AStarService :=
  { g := g
    heur := heur
    closed_list := []
    dist_vec := (TimestampVector.new g.size c.inf_weight).step_time
    prev_vec := (TimestampVector.new g.size c.invalid_id).step_time
    queue := MinIDQueue.new g.size
    max_dist := c.inf_weight }

/-- `void add_source(node_t n)`. -/
def add_source (c : Constants) (fuel : Nat) (a : AStarService) (n : Nat) : Outcome AStarService :=
  match a.heur.get_potential fuel n with
  | Outcome.ok (h, heur1) =>
    Outcome.ok { a with
      heur := heur1
      queue := a.queue.push ⟨n, h⟩
      dist_vec := a.dist_vec.set n 0
      prev_vec := a.prev_vec.set n c.invalid_id }
  | Outcome.out_of_range => Outcome.out_of_range
  | Outcome.empty_pop => Outcome.empty_pop
  | Outcome.no_fuel => Outcome.no_fuel

/-- `uint32_t get_dist(node_t n)`. -/
def get_dist (a : AStarService) (n : Nat) : Nat := a.dist_vec.get n

/-- Body of the loop of `step` for one arc of the popped node `best`. -/
def relax (fuel : Nat) (a : AStarService) (best : Nat) (arc : Edge) : Outcome AStarService :=
  if arc.target ∈ a.closed_list then Outcome.ok a
  else
    let tentative_g := (a.dist_vec.get best + arc.weight) % wrap32
    if a.queue.contains_id arc.target ∧ tentative_g ≥ a.dist_vec.get arc.target then Outcome.ok a
    else
      let a1 := { a with
        prev_vec := a.prev_vec.set arc.target best
        dist_vec := a.dist_vec.set arc.target tentative_g }
      match a1.heur.get_potential fuel arc.target with
      | Outcome.ok (h, heur1) =>
        let a2 := { a1 with heur := heur1 }
        let f := (tentative_g + h) % wrap32
        if f > a2.max_dist then Outcome.ok a2
        else if a2.queue.contains_id arc.target then
          if f < a2.queue.get_key arc.target then
            Outcome.ok { a2 with queue := a2.queue.decrease_key ⟨arc.target, f⟩ }
          else Outcome.ok a2
        else Outcome.ok { a2 with queue := a2.queue.push ⟨arc.target, f⟩ }
      | Outcome.out_of_range => Outcome.out_of_range
      | Outcome.empty_pop => Outcome.empty_pop
      | Outcome.no_fuel => Outcome.no_fuel

/-- The loop of `step` over the arcs of the popped node. -/
def relax_all (fuel : Nat) (best : Nat) : List Edge → AStarService → Outcome AStarService
  | [], a => Outcome.ok a
  | arc :: rest, a =>
    match relax fuel a best arc with
    | Outcome.ok a1 => relax_all fuel best rest a1
    | Outcome.out_of_range => Outcome.out_of_range
    | Outcome.empty_pop => Outcome.empty_pop
    | Outcome.no_fuel => Outcome.no_fuel

/-- `node_t step()`. -/
def step (fuel : Nat) (a : AStarService) : Outcome (Nat × AStarService) :=
  match a.queue.pop with
  | none => Outcome.empty_pop
  | some (best, q) =>
    match relax_all fuel best.id (a.g.get_out_arcs best.id) { a with queue := q } with
    | Outcome.ok a1 => Outcome.ok (best.id, a1)
    | Outcome.out_of_range => Outcome.out_of_range
    | Outcome.empty_pop => Outcome.empty_pop
    | Outcome.no_fuel => Outcome.no_fuel

/-- The `while (!queue.empty())` loop of `run_until_target_found`. -/
def run_loop (target : Nat) (hfuel : Nat) : Nat → AStarService → Outcome AStarService
  | 0, _ => Outcome.no_fuel
  | fuel + 1, a =>
    if a.queue.empty then Outcome.ok a
    else
      match step hfuel a with
      | Outcome.ok (current_node, a1) =>
        if current_node = target then Outcome.ok a1
        else run_loop target hfuel fuel
          { a1 with closed_list :=
              if current_node ∈ a1.closed_list then a1.closed_list
              else a1.closed_list ++ [current_node] }
      | Outcome.out_of_range => Outcome.out_of_range
      | Outcome.empty_pop => Outcome.empty_pop
      | Outcome.no_fuel => Outcome.no_fuel

/-- `void run_until_target_found(node_t target)` (the logging call is left out). -/
def run_until_target_found (fuel : Nat) (a : AStarService) (target : Nat) : Outcome AStarService :=
  if target ∈ a.closed_list ∨ a.queue.empty then Outcome.ok a
  else run_loop target fuel fuel a

end AStarService

/-- The sequence of `test_potentials` as the claim orders it: contract a copy of `g`, build
the potential service and the A* service, `set_target(t)`, `add_source(s)`,
`run_until_target_found(t)`, and read `get_dist(t)`. -/
def astar_query (c : Constants) (fuel : Nat) (g : Graph) (order : List Nat) (s t : Nat) :
    Outcome Nat :=
  match contract_graph c fuel g order with
  | Outcome.ok ch =>
    match (CHPotentialService.new c ch).set_target c fuel t with
    | Outcome.ok pot =>
      match (AStarService.new c g pot).add_source c fuel s with
      | Outcome.ok a =>
        match a.run_until_target_found fuel t with
        | Outcome.ok a1 => Outcome.ok (a1.get_dist t)
        | Outcome.out_of_range => Outcome.out_of_range
        | Outcome.empty_pop => Outcome.empty_pop
        | Outcome.no_fuel => Outcome.no_fuel
      | Outcome.out_of_range => Outcome.out_of_range
      | Outcome.empty_pop => Outcome.empty_pop
      | Outcome.no_fuel => Outcome.no_fuel
    | Outcome.out_of_range => Outcome.out_of_range
    | Outcome.empty_pop => Outcome.empty_pop
    | Outcome.no_fuel => Outcome.no_fuel
  | Outcome.out_of_range => Outcome.out_of_range
  | Outcome.empty_pop => Outcome.empty_pop
  | Outcome.no_fuel => Outcome.no_fuel

/-- Distance computed by a plain Dijkstra run: `set_source(s)`, `run_until_done()`,
`get_dist(t)`. -/
def dijkstra_query (c : Constants) (fuel : Nat) (g : Graph) (s t : Nat) : Outcome Nat :=
  match ((DijkstraService.new c g).set_source c s).run_until_done fuel with
  | Outcome.ok st => Outcome.ok (st.get_dist t)
  | Outcome.out_of_range => Outcome.out_of_range
  | Outcome.empty_pop => Outcome.empty_pop
  | Outcome.no_fuel => Outcome.no_fuel

/-- A two-node graph with the arc 0→1 of weight 3 and a loop 1→1 of weight 5. -/
def loop_graph : Graph := ((Graph.new 2).add_edge 0 ⟨1, 3⟩).add_edge 1 ⟨1, 5⟩

end PenAstar

namespace PenAstar

/-! ### ReverseCHPotentialService (potentials.h) -/

/-- `class ReverseCHPotentialService`. -/
structure ReverseCHPotentialService where
  ch : ContractionHierarchy
  forward_search : DijkstraService
  potentials : TimestampVector
  target : Nat
deriving DecidableEq, Repr

namespace ReverseCHPotentialService

/-- Constructor `ReverseCHPotentialService(const ContractionHierarchy& ch)`. -/
def new (c : Constants) (ch : ContractionHierarchy) : ReverseCHPotentialService :=
  { ch := ch
    forward_search := DijkstraService.new c ch.forward_graph
    potentials := TimestampVector.new ch.backward_graph.size c.inf_weight
    target := c.invalid_id }

/-- The loop of `get_potential` over the up-arcs of `node` (arcs of the backward graph). -/
def get_potential_arcs
    (rec : ReverseCHPotentialService → Nat → Outcome (Nat × ReverseCHPotentialService))
    (node : Nat) : List Edge → ReverseCHPotentialService → Outcome ReverseCHPotentialService
  | [], s => Outcome.ok s
  | e :: es, s =>
    match rec s e.target with
    | Outcome.ok (p, s1) =>
      get_potential_arcs rec node es
        { s1 with potentials :=
            s1.potentials.set node (min (s1.potentials.get node) ((p + e.weight) % wrap32)) }
    | Outcome.out_of_range => Outcome.out_of_range
    | Outcome.empty_pop => Outcome.empty_pop
    | Outcome.no_fuel => Outcome.no_fuel

/-- `uint32_t get_potential(node_t node)`. -/
def get_potential :
    Nat → ReverseCHPotentialService → Nat → Outcome (Nat × ReverseCHPotentialService)
  | 0, _, _ => Outcome.no_fuel
  | fuel + 1, s, node =>
    if ¬ s.potentials.has node then
      match get_potential_arcs (get_potential fuel) node (s.ch.backward_graph.get_out_arcs node)
          { s with potentials := s.potentials.set node (s.forward_search.get_dist node) } with
      | Outcome.ok s1 => Outcome.ok (s1.potentials.get node, s1)
      | Outcome.out_of_range => Outcome.out_of_range
      | Outcome.empty_pop => Outcome.empty_pop
      | Outcome.no_fuel => Outcome.no_fuel
    else Outcome.ok (s.potentials.get node, s)

/-- `void set_target(node_t _target)`. -/
def set_target (c : Constants) (fuel : Nat) (s : ReverseCHPotentialService) (target : Nat) :
    Outcome ReverseCHPotentialService :=
  match ((s.forward_search.finish c).set_source c target).run_until_done fuel with
  | Outcome.ok fs =>
    Outcome.ok { s with forward_search := fs, potentials := s.potentials.step_time,
                        target := target }
  | Outcome.out_of_range => Outcome.out_of_range
  | Outcome.empty_pop => Outcome.empty_pop
  | Outcome.no_fuel => Outcome.no_fuel

end ReverseCHPotentialService

/-! ### BidirectionalAStarService (astar.h) -/

/-- `class BidirectionalAStarService` (the unused `locks` are left out). -/
structure BidirectionalAStarService where
  g : Graph
  pot_f1 : CHPotentialService
  pot_f2 : CHPotentialService
  pot_r1 : ReverseCHPotentialService
  pot_r2 : ReverseCHPotentialService
  closed_f : BoolSet
  closed_r : BoolSet
  q_f : MinIDQueue
  q_r : MinIDQueue
  dist_f : TimestampVector
  dist_r : TimestampVector
  par_f : TimestampVector
  par_r : TimestampVector
  tentative_dist : Nat
  best_node : Nat
  source : Nat
  target : Nat
  min_key_f : Nat
  k_f : Nat
  k_r : Nat
deriving DecidableEq, Repr

namespace BidirectionalAStarService

/-- Constructor `BidirectionalAStarService(const Graph& g, const ContractionHierarchy& ch)`. -/
def new (c : Constants) (g : Graph) (ch : ContractionHierarchy) : BidirectionalAStarService :=
  { g := g
    pot_f1 := CHPotentialService.new c ch
    pot_f2 := CHPotentialService.new c ch
    pot_r1 := ReverseCHPotentialService.new c ch
    pot_r2 := ReverseCHPotentialService.new c ch
    closed_f := BoolSet.new g.size
    closed_r := BoolSet.new g.size
    q_f := MinIDQueue.new g.size
    q_r := MinIDQueue.new g.size
    dist_f := TimestampVector.new g.size c.inf_weight
    dist_r := TimestampVector.new g.size c.inf_weight
    par_f := TimestampVector.new g.size c.invalid_id
    par_r := TimestampVector.new g.size c.invalid_id
    tentative_dist := c.inf_weight
    best_node := c.invalid_id
    source := c.invalid_id
    target := c.invalid_id
    min_key_f := c.inf_weight
    k_f := 0
    k_r := 0 }

/-- `(a + b - x) / 2` in `uint32_t` arithmetic. -/
def avg32 (a b x : Nat) : Nat := (((a + b) % wrap32 + wrap32 - x % wrap32) % wrap32) / 2

/-- `heur_f1(n) = (pot_f1(n) + pot_r1(target) - pot_r1(n)) / 2`. -/
def heur_f1 (fuel : Nat) (b : BidirectionalAStarService) (n : Nat) :
    Outcome (Nat × BidirectionalAStarService) :=
  match b.pot_f1.get_potential fuel n with
  | Outcome.ok (x, pf) =>
    match b.pot_r1.get_potential fuel b.target with
    | Outcome.ok (y, pr) =>
      match pr.get_potential fuel n with
      | Outcome.ok (z, pr2) => Outcome.ok (avg32 x y z, { b with pot_f1 := pf, pot_r1 := pr2 })
      | Outcome.out_of_range => Outcome.out_of_range
      | Outcome.empty_pop => Outcome.empty_pop
      | Outcome.no_fuel => Outcome.no_fuel
    | Outcome.out_of_range => Outcome.out_of_range
    | Outcome.empty_pop => Outcome.empty_pop
    | Outcome.no_fuel => Outcome.no_fuel
  | Outcome.out_of_range => Outcome.out_of_range
  | Outcome.empty_pop => Outcome.empty_pop
  | Outcome.no_fuel => Outcome.no_fuel

/-- `heur_r1(n) = (pot_r1(n) + pot_f1(source) - pot_f1(n)) / 2`. -/
def heur_r1 (fuel : Nat) (b : BidirectionalAStarService) (n : Nat) :
    Outcome (Nat × BidirectionalAStarService) :=
  match b.pot_r1.get_potential fuel n with
  | Outcome.ok (x, pr) =>
    match b.pot_f1.get_potential fuel b.source with
    | Outcome.ok (y, pf) =>
      match pf.get_potential fuel n with
      | Outcome.ok (z, pf2) => Outcome.ok (avg32 x y z, { b with pot_f1 := pf2, pot_r1 := pr })
      | Outcome.out_of_range => Outcome.out_of_range
      | Outcome.empty_pop => Outcome.empty_pop
      | Outcome.no_fuel => Outcome.no_fuel
    | Outcome.out_of_range => Outcome.out_of_range
    | Outcome.empty_pop => Outcome.empty_pop
    | Outcome.no_fuel => Outcome.no_fuel
  | Outcome.out_of_range => Outcome.out_of_range
  | Outcome.empty_pop => Outcome.empty_pop
  | Outcome.no_fuel => Outcome.no_fuel

/-- `heur_f2(n) = (pot_f2(n) + pot_r2(target) - pot_r2(n)) / 2`. -/
def heur_f2 (fuel : Nat) (b : BidirectionalAStarService) (n : Nat) :
    Outcome (Nat × BidirectionalAStarService) :=
  match b.pot_f2.get_potential fuel n with
  | Outcome.ok (x, pf) =>
    match b.pot_r2.get_potential fuel b.target with
    | Outcome.ok (y, pr) =>
      match pr.get_potential fuel n with
      | Outcome.ok (z, pr2) => Outcome.ok (avg32 x y z, { b with pot_f2 := pf, pot_r2 := pr2 })
      | Outcome.out_of_range => Outcome.out_of_range
      | Outcome.empty_pop => Outcome.empty_pop
      | Outcome.no_fuel => Outcome.no_fuel
    | Outcome.out_of_range => Outcome.out_of_range
    | Outcome.empty_pop => Outcome.empty_pop
    | Outcome.no_fuel => Outcome.no_fuel
  | Outcome.out_of_range => Outcome.out_of_range
  | Outcome.empty_pop => Outcome.empty_pop
  | Outcome.no_fuel => Outcome.no_fuel

/-- `heur_r2(n) = (pot_r2(n) + pot_f2(source) - pot_f2(n)) / 2`. -/
def heur_r2 (fuel : Nat) (b : BidirectionalAStarService) (n : Nat) :
    Outcome (Nat × BidirectionalAStarService) :=
  match b.pot_r2.get_potential fuel n with
  | Outcome.ok (x, pr) =>
    match b.pot_f2.get_potential fuel b.source with
    | Outcome.ok (y, pf) =>
      match pf.get_potential fuel n with
      | Outcome.ok (z, pf2) => Outcome.ok (avg32 x y z, { b with pot_f2 := pf2, pot_r2 := pr })
      | Outcome.out_of_range => Outcome.out_of_range
      | Outcome.empty_pop => Outcome.empty_pop
      | Outcome.no_fuel => Outcome.no_fuel
    | Outcome.out_of_range => Outcome.out_of_range
    | Outcome.empty_pop => Outcome.empty_pop
    | Outcome.no_fuel => Outcome.no_fuel
  | Outcome.out_of_range => Outcome.out_of_range
  | Outcome.empty_pop => Outcome.empty_pop
  | Outcome.no_fuel => Outcome.no_fuel

/-- Body of the loop of `step_f` for one arc of the popped node `best`. -/
def relax_f (fuel : Nat) (b : BidirectionalAStarService) (best : Nat) (arc : Edge) :
    Outcome BidirectionalAStarService :=
  let g := (b.dist_f.get best + arc.weight) % wrap32
  match b.pot_f1.get_potential fuel arc.target with
  | Outcome.ok (p, pf) =>
    let b1 := { b with pot_f1 := pf }
    if (g + p) % wrap32 ≥ b1.tentative_dist then Outcome.ok b1
    else
      let b2 :=
        if b1.closed_r.has arc.target ∧ (g + b1.dist_r.get arc.target) % wrap32 < b1.tentative_dist
        then { b1 with tentative_dist := (g + b1.dist_r.get arc.target) % wrap32,
                       best_node := arc.target }
        else b1
      if g < b2.dist_f.get arc.target then
        let b3 := { b2 with dist_f := b2.dist_f.set arc.target g,
                            par_f := b2.par_f.set arc.target best }
        match heur_f1 fuel b3 arc.target with
        | Outcome.ok (h, b4) =>
          let k := (b4.dist_f.get arc.target + h) % wrap32
          if b4.q_f.contains_id arc.target then
            Outcome.ok { b4 with q_f := b4.q_f.decrease_key ⟨arc.target, k⟩ }
          else Outcome.ok { b4 with q_f := b4.q_f.push ⟨arc.target, k⟩ }
        | Outcome.out_of_range => Outcome.out_of_range
        | Outcome.empty_pop => Outcome.empty_pop
        | Outcome.no_fuel => Outcome.no_fuel
      else Outcome.ok b2
  | Outcome.out_of_range => Outcome.out_of_range
  | Outcome.empty_pop => Outcome.empty_pop
  | Outcome.no_fuel => Outcome.no_fuel

/-- Body of the loop of `step_r` for one arc of the popped node `best`. -/
def relax_r (fuel : Nat) (b : BidirectionalAStarService) (best : Nat) (arc : Edge) :
    Outcome BidirectionalAStarService :=
  let g := (b.dist_r.get best + arc.weight) % wrap32
  match b.pot_r2.get_potential fuel arc.target with
  | Outcome.ok (p, pr) =>
    let b1 := { b with pot_r2 := pr }
    if (g + p) % wrap32 ≥ b1.tentative_dist then Outcome.ok b1
    else
      let b2 :=
        if b1.closed_f.has arc.target ∧ (g + b1.dist_f.get arc.target) % wrap32 < b1.tentative_dist
        then { b1 with tentative_dist := (g + b1.dist_f.get arc.target) % wrap32,
                       best_node := arc.target }
        else b1
      if g < b2.dist_r.get arc.target then
        let b3 := { b2 with dist_r := b2.dist_r.set arc.target g,
                            par_r := b2.par_r.set arc.target best }
        match heur_r2 fuel b3 arc.target with
        | Outcome.ok (h, b4) =>
          let k := (b4.dist_r.get arc.target + h) % wrap32
          if b4.q_r.contains_id arc.target then
            Outcome.ok { b4 with q_r := b4.q_r.decrease_key ⟨arc.target, k⟩ }
          else Outcome.ok { b4 with q_r := b4.q_r.push ⟨arc.target, k⟩ }
        | Outcome.out_of_range => Outcome.out_of_range
        | Outcome.empty_pop => Outcome.empty_pop
        | Outcome.no_fuel => Outcome.no_fuel
      else Outcome.ok b2
  | Outcome.out_of_range => Outcome.out_of_range
  | Outcome.empty_pop => Outcome.empty_pop
  | Outcome.no_fuel => Outcome.no_fuel

/-- A loop over the arcs of the popped node with body `body`. -/
def relax_arcs (body : BidirectionalAStarService → Edge → Outcome BidirectionalAStarService) :
    List Edge → BidirectionalAStarService → Outcome BidirectionalAStarService
  | [], b => Outcome.ok b
  | arc :: rest, b =>
    match body b arc with
    | Outcome.ok b1 => relax_arcs body rest b1
    | Outcome.out_of_range => Outcome.out_of_range
    | Outcome.empty_pop => Outcome.empty_pop
    | Outcome.no_fuel => Outcome.no_fuel

/-- `void step_f()`. -/
def step_f (fuel : Nat) (b : BidirectionalAStarService) : Outcome BidirectionalAStarService :=
  match b.q_f.pop with
  | none => Outcome.empty_pop
  | some (best, q) =>
    relax_arcs (fun st arc => relax_f fuel st best.id arc) (b.g.get_out_arcs best.id)
      { b with q_f := q, closed_f := b.closed_f.set best.id }

/-- `void step_r()`. -/
def step_r (fuel : Nat) (b : BidirectionalAStarService) : Outcome BidirectionalAStarService :=
  match b.q_r.pop with
  | none => Outcome.empty_pop
  | some (best, q) =>
    relax_arcs (fun st arc => relax_r fuel st best.id arc) (b.g.get_rev_out_arcs best.id)
      { b with q_r := q, closed_r := b.closed_r.set best.id }

/-- One pass of the loop of `thread_function_f`: the loop test, and when it holds
`step_f()` and the update of `k_f`. The flag tells whether the thread goes on. -/
def iteration_f (c : Constants) (fuel : Nat) (b : BidirectionalAStarService) :
    Outcome (Bool × BidirectionalAStarService) :=
  match heur_f1 fuel b b.source with
  | Outcome.ok (h, b1) =>
    if (b1.k_f + b1.k_r) % wrap32 < (b1.tentative_dist + h) % wrap32 then
      match step_f fuel b1 with
      | Outcome.ok b2 =>
        Outcome.ok (true, { b2 with k_f :=
          match b2.q_f.peek with
          | some p => p.key
          | none => c.inf_weight })
      | Outcome.out_of_range => Outcome.out_of_range
      | Outcome.empty_pop => Outcome.empty_pop
      | Outcome.no_fuel => Outcome.no_fuel
    else Outcome.ok (false, b1)
  | Outcome.out_of_range => Outcome.out_of_range
  | Outcome.empty_pop => Outcome.empty_pop
  | Outcome.no_fuel => Outcome.no_fuel

/-- One pass of the loop of `thread_function_r`. -/
def iteration_r (c : Constants) (fuel : Nat) (b : BidirectionalAStarService) :
    Outcome (Bool × BidirectionalAStarService) :=
  match heur_f2 fuel b b.source with
  | Outcome.ok (h, b1) =>
    if (b1.k_f + b1.k_r) % wrap32 < (b1.tentative_dist + h) % wrap32 then
      match step_r fuel b1 with
      | Outcome.ok b2 =>
        Outcome.ok (true, { b2 with k_r :=
          match b2.q_r.peek with
          | some p => p.key
          | none => c.inf_weight })
      | Outcome.out_of_range => Outcome.out_of_range
      | Outcome.empty_pop => Outcome.empty_pop
      | Outcome.no_fuel => Outcome.no_fuel
    else Outcome.ok (false, b1)
  | Outcome.out_of_range => Outcome.out_of_range
  | Outcome.empty_pop => Outcome.empty_pop
  | Outcome.no_fuel => Outcome.no_fuel

/-- The two threads under the schedules that never suspend a thread inside a pass of its
loop: the passes of the two loops are interleaved as wholes. `sched` names the thread that
runs next (`true`: forward) whenever both are still running; the flags `run_f`, `run_r`
tell which threads have not left their loop. (The threads hold no lock, so the code can
also switch inside a pass; `run_threads_fine` covers the switch between the two
assignments of the meeting update.) -/
def run_threads (c : Constants) (fuel : Nat) :
    Nat → List Bool → Bool → Bool → BidirectionalAStarService → Outcome BidirectionalAStarService
  | 0, _, _, _, _ => Outcome.no_fuel
  | n + 1, sched, run_f, run_r, b =>
    if ¬ run_f ∧ ¬ run_r then Outcome.ok b
    else if run_f ∧ (¬ run_r ∨ sched.headD true) then
      match iteration_f c fuel b with
      | Outcome.ok (go, b1) => run_threads c fuel n sched.tail go run_r b1
      | Outcome.out_of_range => Outcome.out_of_range
      | Outcome.empty_pop => Outcome.empty_pop
      | Outcome.no_fuel => Outcome.no_fuel
    else
      match iteration_r c fuel b with
      | Outcome.ok (go, b1) => run_threads c fuel n sched.tail run_f go b1
      | Outcome.out_of_range => Outcome.out_of_range
      | Outcome.empty_pop => Outcome.empty_pop
      | Outcome.no_fuel => Outcome.no_fuel

/-- A `while (current != invalid_id)` loop of `get_path` along the forward parents:
`push_back(current); current = par_f.get(current)`. -/
def walk_par_f (c : Constants) (b : BidirectionalAStarService) :
    Nat → Nat → List Nat → Outcome (List Nat)
  | 0, _, _ => Outcome.no_fuel
  | fuel + 1, current, nodes =>
    if current = c.invalid_id then Outcome.ok nodes
    else if current < b.par_f.vec.length then
      walk_par_f c b fuel (b.par_f.get current) (nodes ++ [current])
    else Outcome.out_of_range

/-- The second loop of `get_path` along the reverse parents:
`current = par_r.get(current); push_back(current)`. -/
def walk_par_r (c : Constants) (b : BidirectionalAStarService) :
    Nat → Nat → List Nat → Outcome (List Nat)
  | 0, _, _ => Outcome.no_fuel
  | fuel + 1, current, nodes =>
    if current = c.invalid_id then Outcome.ok nodes
    else if current < b.par_r.vec.length then
      walk_par_r c b fuel (b.par_r.get current) (nodes ++ [b.par_r.get current])
    else Outcome.out_of_range

/-- `Path get_path()`; `pop_back()` on an empty vector is reported as `empty_pop`. -/
def get_path (c : Constants) (fuel : Nat) (b : BidirectionalAStarService) : Outcome Path :=
  match walk_par_f c b fuel b.best_node [] with
  | Outcome.ok nodes =>
    match walk_par_r c b fuel b.best_node nodes.reverse with
    | Outcome.ok nodes2 =>
      if nodes2 = [] then Outcome.empty_pop
      else Outcome.ok ⟨nodes2.dropLast, b.tentative_dist⟩
    | Outcome.out_of_range => Outcome.out_of_range
    | Outcome.empty_pop => Outcome.empty_pop
    | Outcome.no_fuel => Outcome.no_fuel
  | Outcome.out_of_range => Outcome.out_of_range
  | Outcome.empty_pop => Outcome.empty_pop
  | Outcome.no_fuel => Outcome.no_fuel

/-- The part of `run(source, target)` before the threads start. -/
def run_setup (c : Constants) (fuel : Nat) (b : BidirectionalAStarService) (source target : Nat) :
    Outcome BidirectionalAStarService :=
  match b.pot_f1.set_target c fuel target with
  | Outcome.ok pf1 =>
    match b.pot_f2.set_target c fuel target with
    | Outcome.ok pf2 =>
      match b.pot_r1.set_target c fuel source with
      | Outcome.ok pr1 =>
        match b.pot_r2.set_target c fuel source with
        | Outcome.ok pr2 =>
          let b1 := { b with
            source := source, target := target
            pot_f1 := pf1, pot_f2 := pf2, pot_r1 := pr1, pot_r2 := pr2
            dist_f := b.dist_f.set source 0
            dist_r := b.dist_r.set target 0
            par_f := b.par_f.set source c.invalid_id
            par_r := b.par_r.set target c.invalid_id }
          match heur_f1 fuel b1 source with
          | Outcome.ok (hf, b2) =>
            match heur_r1 fuel { b2 with q_f := b2.q_f.push ⟨source, hf⟩ } target with
            | Outcome.ok (hr, b3) =>
              match heur_f1 fuel { b3 with q_r := b3.q_r.push ⟨target, hr⟩ } source with
              | Outcome.ok (hf2, b4) =>
                let b5 := { b4 with
                  min_key_f := hf2
                  closed_f := b4.closed_f.set source
                  closed_r := b4.closed_r.set target }
                match heur_f1 fuel b5 source with
                | Outcome.ok (hf3, b6) =>
                  match heur_r1 fuel { b6 with k_f := hf3 } target with
                  | Outcome.ok (hr2, b7) => Outcome.ok { b7 with k_r := hr2 }
                  | Outcome.out_of_range => Outcome.out_of_range
                  | Outcome.empty_pop => Outcome.empty_pop
                  | Outcome.no_fuel => Outcome.no_fuel
                | Outcome.out_of_range => Outcome.out_of_range
                | Outcome.empty_pop => Outcome.empty_pop
                | Outcome.no_fuel => Outcome.no_fuel
              | Outcome.out_of_range => Outcome.out_of_range
              | Outcome.empty_pop => Outcome.empty_pop
              | Outcome.no_fuel => Outcome.no_fuel
            | Outcome.out_of_range => Outcome.out_of_range
            | Outcome.empty_pop => Outcome.empty_pop
            | Outcome.no_fuel => Outcome.no_fuel
          | Outcome.out_of_range => Outcome.out_of_range
          | Outcome.empty_pop => Outcome.empty_pop
          | Outcome.no_fuel => Outcome.no_fuel
        | Outcome.out_of_range => Outcome.out_of_range
        | Outcome.empty_pop => Outcome.empty_pop
        | Outcome.no_fuel => Outcome.no_fuel
      | Outcome.out_of_range => Outcome.out_of_range
      | Outcome.empty_pop => Outcome.empty_pop
      | Outcome.no_fuel => Outcome.no_fuel
    | Outcome.out_of_range => Outcome.out_of_range
    | Outcome.empty_pop => Outcome.empty_pop
    | Outcome.no_fuel => Outcome.no_fuel
  | Outcome.out_of_range => Outcome.out_of_range
  | Outcome.empty_pop => Outcome.empty_pop
  | Outcome.no_fuel => Outcome.no_fuel

/-- The value of `tentative_dist` when both threads of `run(source, target)` have left
their loops, under the interleaving `sched`. -/
def run_tentative_dist (c : Constants) (fuel : Nat) (sched : List Bool)
    (b : BidirectionalAStarService) (source target : Nat) : Outcome Nat :=
  match run_setup c fuel b source target with
  | Outcome.ok b1 =>
    match run_threads c fuel fuel sched true true b1 with
    | Outcome.ok b2 => Outcome.ok b2.tentative_dist
    | Outcome.out_of_range => Outcome.out_of_range
    | Outcome.empty_pop => Outcome.empty_pop
    | Outcome.no_fuel => Outcome.no_fuel
  | Outcome.out_of_range => Outcome.out_of_range
  | Outcome.empty_pop => Outcome.empty_pop
  | Outcome.no_fuel => Outcome.no_fuel

/-- `Path run(node_t source, node_t target)` under the interleaving `sched`: the returned
path and the service after the clean-up. -/
def run (c : Constants) (fuel : Nat) (sched : List Bool) (b : BidirectionalAStarService)
    (source target : Nat) : Outcome (Path × BidirectionalAStarService) :=
  match run_setup c fuel b source target with
  | Outcome.ok b1 =>
    match run_threads c fuel fuel sched true true b1 with
    | Outcome.ok b2 =>
      match get_path c fuel b2 with
      | Outcome.ok ret =>
        Outcome.ok (ret, { b2 with
          dist_f := b2.dist_f.step_time
          dist_r := b2.dist_r.step_time
          par_f := b2.par_f.step_time
          par_r := b2.par_r.step_time
          q_f := b2.q_f.clear
          q_r := b2.q_r.clear
          closed_f := b2.closed_f.clear
          closed_r := b2.closed_r.clear
          tentative_dist := c.inf_weight
          best_node := c.invalid_id })
      | Outcome.out_of_range => Outcome.out_of_range
      | Outcome.empty_pop => Outcome.empty_pop
      | Outcome.no_fuel => Outcome.no_fuel
    | Outcome.out_of_range => Outcome.out_of_range
    | Outcome.empty_pop => Outcome.empty_pop
    | Outcome.no_fuel => Outcome.no_fuel
  | Outcome.out_of_range => Outcome.out_of_range
  | Outcome.empty_pop => Outcome.empty_pop
  | Outcome.no_fuel => Outcome.no_fuel

end BidirectionalAStarService

/-- A bidirectional query on a fresh service over `g` and the hierarchy that
`contract_graph` builds from a copy of `g`: the value of `tentative_dist` at the end. -/
def bidirectional_query (c : Constants) (fuel : Nat) (sched : List Bool) (g : Graph)
    (order : List Nat) (s t : Nat) : Outcome Nat :=
  match contract_graph c fuel g order with
  | Outcome.ok ch =>
    BidirectionalAStarService.run_tentative_dist c fuel sched
      (BidirectionalAStarService.new c g ch) s t
  | Outcome.out_of_range => Outcome.out_of_range
  | Outcome.empty_pop => Outcome.empty_pop
  | Outcome.no_fuel => Outcome.no_fuel

end PenAstar

namespace PenAstar

namespace DijkstraService

/-- State of a service between two searches on `g`: no distance entry of the current epoch
(every stamp is older than the epoch), empty queue and search-space log. -/
structure Clean (c : Constants) (g : Graph) (s : DijkstraService) : Prop where
  hg : s.g = g
  ht : 0 < s.dist_vec.t
  hlen : s.dist_vec.vec.length = g.size
  hplen : s.parent_vec.vec.length = g.size
  hdef : s.dist_vec.default_value = c.inf_weight
  hstamp : ∀ p ∈ s.dist_vec.vec, p.2 < s.dist_vec.t
  hq : s.queue.entries = []
  hS : s.search_space = []

/-- No stamp of the distance vector is newer than the epoch. -/
def StampsLe (s : DijkstraService) : Prop := ∀ p ∈ s.dist_vec.vec, p.2 ≤ s.dist_vec.t

end DijkstraService

/-- Rank of a node: `ranking[x]`. -/
def rank (ranking : List Nat) (x : Nat) : Nat := ranking.getD x 0

/-- Every arc of `g` has a counterpart in `g'` with the same endpoints and a weight that is
not larger. -/
def Graph.DominatedBy (g g' : Graph) : Prop :=
  ∀ u e, e ∈ g.get_out_arcs u →
    ∃ e' ∈ g'.get_out_arcs u, e'.target = e.target ∧ e'.weight ≤ e.weight

/-- Every arc `u → w` of `g` has a counterpart of no larger weight in `F` when
`rank u < rank w`, and a reversed counterpart `w → u` in `B` otherwise. -/
def SplitDominated (ranking : List Nat) (g F B : Graph) : Prop :=
  ∀ u e, e ∈ g.get_out_arcs u →
    if rank ranking u < rank ranking e.target then
      ∃ e' ∈ F.get_out_arcs u, e'.target = e.target ∧ e'.weight ≤ e.weight
    else
      ∃ e' ∈ B.get_out_arcs e.target, e'.target = u ∧ e'.weight ≤ e.weight

/-- Up-down property of `F` and `B` for the graph `g`: every walk of `g` from `s` to `t`
lighter than `inf_weight` is matched by a walk of `F` from `s` and a walk of `B` from `t`
that meet in a node, with total weight not larger. -/
def UpDown (c : Constants) (g F B : Graph) : Prop :=
  ∀ s t D, Walk g.arc s t D → D < c.inf_weight →
    ∃ m a b, Walk F.arc s m a ∧ Walk B.arc t m b ∧ a + b ≤ D

/-- All stored weights of `g` are below `inf_weight`. -/
def Graph.WeightsBelow (c : Constants) (g : Graph) : Prop :=
  ∀ u, ∀ e ∈ g.get_out_arcs u, e.weight < c.inf_weight

/-- The result of `get_contraction_shortcuts` for `node` on `g`: every listed shortcut
joins an in-neighbour to an out-neighbour with the sum of the two arc weights, below
`inf_weight`; and for every such pair whose sum is below `inf_weight` the shortcut is
listed or `g` has a walk between the two that avoids `node` and is not heavier. -/
def ShortcutsOK (c : Constants) (g : Graph) (node : Nat) (scs : List (Nat × Edge)) : Prop :=
  (∀ sc ∈ scs, ∃ r ∈ g.get_rev_out_arcs node, ∃ o ∈ g.get_out_arcs node,
    sc = (r.target, (⟨o.target, r.weight + o.weight⟩ : Edge)) ∧
      r.weight + o.weight < c.inf_weight) ∧
  (∀ r ∈ g.get_rev_out_arcs node, ∀ o ∈ g.get_out_arcs node,
    r.weight + o.weight < c.inf_weight →
      (r.target, (⟨o.target, r.weight + o.weight⟩ : Edge)) ∈ scs ∨
      ∃ d, d ≤ r.weight + o.weight ∧ Walk (g.arc_avoiding node) r.target o.target d)

end PenAstar

namespace PenAstar

/-- Every arc of `g` is a walk of `G0` with the same endpoints and weight. -/
def SoundArcs (G0 g : Graph) : Prop :=
  ∀ u e, e ∈ g.get_out_arcs u → Walk G0.arc u e.target e.weight

/-- Every arc `w → u` of `B` is a walk of `G0` from `u` to `w` with the same weight. -/
def SoundRevArcs (G0 B : Graph) : Prop :=
  ∀ w e, e ∈ B.get_out_arcs w → Walk G0.arc e.target w e.weight

/-- Every arc of `F` leads to a node of strictly higher rank. -/
def RankIncreasing (ranking : List Nat) (F : Graph) : Prop :=
  ∀ u e, e ∈ F.get_out_arcs u → rank ranking u < rank ranking e.target

/-- No arc of `g` leaves or enters `x`. -/
def Graph.Isolated (g : Graph) (x : Nat) : Prop :=
  ∀ a e, e ∈ g.get_out_arcs a → a ≠ x ∧ e.target ≠ x

/-- Invariant of the loop of `contract_graph` on a graph `G0` with `n` nodes. -/
structure ContractInv (c : Constants) (n : Nat) (G0 : Graph) (ranking : List Nat)
    (st : ContractState) : Prop where
  hg : st.g.Consistent
  hgn : st.g.size = n
  hF : st.forward_graph.Consistent
  hFn : st.forward_graph.size = n
  hB : st.backward_graph.Consistent
  hBn : st.backward_graph.size = n
  hgW : st.g.WeightsBelow c
  hFW : st.forward_graph.WeightsBelow c
  hBW : st.backward_graph.WeightsBelow c
  hdom : SplitDominated ranking st.g st.forward_graph st.backward_graph
  hgs : SoundArcs G0 st.g
  hFs : SoundArcs G0 st.forward_graph
  hBs : SoundRevArcs G0 st.backward_graph
  hFr : RankIncreasing ranking st.forward_graph
  hBr : ∀ w e, e ∈ st.backward_graph.get_out_arcs w → rank ranking w ≤ rank ranking e.target
  hds : DijkstraService.Clean c st.g { st.ds with g := st.g }

end PenAstar

namespace PenAstar

/-- What one call of `contract_node_and_split` for `node` does to the working graph and the
two output graphs. -/
structure ContractStep (c : Constants) (n : Nat) (node : Nat) (st st1 : ContractState) :
    Prop where
  hF : st.forward_graph.DominatedBy st1.forward_graph
  hB : st.backward_graph.DominatedBy st1.backward_graph
  hkeep : ∀ a e, e ∈ st.g.get_out_arcs a → a ≠ node → e.target ≠ node →
    ∃ e' ∈ st1.g.get_out_arcs a, e'.target = e.target ∧ e'.weight ≤ e.weight
  hcut : ∀ r ∈ st.g.get_rev_out_arcs node, ∀ o ∈ st.g.get_out_arcs node,
    r.target ≠ node → o.target ≠ node → r.weight + o.weight < c.inf_weight →
      (∃ e' ∈ st1.g.get_out_arcs r.target, e'.target = o.target ∧
        e'.weight ≤ r.weight + o.weight) ∨
      ∃ d, d ≤ r.weight + o.weight ∧ Walk (st.g.arc_avoiding node) r.target o.target d
  hiso : st1.g.Isolated node
  hpres : ∀ x, st.g.Isolated x → st1.g.Isolated x
  ht : st1.ds.dist_vec.t ≤ st.ds.dist_vec.t + n

end PenAstar

namespace PenAstar

/-- The hierarchy `ch` is a contraction hierarchy of `G0`: its two graphs are consistent
graphs on the nodes of `G0` with weights below `inf_weight`, every arc of them is a walk of
`G0` (reversed for the backward graph), forward arcs climb in rank, ranks are below the
node count, and the two graphs have the up-down property for `G0`. -/
structure CHValid (c : Constants) (G0 : Graph) (ch : ContractionHierarchy) : Prop where
  hF : ch.forward_graph.Consistent
  hFn : ch.forward_graph.size = G0.size
  hB : ch.backward_graph.Consistent
  hBn : ch.backward_graph.size = G0.size
  hFW : ch.forward_graph.WeightsBelow c
  hBW : ch.backward_graph.WeightsBelow c
  hFs : SoundArcs G0 ch.forward_graph
  hBs : SoundRevArcs G0 ch.backward_graph
  hFr : RankIncreasing ch.ranking ch.forward_graph
  hrk : ∀ x, x < G0.size → rank ch.ranking x < G0.size
  hud : UpDown c G0 ch.forward_graph ch.backward_graph

end PenAstar

namespace PenAstar

namespace CHPotentialService

/-- A sequence of calls `operator()(node)` on one service, first call first: the values
returned and the service afterwards. -/
def queries (fuel : Nat) :
    CHPotentialService → List Nat → Outcome (List Nat × CHPotentialService)
  | s, [] => Outcome.ok ([], s)
  | s, x :: xs =>
    match get_potential fuel s x with
    | Outcome.ok (p, s1) =>
      match queries fuel s1 xs with
      | Outcome.ok (ps, s2) => Outcome.ok (p :: ps, s2)
      | Outcome.out_of_range => Outcome.out_of_range
      | Outcome.empty_pop => Outcome.empty_pop
      | Outcome.no_fuel => Outcome.no_fuel
    | Outcome.out_of_range => Outcome.out_of_range
    | Outcome.empty_pop => Outcome.empty_pop
    | Outcome.no_fuel => Outcome.no_fuel

end CHPotentialService

/-- The value `p` is the least sum of the weight of a walk of `F` from `x` to some node `m`
and the backward distance `dB m`. -/
def PotGood (F : Graph) (dB : Nat → Nat) (x p : Nat) : Prop :=
  (∀ m a, Walk F.arc x m a → p ≤ a + dB m) ∧ ∃ m a, Walk F.arc x m a ∧ p = a + dB m

/-- What the memoised recursion needs of the forward graph, the ranking and the backward
distances; an arc climbs in rank or is a loop at its node. -/
structure PotCtx (c : Constants) (n : Nat) (F : Graph) (ranking : List Nat)
    (dB : Nat → Nat) : Prop where
  hFt : ∀ u e, e ∈ F.get_out_arcs u → e.target < n
  hFW : F.WeightsBelow c
  hFr : ∀ u e, e ∈ F.get_out_arcs u → rank ranking u < rank ranking e.target ∨ e.target = u
  hrk : ∀ x, x < n → rank ranking x < n
  h2 : 2 * c.inf_weight ≤ wrap32
  hdB : ∀ x, dB x ≤ c.inf_weight

/-- The parts of a potential service that `get_potential` leaves alone. -/
structure PotInv (n : Nat) (F : Graph) (dB : Nat → Nat) (s : CHPotentialService) : Prop where
  hF : s.forward_graph = F
  hlen : s.potentials.vec.length = n
  hdB : ∀ x, s.backward_search.get_dist x = dB x

/-- Outcome of a call `get_potential(y)` from state `s`: the value is right, every memo
entry of rank at least that of `y` is right, and entries of lower rank are untouched. -/
def PotPost (n : Nat) (F : Graph) (ranking : List Nat) (dB : Nat → Nat)
    (s : CHPotentialService) (y p : Nat) (s' : CHPotentialService) : Prop :=
  PotInv n F dB s' ∧ PotGood F dB y p ∧
  (∀ z, rank ranking y ≤ rank ranking z → s'.potentials.has z = true →
    PotGood F dB z (s'.potentials.get z)) ∧
  (∀ z, rank ranking z < rank ranking y →
    s'.potentials.has z = s.potentials.has z ∧ s'.potentials.get z = s.potentials.get z)

end PenAstar

namespace PenAstar

/-- The graph of scenario S2: nodes 0, 1, 2 and the single arc 0→1 of weight 5. -/
def disconnected : Graph := (Graph.new 3).add_edge 0 ⟨1, 5⟩

/-- A call `run(s, t)` on a fresh `BidirectionalAStarService` over `g` and the hierarchy
that `contract_graph` builds from a copy of `g`, under the interleaving `sched`: the
returned path. -/
def bidirectional_run (c : Constants) (fuel : Nat) (sched : List Bool) (g : Graph)
    (order : List Nat) (s t : Nat) : Outcome Path :=
  match contract_graph c fuel g order with
  | Outcome.ok ch =>
    match BidirectionalAStarService.run c fuel sched (BidirectionalAStarService.new c g ch) s t with
    | Outcome.ok (p, _) => Outcome.ok p
    | Outcome.out_of_range => Outcome.out_of_range
    | Outcome.empty_pop => Outcome.empty_pop
    | Outcome.no_fuel => Outcome.no_fuel
  | Outcome.out_of_range => Outcome.out_of_range
  | Outcome.empty_pop => Outcome.empty_pop
  | Outcome.no_fuel => Outcome.no_fuel

/-- The pair `(tentative_dist, best_node)` of a fresh `BidirectionalAStarService` over `g`
and the hierarchy of `contract_graph` at the moment both threads of `run(s, t)` have left
their loops, before `get_path()` is called. -/
def bidirectional_meeting (c : Constants) (fuel : Nat) (sched : List Bool) (g : Graph)
    (order : List Nat) (s t : Nat) : Outcome (Nat × Nat) :=
  match contract_graph c fuel g order with
  | Outcome.ok ch =>
    match BidirectionalAStarService.run_setup c fuel (BidirectionalAStarService.new c g ch) s t with
    | Outcome.ok b1 =>
      match BidirectionalAStarService.run_threads c fuel fuel sched true true b1 with
      | Outcome.ok b2 => Outcome.ok (b2.tentative_dist, b2.best_node)
      | Outcome.out_of_range => Outcome.out_of_range
      | Outcome.empty_pop => Outcome.empty_pop
      | Outcome.no_fuel => Outcome.no_fuel
    | Outcome.out_of_range => Outcome.out_of_range
    | Outcome.empty_pop => Outcome.empty_pop
    | Outcome.no_fuel => Outcome.no_fuel
  | Outcome.out_of_range => Outcome.out_of_range
  | Outcome.empty_pop => Outcome.empty_pop
  | Outcome.no_fuel => Outcome.no_fuel

end PenAstar

namespace PenAstar

/-- Sequencing of calls that may fail: the first failure is the result. -/
def Outcome.bind {α β : Type} (x : Outcome α) (f : α → Outcome β) : Outcome β :=
  match x with
  | Outcome.ok a => f a
  | Outcome.out_of_range => Outcome.out_of_range
  | Outcome.empty_pop => Outcome.empty_pop
  | Outcome.no_fuel => Outcome.no_fuel

instance : Monad Outcome where
  pure := Outcome.ok
  bind := Outcome.bind

/-- `v[i]` on a `std::vector` without bounds check: outside the vector the access is
reported. -/
def vec_get {α : Type} (v : List α) (i : Nat) : Outcome α :=
  match v.get? i with
  | some a => Outcome.ok a
  | none => Outcome.out_of_range

/-- `v[i] = x` on a `std::vector`. -/
def vec_set {α : Type} (v : List α) (i : Nat) (x : α) : Outcome (List α) :=
  if i < v.length then Outcome.ok (v.set i x) else Outcome.out_of_range

/-! ### BucketQueue (bucket_queue.h) -/

/-- Conversion of an `int` to `uint32_t`. -/
def to_u32 (k : Int) : Nat := (k % (wrap32 : Int)).toNat

/-- Conversion of a `uint32_t` to `int` (two's complement). -/
def to_int (u : Nat) : Int :=
  if u % wrap32 < wrap32 / 2 then ((u % wrap32 : Nat) : Int)
  else ((u % wrap32 : Nat) : Int) - (wrap32 : Int)

/-- `INT_MAX`. -/
def int_max : Int := 2147483647

/-- `struct IdKeyPair { uint32_t id; int key; }`. -/
structure IdKeyPair where
  id : Nat
  key : Int
deriving DecidableEq, Repr

/-- `class BucketQueue`: `bucket_map` is the `unordered_map` from keys to buckets, as an
association list with one entry per key. -/
structure BucketQueue where
  bucket_map : List (Int × List Nat)
  index_vec : List Nat
  rank_vec : List Nat
deriving DecidableEq, Repr

namespace BucketQueue

/-- `BucketQueue(uint32_t size)`. -/
def new (c : Constants) (size : Nat) : BucketQueue :=
  ⟨[], List.replicate size c.invalid_id, List.replicate size c.invalid_id⟩

/-- `bucket_map.find(key)`: the bucket stored under `key`. -/
def find (m : List (Int × List Nat)) (key : Int) : Option (List Nat) :=
  match m with
  | [] => none
  | p :: rest => if p.1 = key then some p.2 else find rest key

/-- `bucket_map.at(key)`, which throws when the key is absent. -/
def bucket_at (m : List (Int × List Nat)) (key : Int) : Outcome (List Nat) :=
  match find m key with
  | some b => Outcome.ok b
  | none => Outcome.out_of_range

/-- Assignment to the bucket stored under `key` (the key is present). -/
def assign (m : List (Int × List Nat)) (key : Int) (b : List Nat) : List (Int × List Nat) :=
  m.map (fun p => if p.1 = key then (key, b) else p)

/-- `bucket_map.erase(key)`. -/
def erase (m : List (Int × List Nat)) (key : Int) : List (Int × List Nat) :=
  m.filter (fun p => decide (p.1 ≠ key))

/-- `void push(IdKeyPair p)`. -/
def push (q : BucketQueue) (p : IdKeyPair) : Outcome BucketQueue := do
  let m1 := if find q.bucket_map p.key = none then q.bucket_map ++ [(p.key, [])]
    else q.bucket_map
  let b ← bucket_at m1 p.key
  let iv ← vec_set q.index_vec p.id (b.length % wrap32)
  let rv ← vec_set q.rank_vec p.id (to_u32 p.key)
  pure ⟨assign m1 p.key (b ++ [p.id]), iv, rv⟩

/-- The loop of `peek` over the keys of the map. -/
def smallest_key (m : List (Int × List Nat)) : Int :=
  m.foldl (fun k p => if p.1 < k then p.1 else k) int_max

/-- `IdKeyPair peek()`; `back()` on an empty bucket is reported as `empty_pop`. -/
def peek (q : BucketQueue) : Outcome IdKeyPair := do
  let b ← bucket_at q.bucket_map (smallest_key q.bucket_map)
  match b.getLast? with
  | some id => pure ⟨id, smallest_key q.bucket_map⟩
  | none => Outcome.empty_pop

/-- `IdKeyPair pop()`. -/
def pop (q : BucketQueue) : Outcome (IdKeyPair × BucketQueue) := do
  let ret ← peek q
  let b ← bucket_at q.bucket_map ret.key
  let b1 := b.dropLast
  let m1 := assign q.bucket_map ret.key b1
  pure (ret, { q with bucket_map := if b1.isEmpty then erase m1 ret.key else m1 })

/-- `void erase_id(uint32_t id)`. -/
def erase_id (c : Constants) (q : BucketQueue) (id : Nat) : Outcome BucketQueue := do
  let r ← vec_get q.rank_vec id
  let old_bucket ← bucket_at q.bucket_map (to_int r)
  let i ← vec_get q.index_vec id
  match old_bucket.getLast? with
  | none => Outcome.empty_pop
  | some last =>
    let iv ← vec_set q.index_vec last i
    let b1 ← vec_set old_bucket i last
    let b2 := b1.dropLast
    let m1 := assign q.bucket_map (to_int r) b2
    let iv2 ← vec_set iv id c.invalid_id
    pure { q with bucket_map := if b2.isEmpty then erase m1 (to_int r) else m1, index_vec := iv2 }

/-- `void change_key(IdKeyPair p)`. -/
def change_key (c : Constants) (q : BucketQueue) (p : IdKeyPair) : Outcome BucketQueue := do
  let q1 ← erase_id c q p.id
  push q1 p

/-- `int get_key(uint32_t id)`. -/
def get_key (q : BucketQueue) (id : Nat) : Outcome Int := do
  let r ← vec_get q.rank_vec id
  pure (to_int r)

/-- `bool contains_id(uint32_t id)`. -/
def contains_id (c : Constants) (q : BucketQueue) (id : Nat) : Bool :=
  if id ≥ q.index_vec.length then false
  else if q.index_vec.getD id 0 = c.invalid_id then false
  else true

/-- `bool empty()`. -/
def empty (q : BucketQueue) : Bool := q.bucket_map.isEmpty

end BucketQueue

/-! ### `contract_by_queue` (contraction.h) -/

/-- The value of `shortcuts.size() - out_arcs.size() - rev_out_arcs.size() + extra`
stored in an `int`. -/
def edge_difference (shortcuts out_arcs rev_out_arcs : Nat) (extra : Int) : Int :=
  to_int (to_u32 ((shortcuts : Int) - (out_arcs : Int) - (rev_out_arcs : Int) + extra))

/-- The loop of `get_initial_queue` over the nodes `n = i, i + 1, ...`. -/
def initial_queue_loop (c : Constants) (fuel : Nat) (g : Graph) :
    List Nat → DijkstraService → BucketQueue → Outcome BucketQueue
  | [], _, queue => Outcome.ok queue
  | n :: rest, ds, queue => do
    let r ← get_contraction_shortcuts c fuel g n ds
    let edge_diff := edge_difference r.2.length (g.get_out_arcs n).length
      (g.get_rev_out_arcs n).length 0
    let queue1 ← queue.push ⟨n, edge_diff⟩
    initial_queue_loop c fuel g rest r.1 queue1

/-- `BucketQueue get_initial_queue(const Graph& g)`. -/
def get_initial_queue (c : Constants) (fuel : Nat) (g : Graph) : Outcome BucketQueue :=
  initial_queue_loop c fuel g (List.range g.size) (DijkstraService.new c g)
    (BucketQueue.new c g.size)

/-- `contract_node(g, node, dijkstra_service)`: the graph and the service afterwards, and
the shortcut list. -/
def contract_node (c : Constants) (fuel : Nat) (g : Graph) (node : Nat) (ds : DijkstraService) :
    Outcome (Graph × DijkstraService × List (Nat × Edge)) := do
  let r ← get_contraction_shortcuts c fuel g node ds
  let g1 := r.2.foldl (fun acc sc => acc.add_edge sc.1 sc.2) g
  pure (g1.disconnect_node node, r.1, r.2)

/-- State of the main loop of `contract_by_queue`: the caller's graph `_g`, the working
copy `g`, the queue, the witness-search service, the ranking and `cur_rank`. -/
structure QueueState where
  caller_g : Graph
  g : Graph
  queue : BucketQueue
  ds : DijkstraService
  ranking : List Nat
  cur_rank : Int
deriving DecidableEq, Repr

/-- The loop of `contract_by_queue` over `neighbour_list`; `shortcuts` refers to the
global shortcut list, which each call of `get_contraction_shortcuts` refills. -/
def update_neighbours (c : Constants) (fuel : Nat) (g : Graph) :
    List Nat → DijkstraService → BucketQueue → Outcome (DijkstraService × BucketQueue)
  | [], ds, queue => Outcome.ok (ds, queue)
  | neighbour :: rest, ds, queue =>
    if queue.contains_id c neighbour then do
      let r ← get_contraction_shortcuts c fuel g neighbour ds
      let old_key ← queue.get_key neighbour
      let new_key := edge_difference r.2.length (g.get_out_arcs neighbour).length
        (g.get_rev_out_arcs neighbour).length 1
      if old_key ≠ new_key then do
        let queue1 ← queue.change_key c ⟨neighbour, new_key⟩
        update_neighbours c fuel g rest r.1 queue1
      else update_neighbours c fuel g rest r.1 queue
    else update_neighbours c fuel g rest ds queue

/-- One pass of the `while (!queue.empty())` loop of `contract_by_queue`. -/
def queue_step (c : Constants) (fuel : Nat) (st : QueueState) : Outcome QueueState := do
  let r ← st.queue.pop
  let best := r.1.id
  let ranking ← vec_set st.ranking best (to_u32 st.cur_rank)
  let neighbour_list := (st.g.get_out_arcs best).map Edge.target ++
    (st.g.get_rev_out_arcs best).map Edge.target
  let cn ← contract_node c fuel st.g best st.ds
  let caller_g := cn.2.2.foldl (fun acc sc => acc.add_edge sc.1 sc.2) st.caller_g
  let un ← update_neighbours c fuel cn.1 neighbour_list cn.2.1 r.2
  pure { caller_g := caller_g, g := cn.1, queue := un.2, ds := un.1, ranking := ranking,
         cur_rank := to_int (to_u32 (st.cur_rank + 1)) }

/-- The `while (!queue.empty())` loop of `contract_by_queue`. -/
def queue_loop (c : Constants) (fuel : Nat) : Nat → QueueState → Outcome QueueState
  | 0, _ => Outcome.no_fuel
  | k + 1, st =>
    if st.queue.empty then Outcome.ok st
    else do
      let st1 ← queue_step c fuel st
      queue_loop c fuel k st1

/-- `ContractionHierarchy contract_by_queue(Graph& _g)`: the returned hierarchy and the
caller's graph afterwards. -/
def contract_by_queue (c : Constants) (fuel : Nat) (caller_g : Graph) :
    Outcome (ContractionHierarchy × Graph) := do
  let g := caller_g
  let queue ← get_initial_queue c fuel g
  let _ ← queue.peek
  let st ← queue_loop c fuel fuel
    { caller_g := caller_g, g := g, queue := queue, ds := DijkstraService.new c g,
      ranking := List.replicate g.size 0, cur_rank := 0 }
  let split := split_graph st.g st.ranking
  pure (⟨split.1, split.2, st.ranking⟩, st.caller_g)

/-- The query of `test_bottom_up_order`: `contract_by_queue(g)`, then `dijkstra_on_ch` with
two fresh services on the forward and the backward graph of the returned hierarchy. -/
def queue_ch_query (c : Constants) (fuel : Nat) (g : Graph) (s t : Nat)
    (calculate_path : Bool) : Outcome Path := do
  let r ← contract_by_queue c fuel g
  dijkstra_on_ch c fuel s t (DijkstraService.new c r.1.forward_graph)
    (DijkstraService.new c r.1.backward_graph) calculate_path

end PenAstar

namespace PenAstar

/-! ### PenaltyService (penalty.h) -/

/-- The floating-point expressions of penalty.h, as parameters of the embedding: each field
is the value the expression yields for the members `penalty_factor`, `alpha`, `eps` and
`delta` of the service.
* `penalize w`: `w * (1 + penalty_factor)` converted to `uint32_t`;
* `rejoin_penalty l`: `alpha * std::sqrt(l)` converted to `uint32_t`;
* `within_eps a b`: the comparison `a <= (1 + eps) * b`;
* `long_enough a b`: the comparison `a >= delta * b`. -/
structure PenaltyParams where
  penalize : Nat → Nat
  rejoin_penalty : Nat → Nat
  within_eps : Nat → Nat → Bool
  long_enough : Nat → Nat → Bool

/-- The four expressions for member values `penalty_factor`, `eps` and `delta`, evaluated as
the compiler evaluates them: an integer operand that meets a `float` is converted to `float`,
every sum and product is rounded to `float`, and a `float` stored in a `uint32_t` is
truncated.
* `w * (1 + penalty_factor)`: `float(w) * (1.0f + penalty_factor)`, truncated;
* `a <= (1 + eps) * b`: `float(a) <= (1.0f + eps) * float(b)`;
* `a >= delta * b`: `float(a) >= delta * float(b)`;
* `alpha * std::sqrt(l)` with `alpha = 0.5`: the integer argument selects the `double`
  overload of `std::sqrt` and the product is a `double`; for `l < 2^32` the correctly
  rounded root of a non-square lies further from every even integer than the spacing of
  `double`, so the truncated product is `⌊√l / 2⌋`. -/
def float_params (penalty_factor eps delta : F32) : PenaltyParams :=
  { penalize := fun w =>
      (F32.mul (F32.of_nat w) (F32.add (F32.of_nat 1) penalty_factor)).to_uint32
    rejoin_penalty := fun l => Nat.sqrt (l / 4)
    within_eps := fun a b =>
      F32.le (F32.of_nat a) (F32.mul (F32.add (F32.of_nat 1) eps) (F32.of_nat b))
    long_enough := fun a b => F32.le (F32.mul delta (F32.of_nat b)) (F32.of_nat a) }

/-- The default members `float penalty_factor = 0.04; float alpha = 0.5; float eps = 0.1;
float delta = 0.1;`: each literal is the nearest `float`. -/
def defaultParams : PenaltyParams :=
  float_params (F32.round 4 100) (F32.round 1 10) (F32.round 1 10)

/-- `struct Detour { node_t a; node_t b; uint32_t length; }`. -/
structure Detour where
  a : Nat
  b : Nat
  length : Nat
deriving DecidableEq, Repr

/-- `class PenaltyService` (the float members are in `PenaltyParams`; `best_path_length` is
never read). The services `astar` and `alt_graph_dijkstra` hold references to
`penalized_graph` and `alt_graph`: their field `g` is set to the current graph at each
use. -/
structure PenaltyService where
  max_iterations : Nat
  g : Graph
  penalized_graph : Graph
  alt_graph : Graph
  alt_graph_dijkstra : DijkstraService
  source : Nat
  target : Nat
  astar : BidirectionalAStarService
  node_set : BoolSet
deriving DecidableEq, Repr

namespace PenaltyService

/-- Constructor `PenaltyService(const Graph& g, const ContractionHierarchy& ch)`. -/
def new (c : Constants) (g : Graph) (ch : ContractionHierarchy) : PenaltyService :=
  { max_iterations := 20
    g := g
    penalized_graph := g
    alt_graph := Graph.new g.size
    alt_graph_dijkstra := DijkstraService.new c (Graph.new g.size)
    source := c.invalid_id
    target := c.invalid_id
    astar := BidirectionalAStarService.new c g ch
    node_set := BoolSet.new g.size }

/-- `void set_source(node_t n)`. -/
def set_source (s : PenaltyService) (n : Nat) : PenaltyService := { s with source := n }

/-- `void set_target(node_t n)`. -/
def set_target (s : PenaltyService) (n : Nat) : PenaltyService := { s with target := n }

/-- `Path get_shortest_path()`: `astar.run(source, target)` under the interleaving `sched`. -/
def get_shortest_path (c : Constants) (fuel : Nat) (sched : List Bool) (s : PenaltyService) :
    Outcome (Path × PenaltyService) := do
  let r ← BidirectionalAStarService.run c fuel sched { s.astar with g := s.penalized_graph }
    s.source s.target
  pure (r.1, { s with astar := r.2 })

/-- The loop of `add_path_to_graph` over the pairs `nodes[i], nodes[i + 1]`. -/
def add_path_loop (c : Constants) (g : Graph) : List Nat → Graph → Graph
  | a :: b :: rest, acc =>
    add_path_loop c g (b :: rest) (acc.add_edge a ⟨b, g.get_edge_weight c a b⟩)
  | _, acc => acc

/-- `void add_path_to_graph(const Path& path, Graph& g)`; `this->g` is the first argument.
For an empty node list the bound `path.nodes.size() - 1` wraps round and the first pass
reads `path.nodes[0]` outside the vector. -/
def add_path_to_graph (c : Constants) (g : Graph) (path : Path) (acc : Graph) : Outcome Graph :=
  if path.nodes = [] then Outcome.out_of_range
  else Outcome.ok (add_path_loop c g path.nodes acc)

/-- First loop of `apply_penalties`: the edges of the path. -/
def penalize_path (p : PenaltyParams) (c : Constants) : List Nat → Graph → Graph
  | u :: v :: rest, pen =>
    penalize_path p c (v :: rest)
      (pen.change_edge_weight u v (p.penalize (pen.get_edge_weight c u v)))
  | _, pen => pen

/-- Inner loop of the second loop of `apply_penalties` over the in-arcs of `v`; `prev` is
`path.nodes[i - 1]`, absent for `i = 0`. -/
def penalize_rejoin_arcs (c : Constants) (rejoin_penalty : Nat) (v : Nat) (prev : Option Nat) :
    List Nat → Graph → Graph
  | [], pen => pen
  | u :: rest, pen =>
    if prev = none ∨ some u ≠ prev then
      penalize_rejoin_arcs c rejoin_penalty v prev rest
        (pen.change_edge_weight u v ((pen.get_edge_weight c u v + rejoin_penalty) % wrap32))
    else penalize_rejoin_arcs c rejoin_penalty v prev rest pen

/-- Second loop of `apply_penalties` over the nodes of the path. -/
def penalize_rejoin (c : Constants) (rejoin_penalty : Nat) : Option Nat → List Nat → Graph → Graph
  | _, [], pen => pen
  | prev, v :: rest, pen =>
    penalize_rejoin c rejoin_penalty (some v) rest
      (penalize_rejoin_arcs c rejoin_penalty v prev ((pen.get_rev_out_arcs v).map Edge.target) pen)

/-- `void apply_penalties(const Path& path, uint32_t optimal_path_length)` on
`penalized_graph`. The bound `path.nodes.size() - 1` of the first loop wraps round for an
empty node list. -/
def apply_penalties (p : PenaltyParams) (c : Constants) (path : Path)
    (optimal_path_length : Nat) (pen : Graph) : Outcome Graph :=
  if path.nodes = [] then Outcome.out_of_range
  else
    Outcome.ok (penalize_rejoin c (p.rejoin_penalty optimal_path_length) none path.nodes
      (penalize_path p c path.nodes pen))

/-- `get_path_intersection(path, comp)`: the returned vector and `node_set` afterwards. -/
def get_path_intersection (node_set : BoolSet) (path comp : Path) : List Nat × BoolSet :=
  let ns := comp.nodes.foldl BoolSet.set node_set.clear
  (path.nodes.filter (fun n => ns.has n), ns)

/-- The local variables of `get_detours`. -/
structure DetourState where
  ret : List Detour
  detour_start : Nat
  detour_dist : Nat
  in_detour : Bool
  intersection_index : Nat
deriving DecidableEq, Repr

/-- The loop of `get_detours`; `prev` is `path.nodes[i - 1]`, absent for `i = 0`, and the
list holds `path.nodes[i], path.nodes[i + 1], ...`. -/
def detour_loop (c : Constants) (g : Graph) (intersection : List Nat) :
    Option Nat → List Nat → DetourState → Outcome DetourState
  | _, [], st => Outcome.ok st
  | prev, node :: rest, st => do
    let x ← vec_get intersection st.intersection_index
    if ¬ st.in_detour then
      if node ≠ x then
        match prev with
        | none => Outcome.out_of_range
        | some pr =>
          detour_loop c g intersection (some node) rest
            { st with in_detour := true, detour_start := pr
                      detour_dist := g.get_edge_weight c pr node }
      else
        detour_loop c g intersection (some node) rest
          { st with intersection_index := st.intersection_index + 1 }
    else
      match prev with
      | none => Outcome.out_of_range
      | some pr =>
        if node = x then
          detour_loop c g intersection (some node) rest
            { st with
              in_detour := false
              detour_dist := (st.detour_dist + g.get_edge_weight c pr node) % wrap32
              ret := st.ret ++ [⟨st.detour_start, node,
                (st.detour_dist + g.get_edge_weight c pr node) % wrap32⟩] }
        else
          detour_loop c g intersection (some node) rest
            { st with detour_dist := (st.detour_dist + g.get_edge_weight c pr node) % wrap32 }

/-- `std::vector<Detour> get_detours(const Path& path, const Path& comp)`, with `node_set`
afterwards. -/
def get_detours (c : Constants) (g : Graph) (node_set : BoolSet) (path comp : Path) :
    Outcome (List Detour × BoolSet) := do
  let r := get_path_intersection node_set path comp
  let st ← detour_loop c g r.1 none path.nodes ⟨[], c.invalid_id, 0, false, 0⟩
  pure (st.ret, r.2)

/-- The loop of `is_feasible` over the detours: the two flags and the Dijkstra service on
`alt_graph`. -/
def feasible_loop (p : PenaltyParams) (c : Constants) (fuel : Nat) (orig_length : Nat) :
    List Detour → Bool → Bool → DijkstraService → Outcome (Bool × Bool × DijkstraService)
  | [], long, good, ds => Outcome.ok (long, good, ds)
  | d :: rest, long, good, ds =>
    if p.long_enough d.length orig_length then do
      let ds1 ← (ds.set_source c d.a).run_until_target_found fuel d.b
      feasible_loop p c fuel orig_length rest true
        (if p.within_eps d.length (ds1.get_dist d.b) then true else good) (ds1.finish c)
    else feasible_loop p c fuel orig_length rest long good ds

/-- `bool is_feasible(const Path& path, const Path& orig_path)`. -/
def is_feasible (p : PenaltyParams) (c : Constants) (fuel : Nat) (s : PenaltyService)
    (path orig_path : Path) : Outcome (Bool × PenaltyService) :=
  if path.length = c.inf_weight then Outcome.ok (false, s)
  else do
    let d ← get_detours c s.g s.node_set path orig_path
    let r ← feasible_loop p c fuel orig_path.length d.1 false false
      { s.alt_graph_dijkstra with g := s.alt_graph }
    pure (r.1 && r.2.1, { s with node_set := d.2, alt_graph_dijkstra := r.2.2 })

/-- The local variables of `run` together with the service. -/
structure PenaltyRun where
  service : PenaltyService
  original_path : Path
  alt_path : Path
  iterations : Nat
deriving DecidableEq, Repr

/-- The part of `run` before the loop: the first search and `add_path_to_graph`. -/
def run_init (c : Constants) (fuel : Nat) (sched : List Bool) (s : PenaltyService) :
    Outcome PenaltyRun := do
  let r ← get_shortest_path c fuel sched s
  let alt ← add_path_to_graph c r.2.g r.1 r.2.alt_graph
  pure ⟨{ r.2 with alt_graph := alt }, r.1, r.1, 0⟩

/-- The test of the `while` loop of `run`. -/
def run_continues (p : PenaltyParams) (st : PenaltyRun) : Bool :=
  p.within_eps st.alt_path.length st.original_path.length &&
    decide (st.iterations < st.service.max_iterations)

/-- The body of the `while` loop of `run`. -/
def run_body (p : PenaltyParams) (c : Constants) (fuel : Nat) (sched : List Bool)
    (st : PenaltyRun) : Outcome PenaltyRun := do
  let pen ← apply_penalties p c st.alt_path st.original_path.length
    st.service.penalized_graph
  let r ← get_shortest_path c fuel sched { st.service with penalized_graph := pen }
  let f ← is_feasible p c fuel r.2 r.1 st.original_path
  if f.1 then do
    let alt ← add_path_to_graph c f.2.g r.1 f.2.alt_graph
    pure ⟨{ f.2 with alt_graph := alt }, st.original_path, r.1, (st.iterations + 1) % wrap32⟩
  else pure ⟨f.2, st.original_path, r.1, (st.iterations + 1) % wrap32⟩

/-- The `while` loop of `run`, at most `k` passes of it; `scheds` gives the interleaving of
the two search threads for each pass. -/
def run_loop (p : PenaltyParams) (c : Constants) (fuel : Nat) :
    Nat → List (List Bool) → PenaltyRun → Outcome PenaltyRun
  | 0, _, st => Outcome.ok st
  | k + 1, scheds, st =>
    if run_continues p st then do
      let st1 ← run_body p c fuel (scheds.headD []) st
      run_loop p c fuel k scheds.tail st1
    else Outcome.ok st

/-- `void run()`: the service afterwards. The loop makes at most `max_iterations` passes. -/
def run (p : PenaltyParams) (c : Constants) (fuel : Nat) (scheds : List (List Bool))
    (s : PenaltyService) : Outcome PenaltyService := do
  let st ← run_init c fuel (scheds.headD []) s
  let st1 ← run_loop p c fuel s.max_iterations scheds.tail st
  pure st1.service

/-- `const Graph& get_alt_graph()`. -/
def get_alt_graph (s : PenaltyService) : Graph := s.alt_graph

end PenaltyService

end PenAstar

namespace PenAstar

/-- The ladder of scenario S3: two disjoint paths from 0 to 9 of five arcs each,
0→1→2→3→4→9 and 0→5→6→7→8→9, every arc of weight 1. -/
def ladder : Graph :=
  ((((((((((Graph.new 10).add_edge 0 ⟨1, 1⟩).add_edge 1 ⟨2, 1⟩).add_edge 2 ⟨3, 1⟩).add_edge 3
    ⟨4, 1⟩).add_edge 4 ⟨9, 1⟩).add_edge 0 ⟨5, 1⟩).add_edge 5 ⟨6, 1⟩).add_edge 6 ⟨7, 1⟩).add_edge 7
    ⟨8, 1⟩).add_edge 8 ⟨9, 1⟩

/-- A penalty run from `s` to `t` on a fresh `PenaltyService` over `g` and the hierarchy
`ch`, stopped after at most `k` passes of the loop of `run`: the original path, the last
candidate path and `alt_graph`. -/
def penalty_passes_on (p : PenaltyParams) (c : Constants) (fuel : Nat) (g : Graph)
    (ch : ContractionHierarchy) (scheds : List (List Bool)) (k : Nat) (s t : Nat) :
    Outcome (Path × Path × Graph) := do
  let st ← PenaltyService.run_init c fuel (scheds.headD [])
    (((PenaltyService.new c g ch).set_source s).set_target t)
  let st1 ← PenaltyService.run_loop p c fuel k scheds.tail st
  pure (st1.original_path, st1.alt_path, st1.service.alt_graph)

/-- The same on the hierarchy that `contract_graph` builds from a copy of `g`. -/
def penalty_passes (p : PenaltyParams) (c : Constants) (fuel : Nat) (g : Graph)
    (order : List Nat) (scheds : List (List Bool)) (k : Nat) (s t : Nat) :
    Outcome (Path × Path × Graph) := do
  let ch ← contract_graph c fuel g order
  penalty_passes_on p c fuel g ch scheds k s t

/-- A call `run()` for the pair `s`, `t` on a fresh `PenaltyService` over `g` and the
hierarchy of `contract_graph`: the result of `get_alt_graph()` afterwards. -/
def penalty_query (p : PenaltyParams) (c : Constants) (fuel : Nat) (g : Graph)
    (order : List Nat) (scheds : List (List Bool)) (s t : Nat) : Outcome Graph := do
  let ch ← contract_graph c fuel g order
  let sv ← PenaltyService.run p c fuel scheds
    (((PenaltyService.new c g ch).set_source s).set_target t)
  pure sv.get_alt_graph

/-- The graph of the detour example: the path 0→1→2→3 with arc weights 10, 48, 42, the
detour 0→4→1 (6, 6) and the detour 1→5→6→2 (10, 20, 20). -/
def two_detours : Graph :=
  ((((((((Graph.new 7).add_edge 0 ⟨1, 10⟩).add_edge 1 ⟨2, 48⟩).add_edge 2 ⟨3, 42⟩).add_edge 0
    ⟨4, 6⟩).add_edge 4 ⟨1, 6⟩).add_edge 1 ⟨5, 10⟩).add_edge 5 ⟨6, 20⟩).add_edge 6 ⟨2, 20⟩

/-- A call `is_feasible(path, orig_path)` on a service over `g` whose `alt_graph` holds the
edges of `orig_path` (the state of `run` after its first `add_path_to_graph`). -/
def feasibility_query (p : PenaltyParams) (c : Constants) (fuel : Nat) (g : Graph)
    (ch : ContractionHierarchy) (path orig_path : Path) : Outcome Bool := do
  let alt ← PenaltyService.add_path_to_graph c g orig_path (Graph.new g.size)
  let r ← PenaltyService.is_feasible p c fuel
    { PenaltyService.new c g ch with alt_graph := alt } path orig_path
  pure r.1

/-- The node list `d` is a detour of `path` with respect to `comp`: a contiguous piece of
`path` with at least one interior node, whose two end nodes are on `comp` and whose
interior nodes are not. -/
def IsDetour (path comp d : List Nat) : Prop :=
  ∃ pre post a mid b, d = a :: (mid ++ [b]) ∧ path = pre ++ d ++ post ∧ mid ≠ [] ∧
    a ∈ comp ∧ b ∈ comp ∧ ∀ x ∈ mid, x ∉ comp

/-- Length of a node list in the weights of `g`. -/
def path_weight (c : Constants) (g : Graph) : List Nat → Nat
  | a :: b :: rest => g.get_edge_weight c a b + path_weight c g (b :: rest)
  | _ => 0

end PenAstar

namespace PenAstar

/-- The graph `g` stores an arc from `a` to `b`. -/
def HasArc (g : Graph) (a b : Nat) : Prop := ∃ e ∈ g.get_out_arcs a, e.target = b

/-- The two graphs store arcs between the same pairs of nodes. -/
def SameArcs (g pen : Graph) : Prop := ∀ a b, HasArc pen a b ↔ HasArc g a b

/-- Every arc of `alt` is an arc of `g`, with the weight it has in `g`. -/
def ArcsFrom (g alt : Graph) : Prop := ∀ u e, e ∈ alt.get_out_arcs u → e ∈ g.get_out_arcs u

/-- Parent entries of a bidirectional search on `g` in epoch `T`: a forward parent entry
`p` of `x` comes with the arc `p → x`, a reverse parent entry `q` of `x` with the arc
`x → q`, and no stamp is newer than the epoch. -/
structure ParInv (c : Constants) (g : Graph) (T : Nat) (b : BidirectionalAStarService) :
    Prop where
  hg : b.g = g
  hfd : b.par_f.default_value = c.invalid_id
  hrd : b.par_r.default_value = c.invalid_id
  hft : b.par_f.t = T
  hrt : b.par_r.t = T
  hfs : ∀ p ∈ b.par_f.vec, p.2 ≤ b.par_f.t
  hrs : ∀ p ∈ b.par_r.vec, p.2 ≤ b.par_r.t
  hf : ∀ x, b.par_f.get x ≠ c.invalid_id → HasArc g (b.par_f.get x) x
  hr : ∀ x, b.par_r.get x ≠ c.invalid_id → HasArc g x (b.par_r.get x)

/-- Parent vectors between two searches, in epoch `T`: every stamp is older than the
epoch. -/
structure ParFresh (c : Constants) (T : Nat) (b : BidirectionalAStarService) : Prop where
  hT : 0 < T
  hfd : b.par_f.default_value = c.invalid_id
  hrd : b.par_r.default_value = c.invalid_id
  hft : b.par_f.t = T
  hrt : b.par_r.t = T
  hfs : ∀ p ∈ b.par_f.vec, p.2 < T
  hrs : ∀ p ∈ b.par_r.vec, p.2 < T

/-- The fields of a search state that the parent invariant speaks about are the same. -/
def CoreEq (b b' : BidirectionalAStarService) : Prop :=
  b'.g = b.g ∧ b'.par_f = b.par_f ∧ b'.par_r = b.par_r

/-- Invariant of `PenaltyService::run` on the input graph `g`, with the searches in epoch
`T`. -/
structure PenInv (c : Constants) (g : Graph) (T : Nat) (sv : PenaltyService) : Prop where
  hg : sv.g = g
  hpc : sv.penalized_graph.Consistent
  hps : SameArcs g sv.penalized_graph
  hac : sv.alt_graph.Consistent
  han : sv.alt_graph.size = g.size
  ha : ArcsFrom g sv.alt_graph
  hfresh : ParFresh c T sv.astar

/-- Invariant of the loop of `PenaltyService::run`: the service invariant in the epoch
that the pass counter gives, a candidate path along arcs of `g`, and a pass counter within
its bound. -/
structure RunInv (c : Constants) (g : Graph) (st : PenaltyService.PenaltyRun) : Prop where
  hinv : PenInv c g (st.iterations + 2) st.service
  hpath : List.Chain' (HasArc g) st.alt_path.nodes
  hit : st.iterations ≤ st.service.max_iterations
  hmax : st.service.max_iterations + 3 < wrap32

end PenAstar

/-!
pen-astar: proof devices for the bidirectional search (astar.h). The two potential classes
are related by a simulation, and the two directions of the search are viewed through one
record `Side`, on which the shared shape of `step_f` and `step_r` is stated once.
-/

namespace PenAstar

/-- Every sequence of calls `operator()(node)` with nodes below `n` on the service `s`
returns the values of `pi`. -/
def PotF (fuel n : Nat) (pi : Nat → Nat) (s : CHPotentialService) : Prop :=
  ∀ qs : List Nat, (∀ x ∈ qs, x < n) →
    ∃ s', CHPotentialService.queries fuel s qs = Outcome.ok (qs.map pi, s')

/-- The reverse service `r` and the forward service `s` hold the same data with the roles
of the two graphs exchanged. -/
def PotSim (r : ReverseCHPotentialService) (s : CHPotentialService) : Prop :=
  r.ch.backward_graph = s.forward_graph ∧ r.forward_search = s.backward_search ∧
    r.potentials = s.potentials

/-- Every sequence of calls on the reverse service `r` returns the values of `pi`. -/
def PotR (fuel n : Nat) (pi : Nat → Nat) (r : ReverseCHPotentialService) : Prop :=
  ∃ s, PotSim r s ∧ PotF fuel n pi s

/-- The data of one direction of `BidirectionalAStarService`: its own vectors, queue and
closed set, the closed set and distances of the other direction, and the shared pair
`tentative_dist`, `best_node`. -/
structure Side where
  dist : TimestampVector
  par : TimestampVector
  q : MinIDQueue
  closed : BoolSet
  closedO : BoolSet
  distO : TimestampVector
  tent : Nat
  best : Nat

namespace Side

/-- The meeting test of a relaxation: `g` is the distance offered to the target of `arc`. -/
def meet (g : Nat) (arc : Edge) (σ : Side) : Side :=
  if σ.closedO.has arc.target ∧ (g + σ.distO.get arc.target) % wrap32 < σ.tent
  then { σ with tent := (g + σ.distO.get arc.target) % wrap32, best := arc.target }
  else σ

/-- The distance update of a relaxation with its queue operation. -/
def improve (heur : Nat → Nat) (best : Nat) (arc : Edge) (g : Nat) (σ : Side) : Side :=
  if g < σ.dist.get arc.target then
    let σ3 : Side := { σ with dist := σ.dist.set arc.target g,
                              par := σ.par.set arc.target best }
    let k := (σ3.dist.get arc.target + heur arc.target) % wrap32
    if σ3.q.contains_id arc.target then
      { σ3 with q := σ3.q.decrease_key ⟨arc.target, k⟩ }
    else { σ3 with q := σ3.q.push ⟨arc.target, k⟩ }
  else σ

/-- The body of the arc loop of `step_f` and `step_r` on the data of the direction, with
the potential `pot` and the averaged heuristic `heur` as functions: pruning, meeting test,
distance update. -/
def relax (pot heur : Nat → Nat) (best : Nat) (arc : Edge) (σ : Side) : Side :=
  let g := (σ.dist.get best + arc.weight) % wrap32
  if (g + pot arc.target) % wrap32 ≥ σ.tent then σ
  else improve heur best arc g (meet g arc σ)

/-- The arc loop of a step. -/
def relax_arcs (pot heur : Nat → Nat) (best : Nat) : List Edge → Side → Side
  | [], σ => σ
  | arc :: rest, σ => relax_arcs pot heur best rest (relax pot heur best arc σ)

/-- A node is settled in a direction when it is closed and no longer queued. -/
def done (σ : Side) (x : Nat) : Prop := σ.closed.has x = true ∧ σ.q.contains_id x = false

instance (σ : Side) (x : Nat) : Decidable (σ.done x) := by
  unfold done
  infer_instance

/-- The settled nodes below `n`. -/
def doneSet (n : Nat) (σ : Side) : Finset Nat := (Finset.range n).filter (fun x => σ.done x)

/-- Key at the top of the queue, `inf_weight` when the queue is empty: the value that the
thread stores in `k_f` or `k_r` after a step. -/
def top_key (c : Constants) (σ : Side) : Nat :=
  match σ.q.peek with
  | some p => p.key
  | none => c.inf_weight

end Side

namespace BidirectionalAStarService

/-- The forward direction of the service. -/
def viewF (b : BidirectionalAStarService) : Side :=
  ⟨b.dist_f, b.par_f, b.q_f, b.closed_f, b.closed_r, b.dist_r, b.tentative_dist, b.best_node⟩

/-- The reverse direction of the service. -/
def viewR (b : BidirectionalAStarService) : Side :=
  ⟨b.dist_r, b.par_r, b.q_r, b.closed_r, b.closed_f, b.dist_f, b.tentative_dist, b.best_node⟩

/-- Writes the data of the forward direction back. -/
def putF (σ : Side) (b : BidirectionalAStarService) : BidirectionalAStarService :=
  { b with dist_f := σ.dist, par_f := σ.par, q_f := σ.q, closed_f := σ.closed,
           tentative_dist := σ.tent, best_node := σ.best }

/-- Writes the data of the reverse direction back. -/
def putR (σ : Side) (b : BidirectionalAStarService) : BidirectionalAStarService :=
  { b with dist_r := σ.dist, par_r := σ.par, q_r := σ.q, closed_r := σ.closed,
           tentative_dist := σ.tent, best_node := σ.best }

end BidirectionalAStarService

end PenAstar

namespace PenAstar

open BidirectionalAStarService

/-- The arc relation of a direction: `e` is listed among the arcs that leave `u`. -/
def ArcRel (arcs : Nat → List Edge) (u : Nat) (e : Edge) : Prop := e ∈ arcs u

/-- What one direction of the search is run on: arcs with targets below `n` and weights
below `M`, a source and a destination at distance `D`, the potential `rho` from the source
and the potential `tau` to the destination, both exact and capped at `inf_weight`. -/
structure SideCtx (c : Constants) (n : Nat) (arcs : Nat → List Edge) (src dst : Nat)
    (rho tau : Nat → Nat) (D M : Nat) : Prop where
  hsrc : src < n
  hdst : dst < n
  hne : src ≠ dst
  hid : n ≤ c.invalid_id
  harcs : ∀ u e, e ∈ arcs u → e.target < n ∧ e.weight < M
  hD : Walk (ArcRel arcs) src dst D
  hDmin : ∀ d, Walk (ArcRel arcs) src dst d → D ≤ d
  hDM : D < M
  hM : 4 * M ≤ c.inf_weight
  h2 : 2 * c.inf_weight ≤ wrap32
  hrho_inf : ∀ x, rho x ≤ c.inf_weight
  htau_inf : ∀ x, tau x ≤ c.inf_weight
  hrho_le : ∀ x d, Walk (ArcRel arcs) src x d → rho x ≤ d
  hrho_walk : ∀ x, x < n → rho x < c.inf_weight → Walk (ArcRel arcs) src x (rho x)
  htau_le : ∀ x d, x < n → Walk (ArcRel arcs) x dst d → tau x ≤ d
  htau_walk : ∀ x, x < n → tau x < c.inf_weight → Walk (ArcRel arcs) x dst (tau x)

/-- Invariant of one direction of the search. `best` is the node whose arcs are being
relaxed and `pending` the arcs of it that are still to come (empty between two steps). -/
structure SideInv (c : Constants) (n : Nat) (arcs : Nat → List Edge) (src dst : Nat)
    (rho tau : Nat → Nat) (D M : Nat) (best : Nat) (pending : List Edge) (σ : Side) :
    Prop where
  hdl : σ.dist.vec.length = n
  hpl : σ.par.vec.length = n
  hcl : σ.closed.vec.length = n
  hsound : ∀ x, σ.dist.get x < c.inf_weight →
    x < n ∧ Walk (ArcRel arcs) src x (σ.dist.get x) ∧ σ.dist.get x ≤ D + M
  hle : ∀ x, σ.dist.get x ≤ c.inf_weight
  hq : ∀ p ∈ σ.q.entries, p.id < n ∧ σ.dist.get p.id < c.inf_weight ∧
    tau p.id < c.inf_weight ∧ p.key = σ.dist.get p.id + avg32 (tau p.id) D (rho p.id)
  hqn : (σ.q.entries.map IDKeyPair.id).Nodup
  hdone : ∀ x, σ.done x → σ.dist.get x = rho x ∧ σ.dist.get x ≤ D ∧ x < n
  hrel : ∀ x, σ.done x → ∀ e ∈ arcs x, (x = best ∧ e ∈ pending) ∨
    σ.dist.get e.target ≤ σ.dist.get x + e.weight ∨
    σ.tent ≤ σ.dist.get x + e.weight + tau e.target
  htrack : ∀ x, σ.dist.get x < c.inf_weight →
    σ.q.contains_id x = true ∨ σ.closed.has x = true
  hsrc0 : σ.dist.get src = 0
  hdstm : σ.dist.get dst < c.inf_weight → σ.tent ≤ σ.dist.get dst
  htD : D ≤ σ.tent
  hti : σ.tent ≤ c.inf_weight
  hpsrc : σ.par.get src = c.invalid_id
  hpar : ∃ ord : Nat → Nat, (∀ x, σ.done x → ord x < (σ.doneSet n).card) ∧
    ∀ x, σ.dist.get x < c.inf_weight → x ≠ src →
      σ.done (σ.par.get x) ∧ ord (σ.par.get x) < ord x ∧
      ∃ e ∈ arcs (σ.par.get x), e.target = x ∧
        σ.dist.get (σ.par.get x) + e.weight = σ.dist.get x

/-- What a direction knows of the other one: its distances are weights of walks to the
destination, and the destination is closed there at distance 0. -/
structure SideOther (c : Constants) (arcs : Nat → List Edge) (dst : Nat) (σ : Side) :
    Prop where
  hO : ∀ x, σ.distO.get x < c.inf_weight → Walk (ArcRel arcs) x dst (σ.distO.get x)
  hOle : ∀ x, σ.distO.get x ≤ c.inf_weight
  hOc : σ.closedO.has dst = true
  hOd : σ.distO.get dst = 0

/-- The meeting node carries the tentative distance: the two distances of `best_node` sum
to at most `tentative_dist` once it is below `inf_weight`. -/
def Side.Meet (c : Constants) (σ : Side) : Prop :=
  σ.tent < c.inf_weight → σ.dist.get σ.best + σ.distO.get σ.best ≤ σ.tent

/-- The four potential services of a bidirectional search answer with `pf` (to the
target) and `pr` (from the source). -/
structure PotsOK (fuel n : Nat) (pf pr : Nat → Nat) (b : BidirectionalAStarService) :
    Prop where
  hf1 : PotF fuel n pf b.pot_f1
  hf2 : PotF fuel n pf b.pot_f2
  hr1 : PotR fuel n pr b.pot_r1
  hr2 : PotR fuel n pr b.pot_r2

/-- Invariant of `BidirectionalAStarService::run(s, t)` on the graph `g` between two loop
passes of the threads. -/
structure BiInv (c : Constants) (fuel : Nat) (g : Graph) (s t : Nat) (pf pr : Nat → Nat)
    (D M : Nat) (b : BidirectionalAStarService) : Prop where
  hg : b.g = g
  hs : b.source = s
  ht : b.target = t
  hpots : PotsOK fuel g.size pf pr b
  hF : SideInv c g.size g.get_out_arcs s t pr pf D M 0 [] b.viewF
  hR : SideInv c g.size g.get_rev_out_arcs t s pf pr D M 0 [] b.viewR
  hmeet : b.viewF.Meet c
  hkf : b.k_f = b.viewF.top_key c
  hkr : b.k_r = b.viewR.top_key c
  hk : b.k_f = D ∨ b.k_r = D
  hcf : b.closed_f.has s = true
  hcr : b.closed_r.has t = true

/-- What a step of the forward thread leaves alone. -/
structure FrameF (b b' : BidirectionalAStarService) : Prop where
  hg : b'.g = b.g
  hs : b'.source = b.source
  ht : b'.target = b.target
  hkf : b'.k_f = b.k_f
  hkr : b'.k_r = b.k_r
  hd : b'.dist_r = b.dist_r
  hp : b'.par_r = b.par_r
  hq : b'.q_r = b.q_r
  hc : b'.closed_r = b.closed_r

/-- What a step of the reverse thread leaves alone. -/
structure FrameR (b b' : BidirectionalAStarService) : Prop where
  hg : b'.g = b.g
  hs : b'.source = b.source
  ht : b'.target = b.target
  hkf : b'.k_f = b.k_f
  hkr : b'.k_r = b.k_r
  hd : b'.dist_f = b.dist_f
  hp : b'.par_f = b.par_f
  hq : b'.q_f = b.q_f
  hc : b'.closed_f = b.closed_f

/-- The setting of a bidirectional query from `s` to `t` on the consistent graph `g`: both
directions have their context, with the potentials `pf` to the target and `pr` from the
source in exchanged roles. -/
structure BiCtx (c : Constants) (g : Graph) (s t : Nat) (pf pr : Nat → Nat) (D M : Nat) :
    Prop where
  hc : g.Consistent
  hF : SideCtx c g.size g.get_out_arcs s t pr pf D M
  hR : SideCtx c g.size g.get_rev_out_arcs t s pf pr D M

/-- Number of nodes that the two directions have not settled yet. -/
def BidirectionalAStarService.todo (n : Nat) (b : BidirectionalAStarService) : Nat :=
  (n - (b.viewF.doneSet n).card) + (n - (b.viewR.doneSet n).card)

/-- `ParChain arcs par src x l d`: the list `l` runs from `x` along the parent entries
`par` to the source `src`, every step against an arc listed at the parent, and the arc
weights sum to `d`. -/
inductive ParChain (arcs : Nat → List Edge) (par : Nat → Nat) (src : Nat) :
    Nat → List Nat → Nat → Prop where
  | base : ParChain arcs par src src [src] 0
  | step {x : Nat} {l : List Nat} {d : Nat} (e : Edge) : x ≠ src → e ∈ arcs (par x) →
      e.target = x → ParChain arcs par src (par x) l d →
      ParChain arcs par src x (x :: l) (d + e.weight)

end PenAstar

namespace PenAstar

/-! ### Call sequences on TimestampVector and BoolSet -/

/-- A call on a `TimestampVector`: `set(index, value)` or `step_time()`. -/
inductive TimestampOp where
  | set (index value : Nat)
  | step_time
deriving DecidableEq, Repr

/-- The call stays inside a vector of `size` entries. -/
def TimestampOp.valid (size : Nat) : TimestampOp → Prop
  | TimestampOp.set index _ => index < size
  | TimestampOp.step_time => True

/-- Effect of one call. -/
def TimestampOp.apply (v : TimestampVector) : TimestampOp → TimestampVector
  | TimestampOp.set index value => v.set index value
  | TimestampOp.step_time => v.step_time

/-- Number of `step_time()` calls in a sequence. -/
def TimestampOp.steps : List TimestampOp → Nat
  | [] => 0
  | TimestampOp.set _ _ :: ops => TimestampOp.steps ops
  | TimestampOp.step_time :: ops => TimestampOp.steps ops + 1

/-- State after a sequence of calls. -/
def TimestampVector.run_ops (v : TimestampVector) (ops : List TimestampOp) : TimestampVector :=
  ops.foldl TimestampOp.apply v

/-- A call on a `BoolSet`: `set(id)` or `clear()`. -/
inductive BoolSetOp where
  | set (id : Nat)
  | clear
deriving DecidableEq, Repr

/-- The call stays inside a set for the ids `[0, size)`. -/
def BoolSetOp.valid (size : Nat) : BoolSetOp → Prop
  | BoolSetOp.set id => id < size
  | BoolSetOp.clear => True

/-- Effect of one call. -/
def BoolSetOp.apply (b : BoolSet) : BoolSetOp → BoolSet
  | BoolSetOp.set id => b.set id
  | BoolSetOp.clear => b.clear

/-- State after a sequence of calls. -/
def BoolSet.run_ops (b : BoolSet) (ops : List BoolSetOp) : BoolSet :=
  ops.foldl BoolSetOp.apply b

/-! ### The return value of main (main.cpp) -/

/-- What the return values of `run_penalty_mode` and `generate_vectors` depend on: which of
the options `cxxopts` reports as present (`parse_result.count(...) != 0`), and the vectors
that `load_vector` reads from the files named by `--source-vector`, `--target-vector` and
`--rank-vector`. -/
structure CommandLine where
  argv : List String
  source : Option Nat
  target : Option Nat
  source_vector : Option (List Nat)
  target_vector : Option (List Nat)
  rank_vector : Option (List Nat)
  limit : Option Nat
deriving DecidableEq, Repr

/-- `int run_penalty_mode(int argn, char** argv)`: the return value. The graph is loaded and
the queries of the work queue are run between the checks and the final `return 0`. -/
def run_penalty_mode (cl : CommandLine) : Int :=
  if cl.source.isSome ∧ cl.target.isSome then 0
  else
    match cl.source_vector, cl.target_vector with
    | some sources, some targets =>
      let rank := match cl.rank_vector with
        | some r => r
        | none => List.replicate sources.length 0
      if sources.length ≠ targets.length then 1
      else if sources.length ≠ rank.length then 1
      else 0
    | _, _ => 0

/-- `int generate_vectors(int argn, char** argv)`: the return value; `mode` is `argv[2]`. -/
def generate_vectors (cl : CommandLine) : Int :=
  let mode := cl.argv.getD 2 ""
  if mode = "random" then
    if cl.limit.isNone then 1 else 0
  else if mode = "rank" then
    if cl.source.isSome then 0
    else if cl.source_vector.isSome then 0
    else 1
  else 1

/-- `int main(int argn, char** argv)`: `return_code` receives the value of the selected mode
and the function ends with `return 0`. -/
def main (cl : CommandLine) : Int :=
  if cl.argv.length < 2 then 1
  else
    let mode := cl.argv.getD 1 ""
    if mode = "run" then
      let _return_code := run_penalty_mode cl
      0
    else if mode = "generate" then
      let _return_code := generate_vectors cl
      0
    else 1

/-! ### Detour example (scenario S6) -/

/-- The graph of scenario S6 with one more detour: the path 0→1→2→3→4 (every arc of weight
1), the detour 1→5→6→3 (weights 2, 3, 4) and the detour 3→7→4 (weights 5, 6). -/
def detour_example : Graph :=
  (((((((((Graph.new 8).add_edge 0 ⟨1, 1⟩).add_edge 1 ⟨2, 1⟩).add_edge 2 ⟨3, 1⟩).add_edge 3
    ⟨4, 1⟩).add_edge 1 ⟨5, 2⟩).add_edge 5 ⟨6, 3⟩).add_edge 6 ⟨3, 4⟩).add_edge 3 ⟨7, 5⟩).add_edge 7
      ⟨4, 6⟩

/-- The detours `get_detours(path, comp)` returns on a service over `g` with a cleared
`node_set`. -/
def detours_of (c : Constants) (g : Graph) (path comp : Path) : Outcome (List Detour) :=
  (PenaltyService.get_detours c g (BoolSet.new g.size) path comp).bind
    (fun r => Outcome.ok r.1)

/-! ### Dijkstra-rank nodes (util.h) -/

/-- Order of `std::pair<uint32_t, node_t>` under `operator<`: by distance, then by node. -/
def pair_le (a b : Nat × Nat) : Prop := a.1 < b.1 ∨ (a.1 = b.1 ∧ a.2 ≤ b.2)

instance : DecidableRel pair_le := fun a b => by unfold pair_le; exact inferInstance

/-- The loop `for (int i = 1; i < dist.size(); i *= 2) ret.push_back(dist[i].second)` of
`get_dijkstra_rank_nodes`. The `int i` is a natural number here: for at most `2 ^ 30`
entries the doubling stays in the range of `int`. -/
def rank_loop (dist : List (Nat × Nat)) : Nat → Nat → List Nat → Outcome (List Nat)
  | 0, _, _ => Outcome.no_fuel
  | fuel + 1, i, ret =>
    if i < dist.length then rank_loop dist fuel (i * 2) (ret ++ [(dist.getD i (0, 0)).2])
    else Outcome.ok ret

/-- `std::vector<node_t> get_dijkstra_rank_nodes(const Graph& g, node_t source)`; `std::sort`
is the sort by `pair_le` (the pairs are distinct, so the sorted vector is determined). -/
def get_dijkstra_rank_nodes (c : Constants) (fuel : Nat) (g : Graph) (source : Nat) :
    Outcome (List Nat) :=
  match ((DijkstraService.new c g).set_source c source).run_until_done fuel with
  | Outcome.ok dij =>
    let dist := (List.range g.size).map (fun i => (dij.get_dist i, i))
    rank_loop (dist.insertionSort pair_le) fuel 1 []
  | Outcome.out_of_range => Outcome.out_of_range
  | Outcome.empty_pop => Outcome.empty_pop
  | Outcome.no_fuel => Outcome.no_fuel

/-! ### A witness search that ends in a tie -/

/-- Nodes 0..4 with the arcs 0→1 (1), 1→2 (1), 0→3 (2), 0→4 (2) and 4→2 (0): from 0 to 2 the
walk 0→4→2 avoids node 1 and weighs 2, as much as the walk 0→1→2 through node 1. -/
def tie_graph : Graph :=
  (((((Graph.new 5).add_edge 0 ⟨1, 1⟩).add_edge 1 ⟨2, 1⟩).add_edge 0 ⟨3, 2⟩).add_edge 0
    ⟨4, 2⟩).add_edge 4 ⟨2, 0⟩

/-- The shortcut list `get_contraction_shortcuts(g, node, dijkstra_service)` returns for a
newly constructed service. -/
def shortcuts_of (c : Constants) (fuel : Nat) (g : Graph) (node : Nat) :
    Outcome (List (Nat × Edge)) :=
  match get_contraction_shortcuts c fuel g node (DijkstraService.new c g) with
  | Outcome.ok r => Outcome.ok r.2
  | Outcome.out_of_range => Outcome.out_of_range
  | Outcome.empty_pop => Outcome.empty_pop
  | Outcome.no_fuel => Outcome.no_fuel

end PenAstar

namespace PenAstar

/-! ### XBDVService (xbdv.h) -/

/-- The floating-point expressions of `run_bdv` and the iteration order of its
`std::unordered_set`, as parameters of the embedding: each field is the value the expression
yields for the arguments `alpha`, `eps` and `gamma` of the call.
* `max_dist l`: `l * (1 + eps)` converted to `uint32_t` (the argument `max_dist`);
* `below_stretch d l`: the comparison `d < (1 + eps) * l`;
* `limited_sharing sh l`: the comparison `sh < gamma * l`;
* `t_range l`: `alpha * l` converted to `uint32_t` (the argument `t` of the T-test);
* `iteration s`: the order in which the range-for loop visits a set whose elements were
  inserted in the order `s`. -/
structure XBDVParams where
  max_dist : Nat → Nat
  below_stretch : Nat → Nat → Bool
  limited_sharing : Nat → Nat → Bool
  t_range : Nat → Nat
  iteration : List Nat → List Nat

/-- The four expressions for arguments `alpha`, `eps` and `gamma`, evaluated as the compiler
evaluates them: an integer operand that meets a `float` is converted to `float`, every sum and
product is rounded to `float`, and a `float` passed for a `uint32_t` parameter is truncated.
* `l * (1 + eps)`: `float(l) * (1.0f + eps)`, truncated;
* `d < (1 + eps) * l`: `float(d) < (1.0f + eps) * float(l)`;
* `sh < gamma * l`: `float(sh) < gamma * float(l)`;
* `alpha * l`: `alpha * float(l)`, truncated. -/
def float_xbdv (alpha eps gamma : F32) (iteration : List Nat → List Nat) : XBDVParams :=
  { max_dist := fun l => (F32.mul (F32.of_nat l) (F32.add (F32.of_nat 1) eps)).to_uint32
    below_stretch := fun d l =>
      F32.lt (F32.of_nat d) (F32.mul (F32.add (F32.of_nat 1) eps) (F32.of_nat l))
    limited_sharing := fun sh l => F32.lt (F32.of_nat sh) (F32.mul gamma (F32.of_nat l))
    t_range := fun l => (F32.mul alpha (F32.of_nat l)).to_uint32
    iteration := iteration }

/-- The default arguments `DEFAULT_ALPHA = 0.25`, `DEFAULT_EPS = 0.25`, `DEFAULT_GAMMA = 0.8`
(each the nearest `float`), the set visited in insertion order. -/
def defaultXBDV : XBDVParams :=
  float_xbdv (F32.round 25 100) (F32.round 25 100) (F32.round 8 10) (fun s => s)

/-- The same arguments with the set visited in reverse insertion order. -/
def defaultXBDV_rev : XBDVParams :=
  float_xbdv (F32.round 25 100) (F32.round 25 100) (F32.round 8 10) (fun s => s.reverse)

/-- `class XBDVService`; an `std::unordered_set<node_t>` is the list of its elements in
insertion order. -/
structure XBDVService where
  g : Graph
  dijkstra_service : DijkstraService
  queue_fwd : MinIDQueue
  dist_vec_fwd : TimestampVector
  parent_vec_fwd : TimestampVector
  search_space_fwd : List Nat
  queue_bwd : MinIDQueue
  dist_vec_bwd : TimestampVector
  parent_vec_bwd : TimestampVector
  search_space_bwd : List Nat
deriving DecidableEq, Repr

/-- `std::unordered_set::insert`. -/
def set_insert (s : List Nat) (x : Nat) : List Nat := if x ∈ s then s else s ++ [x]

namespace XBDVService

/-- Constructor `XBDVService(const Graph& g)`. -/
def new (c : Constants) (g : Graph) : XBDVService :=
  { g := g
    dijkstra_service := DijkstraService.new c g
    queue_fwd := MinIDQueue.new g.size
    dist_vec_fwd := TimestampVector.new g.size c.inf_weight
    parent_vec_fwd := TimestampVector.new g.size c.invalid_id
    search_space_fwd := []
    queue_bwd := MinIDQueue.new g.size
    dist_vec_bwd := TimestampVector.new g.size c.inf_weight
    parent_vec_bwd := TimestampVector.new g.size c.invalid_id
    search_space_bwd := [] }

/-- Body of the loop of `step_forward_search` for one arc `e` of the popped node `best`. -/
def relax_fwd (x : XBDVService) (best : Nat) (e : Edge) : XBDVService :=
  if x.dist_vec_fwd.get e.target > (x.dist_vec_fwd.get best + e.weight) % wrap32 then
    let dist_vec := x.dist_vec_fwd.set e.target ((x.dist_vec_fwd.get best + e.weight) % wrap32)
    let parent_vec := x.parent_vec_fwd.set e.target best
    { x with
      dist_vec_fwd := dist_vec
      parent_vec_fwd := parent_vec
      queue_fwd :=
        if ¬ x.queue_fwd.contains_id e.target then
          x.queue_fwd.push ⟨e.target, dist_vec.get e.target⟩
        else x.queue_fwd.decrease_key ⟨e.target, dist_vec.get e.target⟩ }
  else x

/-- `node_t step_forward_search()`: the popped node and the state afterwards. -/
def step_forward_search (x : XBDVService) : Outcome (Nat × XBDVService) :=
  match x.queue_fwd.pop with
  | none => Outcome.empty_pop
  | some (p, q) =>
    Outcome.ok (p.id, (x.g.get_out_arcs p.id).foldl (fun st e => relax_fwd st p.id e)
      { x with queue_fwd := q, search_space_fwd := set_insert x.search_space_fwd p.id })

/-- Body of the loop of `step_backward_search` for one entry `e` of the reverse arcs of the
popped node `best`. -/
def relax_bwd (x : XBDVService) (best : Nat) (e : Edge) : XBDVService :=
  if x.dist_vec_bwd.get e.target > (x.dist_vec_bwd.get best + e.weight) % wrap32 then
    let dist_vec := x.dist_vec_bwd.set e.target ((x.dist_vec_bwd.get best + e.weight) % wrap32)
    let parent_vec := x.parent_vec_bwd.set e.target best
    { x with
      dist_vec_bwd := dist_vec
      parent_vec_bwd := parent_vec
      queue_bwd :=
        if ¬ x.queue_bwd.contains_id e.target then
          x.queue_bwd.push ⟨e.target, dist_vec.get e.target⟩
        else x.queue_bwd.decrease_key ⟨e.target, dist_vec.get e.target⟩ }
  else x

/-- `node_t step_backward_search()`: the popped node and the state afterwards. -/
def step_backward_search (x : XBDVService) : Outcome (Nat × XBDVService) :=
  match x.queue_bwd.pop with
  | none => Outcome.empty_pop
  | some (p, q) =>
    Outcome.ok (p.id, (x.g.get_rev_out_arcs p.id).foldl (fun st e => relax_bwd st p.id e)
      { x with queue_bwd := q, search_space_bwd := set_insert x.search_space_bwd p.id })

/-- The forward half of one pass of the loop of `run_dijkstra_bidirectional`. -/
def pass_fwd (max_dist : Nat) (x : XBDVService) : Outcome XBDVService :=
  if ¬ x.queue_fwd.empty then
    match step_forward_search x with
    | Outcome.ok (forward_best, x1) =>
      if x1.dist_vec_fwd.get forward_best > max_dist then
        Outcome.ok { x1 with queue_fwd := x1.queue_fwd.clear }
      else Outcome.ok x1
    | Outcome.out_of_range => Outcome.out_of_range
    | Outcome.empty_pop => Outcome.empty_pop
    | Outcome.no_fuel => Outcome.no_fuel
  else Outcome.ok x

/-- The backward half of one pass of the loop of `run_dijkstra_bidirectional`. -/
def pass_bwd (max_dist : Nat) (x : XBDVService) : Outcome XBDVService :=
  if ¬ x.queue_bwd.empty then
    match step_backward_search x with
    | Outcome.ok (backward_best, x1) =>
      if x1.dist_vec_bwd.get backward_best > max_dist then
        Outcome.ok { x1 with queue_bwd := x1.queue_bwd.clear }
      else Outcome.ok x1
    | Outcome.out_of_range => Outcome.out_of_range
    | Outcome.empty_pop => Outcome.empty_pop
    | Outcome.no_fuel => Outcome.no_fuel
  else Outcome.ok x

/-- The `while (!queue_fwd.empty() || !queue_bwd.empty())` loop of
`run_dijkstra_bidirectional`. -/
def bidirectional_loop (max_dist : Nat) : Nat → XBDVService → Outcome XBDVService
  | 0, _ => Outcome.no_fuel
  | fuel + 1, x =>
    if ¬ x.queue_fwd.empty ∨ ¬ x.queue_bwd.empty then
      match pass_fwd max_dist x with
      | Outcome.ok x1 =>
        match pass_bwd max_dist x1 with
        | Outcome.ok x2 => bidirectional_loop max_dist fuel x2
        | Outcome.out_of_range => Outcome.out_of_range
        | Outcome.empty_pop => Outcome.empty_pop
        | Outcome.no_fuel => Outcome.no_fuel
      | Outcome.out_of_range => Outcome.out_of_range
      | Outcome.empty_pop => Outcome.empty_pop
      | Outcome.no_fuel => Outcome.no_fuel
    else Outcome.ok x

/-- The six statements of `run_dijkstra_bidirectional` before its loop. -/
def bidirectional_init (c : Constants) (x : XBDVService) (source target : Nat) : XBDVService :=
  { x with
    queue_fwd := x.queue_fwd.push ⟨source, 0⟩
    dist_vec_fwd := x.dist_vec_fwd.set source 0
    parent_vec_fwd := x.parent_vec_fwd.set source c.invalid_id
    queue_bwd := x.queue_bwd.push ⟨target, 0⟩
    dist_vec_bwd := x.dist_vec_bwd.set target 0
    parent_vec_bwd := x.parent_vec_bwd.set target c.invalid_id }

/-- `void run_dijkstra_bidirectional(node_t source, node_t target, uint32_t max_dist)`. -/
def run_dijkstra_bidirectional (c : Constants) (fuel : Nat) (x : XBDVService)
    (source target max_dist : Nat) : Outcome XBDVService :=
  bidirectional_loop max_dist fuel (bidirectional_init c x source target)

/-- The loop of `get_sharing` from index `i` on: `prev` is `path.nodes[i - 1]`, the list
holds `path.nodes[i], ...`, and `shared_dist` is the sum so far. -/
def get_sharing_loop (c : Constants) (g : Graph) (comp : List Nat) :
    Nat → List Nat → Nat → Nat
  | _, [], shared_dist => shared_dist
  | prev, node :: rest, shared_dist =>
    get_sharing_loop c g comp node rest
      (if node ∈ comp then (shared_dist + g.get_edge_weight c prev node) % wrap32
       else shared_dist)

/-- `uint32_t get_sharing(const Path& path, const Path& comp)`. -/
def get_sharing (c : Constants) (x : XBDVService) (path comp : Path) : Nat :=
  match path.nodes with
  | [] => 0
  | first :: rest => get_sharing_loop c x.g comp.nodes first rest 0

/-- The local variables of `get_plateau_length`. -/
structure PlateauState where
  current_plateau_length : Nat
  max_plateau_length : Nat
  in_plateau : Bool
deriving DecidableEq, Repr

/-- The loop of `get_plateau_length`; `prev` is `path.nodes[i - 1]` (any value for `i = 0`,
where it is not read). -/
def plateau_loop (c : Constants) (x : XBDVService) : Nat → List Nat → PlateauState → PlateauState
  | _, [], st => st
  | prev, node :: rest, st =>
    if node ∈ x.search_space_fwd ∧ node ∈ x.search_space_bwd then
      if ¬ st.in_plateau then
        plateau_loop c x node rest { st with in_plateau := true }
      else
        plateau_loop c x node rest
          { st with current_plateau_length :=
              (st.current_plateau_length + x.g.get_edge_weight c prev node) % wrap32 }
    else
      plateau_loop c x node rest
        { current_plateau_length := 0
          max_plateau_length :=
            if st.current_plateau_length > st.max_plateau_length then st.current_plateau_length
            else st.max_plateau_length
          in_plateau := false }

/-- `uint32_t get_plateau_length(const Path& path)`. -/
def get_plateau_length (c : Constants) (x : XBDVService) (path : Path) : Nat :=
  let st := plateau_loop c x 0 path.nodes ⟨0, 0, false⟩
  if st.current_plateau_length > st.max_plateau_length then st.current_plateau_length
  else st.max_plateau_length

/-- `uint32_t sort_function(const Path& p, const Path& optimal_path)`. -/
def sort_function (c : Constants) (x : XBDVService) (optimal_path p : Path) : Nat :=
  (((2 * p.length) % wrap32 + get_sharing c x p optimal_path) % wrap32 + wrap32
    - get_plateau_length c x p) % wrap32

/-- The inner loop of `sort_paths` from index `j` over `count` entries: `(min_index,
min_key)`. -/
def min_index_loop (key : Path → Nat) (paths : List Path) : Nat → Nat → Nat × Nat → Nat × Nat
  | _, 0, m => m
  | j, count + 1, m =>
    min_index_loop key paths (j + 1) count
      (if key (paths.getD j ⟨[], 0⟩) < m.2 then (j, key (paths.getD j ⟨[], 0⟩)) else m)

/-- The outer loop of `sort_paths` from index `i` over `count` entries. -/
def sort_paths_loop (c : Constants) (key : Path → Nat) : Nat → Nat → List Path → List Path
  | _, 0, paths => paths
  | i, count + 1, paths =>
    let min_index := (min_index_loop key paths i (count + 1) (0, c.inf_weight)).1
    let buffer := paths.getD i ⟨[], 0⟩
    sort_paths_loop c key (i + 1) count
      ((paths.set i (paths.getD min_index ⟨[], 0⟩)).set min_index buffer)

/-- `void sort_paths(std::vector<Path>& paths, const Path& optimal_path)`. -/
def sort_paths (c : Constants) (x : XBDVService) (paths : List Path) (optimal_path : Path) :
    List Path :=
  sort_paths_loop c (sort_function c x optimal_path) 0 paths.length paths

/-- A `while (current != invalid_id)` loop of `get_implicit_path` along `parent`. -/
def follow_parents (c : Constants) (parent : TimestampVector) :
    Nat → Nat → List Nat → Outcome (List Nat)
  | 0, _, _ => Outcome.no_fuel
  | fuel + 1, current, path_nodes =>
    if current = c.invalid_id then Outcome.ok path_nodes
    else if current < parent.vec.length then
      follow_parents c parent fuel (parent.get current) (path_nodes ++ [current])
    else Outcome.out_of_range

/-- `Path get_implicit_path(node_t n)`. -/
def get_implicit_path (c : Constants) (fuel : Nat) (x : XBDVService) (n : Nat) : Outcome Path :=
  if n < x.dist_vec_fwd.vec.length ∧ n < x.dist_vec_bwd.vec.length then
    match follow_parents c x.parent_vec_fwd fuel n [] with
    | Outcome.ok fwd_nodes =>
      match follow_parents c x.parent_vec_bwd fuel (x.parent_vec_bwd.get n) fwd_nodes.reverse with
      | Outcome.ok path_nodes =>
        Outcome.ok ⟨path_nodes, (x.dist_vec_fwd.get n + x.dist_vec_bwd.get n) % wrap32⟩
      | Outcome.out_of_range => Outcome.out_of_range
      | Outcome.empty_pop => Outcome.empty_pop
      | Outcome.no_fuel => Outcome.no_fuel
    | Outcome.out_of_range => Outcome.out_of_range
    | Outcome.empty_pop => Outcome.empty_pop
    | Outcome.no_fuel => Outcome.no_fuel
  else Outcome.out_of_range

/-- A `while (dist_to_v < t)` loop of `test_local_optimality_approximation` along `parent`;
`weight new cur` is the weight added for the step from `cur` to `new`. The result is the
node reached and `dist_to_v`. -/
def walk_range (c : Constants) (parent : TimestampVector) (weight : Nat → Nat → Nat) (t : Nat) :
    Nat → Nat → Nat → Outcome (Nat × Nat)
  | 0, _, _ => Outcome.no_fuel
  | fuel + 1, cur, dist_to_v =>
    if dist_to_v < t then
      if cur < parent.vec.length then
        if parent.get cur = c.invalid_id then Outcome.ok (cur, dist_to_v)
        else
          walk_range c parent weight t fuel (parent.get cur)
            ((dist_to_v + weight (parent.get cur) cur) % wrap32)
      else Outcome.out_of_range
    else Outcome.ok (cur, dist_to_v)

/-- `bool test_local_optimality_approximation(node_t via_node, uint32_t t)` (the T-test):
the result and the state afterwards. -/
def test_local_optimality_approximation (c : Constants) (fuel : Nat) (x : XBDVService)
    (via_node t : Nat) : Outcome (Bool × XBDVService) :=
  match walk_range c x.parent_vec_fwd (fun new_x cur => x.g.get_edge_weight c new_x cur) t
      fuel via_node 0 with
  | Outcome.ok (xn, d1) =>
    match walk_range c x.parent_vec_bwd (fun new_y cur => x.g.get_edge_weight c cur new_y) t
        fuel via_node 0 with
    | Outcome.ok (yn, d2) =>
      if xn < x.dijkstra_service.dist_vec.vec.length ∧
          yn < x.dijkstra_service.dist_vec.vec.length then
        match ({ x.dijkstra_service with g := x.g }.set_source c xn).run_until_target_found
            fuel yn with
        | Outcome.ok ds =>
          Outcome.ok (decide (ds.get_dist yn = (d1 + d2) % wrap32),
            { x with dijkstra_service := ds.finish c })
        | Outcome.out_of_range => Outcome.out_of_range
        | Outcome.empty_pop => Outcome.empty_pop
        | Outcome.no_fuel => Outcome.no_fuel
      else Outcome.out_of_range
    | Outcome.out_of_range => Outcome.out_of_range
    | Outcome.empty_pop => Outcome.empty_pop
    | Outcome.no_fuel => Outcome.no_fuel
  | Outcome.out_of_range => Outcome.out_of_range
  | Outcome.empty_pop => Outcome.empty_pop
  | Outcome.no_fuel => Outcome.no_fuel

/-- `bool test_limited_sharing(const Path& path, const Path& optimal_path, float gamma)`. -/
def test_limited_sharing (p : XBDVParams) (c : Constants) (x : XBDVService)
    (path optimal_path : Path) : Bool :=
  p.limited_sharing (get_sharing c x path optimal_path) optimal_path.length

/-- The first four statements of `run_bdv`: the optimal path by Dijkstra, and the state
after `dijkstra_service.finish()`. -/
def optimal_path (c : Constants) (fuel : Nat) (x : XBDVService) (source target : Nat) :
    Outcome (Path × XBDVService) :=
  match ({ x.dijkstra_service with g := x.g }.set_source c source).run_until_target_found
      fuel target with
  | Outcome.ok ds =>
    match ds.get_path c fuel target with
    | Outcome.ok path => Outcome.ok (path, { x with dijkstra_service := ds.finish c })
    | Outcome.out_of_range => Outcome.out_of_range
    | Outcome.empty_pop => Outcome.empty_pop
    | Outcome.no_fuel => Outcome.no_fuel
  | Outcome.out_of_range => Outcome.out_of_range
  | Outcome.empty_pop => Outcome.empty_pop
  | Outcome.no_fuel => Outcome.no_fuel

/-- The loop of `run_bdv` that fills `search_space_cut`. -/
def search_space_cut (p : XBDVParams) (x : XBDVService) (optimal_length : Nat) : List Nat :=
  (p.iteration x.search_space_fwd).filter (fun n =>
    decide (n ∈ x.search_space_bwd) &&
      p.below_stretch ((x.dist_vec_fwd.get n + x.dist_vec_bwd.get n) % wrap32) optimal_length)

/-- The loop of `run_bdv` over `search_space_cut`: the vectors `considiered_paths` and
`alternative_paths`, and the state. -/
def select_loop (p : XBDVParams) (run_t_test : Bool) (c : Constants) (fuel : Nat)
    (optimal : Path) :
    List Nat → List Path → List Path → XBDVService → Outcome (List Path × List Path × XBDVService)
  | [], considered, alternative, x => Outcome.ok (considered, alternative, x)
  | via_node :: rest, considered, alternative, x =>
    match get_implicit_path c fuel x via_node with
    | Outcome.ok path =>
      if path ∉ considered then
        if ¬ test_limited_sharing p c x path optimal then
          select_loop p run_t_test c fuel optimal rest (considered ++ [path]) alternative x
        else if run_t_test then
          match test_local_optimality_approximation c fuel x via_node
              (p.t_range optimal.length) with
          | Outcome.ok (passed, x1) =>
            if ¬ passed then
              select_loop p run_t_test c fuel optimal rest (considered ++ [path]) alternative x1
            else
              select_loop p run_t_test c fuel optimal rest (considered ++ [path])
                (alternative ++ [path]) x1
          | Outcome.out_of_range => Outcome.out_of_range
          | Outcome.empty_pop => Outcome.empty_pop
          | Outcome.no_fuel => Outcome.no_fuel
        else
          select_loop p run_t_test c fuel optimal rest (considered ++ [path])
            (alternative ++ [path]) x
      else select_loop p run_t_test c fuel optimal rest considered alternative x
    | Outcome.out_of_range => Outcome.out_of_range
    | Outcome.empty_pop => Outcome.empty_pop
    | Outcome.no_fuel => Outcome.no_fuel

/-- The part of `run_bdv` before `sort_paths`: the optimal path, the vector
`alternative_paths` of the candidates that passed the tests, and the state. -/
def run_bdv_candidates (p : XBDVParams) (run_t_test : Bool) (c : Constants) (fuel : Nat)
    (x : XBDVService) (source target : Nat) : Outcome (Path × List Path × XBDVService) :=
  match optimal_path c fuel x source target with
  | Outcome.ok (optimal, x1) =>
    match run_dijkstra_bidirectional c fuel x1 source target (p.max_dist optimal.length) with
    | Outcome.ok x2 =>
      match select_loop p run_t_test c fuel optimal
          (search_space_cut p x2 optimal.length) [] [] x2 with
      | Outcome.ok (_, alternative, x3) => Outcome.ok (optimal, alternative, x3)
      | Outcome.out_of_range => Outcome.out_of_range
      | Outcome.empty_pop => Outcome.empty_pop
      | Outcome.no_fuel => Outcome.no_fuel
    | Outcome.out_of_range => Outcome.out_of_range
    | Outcome.empty_pop => Outcome.empty_pop
    | Outcome.no_fuel => Outcome.no_fuel
  | Outcome.out_of_range => Outcome.out_of_range
  | Outcome.empty_pop => Outcome.empty_pop
  | Outcome.no_fuel => Outcome.no_fuel

/-- `std::vector<Path> run_bdv(source, target, run_t_test, alpha, eps, gamma)`. -/
def run_bdv (p : XBDVParams) (run_t_test : Bool) (c : Constants) (fuel : Nat)
    (x : XBDVService) (source target : Nat) : Outcome (List Path) :=
  match run_bdv_candidates p run_t_test c fuel x source target with
  | Outcome.ok (optimal, alternative, x3) => Outcome.ok (sort_paths c x3 alternative optimal)
  | Outcome.out_of_range => Outcome.out_of_range
  | Outcome.empty_pop => Outcome.empty_pop
  | Outcome.no_fuel => Outcome.no_fuel

end XBDVService

/-! ### Sharing and sort key (specification side) -/

/-- Sharing of the node list `path` with the node list `comp`: the sum, over the positions
`i ≥ 1` of `path` whose node lies on `comp`, of the weight of the arc from `path[i - 1]` to
`path[i]`. -/
def sharing (c : Constants) (g : Graph) (comp : List Nat) : List Nat → Nat
  | a :: b :: rest =>
    (if b ∈ comp then g.get_edge_weight c a b else 0) + sharing c g comp (b :: rest)
  | _ => 0

/-- The sort key of a candidate: twice its length plus its sharing with the optimal path
minus its plateau length. -/
def sort_key (c : Constants) (x : XBDVService) (optimal p : Path) : Nat :=
  2 * p.length + sharing c x.g optimal.nodes p.nodes - x.get_plateau_length c p

/-- The result of `run_bdv(source, target, ...)` on a newly constructed service over `g`. -/
def xbdv_query (p : XBDVParams) (run_t_test : Bool) (c : Constants) (fuel : Nat) (g : Graph)
    (source target : Nat) : Outcome (List Path) :=
  (XBDVService.new c g).run_bdv p run_t_test c fuel source target

end PenAstar

namespace PenAstar

/-! ### The two searches of XBDVService as Dijkstra searches (proof side) -/

/-- The graph with every arc turned round: its out-arcs are the reverse arcs of `g`. -/
def Graph.reverse (g : Graph) : Graph := ⟨g.rev_adj_list, g.adj_list⟩

/-- The forward search of `x` and the Dijkstra service `s` hold the same graph, vectors,
queue and settled nodes. -/
structure SimF (x : XBDVService) (s : DijkstraService) : Prop where
  hg : s.g = x.g
  hd : s.dist_vec = x.dist_vec_fwd
  hp : s.parent_vec = x.parent_vec_fwd
  hq : s.queue = x.queue_fwd
  hs : s.search_space = x.search_space_fwd

/-- The backward search of `x` and the Dijkstra service `s` on the reversed graph hold the
same vectors, queue and settled nodes. -/
structure SimB (x : XBDVService) (s : DijkstraService) : Prop where
  hg : s.g = x.g.reverse
  hd : s.dist_vec = x.dist_vec_bwd
  hp : s.parent_vec = x.parent_vec_bwd
  hq : s.queue = x.queue_bwd
  hs : s.search_space = x.search_space_bwd

/-- The state `x1` differs from `x` in the fields of the forward search only. -/
structure KeepBwd (x x1 : XBDVService) : Prop where
  hg : x1.g = x.g
  hds : x1.dijkstra_service = x.dijkstra_service
  hq : x1.queue_bwd = x.queue_bwd
  hd : x1.dist_vec_bwd = x.dist_vec_bwd
  hp : x1.parent_vec_bwd = x.parent_vec_bwd
  hs : x1.search_space_bwd = x.search_space_bwd

/-- The state `x1` differs from `x` in the fields of the backward search only. -/
structure KeepFwd (x x1 : XBDVService) : Prop where
  hg : x1.g = x.g
  hds : x1.dijkstra_service = x.dijkstra_service
  hq : x1.queue_fwd = x.queue_fwd
  hd : x1.dist_vec_fwd = x.dist_vec_fwd
  hp : x1.parent_vec_fwd = x.parent_vec_fwd
  hs : x1.search_space_fwd = x.search_space_fwd

/-- The forward search of `x` is a Dijkstra search from `src` on `g` between two steps, or
such a search whose queue has been cleared. -/
def DirF (c : Constants) (g : Graph) (src : Nat) (x : XBDVService) : Prop :=
  ∃ s b, DijkstraService.Exact c g c.invalid_id src b [] s ∧ s.dist_vec = x.dist_vec_fwd ∧
    s.parent_vec = x.parent_vec_fwd ∧ s.search_space = x.search_space_fwd ∧
    (x.queue_fwd.entries = [] ∨ x.queue_fwd = s.queue)

/-- The backward search of `x` is a Dijkstra search from `src` on the reversed graph between
two steps, or such a search whose queue has been cleared. -/
def DirB (c : Constants) (g : Graph) (src : Nat) (x : XBDVService) : Prop :=
  ∃ s b, DijkstraService.Exact c g.reverse c.invalid_id src b [] s ∧
    s.dist_vec = x.dist_vec_bwd ∧
    s.parent_vec = x.parent_vec_bwd ∧ s.search_space = x.search_space_bwd ∧
    (x.queue_bwd.entries = [] ∨ x.queue_bwd = s.queue)

/-- Passes the forward search can still make: none with an empty queue. -/
def muF (n : Nat) (x : XBDVService) : Nat :=
  if x.queue_fwd.entries = [] then 0 else n + 1 - x.search_space_fwd.length

/-- Passes the backward search can still make: none with an empty queue. -/
def muB (n : Nat) (x : XBDVService) : Nat :=
  if x.queue_bwd.entries = [] then 0 else n + 1 - x.search_space_bwd.length

/-- The states `x` and `x1` agree in everything but the Dijkstra service. -/
structure SameSearch (x x1 : XBDVService) : Prop where
  hg : x1.g = x.g
  hqf : x1.queue_fwd = x.queue_fwd
  hdf : x1.dist_vec_fwd = x.dist_vec_fwd
  hpf : x1.parent_vec_fwd = x.parent_vec_fwd
  hsf : x1.search_space_fwd = x.search_space_fwd
  hqb : x1.queue_bwd = x.queue_bwd
  hdb : x1.dist_vec_bwd = x.dist_vec_bwd
  hpb : x1.parent_vec_bwd = x.parent_vec_bwd
  hsb : x1.search_space_bwd = x.search_space_bwd

/-- A candidate of `run_bdv`: a path of `g` from `s` to `t` with its weight as length, below
the stretch bound, whose sharing with the optimal path passes the sharing test. -/
structure Candidate (p : XBDVParams) (c : Constants) (g : Graph) (s t : Nat) (optimal : Path)
    (q : Path) : Prop where
  hpath : IsPath g q.nodes q.length
  hhead : q.nodes.head? = some s
  hlast : q.nodes.getLast? = some t
  hlen : q.length < 2 * c.inf_weight
  hstretch : p.below_stretch q.length optimal.length = true
  hshare : p.limited_sharing (sharing c g optimal.nodes q.nodes) optimal.length = true

end PenAstar

namespace PenAstar

/-! ### The sort key in the words of the specification -/

/-- Plateau of a path in the words of the specification: the longest contiguous run of the
path's interior nodes that belong to both search spaces, the length of a run being the sum
of the weights of the arcs inside it. -/
def plateau_spec (c : Constants) (x : XBDVService) (p : Path) : Nat :=
  ((p.nodes.tail.dropLast.tails.flatMap List.inits).filter
      (fun r => r.all (fun n => decide (n ∈ x.search_space_fwd ∧ n ∈ x.search_space_bwd)))).foldl
    (fun m r => max m (path_weight c x.g r)) 0

/-- The sort key in the words of the specification: twice the length plus the sharing with
the optimal path minus the plateau over the interior nodes. -/
def sort_key_spec (c : Constants) (x : XBDVService) (optimal p : Path) : Nat :=
  2 * p.length + sharing c x.g optimal.nodes p.nodes - plateau_spec c x p

/-- The vector returned by `run_bdv` on a newly constructed service over `g`, each path with
the key of the specification and the value of `sort_function`. -/
def xbdv_keys (p : XBDVParams) (run_t_test : Bool) (c : Constants) (fuel : Nat) (g : Graph)
    (source target : Nat) : Outcome (List (Path × Nat × Nat)) :=
  match (XBDVService.new c g).run_bdv_candidates p run_t_test c fuel source target with
  | Outcome.ok (optimal, alternative, x3) =>
    Outcome.ok ((x3.sort_paths c alternative optimal).map
      (fun q => (q, sort_key_spec c x3 optimal q, x3.sort_function c optimal q)))
  | Outcome.out_of_range => Outcome.out_of_range
  | Outcome.empty_pop => Outcome.empty_pop
  | Outcome.no_fuel => Outcome.no_fuel

/-- The optimal path `run_bdv` computes first, on a newly constructed service over `g`. -/
def xbdv_optimal (c : Constants) (fuel : Nat) (g : Graph) (source target : Nat) :
    Outcome Path :=
  match (XBDVService.new c g).optimal_path c fuel source target with
  | Outcome.ok (optimal, _) => Outcome.ok optimal
  | Outcome.out_of_range => Outcome.out_of_range
  | Outcome.empty_pop => Outcome.empty_pop
  | Outcome.no_fuel => Outcome.no_fuel

/-- Three disjoint routes from 0 to 8: 0→1→8 with weights 5, 5; 0→2→3→4→8 with weights
5, 3, 2, 1; 0→5→6→7→8 with weights 1, 5, 5, 1. -/
def three_routes : Graph :=
  ((((((((((Graph.new 9).add_edge 0 ⟨1, 5⟩).add_edge 1 ⟨8, 5⟩).add_edge 0 ⟨2, 5⟩).add_edge 2
    ⟨3, 3⟩).add_edge 3 ⟨4, 2⟩).add_edge 4 ⟨8, 1⟩).add_edge 0 ⟨5, 1⟩).add_edge 5 ⟨6, 5⟩).add_edge 6
    ⟨7, 5⟩).add_edge 7 ⟨8, 1⟩

/-- Three routes from 0 to 4 with heavy arcs: 0→1→4 with weights 600000000, 600000000;
0→2→4 with weights 400000000, 900000000; 0→3→4 with weights 1250000000, 100000000. -/
def heavy_routes : Graph :=
  ((((((Graph.new 5).add_edge 0 ⟨1, 600000000⟩).add_edge 1 ⟨4, 600000000⟩).add_edge 0
    ⟨2, 400000000⟩).add_edge 2 ⟨4, 900000000⟩).add_edge 0 ⟨3, 1250000000⟩).add_edge 3
    ⟨4, 100000000⟩

end PenAstar

namespace PenAstar

/-! ### `DijkstraService::finish` after a search (dijkstra.h) -/

/-- The calls `set_source(s)`, `run_until_done()` and `finish()` on a fresh service over
`g`: whether the parent vector holds an entry for `n` afterwards, the entry read, and
`get_dist(n)`. -/
def parent_after_finish (c : Constants) (fuel : Nat) (g : Graph) (s n : Nat) :
    Outcome (Bool × Nat × Nat) := do
  let st ← ((DijkstraService.new c g).set_source c s).run_until_done fuel
  pure ((st.finish c).parent_vec.has n, (st.finish c).parent_vec.get n,
    (st.finish c).get_dist n)

/-! ### `clear_edges` (graph.h) and `PenaltyService::reset` (penalty.h) -/

/-- `void clear_edges()`: every list of both adjacency vectors is emptied. -/
def Graph.clear_edges (g : Graph) : Graph :=
  ⟨g.adj_list.map (fun _ => []), g.rev_adj_list.map (fun _ => [])⟩

/-- `void reset()`. -/
def PenaltyService.reset (c : Constants) (s : PenaltyService) : PenaltyService :=
  { s with
    penalized_graph := s.g
    alt_graph := s.alt_graph.clear_edges
    source := c.invalid_id
    target := c.invalid_id }

/-- A penalty run from `s` to `t` on a fresh `PenaltyService` over `g` and the hierarchy
`ch`, stopped after at most `k` passes of the loop of `run`: the service at that point. -/
def penalty_service_after (p : PenaltyParams) (c : Constants) (fuel : Nat) (g : Graph)
    (ch : ContractionHierarchy) (scheds : List (List Bool)) (k : Nat) (s t : Nat) :
    Outcome PenaltyService := do
  let st ← PenaltyService.run_init c fuel (scheds.headD [])
    (((PenaltyService.new c g ch).set_source s).set_target t)
  let st1 ← PenaltyService.run_loop p c fuel k scheds.tail st
  pure st1.service

/-- The additions of the second loop of `apply_penalties(path, optimal_path_length)` on
`pen` stay below `2 ^ 32`: every weight stored after the first loop leaves room for the
rejoin penalty once per node of the path. -/
def PenaltyService.rejoin_fits (p : PenaltyParams) (c : Constants) (path : Path)
    (optimal_path_length : Nat) (pen : Graph) : Bool :=
  (List.range pen.size).all (fun a =>
    ((PenaltyService.penalize_path p c path.nodes pen).get_out_arcs a).all (fun e =>
      decide (e.weight + path.nodes.length * p.rejoin_penalty optimal_path_length < wrap32)))

/-- No addition of `apply_penalties` wraps in any of the (at most `k`) passes of the loop
of `run` that start from `st`. -/
def PenaltyService.run_fits (p : PenaltyParams) (c : Constants) (fuel : Nat) :
    Nat → List (List Bool) → PenaltyService.PenaltyRun → Bool
  | 0, _, _ => true
  | k + 1, scheds, st =>
    if PenaltyService.run_continues p st then
      PenaltyService.rejoin_fits p c st.alt_path st.original_path.length
        st.service.penalized_graph &&
      match PenaltyService.run_body p c fuel (scheds.headD []) st with
      | Outcome.ok st1 => PenaltyService.run_fits p c fuel k scheds.tail st1
      | Outcome.out_of_range => true
      | Outcome.empty_pop => true
      | Outcome.no_fuel => true
    else true

/-- No addition of `apply_penalties` wraps in the first `k` passes of the penalty run from
`s` to `t` on a fresh `PenaltyService` over `g` and the hierarchy `ch`. -/
def penalty_run_fits (p : PenaltyParams) (c : Constants) (fuel : Nat) (g : Graph)
    (ch : ContractionHierarchy) (scheds : List (List Bool)) (k : Nat) (s t : Nat) : Bool :=
  match PenaltyService.run_init c fuel (scheds.headD [])
    (((PenaltyService.new c g ch).set_source s).set_target t) with
  | Outcome.ok st => PenaltyService.run_fits p c fuel k scheds.tail st
  | Outcome.out_of_range => true
  | Outcome.empty_pop => true
  | Outcome.no_fuel => true

/-- The call returned a value. -/
def Outcome.is_ok {α : Type} : Outcome α → Bool
  | Outcome.ok _ => true
  | Outcome.out_of_range => false
  | Outcome.empty_pop => false
  | Outcome.no_fuel => false

/-- Every arc of `g` is an arc of `pen` whose weight in `pen` is at least its weight
in `g`. -/
def WeightsAtLeast (g pen : Graph) : Prop :=
  ∀ a e, e ∈ g.get_out_arcs a →
    ∃ e' ∈ pen.get_out_arcs a, e'.target = e.target ∧ e.weight ≤ e'.weight

/-- The weight `pen` stores for an arc is at least the weight `g` stores for it. -/
def WeightsGe (g pen : Graph) : Prop :=
  ∀ a b w, Graph.first_weight (g.get_out_arcs a) b = some w →
    ∃ w', Graph.first_weight (pen.get_out_arcs a) b = some w' ∧ w ≤ w'

/-- The consecutive pairs `(p(i-1), p(i))` of a node list. -/
def path_arcs (l : List Nat) : List (Nat × Nat) := l.zip l.tail

/-- The value the specification gives for a penalised arc with the default
`penalty_factor = 0.04`: `w * 1.04` rounded to the nearest integer. -/
def rounded_penalty (w : Nat) : Nat := (w * 104 + 50) / 100

/-- Two nodes and the arc 0→1 of weight 15. -/
def short_arc : Graph := (Graph.new 2).add_edge 0 ⟨1, 15⟩

/-! ### Memo entries of the potential services (potentials.h) -/

/-- Number of nodes below `n` without an entry of the current epoch in `v`. -/
def unmarked (n : Nat) (v : TimestampVector) : Nat :=
  ((Finset.range n).filter (fun z => v.has z = false)).card

/-- The forward service that holds the data of the reverse service `r` with the roles of
the two graphs exchanged. -/
def ReverseCHPotentialService.mirror (r : ReverseCHPotentialService) : CHPotentialService :=
  { forward_graph := r.ch.backward_graph
    backward_graph := r.ch.forward_graph
    backward_search := r.forward_search
    potentials := r.potentials
    target := r.target }

/-- What a call of `get_potential` keeps: the graphs, the backward search, the size of the
memo vector, and every memo entry present at the start. -/
structure PotKeep (s s' : CHPotentialService) : Prop where
  hF : s'.forward_graph = s.forward_graph
  hB : s'.backward_graph = s.backward_graph
  hS : s'.backward_search = s.backward_search
  hT : s'.target = s.target
  hlen : s'.potentials.vec.length = s.potentials.vec.length
  hmemo : ∀ z, s.potentials.has z = true →
    s'.potentials.has z = true ∧ s'.potentials.get z = s.potentials.get z

/-! ### `join_graphs` (util.h) -/

/-- `Graph join_graphs(const Graph& a, const Graph& b)`: the arcs of `a`, and the arcs of
`b` turned round. -/
def join_graphs (a b : Graph) : Graph :=
  (List.range a.size).foldl
    (fun ret n =>
      (b.get_out_arcs n).foldl (fun r e => r.add_edge e.target ⟨n, e.weight⟩)
        ((a.get_out_arcs n).foldl (fun r e => r.add_edge n e) ret))
    (Graph.new a.size)

/-! ### `get_random_st_vectors` (main.cpp) -/

/-- A draw `distribution(generator)` of a `std::uniform_int_distribution<uint32_t>(a, b)`:
a value of the closed range from `a` to `b`; `raw` is the output of the engine. -/
def uniform_int_distribution (a b raw : Nat) : Nat := a + raw % (b - a + 1)

/-- `get_random_st_vectors(n, graph_size)`; `generator k` is the `k`-th output of the
engine seeded with `time(NULL)`. Pass `i` of the loop draws the source first, then the
target. -/
def get_random_st_vectors (generator : Nat → Nat) (n graph_size : Nat) :
    List Nat × List Nat :=
  (List.range n).foldl
    (fun st i =>
      (st.1 ++ [uniform_int_distribution 0 graph_size (generator (2 * i))],
        st.2 ++ [uniform_int_distribution 0 graph_size (generator (2 * i + 1))]))
    ([], [])

/-! ### The averaged heuristic on a concrete query (astar.h) -/

/-- The detour 0→1→2 with weights 100 and 1 and the direct arc 0→2 of weight 1; the arc
0→1 is stored first in the list of node 0. -/
def long_detour : Graph :=
  (((Graph.new 3).add_edge 0 ⟨1, 100⟩).add_edge 1 ⟨2, 1⟩).add_edge 0 ⟨2, 1⟩

/-- The three potentials that `heur_f1(n)` reads, `pot_f1(n)`, `pot_r1(target)` and
`pot_r1(n)`, and the value `heur_f1(n)` itself, on a fresh `BidirectionalAStarService`
over `g` and the hierarchy of `contract_graph` after the setup of `run(s, t)`. -/
def forward_heuristic (c : Constants) (fuel : Nat) (g : Graph) (order : List Nat)
    (s t n : Nat) : Outcome (Nat × Nat × Nat × Nat) := do
  let ch ← contract_graph c fuel g order
  let b ← BidirectionalAStarService.run_setup c fuel (BidirectionalAStarService.new c g ch) s t
  let x ← b.pot_f1.get_potential fuel n
  let y ← b.pot_r1.get_potential fuel b.target
  let z ← y.2.get_potential fuel n
  let h ← BidirectionalAStarService.heur_f1 fuel b n
  pure (x.1, y.1, z.1, h.1)

/-- The forward queue after the setup of `run(s, t)` and the first pass of the loop of
`thread_function_f`, on a fresh service over `g` and the hierarchy of `contract_graph`. -/
def first_forward_pass (c : Constants) (fuel : Nat) (g : Graph) (order : List Nat)
    (s t : Nat) : Outcome (List IDKeyPair) := do
  let ch ← contract_graph c fuel g order
  let b ← BidirectionalAStarService.run_setup c fuel (BidirectionalAStarService.new c g ch) s t
  let r ← BidirectionalAStarService.iteration_f c fuel b
  pure r.2.q_f.entries

/-- The expression `(x + y - z) / 2` of the averaged heuristic evaluated over the
integers. -/
def averaged_int (x y z : Nat) : Int := ((x : Int) + (y : Int) - (z : Int)) / 2

end PenAstar

namespace PenAstar

/-! ### CHQueryService (contraction.h) -/

/-- `class CHQueryService`. -/
structure CHQueryService where
  g : Graph
  ch : ContractionHierarchy
  forward_queue : MinIDQueue
  backward_queue : MinIDQueue
  dist_vec_forward : TimestampVector
  dist_vec_backward : TimestampVector
  forward_search_space : BoolSet
  backward_search_space : BoolSet
  tentative_dist : Nat
  best_node : Nat
deriving DecidableEq, Repr

namespace CHQueryService

/-- Constructor `CHQueryService(const Graph& g, const ContractionHierarchy& ch)`. -/
def new (c : Constants) (g : Graph) (ch : ContractionHierarchy) : CHQueryService :=
  { g := g
    ch := ch
    forward_queue := MinIDQueue.new g.size
    backward_queue := MinIDQueue.new g.size
    dist_vec_forward := TimestampVector.new g.size c.inf_weight
    dist_vec_backward := TimestampVector.new g.size c.inf_weight
    forward_search_space := BoolSet.new g.size
    backward_search_space := BoolSet.new g.size
    tentative_dist := c.inf_weight
    best_node := c.invalid_id }

/-- The inner test of `step_forward` and `step_backward` for the popped node `best`:
`tentative_dist` and `best_node` are replaced when the sum of the two distance entries of
`best` is smaller. -/
def meet (q : CHQueryService) (best : Nat) : CHQueryService :=
  if (q.dist_vec_forward.get best + q.dist_vec_backward.get best) % wrap32 < q.tentative_dist
  then
    { q with
      tentative_dist := (q.dist_vec_forward.get best + q.dist_vec_backward.get best) % wrap32
      best_node := best }
  else q

/-- Body of the loop of `step_forward` for one arc `e` of the popped node `best`. -/
def relax_forward (q : CHQueryService) (best : Nat) (e : Edge) : CHQueryService :=
  if (q.dist_vec_forward.get best + e.weight) % wrap32 < q.dist_vec_forward.get e.target then
    let dist_vec :=
      q.dist_vec_forward.set e.target ((q.dist_vec_forward.get best + e.weight) % wrap32)
    { q with
      dist_vec_forward := dist_vec
      forward_queue :=
        if ¬ q.forward_queue.contains_id e.target then
          q.forward_queue.push ⟨e.target, dist_vec.get e.target⟩
        else q.forward_queue.decrease_key ⟨e.target, dist_vec.get e.target⟩ }
  else q

/-- Body of the loop of `step_backward` for one arc `e` of the popped node `best`. -/
def relax_backward (q : CHQueryService) (best : Nat) (e : Edge) : CHQueryService :=
  if (q.dist_vec_backward.get best + e.weight) % wrap32 < q.dist_vec_backward.get e.target then
    let dist_vec :=
      q.dist_vec_backward.set e.target ((q.dist_vec_backward.get best + e.weight) % wrap32)
    { q with
      dist_vec_backward := dist_vec
      backward_queue :=
        if ¬ q.backward_queue.contains_id e.target then
          q.backward_queue.push ⟨e.target, dist_vec.get e.target⟩
        else q.backward_queue.decrease_key ⟨e.target, dist_vec.get e.target⟩ }
  else q

/-- `void step_forward()`. -/
def step_forward (q : CHQueryService) : Outcome CHQueryService :=
  match q.forward_queue.pop with
  | none => Outcome.empty_pop
  | some (p, fq) =>
    let q1 := { q with forward_queue := fq
                       forward_search_space := q.forward_search_space.set p.id }
    let q2 := if q1.backward_search_space.has p.id then q1.meet p.id else q1
    Outcome.ok ((q.ch.forward_graph.get_out_arcs p.id).foldl
      (fun st e => relax_forward st p.id e) q2)

/-- `void step_backward()`. -/
def step_backward (q : CHQueryService) : Outcome CHQueryService :=
  match q.backward_queue.pop with
  | none => Outcome.empty_pop
  | some (p, bq) =>
    let q1 := { q with backward_queue := bq
                       backward_search_space := q.backward_search_space.set p.id }
    let q2 := if q1.forward_search_space.has p.id then q1.meet p.id else q1
    Outcome.ok ((q.ch.backward_graph.get_out_arcs p.id).foldl
      (fun st e => relax_backward st p.id e) q2)

/-- The test `forward_queue.empty() || forward_queue.peek().key > tentative_dist`. -/
def forward_stop (q : CHQueryService) : Bool :=
  q.forward_queue.empty ||
    match q.forward_queue.peek with
    | some p => decide (p.key > q.tentative_dist)
    | none => true

/-- The test `backward_queue.empty() || backward_queue.peek().key > tentative_dist`. -/
def backward_stop (q : CHQueryService) : Bool :=
  q.backward_queue.empty ||
    match q.backward_queue.peek with
    | some p => decide (p.key > q.tentative_dist)
    | none => true

/-- The forward half of one pass of the loop of `query`: the service and the flag
`forward_done` afterwards. -/
def pass_forward (forward_done : Bool) (q : CHQueryService) : Outcome (CHQueryService × Bool) :=
  if ¬ forward_done then
    match step_forward q with
    | Outcome.ok q1 => Outcome.ok (q1, q1.forward_stop)
    | Outcome.out_of_range => Outcome.out_of_range
    | Outcome.empty_pop => Outcome.empty_pop
    | Outcome.no_fuel => Outcome.no_fuel
  else Outcome.ok (q, forward_done)

/-- The backward half of one pass of the loop of `query`. -/
def pass_backward (backward_done : Bool) (q : CHQueryService) :
    Outcome (CHQueryService × Bool) :=
  if ¬ backward_done then
    match step_backward q with
    | Outcome.ok q1 => Outcome.ok (q1, q1.backward_stop)
    | Outcome.out_of_range => Outcome.out_of_range
    | Outcome.empty_pop => Outcome.empty_pop
    | Outcome.no_fuel => Outcome.no_fuel
  else Outcome.ok (q, backward_done)

/-- The loop `while (!forward_done || !backward_done)` of `query`. -/
def query_loop : Nat → Bool → Bool → CHQueryService → Outcome CHQueryService
  | 0, _, _, _ => Outcome.no_fuel
  | fuel + 1, forward_done, backward_done, q =>
    if ¬ forward_done ∨ ¬ backward_done then
      match pass_forward forward_done q with
      | Outcome.ok (q1, fd) =>
        match pass_backward backward_done q1 with
        | Outcome.ok (q2, bd) => query_loop fuel fd bd q2
        | Outcome.out_of_range => Outcome.out_of_range
        | Outcome.empty_pop => Outcome.empty_pop
        | Outcome.no_fuel => Outcome.no_fuel
      | Outcome.out_of_range => Outcome.out_of_range
      | Outcome.empty_pop => Outcome.empty_pop
      | Outcome.no_fuel => Outcome.no_fuel
    else Outcome.ok q

/-- The setup part of `query(s, t)`. -/
def query_setup (c : Constants) (q : CHQueryService) (s t : Nat) : CHQueryService :=
  { q with
    forward_queue := q.forward_queue.push ⟨s, 0⟩
    backward_queue := q.backward_queue.push ⟨t, 0⟩
    dist_vec_forward := q.dist_vec_forward.set s 0
    dist_vec_backward := q.dist_vec_backward.set t 0
    tentative_dist := c.inf_weight
    best_node := c.invalid_id }

/-- The cleanup part of `query(s, t)`. -/
def query_cleanup (q : CHQueryService) : CHQueryService :=
  { q with
    forward_queue := q.forward_queue.clear
    backward_queue := q.backward_queue.clear
    dist_vec_forward := q.dist_vec_forward.step_time
    dist_vec_backward := q.dist_vec_backward.step_time }

/-- `uint32_t query(node_t s, node_t t)`: the returned distance and the service
afterwards. -/
def query (c : Constants) (fuel : Nat) (q : CHQueryService) (s t : Nat) :
    Outcome (Nat × CHQueryService) :=
  match query_loop fuel false false (query_setup c q s t) with
  | Outcome.ok q1 => Outcome.ok (q1.tentative_dist, query_cleanup q1)
  | Outcome.out_of_range => Outcome.out_of_range
  | Outcome.empty_pop => Outcome.empty_pop
  | Outcome.no_fuel => Outcome.no_fuel

/-- A sequence of calls `query(s, t)` on one service, first call first: the distances
returned and the service afterwards. -/
def query_sequence (c : Constants) (fuel : Nat) :
    CHQueryService → List (Nat × Nat) → Outcome (List Nat × CHQueryService)
  | q, [] => Outcome.ok ([], q)
  | q, st :: rest =>
    match query c fuel q st.1 st.2 with
    | Outcome.ok (d, q1) =>
      match query_sequence c fuel q1 rest with
      | Outcome.ok (ds, q2) => Outcome.ok (d :: ds, q2)
      | Outcome.out_of_range => Outcome.out_of_range
      | Outcome.empty_pop => Outcome.empty_pop
      | Outcome.no_fuel => Outcome.no_fuel
    | Outcome.out_of_range => Outcome.out_of_range
    | Outcome.empty_pop => Outcome.empty_pop
    | Outcome.no_fuel => Outcome.no_fuel

end CHQueryService

/-- The distance of `dijkstra_on_ch(s, t, ...)` with two fresh services on the forward and
the backward graph of `ch` (`calculate_path = false`). -/
def ch_distance (c : Constants) (fuel : Nat) (ch : ContractionHierarchy) (s t : Nat) :
    Outcome Nat :=
  match dijkstra_on_ch c fuel s t (DijkstraService.new c ch.forward_graph)
      (DijkstraService.new c ch.backward_graph) false with
  | Outcome.ok p => Outcome.ok p.length
  | Outcome.out_of_range => Outcome.out_of_range
  | Outcome.empty_pop => Outcome.empty_pop
  | Outcome.no_fuel => Outcome.no_fuel

/-- `r` is the least sum of the weights of a walk of `F` from `s` and a walk of `B` from
`t` that end in the same node, capped at `inf_weight`. -/
def IsMeet (c : Constants) (F B : Graph) (s t r : Nat) : Prop :=
  r ≤ c.inf_weight ∧
  (∀ v a b, Walk F.arc s v a → Walk B.arc t v b → r ≤ a + b) ∧
  (r = c.inf_weight ∨ ∃ v a b, Walk F.arc s v a ∧ Walk B.arc t v b ∧ r = a + b)

/-- The forward search of the query service `q` is in the state of the Dijkstra service
`s`; nodes in the search-space log of `s` are flagged in the forward set of `q`. -/
structure SimQF (q : CHQueryService) (s : DijkstraService) : Prop where
  hg : s.g = q.ch.forward_graph
  hd : s.dist_vec = q.dist_vec_forward
  hq : s.queue = q.forward_queue
  hs : ∀ x ∈ s.search_space, q.forward_search_space.has x = true

/-- The backward search of the query service `q` is in the state of the Dijkstra service
`s`. -/
structure SimQB (q : CHQueryService) (s : DijkstraService) : Prop where
  hg : s.g = q.ch.backward_graph
  hd : s.dist_vec = q.dist_vec_backward
  hq : s.queue = q.backward_queue
  hs : ∀ x ∈ s.search_space, q.backward_search_space.has x = true

/-- The fields of the backward search and the hierarchy are the same in `q` and `q'`. -/
structure KeepQB (q q' : CHQueryService) : Prop where
  hch : q'.ch = q.ch
  hq : q'.backward_queue = q.backward_queue
  hd : q'.dist_vec_backward = q.dist_vec_backward
  hs : q'.backward_search_space = q.backward_search_space

/-- The fields of the forward search and the hierarchy are the same in `q` and `q'`. -/
structure KeepQF (q q' : CHQueryService) : Prop where
  hch : q'.ch = q.ch
  hq : q'.forward_queue = q.forward_queue
  hd : q'.dist_vec_forward = q.dist_vec_forward
  hs : q'.forward_search_space = q.forward_search_space

end PenAstar

namespace PenAstar

open DijkstraService

/-- What the query needs of the two graphs of the hierarchy and the sentinels: arcs lead
to nodes, both graphs have `n` nodes, weights are below `inf_weight`, and twice
`inf_weight` does not wrap. -/
structure QCtx (c : Constants) (F B : Graph) (n : Nat) : Prop where
  hFTV : F.TargetsValid
  hBTV : B.TargetsValid
  hFn : F.size = n
  hBn : B.size = n
  hid : n ≤ c.invalid_id
  hFW : F.WeightsBelow c
  hBW : B.WeightsBelow c
  h2 : 2 * c.inf_weight ≤ wrap32
  hinf : 0 < c.inf_weight

/-- Invariant of the loop of `query(s, t)`: the two searches are Dijkstra searches `sF` on
`F` from `s` and `sB` on `B` from `t` in epoch `T`; a search that goes on has a queued
node, a search that is done has settled every node nearer than `tentative_dist`; and
`tentative_dist` is `inf_weight` or the weight of an up-down walk, and it is at most the
weight of every up-down walk through a node settled by both searches. -/
structure QInv (c : Constants) (F B : Graph) (n s t T : Nat) (fd bd : Bool)
    (q : CHQueryService) (sF sB : DijkstraService) : Prop where
  hexF : ∃ bF, Exact c F c.invalid_id s bF [] sF
  hexB : ∃ bB, Exact c B c.invalid_id t bB [] sB
  hsimF : SimQF q sF
  hsimB : SimQB q sB
  hfl : q.forward_search_space.vec.length = n
  hbl : q.backward_search_space.vec.length = n
  htF : sF.dist_vec.t = T
  htB : sB.dist_vec.t = T
  hsF : StampsLe sF
  hsB : StampsLe sB
  hqF : fd = false → sF.queue.entries ≠ []
  hqB : bd = false → sB.queue.entries ≠ []
  hdF : fd = true → ∀ v a, Walk F.arc s v a → a < q.tentative_dist → v ∈ sF.search_space
  hdB : bd = true → ∀ v b, Walk B.arc t v b → b < q.tentative_dist → v ∈ sB.search_space
  hmeet : ∀ v, v ∈ sF.search_space → v ∈ sB.search_space →
    ∀ a b, Walk F.arc s v a → Walk B.arc t v b → q.tentative_dist ≤ a + b
  hle : q.tentative_dist ≤ c.inf_weight
  hup : q.tentative_dist = c.inf_weight ∨
    ∃ v a b, Walk F.arc s v a ∧ Walk B.arc t v b ∧ q.tentative_dist = a + b

/-- State of a query service between two queries on the hierarchy with graphs `F` and `B`,
in epoch `T`: empty queues and no distance entry of the current epoch. -/
structure QClean (c : Constants) (F B : Graph) (n T : Nat) (q : CHQueryService) : Prop where
  hF : q.ch.forward_graph = F
  hB : q.ch.backward_graph = B
  hfl : q.forward_search_space.vec.length = n
  hbl : q.backward_search_space.vec.length = n
  hqF : q.forward_queue.entries = []
  hqB : q.backward_queue.entries = []
  htF : q.dist_vec_forward.t = T
  htB : q.dist_vec_backward.t = T
  hT : 0 < T
  hlF : q.dist_vec_forward.vec.length = n
  hlB : q.dist_vec_backward.vec.length = n
  hdF : q.dist_vec_forward.default_value = c.inf_weight
  hdB : q.dist_vec_backward.default_value = c.inf_weight
  hsF : ∀ p ∈ q.dist_vec_forward.vec, p.2 < T
  hsB : ∀ p ∈ q.dist_vec_backward.vec, p.2 < T

end PenAstar

namespace PenAstar

/-! ### An alternative that shares four fifths of a long optimal path -/

/-- The optimal route 0→1→3 of length 20000007 (arcs 16000005 and 4000002) and the
alternative 0→1→2→3 of length 20000008 (arcs 16000005, 4000002 and 1), whose arcs into the
nodes 1 and 3 of the optimal route weigh 16000006 together. -/
def long_shared : Graph :=
  ((((Graph.new 4).add_edge 0 ⟨1, 16000005⟩).add_edge 1 ⟨3, 4000002⟩).add_edge 1
    ⟨2, 4000002⟩).add_edge 2 ⟨3, 1⟩

/-! ### Epoch use of the contraction (contraction.h) -/

/-- No epoch exhaustion along the loop of `contract_graph`: `get_contraction_shortcuts` ends
one search epoch (`finish()`) for every in-arc of the node it contracts, so before each node
is contracted the epoch counter of the witness-search service plus the number of in-arcs of
that node in the working graph must stay below `2^32`. -/
def contract_loop_fits (c : Constants) (fuel : Nat) (ranking : List Nat) :
    List Nat → ContractState → Bool
  | [], _ => true
  | node :: rest, st =>
    decide (st.ds.dist_vec.t + (st.g.get_rev_out_arcs node).length < wrap32) &&
      (match contract_node_and_split c fuel ranking st node with
      | Outcome.ok st1 => contract_loop_fits c fuel ranking rest st1
      | Outcome.out_of_range => true
      | Outcome.empty_pop => true
      | Outcome.no_fuel => true)

/-- The rank facts that the loop of `contract_graph` keeps whatever its witness searches
find: the three graphs are consistent graphs on `n` nodes, every arc of the forward graph
climbs in rank and no arc of the backward graph descends. -/
def RankInv (n : Nat) (ranking : List Nat) (st : ContractState) : Prop :=
  st.g.Consistent ∧ st.g.size = n ∧
  st.forward_graph.Consistent ∧ st.forward_graph.size = n ∧
  st.backward_graph.Consistent ∧ st.backward_graph.size = n ∧
  (∀ a e, e ∈ st.forward_graph.get_out_arcs a → rank ranking a < rank ranking e.target) ∧
  (∀ a e, e ∈ st.backward_graph.get_out_arcs a → rank ranking a ≤ rank ranking e.target)

/-- No epoch exhaustion during `contract_graph(g, order)`: the 32-bit epoch counter of the
witness-search service never wraps. -/
def contract_graph_fits (c : Constants) (fuel : Nat) (g : Graph) (order : List Nat) : Bool :=
  contract_loop_fits c fuel (order_to_ranking order) order
    ⟨g, (split_graph g (order_to_ranking order)).1, (split_graph g (order_to_ranking order)).2,
      DijkstraService.new c g⟩

end PenAstar

namespace PenAstar

/-! ### The two search threads of BidirectionalAStarService, statement by statement

`step_f` and `step_r` write the shared members `tentative_dist` and `best_node` with two
separate assignments and hold no lock (the vector `locks` is never used), so a thread can be
suspended between the two. The definitions below let the scheduler switch threads at the
loop test of a thread function, before each arc of a step, and between the two
assignments. -/

/-- Where a search thread stands. -/
inductive ThreadPos where
  /-- Before the test of the `while` loop of the thread function. -/
  | at_test
  /-- Inside `step_f` / `step_r` for the popped node `best`, before the arcs `arcs`. -/
  | in_step (best : Nat) (arcs : List Edge)
  /-- After `tentative_dist = ...` and before `best_node = arc.target` for the arc `arc`,
  with the local variable `g` and the arcs `rest` still to come. -/
  | at_store (best : Nat) (arc : Edge) (g : Nat) (rest : List Edge)
  /-- The thread function has returned. -/
  | done
deriving DecidableEq, Repr

namespace BidirectionalAStarService

/-- The last statement of the body of the loop of `step_f`: `if (g < dist_f.get(arc.target))
{ ... }`. -/
def update_f (fuel : Nat) (b : BidirectionalAStarService) (best : Nat) (arc : Edge) (g : Nat) :
    Outcome BidirectionalAStarService :=
  if g < b.dist_f.get arc.target then
    let b3 := { b with dist_f := b.dist_f.set arc.target g,
                       par_f := b.par_f.set arc.target best }
    match heur_f1 fuel b3 arc.target with
    | Outcome.ok (h, b4) =>
      let k := (b4.dist_f.get arc.target + h) % wrap32
      if b4.q_f.contains_id arc.target then
        Outcome.ok { b4 with q_f := b4.q_f.decrease_key ⟨arc.target, k⟩ }
      else Outcome.ok { b4 with q_f := b4.q_f.push ⟨arc.target, k⟩ }
    | Outcome.out_of_range => Outcome.out_of_range
    | Outcome.empty_pop => Outcome.empty_pop
    | Outcome.no_fuel => Outcome.no_fuel
  else Outcome.ok b

/-- The last statement of the body of the loop of `step_r`. -/
def update_r (fuel : Nat) (b : BidirectionalAStarService) (best : Nat) (arc : Edge) (g : Nat) :
    Outcome BidirectionalAStarService :=
  if g < b.dist_r.get arc.target then
    let b3 := { b with dist_r := b.dist_r.set arc.target g,
                       par_r := b.par_r.set arc.target best }
    match heur_r2 fuel b3 arc.target with
    | Outcome.ok (h, b4) =>
      let k := (b4.dist_r.get arc.target + h) % wrap32
      if b4.q_r.contains_id arc.target then
        Outcome.ok { b4 with q_r := b4.q_r.decrease_key ⟨arc.target, k⟩ }
      else Outcome.ok { b4 with q_r := b4.q_r.push ⟨arc.target, k⟩ }
    | Outcome.out_of_range => Outcome.out_of_range
    | Outcome.empty_pop => Outcome.empty_pop
    | Outcome.no_fuel => Outcome.no_fuel
  else Outcome.ok b

/-- The forward thread runs from its position to the next point where the scheduler may
switch:
* at the loop test: the test of `thread_function_f` and, when it holds, `q_f.pop()` and
  `closed_f.set(best.id)`;
* before an arc: the pruning test, the test of the meeting condition and either the
  assignment `tentative_dist = g + dist_r.get(arc.target)` (the thread then stands between
  the two assignments) or the rest of the loop body;
* between the two assignments: `best_node = arc.target` and the rest of the loop body;
* after the last arc: the update of `k_f`. -/
def advance_f (c : Constants) (fuel : Nat) (b : BidirectionalAStarService) :
    ThreadPos → Outcome (ThreadPos × BidirectionalAStarService)
  | ThreadPos.done => Outcome.ok (ThreadPos.done, b)
  | ThreadPos.at_test =>
    match heur_f1 fuel b b.source with
    | Outcome.ok (h, b1) =>
      if (b1.k_f + b1.k_r) % wrap32 < (b1.tentative_dist + h) % wrap32 then
        match b1.q_f.pop with
        | none => Outcome.empty_pop
        | some (best, q) =>
          Outcome.ok (ThreadPos.in_step best.id (b1.g.get_out_arcs best.id),
            { b1 with q_f := q, closed_f := b1.closed_f.set best.id })
      else Outcome.ok (ThreadPos.done, b1)
    | Outcome.out_of_range => Outcome.out_of_range
    | Outcome.empty_pop => Outcome.empty_pop
    | Outcome.no_fuel => Outcome.no_fuel
  | ThreadPos.in_step _ [] =>
    Outcome.ok (ThreadPos.at_test, { b with k_f :=
      match b.q_f.peek with
      | some p => p.key
      | none => c.inf_weight })
  | ThreadPos.in_step best (arc :: rest) =>
    match b.pot_f1.get_potential fuel arc.target with
    | Outcome.ok (p, pf) =>
      if ((b.dist_f.get best + arc.weight) % wrap32 + p) % wrap32 ≥ b.tentative_dist then
        Outcome.ok (ThreadPos.in_step best rest, { b with pot_f1 := pf })
      else if b.closed_r.has arc.target ∧
          ((b.dist_f.get best + arc.weight) % wrap32 + b.dist_r.get arc.target) % wrap32
            < b.tentative_dist then
        Outcome.ok (ThreadPos.at_store best arc ((b.dist_f.get best + arc.weight) % wrap32) rest,
          { b with pot_f1 := pf, tentative_dist :=
              ((b.dist_f.get best + arc.weight) % wrap32 + b.dist_r.get arc.target) % wrap32 })
      else
        match update_f fuel { b with pot_f1 := pf } best arc
            ((b.dist_f.get best + arc.weight) % wrap32) with
        | Outcome.ok b2 => Outcome.ok (ThreadPos.in_step best rest, b2)
        | Outcome.out_of_range => Outcome.out_of_range
        | Outcome.empty_pop => Outcome.empty_pop
        | Outcome.no_fuel => Outcome.no_fuel
    | Outcome.out_of_range => Outcome.out_of_range
    | Outcome.empty_pop => Outcome.empty_pop
    | Outcome.no_fuel => Outcome.no_fuel
  | ThreadPos.at_store best arc g rest =>
    match update_f fuel { b with best_node := arc.target } best arc g with
    | Outcome.ok b2 => Outcome.ok (ThreadPos.in_step best rest, b2)
    | Outcome.out_of_range => Outcome.out_of_range
    | Outcome.empty_pop => Outcome.empty_pop
    | Outcome.no_fuel => Outcome.no_fuel

/-- The reverse thread runs from its position to the next point where the scheduler may
switch. -/
def advance_r (c : Constants) (fuel : Nat) (b : BidirectionalAStarService) :
    ThreadPos → Outcome (ThreadPos × BidirectionalAStarService)
  | ThreadPos.done => Outcome.ok (ThreadPos.done, b)
  | ThreadPos.at_test =>
    match heur_f2 fuel b b.source with
    | Outcome.ok (h, b1) =>
      if (b1.k_f + b1.k_r) % wrap32 < (b1.tentative_dist + h) % wrap32 then
        match b1.q_r.pop with
        | none => Outcome.empty_pop
        | some (best, q) =>
          Outcome.ok (ThreadPos.in_step best.id (b1.g.get_rev_out_arcs best.id),
            { b1 with q_r := q, closed_r := b1.closed_r.set best.id })
      else Outcome.ok (ThreadPos.done, b1)
    | Outcome.out_of_range => Outcome.out_of_range
    | Outcome.empty_pop => Outcome.empty_pop
    | Outcome.no_fuel => Outcome.no_fuel
  | ThreadPos.in_step _ [] =>
    Outcome.ok (ThreadPos.at_test, { b with k_r :=
      match b.q_r.peek with
      | some p => p.key
      | none => c.inf_weight })
  | ThreadPos.in_step best (arc :: rest) =>
    match b.pot_r2.get_potential fuel arc.target with
    | Outcome.ok (p, pr) =>
      if ((b.dist_r.get best + arc.weight) % wrap32 + p) % wrap32 ≥ b.tentative_dist then
        Outcome.ok (ThreadPos.in_step best rest, { b with pot_r2 := pr })
      else if b.closed_f.has arc.target ∧
          ((b.dist_r.get best + arc.weight) % wrap32 + b.dist_f.get arc.target) % wrap32
            < b.tentative_dist then
        Outcome.ok (ThreadPos.at_store best arc ((b.dist_r.get best + arc.weight) % wrap32) rest,
          { b with pot_r2 := pr, tentative_dist :=
              ((b.dist_r.get best + arc.weight) % wrap32 + b.dist_f.get arc.target) % wrap32 })
      else
        match update_r fuel { b with pot_r2 := pr } best arc
            ((b.dist_r.get best + arc.weight) % wrap32) with
        | Outcome.ok b2 => Outcome.ok (ThreadPos.in_step best rest, b2)
        | Outcome.out_of_range => Outcome.out_of_range
        | Outcome.empty_pop => Outcome.empty_pop
        | Outcome.no_fuel => Outcome.no_fuel
    | Outcome.out_of_range => Outcome.out_of_range
    | Outcome.empty_pop => Outcome.empty_pop
    | Outcome.no_fuel => Outcome.no_fuel
  | ThreadPos.at_store best arc g rest =>
    match update_r fuel { b with best_node := arc.target } best arc g with
    | Outcome.ok b2 => Outcome.ok (ThreadPos.in_step best rest, b2)
    | Outcome.out_of_range => Outcome.out_of_range
    | Outcome.empty_pop => Outcome.empty_pop
    | Outcome.no_fuel => Outcome.no_fuel

/-- The two threads under a scheduler that may switch at every point listed for
`advance_f`. `sched` names the thread that runs next (`true`: forward) whenever both are
still running; `n` bounds the number of switches. -/
def run_threads_fine (c : Constants) (fuel : Nat) :
    Nat → List Bool → ThreadPos → ThreadPos → BidirectionalAStarService →
      Outcome BidirectionalAStarService
  | 0, _, _, _, _ => Outcome.no_fuel
  | n + 1, sched, pos_f, pos_r, b =>
    if pos_f = ThreadPos.done ∧ pos_r = ThreadPos.done then Outcome.ok b
    else if pos_f ≠ ThreadPos.done ∧ (pos_r = ThreadPos.done ∨ sched.headD true) then
      match advance_f c fuel b pos_f with
      | Outcome.ok (pos, b1) => run_threads_fine c fuel n sched.tail pos pos_r b1
      | Outcome.out_of_range => Outcome.out_of_range
      | Outcome.empty_pop => Outcome.empty_pop
      | Outcome.no_fuel => Outcome.no_fuel
    else
      match advance_r c fuel b pos_r with
      | Outcome.ok (pos, b1) => run_threads_fine c fuel n sched.tail pos_f pos b1
      | Outcome.out_of_range => Outcome.out_of_range
      | Outcome.empty_pop => Outcome.empty_pop
      | Outcome.no_fuel => Outcome.no_fuel

/-- The forward thread running alone from the position `pos` to its next loop test (or to
the end of its thread function). -/
def pass_f (c : Constants) (fuel : Nat) :
    Nat → ThreadPos → BidirectionalAStarService → Outcome (ThreadPos × BidirectionalAStarService)
  | 0, _, _ => Outcome.no_fuel
  | n + 1, pos, b =>
    match advance_f c fuel b pos with
    | Outcome.ok (ThreadPos.at_test, b1) => Outcome.ok (ThreadPos.at_test, b1)
    | Outcome.ok (ThreadPos.done, b1) => Outcome.ok (ThreadPos.done, b1)
    | Outcome.ok (ThreadPos.in_step best arcs, b1) =>
      pass_f c fuel n (ThreadPos.in_step best arcs) b1
    | Outcome.ok (ThreadPos.at_store best arc g rest, b1) =>
      pass_f c fuel n (ThreadPos.at_store best arc g rest) b1
    | Outcome.out_of_range => Outcome.out_of_range
    | Outcome.empty_pop => Outcome.empty_pop
    | Outcome.no_fuel => Outcome.no_fuel

/-- The reverse thread running alone from the position `pos` to its next loop test (or to
the end of its thread function). -/
def pass_r (c : Constants) (fuel : Nat) :
    Nat → ThreadPos → BidirectionalAStarService → Outcome (ThreadPos × BidirectionalAStarService)
  | 0, _, _ => Outcome.no_fuel
  | n + 1, pos, b =>
    match advance_r c fuel b pos with
    | Outcome.ok (ThreadPos.at_test, b1) => Outcome.ok (ThreadPos.at_test, b1)
    | Outcome.ok (ThreadPos.done, b1) => Outcome.ok (ThreadPos.done, b1)
    | Outcome.ok (ThreadPos.in_step best arcs, b1) =>
      pass_r c fuel n (ThreadPos.in_step best arcs) b1
    | Outcome.ok (ThreadPos.at_store best arc g rest, b1) =>
      pass_r c fuel n (ThreadPos.at_store best arc g rest) b1
    | Outcome.out_of_range => Outcome.out_of_range
    | Outcome.empty_pop => Outcome.empty_pop
    | Outcome.no_fuel => Outcome.no_fuel

/-- `Path run(node_t source, node_t target)` under the scheduler `sched` of
`run_threads_fine`: the returned path. -/
def run_fine (c : Constants) (fuel steps : Nat) (sched : List Bool)
    (b : BidirectionalAStarService) (source target : Nat) : Outcome Path :=
  match run_setup c fuel b source target with
  | Outcome.ok b1 =>
    match run_threads_fine c fuel steps sched ThreadPos.at_test ThreadPos.at_test b1 with
    | Outcome.ok b2 => get_path c fuel b2
    | Outcome.out_of_range => Outcome.out_of_range
    | Outcome.empty_pop => Outcome.empty_pop
    | Outcome.no_fuel => Outcome.no_fuel
  | Outcome.out_of_range => Outcome.out_of_range
  | Outcome.empty_pop => Outcome.empty_pop
  | Outcome.no_fuel => Outcome.no_fuel

end BidirectionalAStarService

/-- The graph with the arcs 0→1 (3), 1→2 (1) and 0→2 (10): the shortest path from 0 to 2
is 0→1→2 of length 4. -/
def race_graph : Graph :=
  (((Graph.new 3).add_edge 0 ⟨1, 3⟩).add_edge 1 ⟨2, 1⟩).add_edge 0 ⟨2, 10⟩

/-- A call `run(s, t)` on a fresh service over `g` and the hierarchy that `contract_graph`
builds from a copy of `g`, under the scheduler `sched` of `run_threads_fine`. -/
def fine_query (c : Constants) (fuel steps : Nat) (sched : List Bool) (g : Graph)
    (order : List Nat) (s t : Nat) : Outcome Path :=
  match contract_graph c fuel g order with
  | Outcome.ok ch =>
    BidirectionalAStarService.run_fine c fuel steps sched
      (BidirectionalAStarService.new c g ch) s t
  | Outcome.out_of_range => Outcome.out_of_range
  | Outcome.empty_pop => Outcome.empty_pop
  | Outcome.no_fuel => Outcome.no_fuel

end PenAstar

namespace PenAstar

/-! ### Single-precision arithmetic: rounding error -/

theorem halvings_spec : ∀ (fuel n : Nat), n ≤ fuel → 0 < n →
    2 ^ halvings fuel n ≤ n ∧ n < 2 ^ (halvings fuel n + 1)
  | 0, n, h, h0 => by omega
  | fuel + 1, n, h, h0 => by
    unfold halvings
    split
    · rename_i h2
      have : n = 1 := by omega
      subst this
      simp
    · rename_i h2
      have ih := halvings_spec fuel (n / 2) (by omega) (by omega)
      have e1 : 2 ^ (halvings fuel (n / 2) + 1) = 2 * 2 ^ halvings fuel (n / 2) := by
        rw [pow_succ]; ring
      have e2 : 2 ^ (halvings fuel (n / 2) + 1 + 1) = 2 * 2 ^ (halvings fuel (n / 2) + 1) := by
        rw [pow_succ]; ring
      rw [e2]
      constructor
      · rw [e1]; omega
      · omega

theorem leading_bit_spec (n : Nat) (h : 0 < n) :
    2 ^ leading_bit n ≤ n ∧ n < 2 ^ (leading_bit n + 1) :=
  halvings_spec n n le_rfl h

theorem round_half_even_spec (a b : Nat) (hb : 0 < b) :
    2 * (round_half_even a b * b) ≤ 2 * a + b ∧ 2 * a ≤ 2 * (round_half_even a b * b) + b := by
  have h := Nat.div_add_mod a b
  have hr := Nat.mod_lt a hb
  rw [Nat.mul_comm] at h
  unfold round_half_even
  split
  · rename_i hc
    rw [Nat.add_mul, Nat.one_mul]
    rcases hc with hc | ⟨hc, _⟩ <;> constructor <;> omega
  · rename_i hc
    have hc' : 2 * (a % b) ≤ b := by
      by_contra hlt
      exact hc (Or.inl (by omega))
    constructor <;> omega

namespace F32

theorem round_core (m A B : Nat) (r1 : 2 * (m * B) ≤ 2 * A + B) (r2 : 2 * A ≤ 2 * (m * B) + B)
    (hA : 8388608 * B ≤ A) :
    16777216 * (m * B) ≤ 16777217 * A ∧ 16777215 * A ≤ 16777216 * (m * B) := by
  constructor <;> omega

/-- The rounding error of `round` in integers: the result `r` of rounding `num / den`
satisfies `(1 - 2^-24) * num / den ≤ r ≤ (1 + 2^-24) * num / den`. -/
theorem round_spec_nat (num den : Nat) (hd : 0 < den) :
    0 < (round num den).den ∧
    (round num den).num * den * 16777216 ≤ 16777217 * (num * (round num den).den) ∧
    16777215 * (num * (round num den).den) ≤ (round num den).num * den * 16777216 := by
  unfold round
  split
  · rename_i h0
    subst h0
    simp
  · rename_i h0
    have hn : 0 < num := Nat.pos_of_ne_zero h0
    obtain ⟨hn1, hn2⟩ := leading_bit_spec num hn
    obtain ⟨hd1, hd2⟩ := leading_bit_spec den hd
    have hD : 0 < 2 ^ (leading_bit den + 24) := pow_pos (by decide) _
    have eD : 2 ^ (leading_bit den + 24) = 2 ^ (leading_bit den + 1) * 8388608 := by
      rw [show leading_bit den + 24 = leading_bit den + 1 + 23 by omega, pow_add]
      norm_num
    have hA : 8388608 * (den * 2 ^ leading_bit num) ≤ num * 2 ^ (leading_bit den + 24) := by
      rw [eD]
      calc 8388608 * (den * 2 ^ leading_bit num)
          = den * 2 ^ leading_bit num * 8388608 := by ring
        _ ≤ 2 ^ (leading_bit den + 1) * num * 8388608 :=
            Nat.mul_le_mul_right _ (Nat.mul_le_mul (Nat.le_of_lt hd2) hn1)
        _ = num * (2 ^ (leading_bit den + 1) * 8388608) := by ring
    split
    · rename_i hlt
      have hB : 0 < den * 2 ^ leading_bit num := Nat.mul_pos hd (pow_pos (by decide) _)
      obtain ⟨r1, r2⟩ := round_half_even_spec (num * 2 ^ (leading_bit den + 24))
        (den * 2 ^ leading_bit num) hB
      obtain ⟨k1, k2⟩ := round_core _ _ _ r1 r2 hA
      dsimp only
      refine ⟨hD, ?_, ?_⟩
      · calc round_half_even (num * 2 ^ (leading_bit den + 24)) (den * 2 ^ leading_bit num) *
              2 ^ leading_bit num * den * 16777216
            = 16777216 * (round_half_even (num * 2 ^ (leading_bit den + 24))
                (den * 2 ^ leading_bit num) * (den * 2 ^ leading_bit num)) := by ring
          _ ≤ _ := k1
      · calc 16777215 * (num * 2 ^ (leading_bit den + 24))
            ≤ 16777216 * (round_half_even (num * 2 ^ (leading_bit den + 24))
                (den * 2 ^ leading_bit num) * (den * 2 ^ leading_bit num)) := k2
          _ = _ := by ring
    · rename_i hlt
      have hB : 0 < 2 * (den * 2 ^ leading_bit num) :=
        Nat.mul_pos (by decide) (Nat.mul_pos hd (pow_pos (by decide) _))
      obtain ⟨r1, r2⟩ := round_half_even_spec (num * 2 ^ (leading_bit den + 24))
        (2 * (den * 2 ^ leading_bit num)) hB
      have hA2 : 8388608 * (2 * (den * 2 ^ leading_bit num)) ≤
          num * 2 ^ (leading_bit den + 24) := by omega
      obtain ⟨k1, k2⟩ := round_core _ _ _ r1 r2 hA2
      dsimp only
      refine ⟨hD, ?_, ?_⟩
      · calc round_half_even (num * 2 ^ (leading_bit den + 24))
              (2 * (den * 2 ^ leading_bit num)) * 2 ^ (leading_bit num + 1) * den * 16777216
            = 16777216 * (round_half_even (num * 2 ^ (leading_bit den + 24))
                (2 * (den * 2 ^ leading_bit num)) * (2 * (den * 2 ^ leading_bit num))) := by
              rw [pow_succ]; ring
          _ ≤ _ := k1
      · calc 16777215 * (num * 2 ^ (leading_bit den + 24))
            ≤ 16777216 * (round_half_even (num * 2 ^ (leading_bit den + 24))
                (2 * (den * 2 ^ leading_bit num)) * (2 * (den * 2 ^ leading_bit num))) := k2
          _ = _ := by rw [pow_succ]; ring

/-- The rounding error of `round`: `(1 - 2^-24) x ≤ round x ≤ (1 + 2^-24) x`. -/
theorem round_spec (num den : Nat) (hd : 0 < den) :
    0 < (round num den).den ∧
    (1 - 1 / 16777216) * ((num : ℚ) / den) ≤ (round num den).val ∧
    (round num den).val ≤ (1 + 1 / 16777216) * ((num : ℚ) / den) := by
  obtain ⟨h0, h1, h2⟩ := round_spec_nat num den hd
  have hd' : (0 : ℚ) < den := by exact_mod_cast hd
  have h0' : (0 : ℚ) < (round num den).den := by exact_mod_cast h0
  have h1' : ((round num den).num : ℚ) * den * 16777216 ≤
      16777217 * (num * (round num den).den) := by exact_mod_cast h1
  have h2' : (16777215 : ℚ) * (num * (round num den).den) ≤
      (round num den).num * den * 16777216 := by exact_mod_cast h2
  refine ⟨h0, ?_, ?_⟩
  · unfold val
    rw [← sub_nonneg]
    have e : ((round num den).num : ℚ) / (round num den).den -
        (1 - 1 / 16777216) * ((num : ℚ) / den) =
        ((round num den).num * den * 16777216 - 16777215 * (num * (round num den).den)) /
          (16777216 * den * (round num den).den) := by
      field_simp
      ring
    rw [e]
    apply div_nonneg
    · linarith
    · positivity
  · unfold val
    rw [← sub_nonneg]
    have e : (1 + 1 / 16777216) * ((num : ℚ) / den) -
        ((round num den).num : ℚ) / (round num den).den =
        (16777217 * (num * (round num den).den) - (round num den).num * den * 16777216) /
          (16777216 * den * (round num den).den) := by
      field_simp
      ring
    rw [e]
    apply div_nonneg
    · linarith
    · positivity

theorem val_nonneg (a : F32) : 0 ≤ a.val := by
  unfold val
  positivity

theorem of_nat_spec (w : Nat) :
    0 < (of_nat w).den ∧ (1 - 1 / 16777216) * (w : ℚ) ≤ (of_nat w).val ∧
    (of_nat w).val ≤ (1 + 1 / 16777216) * (w : ℚ) := by
  have h := round_spec w 1 (by decide)
  simpa [of_nat] using h

theorem mul_spec (a b : F32) (ha : 0 < a.den) (hb : 0 < b.den) :
    0 < (mul a b).den ∧ (1 - 1 / 16777216) * (a.val * b.val) ≤ (mul a b).val ∧
    (mul a b).val ≤ (1 + 1 / 16777216) * (a.val * b.val) := by
  have h := round_spec (a.num * b.num) (a.den * b.den) (Nat.mul_pos ha hb)
  have e : ((a.num * b.num : Nat) : ℚ) / ((a.den * b.den : Nat) : ℚ) = a.val * b.val := by
    unfold val
    push_cast
    rw [mul_div_mul_comm]
  rw [e] at h
  exact h

theorem add_spec (a b : F32) (ha : 0 < a.den) (hb : 0 < b.den) :
    0 < (add a b).den ∧ (1 - 1 / 16777216) * (a.val + b.val) ≤ (add a b).val ∧
    (add a b).val ≤ (1 + 1 / 16777216) * (a.val + b.val) := by
  have h := round_spec (a.num * b.den + b.num * a.den) (a.den * b.den) (Nat.mul_pos ha hb)
  have ha' : (a.den : ℚ) ≠ 0 := by exact_mod_cast (Nat.pos_iff_ne_zero.1 ha)
  have hb' : (b.den : ℚ) ≠ 0 := by exact_mod_cast (Nat.pos_iff_ne_zero.1 hb)
  have e : ((a.num * b.den + b.num * a.den : Nat) : ℚ) / ((a.den * b.den : Nat) : ℚ) =
      a.val + b.val := by
    unfold val
    push_cast
    field_simp
  rw [e] at h
  exact h

theorem lt_iff (a b : F32) (ha : 0 < a.den) (hb : 0 < b.den) :
    lt a b = true ↔ a.val < b.val := by
  have ha' : (0 : ℚ) < a.den := by exact_mod_cast ha
  have hb' : (0 : ℚ) < b.den := by exact_mod_cast hb
  unfold lt val
  rw [decide_eq_true_iff, div_lt_div_iff₀ ha' hb']
  exact_mod_cast Iff.rfl

theorem le_iff (a b : F32) (ha : 0 < a.den) (hb : 0 < b.den) :
    le a b = true ↔ a.val ≤ b.val := by
  have ha' : (0 : ℚ) < a.den := by exact_mod_cast ha
  have hb' : (0 : ℚ) < b.den := by exact_mod_cast hb
  unfold le val
  rw [decide_eq_true_iff, div_le_div_iff₀ ha' hb']
  exact_mod_cast Iff.rfl

/-- Truncation: `to_uint32 a` is the integer part of the value of `a`. -/
theorem to_uint32_spec (a : F32) (ha : 0 < a.den) :
    (a.to_uint32 : ℚ) ≤ a.val ∧ a.val < (a.to_uint32 : ℚ) + 1 := by
  have ha' : (0 : ℚ) < a.den := by exact_mod_cast ha
  have h1 : a.num / a.den * a.den ≤ a.num := Nat.div_mul_le_self _ _
  have h2 : a.num < (a.num / a.den + 1) * a.den := by
    have := Nat.div_add_mod a.num a.den
    have := Nat.mod_lt a.num ha
    rw [Nat.add_mul, Nat.mul_comm (a.num / a.den)]
    omega
  unfold to_uint32 val
  constructor
  · rw [le_div_iff₀ ha']
    exact_mod_cast h1
  · rw [div_lt_iff₀ ha']
    exact_mod_cast h2

theorem le_to_uint32 (a : F32) (ha : 0 < a.den) (w : Nat) (h : (w : ℚ) ≤ a.val) :
    w ≤ a.to_uint32 := by
  have h2 := (to_uint32_spec a ha).2
  have : (w : ℚ) < (a.to_uint32 : ℚ) + 1 := lt_of_le_of_lt h h2
  have : w < a.to_uint32 + 1 := by exact_mod_cast this
  omega

end F32

end PenAstar

namespace PenAstar

/-! ### The float expressions of penalty.h and xbdv.h -/

theorem one_plus_factor_val :
    0 < (F32.add (F32.of_nat 1) (F32.round 4 100)).den ∧
    (F32.add (F32.of_nat 1) (F32.round 4 100)).val = 8724152 / 8388608 := by
  have hn : (F32.add (F32.of_nat 1) (F32.round 4 100)).num = 314320701570588539355136 := by
    decide!
  have hd : (F32.add (F32.of_nat 1) (F32.round 4 100)).den = 302231454903657293676544 := by
    decide!
  refine ⟨by rw [hd]; decide, ?_⟩
  unfold F32.val
  rw [hn, hd]
  norm_num

theorem one_plus_eps_val :
    0 < (F32.add (F32.of_nat 1) (F32.round 25 100)).den ∧
    (F32.add (F32.of_nat 1) (F32.round 25 100)).val = 5 / 4 := by
  have hn : (F32.add (F32.of_nat 1) (F32.round 25 100)).num = 377789318629571617095680 := by
    decide!
  have hd : (F32.add (F32.of_nat 1) (F32.round 25 100)).den = 302231454903657293676544 := by
    decide!
  refine ⟨by rw [hd]; decide, ?_⟩
  unfold F32.val
  rw [hn, hd]
  norm_num

theorem gamma_val : 0 < (F32.round 8 10).den ∧ (F32.round 8 10).val = 13421773 / 16777216 := by
  have hn : (F32.round 8 10).num = 107374184 := by decide!
  have hd : (F32.round 8 10).den = 134217728 := by decide!
  refine ⟨by rw [hd]; decide, ?_⟩
  unfold F32.val
  rw [hn, hd]
  norm_num

/-- The float product `float(w) * c` lies within `(1 ± 2^-24)^2` of `w * c`. -/
theorem F32.mul_of_nat_spec (w : Nat) (c : F32) (hc : 0 < c.den) :
    0 < (F32.mul (F32.of_nat w) c).den ∧
    (1 - 1 / 16777216) * ((1 - 1 / 16777216) * (w : ℚ) * c.val) ≤
      (F32.mul (F32.of_nat w) c).val ∧
    (F32.mul (F32.of_nat w) c).val ≤
      (1 + 1 / 16777216) * ((1 + 1 / 16777216) * (w : ℚ) * c.val) := by
  obtain ⟨h0, h1, h2⟩ := F32.of_nat_spec w
  obtain ⟨m0, m1, m2⟩ := F32.mul_spec (F32.of_nat w) c h0 hc
  have hcv := F32.val_nonneg c
  refine ⟨m0, le_trans ?_ m1, le_trans m2 ?_⟩
  · apply mul_le_mul_of_nonneg_left _ (by norm_num)
    exact mul_le_mul_of_nonneg_right h1 hcv
  · apply mul_le_mul_of_nonneg_left _ (by norm_num)
    exact mul_le_mul_of_nonneg_right h2 hcv

/-- The float product `c * float(w)` lies within `(1 ± 2^-24)^2` of `c * w`. -/
theorem F32.mul_of_nat_left_spec (w : Nat) (c : F32) (hc : 0 < c.den) :
    0 < (F32.mul c (F32.of_nat w)).den ∧
    (1 - 1 / 16777216) * ((1 - 1 / 16777216) * (w : ℚ) * c.val) ≤
      (F32.mul c (F32.of_nat w)).val ∧
    (F32.mul c (F32.of_nat w)).val ≤
      (1 + 1 / 16777216) * ((1 + 1 / 16777216) * (w : ℚ) * c.val) := by
  obtain ⟨h0, h1, h2⟩ := F32.of_nat_spec w
  obtain ⟨m0, m1, m2⟩ := F32.mul_spec c (F32.of_nat w) hc h0
  have hcv := F32.val_nonneg c
  refine ⟨m0, le_trans ?_ m1, le_trans m2 ?_⟩
  · apply mul_le_mul_of_nonneg_left _ (by norm_num)
    rw [mul_comm c.val]
    exact mul_le_mul_of_nonneg_right h1 hcv
  · apply mul_le_mul_of_nonneg_left _ (by norm_num)
    rw [mul_comm c.val]
    exact mul_le_mul_of_nonneg_right h2 hcv

/-- With the default `penalty_factor` a penalised weight is never below the weight. -/
theorem penalize_ge (w : Nat) : w ≤ defaultParams.penalize w := by
  obtain ⟨hc, hv⟩ := one_plus_factor_val
  obtain ⟨m0, m1, _⟩ := F32.mul_of_nat_spec w _ hc
  apply F32.le_to_uint32 _ m0
  refine le_trans ?_ m1
  rw [hv]
  have hw : (0 : ℚ) ≤ w := Nat.cast_nonneg w
  nlinarith

/-- With the default `eps = 0.25` the comparison `d < (1 + eps) * l` fails for `d > 2 l`. -/
theorem below_stretch_le (it : List Nat → List Nat) (alpha gamma : F32) (d l : Nat)
    (h : (float_xbdv alpha (F32.round 25 100) gamma it).below_stretch d l = true) :
    d ≤ 2 * l := by
  obtain ⟨hc, hv⟩ := one_plus_eps_val
  obtain ⟨m0, _, m2⟩ := F32.mul_of_nat_left_spec l _ hc
  obtain ⟨d0, d1, _⟩ := F32.of_nat_spec d
  have hlt := (F32.lt_iff _ _ d0 m0).1 h
  rw [hv] at m2
  have hd : (0 : ℚ) ≤ d := Nat.cast_nonneg d
  have hl : (0 : ℚ) ≤ l := Nat.cast_nonneg l
  have : (d : ℚ) ≤ 2 * l := by nlinarith
  exact_mod_cast this

/-- The sharing test in single precision: `float(sh) < gamma * float(l)` implies
`(1 - 2^-24) sh < (1 + 2^-24)^2 gamma l`. -/
theorem limited_sharing_bound (it : List Nat → List Nat) (alpha eps gamma : F32)
    (hg : 0 < gamma.den) (sh l : Nat)
    (h : (float_xbdv alpha eps gamma it).limited_sharing sh l = true) :
    (1 - 1 / 16777216) * (sh : ℚ) <
      (1 + 1 / 16777216) * ((1 + 1 / 16777216) * (l : ℚ) * gamma.val) := by
  obtain ⟨m0, _, m2⟩ := F32.mul_of_nat_left_spec l gamma hg
  obtain ⟨d0, d1, _⟩ := F32.of_nat_spec sh
  have hlt := (F32.lt_iff _ _ d0 m0).1 h
  exact lt_of_le_of_lt d1 (lt_of_lt_of_le hlt m2)

end PenAstar

namespace PenAstar

namespace Graph

/-! ### Lists of edges -/

theorem getD_set_list {α : Type} (l : List α) (i j : Nat) (x d : α) :
    (l.set i x).getD j d = if i = j ∧ i < l.length then x else l.getD j d := by
  simp only [List.getD_eq_getElem?_getD, List.getElem?_set]
  by_cases h : i = j
  · subst h
    by_cases h2 : i < l.length
    · simp [h2]
    · simp [h2, List.getElem?_eq_none (Nat.le_of_not_lt h2)]
  · simp [h]

theorem add_arc_nil (t w : Nat) : add_arc [] t w = [⟨t, w⟩] := rfl

theorem add_arc_cons (e : Edge) (es : List Edge) (t w : Nat) :
    add_arc (e :: es) t w =
      if e.target = t then (if e.weight > w then { e with weight := w } else e) :: es
      else e :: add_arc es t w := by
  unfold add_arc
  by_cases h : e.target = t
  · simp [lower_first, h]
  · simp only [lower_first, h, if_false]
    cases lower_first es t w <;> simp

theorem first_weight_some_iff (l : List Edge) (hl : (l.map Edge.target).Nodup) (t w : Nat) :
    first_weight l t = some w ↔ (⟨t, w⟩ : Edge) ∈ l := by
  induction l with
  | nil => simp [first_weight]
  | cons e es ih =>
    simp only [List.map_cons, List.nodup_cons] at hl
    by_cases h : e.target = t
    · simp only [first_weight, h, if_true, List.mem_cons, Option.some.injEq]
      constructor
      · intro hw
        left
        cases e
        simp_all
      · rintro (h1 | h1)
        · rw [← h1]
        · exfalso
          apply hl.1
          rw [h]
          exact List.mem_map.2 ⟨_, h1, rfl⟩
    · simp only [first_weight, h, if_false, List.mem_cons]
      rw [ih hl.2]
      constructor
      · intro h1
        exact Or.inr h1
      · rintro (h1 | h1)
        · exfalso
          apply h
          rw [← h1]
        · exact h1

theorem first_weight_none_iff (l : List Edge) (t : Nat) :
    first_weight l t = none ↔ ∀ e ∈ l, e.target ≠ t := by
  induction l with
  | nil => simp [first_weight]
  | cons e es ih =>
    by_cases h : e.target = t
    · simp [first_weight, h]
    · simp [first_weight, h, ih]

theorem first_weight_add_arc (l : List Edge) (t w t' : Nat) :
    first_weight (add_arc l t w) t' =
      if t' = t then some (merged_weight (first_weight l t) w) else first_weight l t' := by
  induction l with
  | nil =>
    by_cases h : t' = t
    · subst h
      simp [add_arc_nil, first_weight, merged_weight]
    · simp [add_arc_nil, first_weight, h, Ne.symm h]
  | cons e es ih =>
    rw [add_arc_cons]
    by_cases h : e.target = t
    · simp only [h, if_true]
      by_cases h2 : t' = t
      · subst h2
        by_cases h3 : e.weight > w
        · simp [first_weight, h, h3, merged_weight, Nat.min_eq_left (Nat.le_of_lt h3)]
        · simp [first_weight, h, h3, merged_weight, Nat.min_eq_right (Nat.le_of_not_lt h3)]
      · have h4 : ¬ t = t' := fun h5 => h2 h5.symm
        by_cases h3 : e.weight > w
        · simp [first_weight, h, h2, h3, h4]
        · simp [first_weight, h, h2, h3, h4]
    · simp only [h, if_false]
      by_cases h2 : t' = t
      · subst h2
        simp [first_weight, h, ih]
      · by_cases h3 : e.target = t'
        · simp [first_weight, h3, h2]
        · simp [first_weight, h3, h2, ih]

theorem map_target_add_arc (l : List Edge) (t w : Nat) :
    (add_arc l t w).map Edge.target =
      if t ∈ l.map Edge.target then l.map Edge.target else l.map Edge.target ++ [t] := by
  induction l with
  | nil => simp [add_arc_nil]
  | cons e es ih =>
    rw [add_arc_cons]
    by_cases h : e.target = t
    · by_cases h3 : e.weight > w
      · simp [h, h3]
      · simp [h, h3]
    · have h4 : ¬ t = e.target := fun h5 => h h5.symm
      simp only [h, if_false, List.map_cons, ih, List.mem_cons, h4, false_or]
      split <;> simp

theorem nodup_add_arc (l : List Edge) (hl : (l.map Edge.target).Nodup) (t w : Nat) :
    ((add_arc l t w).map Edge.target).Nodup := by
  rw [map_target_add_arc]
  split
  · exact hl
  · rename_i h
    rw [List.nodup_append]
    refine ⟨hl, by simp, ?_⟩
    intro a ha hb
    simp only [List.mem_singleton] at hb
    subst hb
    exact h ha

theorem find_target_none_iff (l : List Edge) (v : Nat) :
    find_target l v = none ↔ ∀ e ∈ l, e.target ≠ v := by
  induction l with
  | nil => simp [find_target]
  | cons e es ih =>
    by_cases h : e.target = v
    · simp [find_target, h]
    · simp [find_target, h, ih]

theorem find_target_split (l : List Edge) (v i : Nat) (h : find_target l v = some i) :
    ∃ a x b, l = a ++ x :: b ∧ a.length = i ∧ x.target = v ∧ ∀ e ∈ a, e.target ≠ v := by
  induction l generalizing i with
  | nil => simp [find_target] at h
  | cons e es ih =>
    by_cases h1 : e.target = v
    · simp only [find_target, h1, if_true, Option.some.injEq] at h
      exact ⟨[], e, es, rfl, by simpa using h, h1, by simp⟩
    · simp only [find_target, h1, if_false, Option.map_eq_some'] at h
      obtain ⟨j, hj, hji⟩ := h
      obtain ⟨a, x, b, hl, ha, hx, hall⟩ := ih j hj
      refine ⟨e :: a, x, b, by simp [hl], by simp only [List.length_cons]; omega, hx, ?_⟩
      intro e' he'
      simp only [List.mem_cons] at he'
      rcases he' with h2 | h2
      · rw [h2]; exact h1
      · exact hall e' h2

theorem getLastD_append_singleton {α : Type} (l : List α) (y d : α) :
    (l ++ [y]).getLastD d = y := by
  induction l generalizing d with
  | nil => rfl
  | cons a l ih => rw [List.cons_append, List.getLastD_cons, ih]

theorem swap_pop_split (a : List Edge) (x : Edge) (b : List Edge) :
    (swap_pop (a ++ x :: b) a.length).Perm (a ++ b) := by
  unfold swap_pop
  rcases List.eq_nil_or_concat b with hb | ⟨b', y, hb⟩
  · subst hb
    have h0 : (a ++ [x]).set a.length ((a ++ [x]).getLastD default) = a ++ [x] := by
      simp [List.set_append, getLastD_append_singleton]
    rw [h0, List.dropLast_concat]
    simp
  · rw [List.concat_eq_append] at hb
    subst hb
    have h3 : a ++ x :: (b' ++ [y]) = (a ++ x :: b') ++ [y] := by simp
    have h1 : (a ++ x :: (b' ++ [y])).getLastD default = y := by
      rw [h3, getLastD_append_singleton]
    rw [h1]
    have h2 : (a ++ x :: (b' ++ [y])).set a.length y = (a ++ y :: b') ++ [y] := by
      simp [List.set_append]
    rw [h2, List.dropLast_concat]
    refine List.Perm.append_left a ?_
    exact (List.perm_append_singleton y b').symm

theorem first_weight_of_perm (l l' : List Edge) (hp : l.Perm l')
    (hl : (l.map Edge.target).Nodup) (t : Nat) : first_weight l t = first_weight l' t := by
  have hl' : (l'.map Edge.target).Nodup := (hp.map Edge.target).nodup_iff.1 hl
  cases h : first_weight l' t with
  | none =>
    rw [first_weight_none_iff] at h ⊢
    intro e he
    exact h e (hp.mem_iff.1 he)
  | some w =>
    rw [first_weight_some_iff _ hl'] at h
    rw [first_weight_some_iff _ hl]
    exact hp.mem_iff.2 h

theorem swap_pop_spec (l : List Edge) (hl : (l.map Edge.target).Nodup) (v i : Nat)
    (h : find_target l v = some i) :
    ((swap_pop l i).map Edge.target).Nodup ∧
    (∀ t, first_weight (swap_pop l i) t = if t = v then none else first_weight l t) ∧
    (∀ e, e ∈ swap_pop l i ↔ e ∈ l ∧ e.target ≠ v) := by
  obtain ⟨a, x, b, hl2, ha, hx, hall⟩ := find_target_split l v i h
  subst hl2
  subst ha
  have hp := swap_pop_split a x b
  have hnd : ((a ++ b).map Edge.target).Nodup := by
    have : (a ++ b).Sublist (a ++ x :: b) :=
      List.Sublist.append_left (List.sublist_cons_self x b) a
    exact List.Nodup.sublist (this.map Edge.target) hl
  have hnd2 : ((swap_pop (a ++ x :: b) a.length).map Edge.target).Nodup :=
    (hp.map Edge.target).nodup_iff.2 hnd
  have hb : ∀ e ∈ b, e.target ≠ v := by
    intro e he hev
    simp only [List.map_append, List.map_cons] at hl
    rw [List.nodup_append] at hl
    have h2 := hl.2.1
    simp only [List.nodup_cons, List.mem_map] at h2
    apply h2.1
    exact ⟨e, he, by rw [hev, hx]⟩
  have hmem : ∀ e, e ∈ swap_pop (a ++ x :: b) a.length ↔ e ∈ a ++ x :: b ∧ e.target ≠ v := by
    intro e
    rw [hp.mem_iff]
    simp only [List.mem_append, List.mem_cons]
    constructor
    · rintro (h1 | h1)
      · exact ⟨Or.inl h1, hall e h1⟩
      · exact ⟨Or.inr (Or.inr h1), hb e h1⟩
    · rintro ⟨h1 | h1 | h1, h2⟩
      · exact Or.inl h1
      · exfalso; apply h2; rw [h1]; exact hx
      · exact Or.inr h1
  refine ⟨hnd2, ?_, hmem⟩
  intro t
  by_cases ht : t = v
  · subst ht
    simp only [if_true]
    rw [first_weight_none_iff]
    intro e he
    exact ((hmem e).1 he).2
  · simp only [ht, if_false]
    cases h2 : first_weight (a ++ x :: b) t with
    | none =>
      rw [first_weight_none_iff] at h2 ⊢
      intro e he
      exact h2 e ((hmem e).1 he).1
    | some w =>
      rw [first_weight_some_iff _ hl] at h2
      rw [first_weight_some_iff _ hnd2]
      exact (hmem _).2 ⟨h2, ht⟩

theorem map_target_set_first (l : List Edge) (v w : Nat) :
    (set_first l v w).map Edge.target = l.map Edge.target := by
  induction l with
  | nil => rfl
  | cons e es ih =>
    by_cases h : e.target = v
    · simp [set_first, h]
    · simp [set_first, h, ih]

theorem first_weight_set_first (l : List Edge) (v w t : Nat) :
    first_weight (set_first l v w) t =
      if t = v then (first_weight l v).map (fun _ => w) else first_weight l t := by
  induction l with
  | nil => simp [set_first, first_weight]
  | cons e es ih =>
    by_cases h : e.target = v
    · by_cases h2 : t = v
      · subst h2
        simp [set_first, first_weight, h]
      · have h3 : ¬ v = t := fun h4 => h2 h4.symm
        simp [set_first, first_weight, h, h2, h3]
    · by_cases h2 : t = v
      · subst h2
        simp [set_first, first_weight, h, ih]
      · by_cases h3 : e.target = t
        · simp [set_first, first_weight, h, h2, h3]
        · simp [set_first, first_weight, h, h2, h3, ih]

end Graph

end PenAstar

namespace PenAstar

namespace Graph

/-! ### Graph operations and consistency -/

theorem consistent_iff_weight (g : Graph) :
    g.Consistent ↔
      g.adj_list.length = g.rev_adj_list.length ∧
      (∀ u, ((g.get_out_arcs u).map Edge.target).Nodup) ∧
      (∀ v, ((g.get_rev_out_arcs v).map Edge.target).Nodup) ∧
      (∀ u v, first_weight (g.get_out_arcs u) v = first_weight (g.get_rev_out_arcs v) u) := by
  constructor
  · rintro ⟨h1, h2, h3, h4⟩
    refine ⟨h1, h3, h4, ?_⟩
    intro u v
    apply Option.ext
    intro w
    simp only [Option.mem_def]
    rw [first_weight_some_iff _ (h3 u), first_weight_some_iff _ (h4 v)]
    exact h2 u v w
  · rintro ⟨h1, h3, h4, h5⟩
    refine ⟨h1, ?_, h3, h4⟩
    intro u v w
    rw [← first_weight_some_iff _ (h3 u), ← first_weight_some_iff _ (h4 v), h5]

theorem out_arcs_eq_nil_of_le (g : Graph) (u : Nat) (h : g.size ≤ u) : g.get_out_arcs u = [] := by
  unfold get_out_arcs size at *
  rw [List.getD_eq_default _ _ h]

theorem rev_out_arcs_eq_nil_of_le (g : Graph) (u : Nat) (h : g.rev_adj_list.length ≤ u) :
    g.get_rev_out_arcs u = [] := by
  unfold get_rev_out_arcs
  rw [List.getD_eq_default _ _ h]

theorem size_new (n : Nat) : (Graph.new n).size = n := by simp [Graph.new, size]

theorem consistent_new (n : Nat) : (Graph.new n).Consistent := by
  have h1 : ∀ u, (Graph.new n).get_out_arcs u = [] := by
    intro u
    simp only [get_out_arcs, Graph.new, List.getD_eq_getElem?_getD, List.getElem?_replicate]
    split <;> rfl
  have h2 : ∀ u, (Graph.new n).get_rev_out_arcs u = [] := by
    intro u
    simp only [get_rev_out_arcs, Graph.new, List.getD_eq_getElem?_getD, List.getElem?_replicate]
    split <;> rfl
  refine ⟨by simp [Graph.new], ?_, ?_, ?_⟩
  · intro u v w; simp [h1, h2]
  · intro u; simp [h1]
  · intro u; simp [h2]

/-- In a consistent graph both endpoints of a stored arc are nodes. -/
theorem Consistent.arc_lt (g : Graph) (hc : g.Consistent) (u : Nat) (e : Edge)
    (he : e ∈ g.get_out_arcs u) : u < g.size ∧ e.target < g.size := by
  constructor
  · by_contra h
    rw [out_arcs_eq_nil_of_le g u (Nat.le_of_not_lt h)] at he
    simp at he
  · by_contra h
    have h2 : (⟨u, e.weight⟩ : Edge) ∈ g.get_rev_out_arcs e.target := (hc.2.1 u e.target e.weight).1 he
    rw [rev_out_arcs_eq_nil_of_le g e.target (by rw [← hc.1]; exact Nat.le_of_not_lt h)] at h2
    simp at h2

theorem Consistent.rev_arc_lt (g : Graph) (hc : g.Consistent) (v : Nat) (e : Edge)
    (he : e ∈ g.get_rev_out_arcs v) : v < g.size ∧ e.target < g.size := by
  have h2 : (⟨v, e.weight⟩ : Edge) ∈ g.get_out_arcs e.target := (hc.2.1 e.target v e.weight).2 he
  have h3 := hc.arc_lt g e.target _ h2
  exact ⟨h3.2, h3.1⟩

theorem size_add_edge (g : Graph) (s : Nat) (e : Edge) : (g.add_edge s e).size = g.size := by
  simp [add_edge, size]

theorem out_add_edge (g : Graph) (s : Nat) (e : Edge) (hs : s < g.size) (a : Nat) :
    (g.add_edge s e).get_out_arcs a =
      if a = s then add_arc (g.get_out_arcs s) e.target e.weight else g.get_out_arcs a := by
  unfold size at hs
  simp only [get_out_arcs, add_edge, getD_set_list, hs, and_true]
  by_cases h : s = a
  · subst h; simp
  · have h2 : ¬ a = s := fun h3 => h h3.symm
    simp [h, h2]

theorem rev_add_edge (g : Graph) (s : Nat) (e : Edge) (ht : e.target < g.rev_adj_list.length)
    (b : Nat) :
    (g.add_edge s e).get_rev_out_arcs b =
      if b = e.target then add_arc (g.get_rev_out_arcs e.target) s e.weight
      else g.get_rev_out_arcs b := by
  simp only [get_rev_out_arcs, add_edge, getD_set_list, ht, and_true]
  by_cases h : e.target = b
  · subst h; simp
  · have h2 : ¬ b = e.target := fun h3 => h h3.symm
    simp [h, h2]

/-- Effect of `add_edge` on a consistent graph, in terms of stored weights. -/
theorem add_edge_spec (g : Graph) (hc : g.Consistent) (s : Nat) (e : Edge)
    (hs : s < g.size) (ht : e.target < g.size) :
    (g.add_edge s e).Consistent ∧
    ∀ a b, first_weight ((g.add_edge s e).get_out_arcs a) b =
      if a = s ∧ b = e.target then
        some (merged_weight (first_weight (g.get_out_arcs s) e.target) e.weight)
      else first_weight (g.get_out_arcs a) b := by
  have hc2 := (consistent_iff_weight g).1 hc
  obtain ⟨h1, h2, h3, h4⟩ := hc2
  have ht2 : e.target < g.rev_adj_list.length := by rw [← h1]; exact ht
  have hout : ∀ a b, first_weight ((g.add_edge s e).get_out_arcs a) b =
      if a = s ∧ b = e.target then
        some (merged_weight (first_weight (g.get_out_arcs s) e.target) e.weight)
      else first_weight (g.get_out_arcs a) b := by
    intro a b
    rw [out_add_edge g s e hs]
    by_cases ha : a = s
    · subst ha
      simp only [if_true, first_weight_add_arc, true_and]
    · simp [ha]
  have hrev : ∀ a b, first_weight ((g.add_edge s e).get_rev_out_arcs b) a =
      if a = s ∧ b = e.target then
        some (merged_weight (first_weight (g.get_out_arcs s) e.target) e.weight)
      else first_weight (g.get_out_arcs a) b := by
    intro a b
    rw [rev_add_edge g s e ht2]
    by_cases hb : b = e.target
    · subst hb
      simp only [if_true, first_weight_add_arc, and_true, h4]
    · simp [hb, h4]
  refine ⟨?_, hout⟩
  rw [consistent_iff_weight]
  refine ⟨by simp [add_edge, h1], ?_, ?_, ?_⟩
  · intro u
    rw [out_add_edge g s e hs]
    split
    · exact nodup_add_arc _ (h2 s) _ _
    · exact h2 u
  · intro v
    rw [rev_add_edge g s e ht2]
    split
    · exact nodup_add_arc _ (h3 _) _ _
    · exact h3 v
  · intro u v
    rw [hout, hrev]

theorem size_remove_edge (g : Graph) (u v : Nat) : (g.remove_edge u v).1.size = g.size := by
  unfold remove_edge
  cases find_target (g.adj_list.getD u []) v with
  | none => rfl
  | some i =>
    cases find_target (g.rev_adj_list.getD v []) u with
    | none => simp [size]
    | some j => simp [size]

/-- Effect of `remove_edge` on a consistent graph, in terms of stored weights. -/
theorem remove_edge_spec (g : Graph) (hc : g.Consistent) (u v : Nat) :
    (g.remove_edge u v).1.Consistent ∧
    ((g.remove_edge u v).2 = true ↔ ∃ w, (⟨v, w⟩ : Edge) ∈ g.get_out_arcs u) ∧
    ((g.remove_edge u v).2 = false → (g.remove_edge u v).1 = g) ∧
    ∀ a b, first_weight ((g.remove_edge u v).1.get_out_arcs a) b =
      if a = u ∧ b = v then none else first_weight (g.get_out_arcs a) b := by
  have hc2 := (consistent_iff_weight g).1 hc
  obtain ⟨h1, h2, h3, h4⟩ := hc2
  cases hf : find_target (g.adj_list.getD u []) v with
  | none =>
    have hrm : g.remove_edge u v = (g, false) := by unfold remove_edge; simp only [hf]
    have hno : ∀ e ∈ g.get_out_arcs u, e.target ≠ v := (find_target_none_iff _ _).1 hf
    rw [hrm]
    refine ⟨hc, ?_, fun _ => rfl, ?_⟩
    · simp only [Bool.false_eq_true, false_iff, not_exists]
      intro w hw
      exact hno _ hw rfl
    · intro a b
      by_cases hab : a = u ∧ b = v
      · obtain ⟨ha, hb⟩ := hab
        subst ha; subst hb
        simp only [and_self, if_true]
        exact (first_weight_none_iff _ _).2 hno
      · simp [hab]
  | some i =>
    obtain ⟨a0, x, b0, hl, ha0, hx, hall⟩ := find_target_split _ v i hf
    have hxm : x ∈ g.get_out_arcs u := by
      unfold get_out_arcs; rw [hl]; simp
    have hxm2 : (⟨v, x.weight⟩ : Edge) ∈ g.get_out_arcs u := by
      rw [← hx]; exact hxm
    have hlt := hc.arc_lt g u _ hxm2
    simp only at hlt
    have hrv : (⟨u, x.weight⟩ : Edge) ∈ g.get_rev_out_arcs v := (hc.2.1 u v x.weight).1 hxm2
    cases hf2 : find_target (g.rev_adj_list.getD v []) u with
    | none =>
      exfalso
      exact (find_target_none_iff _ _).1 hf2 _ hrv rfl
    | some j =>
      have hrm : g.remove_edge u v =
          (⟨g.adj_list.set u (swap_pop (g.adj_list.getD u []) i),
            g.rev_adj_list.set v (swap_pop (g.rev_adj_list.getD v []) j)⟩, true) := by
        unfold remove_edge; simp only [hf, hf2]
      have hsp := swap_pop_spec _ (h2 u) v i hf
      have hsp2 := swap_pop_spec _ (h3 v) u j hf2
      have hu : u < g.adj_list.length := hlt.1
      have hv : v < g.rev_adj_list.length := by rw [← h1]; exact hlt.2
      rw [hrm]
      have hout : ∀ a, (Graph.mk (g.adj_list.set u (swap_pop (g.adj_list.getD u []) i))
            (g.rev_adj_list.set v (swap_pop (g.rev_adj_list.getD v []) j))).get_out_arcs a =
          if a = u then swap_pop (g.get_out_arcs u) i else g.get_out_arcs a := by
        intro a
        simp only [get_out_arcs, getD_set_list, hu, and_true]
        by_cases h : u = a
        · subst h; simp
        · have h' : ¬ a = u := fun h5 => h h5.symm
          simp [h, h']
      have hrev : ∀ a, (Graph.mk (g.adj_list.set u (swap_pop (g.adj_list.getD u []) i))
            (g.rev_adj_list.set v (swap_pop (g.rev_adj_list.getD v []) j))).get_rev_out_arcs a =
          if a = v then swap_pop (g.get_rev_out_arcs v) j else g.get_rev_out_arcs a := by
        intro a
        simp only [get_rev_out_arcs, getD_set_list, hv, and_true]
        by_cases h : v = a
        · subst h; simp
        · have h' : ¬ a = v := fun h5 => h h5.symm
          simp [h, h']
      have hw1 : ∀ a b, first_weight ((Graph.mk (g.adj_list.set u (swap_pop (g.adj_list.getD u []) i))
            (g.rev_adj_list.set v (swap_pop (g.rev_adj_list.getD v []) j))).get_out_arcs a) b =
          if a = u ∧ b = v then none else first_weight (g.get_out_arcs a) b := by
        intro a b
        rw [hout]
        by_cases ha : a = u
        · subst ha
          simp only [if_true, true_and]
          exact hsp.2.1 b
        · simp [ha]
      have hw2 : ∀ a b, first_weight ((Graph.mk (g.adj_list.set u (swap_pop (g.adj_list.getD u []) i))
            (g.rev_adj_list.set v (swap_pop (g.rev_adj_list.getD v []) j))).get_rev_out_arcs b) a =
          if a = u ∧ b = v then none else first_weight (g.get_out_arcs a) b := by
        intro a b
        rw [hrev]
        by_cases hb : b = v
        · subst hb
          simp only [if_true, and_true]
          rw [hsp2.2.1 a, h4]
        · simp [hb, h4]
      refine ⟨?_, ?_, ?_, hw1⟩
      · rw [consistent_iff_weight]
        refine ⟨by simp [h1], ?_, ?_, ?_⟩
        · intro a
          rw [hout]
          split
          · exact hsp.1
          · exact h2 a
        · intro a
          rw [hrev]
          split
          · exact hsp2.1
          · exact h3 a
        · intro a b
          rw [hw1, hw2]
      · simp only [true_iff]
        exact ⟨x.weight, hxm2⟩
      · intro h; simp at h

theorem size_change_edge_weight (g : Graph) (u v w : Nat) :
    (g.change_edge_weight u v w).size = g.size := by
  simp [change_edge_weight, size]

/-- Effect of `change_edge_weight` on a consistent graph, in terms of stored weights. -/
theorem change_edge_weight_spec (g : Graph) (hc : g.Consistent) (u v w : Nat)
    (hu : u < g.size) (hv : v < g.size) :
    (g.change_edge_weight u v w).Consistent ∧
    ∀ a b, first_weight ((g.change_edge_weight u v w).get_out_arcs a) b =
      if a = u ∧ b = v then (first_weight (g.get_out_arcs u) v).map (fun _ => w)
      else first_weight (g.get_out_arcs a) b := by
  have hc2 := (consistent_iff_weight g).1 hc
  obtain ⟨h1, h2, h3, h4⟩ := hc2
  have hv2 : v < g.rev_adj_list.length := by rw [← h1]; exact hv
  have hout : ∀ a, (g.change_edge_weight u v w).get_out_arcs a =
      if a = u then set_first (g.get_out_arcs u) v w else g.get_out_arcs a := by
    intro a
    unfold size at hu
    simp only [get_out_arcs, change_edge_weight, getD_set_list, hu, and_true]
    by_cases h : u = a
    · subst h; simp
    · have h' : ¬ a = u := fun h5 => h h5.symm
      simp [h, h']
  have hrev : ∀ a, (g.change_edge_weight u v w).get_rev_out_arcs a =
      if a = v then set_first (g.get_rev_out_arcs v) u w else g.get_rev_out_arcs a := by
    intro a
    simp only [get_rev_out_arcs, change_edge_weight, getD_set_list, hv2, and_true]
    by_cases h : v = a
    · subst h; simp
    · have h' : ¬ a = v := fun h5 => h h5.symm
      simp [h, h']
  have hw1 : ∀ a b, first_weight ((g.change_edge_weight u v w).get_out_arcs a) b =
      if a = u ∧ b = v then (first_weight (g.get_out_arcs u) v).map (fun _ => w)
      else first_weight (g.get_out_arcs a) b := by
    intro a b
    rw [hout]
    by_cases ha : a = u
    · subst ha
      simp only [if_true, true_and, first_weight_set_first]
    · simp [ha]
  have hw2 : ∀ a b, first_weight ((g.change_edge_weight u v w).get_rev_out_arcs b) a =
      if a = u ∧ b = v then (first_weight (g.get_out_arcs u) v).map (fun _ => w)
      else first_weight (g.get_out_arcs a) b := by
    intro a b
    rw [hrev]
    by_cases hb : b = v
    · subst hb
      simp only [if_true, and_true, first_weight_set_first, h4]
    · simp [hb, h4]
  refine ⟨?_, hw1⟩
  rw [consistent_iff_weight]
  refine ⟨by simp [change_edge_weight, h1], ?_, ?_, ?_⟩
  · intro a
    rw [hout]
    split
    · rw [map_target_set_first]; exact h2 u
    · exact h2 a
  · intro a
    rw [hrev]
    split
    · rw [map_target_set_first]; exact h3 v
    · exact h3 a
  · intro a b
    rw [hw1, hw2]

theorem disconnect_out_consistent (node : Nat) (i : Nat) (g : Graph) (hc : g.Consistent) :
    (disconnect_out node i g).Consistent ∧ (disconnect_out node i g).size = g.size := by
  induction i generalizing g with
  | zero => exact ⟨hc, rfl⟩
  | succ i ih =>
    simp only [disconnect_out]
    have h := ih _ (remove_edge_spec g hc node ((g.get_out_arcs node).getD i default).target).1
    exact ⟨h.1, by rw [h.2, size_remove_edge]⟩

theorem disconnect_in_consistent (node : Nat) (i : Nat) (g : Graph) (hc : g.Consistent) :
    (disconnect_in node i g).Consistent ∧ (disconnect_in node i g).size = g.size := by
  induction i generalizing g with
  | zero => exact ⟨hc, rfl⟩
  | succ i ih =>
    simp only [disconnect_in]
    have h := ih _ (remove_edge_spec g hc ((g.get_rev_out_arcs node).getD i default).target node).1
    exact ⟨h.1, by rw [h.2, size_remove_edge]⟩

theorem disconnect_node_consistent (g : Graph) (hc : g.Consistent) (node : Nat) :
    (g.disconnect_node node).Consistent ∧ (g.disconnect_node node).size = g.size := by
  unfold disconnect_node
  have h1 := disconnect_out_consistent node (g.get_out_arcs node).length g hc
  have h2 := disconnect_in_consistent node
    ((disconnect_out node (g.get_out_arcs node).length g).get_rev_out_arcs node).length _ h1.1
  exact ⟨h2.1, by rw [h2.2, h1.2]⟩

theorem apply_consistent (n : Nat) (g : Graph) (hc : g.Consistent) (hn : g.size = n)
    (op : GraphOp) (hv : op.valid n) :
    (op.apply g).Consistent ∧ (op.apply g).size = n := by
  cases op with
  | add_edge s e =>
    obtain ⟨h1, h2⟩ := hv
    exact ⟨(add_edge_spec g hc s e (by rw [hn]; exact h1) (by rw [hn]; exact h2)).1,
      by simp only [GraphOp.apply]; rw [size_add_edge, hn]⟩
  | remove_edge u v =>
    exact ⟨(remove_edge_spec g hc u v).1, by simp only [GraphOp.apply]; rw [size_remove_edge, hn]⟩
  | change_edge_weight u v w =>
    obtain ⟨h1, h2⟩ := hv
    exact ⟨(change_edge_weight_spec g hc u v w (by rw [hn]; exact h1) (by rw [hn]; exact h2)).1,
      by simp only [GraphOp.apply]; rw [size_change_edge_weight, hn]⟩
  | disconnect_node node =>
    have h := disconnect_node_consistent g hc node
    exact ⟨h.1, by simp only [GraphOp.apply]; rw [h.2, hn]⟩

theorem run_ops_consistent (n : Nat) (ops : List GraphOp) (g : Graph) (hc : g.Consistent)
    (hn : g.size = n) (hv : ∀ op ∈ ops, op.valid n) :
    (run_ops g ops).Consistent ∧ (run_ops g ops).size = n := by
  induction ops generalizing g with
  | nil => exact ⟨hc, hn⟩
  | cons op ops ih =>
    have h := apply_consistent n g hc hn op (hv op (by simp))
    simp only [run_ops, List.foldl_cons]
    exact ih _ h.1 h.2 (fun o ho => hv o (by simp [ho]))

theorem add_arc_idem (l : List Edge) (t w : Nat) : add_arc (add_arc l t w) t w = add_arc l t w := by
  induction l with
  | nil => simp [add_arc_nil, add_arc_cons]
  | cons e es ih =>
    by_cases h : e.target = t
    · by_cases h3 : e.weight > w
      · simp [add_arc_cons, h, h3]
      · simp [add_arc_cons, h, h3]
    · rw [add_arc_cons e es, if_neg h, add_arc_cons, if_neg h, ih]

theorem set_getD_set {α : Type} (l : List α) (i : Nat) (x d : α) (f : α → α) (hf : f x = x) :
    (l.set i x).set i (f ((l.set i x).getD i d)) = l.set i x := by
  rw [List.set_set]
  by_cases h : i < l.length
  · rw [getD_set_list]
    simp [h, hf]
  · rw [List.set_eq_of_length_le (Nat.le_of_not_lt h), List.set_eq_of_length_le (Nat.le_of_not_lt h)]

theorem add_edge_idem (g : Graph) (s : Nat) (e : Edge) :
    (g.add_edge s e).add_edge s e = g.add_edge s e := by
  unfold add_edge
  simp only
  congr 1
  · exact set_getD_set g.adj_list s _ [] (fun l => add_arc l e.target e.weight)
      (add_arc_idem _ _ _)
  · exact set_getD_set g.rev_adj_list e.target _ [] (fun l => add_arc l s e.weight)
      (add_arc_idem _ _ _)

theorem filter_target_singleton (l : List Edge) (hl : (l.map Edge.target).Nodup) (t w : Nat)
    (h : (⟨t, w⟩ : Edge) ∈ l) : l.filter (fun e => decide (e.target = t)) = [⟨t, w⟩] := by
  induction l with
  | nil => simp at h
  | cons e es ih =>
    simp only [List.map_cons, List.nodup_cons] at hl
    simp only [List.mem_cons] at h
    by_cases he : e.target = t
    · have hno : ∀ x ∈ es, ¬ x.target = t := by
        intro x hx hxt
        apply hl.1
        rw [he, ← hxt]
        exact List.mem_map.2 ⟨x, hx, rfl⟩
      have h1 : (⟨t, w⟩ : Edge) = e := by
        rcases h with h | h
        · exact h
        · exact absurd rfl (hno _ h)
      have h2 : es.filter (fun e => decide (e.target = t)) = [] := by
        rw [List.filter_eq_nil_iff]
        intro x hx
        simpa using hno x hx
      rw [List.filter_cons_of_pos (by simpa using he), h2, h1]
    · have h1 : (⟨t, w⟩ : Edge) ∈ es := by
        rcases h with h | h
        · exfalso; apply he; rw [← h]
        · exact h
      rw [List.filter_cons_of_neg (by simpa using he)]
      exact ih hl.2 h1

/-- Membership in a forward list of a consistent graph, read off the stored weight. -/
theorem Consistent.mem_out_iff (g : Graph) (hc : g.Consistent) (a b x : Nat) :
    (⟨b, x⟩ : Edge) ∈ g.get_out_arcs a ↔ first_weight (g.get_out_arcs a) b = some x :=
  (first_weight_some_iff _ (hc.2.2.1 a) b x).symm

end Graph

end PenAstar

namespace PenAstar

namespace Graph

end Graph

open Graph

/-- C8: starting from an empty graph with `n` nodes, after any sequence of `add_edge`,
`remove_edge`, `change_edge_weight` and `disconnect_node` calls on nodes of the graph, the
entry `(v, w)` is in `get_out_arcs(u)` exactly when `(u, w)` is in `get_rev_out_arcs(v)`,
and no adjacency list holds two entries with the same target. -/
theorem C8_graph_consistency (n : Nat) (ops : List GraphOp) (hv : ∀ op ∈ ops, op.valid n) :
    (∀ u v w, (⟨v, w⟩ : Edge) ∈ (run_ops (Graph.new n) ops).get_out_arcs u ↔
      (⟨u, w⟩ : Edge) ∈ (run_ops (Graph.new n) ops).get_rev_out_arcs v) ∧
    (∀ u, (((run_ops (Graph.new n) ops).get_out_arcs u).map Edge.target).Nodup) ∧
    (∀ v, (((run_ops (Graph.new n) ops).get_rev_out_arcs v).map Edge.target).Nodup) :=
  (run_ops_consistent n ops (Graph.new n) (consistent_new n) (size_new n) hv).1.2

/-- Witness for C8 on a three-node graph and a sequence using all four calls. -/
theorem C8_graph_consistency_witness :
    (((run_ops (Graph.new 3)
      [GraphOp.add_edge 0 ⟨1, 10⟩, GraphOp.add_edge 0 ⟨1, 3⟩, GraphOp.add_edge 1 ⟨2, 4⟩,
       GraphOp.change_edge_weight 0 1 7, GraphOp.remove_edge 0 1,
       GraphOp.disconnect_node 1]).get_out_arcs 0).map Edge.target).Nodup :=
  (C8_graph_consistency 3
    [GraphOp.add_edge 0 ⟨1, 10⟩, GraphOp.add_edge 0 ⟨1, 3⟩, GraphOp.add_edge 1 ⟨2, 4⟩,
     GraphOp.change_edge_weight 0 1 7, GraphOp.remove_edge 0 1, GraphOp.disconnect_node 1]
    (by
      intro op hop
      simp only [List.mem_cons, List.mem_singleton, List.not_mem_nil, or_false] at hop
      rcases hop with h | h | h | h | h | h <;> subst h <;> simp [GraphOp.valid])).2.1 0

/-- C9: on a consistent graph, `add_edge(u, (v, w))` leaves exactly one entry for `v` in
`get_out_arcs(u)` and exactly one entry for `u` in `get_rev_out_arcs(v)`, both with the
smaller of `w` and the previous weight of the arc (`w` when the arc was absent); every
other entry is unchanged; a second `add_edge` with the same arguments changes nothing; and
`add_edge(0,(1,10))` followed by `add_edge(0,(1,3))` leaves exactly `(1,3)` and `(0,3)`. -/
theorem C9_add_edge_min (g : Graph) (hc : g.Consistent) (u v w : Nat)
    (hu : u < g.size) (hv : v < g.size) :
    ((g.add_edge u ⟨v, w⟩).get_out_arcs u).filter (fun e => decide (e.target = v)) =
      [⟨v, merged_weight (first_weight (g.get_out_arcs u) v) w⟩] ∧
    ((g.add_edge u ⟨v, w⟩).get_rev_out_arcs v).filter (fun e => decide (e.target = u)) =
      [⟨u, merged_weight (first_weight (g.get_out_arcs u) v) w⟩] ∧
    (∀ a b x, ¬ (a = u ∧ b = v) →
      ((⟨b, x⟩ : Edge) ∈ (g.add_edge u ⟨v, w⟩).get_out_arcs a ↔
        (⟨b, x⟩ : Edge) ∈ g.get_out_arcs a)) ∧
    (∀ a b x, ¬ (a = u ∧ b = v) →
      ((⟨a, x⟩ : Edge) ∈ (g.add_edge u ⟨v, w⟩).get_rev_out_arcs b ↔
        (⟨a, x⟩ : Edge) ∈ g.get_rev_out_arcs b)) ∧
    (g.add_edge u ⟨v, w⟩).add_edge u ⟨v, w⟩ = g.add_edge u ⟨v, w⟩ ∧
    (((Graph.new 2).add_edge 0 ⟨1, 10⟩).add_edge 0 ⟨1, 3⟩).get_out_arcs 0 = [⟨1, 3⟩] ∧
    (((Graph.new 2).add_edge 0 ⟨1, 10⟩).add_edge 0 ⟨1, 3⟩).get_rev_out_arcs 1 = [⟨0, 3⟩] := by
  obtain ⟨hc', hw⟩ := add_edge_spec g hc u ⟨v, w⟩ hu hv
  simp only at hw
  have hm : (⟨v, merged_weight (first_weight (g.get_out_arcs u) v) w⟩ : Edge) ∈
      (g.add_edge u ⟨v, w⟩).get_out_arcs u := by
    rw [hc'.mem_out_iff, hw]
    simp
  have hout : ∀ a b x, ¬ (a = u ∧ b = v) →
      ((⟨b, x⟩ : Edge) ∈ (g.add_edge u ⟨v, w⟩).get_out_arcs a ↔
        (⟨b, x⟩ : Edge) ∈ g.get_out_arcs a) := by
    intro a b x hab
    rw [hc'.mem_out_iff, hc.mem_out_iff, hw, if_neg hab]
  refine ⟨filter_target_singleton _ (hc'.2.2.1 u) _ _ hm,
    filter_target_singleton _ (hc'.2.2.2 v) _ _ ((hc'.2.1 u v _).1 hm), hout, ?_,
    add_edge_idem g u ⟨v, w⟩, by decide, by decide⟩
  intro a b x hab
  rw [← hc'.2.1 a b x, ← hc.2.1 a b x]
  exact hout a b x hab

/-- Witness for C9: the arc `0→1` of weight 10 re-added with weight 3. -/
theorem C9_add_edge_min_witness :
    List.filter (fun e => decide (e.target = 1))
        ((((Graph.new 2).add_edge 0 ⟨1, 10⟩).add_edge 0 ⟨1, 3⟩).get_out_arcs 0) =
      [⟨1, merged_weight (first_weight (((Graph.new 2).add_edge 0 ⟨1, 10⟩).get_out_arcs 0) 1) 3⟩] :=
  (C9_add_edge_min ((Graph.new 2).add_edge 0 ⟨1, 10⟩)
    (add_edge_spec _ (consistent_new 2) 0 ⟨1, 10⟩ (by decide) (by decide)).1 0 1 3
    (by decide) (by decide)).1

/-- C10: on a consistent graph, `remove_edge(u, v)` returns true exactly when the arc
`u→v` existed; afterwards `get_edge_weight(u, v)` is `inf_weight`, `get_rev_out_arcs(v)`
has no entry for `u`, every other arc is still present with its weight on both sides, and
when the call returns false the graph is unchanged. -/
theorem C10_remove_edge (c : Constants) (g : Graph) (hc : g.Consistent) (u v : Nat)
    (hu : u < g.size) (hv : v < g.size) :
    ((g.remove_edge u v).2 = true ↔ ∃ w, (⟨v, w⟩ : Edge) ∈ g.get_out_arcs u) ∧
    get_edge_weight c (g.remove_edge u v).1 u v = c.inf_weight ∧
    (∀ e ∈ (g.remove_edge u v).1.get_rev_out_arcs v, e.target ≠ u) ∧
    (∀ a b x, ¬ (a = u ∧ b = v) →
      ((⟨b, x⟩ : Edge) ∈ (g.remove_edge u v).1.get_out_arcs a ↔
        (⟨b, x⟩ : Edge) ∈ g.get_out_arcs a)) ∧
    (∀ a b x, ¬ (a = u ∧ b = v) →
      ((⟨a, x⟩ : Edge) ∈ (g.remove_edge u v).1.get_rev_out_arcs b ↔
        (⟨a, x⟩ : Edge) ∈ g.get_rev_out_arcs b)) ∧
    ((g.remove_edge u v).2 = false → (g.remove_edge u v).1 = g) := by
  have _hu := hu
  have _hv := hv
  obtain ⟨hc', hret, hfalse, hw⟩ := remove_edge_spec g hc u v
  have hout : ∀ a b x, ¬ (a = u ∧ b = v) →
      ((⟨b, x⟩ : Edge) ∈ (g.remove_edge u v).1.get_out_arcs a ↔
        (⟨b, x⟩ : Edge) ∈ g.get_out_arcs a) := by
    intro a b x hab
    rw [hc'.mem_out_iff, hc.mem_out_iff, hw, if_neg hab]
  refine ⟨hret, ?_, ?_, hout, ?_, hfalse⟩
  · unfold get_edge_weight
    rw [hw]
    simp
  · intro e he heq
    have h0 : (⟨u, e.weight⟩ : Edge) = e := by
      cases e
      simp only [Edge.mk.injEq, and_true]
      exact heq.symm
    have h1 : (⟨u, e.weight⟩ : Edge) ∈ (g.remove_edge u v).1.get_rev_out_arcs v := by
      rw [h0]; exact he
    rw [← hc'.2.1 u v e.weight, hc'.mem_out_iff, hw] at h1
    simp at h1
  · intro a b x hab
    rw [← hc'.2.1 a b x, ← hc.2.1 a b x]
    exact hout a b x hab

/-- Witness for C10: removing the only arc of a two-node graph. -/
theorem C10_remove_edge_witness :
    get_edge_weight stdConstants (((Graph.new 2).add_edge 0 ⟨1, 10⟩).remove_edge 0 1).1 0 1 =
      stdConstants.inf_weight :=
  (C10_remove_edge stdConstants ((Graph.new 2).add_edge 0 ⟨1, 10⟩)
    (add_edge_spec _ (consistent_new 2) 0 ⟨1, 10⟩ (by decide) (by decide)).1 0 1
    (by decide) (by decide)).2.1

end PenAstar

namespace PenAstar

/-! ### TimestampVector -/

namespace TimestampVector

theorem length_set (v : TimestampVector) (i x : Nat) : (v.set i x).vec.length = v.vec.length := by
  simp [set]

theorem default_set (v : TimestampVector) (i x : Nat) :
    (v.set i x).default_value = v.default_value := rfl

theorem t_set (v : TimestampVector) (i x : Nat) : (v.set i x).t = v.t := rfl

theorem get_set_eq (v : TimestampVector) (i x : Nat) (hi : i < v.vec.length) :
    (v.set i x).get i = x := by
  simp [get, set, Graph.getD_set_list, hi]

theorem get_set_ne (v : TimestampVector) (i j x : Nat) (h : i ≠ j) :
    (v.set i x).get j = v.get j := by
  simp [get, set, Graph.getD_set_list, h]

theorem has_set_eq (v : TimestampVector) (i x : Nat) (hi : i < v.vec.length) :
    (v.set i x).has i = true := by
  simp [has, set, Graph.getD_set_list, hi]

theorem has_set_ne (v : TimestampVector) (i j x : Nat) (h : i ≠ j) :
    (v.set i x).has j = v.has j := by
  simp [has, set, Graph.getD_set_list, h]

theorem get_of_not_has (v : TimestampVector) (i : Nat) (h : v.has i = false) :
    v.get i = v.default_value := by
  simp only [has, decide_eq_false_iff_not] at h
  unfold get
  rw [if_pos h]

theorem has_new (n d i : Nat) : (TimestampVector.new n d).has i = false := by
  simp only [has, new, step_time, List.getD_eq_getElem?_getD, List.getElem?_replicate]
  split <;> simp [wrap32]

theorem length_new (n d : Nat) : (TimestampVector.new n d).vec.length = n := by
  simp [new, step_time]

theorem default_new (n d : Nat) : (TimestampVector.new n d).default_value = d := rfl

end TimestampVector

/-! ### MinIDQueue -/

namespace MinIDQueue

theorem contains_id_iff (q : MinIDQueue) (x : Nat) :
    q.contains_id x = true ↔ ∃ p ∈ q.entries, p.id = x := by
  simp [contains_id]

theorem min_entry_eq_none (l : List IDKeyPair) : min_entry l = none ↔ l = [] := by
  cases l with
  | nil => simp [min_entry]
  | cons p ps =>
    simp only [min_entry]
    cases min_entry ps with
    | none => simp
    | some m => by_cases hk : p.key ≤ m.key <;> simp [hk]

theorem min_entry_spec (l : List IDKeyPair) (m : IDKeyPair) (h : min_entry l = some m) :
    m ∈ l ∧ ∀ p ∈ l, m.key ≤ p.key := by
  induction l generalizing m with
  | nil => simp [min_entry] at h
  | cons p ps ih =>
    simp only [min_entry] at h
    cases hm : min_entry ps with
    | none =>
      rw [hm] at h
      simp only [Option.some.injEq] at h
      subst h
      have : ps = [] := (min_entry_eq_none ps).1 hm
      subst this
      simp
    | some m' =>
      rw [hm] at h
      obtain ⟨h1, h2⟩ := ih m' hm
      by_cases hk : p.key ≤ m'.key
      · simp only [hk, if_true, Option.some.injEq] at h
        subst h
        refine ⟨by simp, ?_⟩
        intro x hx
        simp only [List.mem_cons] at hx
        rcases hx with hx | hx
        · rw [hx]
        · exact Nat.le_trans hk (h2 x hx)
      · simp only [hk, if_false, Option.some.injEq] at h
        subst h
        refine ⟨by simp [h1], ?_⟩
        intro x hx
        simp only [List.mem_cons] at hx
        rcases hx with hx | hx
        · rw [hx]; omega
        · exact h2 x hx

theorem empty_iff (q : MinIDQueue) : q.empty = true ↔ q.entries = [] := by
  simp [empty, List.isEmpty_iff]

theorem pop_eq_none (q : MinIDQueue) : q.pop = none ↔ q.entries = [] := by
  unfold pop
  cases h : min_entry q.entries with
  | none => simpa using (min_entry_eq_none _).1 h
  | some m =>
    constructor
    · intro h2; simp at h2
    · intro h2
      rw [h2] at h
      simp [min_entry] at h

theorem pop_spec (q : MinIDQueue) (m : IDKeyPair) (q' : MinIDQueue) (h : q.pop = some (m, q')) :
    m ∈ q.entries ∧ (∀ p ∈ q.entries, m.key ≤ p.key) ∧
    q'.entries = q.entries.filter (fun p => decide (p.id ≠ m.id)) := by
  unfold pop at h
  cases hm : min_entry q.entries with
  | none => rw [hm] at h; simp at h
  | some m' =>
    rw [hm] at h
    simp only [Option.some.injEq, Prod.mk.injEq] at h
    obtain ⟨h1, h2⟩ := h
    subst h1
    subst h2
    exact ⟨(min_entry_spec _ _ hm).1, (min_entry_spec _ _ hm).2, rfl⟩

end MinIDQueue

end PenAstar

namespace PenAstar

namespace MinIDQueue

/-- The queue update of a relaxation: `push` for an absent id, `decrease_key` otherwise. -/
theorem update_spec (q : MinIDQueue) (t k : Nat) (hqn : (q.entries.map IDKeyPair.id).Nodup)
    (q' : MinIDQueue)
    (hq' : q' = if ¬ q.contains_id t = true then q.push ⟨t, k⟩ else q.decrease_key ⟨t, k⟩) :
    (∀ p, p ∈ q'.entries ↔ (p ∈ q.entries ∧ p.id ≠ t) ∨ p = ⟨t, k⟩) ∧
    (q'.entries.map IDKeyPair.id).Nodup ∧
    (∀ x, q'.contains_id x = true ↔ x = t ∨ q.contains_id x = true) := by
  by_cases hc : q.contains_id t = true
  · have hq2 : q' = q.decrease_key ⟨t, k⟩ := by rw [hq']; simp [hc]
    subst hq2
    have hmem : ∀ p, p ∈ (q.decrease_key ⟨t, k⟩).entries ↔
        (p ∈ q.entries ∧ p.id ≠ t) ∨ p = ⟨t, k⟩ := by
      intro p
      simp only [decrease_key, List.mem_map]
      constructor
      · rintro ⟨x, hx, hxp⟩
        by_cases hxt : x.id = t
        · rw [if_pos hxt] at hxp
          exact Or.inr hxp.symm
        · rw [if_neg hxt] at hxp
          subst hxp
          exact Or.inl ⟨hx, hxt⟩
      · rintro (⟨hp, hpt⟩ | hp)
        · exact ⟨p, hp, by rw [if_neg hpt]⟩
        · obtain ⟨x, hx, hxt⟩ := (contains_id_iff q t).1 hc
          exact ⟨x, hx, by rw [if_pos hxt, hp]⟩
    have hids : (q.decrease_key ⟨t, k⟩).entries.map IDKeyPair.id = q.entries.map IDKeyPair.id := by
      simp only [decrease_key, List.map_map]
      apply List.map_congr_left
      intro x _
      simp only [Function.comp]
      by_cases hxt : x.id = t
      · rw [if_pos hxt, hxt]
      · rw [if_neg hxt]
    refine ⟨hmem, by rw [hids]; exact hqn, ?_⟩
    intro x
    have h1 : ∀ (r : MinIDQueue), r.contains_id x = true ↔ x ∈ r.entries.map IDKeyPair.id := by
      intro r
      rw [contains_id_iff]
      simp [List.mem_map]
    rw [h1, h1, hids]
    constructor
    · intro h; exact Or.inr h
    · rintro (h | h)
      · subst h; exact (h1 q).1 hc
      · exact h
  · have hq2 : q' = q.push ⟨t, k⟩ := by rw [hq']; simp [hc]
    subst hq2
    have hno : ∀ p ∈ q.entries, p.id ≠ t := by
      intro p hp hpt
      exact hc ((contains_id_iff q t).2 ⟨p, hp, hpt⟩)
    refine ⟨?_, ?_, ?_⟩
    · intro p
      simp only [push, List.mem_append, List.mem_singleton]
      constructor
      · rintro (h | h)
        · exact Or.inl ⟨h, hno p h⟩
        · exact Or.inr h
      · rintro (⟨h, _⟩ | h)
        · exact Or.inl h
        · exact Or.inr h
    · simp only [push, List.map_append, List.map_cons, List.map_nil]
      rw [List.nodup_append]
      refine ⟨hqn, by simp, ?_⟩
      intro a ha hb
      simp only [List.mem_singleton] at hb
      subst hb
      obtain ⟨p, hp, hpa⟩ := List.mem_map.1 ha
      exact hno p hp hpa
    · intro x
      rw [contains_id_iff, contains_id_iff]
      simp only [push, List.mem_append, List.mem_singleton]
      constructor
      · rintro ⟨p, hp | hp, hpx⟩
        · exact Or.inr ⟨p, hp, hpx⟩
        · left; rw [← hpx, hp]
      · rintro (h | ⟨p, hp, hpx⟩)
        · exact ⟨⟨t, k⟩, Or.inr rfl, h.symm⟩
        · exact ⟨p, Or.inl hp, hpx⟩

end MinIDQueue

namespace DijkstraService

theorem relax_skip (s : DijkstraService) (best : Nat) (e : Edge)
    (h : e.target = s.blacklisted ∨
      ¬ (s.dist_vec.get best + e.weight) % wrap32 < s.dist_vec.get e.target) :
    relax s best e = s := by
  unfold relax
  by_cases h1 : e.target = s.blacklisted
  · rw [if_pos h1]
  · rw [if_neg h1]
    rcases h with h | h
    · exact absurd h h1
    · rw [if_neg h]

/-- The fields of the state after an arc has been relaxed with an update. -/
theorem relax_update (s : DijkstraService) (best : Nat) (e : Edge)
    (h1 : e.target ≠ s.blacklisted)
    (h2 : (s.dist_vec.get best + e.weight) % wrap32 < s.dist_vec.get e.target) :
    (relax s best e).g = s.g ∧
    (relax s best e).blacklisted = s.blacklisted ∧
    (relax s best e).max_dist = s.max_dist ∧
    (relax s best e).search_space = s.search_space ∧
    (relax s best e).dist_vec =
      s.dist_vec.set e.target ((s.dist_vec.get best + e.weight) % wrap32) ∧
    (relax s best e).parent_vec = s.parent_vec.set e.target best ∧
    (relax s best e).queue =
      (if ¬ s.queue.contains_id e.target = true then
        s.queue.push ⟨e.target,
          (s.dist_vec.set e.target ((s.dist_vec.get best + e.weight) % wrap32)).get e.target⟩
      else
        s.queue.decrease_key ⟨e.target,
          (s.dist_vec.set e.target ((s.dist_vec.get best + e.weight) % wrap32)).get e.target⟩) := by
  unfold relax
  rw [if_neg h1, if_pos h2]
  exact ⟨rfl, rfl, rfl, rfl, rfl, rfl, rfl⟩

end DijkstraService

end PenAstar

namespace PenAstar

namespace DijkstraService

theorem Sound.get_le_inf {c : Constants} {g : Graph} {bl src : Nat} {s : DijkstraService}
    (h : Sound c g bl src s) (x : Nat) : s.dist_vec.get x ≤ c.inf_weight := by
  cases hx : s.dist_vec.has x with
  | true => exact Nat.le_of_lt (h.hval x hx).2.1
  | false => rw [TimestampVector.get_of_not_has _ _ hx, h.hdef]

/-- An arc that needs no update leaves the invariant intact. -/
theorem Exact.shrink {c : Constants} {g : Graph} {bl src best : Nat} {e : Edge}
    {rest : List Edge} {s : DijkstraService} (h : Exact c g bl src best (e :: rest) s)
    (hskip : e.target = bl ∨ s.dist_vec.get e.target ≤ s.dist_vec.get best + e.weight) :
    Exact c g bl src best rest s :=
  { sound := h.sound
    hqn := h.hqn
    hqk := h.hqk
    hS := h.hS
    hSn := h.hSn
    hcov := h.hcov
    hrel := by
      intro u hu e' he'
      rcases h.hrel u hu e' he' with ⟨hub, hmem⟩ | hle
      · simp only [List.mem_cons] at hmem
        rcases hmem with hee | hmem
        · subst hee
          rcases hskip with hs | hs
          · exact absurd hs he'.2
          · right; rw [hub]; exact hs
        · exact Or.inl ⟨hub, hmem⟩
      · exact Or.inr hle
    hmono := h.hmono
    hsrc := h.hsrc
    hpend := fun e' he' => h.hpend e' (List.mem_cons_of_mem _ he')
    hbest := fun _ => h.hbest (List.cons_ne_nil _ _)
    hpar := h.hpar }

/-- Relaxing the next pending arc preserves the invariant. -/
theorem Exact.relax_arc {c : Constants} {g : Graph} {bl src best : Nat} {e : Edge}
    {rest : List Edge} {s : DijkstraService} (hTV : g.TargetsValid)
    (h : Exact c g bl src best (e :: rest) s) :
    Exact c g bl src best rest (relax s best e) := by
  obtain ⟨he, hnw⟩ := h.hpend e (List.mem_cons_self _ _)
  have hmod : (s.dist_vec.get best + e.weight) % wrap32 = s.dist_vec.get best + e.weight :=
    Nat.mod_eq_of_lt hnw
  obtain ⟨hbS, hmax⟩ := h.hbest (List.cons_ne_nil _ _)
  have hbl := h.sound.hbl
  by_cases h1 : e.target = s.blacklisted
  · rw [relax_skip s best e (Or.inl h1)]
    exact h.shrink (Or.inl (by rw [← hbl]; exact h1))
  by_cases h2 : (s.dist_vec.get best + e.weight) % wrap32 < s.dist_vec.get e.target
  swap
  · rw [relax_skip s best e (Or.inr h2)]
    rw [hmod] at h2
    exact h.shrink (Or.inr (Nat.le_of_not_lt h2))
  -- the update case
  obtain ⟨hg', hbl', _, hS', hd', hp', hq'⟩ := relax_update s best e h1 h2
  rw [hmod] at h2
  have htlt : e.target < g.size := hTV best e he
  have hA : g.arc_avoiding bl best e := ⟨he, by rw [← hbl]; exact h1⟩
  have hbhas := (h.hS best hbS).1
  have hwb := (h.sound.hval best hbhas).2.2
  have hwt : Walk (g.arc_avoiding bl) src e.target (s.dist_vec.get best + e.weight) :=
    Walk.snoc e hwb hA
  have htS : e.target ∉ s.search_space := by
    intro hin
    have := (h.hS _ hin).2.2 _ hwt
    omega
  have hdget : ∀ x, (relax s best e).dist_vec.get x =
      if x = e.target then s.dist_vec.get best + e.weight else s.dist_vec.get x := by
    intro x
    rw [hd', hmod]
    by_cases hx : x = e.target
    · rw [if_pos hx, hx, TimestampVector.get_set_eq _ _ _ (by rw [h.sound.hlen]; exact htlt)]
    · rw [if_neg hx, TimestampVector.get_set_ne _ _ _ _ (fun h3 => hx h3.symm)]
  have hdhas : ∀ x, (relax s best e).dist_vec.has x = true ↔
      x = e.target ∨ s.dist_vec.has x = true := by
    intro x
    rw [hd']
    by_cases hx : x = e.target
    · rw [hx, TimestampVector.has_set_eq _ _ _ (by rw [h.sound.hlen]; exact htlt)]
      simp
    · rw [TimestampVector.has_set_ne _ _ _ _ (fun h3 => hx h3.symm)]
      simp [hx]
  have hpget : ∀ x, (relax s best e).parent_vec.get x =
      if x = e.target then best else s.parent_vec.get x := by
    intro x
    rw [hp']
    by_cases hx : x = e.target
    · rw [if_pos hx, hx, TimestampVector.get_set_eq _ _ _ (by rw [h.sound.hplen]; exact htlt)]
    · rw [if_neg hx, TimestampVector.get_set_ne _ _ _ _ (fun h3 => hx h3.symm)]
  have hk : (s.dist_vec.set e.target ((s.dist_vec.get best + e.weight) % wrap32)).get e.target =
      s.dist_vec.get best + e.weight := by
    rw [hmod, TimestampVector.get_set_eq _ _ _ (by rw [h.sound.hlen]; exact htlt)]
  rw [hk] at hq'
  obtain ⟨hqm, hqn', hqc⟩ := MinIDQueue.update_spec s.queue e.target
    (s.dist_vec.get best + e.weight) h.hqn _ hq'
  have hdS : ∀ x ∈ s.search_space, (relax s best e).dist_vec.get x = s.dist_vec.get x := by
    intro x hx
    rw [hdget, if_neg]
    intro hxt
    exact htS (hxt ▸ hx)
  have hle_old : ∀ x, (relax s best e).dist_vec.get x ≤ s.dist_vec.get x := by
    intro x
    rw [hdget]
    by_cases hx : x = e.target
    · rw [if_pos hx, hx]; omega
    · rw [if_neg hx]
  have htsrc : e.target ≠ src := by
    intro hts
    have := h.hsrc.2.1
    rw [hts] at h2
    omega
  exact
  { sound :=
    { hg := by rw [hg']; exact h.sound.hg
      hbl := by rw [hbl']; exact hbl
      hlen := by rw [hd', TimestampVector.length_set]; exact h.sound.hlen
      hplen := by rw [hp', TimestampVector.length_set]; exact h.sound.hplen
      hdef := by rw [hd', TimestampVector.default_set]; exact h.sound.hdef
      hval := by
        intro x hx
        rw [hdget]
        by_cases hxt : x = e.target
        · rw [if_pos hxt, hxt]
          have := h.sound.get_le_inf e.target
          exact ⟨htlt, by omega, hwt⟩
        · rw [if_neg hxt]
          rcases (hdhas x).1 hx with h3 | h3
          · exact absurd h3 hxt
          · exact h.sound.hval x h3
      hq := by
        intro p hp
        rw [hdhas]
        rcases (hqm p).1 hp with ⟨hp1, _⟩ | hp1
        · exact Or.inr (h.sound.hq p hp1)
        · left; rw [hp1] }
    hqn := hqn'
    hqk := by
      intro p hp
      rw [hdget]
      rcases (hqm p).1 hp with ⟨hp1, hp2⟩ | hp1
      · rw [if_neg hp2]; exact h.hqk p hp1
      · rw [hp1]; simp
    hS := by
      intro x hx
      rw [hS'] at hx
      have hxt : x ≠ e.target := fun hxt => htS (hxt ▸ hx)
      obtain ⟨a1, a2, a3⟩ := h.hS x hx
      refine ⟨(hdhas x).2 (Or.inr a1), ?_, ?_⟩
      · cases hcx : (relax s best e).queue.contains_id x with
        | false => rfl
        | true =>
          rcases (hqc x).1 hcx with h3 | h3
          · exact absurd h3 hxt
          · rw [a2] at h3; exact absurd h3 (by simp)
      · rw [hdS x hx]; exact a3
    hSn := by rw [hS']; exact h.hSn
    hcov := by
      intro x hx
      rw [hS']
      rcases (hdhas x).1 hx with h3 | h3
      · right; exact (hqc x).2 (Or.inl h3)
      · rcases h.hcov x h3 with h4 | h4
        · exact Or.inl h4
        · right; exact (hqc x).2 (Or.inr h4)
    hrel := by
      intro u hu e' he'
      rw [hS'] at hu
      rw [hdS u hu]
      rcases h.hrel u hu e' he' with ⟨hub, hmem⟩ | hle
      · simp only [List.mem_cons] at hmem
        rcases hmem with hee | hmem
        · right
          rw [hee, hub, hdget, if_pos rfl]
        · exact Or.inl ⟨hub, hmem⟩
      · right
        exact Nat.le_trans (hle_old _) hle
    hmono := by
      intro u hu p hp
      rw [hS'] at hu
      rw [hdS u hu]
      rcases (hqm p).1 hp with ⟨hp1, _⟩ | hp1
      · exact h.hmono u hu p hp1
      · rw [hp1]
        have := hmax u hu
        simp only
        omega
    hsrc := by
      refine ⟨(hdhas src).2 (Or.inr h.hsrc.1), ?_, ?_⟩
      · rw [hdget, if_neg (fun h3 => htsrc h3.symm)]; exact h.hsrc.2.1
      · rw [hpget, if_neg (fun h3 => htsrc h3.symm)]; exact h.hsrc.2.2
    hpend := by
      intro e' he'
      rw [hdS best hbS]
      exact h.hpend e' (List.mem_cons_of_mem _ he')
    hbest := by
      intro _
      rw [hS']
      refine ⟨hbS, ?_⟩
      intro u hu
      rw [hdS u hu, hdS best hbS]
      exact hmax u hu
    hpar := by
      intro x hx hxs
      rw [hS', hpget, hdget]
      by_cases hxt : x = e.target
      · rw [if_pos hxt, if_pos hxt]
        refine ⟨hbS, ?_, e, he, hxt.symm, ?_⟩
        · intro hin
          exact absurd (hxt ▸ hin) htS
        · rw [hdS best hbS]
      · rw [if_neg hxt, if_neg hxt]
        rcases (hdhas x).1 hx with h3 | h3
        · exact absurd h3 hxt
        · obtain ⟨b1, b2, e', b3, b4, b5⟩ := h.hpar x h3 hxs
          refine ⟨b1, b2, e', b3, b4, ?_⟩
          rw [hdS _ b1]
          exact b5 }

/-- Relaxing all pending arcs of `best` (the loop of `step`) preserves the invariant. -/
theorem Exact.relax_all {c : Constants} {g : Graph} {bl src best : Nat}
    (hTV : g.TargetsValid) (pending : List Edge) (s : DijkstraService)
    (h : Exact c g bl src best pending s) :
    Exact c g bl src best [] (pending.foldl (fun st e => relax st best e) s) := by
  induction pending generalizing s with
  | nil => exact h
  | cons e rest ih =>
    simp only [List.foldl_cons]
    exact ih _ (h.relax_arc hTV)

end DijkstraService

end PenAstar

namespace PenAstar

theorem Walk.mono {A B : Nat → Edge → Prop} (hAB : ∀ u e, A u e → B u e) {s n d : Nat}
    (h : Walk A s n d) : Walk B s n d := by
  induction h with
  | nil => exact Walk.nil
  | snoc e _ ha ih => exact Walk.snoc e ih (hAB _ _ ha)

namespace DijkstraService

/-- Between two steps every walk from the source ends in a settled node whose distance
entry is at most the walk's weight, or it is at least as heavy as some queued key, or it
weighs `inf_weight` or more. -/
theorem Exact.walk_cases {c : Constants} {g : Graph} {bl src best : Nat} {s : DijkstraService}
    (h : Exact c g bl src best [] s) {x d' : Nat} (hw : Walk (g.arc_avoiding bl) src x d') :
    (x ∈ s.search_space ∧ s.dist_vec.get x ≤ d') ∨
    (∃ p ∈ s.queue.entries, p.key ≤ d') ∨ c.inf_weight ≤ d' := by
  have key : ∀ y b, s.dist_vec.get y ≤ b →
      (y ∈ s.search_space ∧ s.dist_vec.get y ≤ b) ∨
      (∃ p ∈ s.queue.entries, p.key ≤ b) ∨ c.inf_weight ≤ b := by
    intro y b hyb
    cases hy : s.dist_vec.has y with
    | true =>
      rcases h.hcov y hy with h1 | h1
      · exact Or.inl ⟨h1, hyb⟩
      · obtain ⟨p, hp, hpy⟩ := (MinIDQueue.contains_id_iff _ _).1 h1
        right; left
        refine ⟨p, hp, ?_⟩
        rw [h.hqk p hp, hpy]
        exact hyb
    | false =>
      right; right
      rw [TimestampVector.get_of_not_has _ _ hy, h.sound.hdef] at hyb
      exact hyb
  induction hw with
  | nil =>
    apply key
    rw [h.hsrc.2.1]
  | snoc e _ ha ih =>
    rcases ih with ⟨hu, hle⟩ | ⟨p, hp, hpk⟩ | hinf
    · rcases h.hrel _ hu e ha with ⟨_, hmem⟩ | hrel
      · simp at hmem
      · apply key
        omega
    · right; left
      exact ⟨p, hp, by omega⟩
    · right; right
      omega

theorem search_space_relax (s : DijkstraService) (best : Nat) (e : Edge) :
    (relax s best e).search_space = s.search_space := by
  unfold relax
  split
  · rfl
  · split <;> rfl

theorem search_space_foldl_relax (best : Nat) (l : List Edge) (s : DijkstraService) :
    (l.foldl (fun st e => relax st best e) s).search_space = s.search_space := by
  induction l generalizing s with
  | nil => rfl
  | cons e rest ih =>
    simp only [List.foldl_cons]
    rw [ih, search_space_relax]

/-- Popping the least entry settles its node at its shortest distance. -/
theorem Exact.pop {c : Constants} {g : Graph} {bl src b0 : Nat} {s : DijkstraService}
    (h : Exact c g bl src b0 [] s)
    (hnowrap : ∀ u d, Walk (g.arc_avoiding bl) src u d →
      (∀ d', Walk (g.arc_avoiding bl) src u d' → d ≤ d') → d < c.inf_weight →
      ∀ e ∈ g.get_out_arcs u, d + e.weight < wrap32)
    {m : IDKeyPair} {q' : MinIDQueue} (hpop : s.queue.pop = some (m, q')) :
    Exact c g bl src m.id (g.get_out_arcs m.id)
      { s with queue := q', search_space := s.search_space ++ [m.id] } := by
  obtain ⟨hm, hmin, hq'⟩ := MinIDQueue.pop_spec _ _ _ hpop
  have hsub : ∀ p ∈ q'.entries, p ∈ s.queue.entries ∧ p.id ≠ m.id := by
    intro p hp
    rw [hq', List.mem_filter] at hp
    exact ⟨hp.1, by simpa using hp.2⟩
  have hmhas := h.sound.hq m hm
  have hmk := h.hqk m hm
  have hmval := h.sound.hval m.id hmhas
  have hmS : m.id ∉ s.search_space := by
    intro hin
    have h1 := (h.hS _ hin).2.1
    have h2 := (MinIDQueue.contains_id_iff s.queue m.id).2 ⟨m, hm, rfl⟩
    rw [h1] at h2
    exact absurd h2 (by simp)
  have hmmin : ∀ d', Walk (g.arc_avoiding bl) src m.id d' → s.dist_vec.get m.id ≤ d' := by
    intro d' hw
    rcases h.walk_cases hw with ⟨_, hle⟩ | ⟨p, hp, hpk⟩ | hinf
    · exact hle
    · have := hmin p hp
      omega
    · have := hmval.2.1
      omega
  have hnc : ∀ x, x ∈ s.search_space ∨ x = m.id → q'.contains_id x = false := by
    intro x hx
    cases hcx : q'.contains_id x with
    | false => rfl
    | true =>
      obtain ⟨p, hp, hpx⟩ := (MinIDQueue.contains_id_iff _ _).1 hcx
      obtain ⟨hp1, hp2⟩ := hsub p hp
      rcases hx with hx | hx
      · have h1 := (h.hS _ hx).2.1
        have h2 := (MinIDQueue.contains_id_iff s.queue x).2 ⟨p, hp1, hpx⟩
        rw [h1] at h2
        exact absurd h2 (by simp)
      · exact absurd (hpx.trans hx) hp2
  exact
  { sound :=
    { hg := h.sound.hg
      hbl := h.sound.hbl
      hlen := h.sound.hlen
      hplen := h.sound.hplen
      hdef := h.sound.hdef
      hval := h.sound.hval
      hq := fun p hp => h.sound.hq p (hsub p hp).1 }
    hqn := by
      simp only
      rw [hq']
      exact List.Nodup.sublist ((List.filter_sublist _).map _) h.hqn
    hqk := fun p hp => h.hqk p (hsub p hp).1
    hS := by
      intro x hx
      simp only [List.mem_append, List.mem_singleton] at hx
      rcases hx with hx | hx
      · exact ⟨(h.hS x hx).1, hnc x (Or.inl hx), (h.hS x hx).2.2⟩
      · subst hx
        exact ⟨hmhas, hnc _ (Or.inr rfl), hmmin⟩
    hSn := by
      simp only
      rw [List.nodup_append]
      refine ⟨h.hSn, by simp, ?_⟩
      intro a ha hb
      simp only [List.mem_singleton] at hb
      subst hb
      exact hmS ha
    hcov := by
      intro x hx
      simp only [List.mem_append, List.mem_singleton]
      rcases h.hcov x hx with h1 | h1
      · exact Or.inl (Or.inl h1)
      · by_cases hxm : x = m.id
        · exact Or.inl (Or.inr hxm)
        · right
          obtain ⟨p, hp, hpx⟩ := (MinIDQueue.contains_id_iff _ _).1 h1
          refine (MinIDQueue.contains_id_iff _ _).2 ⟨p, ?_, hpx⟩
          rw [hq', List.mem_filter]
          refine ⟨hp, ?_⟩
          simp only [ne_eq, decide_not, Bool.not_eq_eq_eq_not, Bool.not_true,
            decide_eq_false_iff_not]
          rw [hpx]; exact hxm
    hrel := by
      intro u hu e he
      simp only [List.mem_append, List.mem_singleton] at hu
      rcases hu with hu | hu
      · rcases h.hrel u hu e he with ⟨_, hmem⟩ | hle
        · simp at hmem
        · exact Or.inr hle
      · subst hu
        exact Or.inl ⟨rfl, he.1⟩
    hmono := by
      intro u hu p hp
      simp only [List.mem_append, List.mem_singleton] at hu
      rcases hu with hu | hu
      · exact h.hmono u hu p (hsub p hp).1
      · subst hu
        rw [← hmk]
        exact hmin p (hsub p hp).1
    hsrc := h.hsrc
    hpend := by
      intro e he
      exact ⟨he, hnowrap m.id _ hmval.2.2 hmmin hmval.2.1 e he⟩
    hbest := by
      intro _
      refine ⟨by simp, ?_⟩
      intro u hu
      simp only [List.mem_append, List.mem_singleton] at hu
      rcases hu with hu | hu
      · rw [← hmk]
        exact h.hmono u hu m hm
      · rw [hu]
    hpar := by
      intro x hx hxs
      obtain ⟨b1, b2, b3⟩ := h.hpar x hx hxs
      simp only
      refine ⟨List.mem_append_left _ b1, ?_, b3⟩
      intro _
      rw [List.indexOf_append_of_mem b1]
      by_cases hxS : x ∈ s.search_space
      · rw [List.indexOf_append_of_mem hxS]
        exact b2 hxS
      · rw [List.indexOf_append_of_not_mem hxS]
        have := List.indexOf_lt_length.2 b1
        omega }

/-- One call of `step` preserves the invariant and settles one more node. -/
theorem Exact.step {c : Constants} {g : Graph} {bl src b0 : Nat} {s : DijkstraService}
    (hTV : g.TargetsValid) (h : Exact c g bl src b0 [] s)
    (hnowrap : ∀ u d, Walk (g.arc_avoiding bl) src u d →
      (∀ d', Walk (g.arc_avoiding bl) src u d' → d ≤ d') → d < c.inf_weight →
      ∀ e ∈ g.get_out_arcs u, d + e.weight < wrap32)
    {cur : Nat} {s1 : DijkstraService} (hstep : s.step = some (cur, s1)) :
    Exact c g bl src cur [] s1 ∧ s1.search_space = s.search_space ++ [cur] ∧
    s.queue.contains_id cur = true := by
  unfold DijkstraService.step at hstep
  cases hpop : s.queue.pop with
  | none => rw [hpop] at hstep; simp at hstep
  | some r =>
    obtain ⟨m, q'⟩ := r
    rw [hpop] at hstep
    simp only [Option.some.injEq, Prod.mk.injEq] at hstep
    obtain ⟨hc, hs1⟩ := hstep
    subst hc
    have hgo : s.g.get_out_arcs m.id = g.get_out_arcs m.id := by rw [h.sound.hg]
    rw [hgo] at hs1
    rw [← hs1]
    refine ⟨(h.pop hnowrap hpop).relax_all hTV _ _, ?_, ?_⟩
    · rw [search_space_foldl_relax]
    · exact (MinIDQueue.contains_id_iff _ _).2 ⟨m, (MinIDQueue.pop_spec _ _ _ hpop).1, rfl⟩

theorem Exact.card_le {c : Constants} {g : Graph} {bl src best : Nat} {pending : List Edge}
    {s : DijkstraService} (h : Exact c g bl src best pending s) :
    s.search_space.length ≤ g.size := by
  have hsub : s.search_space ⊆ List.range g.size := by
    intro x hx
    rw [List.mem_range]
    exact (h.sound.hval x (h.hS x hx).1).1
  have := (h.hSn.subperm hsub).length_le
  simpa using this

/-- `run_until_done` finishes within `size - |search_space| + 1` units of fuel, with the
invariant and an empty queue. -/
theorem Exact.run_until_done {c : Constants} {g : Graph} {bl src : Nat}
    (hTV : g.TargetsValid)
    (hnowrap : ∀ u d, Walk (g.arc_avoiding bl) src u d →
      (∀ d', Walk (g.arc_avoiding bl) src u d' → d ≤ d') → d < c.inf_weight →
      ∀ e ∈ g.get_out_arcs u, d + e.weight < wrap32)
    (fuel : Nat) (b0 : Nat) (s : DijkstraService) (h : Exact c g bl src b0 [] s)
    (hfuel : g.size - s.search_space.length < fuel) :
    ∃ b1 s', DijkstraService.run_until_done fuel s = Outcome.ok s' ∧
      Exact c g bl src b1 [] s' ∧ s'.queue.entries = [] := by
  induction fuel generalizing b0 s with
  | zero => omega
  | succ fuel ih =>
    unfold DijkstraService.run_until_done
    by_cases he : s.queue.empty = true
    · rw [if_pos he]
      exact ⟨b0, s, rfl, h, (MinIDQueue.empty_iff _).1 he⟩
    · rw [if_neg he]
      cases hstep : s.step with
      | none =>
        exfalso
        unfold DijkstraService.step at hstep
        cases hpop : s.queue.pop with
        | none => exact he ((MinIDQueue.empty_iff _).2 ((MinIDQueue.pop_eq_none _).1 hpop))
        | some r => rw [hpop] at hstep; simp at hstep
      | some r =>
        obtain ⟨cur, s1⟩ := r
        obtain ⟨h1, hS1, _⟩ := h.step hTV hnowrap hstep
        have hc := h1.card_le
        rw [hS1, List.length_append, List.length_singleton] at hc
        simp only
        apply ih cur s1 h1
        rw [hS1, List.length_append, List.length_singleton]
        omega

/-- The state after `set_source` on a fresh service satisfies the invariant. -/
theorem Exact.init (c : Constants) (g : Graph) (src : Nat) (hsrc : src < g.size)
    (hinf : 0 < c.inf_weight) :
    Exact c g c.invalid_id src 0 [] (set_source c (DijkstraService.new c g) src) := by
  have hdget : ∀ x, (set_source c (DijkstraService.new c g) src).dist_vec.get x =
      if x = src then 0 else c.inf_weight := by
    intro x
    simp only [set_source, DijkstraService.new]
    by_cases hx : x = src
    · rw [if_pos hx, hx, TimestampVector.get_set_eq _ _ _
        (by rw [TimestampVector.length_new]; exact hsrc)]
    · rw [if_neg hx, TimestampVector.get_set_ne _ _ _ _ (fun h3 => hx h3.symm),
        TimestampVector.get_of_not_has _ _ (TimestampVector.has_new _ _ _),
        TimestampVector.default_new]
  have hdhas : ∀ x, (set_source c (DijkstraService.new c g) src).dist_vec.has x = true ↔
      x = src := by
    intro x
    simp only [set_source, DijkstraService.new]
    by_cases hx : x = src
    · rw [hx, TimestampVector.has_set_eq _ _ _ (by rw [TimestampVector.length_new]; exact hsrc)]
      simp
    · rw [TimestampVector.has_set_ne _ _ _ _ (fun h3 => hx h3.symm), TimestampVector.has_new]
      simp [hx]
  have hq : (set_source c (DijkstraService.new c g) src).queue.entries = [⟨src, 0⟩] := rfl
  have hS : (set_source c (DijkstraService.new c g) src).search_space = [] := rfl
  exact
  { sound :=
    { hg := rfl
      hbl := rfl
      hlen := by
        simp only [set_source, DijkstraService.new, TimestampVector.length_set,
          TimestampVector.length_new]
      hplen := by
        simp only [set_source, DijkstraService.new, TimestampVector.length_set,
          TimestampVector.length_new]
      hdef := rfl
      hval := by
        intro x hx
        have hx2 := (hdhas x).1 hx
        rw [hdget, if_pos hx2, hx2]
        exact ⟨hsrc, hinf, Walk.nil⟩
      hq := by
        intro p hp
        rw [hq, List.mem_singleton] at hp
        rw [hp]
        exact (hdhas src).2 rfl }
    hqn := by rw [hq]; simp
    hqk := by
      intro p hp
      rw [hq, List.mem_singleton] at hp
      rw [hp, hdget, if_pos rfl]
    hS := by intro x hx; rw [hS] at hx; simp at hx
    hSn := by rw [hS]; simp
    hcov := by
      intro x hx
      right
      rw [(hdhas x).1 hx]
      exact (MinIDQueue.contains_id_iff _ _).2 ⟨⟨src, 0⟩, by rw [hq]; simp, rfl⟩
    hrel := by intro u hu; rw [hS] at hu; simp at hu
    hmono := by intro u hu; rw [hS] at hu; simp at hu
    hsrc := by
      refine ⟨(hdhas src).2 rfl, by rw [hdget, if_pos rfl], ?_⟩
      simp only [set_source, DijkstraService.new]
      rw [TimestampVector.get_set_eq _ _ _ (by rw [TimestampVector.length_new]; exact hsrc)]
    hpend := by intro e he; simp at he
    hbest := by intro hne; exact absurd rfl hne
    hpar := by
      intro x hx hxs
      exact absurd ((hdhas x).1 hx) hxs }

end DijkstraService

end PenAstar

namespace PenAstar

open DijkstraService

theorem Graph.Consistent.targetsValid {g : Graph} (hc : g.Consistent) : g.TargetsValid :=
  fun u e he => (hc.arc_lt g u e he).2

theorem Walk.target_lt {g : Graph} (hTV : g.TargetsValid) {s n d : Nat} (hs : s < g.size)
    (h : Walk g.arc s n d) : n < g.size := by
  induction h with
  | nil => exact hs
  | snoc e _ ha _ => exact hTV _ e ha

theorem exists_isDist {g : Graph} {s n : Nat} (h : Reachable g s n) : ∃ d, IsDist g s n d := by
  classical
  exact ⟨Nat.find h, Nat.find_spec h, fun d' hd' => Nat.find_min' h hd'⟩

theorem walk_avoiding_iff {c : Constants} {g : Graph} (hTV : g.TargetsValid)
    (hid : g.size ≤ c.invalid_id) (s n d : Nat) :
    Walk (g.arc_avoiding c.invalid_id) s n d ↔ Walk g.arc s n d := by
  constructor
  · exact Walk.mono (fun u e h => h.1)
  · apply Walk.mono
    intro u e h
    refine ⟨h, ?_⟩
    have := hTV u e h
    omega

theorem triangle_consistent : triangle.Consistent :=
  (Graph.run_ops_consistent 3
    [GraphOp.add_edge 0 ⟨1, 3⟩, GraphOp.add_edge 1 ⟨2, 4⟩, GraphOp.add_edge 0 ⟨2, 10⟩]
    (Graph.new 3) (Graph.consistent_new 3) (Graph.size_new 3)
    (by
      intro op hop
      simp only [List.mem_cons, List.mem_singleton, List.not_mem_nil, or_false] at hop
      rcases hop with h | h | h <;> subst h <;> simp [GraphOp.valid])).1

theorem triangle_dist_le {n d : Nat} (h : IsDist triangle 0 n d) : n < 3 ∧ d ≤ 10 := by
  have hn : n < 3 := Walk.target_lt triangle_consistent.targetsValid (by decide) h.1
  refine ⟨hn, ?_⟩
  have h0 : Walk triangle.arc 0 0 0 := Walk.nil
  have h1 : Walk triangle.arc 0 1 (0 + 3) :=
    Walk.snoc (⟨1, 3⟩ : Edge) h0 (by unfold Graph.arc; decide)
  have h2 : Walk triangle.arc 0 2 (0 + 10) :=
    Walk.snoc (⟨2, 10⟩ : Edge) h0 (by unfold Graph.arc; decide)
  interval_cases n
  · have := h.2 _ h0; omega
  · have := h.2 _ h1; omega
  · have := h.2 _ h2; omega

theorem triangle_weight_le {u : Nat} {e : Edge} (he : e ∈ triangle.get_out_arcs u) :
    e.weight ≤ 10 := by
  have hu : u < 3 := (triangle_consistent.arc_lt _ u e he).1
  interval_cases u
  · have h : triangle.get_out_arcs 0 = [⟨1, 3⟩, ⟨2, 10⟩] := by decide
    rw [h] at he
    simp only [List.mem_cons, List.mem_singleton, List.not_mem_nil, or_false] at he
    rcases he with h | h <;> subst h <;> simp
  · have h : triangle.get_out_arcs 1 = [⟨2, 4⟩] := by decide
    rw [h] at he
    simp only [List.mem_singleton] at he
    subst he
    simp
  · have h : triangle.get_out_arcs 2 = [] := by decide
    rw [h] at he
    simp at he

/-- C1: on a graph whose arcs lead to nodes, where no shortest-path sum from `s` reaches
`inf_weight` and relaxing an arc at a shortest distance does not wrap, `set_source(s)`
followed by `run_until_done()` (no blacklist, no `max_dist`) terminates, and afterwards
`get_dist(n)` is the minimum total weight over all walks from `s` to `n` for every
reachable `n` and `inf_weight` for every unreachable `n`. -/
theorem C1_dijkstra_distances (c : Constants) (g : Graph) (s : Nat)
    (hTV : g.TargetsValid) (hs : s < g.size) (hid : g.size ≤ c.invalid_id)
    (hsum : ∀ n d, IsDist g s n d → d < c.inf_weight) (hnw : NoWrapFrom c g s) :
    ∀ fuel, g.size < fuel →
      ∃ st, run_until_done fuel (set_source c (DijkstraService.new c g) s) = Outcome.ok st ∧
        ∀ n, (Reachable g s n → IsDist g s n (st.get_dist n)) ∧
          (¬ Reachable g s n → st.get_dist n = c.inf_weight) := by
  intro fuel hfuel
  have hinf : 0 < c.inf_weight := hsum s 0 ⟨Walk.nil, fun _ _ => Nat.zero_le _⟩
  have hnowrap : ∀ u d, Walk (g.arc_avoiding c.invalid_id) s u d →
      (∀ d', Walk (g.arc_avoiding c.invalid_id) s u d' → d ≤ d') → d < c.inf_weight →
      ∀ e ∈ g.get_out_arcs u, d + e.weight < wrap32 := by
    intro u d hw hmin hlt e he
    refine hnw u d ⟨(walk_avoiding_iff hTV hid _ _ _).1 hw, ?_⟩ hlt e he
    intro d' hd'
    exact hmin d' ((walk_avoiding_iff hTV hid _ _ _).2 hd')
  obtain ⟨b1, st, hrun, hex, hqe⟩ := Exact.run_until_done hTV hnowrap fuel 0 _
    (Exact.init c g s hs hinf) (by
      have : (set_source c (DijkstraService.new c g) s).search_space = [] := rfl
      rw [this]; simpa using hfuel)
  refine ⟨st, hrun, ?_⟩
  intro n
  constructor
  · intro hr
    obtain ⟨d0, hd0⟩ := exists_isDist hr
    have hlt := hsum n d0 hd0
    rcases hex.walk_cases ((walk_avoiding_iff hTV hid _ _ _).2 hd0.1) with
      ⟨hn, hle⟩ | ⟨p, hp, _⟩ | hge
    · have hw := (hex.sound.hval n (hex.hS n hn).1).2.2
      have hw2 := (walk_avoiding_iff hTV hid _ _ _).1 hw
      have := hd0.2 _ hw2
      have heq : st.get_dist n = d0 := by unfold get_dist; omega
      rw [heq]
      exact hd0
    · rw [hqe] at hp
      simp at hp
    · omega
  · intro hnr
    cases hh : st.dist_vec.has n with
    | true =>
      exfalso
      exact hnr ⟨_, (walk_avoiding_iff hTV hid _ _ _).1 (hex.sound.hval n hh).2.2⟩
    | false =>
      unfold get_dist
      rw [TimestampVector.get_of_not_has _ _ hh, hex.sound.hdef]

/-- Witness for C1: the triangle of scenario S1 with source 0. -/
theorem C1_dijkstra_distances_witness :
    ∃ st, run_until_done 4 (set_source stdConstants (DijkstraService.new stdConstants triangle) 0)
        = Outcome.ok st ∧
      ∀ n, (Reachable triangle 0 n → IsDist triangle 0 n (st.get_dist n)) ∧
        (¬ Reachable triangle 0 n → st.get_dist n = stdConstants.inf_weight) :=
  C1_dijkstra_distances stdConstants triangle 0 triangle_consistent.targetsValid
    (by decide) (by decide)
    (fun n d h => by
      have := (triangle_dist_le h).2
      have h2 : stdConstants.inf_weight = 2147483647 := rfl
      omega)
    (fun u d h _ e he => by
      have := (triangle_dist_le h).2
      have := triangle_weight_le he
      have h2 : wrap32 = 4294967296 := by decide
      omega)
    4 (by decide)

end PenAstar

namespace PenAstar

namespace DijkstraService

theorem max_dist_relax (s : DijkstraService) (best : Nat) (e : Edge) :
    (relax s best e).max_dist = s.max_dist := by
  unfold relax
  split
  · rfl
  · split <;> rfl

theorem max_dist_foldl_relax (best : Nat) (l : List Edge) (s : DijkstraService) :
    (l.foldl (fun st e => relax st best e) s).max_dist = s.max_dist := by
  induction l generalizing s with
  | nil => rfl
  | cons e rest ih =>
    simp only [List.foldl_cons]
    rw [ih, max_dist_relax]

theorem max_dist_step {s s1 : DijkstraService} {cur : Nat} (h : s.step = some (cur, s1)) :
    s1.max_dist = s.max_dist := by
  unfold DijkstraService.step at h
  cases hpop : s.queue.pop with
  | none => rw [hpop] at h; simp at h
  | some r =>
    obtain ⟨m, q'⟩ := r
    rw [hpop] at h
    simp only [Option.some.injEq, Prod.mk.injEq] at h
    rw [← h.2, max_dist_foldl_relax]

theorem step_ne_none {s : DijkstraService} (h : s.queue.entries ≠ []) : s.step ≠ none := by
  intro hstep
  unfold DijkstraService.step at hstep
  cases hpop : s.queue.pop with
  | none => exact h ((MinIDQueue.pop_eq_none _).1 hpop)
  | some r => rw [hpop] at hstep; simp at hstep

/-- The loop of `run_until_target_found` without a distance cap stops with the target
settled or the queue empty. -/
theorem Exact.run_until_target_found_loop {c : Constants} {g : Graph} {bl src : Nat}
    (hTV : g.TargetsValid)
    (hnowrap : ∀ u d, Walk (g.arc_avoiding bl) src u d →
      (∀ d', Walk (g.arc_avoiding bl) src u d' → d ≤ d') → d < c.inf_weight →
      ∀ e ∈ g.get_out_arcs u, d + e.weight < wrap32)
    (target : Nat) (fuel : Nat) (b0 : Nat) (s : DijkstraService)
    (h : Exact c g bl src b0 [] s) (hmd : s.max_dist = c.inf_weight)
    (hne : s.queue.entries ≠ []) (hfuel : g.size - s.search_space.length ≤ fuel) :
    ∃ b1 s', DijkstraService.run_until_target_found_loop target fuel s = Outcome.ok s' ∧
      Exact c g bl src b1 [] s' ∧ (target ∈ s'.search_space ∨ s'.queue.entries = []) := by
  induction fuel generalizing b0 s with
  | zero =>
    exfalso
    cases hstep : s.step with
    | none => exact step_ne_none hne hstep
    | some r =>
      obtain ⟨cur, s1⟩ := r
      obtain ⟨h1, hS1, _⟩ := h.step hTV hnowrap hstep
      have hc := h1.card_le
      rw [hS1, List.length_append, List.length_singleton] at hc
      omega
  | succ fuel ih =>
    unfold DijkstraService.run_until_target_found_loop
    cases hstep : s.step with
    | none => exact absurd hstep (step_ne_none hne)
    | some r =>
      obtain ⟨cur, s1⟩ := r
      obtain ⟨h1, hS1, _⟩ := h.step hTV hnowrap hstep
      have hmd1 : s1.max_dist = c.inf_weight := by rw [max_dist_step hstep, hmd]
      simp only
      by_cases hct : cur = target
      · rw [if_pos hct]
        refine ⟨cur, s1, rfl, h1, Or.inl ?_⟩
        rw [hS1, ← hct]
        simp
      · rw [if_neg hct]
        have hcurS : cur ∈ s1.search_space := by rw [hS1]; simp
        have hlt := (h1.sound.hval cur (h1.hS cur hcurS).1).2.1
        have hnge : decide (s1.dist_vec.get cur ≥ s1.max_dist) = false := by
          rw [hmd1]
          simp only [ge_iff_le, decide_eq_false_iff_not, not_le]
          exact hlt
        rw [hnge, Bool.or_false]
        by_cases hemp : s1.queue.empty = true
        · rw [if_pos hemp]
          exact ⟨cur, s1, rfl, h1, Or.inr ((MinIDQueue.empty_iff _).1 hemp)⟩
        · rw [if_neg hemp]
          apply ih cur s1 h1 hmd1
          · intro hq
            exact hemp ((MinIDQueue.empty_iff _).2 hq)
          · rw [hS1, List.length_append, List.length_singleton]
            omega

/-- `run_until_target_found` without a distance cap stops with the target settled or the
queue empty. -/
theorem Exact.run_until_target_found {c : Constants} {g : Graph} {bl src : Nat}
    (hTV : g.TargetsValid)
    (hnowrap : ∀ u d, Walk (g.arc_avoiding bl) src u d →
      (∀ d', Walk (g.arc_avoiding bl) src u d' → d ≤ d') → d < c.inf_weight →
      ∀ e ∈ g.get_out_arcs u, d + e.weight < wrap32)
    (target : Nat) (fuel : Nat) (b0 : Nat) (s : DijkstraService)
    (h : Exact c g bl src b0 [] s) (hmd : s.max_dist = c.inf_weight)
    (hfuel : g.size - s.search_space.length ≤ fuel) :
    ∃ b1 s', DijkstraService.run_until_target_found fuel s target = Outcome.ok s' ∧
      Exact c g bl src b1 [] s' ∧ (target ∈ s'.search_space ∨ s'.queue.entries = []) := by
  unfold DijkstraService.run_until_target_found
  by_cases hcond : (s.is_settled target || s.queue.empty) = true
  · rw [if_pos hcond]
    refine ⟨b0, s, rfl, h, ?_⟩
    rw [Bool.or_eq_true] at hcond
    rcases hcond with hset | hemp
    · left
      unfold is_settled at hset
      rw [Bool.and_eq_true] at hset
      rcases h.hcov target hset.1 with h1 | h1
      · exact h1
      · rw [h1] at hset
        simp at hset
    · exact Or.inr ((MinIDQueue.empty_iff _).1 hemp)
  · rw [if_neg hcond]
    apply h.run_until_target_found_loop hTV hnowrap target fuel b0 s hmd _ hfuel
    intro hq
    apply hcond
    rw [Bool.or_eq_true]
    exact Or.inr ((MinIDQueue.empty_iff _).2 hq)

end DijkstraService

theorem IsPath.snoc {g : Graph} {p : List Nat} {d u : Nat} (h : IsPath g p d)
    (hlast : p.getLast? = some u) (e : Edge) (he : e ∈ g.get_out_arcs u) :
    IsPath g (p ++ [e.target]) (d + e.weight) := by
  induction h with
  | single v =>
    simp only [List.getLast?_singleton, Option.some.injEq] at hlast
    subst hlast
    have := IsPath.cons e he (IsPath.single e.target)
    simpa using this
  | @cons v rest d' e' he' _ ih =>
    have h2 : (e'.target :: rest).getLast? = some u := by
      rw [List.getLast?_cons_cons] at hlast
      exact hlast
    have := IsPath.cons e' he' (ih h2)
    rw [Nat.add_assoc]
    simpa using this

theorem IsPath.ne_nil {g : Graph} {p : List Nat} {d : Nat} (h : IsPath g p d) : p ≠ [] := by
  cases h <;> simp

theorem head?_append_singleton_of_head? {p : List Nat} {a x : Nat} (h : p.head? = some a) :
    (p ++ [x]).head? = some a := by
  cases p with
  | nil => simp at h
  | cons b t => simpa using h

namespace DijkstraService

/-- The parent walk of `get_path` from a settled node `x` ends at the source and
traverses, backwards, a path of `g` from the source to `x` of weight `dist(x)`. -/
theorem Exact.get_path_loop {c : Constants} {g : Graph} {src best : Nat} {s : DijkstraService}
    (h : Exact c g c.invalid_id src best [] s) (hsrc : src < g.size)
    (hid : g.size ≤ c.invalid_id) (k : Nat) :
    ∀ x, x ∈ s.search_space → s.search_space.indexOf x ≤ k →
      ∃ p, IsPath g p (s.dist_vec.get x) ∧ p.head? = some src ∧ p.getLast? = some x ∧
        ∀ fuel acc, k + 2 ≤ fuel →
          DijkstraService.get_path_loop c s fuel x acc = Outcome.ok (acc ++ p.reverse) := by
  induction k with
  | zero =>
    intro x hx hk
    by_cases hxs : x = src
    · subst hxs
      refine ⟨[x], ?_, rfl, rfl, ?_⟩
      · rw [h.hsrc.2.1]; exact IsPath.single x
      · intro fuel acc hf
        obtain ⟨f2, rfl⟩ : ∃ f2, fuel = f2 + 2 := ⟨fuel - 2, by omega⟩
        unfold DijkstraService.get_path_loop
        rw [if_neg (by omega), if_pos (by rw [h.sound.hplen]; exact hsrc), h.hsrc.2.2]
        unfold DijkstraService.get_path_loop
        rw [if_pos rfl]
        simp
    · exfalso
      have hhas := (h.hS x hx).1
      obtain ⟨b1, b2, _⟩ := h.hpar x hhas hxs
      have := b2 hx
      omega
  | succ k ih =>
    intro x hx hk
    by_cases hxs : x = src
    · subst hxs
      refine ⟨[x], ?_, rfl, rfl, ?_⟩
      · rw [h.hsrc.2.1]; exact IsPath.single x
      · intro fuel acc hf
        obtain ⟨f2, rfl⟩ : ∃ f2, fuel = f2 + 2 := ⟨fuel - 2, by omega⟩
        unfold DijkstraService.get_path_loop
        rw [if_neg (by omega), if_pos (by rw [h.sound.hplen]; exact hsrc), h.hsrc.2.2]
        unfold DijkstraService.get_path_loop
        rw [if_pos rfl]
        simp
    · have hhas := (h.hS x hx).1
      have hxlt := (h.sound.hval x hhas).1
      obtain ⟨b1, b2, e, he, het, hd⟩ := h.hpar x hhas hxs
      have hlt := b2 hx
      obtain ⟨p, hp1, hp2, hp3, hp4⟩ := ih (s.parent_vec.get x) b1 (by omega)
      refine ⟨p ++ [x], ?_, head?_append_singleton_of_head? hp2, by simp, ?_⟩
      · have h5 := hp1.snoc hp3 e he
        rw [het] at h5
        rw [hd]
        exact h5
      · intro fuel acc hf
        obtain ⟨f1, rfl⟩ : ∃ f1, fuel = f1 + 1 := ⟨fuel - 1, by omega⟩
        unfold DijkstraService.get_path_loop
        rw [if_neg (by omega), if_pos (by rw [h.sound.hplen]; exact hxlt)]
        rw [hp4 f1 (acc ++ [x]) (by omega)]
        simp

/-- `get_path` of a settled node returns a path of `g` from the source to the node whose
arc weights sum to the returned length, the node's distance entry. -/
theorem Exact.get_path {c : Constants} {g : Graph} {src best : Nat} {s : DijkstraService}
    (h : Exact c g c.invalid_id src best [] s) (hsrc : src < g.size)
    (hid : g.size ≤ c.invalid_id) (x : Nat) (hx : x ∈ s.search_space)
    (fuel : Nat) (hfuel : g.size + 1 ≤ fuel) :
    ∃ p, DijkstraService.get_path c fuel s x = Outcome.ok ⟨p, s.dist_vec.get x⟩ ∧
      IsPath g p (s.dist_vec.get x) ∧ p.head? = some src ∧ p.getLast? = some x := by
  have hhas := (h.hS x hx).1
  obtain ⟨hxlt, hdlt, _⟩ := h.sound.hval x hhas
  have hidx : s.search_space.indexOf x < s.search_space.length := List.indexOf_lt_length.2 hx
  have hcard := h.card_le
  obtain ⟨p, hp1, hp2, hp3, hp4⟩ :=
    h.get_path_loop hsrc hid (s.search_space.indexOf x) x hx (Nat.le_refl _)
  refine ⟨p, ?_, hp1, hp2, hp3⟩
  unfold DijkstraService.get_path
  rw [if_pos (by rw [h.sound.hlen]; exact hxlt)]
  have hne : ¬ s.get_dist x = c.inf_weight := by
    unfold get_dist; omega
  rw [if_neg hne, hp4 fuel [] (by omega)]
  simp [get_dist]

end DijkstraService

open DijkstraService

/-- C2: under the hypotheses of C1 and for a target node `n`, `set_source(s)` followed by
`run_until_target_found(n)` (no blacklist, no `max_dist`) terminates; if `n` is reachable,
`get_path(n)` returns a node list that starts with `s`, ends with `n`, joins consecutive
nodes by arcs of `g` whose weights sum to the returned length, and that length is the
shortest distance from `s` to `n`; if `n` is unreachable it returns the empty list paired
with `inf_weight`. On the triangle the result for source 0 and target 2 is `[0,1,2]` with
length 7. -/
theorem C2_dijkstra_path (c : Constants) (g : Graph) (s n : Nat)
    (hTV : g.TargetsValid) (hs : s < g.size) (hn : n < g.size) (hid : g.size ≤ c.invalid_id)
    (hsum : ∀ n d, IsDist g s n d → d < c.inf_weight) (hnw : NoWrapFrom c g s) :
    (∀ fuel, g.size < fuel →
      ∃ st, run_until_target_found fuel (set_source c (DijkstraService.new c g) s) n
          = Outcome.ok st ∧
        (Reachable g s n → ∃ p, get_path c fuel st n = Outcome.ok p ∧
          p.nodes.head? = some s ∧ p.nodes.getLast? = some n ∧
          IsPath g p.nodes p.length ∧ IsDist g s n p.length) ∧
        (¬ Reachable g s n → get_path c fuel st n = Outcome.ok ⟨[], c.inf_weight⟩)) ∧
    (∃ st, run_until_target_found 4
        (set_source stdConstants (DijkstraService.new stdConstants triangle) 0) 2
          = Outcome.ok st ∧
        get_path stdConstants 4 st 2 = Outcome.ok ⟨[0, 1, 2], 7⟩) := by
  refine ⟨?_, ⟨_, rfl, by decide⟩⟩
  intro fuel hfuel
  have hinf : 0 < c.inf_weight := hsum s 0 ⟨Walk.nil, fun _ _ => Nat.zero_le _⟩
  have hnowrap : ∀ u d, Walk (g.arc_avoiding c.invalid_id) s u d →
      (∀ d', Walk (g.arc_avoiding c.invalid_id) s u d' → d ≤ d') → d < c.inf_weight →
      ∀ e ∈ g.get_out_arcs u, d + e.weight < wrap32 := by
    intro u d hw hmin hlt e he
    refine hnw u d ⟨(walk_avoiding_iff hTV hid _ _ _).1 hw, ?_⟩ hlt e he
    intro d' hd'
    exact hmin d' ((walk_avoiding_iff hTV hid _ _ _).2 hd')
  obtain ⟨b1, st, hrun, hex, hend⟩ := Exact.run_until_target_found hTV hnowrap n fuel 0 _
    (Exact.init c g s hs hinf) rfl (by
      have : (set_source c (DijkstraService.new c g) s).search_space = [] := rfl
      rw [this]; simp only [List.length_nil]; omega)
  refine ⟨st, hrun, ?_, ?_⟩
  · intro hr
    obtain ⟨d0, hd0⟩ := exists_isDist hr
    have hlt := hsum n d0 hd0
    have hnS : n ∈ st.search_space ∧ st.dist_vec.get n ≤ d0 := by
      rcases hex.walk_cases ((walk_avoiding_iff hTV hid _ _ _).2 hd0.1) with
        hn1 | ⟨p, hp, hpk⟩ | hge
      · exact hn1
      · rcases hend with hin | hq
        · refine ⟨hin, ?_⟩
          exact (hex.hS n hin).2.2 _ ((walk_avoiding_iff hTV hid _ _ _).2 hd0.1)
        · rw [hq] at hp
          simp at hp
      · omega
    have hw := (hex.sound.hval n (hex.hS n hnS.1).1).2.2
    have hw2 := (walk_avoiding_iff hTV hid _ _ _).1 hw
    have hge := hd0.2 _ hw2
    have heq : st.dist_vec.get n = d0 := by omega
    obtain ⟨p, hp1, hp2, hp3, hp4⟩ := hex.get_path hs hid n hnS.1 fuel (by omega)
    refine ⟨⟨p, st.dist_vec.get n⟩, hp1, hp3, hp4, hp2, ?_⟩
    simp only
    rw [heq]
    exact hd0
  · intro hnr
    have hh : st.dist_vec.has n = false := by
      cases hh : st.dist_vec.has n with
      | true =>
        exfalso
        exact hnr ⟨_, (walk_avoiding_iff hTV hid _ _ _).1 (hex.sound.hval n hh).2.2⟩
      | false => rfl
    have hg : st.get_dist n = c.inf_weight := by
      unfold get_dist
      rw [TimestampVector.get_of_not_has _ _ hh, hex.sound.hdef]
    unfold DijkstraService.get_path
    rw [if_pos (by rw [hex.sound.hlen]; exact hn), if_pos hg, hg]

/-- Witness for C2: the triangle of scenario S1 with source 0 and target 2. -/
theorem C2_dijkstra_path_witness :
    ∃ st, run_until_target_found 4
        (set_source stdConstants (DijkstraService.new stdConstants triangle) 0) 2
          = Outcome.ok st ∧
      (Reachable triangle 0 2 → ∃ p, get_path stdConstants 4 st 2 = Outcome.ok p ∧
        p.nodes.head? = some 0 ∧ p.nodes.getLast? = some 2 ∧
        IsPath triangle p.nodes p.length ∧ IsDist triangle 0 2 p.length) ∧
      (¬ Reachable triangle 0 2 →
        get_path stdConstants 4 st 2 = Outcome.ok ⟨[], stdConstants.inf_weight⟩) :=
  (C2_dijkstra_path stdConstants triangle 0 2 triangle_consistent.targetsValid
    (by decide) (by decide) (by decide)
    (fun n d h => by
      have := (triangle_dist_le h).2
      have h2 : stdConstants.inf_weight = 2147483647 := rfl
      omega)
    (fun u d h _ e he => by
      have := (triangle_dist_le h).2
      have := triangle_weight_le he
      have h2 : wrap32 = 4294967296 := by decide
      omega)).1 4 (by decide)

end PenAstar

namespace PenAstar

/-- C3 (failing input): on the graph with two nodes and no arc, contracted in the order
`[0, 1]`, the query from 0 to the unreachable node 1 leaves `best_node` at `invalid_id` and
`dijkstra_on_ch` then calls `get_path(invalid_id)`, which reads `dist_vec[invalid_id]`
outside the vector, whatever the fuel; no `Path` of length `inf_weight` is returned. A plain
Dijkstra run reports `inf_weight`, and on the square of scenario S5 the query from 0 to 3
returns length 4. -/
theorem C3_unreachable_query_out_of_range :
    (∀ fuel, ch_query stdConstants fuel (Graph.new 2) [0, 1] 0 1 = Outcome.no_fuel ∨
      ch_query stdConstants fuel (Graph.new 2) [0, 1] 0 1 = Outcome.out_of_range) ∧
    ch_query stdConstants 4 (Graph.new 2) [0, 1] 0 1 = Outcome.out_of_range ∧
    dijkstra_query stdConstants 4 (Graph.new 2) 0 1 = Outcome.ok stdConstants.inf_weight ∧
    ch_query stdConstants 5 square [0, 1, 2, 3] 0 3 = Outcome.ok ⟨[0, 1, 3], 4⟩ := by
  refine ⟨?_, by decide, by decide, by decide⟩
  intro fuel
  rcases fuel with _ | _ | k
  · left; rfl
  · left; rfl
  · right; rfl

/-- C4 (failing input): on the graph with the arc 0→1 of weight 3 and the loop 1→1 of
weight 5, contracted in the order `[0, 1]`, A* with the CH potential for target 1 returns
`get_dist(1) = 8` for source 0, while the Dijkstra distance from 0 to 1 is 3: when the target
is popped it is not yet in the closed set, so its own loop overwrites its distance. -/
theorem C4_astar_self_loop :
    astar_query stdConstants 10 loop_graph [0, 1] 0 1 = Outcome.ok 8 ∧
    dijkstra_query stdConstants 10 loop_graph 0 1 = Outcome.ok 3 := by
  exact ⟨by decide, by decide⟩

/-- C5 (failing input): on the graph with one node and the query from node 0 to itself,
under every interleaving of the two threads `tentative_dist` is still `inf_weight` when both
have left their loops, and `run` then calls `pop_back` on an empty node list; the Dijkstra
distance from 0 to 0 is 0. -/
theorem C5_bidirectional_same_node :
    (∀ sched, bidirectional_query stdConstants 8 sched (Graph.new 1) [0] 0 0
      = Outcome.ok stdConstants.inf_weight) ∧
    dijkstra_query stdConstants 8 (Graph.new 1) 0 0 = Outcome.ok 0 := by
  refine ⟨?_, by decide⟩
  intro sched
  rcases sched with _ | ⟨b1, _ | ⟨b2, _ | ⟨b3, rest⟩⟩⟩
  · rfl
  · cases b1 <;> rfl
  · cases b1 <;> cases b2 <;> rfl
  · cases b1 <;> cases b2 <;> cases b3 <;> rfl

end PenAstar

namespace PenAstar

namespace Graph

theorem length_swap_pop (l : List Edge) (i : Nat) : (swap_pop l i).length = l.length - 1 := by
  simp [swap_pop]

/-- `remove_edge` of a stored arc shortens both adjacency lists concerned by one. -/
theorem remove_edge_length (g : Graph) (hc : g.Consistent) (u v : Nat) (w : Nat)
    (h : (⟨v, w⟩ : Edge) ∈ g.get_out_arcs u) :
    ((g.remove_edge u v).1.get_out_arcs u).length + 1 = (g.get_out_arcs u).length ∧
    ((g.remove_edge u v).1.get_rev_out_arcs v).length + 1 = (g.get_rev_out_arcs v).length := by
  have hlt := hc.arc_lt g u _ h
  simp only at hlt
  have hrv : (⟨u, w⟩ : Edge) ∈ g.get_rev_out_arcs v := (hc.2.1 u v w).1 h
  have hu : u < g.adj_list.length := hlt.1
  have hv : v < g.rev_adj_list.length := by rw [← hc.1]; exact hlt.2
  have hne1 : (g.get_out_arcs u).length ≠ 0 := by
    intro h0
    rw [List.length_eq_zero] at h0
    rw [h0] at h
    simp at h
  have hne2 : (g.get_rev_out_arcs v).length ≠ 0 := by
    intro h0
    rw [List.length_eq_zero] at h0
    rw [h0] at hrv
    simp at hrv
  cases hf : find_target (g.adj_list.getD u []) v with
  | none => exact absurd rfl ((find_target_none_iff _ _).1 hf _ h)
  | some i =>
    cases hf2 : find_target (g.rev_adj_list.getD v []) u with
    | none => exact absurd rfl ((find_target_none_iff _ _).1 hf2 _ hrv)
    | some j =>
      have hrm : g.remove_edge u v =
          (⟨g.adj_list.set u (swap_pop (g.adj_list.getD u []) i),
            g.rev_adj_list.set v (swap_pop (g.rev_adj_list.getD v []) j)⟩, true) := by
        unfold remove_edge; simp only [hf, hf2]
      rw [hrm]
      constructor
      · simp only [get_out_arcs, getD_set_list, hu, and_self, if_true, length_swap_pop]
        unfold get_out_arcs at hne1
        omega
      · simp only [get_rev_out_arcs, getD_set_list, hv, and_self, if_true, length_swap_pop]
        unfold get_rev_out_arcs at hne2
        omega

theorem mem_of_getD_lt {l : List Edge} {i : Nat} (h : i < l.length) : l.getD i default ∈ l := by
  rw [List.getD_eq_getElem _ _ h]
  exact List.getElem_mem h

theorem disconnect_out_succ (node i : Nat) (g : Graph) :
    disconnect_out node (i + 1) g =
      disconnect_out node i
        (g.remove_edge node ((g.get_out_arcs node).getD i default).target).1 := rfl

theorem disconnect_in_succ (node i : Nat) (g : Graph) :
    disconnect_in node (i + 1) g =
      disconnect_in node i
        (g.remove_edge ((g.get_rev_out_arcs node).getD i default).target node).1 := rfl

/-- First loop of `disconnect_node`: all arcs leaving `node` are removed, nothing else. -/
theorem disconnect_out_spec (node : Nat) (i : Nat) (g : Graph) (hc : g.Consistent)
    (hi : i = (g.get_out_arcs node).length) :
    (disconnect_out node i g).Consistent ∧
    ∀ a b, first_weight ((disconnect_out node i g).get_out_arcs a) b =
      if a = node then none else first_weight (g.get_out_arcs a) b := by
  induction i generalizing g with
  | zero =>
    refine ⟨hc, ?_⟩
    intro a b
    by_cases ha : a = node
    · rw [if_pos ha, ha]
      have : g.get_out_arcs node = [] := List.length_eq_zero.1 hi.symm
      rw [disconnect_out, this]
      rfl
    · rw [if_neg ha]; rfl
  | succ i ih =>
    rw [disconnect_out_succ]
    have hmem : (g.get_out_arcs node).getD i default ∈ g.get_out_arcs node :=
      mem_of_getD_lt (by omega)
    obtain ⟨hc1, _, _, hw1⟩ := remove_edge_spec g hc node ((g.get_out_arcs node).getD i default).target
    have hlen := (remove_edge_length g hc node ((g.get_out_arcs node).getD i default).target
      ((g.get_out_arcs node).getD i default).weight hmem).1
    obtain ⟨hc2, hw2⟩ := ih _ hc1 (by omega)
    refine ⟨hc2, ?_⟩
    intro a b
    rw [hw2, hw1]
    by_cases ha : a = node
    · simp [ha]
    · simp [ha]

/-- Second loop of `disconnect_node`: all arcs entering `node` are removed, nothing else. -/
theorem disconnect_in_spec (node : Nat) (i : Nat) (g : Graph) (hc : g.Consistent)
    (hi : i = (g.get_rev_out_arcs node).length) :
    (disconnect_in node i g).Consistent ∧
    ∀ a b, first_weight ((disconnect_in node i g).get_out_arcs a) b =
      if b = node then none else first_weight (g.get_out_arcs a) b := by
  induction i generalizing g with
  | zero =>
    refine ⟨hc, ?_⟩
    intro a b
    by_cases hb : b = node
    · rw [if_pos hb, hb]
      have h0 : g.get_rev_out_arcs node = [] := List.length_eq_zero.1 hi.symm
      rw [disconnect_in, ((consistent_iff_weight g).1 hc).2.2.2 a node, h0]
      rfl
    · rw [if_neg hb]; rfl
  | succ i ih =>
    rw [disconnect_in_succ]
    have hmem : (g.get_rev_out_arcs node).getD i default ∈ g.get_rev_out_arcs node :=
      mem_of_getD_lt (by omega)
    have hmem2 : (⟨node, ((g.get_rev_out_arcs node).getD i default).weight⟩ : Edge) ∈
        g.get_out_arcs ((g.get_rev_out_arcs node).getD i default).target :=
      (hc.2.1 _ _ _).2 hmem
    obtain ⟨hc1, _, _, hw1⟩ :=
      remove_edge_spec g hc ((g.get_rev_out_arcs node).getD i default).target node
    have hlen := (remove_edge_length g hc ((g.get_rev_out_arcs node).getD i default).target node
      ((g.get_rev_out_arcs node).getD i default).weight hmem2).2
    obtain ⟨hc2, hw2⟩ := ih _ hc1 (by omega)
    refine ⟨hc2, ?_⟩
    intro a b
    rw [hw2, hw1]
    by_cases hb : b = node
    · simp [hb]
    · simp [hb]

/-- Effect of `disconnect_node` on a consistent graph, in terms of stored weights. -/
theorem disconnect_node_spec (g : Graph) (hc : g.Consistent) (node : Nat) :
    (g.disconnect_node node).Consistent ∧ (g.disconnect_node node).size = g.size ∧
    ∀ a b, first_weight ((g.disconnect_node node).get_out_arcs a) b =
      if a = node ∨ b = node then none else first_weight (g.get_out_arcs a) b := by
  unfold disconnect_node
  obtain ⟨hc1, hw1⟩ := disconnect_out_spec node _ g hc rfl
  obtain ⟨hc2, hw2⟩ := disconnect_in_spec node _ _ hc1 rfl
  refine ⟨hc2, ?_, ?_⟩
  · exact (disconnect_node_consistent g hc node).2
  · intro a b
    simp only
    rw [hw2, hw1]
    by_cases ha : a = node <;> by_cases hb : b = node <;> simp [ha, hb]

end Graph

end PenAstar

namespace PenAstar

namespace DijkstraService

theorem Clean.has_false {c : Constants} {g : Graph} {s : DijkstraService} (h : Clean c g s)
    (x : Nat) : s.dist_vec.has x = false := by
  unfold TimestampVector.has
  simp only [decide_eq_false_iff_not]
  by_cases hx : x < s.dist_vec.vec.length
  · rw [List.getD_eq_getElem _ _ hx]
    have := h.hstamp _ (List.getElem_mem hx)
    omega
  · rw [List.getD_eq_default _ _ (Nat.le_of_not_lt hx)]
    have := h.ht
    simp only
    omega

theorem clean_new (c : Constants) (g : Graph) : Clean c g (DijkstraService.new c g) :=
  { hg := rfl
    ht := by simp [DijkstraService.new, TimestampVector.new, TimestampVector.step_time, wrap32]
    hlen := by simp [DijkstraService.new, TimestampVector.length_new]
    hplen := by simp [DijkstraService.new, TimestampVector.length_new]
    hdef := rfl
    hstamp := by
      intro p hp
      simp only [DijkstraService.new, TimestampVector.new, TimestampVector.step_time] at hp ⊢
      rw [List.mem_replicate] at hp
      rw [hp.2]
      simp [wrap32]
    hq := rfl
    hS := rfl }

/-- The state after `set_source` on a clean service satisfies the invariant. -/
theorem Exact.init_clean {c : Constants} {g : Graph} {s0 : DijkstraService} (bl src : Nat)
    (h0 : Clean c g s0) (hbl : s0.blacklisted = bl) (hsrc : src < g.size)
    (hinf : 0 < c.inf_weight) :
    Exact c g bl src 0 [] (set_source c s0 src) := by
  have hdget : ∀ x, (set_source c s0 src).dist_vec.get x =
      if x = src then 0 else c.inf_weight := by
    intro x
    simp only [set_source]
    by_cases hx : x = src
    · rw [if_pos hx, hx, TimestampVector.get_set_eq _ _ _ (by rw [h0.hlen]; exact hsrc)]
    · rw [if_neg hx, TimestampVector.get_set_ne _ _ _ _ (fun h3 => hx h3.symm),
        TimestampVector.get_of_not_has _ _ (h0.has_false x), h0.hdef]
  have hdhas : ∀ x, (set_source c s0 src).dist_vec.has x = true ↔ x = src := by
    intro x
    simp only [set_source]
    by_cases hx : x = src
    · rw [hx, TimestampVector.has_set_eq _ _ _ (by rw [h0.hlen]; exact hsrc)]
      simp
    · rw [TimestampVector.has_set_ne _ _ _ _ (fun h3 => hx h3.symm), h0.has_false]
      simp [hx]
  have hq : (set_source c s0 src).queue.entries = [⟨src, 0⟩] := by
    simp [set_source, MinIDQueue.push, h0.hq]
  have hS : (set_source c s0 src).search_space = [] := h0.hS
  exact
  { sound :=
    { hg := h0.hg
      hbl := hbl
      hlen := by simp only [set_source, TimestampVector.length_set]; exact h0.hlen
      hplen := by simp only [set_source, TimestampVector.length_set]; exact h0.hplen
      hdef := h0.hdef
      hval := by
        intro x hx
        have hx2 := (hdhas x).1 hx
        rw [hdget, if_pos hx2, hx2]
        exact ⟨hsrc, hinf, Walk.nil⟩
      hq := by
        intro p hp
        rw [hq, List.mem_singleton] at hp
        rw [hp]
        exact (hdhas src).2 rfl }
    hqn := by rw [hq]; simp
    hqk := by
      intro p hp
      rw [hq, List.mem_singleton] at hp
      rw [hp, hdget, if_pos rfl]
    hS := by intro x hx; rw [hS] at hx; simp at hx
    hSn := by rw [hS]; simp
    hcov := by
      intro x hx
      right
      rw [(hdhas x).1 hx]
      exact (MinIDQueue.contains_id_iff _ _).2 ⟨⟨src, 0⟩, by rw [hq]; simp, rfl⟩
    hrel := by intro u hu; rw [hS] at hu; simp at hu
    hmono := by intro u hu; rw [hS] at hu; simp at hu
    hsrc := by
      refine ⟨(hdhas src).2 rfl, by rw [hdget, if_pos rfl], ?_⟩
      simp only [set_source]
      rw [TimestampVector.get_set_eq _ _ _ (by rw [h0.hplen]; exact hsrc)]
    hpend := by intro e he; simp at he
    hbest := by intro hne; exact absurd rfl hne
    hpar := by
      intro x hx hxs
      exact absurd ((hdhas x).1 hx) hxs }

/-! Epoch and stamps are untouched by a search. -/

theorem stampsLe_set (v : TimestampVector) (i x : Nat) (h : ∀ p ∈ v.vec, p.2 ≤ v.t) :
    ∀ p ∈ (v.set i x).vec, p.2 ≤ (v.set i x).t := by
  intro p hp
  simp only [TimestampVector.set] at hp ⊢
  rcases List.mem_or_eq_of_mem_set hp with h1 | h1
  · exact h p h1
  · rw [h1]

theorem epoch_relax (s : DijkstraService) (best : Nat) (e : Edge) :
    (relax s best e).dist_vec.t = s.dist_vec.t ∧ (StampsLe s → StampsLe (relax s best e)) := by
  unfold relax
  split
  · exact ⟨rfl, id⟩
  · split
    · exact ⟨rfl, fun h => stampsLe_set _ _ _ h⟩
    · exact ⟨rfl, id⟩

theorem epoch_foldl_relax (best : Nat) (l : List Edge) (s : DijkstraService) :
    (l.foldl (fun st e => relax st best e) s).dist_vec.t = s.dist_vec.t ∧
    (StampsLe s → StampsLe (l.foldl (fun st e => relax st best e) s)) := by
  induction l generalizing s with
  | nil => exact ⟨rfl, id⟩
  | cons e rest ih =>
    simp only [List.foldl_cons]
    obtain ⟨h1, h2⟩ := ih (relax s best e)
    obtain ⟨h3, h4⟩ := epoch_relax s best e
    exact ⟨by rw [h1, h3], fun h => h2 (h4 h)⟩

theorem epoch_step {s s1 : DijkstraService} {cur : Nat} (h : s.step = some (cur, s1)) :
    s1.dist_vec.t = s.dist_vec.t ∧ (StampsLe s → StampsLe s1) := by
  unfold DijkstraService.step at h
  cases hpop : s.queue.pop with
  | none => rw [hpop] at h; simp at h
  | some r =>
    obtain ⟨m, q'⟩ := r
    rw [hpop] at h
    simp only [Option.some.injEq, Prod.mk.injEq] at h
    rw [← h.2]
    exact epoch_foldl_relax _ _ _

/-- `run_until_target_found` with any distance cap keeps the invariant; it terminates
within `size - |search_space|` loop passes. -/
theorem Exact.run_until_target_found_loop_any {c : Constants} {g : Graph} {bl src : Nat}
    (hTV : g.TargetsValid)
    (hnowrap : ∀ u d, Walk (g.arc_avoiding bl) src u d →
      (∀ d', Walk (g.arc_avoiding bl) src u d' → d ≤ d') → d < c.inf_weight →
      ∀ e ∈ g.get_out_arcs u, d + e.weight < wrap32)
    (target : Nat) (fuel : Nat) (b0 : Nat) (s : DijkstraService)
    (h : Exact c g bl src b0 [] s)
    (hne : s.queue.entries ≠ []) (hfuel : g.size - s.search_space.length ≤ fuel) :
    ∃ b1 s', DijkstraService.run_until_target_found_loop target fuel s = Outcome.ok s' ∧
      Exact c g bl src b1 [] s' ∧ s'.dist_vec.t = s.dist_vec.t ∧
      (StampsLe s → StampsLe s') := by
  induction fuel generalizing b0 s with
  | zero =>
    exfalso
    cases hstep : s.step with
    | none => exact step_ne_none hne hstep
    | some r =>
      obtain ⟨cur, s1⟩ := r
      obtain ⟨h1, hS1, _⟩ := h.step hTV hnowrap hstep
      have hc := h1.card_le
      rw [hS1, List.length_append, List.length_singleton] at hc
      omega
  | succ fuel ih =>
    unfold DijkstraService.run_until_target_found_loop
    cases hstep : s.step with
    | none => exact absurd hstep (step_ne_none hne)
    | some r =>
      obtain ⟨cur, s1⟩ := r
      obtain ⟨h1, hS1, _⟩ := h.step hTV hnowrap hstep
      obtain ⟨ht1, hst1⟩ := epoch_step hstep
      simp only
      by_cases hct : cur = target
      · rw [if_pos hct]
        exact ⟨cur, s1, rfl, h1, ht1, hst1⟩
      · rw [if_neg hct]
        by_cases hstop : (s1.queue.empty || decide (s1.dist_vec.get cur ≥ s1.max_dist)) = true
        · rw [if_pos hstop]
          exact ⟨cur, s1, rfl, h1, ht1, hst1⟩
        · rw [if_neg hstop]
          have hne1 : s1.queue.entries ≠ [] := by
            intro hq
            apply hstop
            rw [Bool.or_eq_true]
            exact Or.inl ((MinIDQueue.empty_iff _).2 hq)
          have hc := h1.card_le
          obtain ⟨b1, s', hr, he, ht, hs⟩ := ih cur s1 h1 hne1 (by
            rw [hS1, List.length_append, List.length_singleton]
            omega)
          exact ⟨b1, s', hr, he, by rw [ht, ht1], fun hh => hs (hst1 hh)⟩

theorem Exact.run_until_target_found_any {c : Constants} {g : Graph} {bl src : Nat}
    (hTV : g.TargetsValid)
    (hnowrap : ∀ u d, Walk (g.arc_avoiding bl) src u d →
      (∀ d', Walk (g.arc_avoiding bl) src u d' → d ≤ d') → d < c.inf_weight →
      ∀ e ∈ g.get_out_arcs u, d + e.weight < wrap32)
    (target : Nat) (fuel : Nat) (b0 : Nat) (s : DijkstraService)
    (h : Exact c g bl src b0 [] s) (hfuel : g.size ≤ fuel) :
    ∃ b1 s', DijkstraService.run_until_target_found fuel s target = Outcome.ok s' ∧
      Exact c g bl src b1 [] s' ∧ s'.dist_vec.t = s.dist_vec.t ∧
      (StampsLe s → StampsLe s') := by
  unfold DijkstraService.run_until_target_found
  by_cases hcond : (s.is_settled target || s.queue.empty) = true
  · rw [if_pos hcond]
    exact ⟨b0, s, rfl, h, rfl, id⟩
  · rw [if_neg hcond]
    apply h.run_until_target_found_loop_any hTV hnowrap target fuel b0 s _ (by omega)
    intro hq
    apply hcond
    rw [Bool.or_eq_true]
    exact Or.inr ((MinIDQueue.empty_iff _).2 hq)

theorem Exact.set_max_dist {c : Constants} {g : Graph} {bl src best : Nat} {pending : List Edge}
    {s : DijkstraService} (h : Exact c g bl src best pending s) (m : Nat) :
    Exact c g bl src best pending (s.set_max_dist m) :=
  { sound :=
    { hg := h.sound.hg, hbl := h.sound.hbl, hlen := h.sound.hlen, hplen := h.sound.hplen
      hdef := h.sound.hdef, hval := h.sound.hval, hq := h.sound.hq }
    hqn := h.hqn, hqk := h.hqk, hS := h.hS, hSn := h.hSn, hcov := h.hcov, hrel := h.hrel
    hmono := h.hmono, hsrc := h.hsrc, hpend := h.hpend, hbest := h.hbest, hpar := h.hpar }

/-- `finish` after a search leaves a clean service, as long as the epoch does not wrap. -/
theorem Sound.finish {c : Constants} {g : Graph} {bl src : Nat} {s : DijkstraService}
    (h : Sound c g bl src s) (hst : StampsLe s) (ht : s.dist_vec.t + 1 < wrap32) :
    Clean c g (s.finish c) ∧ (s.finish c).dist_vec.t = s.dist_vec.t + 1 :=
  ⟨{ hg := h.hg
     ht := by
       simp only [DijkstraService.finish, TimestampVector.step_time]
       rw [Nat.mod_eq_of_lt ht]; omega
     hlen := h.hlen
     hplen := h.hplen
     hdef := h.hdef
     hstamp := by
       intro p hp
       simp only [DijkstraService.finish, TimestampVector.step_time] at hp ⊢
       rw [Nat.mod_eq_of_lt ht]
       have := hst p hp
       omega
     hq := rfl
     hS := rfl },
   by simp only [DijkstraService.finish, TimestampVector.step_time]; exact Nat.mod_eq_of_lt ht⟩

theorem stampsLe_set_source (c : Constants) (s : DijkstraService) (src : Nat)
    (h : StampsLe s) : StampsLe (s.set_source c src) ∧
      (s.set_source c src).dist_vec.t = s.dist_vec.t :=
  ⟨stampsLe_set _ _ _ h, rfl⟩

theorem Clean.stampsLe {c : Constants} {g : Graph} {s : DijkstraService} (h : Clean c g s) :
    StampsLe s := fun p hp => Nat.le_of_lt (h.hstamp p hp)

end DijkstraService

end PenAstar

namespace PenAstar

open DijkstraService

theorem nowrap_of_weightsBelow {c : Constants} {g : Graph} (hW : g.WeightsBelow c)
    (h2 : 2 * c.inf_weight ≤ wrap32) (bl src : Nat) :
    ∀ u d, Walk (g.arc_avoiding bl) src u d →
      (∀ d', Walk (g.arc_avoiding bl) src u d' → d ≤ d') → d < c.inf_weight →
      ∀ e ∈ g.get_out_arcs u, d + e.weight < wrap32 := by
  intro u d _ _ hd e he
  have := hW u e he
  omega

/-- The witness searches from one in-neighbour: the loop over the out-arcs. -/
theorem shortcuts_inner_spec {c : Constants} {g : Graph} (hTV : g.TargetsValid)
    (hW : g.WeightsBelow c) (h2 : 2 * c.inf_weight ≤ wrap32) (node : Nat) (r : Edge)
    (hr : r.weight < c.inf_weight) (fuel : Nat) (hfuel : g.size ≤ fuel)
    (os : List Edge) (hos : ∀ o ∈ os, o ∈ g.get_out_arcs node) :
    ∀ (b0 : Nat) (ds : DijkstraService) (acc : List (Nat × Edge)),
      Exact c g node r.target b0 [] ds → StampsLe ds →
      ∃ b1 ds' new, shortcuts_inner fuel r os ds acc = Outcome.ok (ds', acc ++ new) ∧
        Exact c g node r.target b1 [] ds' ∧ ds'.dist_vec.t = ds.dist_vec.t ∧ StampsLe ds' ∧
        (∀ sc ∈ new, ∃ o ∈ os, sc = (r.target, (⟨o.target, r.weight + o.weight⟩ : Edge)) ∧
          r.weight + o.weight < c.inf_weight) ∧
        (∀ o ∈ os, r.weight + o.weight < c.inf_weight →
          (r.target, (⟨o.target, r.weight + o.weight⟩ : Edge)) ∈ new ∨
          ∃ d, d ≤ r.weight + o.weight ∧ Walk (g.arc_avoiding node) r.target o.target d) := by
  induction os with
  | nil =>
    intro b0 ds acc h hst
    exact ⟨b0, ds, [], by simp [shortcuts_inner], h, rfl, hst, by simp, by simp⟩
  | cons o os ih =>
    intro b0 ds acc h hst
    have ho := hW node o (hos o (List.mem_cons_self _ _))
    have hsum : (r.weight + o.weight) % wrap32 = r.weight + o.weight :=
      Nat.mod_eq_of_lt (by omega)
    obtain ⟨b1, ds1, hrun, h1, ht1, hst1⟩ :=
      (h.set_max_dist ((r.weight + o.weight) % wrap32)).run_until_target_found_any hTV
        (nowrap_of_weightsBelow hW h2 node r.target) o.target fuel b0 _ hfuel
    have hst1' := hst1 hst
    have ht1' : ds1.dist_vec.t = ds.dist_vec.t := ht1
    have hih := ih (fun o' ho' => hos o' (List.mem_cons_of_mem _ ho'))
    unfold shortcuts_inner
    rw [hrun]
    simp only
    rw [hsum]
    by_cases hgt : ds1.get_dist o.target > r.weight + o.weight
    · rw [if_pos hgt]
      obtain ⟨b2, ds2, new, hr2, h2', ht2, hst2, hs2, hc2⟩ :=
        hih b1 ds1 (acc ++ [(r.target, ⟨o.target, r.weight + o.weight⟩)]) h1 hst1'
      have hlt : r.weight + o.weight < c.inf_weight := by
        have := h1.sound.get_le_inf o.target
        unfold get_dist at hgt
        omega
      refine ⟨b2, ds2, (r.target, ⟨o.target, r.weight + o.weight⟩) :: new, ?_, h2',
        by rw [ht2, ht1'], hst2, ?_, ?_⟩
      · rw [hr2]; simp
      · intro sc hsc
        simp only [List.mem_cons] at hsc
        rcases hsc with hsc | hsc
        · exact ⟨o, List.mem_cons_self _ _, hsc, hlt⟩
        · obtain ⟨o', ho', h3⟩ := hs2 sc hsc
          exact ⟨o', List.mem_cons_of_mem _ ho', h3⟩
      · intro o' ho' hlt'
        simp only [List.mem_cons] at ho'
        rcases ho' with ho' | ho'
        · left; rw [ho']; simp
        · rcases hc2 o' ho' hlt' with h3 | h3
          · left; exact List.mem_cons_of_mem _ h3
          · exact Or.inr h3
    · rw [if_neg hgt]
      obtain ⟨b2, ds2, new, hr2, h2', ht2, hst2, hs2, hc2⟩ := hih b1 ds1 acc h1 hst1'
      refine ⟨b2, ds2, new, hr2, h2', by rw [ht2, ht1'], hst2, ?_, ?_⟩
      · intro sc hsc
        obtain ⟨o', ho', h3⟩ := hs2 sc hsc
        exact ⟨o', List.mem_cons_of_mem _ ho', h3⟩
      · intro o' ho' hlt'
        simp only [List.mem_cons] at ho'
        rcases ho' with ho' | ho'
        · right
          subst ho'
          have hle : ds1.dist_vec.get o'.target ≤ r.weight + o'.weight := by
            unfold get_dist at hgt
            omega
          cases hh : ds1.dist_vec.has o'.target with
          | true => exact ⟨_, hle, (h1.sound.hval _ hh).2.2⟩
          | false =>
            rw [TimestampVector.get_of_not_has _ _ hh, h1.sound.hdef] at hle
            omega
        · exact hc2 o' ho' hlt'

theorem DijkstraService.Clean.set_blacklisted {c : Constants} {g : Graph} {s : DijkstraService}
    (h : Clean c g s) (n : Nat) : Clean c g (s.set_blacklisted n) :=
  { hg := h.hg, ht := h.ht, hlen := h.hlen, hplen := h.hplen, hdef := h.hdef
    hstamp := h.hstamp, hq := h.hq, hS := h.hS }

/-- The loop of `get_contraction_shortcuts` over the in-arcs. -/
theorem shortcuts_outer_spec {c : Constants} {g : Graph} (hc : g.Consistent)
    (hW : g.WeightsBelow c) (h2 : 2 * c.inf_weight ≤ wrap32) (hinf : 0 < c.inf_weight)
    (node : Nat) (fuel : Nat) (hfuel : g.size ≤ fuel)
    (rs : List Edge) (hrs : ∀ r ∈ rs, r ∈ g.get_rev_out_arcs node) :
    ∀ (ds : DijkstraService) (acc : List (Nat × Edge)),
      Clean c g ds → ds.dist_vec.t + rs.length < wrap32 →
      ∃ ds' new, shortcuts_outer c fuel node (g.get_out_arcs node) rs ds acc
          = Outcome.ok (ds', acc ++ new) ∧
        Clean c g ds' ∧ ds'.dist_vec.t = ds.dist_vec.t + rs.length ∧
        (∀ sc ∈ new, ∃ r ∈ rs, ∃ o ∈ g.get_out_arcs node,
          sc = (r.target, (⟨o.target, r.weight + o.weight⟩ : Edge)) ∧
            r.weight + o.weight < c.inf_weight) ∧
        (∀ r ∈ rs, ∀ o ∈ g.get_out_arcs node, r.weight + o.weight < c.inf_weight →
          (r.target, (⟨o.target, r.weight + o.weight⟩ : Edge)) ∈ new ∨
          ∃ d, d ≤ r.weight + o.weight ∧ Walk (g.arc_avoiding node) r.target o.target d) := by
  induction rs with
  | nil =>
    intro ds acc h _
    exact ⟨ds, [], by simp [shortcuts_outer], h, by simp, by simp, by simp⟩
  | cons r rs ih =>
    intro ds acc h ht
    have hTV := hc.targetsValid
    have hrm := hrs r (List.mem_cons_self _ _)
    have hrlt := (hc.rev_arc_lt g node r hrm).2
    have hrw : r.weight < c.inf_weight := by
      have h3 : (⟨node, r.weight⟩ : Edge) ∈ g.get_out_arcs r.target := (hc.2.1 _ _ _).2 hrm
      exact hW r.target ⟨node, r.weight⟩ h3
    have hex := Exact.init_clean node r.target (h.set_blacklisted node) rfl hrlt hinf
    have hst := (stampsLe_set_source c _ r.target (h.set_blacklisted node).stampsLe)
    obtain ⟨b1, ds1, new1, hr1, h1, ht1, hst1, hs1, hc1⟩ :=
      shortcuts_inner_spec hTV hW h2 node r hrw fuel hfuel (g.get_out_arcs node)
        (fun o ho => ho) 0 _ acc hex hst.1
    simp only [List.length_cons] at ht
    have ht1' : ds1.dist_vec.t = ds.dist_vec.t := by rw [ht1]; rfl
    obtain ⟨hcl, htf⟩ := h1.sound.finish hst1 (by rw [ht1']; omega)
    obtain ⟨ds2, new2, hr2, hcl2, ht2, hs2, hc2⟩ :=
      ih (fun r' hr' => hrs r' (List.mem_cons_of_mem _ hr')) (ds1.finish c) (acc ++ new1) hcl
        (by rw [htf, ht1']; omega)
    unfold shortcuts_outer
    rw [hr1]
    simp only
    refine ⟨ds2, new1 ++ new2, ?_, hcl2, ?_, ?_, ?_⟩
    · rw [hr2]; simp
    · rw [ht2, htf, ht1']; simp only [List.length_cons]; omega
    · intro sc hsc
      rw [List.mem_append] at hsc
      rcases hsc with hsc | hsc
      · obtain ⟨o, ho, h3⟩ := hs1 sc hsc
        exact ⟨r, List.mem_cons_self _ _, o, ho, h3⟩
      · obtain ⟨r', hr', h3⟩ := hs2 sc hsc
        exact ⟨r', List.mem_cons_of_mem _ hr', h3⟩
    · intro r' hr' o ho hlt
      simp only [List.mem_cons] at hr'
      rcases hr' with hr' | hr'
      · subst hr'
        rcases hc1 o ho hlt with h3 | h3
        · left; exact List.mem_append_left _ h3
        · exact Or.inr h3
      · rcases hc2 r' hr' o ho hlt with h3 | h3
        · left; exact List.mem_append_right _ h3
        · exact Or.inr h3

/-- `get_contraction_shortcuts` terminates with a clean service and a correct shortcut
list; it advances the epoch once per in-arc. -/
theorem get_contraction_shortcuts_spec {c : Constants} {g : Graph} (hc : g.Consistent)
    (hW : g.WeightsBelow c) (h2 : 2 * c.inf_weight ≤ wrap32) (hinf : 0 < c.inf_weight)
    (node : Nat) (fuel : Nat) (hfuel : g.size ≤ fuel) (ds : DijkstraService)
    (hcl : Clean c g { ds with g := g })
    (ht : ds.dist_vec.t + (g.get_rev_out_arcs node).length < wrap32) :
    ∃ ds' scs, get_contraction_shortcuts c fuel g node ds = Outcome.ok (ds', scs) ∧
      Clean c g ds' ∧ ds'.dist_vec.t = ds.dist_vec.t + (g.get_rev_out_arcs node).length ∧
      ShortcutsOK c g node scs := by
  obtain ⟨ds', new, hr, hcl', ht', hs, hcmp⟩ :=
    shortcuts_outer_spec hc hW h2 hinf node fuel hfuel (g.get_rev_out_arcs node)
      (fun r hr => hr) { ds with g := g } [] hcl ht
  refine ⟨ds', new, ?_, hcl', ht', hs, hcmp⟩
  unfold get_contraction_shortcuts
  rw [hr]
  simp

end PenAstar

namespace PenAstar

namespace Graph

theorem DominatedBy.refl (g : Graph) : g.DominatedBy g :=
  fun _ e he => ⟨e, he, rfl, Nat.le_refl _⟩

theorem DominatedBy.trans {g1 g2 g3 : Graph} (h12 : g1.DominatedBy g2) (h23 : g2.DominatedBy g3) :
    g1.DominatedBy g3 := by
  intro u e he
  obtain ⟨e2, he2, ht2, hw2⟩ := h12 u e he
  obtain ⟨e3, he3, ht3, hw3⟩ := h23 u e2 he2
  exact ⟨e3, he3, by rw [ht3, ht2], Nat.le_trans hw3 hw2⟩

theorem merged_weight_le (old : Option Nat) (w : Nat) : merged_weight old w ≤ w := by
  cases old with
  | none => exact Nat.le_refl _
  | some p => exact Nat.min_le_left _ _

theorem mem_iff_first_weight {g : Graph} (hc : g.Consistent) (a : Nat) (e : Edge) :
    e ∈ g.get_out_arcs a ↔ first_weight (g.get_out_arcs a) e.target = some e.weight := by
  have := hc.mem_out_iff g a e.target e.weight
  cases e
  exact this

/-- What `add_edge` does to the arcs of a consistent graph. -/
theorem add_edge_props (g : Graph) (hc : g.Consistent) (u v w : Nat)
    (hu : u < g.size) (hv : v < g.size) :
    (g.add_edge u ⟨v, w⟩).Consistent ∧ (g.add_edge u ⟨v, w⟩).size = g.size ∧
    g.DominatedBy (g.add_edge u ⟨v, w⟩) ∧
    (∃ e' ∈ (g.add_edge u ⟨v, w⟩).get_out_arcs u, e'.target = v ∧ e'.weight ≤ w) ∧
    (∀ a e, e ∈ (g.add_edge u ⟨v, w⟩).get_out_arcs a →
      e ∈ g.get_out_arcs a ∨ (a = u ∧ e = ⟨v, w⟩)) := by
  obtain ⟨hc', hw⟩ := add_edge_spec g hc u ⟨v, w⟩ hu hv
  simp only at hw
  refine ⟨hc', size_add_edge _ _ _, ?_, ?_, ?_⟩
  · intro a e he
    rw [mem_iff_first_weight hc] at he
    by_cases hab : a = u ∧ e.target = v
    · refine ⟨⟨v, merged_weight (first_weight (g.get_out_arcs u) v) w⟩, ?_, hab.2.symm, ?_⟩
      · rw [mem_iff_first_weight hc', hw, hab.1]
        simp
      · simp only
        rw [hab.1, hab.2] at he
        rw [he]
        exact Nat.min_le_right _ _
    · refine ⟨e, ?_, rfl, Nat.le_refl _⟩
      rw [mem_iff_first_weight hc', hw, if_neg hab]
      exact he
  · refine ⟨⟨v, merged_weight (first_weight (g.get_out_arcs u) v) w⟩, ?_, rfl,
      merged_weight_le _ _⟩
    rw [mem_iff_first_weight hc', hw]
    simp
  · intro a e he
    rw [mem_iff_first_weight hc', hw] at he
    by_cases hab : a = u ∧ e.target = v
    · rw [if_pos hab] at he
      simp only [Option.some.injEq] at he
      cases hold : first_weight (g.get_out_arcs u) v with
      | none =>
        right
        rw [hold] at he
        simp only [merged_weight] at he
        refine ⟨hab.1, ?_⟩
        cases e
        simp only [Edge.mk.injEq]
        exact ⟨hab.2, he.symm⟩
      | some p =>
        rw [hold] at he
        simp only [merged_weight] at he
        by_cases hwp : w ≤ p
        · right
          rw [Nat.min_eq_left hwp] at he
          refine ⟨hab.1, ?_⟩
          cases e
          simp only [Edge.mk.injEq]
          exact ⟨hab.2, he.symm⟩
        · left
          rw [Nat.min_eq_right (by omega)] at he
          rw [mem_iff_first_weight hc, hab.1, hab.2, hold, he]
    · left
      rw [if_neg hab] at he
      rw [mem_iff_first_weight hc]
      exact he

end Graph

open Graph

/-- Effect of one `split_add` on consistent output graphs. -/
theorem split_add_props (ranking : List Nat) (F B : Graph) (hF : F.Consistent)
    (hB : B.Consistent) (n : Nat) (hFn : F.size = n) (hBn : B.size = n)
    (u : Nat) (e : Edge) (hu : u < n) (hv : e.target < n) :
    (split_add ranking (F, B) u e).1.Consistent ∧ (split_add ranking (F, B) u e).1.size = n ∧
    (split_add ranking (F, B) u e).2.Consistent ∧ (split_add ranking (F, B) u e).2.size = n ∧
    F.DominatedBy (split_add ranking (F, B) u e).1 ∧
    B.DominatedBy (split_add ranking (F, B) u e).2 ∧
    (if rank ranking u < rank ranking e.target then
      ∃ e' ∈ (split_add ranking (F, B) u e).1.get_out_arcs u,
        e'.target = e.target ∧ e'.weight ≤ e.weight
    else
      ∃ e' ∈ (split_add ranking (F, B) u e).2.get_out_arcs e.target,
        e'.target = u ∧ e'.weight ≤ e.weight) ∧
    (∀ a x, x ∈ (split_add ranking (F, B) u e).1.get_out_arcs a →
      x ∈ F.get_out_arcs a ∨ (a = u ∧ x = e ∧ rank ranking u < rank ranking e.target)) ∧
    (∀ a x, x ∈ (split_add ranking (F, B) u e).2.get_out_arcs a →
      x ∈ B.get_out_arcs a ∨
        (a = e.target ∧ x = ⟨u, e.weight⟩ ∧ ¬ rank ranking u < rank ranking e.target)) := by
  unfold split_add
  by_cases hr : rank ranking u < rank ranking e.target
  · have hr' : ranking.getD u 0 < ranking.getD e.target 0 := hr
    rw [if_pos hr', if_pos hr]
    obtain ⟨h1, h2, h3, h4, h5⟩ := add_edge_props F hF u e.target e.weight
      (by rw [hFn]; exact hu) (by rw [hFn]; exact hv)
    have hee : (⟨e.target, e.weight⟩ : Edge) = e := by cases e; rfl
    rw [hee] at h1 h2 h3 h4 h5
    refine ⟨h1, by rw [h2, hFn], hB, hBn, h3, DominatedBy.refl B, h4, ?_, ?_⟩
    · intro a x hx
      rcases h5 a x hx with h6 | h6
      · exact Or.inl h6
      · exact Or.inr ⟨h6.1, h6.2, hr⟩
    · intro a x hx
      exact Or.inl hx
  · have hr' : ¬ ranking.getD u 0 < ranking.getD e.target 0 := hr
    rw [if_neg hr', if_neg hr]
    obtain ⟨h1, h2, h3, h4, h5⟩ := add_edge_props B hB e.target u e.weight
      (by rw [hBn]; exact hv) (by rw [hBn]; exact hu)
    refine ⟨hF, hFn, h1, by rw [h2, hBn], DominatedBy.refl F, h3, h4, ?_, ?_⟩
    · intro a x hx
      exact Or.inl hx
    · intro a x hx
      rcases h5 a x hx with h6 | h6
      · exact Or.inl h6
      · exact Or.inr ⟨h6.1, h6.2, hr⟩

end PenAstar

namespace PenAstar

open Graph DijkstraService

theorem Walk.append {A : Nat → Edge → Prop} {s u v d1 d2 : Nat} (h1 : Walk A s u d1)
    (h2 : Walk A u v d2) : Walk A s v (d1 + d2) := by
  induction h2 with
  | nil => exact h1
  | snoc e _ ha ih =>
    rw [← Nat.add_assoc]
    exact Walk.snoc e ih ha

theorem Walk.single {A : Nat → Edge → Prop} {u : Nat} (e : Edge) (h : A u e) :
    Walk A u e.target e.weight := by
  have := Walk.snoc e (Walk.nil : Walk A u u 0) h
  simpa using this

theorem Walk.cons {A : Nat → Edge → Prop} {u v d : Nat} (e : Edge) (h : A u e)
    (h2 : Walk A e.target v d) : Walk A u v (e.weight + d) :=
  Walk.append (Walk.single e h) h2

theorem DijkstraService.Clean.change_graph {c : Constants} {g g' : Graph}
    {s : DijkstraService} (h : Clean c g s) (hsz : g'.size = g.size) :
    Clean c g' { s with g := g' } :=
  { hg := rfl, ht := h.ht, hlen := by rw [hsz]; exact h.hlen
    hplen := by rw [hsz]; exact h.hplen, hdef := h.hdef, hstamp := h.hstamp
    hq := h.hq, hS := h.hS }

theorem rev_out_length_le {g : Graph} (hc : g.Consistent) (node : Nat) :
    (g.get_rev_out_arcs node).length ≤ g.size := by
  have hnd := hc.2.2.2 node
  have hsub : (g.get_rev_out_arcs node).map Edge.target ⊆ List.range g.size := by
    intro x hx
    obtain ⟨e, he, hex⟩ := List.mem_map.1 hx
    rw [List.mem_range, ← hex]
    exact (hc.rev_arc_lt g node e he).2
  have := (hnd.subperm hsub).length_le
  simpa using this

/-- The loop of `contract_node_and_split` that adds the shortcuts. -/
theorem add_shortcuts_split_spec (ranking : List Nat) (n : Nat) (scs : List (Nat × Edge)) :
    ∀ (st : ContractState), st.g.Consistent → st.g.size = n →
      st.forward_graph.Consistent → st.forward_graph.size = n →
      st.backward_graph.Consistent → st.backward_graph.size = n →
      (∀ sc ∈ scs, sc.1 < n ∧ sc.2.target < n) →
      (add_shortcuts_split ranking st scs).g.Consistent ∧
      (add_shortcuts_split ranking st scs).g.size = n ∧
      (add_shortcuts_split ranking st scs).forward_graph.Consistent ∧
      (add_shortcuts_split ranking st scs).forward_graph.size = n ∧
      (add_shortcuts_split ranking st scs).backward_graph.Consistent ∧
      (add_shortcuts_split ranking st scs).backward_graph.size = n ∧
      (add_shortcuts_split ranking st scs).ds = st.ds ∧
      st.g.DominatedBy (add_shortcuts_split ranking st scs).g ∧
      st.forward_graph.DominatedBy (add_shortcuts_split ranking st scs).forward_graph ∧
      st.backward_graph.DominatedBy (add_shortcuts_split ranking st scs).backward_graph ∧
      (∀ sc ∈ scs, ∃ e' ∈ (add_shortcuts_split ranking st scs).g.get_out_arcs sc.1,
        e'.target = sc.2.target ∧ e'.weight ≤ sc.2.weight) ∧
      (∀ sc ∈ scs,
        if rank ranking sc.1 < rank ranking sc.2.target then
          ∃ e' ∈ (add_shortcuts_split ranking st scs).forward_graph.get_out_arcs sc.1,
            e'.target = sc.2.target ∧ e'.weight ≤ sc.2.weight
        else
          ∃ e' ∈ (add_shortcuts_split ranking st scs).backward_graph.get_out_arcs sc.2.target,
            e'.target = sc.1 ∧ e'.weight ≤ sc.2.weight) ∧
      (∀ a e, e ∈ (add_shortcuts_split ranking st scs).g.get_out_arcs a →
        e ∈ st.g.get_out_arcs a ∨ (a, e) ∈ scs) ∧
      (∀ a e, e ∈ (add_shortcuts_split ranking st scs).forward_graph.get_out_arcs a →
        e ∈ st.forward_graph.get_out_arcs a ∨
          ((a, e) ∈ scs ∧ rank ranking a < rank ranking e.target)) ∧
      (∀ w x, x ∈ (add_shortcuts_split ranking st scs).backward_graph.get_out_arcs w →
        x ∈ st.backward_graph.get_out_arcs w ∨
          ∃ sc ∈ scs, w = sc.2.target ∧ x = ⟨sc.1, sc.2.weight⟩ ∧
            ¬ rank ranking sc.1 < rank ranking sc.2.target) := by
  induction scs with
  | nil =>
    intro st hg hgn hF hFn hB hBn _
    simp only [add_shortcuts_split]
    exact ⟨hg, hgn, hF, hFn, hB, hBn, trivial, DominatedBy.refl _, DominatedBy.refl _,
      DominatedBy.refl _, by simp, by simp, fun a e h => Or.inl h, fun a e h => Or.inl h,
      fun a e h => Or.inl h⟩
  | cons sc scs ih =>
    intro st hg hgn hF hFn hB hBn hsc
    obtain ⟨hsc1, hsc2⟩ := hsc sc (List.mem_cons_self _ _)
    have hee : (⟨sc.2.target, sc.2.weight⟩ : Edge) = sc.2 := by cases sc.2; rfl
    obtain ⟨a1, a2, a3, a4, a5⟩ := add_edge_props st.g hg sc.1 sc.2.target sc.2.weight
      (by rw [hgn]; exact hsc1) (by rw [hgn]; exact hsc2)
    rw [hee] at a1 a2 a3 a4 a5
    obtain ⟨b1, b2, b3, b4, b5, b6, b7, b8, b9⟩ := split_add_props ranking st.forward_graph
      st.backward_graph hF hB n hFn hBn sc.1 sc.2 hsc1 hsc2
    simp only [add_shortcuts_split]
    obtain ⟨c1, c2, c3, c4, c5, c6, c7, c8, c9, c10, c11, c12, c13, c14, c15⟩ :=
      ih { st with
          g := st.g.add_edge sc.1 sc.2
          forward_graph := (split_add ranking (st.forward_graph, st.backward_graph) sc.1 sc.2).1
          backward_graph := (split_add ranking (st.forward_graph, st.backward_graph) sc.1 sc.2).2 }
        a1 (by rw [a2, hgn]) b1 b2 b3 b4 (fun s hs => hsc s (List.mem_cons_of_mem _ hs))
    refine ⟨c1, c2, c3, c4, c5, c6, c7, a3.trans c8, b5.trans c9, b6.trans c10,
      ?_, ?_, ?_, ?_, ?_⟩
    · intro s hs
      simp only [List.mem_cons] at hs
      rcases hs with hs | hs
      · subst hs
        obtain ⟨e1, he1, ht1, hw1⟩ := a4
        obtain ⟨e2, he2, ht2, hw2⟩ := c8 _ _ he1
        exact ⟨e2, he2, by rw [ht2, ht1], Nat.le_trans hw2 hw1⟩
      · exact c11 s hs
    · intro s hs
      simp only [List.mem_cons] at hs
      rcases hs with hs | hs
      · subst hs
        by_cases hr : rank ranking s.1 < rank ranking s.2.target
        · rw [if_pos hr] at b7 ⊢
          obtain ⟨e1, he1, ht1, hw1⟩ := b7
          obtain ⟨e2, he2, ht2, hw2⟩ := c9 _ _ he1
          exact ⟨e2, he2, by rw [ht2, ht1], Nat.le_trans hw2 hw1⟩
        · rw [if_neg hr] at b7 ⊢
          obtain ⟨e1, he1, ht1, hw1⟩ := b7
          obtain ⟨e2, he2, ht2, hw2⟩ := c10 _ _ he1
          exact ⟨e2, he2, by rw [ht2, ht1], Nat.le_trans hw2 hw1⟩
      · exact c12 s hs
    · intro a e he
      rcases c13 a e he with h1 | h1
      · rcases a5 a e h1 with h2 | h2
        · exact Or.inl h2
        · right
          rw [h2.1, h2.2]
          exact List.mem_cons_self _ _
      · exact Or.inr (List.mem_cons_of_mem _ h1)
    · intro a e he
      rcases c14 a e he with h1 | h1
      · rcases b8 a e h1 with h2 | h2
        · exact Or.inl h2
        · right
          rw [h2.1, h2.2.1]
          exact ⟨List.mem_cons_self _ _, h2.2.2⟩
      · exact Or.inr ⟨List.mem_cons_of_mem _ h1.1, h1.2⟩
    · intro w x hx
      rcases c15 w x hx with h1 | h1
      · rcases b9 w x h1 with h2 | h2
        · exact Or.inl h2
        · exact Or.inr ⟨sc, List.mem_cons_self _ _, h2.1, h2.2.1, h2.2.2⟩
      · obtain ⟨s, hs, h3⟩ := h1
        exact Or.inr ⟨s, List.mem_cons_of_mem _ hs, h3⟩

end PenAstar

namespace PenAstar

open Graph DijkstraService

theorem mem_disconnect_node {g : Graph} (hc : g.Consistent) (node a : Nat) (e : Edge) :
    e ∈ (g.disconnect_node node).get_out_arcs a ↔
      e ∈ g.get_out_arcs a ∧ a ≠ node ∧ e.target ≠ node := by
  obtain ⟨hc', _, hw⟩ := disconnect_node_spec g hc node
  rw [mem_iff_first_weight hc', mem_iff_first_weight hc, hw]
  by_cases h : a = node ∨ e.target = node
  · rw [if_pos h]
    constructor
    · intro h1; simp at h1
    · rintro ⟨_, h2, h3⟩
      rcases h with h | h
      · exact absurd h h2
      · exact absurd h h3
  · rw [if_neg h]
    push_neg at h
    constructor
    · intro h1; exact ⟨h1, h.1, h.2⟩
    · intro h1; exact h1.1

/-- One call of `contract_node_and_split` terminates, keeps the loop invariant and
relates the graphs before and after as `ContractStep` says, when the epoch counter of the
witness-search service can take one step for every in-arc of the node. -/
theorem contract_node_and_split_tight {c : Constants} {n : Nat} {G0 : Graph} {ranking : List Nat}
    (h2 : 2 * c.inf_weight ≤ wrap32) (hinf : 0 < c.inf_weight) (st : ContractState)
    (hinv : ContractInv c n G0 ranking st) (node : Nat) (fuel : Nat) (hfuel : n ≤ fuel)
    (ht : st.ds.dist_vec.t + (st.g.get_rev_out_arcs node).length < wrap32) :
    ∃ st1, contract_node_and_split c fuel ranking st node = Outcome.ok st1 ∧
      ContractInv c n G0 ranking st1 ∧ ContractStep c n node st st1 := by
  have hrl := rev_out_length_le hinv.hg node
  rw [hinv.hgn] at hrl
  obtain ⟨ds1, scs, hrun, hcl1, ht1, hok⟩ :=
    get_contraction_shortcuts_spec hinv.hg hinv.hgW h2 hinf node fuel
      (by rw [hinv.hgn]; exact hfuel) st.ds hinv.hds ht
  -- description of the shortcuts
  have hsc : ∀ sc ∈ scs, ∃ r o : Edge, (⟨node, r.weight⟩ : Edge) ∈ st.g.get_out_arcs r.target ∧
      o ∈ st.g.get_out_arcs node ∧
      sc = (r.target, (⟨o.target, r.weight + o.weight⟩ : Edge)) ∧
      r.weight + o.weight < c.inf_weight := by
    intro sc hs
    obtain ⟨r, hr, o, ho, h3, h4⟩ := hok.1 sc hs
    exact ⟨r, o, (hinv.hg.2.1 _ _ _).2 hr, ho, h3, h4⟩
  have hend : ∀ sc ∈ scs, sc.1 < n ∧ sc.2.target < n := by
    intro sc hs
    obtain ⟨r, o, hr, ho, h3, _⟩ := hsc sc hs
    rw [h3]
    have := (hinv.hg.arc_lt _ _ _ hr).1
    have := (hinv.hg.arc_lt _ _ _ ho).2
    rw [hinv.hgn] at *
    exact ⟨by assumption, by assumption⟩
  have hwalk : ∀ sc ∈ scs, Walk G0.arc sc.1 sc.2.target sc.2.weight ∧
      sc.2.weight < c.inf_weight := by
    intro sc hs
    obtain ⟨r, o, hr, ho, h3, h4⟩ := hsc sc hs
    rw [h3]
    exact ⟨Walk.append (hinv.hgs r.target ⟨node, r.weight⟩ hr) (hinv.hgs node o ho), h4⟩
  obtain ⟨c1, c2, c3, c4, c5, c6, c7, c8, c9, c10, c11, c12, c13, c14, c15⟩ :=
    add_shortcuts_split_spec ranking n scs { st with ds := ds1 } hinv.hg hinv.hgn hinv.hF
      hinv.hFn hinv.hB hinv.hBn hend
  obtain ⟨d1, d2, _⟩ := disconnect_node_spec _ c1 node
  have hmem := fun a e => mem_disconnect_node c1 node a e
  refine ⟨{ (add_shortcuts_split ranking { st with ds := ds1 } scs) with
      g := (add_shortcuts_split ranking { st with ds := ds1 } scs).g.disconnect_node node },
    ?_, ?_, ?_⟩
  · unfold contract_node_and_split
    rw [hrun]
  · exact
    { hg := d1
      hgn := by simp only; rw [d2, c2]
      hF := c3
      hFn := c4
      hB := c5
      hBn := c6
      hgW := by
        intro a e he
        rcases c13 a e ((hmem a e).1 he).1 with h3 | h3
        · exact hinv.hgW a e h3
        · exact (hwalk _ h3).2
      hFW := by
        intro a e he
        rcases c14 a e he with h3 | h3
        · exact hinv.hFW a e h3
        · exact (hwalk _ h3.1).2
      hBW := by
        intro a e he
        rcases c15 a e he with h3 | ⟨sc, hs, _, h4, _⟩
        · exact hinv.hBW a e h3
        · rw [h4]; exact (hwalk _ hs).2
      hdom := by
        intro a e he
        rcases c13 a e ((hmem a e).1 he).1 with h3 | h3
        · have h4 := hinv.hdom a e h3
          by_cases hr : rank ranking a < rank ranking e.target
          · rw [if_pos hr] at h4 ⊢
            obtain ⟨e1, he1, ht1, hw1⟩ := h4
            obtain ⟨e2, he2, ht2, hw2⟩ := c9 _ _ he1
            exact ⟨e2, he2, by rw [ht2, ht1], Nat.le_trans hw2 hw1⟩
          · rw [if_neg hr] at h4 ⊢
            obtain ⟨e1, he1, ht1, hw1⟩ := h4
            obtain ⟨e2, he2, ht2, hw2⟩ := c10 _ _ he1
            exact ⟨e2, he2, by rw [ht2, ht1], Nat.le_trans hw2 hw1⟩
        · exact c12 _ h3
      hgs := by
        intro a e he
        rcases c13 a e ((hmem a e).1 he).1 with h3 | h3
        · exact hinv.hgs a e h3
        · exact (hwalk _ h3).1
      hFs := by
        intro a e he
        rcases c14 a e he with h3 | h3
        · exact hinv.hFs a e h3
        · exact (hwalk _ h3.1).1
      hBs := by
        intro w x hx
        rcases c15 w x hx with h3 | ⟨sc, hs, h4, h5, _⟩
        · exact hinv.hBs w x h3
        · rw [h4, h5]; exact (hwalk _ hs).1
      hFr := by
        intro a e he
        rcases c14 a e he with h3 | h3
        · exact hinv.hFr a e h3
        · exact h3.2
      hBr := by
        intro w x hx
        rcases c15 w x hx with h3 | ⟨sc, hs, h4, h5, h6⟩
        · exact hinv.hBr w x h3
        · rw [h4, h5]; simp only; omega
      hds := by
        simp only
        rw [c7]
        exact hcl1.change_graph (by rw [d2, c2, hinv.hgn]) }
  · exact
    { hF := c9
      hB := c10
      hkeep := by
        intro a e he ha het
        obtain ⟨e1, he1, ht1, hw1⟩ := c8 a e he
        exact ⟨e1, (hmem a e1).2 ⟨he1, ha, by rw [ht1]; exact het⟩, ht1, hw1⟩
      hcut := by
        intro r hr o ho hrn hon hlt
        rcases hok.2 r hr o ho hlt with h3 | h3
        · left
          obtain ⟨e1, he1, ht1, hw1⟩ := c11 _ h3
          exact ⟨e1, (hmem _ e1).2 ⟨he1, hrn, by rw [ht1]; exact hon⟩, ht1, hw1⟩
        · exact Or.inr h3
      hiso := by
        intro a e he
        exact ((hmem a e).1 he).2
      hpres := by
        intro x hx a e he
        rcases c13 a e ((hmem a e).1 he).1 with h3 | h3
        · exact hx a e h3
        · obtain ⟨r, o, hr, ho, h4, _⟩ := hsc _ h3
          simp only [Prod.mk.injEq] at h4
          rw [h4.1, h4.2]
          exact ⟨(hx _ _ hr).1, (hx _ _ ho).2⟩
      ht := by
        simp only
        rw [c7, ht1]
        omega }

/-- One call of `contract_node_and_split` terminates, keeps the loop invariant and
relates the graphs before and after as `ContractStep` says. -/
theorem contract_node_and_split_spec {c : Constants} {n : Nat} {G0 : Graph} {ranking : List Nat}
    (h2 : 2 * c.inf_weight ≤ wrap32) (hinf : 0 < c.inf_weight) (st : ContractState)
    (hinv : ContractInv c n G0 ranking st) (node : Nat) (fuel : Nat) (hfuel : n ≤ fuel)
    (ht : st.ds.dist_vec.t + n < wrap32) :
    ∃ st1, contract_node_and_split c fuel ranking st node = Outcome.ok st1 ∧
      ContractInv c n G0 ranking st1 ∧ ContractStep c n node st st1 := by
  have hrl := rev_out_length_le hinv.hg node
  rw [hinv.hgn] at hrl
  exact contract_node_and_split_tight h2 hinf st hinv node fuel hfuel (by omega)

end PenAstar

namespace PenAstar

open Graph DijkstraService

/-- A walk that avoids the contracted node survives the contraction, not heavier. -/
theorem ContractStep.avoid_transfer {c : Constants} {n node : Nat} {st st1 : ContractState}
    (hs : ContractStep c n node st st1) {u z d : Nat} (hu : u ≠ node)
    (hw : Walk (st.g.arc_avoiding node) u z d) :
    z ≠ node ∧ ∃ d', d' ≤ d ∧ Walk st1.g.arc u z d' := by
  induction hw with
  | nil => exact ⟨hu, 0, Nat.le_refl _, Walk.nil⟩
  | snoc e _ ha ih =>
    obtain ⟨hz, d', hd', hw'⟩ := ih
    obtain ⟨e1, he1, ht1, hw1⟩ := hs.hkeep _ e ha.1 hz ha.2
    refine ⟨ha.2, d' + e1.weight, by omega, ?_⟩
    rw [← ht1]
    exact Walk.snoc e1 hw' he1

/-- A walk of the working graph from a node other than the contracted one, lighter than
`inf_weight`: if it ends elsewhere it survives the contraction; if it ends in the contracted
node, its part up to some arc into that node survives. -/
theorem ContractStep.transfer {c : Constants} {n node : Nat} {G0 : Graph} {ranking : List Nat}
    {st st1 : ContractState} (hinv : ContractInv c n G0 ranking st)
    (hs : ContractStep c n node st st1) {s z D : Nat} (hsn : s ≠ node)
    (hw : Walk st.g.arc s z D) (hD : D < c.inf_weight) :
    (z ≠ node → ∃ D', D' ≤ D ∧ Walk st1.g.arc s z D') ∧
    (z = node → ∃ u a D', u ≠ node ∧ (⟨node, a⟩ : Edge) ∈ st.g.get_out_arcs u ∧
      Walk st1.g.arc s u D' ∧ D' + a ≤ D) := by
  induction hw with
  | nil =>
    exact ⟨fun _ => ⟨0, Nat.le_refl _, Walk.nil⟩, fun h => absurd h hsn⟩
  | @snoc z D1 e hw1 ha ih =>
    obtain ⟨ih1, ih2⟩ := ih (by omega)
    have hee : (⟨e.target, e.weight⟩ : Edge) = e := by cases e; rfl
    by_cases hz : z = node
    · obtain ⟨u, a, D', hu, hua, hwu, hle⟩ := ih2 hz
      constructor
      · intro het
        have hr : (⟨u, a⟩ : Edge) ∈ st.g.get_rev_out_arcs node := (hinv.hg.2.1 _ _ _).1 hua
        have ho : e ∈ st.g.get_out_arcs node := by rw [← hz]; exact ha
        rcases hs.hcut ⟨u, a⟩ hr e ho hu het (by simp only; omega) with
          ⟨e1, he1, ht1, hw1'⟩ | ⟨d, hd, hwit⟩
        · simp only at he1 hw1'
          refine ⟨D' + e1.weight, by omega, ?_⟩
          rw [← ht1]
          exact Walk.snoc e1 hwu he1
        · simp only at hd hwit
          obtain ⟨_, d', hd', hw'⟩ := hs.avoid_transfer hu hwit
          exact ⟨D' + d', by omega, Walk.append hwu hw'⟩
      · intro _
        exact ⟨u, a, D', hu, hua, hwu, by omega⟩
    · obtain ⟨D', hD', hw'⟩ := ih1 hz
      constructor
      · intro het
        obtain ⟨e1, he1, ht1, hw1'⟩ := hs.hkeep _ e ha hz het
        refine ⟨D' + e1.weight, by omega, ?_⟩
        rw [← ht1]
        exact Walk.snoc e1 hw' he1
      · intro het
        refine ⟨z, e.weight, D', hz, ?_, hw', by omega⟩
        rw [← het, hee]
        exact ha

/-- A walk of the working graph from the contracted node to another node leaves that node
a last time; the rest survives the contraction. -/
theorem ContractStep.transfer_from {c : Constants} {n node : Nat} {st st1 : ContractState}
    (hs : ContractStep c n node st st1) {z D : Nat} (hw : Walk st.g.arc node z D) :
    z = node ∨ (z ≠ node ∧ ∃ x b D', x ≠ node ∧ (⟨x, b⟩ : Edge) ∈ st.g.get_out_arcs node ∧
      Walk st1.g.arc x z D' ∧ b + D' ≤ D) := by
  induction hw with
  | nil => exact Or.inl rfl
  | @snoc z D1 e hw1 ha ih =>
    have hee : (⟨e.target, e.weight⟩ : Edge) = e := by cases e; rfl
    by_cases het : e.target = node
    · exact Or.inl het
    · right
      refine ⟨het, ?_⟩
      rcases ih with hz | ⟨hz, x, b, D', hx, hxb, hwx, hle⟩
      · refine ⟨e.target, e.weight, 0, het, ?_, Walk.nil, by omega⟩
        rw [hee, ← hz]
        exact ha
      · obtain ⟨e1, he1, ht1, hw1'⟩ := hs.hkeep _ e ha hz het
        refine ⟨x, b, D' + e1.weight, hx, hxb, ?_, by omega⟩
        rw [← ht1]
        exact Walk.snoc e1 hwx he1

/-- The loop of `contract_graph` terminates, and the final forward and backward graphs
have the up-down property for the working graph at every stage. -/
theorem contract_loop_updown {c : Constants} {n : Nat} {G0 : Graph} {ranking : List Nat}
    (h2 : 2 * c.inf_weight ≤ wrap32) (hinf : 0 < c.inf_weight) (fuel : Nat) (hfuel : n ≤ fuel)
    (rest : List Nat) :
    ∀ st, ContractInv c n G0 ranking st → (∀ x ∈ rest, x < n) →
      (∀ x, x < n → x ∉ rest → st.g.Isolated x) →
      rest.Pairwise (fun a b => rank ranking a < rank ranking b) →
      (st.ds.dist_vec.t + rest.length * n < wrap32 ∨
        contract_loop_fits c fuel ranking rest st = true) →
      ∃ st', contract_loop c fuel ranking rest st = Outcome.ok st' ∧
        ContractInv c n G0 ranking st' ∧
        st.forward_graph.DominatedBy st'.forward_graph ∧
        st.backward_graph.DominatedBy st'.backward_graph ∧
        UpDown c st.g st'.forward_graph st'.backward_graph := by
  induction rest with
  | nil =>
    intro st hinv _ hiso _ _
    refine ⟨st, rfl, hinv, DominatedBy.refl _, DominatedBy.refl _, ?_⟩
    intro s t D hw _
    cases hw with
    | nil => exact ⟨s, 0, 0, Walk.nil, Walk.nil, Nat.le_refl _⟩
    | @snoc u d e hw1 ha =>
      exfalso
      have hu := (hinv.hg.arc_lt _ u e ha).1
      rw [hinv.hgn] at hu
      exact (hiso u hu (by simp) u e ha).1 rfl
  | cons v rest ih =>
    intro st hinv hlt hiso hpw hbud
    have htight : st.ds.dist_vec.t + (st.g.get_rev_out_arcs v).length < wrap32 := by
      rcases hbud with hbud | hfit
      · simp only [List.length_cons] at hbud
        have : (rest.length + 1) * n = rest.length * n + n := by ring
        have hrl := rev_out_length_le hinv.hg v
        rw [hinv.hgn] at hrl
        omega
      · simp only [contract_loop_fits, Bool.and_eq_true, decide_eq_true_eq] at hfit
        exact hfit.1
    obtain ⟨st1, hrun1, hinv1, hstep⟩ :=
      contract_node_and_split_tight h2 hinf st hinv v fuel hfuel htight
    have hbud1 : st1.ds.dist_vec.t + rest.length * n < wrap32 ∨
        contract_loop_fits c fuel ranking rest st1 = true := by
      rcases hbud with hbud | hfit
      · left
        simp only [List.length_cons] at hbud
        have : (rest.length + 1) * n = rest.length * n + n := by ring
        have := hstep.ht
        omega
      · right
        simp only [contract_loop_fits, Bool.and_eq_true, decide_eq_true_eq] at hfit
        have h := hfit.2
        rw [hrun1] at h
        exact h
    have hpw' := List.pairwise_cons.1 hpw
    obtain ⟨st', hrun', hinv', hF', hB', hud⟩ := ih st1 hinv1
      (fun x hx => hlt x (List.mem_cons_of_mem _ hx))
      (by
        intro x hx hxr
        by_cases hxv : x = v
        · rw [hxv]; exact hstep.hiso
        · exact hstep.hpres x (hiso x hx (by
            simp only [List.mem_cons, not_or]
            exact ⟨hxv, hxr⟩)))
      hpw'.2 hbud1
    have hFd := hstep.hF.trans hF'
    have hBd := hstep.hB.trans hB'
    -- a node with an arc in the working graph, other than `v`, is contracted later
    have hlater : ∀ x, x ≠ v → ¬ st.g.Isolated x → x < n → rank ranking v < rank ranking x := by
      intro x hxv hni hxn
      apply hpw'.1
      by_contra hxr
      exact hni (hiso x hxn (by
        simp only [List.mem_cons, not_or]
        exact ⟨hxv, hxr⟩))
    refine ⟨st', ?_, hinv', hFd, hBd, ?_⟩
    · simp only [contract_loop]
      rw [hrun1]
      exact hrun'
    · intro s t D hw hD
      by_cases hs : s = v
      · rw [hs] at hw
        rw [hs]
        rcases hstep.transfer_from hw with ht | ⟨ht, x, b, D', hx, hxb, hwx, hle⟩
        · rw [ht]
          exact ⟨v, 0, 0, Walk.nil, Walk.nil, Nat.zero_le _⟩
        · obtain ⟨m, a1, b1, hwa, hwb, hab⟩ := hud x t D' hwx (by omega)
          have hxn := (hinv.hg.arc_lt _ v _ hxb).2
          simp only at hxn
          rw [hinv.hgn] at hxn
          have hrk := hlater x hx (fun hI => (hI v _ hxb).2 rfl) hxn
          have hd := hinv.hdom v _ hxb
          simp only at hd
          rw [if_pos hrk] at hd
          obtain ⟨e1, he1, ht1, hw1⟩ := hd
          obtain ⟨e2, he2, ht2, hw2⟩ := hFd _ _ he1
          refine ⟨m, e2.weight + a1, b1, ?_, hwb, by omega⟩
          apply Walk.cons e2 he2
          rw [ht2, ht1]
          exact hwa
      · obtain ⟨tr1, tr2⟩ := hstep.transfer hinv hs hw hD
        by_cases ht : t = v
        · obtain ⟨u, a, D', hu, hua, hwu, hle⟩ := tr2 ht
          obtain ⟨m, a1, b1, hwa, hwb, hab⟩ := hud s u D' hwu (by omega)
          have hun := (hinv.hg.arc_lt _ u _ hua).1
          rw [hinv.hgn] at hun
          have hrk := hlater u hu (fun hI => (hI u _ hua).1 rfl) hun
          have hd := hinv.hdom u _ hua
          simp only at hd
          rw [if_neg (by omega)] at hd
          obtain ⟨e1, he1, ht1, hw1⟩ := hd
          obtain ⟨e2, he2, ht2, hw2⟩ := hBd _ _ he1
          refine ⟨m, a1, e2.weight + b1, hwa, ?_, by omega⟩
          rw [ht]
          apply Walk.cons e2 he2
          rw [ht2, ht1]
          exact hwb
        · obtain ⟨D', hD', hw'⟩ := tr1 ht
          obtain ⟨m, a1, b1, hwa, hwb, hab⟩ := hud s t D' hw' (by omega)
          exact ⟨m, a1, b1, hwa, hwb, by omega⟩

end PenAstar

namespace PenAstar

open Graph DijkstraService

/-! ### `order_to_ranking` -/

theorem ranking_fold_spec (order : List Nat) (hnd : order.Nodup)
    (hlt : ∀ x ∈ order, x < order.length) (is : List Nat) :
    ∀ (ret : List Nat), ret.length = order.length → is.Nodup →
      (∀ i ∈ is, i < order.length) →
      (is.foldl (fun r i => r.set (order.getD i 0) i) ret).length = order.length ∧
      (∀ j ∈ is, (is.foldl (fun r i => r.set (order.getD i 0) i) ret).getD (order.getD j 0) 0 = j) ∧
      (∀ p, (∀ j ∈ is, order.getD j 0 ≠ p) →
        (is.foldl (fun r i => r.set (order.getD i 0) i) ret).getD p 0 = ret.getD p 0) := by
  induction is with
  | nil =>
    intro ret hret _ _
    exact ⟨hret, by simp, fun p _ => rfl⟩
  | cons i is ih =>
    intro ret hret hisnd his
    simp only [List.foldl_cons]
    have hi := his i (List.mem_cons_self _ _)
    have hoi : order.getD i 0 < order.length := by
      apply hlt
      rw [List.getD_eq_getElem _ _ hi]
      exact List.getElem_mem hi
    obtain ⟨h1, h2, h3⟩ := ih (ret.set (order.getD i 0) i) (by simp [hret])
      (List.nodup_cons.1 hisnd).2 (fun j hj => his j (List.mem_cons_of_mem _ hj))
    refine ⟨h1, ?_, ?_⟩
    · intro j hj
      simp only [List.mem_cons] at hj
      rcases hj with hj | hj
      · subst hj
        rw [h3]
        · rw [Graph.getD_set_list, if_pos ⟨rfl, by rw [hret]; exact hoi⟩]
        · intro j' hj' heq
          have hj'lt := his j' (List.mem_cons_of_mem _ hj')
          rw [List.getD_eq_getElem _ _ hj'lt, List.getD_eq_getElem _ _ hi] at heq
          have := (hnd.getElem_inj_iff).1 heq
          subst this
          exact (List.nodup_cons.1 hisnd).1 hj'
      · exact h2 j hj
    · intro p hp
      rw [h3 p (fun j hj => hp j (List.mem_cons_of_mem _ hj))]
      rw [Graph.getD_set_list, if_neg]
      intro h4
      exact hp i (List.mem_cons_self _ _) h4.1

/-- `ranking[order[i]] = i` for an order without repetition whose entries are indices. -/
theorem rank_order_to_ranking (order : List Nat) (hnd : order.Nodup)
    (hlt : ∀ x ∈ order, x < order.length) (i : Nat) (hi : i < order.length) :
    rank (order_to_ranking order) (order.getD i 0) = i := by
  unfold rank order_to_ranking
  exact (ranking_fold_spec order hnd hlt (List.range order.length) _ (by simp)
    (List.nodup_range _) (fun j hj => List.mem_range.1 hj)).2.1 i (List.mem_range.2 hi)

theorem pairwise_rank_order (order : List Nat) (hnd : order.Nodup)
    (hlt : ∀ x ∈ order, x < order.length) :
    order.Pairwise (fun a b => rank (order_to_ranking order) a < rank (order_to_ranking order) b) := by
  rw [List.pairwise_iff_getElem]
  intro i j hi hj hij
  have h1 := rank_order_to_ranking order hnd hlt i hi
  have h2 := rank_order_to_ranking order hnd hlt j hj
  rw [List.getD_eq_getElem _ _ hi] at h1
  rw [List.getD_eq_getElem _ _ hj] at h2
  rw [h1, h2]
  exact hij

/-! ### `split_graph` -/

theorem add_shortcuts_split_fb (ranking : List Nat) (scs : List (Nat × Edge)) :
    ∀ st : ContractState,
      ((add_shortcuts_split ranking st scs).forward_graph,
        (add_shortcuts_split ranking st scs).backward_graph) =
      scs.foldl (fun fb sc => split_add ranking fb sc.1 sc.2)
        (st.forward_graph, st.backward_graph) := by
  induction scs with
  | nil => intro st; rfl
  | cons sc scs ih =>
    intro st
    simp only [add_shortcuts_split, List.foldl_cons]
    rw [ih]

/-- All arcs of `g` as pairs (source, arc), node by node. -/
theorem split_graph_eq_foldl (ch : Graph) (ranking : List Nat) :
    split_graph ch ranking =
      ((List.range ch.size).flatMap (fun a => (ch.get_out_arcs a).map (fun e => (a, e)))).foldl
        (fun fb sc => split_add ranking fb sc.1 sc.2) (Graph.new ch.size, Graph.new ch.size) := by
  unfold split_graph
  generalize (Graph.new ch.size, Graph.new ch.size) = init
  induction (List.range ch.size) generalizing init with
  | nil => rfl
  | cons a as ih =>
    simp only [List.foldl_cons, List.flatMap_cons, List.foldl_append]
    rw [ih, List.foldl_map]

end PenAstar

namespace PenAstar

open Graph DijkstraService

theorem not_mem_new (n a : Nat) (e : Edge) : e ∉ (Graph.new n).get_out_arcs a := by
  have h1 : (Graph.new n).get_out_arcs a = [] := by
    simp only [get_out_arcs, Graph.new, List.getD_eq_getElem?_getD, List.getElem?_replicate]
    split <;> rfl
  rw [h1]
  simp

theorem mem_all_arcs (g : Graph) (hc : g.Consistent) (a : Nat) (e : Edge) :
    (a, e) ∈ (List.range g.size).flatMap (fun a => (g.get_out_arcs a).map (fun e => (a, e))) ↔
      e ∈ g.get_out_arcs a := by
  simp only [List.mem_flatMap, List.mem_range, List.mem_map, Prod.mk.injEq]
  constructor
  · rintro ⟨a', _, e', he', ha, he⟩
    rw [← ha, ← he]
    exact he'
  · intro he
    exact ⟨a, (hc.arc_lt g a e he).1, e, he, rfl, rfl⟩

/-- `split_graph` on a consistent graph. -/
theorem split_graph_spec (g : Graph) (hc : g.Consistent) (ranking : List Nat) :
    (split_graph g ranking).1.Consistent ∧ (split_graph g ranking).1.size = g.size ∧
    (split_graph g ranking).2.Consistent ∧ (split_graph g ranking).2.size = g.size ∧
    SplitDominated ranking g (split_graph g ranking).1 (split_graph g ranking).2 ∧
    (∀ a e, e ∈ (split_graph g ranking).1.get_out_arcs a →
      e ∈ g.get_out_arcs a ∧ rank ranking a < rank ranking e.target) ∧
    (∀ w x, x ∈ (split_graph g ranking).2.get_out_arcs w →
      (⟨w, x.weight⟩ : Edge) ∈ g.get_out_arcs x.target ∧
        ¬ rank ranking x.target < rank ranking w) := by
  have hfb := add_shortcuts_split_fb ranking
    ((List.range g.size).flatMap (fun a => (g.get_out_arcs a).map (fun e => (a, e))))
    ⟨Graph.new g.size, Graph.new g.size, Graph.new g.size, DijkstraService.new stdConstants g⟩
  rw [← split_graph_eq_foldl] at hfb
  obtain ⟨_, _, c3, c4, c5, c6, _, _, _, _, _, c12, _, c14, c15⟩ :=
    add_shortcuts_split_spec ranking g.size
      ((List.range g.size).flatMap (fun a => (g.get_out_arcs a).map (fun e => (a, e))))
      ⟨Graph.new g.size, Graph.new g.size, Graph.new g.size, DijkstraService.new stdConstants g⟩
      (consistent_new _) (size_new _) (consistent_new _) (size_new _) (consistent_new _)
      (size_new _)
      (by
        intro sc hs
        have := (mem_all_arcs g hc sc.1 sc.2).1 hs
        exact hc.arc_lt g _ _ this)
  have h1 : (split_graph g ranking).1 = (add_shortcuts_split ranking
      ⟨Graph.new g.size, Graph.new g.size, Graph.new g.size, DijkstraService.new stdConstants g⟩
      ((List.range g.size).flatMap (fun a => (g.get_out_arcs a).map (fun e => (a, e))))).forward_graph := by
    rw [← hfb]
  have h2 : (split_graph g ranking).2 = (add_shortcuts_split ranking
      ⟨Graph.new g.size, Graph.new g.size, Graph.new g.size, DijkstraService.new stdConstants g⟩
      ((List.range g.size).flatMap (fun a => (g.get_out_arcs a).map (fun e => (a, e))))).backward_graph := by
    rw [← hfb]
  rw [h1, h2]
  refine ⟨c3, c4, c5, c6, ?_, ?_, ?_⟩
  · intro a e he
    exact c12 (a, e) ((mem_all_arcs g hc a e).2 he)
  · intro a e he
    rcases c14 a e he with h3 | h3
    · exact absurd h3 (not_mem_new _ _ _)
    · exact ⟨(mem_all_arcs g hc a e).1 h3.1, h3.2⟩
  · intro w x hx
    rcases c15 w x hx with h3 | ⟨sc, hs, h4, h5, h6⟩
    · exact absurd h3 (not_mem_new _ _ _)
    · have h7 := (mem_all_arcs g hc sc.1 sc.2).1 hs
      rw [h4, h5]
      simp only
      have hee : (⟨sc.2.target, sc.2.weight⟩ : Edge) = sc.2 := by cases sc.2; rfl
      rw [hee]
      exact ⟨h7, h6⟩

/-- The loop invariant holds when `contract_graph` enters its loop. -/
theorem contractInv_init (c : Constants) (G0 : Graph) (hc : G0.Consistent)
    (hW : G0.WeightsBelow c) (ranking : List Nat) :
    ContractInv c G0.size G0 ranking
      ⟨G0, (split_graph G0 ranking).1, (split_graph G0 ranking).2, DijkstraService.new c G0⟩ := by
  obtain ⟨s1, s2, s3, s4, s5, s6, s7⟩ := split_graph_spec G0 hc ranking
  exact
  { hg := hc
    hgn := rfl
    hF := s1
    hFn := s2
    hB := s3
    hBn := s4
    hgW := hW
    hFW := fun a e he => hW a e (s6 a e he).1
    hBW := fun w x hx => hW x.target (⟨w, x.weight⟩ : Edge) (s7 w x hx).1
    hdom := s5
    hgs := fun a e he => Walk.single e he
    hFs := fun a e he => Walk.single e (s6 a e he).1
    hBs := fun w x hx => Walk.single (⟨w, x.weight⟩ : Edge) (s7 w x hx).1
    hFr := fun a e he => (s6 a e he).2
    hBr := fun w x hx => Nat.le_of_not_lt (s7 w x hx).2
    hds := clean_new c G0 }

/-- `contract_graph` on a consistent graph with weights below `inf_weight`, for an order
that is a permutation of the nodes, terminates and returns a contraction hierarchy when the
epoch counter of the witness searches is not exhausted (which is certain for fewer than
`2^16` nodes). -/
theorem contract_graph_spec_gen (c : Constants) (G0 : Graph) (hc : G0.Consistent)
    (hW : G0.WeightsBelow c) (h2 : 2 * c.inf_weight ≤ wrap32) (hinf : 0 < c.inf_weight)
    (order : List Nat) (hperm : order.Perm (List.range G0.size)) (fuel : Nat)
    (hbud : G0.size * G0.size + 1 < wrap32 ∨ contract_graph_fits c fuel G0 order = true)
    (hfuel : G0.size ≤ fuel) :
    ∃ ch, contract_graph c fuel G0 order = Outcome.ok ch ∧
      ch.ranking = order_to_ranking order ∧ CHValid c G0 ch := by
  have hnd : order.Nodup := hperm.nodup_iff.2 (List.nodup_range _)
  have hlen : order.length = G0.size := by rw [hperm.length_eq, List.length_range]
  have hmem : ∀ x, x ∈ order ↔ x < G0.size := by
    intro x
    rw [hperm.mem_iff, List.mem_range]
  have hlt : ∀ x ∈ order, x < order.length := by
    intro x hx
    rw [hlen]
    exact (hmem x).1 hx
  obtain ⟨st', hrun, hinv', _, _, hud⟩ :=
    contract_loop_updown h2 hinf fuel hfuel order _
      (contractInv_init c G0 hc hW (order_to_ranking order))
      (fun x hx => (hmem x).1 hx)
      (fun x hx hxo => absurd ((hmem x).2 hx) hxo)
      (pairwise_rank_order order hnd hlt)
      (by
        rcases hbud with hbud | hfit
        · left
          have h1 : (DijkstraService.new c G0).dist_vec.t = 1 := by
            simp [DijkstraService.new, TimestampVector.new, TimestampVector.step_time, wrap32]
          simp only
          rw [h1, hlen]
          omega
        · right
          exact hfit)
  refine ⟨⟨st'.forward_graph, st'.backward_graph, order_to_ranking order⟩, ?_, rfl, ?_⟩
  · unfold contract_graph
    simp only
    rw [hrun]
  · exact
    { hF := hinv'.hF
      hFn := hinv'.hFn
      hB := hinv'.hB
      hBn := hinv'.hBn
      hFW := hinv'.hFW
      hBW := hinv'.hBW
      hFs := hinv'.hFs
      hBs := hinv'.hBs
      hFr := hinv'.hFr
      hrk := by
        intro x hx
        have hxo := (hmem x).2 hx
        obtain ⟨i, hi, hix⟩ := List.getElem_of_mem hxo
        have := rank_order_to_ranking order hnd hlt i hi
        rw [List.getD_eq_getElem _ _ hi, hix] at this
        simp only
        rw [this, ← hlen]
        exact hi
      hud := hud }

/-- `contract_graph` on a consistent graph with weights below `inf_weight`, for an order
that is a permutation of the nodes, terminates and returns a contraction hierarchy. -/
theorem contract_graph_spec (c : Constants) (G0 : Graph) (hc : G0.Consistent)
    (hW : G0.WeightsBelow c) (h2 : 2 * c.inf_weight ≤ wrap32) (hinf : 0 < c.inf_weight)
    (order : List Nat) (hperm : order.Perm (List.range G0.size))
    (hbud : G0.size * G0.size + 1 < wrap32) (fuel : Nat) (hfuel : G0.size ≤ fuel) :
    ∃ ch, contract_graph c fuel G0 order = Outcome.ok ch ∧
      ch.ranking = order_to_ranking order ∧ CHValid c G0 ch :=
  contract_graph_spec_gen c G0 hc hW h2 hinf order hperm fuel (Or.inl hbud) hfuel

end PenAstar

namespace PenAstar

open DijkstraService

theorem DijkstraService.Clean.finish_clean {c : Constants} {g : Graph} {s : DijkstraService}
    (h : Clean c g s) (ht : s.dist_vec.t + 1 < wrap32) : Clean c g (s.finish c) :=
  { hg := h.hg
    ht := by
      simp only [DijkstraService.finish, TimestampVector.step_time]
      rw [Nat.mod_eq_of_lt ht]; omega
    hlen := h.hlen
    hplen := h.hplen
    hdef := h.hdef
    hstamp := by
      intro p hp
      simp only [DijkstraService.finish, TimestampVector.step_time] at hp ⊢
      rw [Nat.mod_eq_of_lt ht]
      have := h.hstamp p hp
      omega
    hq := rfl
    hS := rfl }

/-- The search of `set_target`: `finish`, `set_source(target)`, `run_until_done` on a
fresh service for `B` terminates, and the distances it leaves are the least walk weights
of `B` from `target`, capped at `inf_weight`. -/
theorem backward_search_spec (c : Constants) (B : Graph) (hTV : B.TargetsValid)
    (hW : B.WeightsBelow c) (h2 : 2 * c.inf_weight ≤ wrap32) (hinf : 0 < c.inf_weight)
    (hid : B.size ≤ c.invalid_id) (target : Nat) (ht : target < B.size)
    (fuel : Nat) (hfuel : B.size < fuel) :
    ∃ bs, (((DijkstraService.new c B).finish c).set_source c target).run_until_done fuel
        = Outcome.ok bs ∧
      (∀ x, bs.get_dist x ≤ c.inf_weight) ∧
      (∀ x b, Walk B.arc target x b → b < c.inf_weight → bs.get_dist x ≤ b) ∧
      (∀ x, bs.get_dist x < c.inf_weight → Walk B.arc target x (bs.get_dist x)) := by
  have ht1 : (DijkstraService.new c B).dist_vec.t = 1 := by
    simp [DijkstraService.new, TimestampVector.new, TimestampVector.step_time, wrap32]
  have hcl : Clean c B ((DijkstraService.new c B).finish c) :=
    (clean_new c B).finish_clean (by rw [ht1]; simp [wrap32])
  have hex := Exact.init_clean c.invalid_id target hcl rfl ht hinf
  obtain ⟨b1, bs, hrun, hex1, hqe⟩ := Exact.run_until_done hTV
    (nowrap_of_weightsBelow hW h2 c.invalid_id target) fuel 0 _ hex (by
      have : (((DijkstraService.new c B).finish c).set_source c target).search_space = [] := rfl
      rw [this]; simpa using hfuel)
  refine ⟨bs, hrun, ?_, ?_, ?_⟩
  · intro x
    exact hex1.sound.get_le_inf x
  · intro x b hw hb
    rcases hex1.walk_cases ((walk_avoiding_iff hTV hid _ _ _).2 hw) with
      ⟨_, hle⟩ | ⟨p, hp, _⟩ | hge
    · exact hle
    · rw [hqe] at hp
      simp at hp
    · omega
  · intro x hx
    cases hh : bs.dist_vec.has x with
    | true => exact (walk_avoiding_iff hTV hid _ _ _).1 (hex1.sound.hval x hh).2.2
    | false =>
      unfold get_dist at hx
      rw [TimestampVector.get_of_not_has _ _ hh, hex1.sound.hdef] at hx
      omega

end PenAstar

namespace PenAstar

open CHPotentialService

theorem Walk.cases_head {A : Nat → Edge → Prop} {x m a : Nat} (h : Walk A x m a) :
    (m = x ∧ a = 0) ∨ ∃ e a', A x e ∧ Walk A e.target m a' ∧ a = e.weight + a' := by
  induction h with
  | nil => exact Or.inl ⟨rfl, rfl⟩
  | @snoc u d e' hw ha ih =>
    right
    rcases ih with ⟨hu, hd⟩ | ⟨e, a', hxe, hw', hd⟩
    · subst hu
      subst hd
      exact ⟨e', 0, ha, Walk.nil, by omega⟩
    · exact ⟨e, a' + e'.weight, hxe, Walk.snoc e' hw' ha, by omega⟩

/-- A walk from `x` can be replaced by one that is not heavier and does not begin with a
loop at `x`. -/
theorem Walk.drop_head_loops {A : Nat → Edge → Prop} {x m a : Nat} (h : Walk A x m a) :
    ∃ a', a' ≤ a ∧ ((m = x ∧ a' = 0) ∨
      ∃ e b, A x e ∧ e.target ≠ x ∧ Walk A e.target m b ∧ a' = e.weight + b) := by
  induction h with
  | nil => exact ⟨0, Nat.le_refl _, Or.inl ⟨rfl, rfl⟩⟩
  | @snoc u d e' hw ha ih =>
    obtain ⟨a', hle, hcase⟩ := ih
    rcases hcase with ⟨hu, ha0⟩ | ⟨e, b, hxe, hne, hw', hab⟩
    · subst hu
      by_cases hl : e'.target = u
      · exact ⟨0, Nat.zero_le _, Or.inl ⟨hl, rfl⟩⟩
      · exact ⟨e'.weight, by omega, Or.inr ⟨e', 0, ha, hl, Walk.nil, by omega⟩⟩
    · exact ⟨a' + e'.weight, by omega,
        Or.inr ⟨e, b + e'.weight, hxe, hne, Walk.snoc e' hw' ha, by omega⟩⟩

/-- The loop of `get_potential` over the up-arcs of `node`, given that the recursive calls
on nodes of higher rank behave and that a call on `node` itself returns the memo entry. -/
theorem get_potential_arcs_spec {c : Constants} {n : Nat} {F : Graph} {ranking : List Nat}
    {dB : Nat → Nat} (ctx : PotCtx c n F ranking dB)
    (rec : CHPotentialService → Nat → Outcome (Nat × CHPotentialService))
    (node : Nat) (hnode : node < n)
    (IH : ∀ s y, y < n → rank ranking node < rank ranking y → PotInv n F dB s →
      (∀ z, rank ranking y ≤ rank ranking z → s.potentials.has z = true →
        PotGood F dB z (s.potentials.get z)) →
      ∃ p s', rec s y = Outcome.ok (p, s') ∧ PotPost n F ranking dB s y p s')
    (IH0 : ∀ s, s.potentials.has node = true →
      rec s node = Outcome.ok (s.potentials.get node, s))
    (es : List Edge) (hes : ∀ e ∈ es, e ∈ F.get_out_arcs node) :
    ∀ s, PotInv n F dB s → s.potentials.has node = true →
      s.potentials.get node ≤ dB node →
      (∃ m a, Walk F.arc node m a ∧ s.potentials.get node = a + dB m) →
      (∀ z, rank ranking node ≤ rank ranking z → z ≠ node → s.potentials.has z = true →
        PotGood F dB z (s.potentials.get z)) →
      ∃ s', get_potential_arcs rec node es s = Outcome.ok s' ∧
        PotInv n F dB s' ∧ s'.potentials.has node = true ∧
        s'.potentials.get node ≤ s.potentials.get node ∧
        (∃ m a, Walk F.arc node m a ∧ s'.potentials.get node = a + dB m) ∧
        (∀ z, rank ranking node ≤ rank ranking z → z ≠ node → s'.potentials.has z = true →
          PotGood F dB z (s'.potentials.get z)) ∧
        (∀ z, rank ranking z < rank ranking node →
          s'.potentials.has z = s.potentials.has z ∧
            s'.potentials.get z = s.potentials.get z) ∧
        (∀ e ∈ es, e.target ≠ node → ∀ m a, Walk F.arc e.target m a →
          s'.potentials.get node ≤ e.weight + a + dB m) := by
  induction es with
  | nil =>
    intro s hinv hhas hle hatt hgood
    exact ⟨s, rfl, hinv, hhas, Nat.le_refl _, hatt, hgood, fun z _ => ⟨rfl, rfl⟩, by simp⟩
  | cons e es ih =>
    intro s hinv hhas hle hatt hgood
    have heF : e ∈ F.get_out_arcs node := hes e (List.mem_cons_self _ _)
    have hw := ctx.hFW node e heF
    rcases ctx.hFr node e heF with hrank | hself
    swap
    · have hnl : node < s.potentials.vec.length := by rw [hinv.hlen]; exact hnode
      have hpl : s.potentials.get node ≤ c.inf_weight := Nat.le_trans hle (ctx.hdB node)
      have hmod0 : (s.potentials.get node + e.weight) % wrap32 =
          s.potentials.get node + e.weight := by
        apply Nat.mod_eq_of_lt
        have := ctx.h2
        omega
      have hval : min (s.potentials.get node) ((s.potentials.get node + e.weight) % wrap32) =
          s.potentials.get node := by
        rw [hmod0]
        exact Nat.min_eq_left (Nat.le_add_right _ _)
      obtain ⟨s', hrun, hinv', hhas', hle', hatt', hgood', hframe', hcov'⟩ :=
        ih (fun e' he' => hes e' (List.mem_cons_of_mem _ he'))
          { s with potentials :=
              s.potentials.set node (min (s.potentials.get node)
                ((s.potentials.get node + e.weight) % wrap32)) }
          { hF := hinv.hF
            hlen := by
              show (s.potentials.set node _).vec.length = n
              rw [TimestampVector.length_set]; exact hinv.hlen
            hdB := hinv.hdB }
          (by
            show (s.potentials.set node _).has node = true
            exact TimestampVector.has_set_eq _ _ _ hnl)
          (by
            show (s.potentials.set node _).get node ≤ dB node
            rw [TimestampVector.get_set_eq _ _ _ hnl, hval]
            exact hle)
          (by
            show ∃ m a, Walk F.arc node m a ∧ (s.potentials.set node _).get node = a + dB m
            rw [TimestampVector.get_set_eq _ _ _ hnl, hval]
            exact hatt)
          (by
            intro z hz hzn hzh
            have hzh1 : s.potentials.has z = true := by
              rw [← hzh]
              exact (TimestampVector.has_set_ne _ _ _ _ (fun h => hzn h.symm)).symm
            show PotGood F dB z ((s.potentials.set node _).get z)
            rw [TimestampVector.get_set_ne _ _ _ _ (fun h => hzn h.symm)]
            exact hgood z hz hzn hzh1)
      have hget2 : (s.potentials.set node
          (min (s.potentials.get node) ((s.potentials.get node + e.weight) % wrap32))).get node =
          s.potentials.get node := by
        rw [TimestampVector.get_set_eq _ _ _ hnl, hval]
      refine ⟨s', ?_, hinv', hhas', ?_, hatt', hgood', ?_, ?_⟩
      · unfold get_potential_arcs
        rw [hself, IH0 s hhas]
        exact hrun
      · rw [← hget2]
        exact hle'
      · intro z hz
        have hzn : z ≠ node := by
          intro h
          rw [h] at hz
          omega
        obtain ⟨h1, h2⟩ := hframe' z hz
        refine ⟨?_, ?_⟩
        · rw [h1]
          exact TimestampVector.has_set_ne _ _ _ _ (fun h => hzn h.symm)
        · rw [h2]
          exact TimestampVector.get_set_ne _ _ _ _ (fun h => hzn h.symm)
      · intro e' he' hne' m a hwk
        simp only [List.mem_cons] at he'
        rcases he' with he' | he'
        · rw [he'] at hne'
          exact absurd hself hne'
        · exact hcov' e' he' hne' m a hwk
    obtain ⟨p, s1, hrec, hinv1, hgp, hgood1, hframe1⟩ :=
      IH s e.target (ctx.hFt node e heF) hrank hinv (by
        intro z hz hzh
        apply hgood z (by omega) _ hzh
        intro hzn
        rw [hzn] at hz
        omega)
    have hp : p ≤ c.inf_weight := by
      have := hgp.1 e.target 0 Walk.nil
      have := ctx.hdB e.target
      omega
    have hmod : (p + e.weight) % wrap32 = p + e.weight := by
      apply Nat.mod_eq_of_lt
      have := ctx.h2
      omega
    have hn1 : node < s1.potentials.vec.length := by rw [hinv1.hlen]; exact hnode
    have hf1 := hframe1 node hrank
    obtain ⟨s', hrun, hinv', hhas', hle', hatt', hgood', hframe', hcov'⟩ :=
      ih (fun e' he' => hes e' (List.mem_cons_of_mem _ he'))
        { s1 with potentials :=
            s1.potentials.set node (min (s1.potentials.get node) ((p + e.weight) % wrap32)) }
        { hF := hinv1.hF
          hlen := by
            show (s1.potentials.set node _).vec.length = n
            rw [TimestampVector.length_set]; exact hinv1.hlen
          hdB := hinv1.hdB }
        (by
          show (s1.potentials.set node _).has node = true
          exact TimestampVector.has_set_eq _ _ _ hn1)
        (by
          show (s1.potentials.set node _).get node ≤ dB node
          rw [TimestampVector.get_set_eq _ _ _ hn1, hf1.2]
          exact Nat.le_trans (Nat.min_le_left _ _) hle)
        (by
          show ∃ m a, Walk F.arc node m a ∧ (s1.potentials.set node _).get node = a + dB m
          rw [TimestampVector.get_set_eq _ _ _ hn1, hf1.2, hmod]
          by_cases hcmp : s.potentials.get node ≤ p + e.weight
          · rw [Nat.min_eq_left hcmp]
            exact hatt
          · rw [Nat.min_eq_right (by omega)]
            obtain ⟨m, a, hwk, hpa⟩ := hgp.2
            exact ⟨m, e.weight + a, Walk.cons e heF hwk, by omega⟩)
        (by
          intro z hz hzn hzh
          have hzh1 : s1.potentials.has z = true := by
            rw [← hzh]
            exact (TimestampVector.has_set_ne _ _ _ _ (fun h => hzn h.symm)).symm
          have hget : (s1.potentials.set node
              (min (s1.potentials.get node) ((p + e.weight) % wrap32))).get z =
              s1.potentials.get z :=
            TimestampVector.get_set_ne _ _ _ _ (fun h => hzn h.symm)
          show PotGood F dB z ((s1.potentials.set node _).get z)
          rw [hget]
          by_cases hzr : rank ranking e.target ≤ rank ranking z
          · exact hgood1 z hzr hzh1
          · have hfz := hframe1 z (by omega)
            rw [hfz.2]
            apply hgood z hz hzn
            rw [← hfz.1]
            exact hzh1)
    have hget2 : (s1.potentials.set node
        (min (s1.potentials.get node) ((p + e.weight) % wrap32))).get node =
        min (s.potentials.get node) (p + e.weight) := by
      rw [TimestampVector.get_set_eq _ _ _ hn1, hf1.2, hmod]
    have hle2 : s'.potentials.get node ≤ min (s.potentials.get node) (p + e.weight) := by
      rw [← hget2]
      exact hle'
    refine ⟨s', ?_, hinv', hhas', ?_, hatt', hgood', ?_, ?_⟩
    · unfold get_potential_arcs
      rw [hrec]
      exact hrun
    · exact Nat.le_trans hle2 (Nat.min_le_left _ _)
    · intro z hz
      have hzn : z ≠ node := by
        intro h
        rw [h] at hz
        omega
      obtain ⟨h1, h2⟩ := hframe' z hz
      have h3 := hframe1 z (by omega)
      refine ⟨?_, ?_⟩
      · rw [h1, ← h3.1]
        exact TimestampVector.has_set_ne _ _ _ _ (fun h => hzn h.symm)
      · rw [h2, ← h3.2]
        exact TimestampVector.get_set_ne _ _ _ _ (fun h => hzn h.symm)
    · intro e' he' hne' m a hwk
      simp only [List.mem_cons] at he'
      rcases he' with he' | he'
      · rw [he'] at hwk ⊢
        have := hgp.1 m a hwk
        have := Nat.min_le_right (s.potentials.get node) (p + e.weight)
        omega
      · exact hcov' e' he' hne' m a hwk

/-- `get_potential` terminates on a node of rank `r` with more than `n - r` units of fuel
and returns the least up-walk-plus-backward-distance value. -/
theorem get_potential_spec {c : Constants} {n : Nat} {F : Graph} {ranking : List Nat}
    {dB : Nat → Nat} (ctx : PotCtx c n F ranking dB) :
    ∀ fuel s x, x < n → n < rank ranking x + fuel → PotInv n F dB s →
      (∀ z, rank ranking x ≤ rank ranking z → s.potentials.has z = true →
        PotGood F dB z (s.potentials.get z)) →
      ∃ p s', get_potential fuel s x = Outcome.ok (p, s') ∧ PotPost n F ranking dB s x p s' := by
  intro fuel
  induction fuel with
  | zero =>
    intro s x hx hfuel
    have := ctx.hrk x hx
    omega
  | succ fuel ih =>
    intro s x hx hfuel hinv hgood
    unfold get_potential
    by_cases hhas : s.potentials.has x = true
    · rw [if_neg (by simp [hhas])]
      exact ⟨_, s, rfl, hinv, hgood x (Nat.le_refl _) hhas, hgood, fun z _ => ⟨rfl, rfl⟩⟩
    · rw [if_pos hhas]
      have hxl : x < s.potentials.vec.length := by rw [hinv.hlen]; exact hx
      obtain ⟨s', hrun, hinv', hhas', hle', hatt', hgood', hframe', hcov'⟩ :=
        get_potential_arcs_spec ctx (get_potential fuel) x hx
          (fun s1 y hy hr hi hg => ih s1 y hy (by omega) hi hg)
          (by
            intro s1 h1
            have hrk := ctx.hrk x hx
            obtain ⟨f, hf⟩ : ∃ f, fuel = f + 1 := ⟨fuel - 1, by omega⟩
            rw [hf]
            unfold get_potential
            rw [if_neg (by simp [h1])])
          (s.forward_graph.get_out_arcs x) (by rw [hinv.hF]; exact fun e he => he)
          { s with potentials := s.potentials.set x (s.backward_search.get_dist x) }
          { hF := hinv.hF
            hlen := by
              show (s.potentials.set x _).vec.length = n
              rw [TimestampVector.length_set]; exact hinv.hlen
            hdB := hinv.hdB }
          (by
            show (s.potentials.set x _).has x = true
            exact TimestampVector.has_set_eq _ _ _ hxl)
          (by
            show (s.potentials.set x _).get x ≤ dB x
            rw [TimestampVector.get_set_eq _ _ _ hxl, hinv.hdB])
          (by
            show ∃ m a, Walk F.arc x m a ∧ (s.potentials.set x _).get x = a + dB m
            rw [TimestampVector.get_set_eq _ _ _ hxl, hinv.hdB]
            exact ⟨x, 0, Walk.nil, by omega⟩)
          (by
            intro z hz hzn hzh
            have hzh1 : s.potentials.has z = true := by
              rw [← hzh]
              exact (TimestampVector.has_set_ne _ _ _ _ (fun h => hzn h.symm)).symm
            show PotGood F dB z ((s.potentials.set x _).get z)
            rw [TimestampVector.get_set_ne _ _ _ _ (fun h => hzn h.symm)]
            exact hgood z hz hzh1)
      rw [hrun]
      have hget0 : (s.potentials.set x (s.backward_search.get_dist x)).get x = dB x := by
        rw [TimestampVector.get_set_eq _ _ _ hxl, hinv.hdB]
      have hle0 : s'.potentials.get x ≤ dB x := by
        rw [← hget0]
        exact hle'
      have hgx : PotGood F dB x (s'.potentials.get x) := by
        refine ⟨?_, hatt'⟩
        intro m a hwk
        obtain ⟨a1, ha1, hcase⟩ := hwk.drop_head_loops
        rcases hcase with ⟨hm, ha⟩ | ⟨e, a', hxe, hne, hw', ha⟩
        · rw [hm]
          omega
        · have := hcov' e (by rw [hinv.hF]; exact hxe) hne m a' hw'
          omega
      refine ⟨_, s', rfl, hinv', hgx, ?_, ?_⟩
      · intro z hz hzh
        by_cases hzx : z = x
        · rw [hzx]
          exact hgx
        · exact hgood' z hz hzx hzh
      · intro z hz
        have hzx : z ≠ x := by
          intro h
          rw [h] at hz
          omega
        obtain ⟨h1, h2⟩ := hframe' z hz
        refine ⟨?_, ?_⟩
        · rw [h1]
          exact TimestampVector.has_set_ne _ _ _ _ (fun h => hzx h.symm)
        · rw [h2]
          exact TimestampVector.get_set_ne _ _ _ _ (fun h => hzx h.symm)

/-- Two values that are both least sums are equal. -/
theorem PotGood.unique {F : Graph} {dB : Nat → Nat} {x p q : Nat} (hp : PotGood F dB x p)
    (hq : PotGood F dB x q) : p = q := by
  obtain ⟨m1, a1, hw1, h1⟩ := hp.2
  obtain ⟨m2, a2, hw2, h2⟩ := hq.2
  have := hp.1 m2 a2 hw2
  have := hq.1 m1 a1 hw1
  omega

/-- A sequence of queries on a service whose memo entries are right returns, for every
queried node, the value `pi` of that node. -/
theorem queries_spec {c : Constants} {n : Nat} {F : Graph} {ranking : List Nat}
    {dB : Nat → Nat} (ctx : PotCtx c n F ranking dB) (pi : Nat → Nat)
    (hpi : ∀ x, x < n → PotGood F dB x (pi x)) (fuel : Nat) (hfuel : n < fuel)
    (qs : List Nat) (hqs : ∀ x ∈ qs, x < n) :
    ∀ s, PotInv n F dB s →
      (∀ z, s.potentials.has z = true → PotGood F dB z (s.potentials.get z)) →
      ∃ s', queries fuel s qs = Outcome.ok (qs.map pi, s') := by
  induction qs with
  | nil =>
    intro s _ _
    exact ⟨s, rfl⟩
  | cons x xs ih =>
    intro s hinv hgood
    have hx := hqs x (List.mem_cons_self _ _)
    obtain ⟨p, s1, hrun, hinv1, hgp, hgood1, hframe1⟩ :=
      get_potential_spec ctx fuel s x hx (by omega) hinv (fun z _ hz => hgood z hz)
    obtain ⟨s2, hrun2⟩ := ih (fun y hy => hqs y (List.mem_cons_of_mem _ hy)) s1 hinv1 (by
      intro z hz
      by_cases hzr : rank ranking x ≤ rank ranking z
      · exact hgood1 z hzr hz
      · have hf := hframe1 z (by omega)
        rw [hf.2]
        apply hgood z
        rw [← hf.1]
        exact hz)
    refine ⟨s2, ?_⟩
    unfold queries
    rw [hrun]
    simp only
    rw [hrun2, hgp.unique (hpi x hx)]
    rfl

end PenAstar

namespace PenAstar

open CHPotentialService

theorem has_fresh_potentials (n d z : Nat) :
    ((TimestampVector.new n d).step_time).has z = false := by
  simp only [TimestampVector.new, TimestampVector.step_time, TimestampVector.has,
    List.getD_eq_getElem?_getD, List.getElem?_replicate]
  have h2 : ((0 + 1) % wrap32 + 1) % wrap32 = 2 := by simp [wrap32]
  rw [h2]
  split <;> simp

theorem length_fresh_potentials (n d : Nat) :
    ((TimestampVector.new n d).step_time).vec.length = n := by
  simp [TimestampVector.new, TimestampVector.step_time]

/-- Every walk of the forward graph is a walk of the original graph. -/
theorem SoundArcs.walk_forward {G0 F : Graph} (h : SoundArcs G0 F) {x m a : Nat}
    (hw : Walk F.arc x m a) : Walk G0.arc x m a := by
  induction hw with
  | nil => exact Walk.nil
  | snoc e _ ha ih => exact Walk.append ih (h _ e ha)

/-- Every walk of the backward graph is a walk of the original graph in the opposite
direction. -/
theorem SoundRevArcs.walk_backward {G0 B : Graph} (h : SoundRevArcs G0 B) {t m b : Nat}
    (hw : Walk B.arc t m b) : Walk G0.arc m t b := by
  induction hw with
  | nil => exact Walk.nil
  | @snoc u d e _ ha ih =>
    have := Walk.append (h u e ha) ih
    rw [Nat.add_comm]
    exact this

/-- After `set_target` on a fresh service of a valid hierarchy, every sequence of queries
returns the values of one function `pi`, and `pi` is the least walk weight to the target in
the original graph, capped at `inf_weight`. -/
theorem ch_potential_spec (c : Constants) (G : Graph) (ch : ContractionHierarchy)
    (hv : CHValid c G ch) (h2 : 2 * c.inf_weight ≤ wrap32) (hinf : 0 < c.inf_weight)
    (hid : G.size ≤ c.invalid_id) (t : Nat) (ht : t < G.size) (fuel : Nat)
    (hfuel : G.size < fuel) :
    ∃ s pi, set_target c fuel (CHPotentialService.new c ch) t = Outcome.ok s ∧
      (∀ qs, (∀ x ∈ qs, x < G.size) → ∃ s', queries fuel s qs = Outcome.ok (qs.map pi, s')) ∧
      (∀ x, pi x ≤ c.inf_weight) ∧
      (∀ x D, x < G.size → Walk G.arc x t D → D < c.inf_weight → pi x ≤ D) ∧
      (∀ x, x < G.size → pi x < c.inf_weight → Walk G.arc x t (pi x)) := by
  obtain ⟨bs, hrun, hle, hmin, hatt⟩ := backward_search_spec c ch.backward_graph
    hv.hB.targetsValid hv.hBW h2 hinf (by rw [hv.hBn]; exact hid) t (by rw [hv.hBn]; exact ht)
    fuel (by rw [hv.hBn]; exact hfuel)
  have ctx : PotCtx c G.size ch.forward_graph ch.ranking bs.get_dist :=
    { hFt := by
        intro u e he
        have := (hv.hF.arc_lt _ u e he).2
        rw [hv.hFn] at this
        exact this
      hFW := hv.hFW
      hFr := fun u e he => Or.inl (hv.hFr u e he)
      hrk := hv.hrk
      h2 := h2
      hdB := hle }
  have hinv : PotInv G.size ch.forward_graph bs.get_dist
      { CHPotentialService.new c ch with
        backward_search := bs
        potentials := (CHPotentialService.new c ch).potentials.step_time
        target := t } :=
    { hF := rfl
      hlen := by
        show ((TimestampVector.new ch.backward_graph.size c.inf_weight).step_time).vec.length
          = G.size
        rw [length_fresh_potentials, hv.hBn]
      hdB := fun _ => rfl }
  have hfresh : ∀ z, ({ CHPotentialService.new c ch with
        backward_search := bs
        potentials := (CHPotentialService.new c ch).potentials.step_time
        target := t } : CHPotentialService).potentials.has z = true →
      PotGood ch.forward_graph bs.get_dist z
        (({ CHPotentialService.new c ch with
          backward_search := bs
          potentials := (CHPotentialService.new c ch).potentials.step_time
          target := t } : CHPotentialService).potentials.get z) := by
    intro z hz
    exfalso
    have : ((TimestampVector.new ch.backward_graph.size c.inf_weight).step_time).has z = true :=
      hz
    rw [has_fresh_potentials] at this
    exact Bool.noConfusion this
  have hex : ∀ x, x < G.size → ∃ p, PotGood ch.forward_graph bs.get_dist x p := by
    intro x hx
    obtain ⟨p, _, _, _, hg, _⟩ := get_potential_spec ctx fuel _ x hx (by omega) hinv
      (fun z _ hz => hfresh z hz)
    exact ⟨p, hg⟩
  obtain ⟨pi, hpi⟩ : ∃ pi : Nat → Nat, ∀ x, x < G.size →
      PotGood ch.forward_graph bs.get_dist x (pi x) := by
    classical
    refine ⟨fun y => if h : y < G.size then Classical.choose (hex y h) else 0, ?_⟩
    intro x hx
    simp only [hx, dif_pos]
    exact Classical.choose_spec (hex x hx)
  refine ⟨{ CHPotentialService.new c ch with
        backward_search := bs
        potentials := (CHPotentialService.new c ch).potentials.step_time
        target := t }, fun y => if y < G.size then pi y else 0, ?_, ?_, ?_, ?_, ?_⟩
  · unfold set_target
    have hb : (CHPotentialService.new c ch).backward_search =
        DijkstraService.new c ch.backward_graph := rfl
    rw [hb, hrun]
  · intro qs hqs
    exact queries_spec ctx _ (by
      intro x hx
      simp only [hx, if_true]
      exact hpi x hx) fuel hfuel qs hqs _ hinv hfresh
  · intro x
    by_cases hx : x < G.size
    · have h1 := (hpi x hx).1 x 0 Walk.nil
      have h3 := hle x
      simp only [hx, if_true]
      omega
    · simp only [hx, if_false]
      omega
  · intro x D hx hw hD
    obtain ⟨m, a, b, hwa, hwb, hab⟩ := hv.hud x t D hw hD
    have h1 := (hpi x hx).1 m a hwa
    have h3 := hmin m b hwb (by omega)
    simp only [hx, if_true]
    exact Nat.le_trans h1 (by omega)
  · intro x hx hlt
    simp only [hx, if_true] at hlt ⊢
    obtain ⟨m, a, hwa, hpa⟩ := (hpi x hx).2
    rw [hpa] at hlt ⊢
    have hwb := hatt m (by omega)
    exact Walk.append (hv.hFs.walk_forward hwa) (hv.hBs.walk_backward hwb)

end PenAstar

namespace PenAstar

open CHPotentialService

theorem square_consistent : square.Consistent :=
  (Graph.run_ops_consistent 4
    [GraphOp.add_edge 0 ⟨1, 2⟩, GraphOp.add_edge 1 ⟨3, 2⟩, GraphOp.add_edge 0 ⟨2, 5⟩,
      GraphOp.add_edge 2 ⟨3, 1⟩]
    (Graph.new 4) (Graph.consistent_new 4) (Graph.size_new 4)
    (by
      intro op hop
      simp only [List.mem_cons, List.mem_singleton, List.not_mem_nil, or_false] at hop
      rcases hop with h | h | h | h <;> subst h <;> simp [GraphOp.valid])).1

theorem square_weight_le {u : Nat} {e : Edge} (he : e ∈ square.get_out_arcs u) :
    e.weight ≤ 5 := by
  have hu : u < 4 := (square_consistent.arc_lt _ u e he).1
  interval_cases u
  · have h : square.get_out_arcs 0 = [⟨1, 2⟩, ⟨2, 5⟩] := by decide
    rw [h] at he
    simp only [List.mem_cons, List.mem_singleton, List.not_mem_nil, or_false] at he
    rcases he with h | h <;> subst h <;> simp
  · have h : square.get_out_arcs 1 = [⟨3, 2⟩] := by decide
    rw [h] at he
    simp only [List.mem_singleton] at he
    subst he
    simp
  · have h : square.get_out_arcs 2 = [⟨3, 1⟩] := by decide
    rw [h] at he
    simp only [List.mem_singleton] at he
    subst he
    simp
  · have h : square.get_out_arcs 3 = [] := by decide
    rw [h] at he
    simp at he

/-- C6 (admissibility of the CH potentials): let `G` be a consistent graph with all
weights below `inf_weight`, where twice `inf_weight` fits in 32 bits and the node count is
at most `invalid_id`, let `order` be a permutation of the nodes for which the contraction
does not exhaust the 32-bit epoch counter of its witness searches, and `t` a node. Then
`contract_graph(G, order)` returns a hierarchy `ch`, `CHPotentialService(ch).set_target(t)`
returns, and there is one function `pi` such that every sequence of calls `operator()(n)`
afterwards returns `pi n` for each queried node; `pi n` is at most the shortest-path
distance from `n` to `t` in `G`, and at most `inf_weight` (the distance value of an
unreachable target). -/
theorem C6_ch_potential_admissible (c : Constants) (G : Graph) (order : List Nat) (t : Nat)
    (hc : G.Consistent) (hW : G.WeightsBelow c) (h2 : 2 * c.inf_weight ≤ wrap32)
    (hinf : 0 < c.inf_weight) (hid : G.size ≤ c.invalid_id)
    (hperm : order.Perm (List.range G.size)) (ht : t < G.size) (fuel : Nat)
    (hfuel : G.size < fuel) (hfit : contract_graph_fits c fuel G order = true) :
    ∃ ch s pi, contract_graph c fuel G order = Outcome.ok ch ∧
      set_target c fuel (CHPotentialService.new c ch) t = Outcome.ok s ∧
      (∀ qs, (∀ x ∈ qs, x < G.size) → ∃ s', queries fuel s qs = Outcome.ok (qs.map pi, s')) ∧
      (∀ n d, n < G.size → IsDist G n t d → pi n ≤ d) ∧
      (∀ n, pi n ≤ c.inf_weight) := by
  obtain ⟨ch, hch, _, hv⟩ := contract_graph_spec_gen c G hc hW h2 hinf order hperm fuel
    (Or.inr hfit) (Nat.le_of_lt hfuel)
  obtain ⟨s, pi, hs, hq, hle, hU, _⟩ := ch_potential_spec c G ch hv h2 hinf hid t ht fuel hfuel
  refine ⟨ch, s, pi, hch, hs, hq, ?_, hle⟩
  intro n d hn hd
  by_cases hlt : d < c.inf_weight
  · exact hU n d hn hd.1 hlt
  · exact Nat.le_trans (hle n) (Nat.le_of_not_lt hlt)

/-- Witness for C6: the triangle of scenario S1, contraction order 2, 0, 1, target 2. -/
theorem C6_ch_potential_admissible_witness :
    ∃ ch s pi, contract_graph stdConstants 4 triangle [2, 0, 1] = Outcome.ok ch ∧
      set_target stdConstants 4 (CHPotentialService.new stdConstants ch) 2 = Outcome.ok s ∧
      (∀ qs, (∀ x ∈ qs, x < triangle.size) →
        ∃ s', queries 4 s qs = Outcome.ok (qs.map pi, s')) ∧
      (∀ n d, n < triangle.size → IsDist triangle n 2 d → pi n ≤ d) ∧
      (∀ n, pi n ≤ stdConstants.inf_weight) :=
  C6_ch_potential_admissible stdConstants triangle [2, 0, 1] 2 triangle_consistent
    (fun u e he => Nat.lt_of_le_of_lt (triangle_weight_le he) (by decide))
    (by decide) (by decide) (by decide) (by decide) (by decide) 4 (by decide) (by decide!)

/-- C7 (consistency of the CH potentials): under the conditions of C6 on `G`, `order` and
`t`, the function `pi` that the calls `operator()(n)` return after
`CHPotentialService(contract_graph(G, order)).set_target(t)` satisfies
`pi u ≤ weight(u, v) + pi v` for every arc `u → v` of `G`, and `pi t = 0`. -/
theorem C7_ch_potential_consistent (c : Constants) (G : Graph) (order : List Nat) (t : Nat)
    (hc : G.Consistent) (hW : G.WeightsBelow c) (h2 : 2 * c.inf_weight ≤ wrap32)
    (hinf : 0 < c.inf_weight) (hid : G.size ≤ c.invalid_id)
    (hperm : order.Perm (List.range G.size)) (ht : t < G.size) (fuel : Nat)
    (hfuel : G.size < fuel) (hfit : contract_graph_fits c fuel G order = true) :
    ∃ ch s pi, contract_graph c fuel G order = Outcome.ok ch ∧
      set_target c fuel (CHPotentialService.new c ch) t = Outcome.ok s ∧
      (∀ qs, (∀ x ∈ qs, x < G.size) → ∃ s', queries fuel s qs = Outcome.ok (qs.map pi, s')) ∧
      (∀ u e, e ∈ G.get_out_arcs u → pi u ≤ e.weight + pi e.target) ∧
      pi t = 0 := by
  obtain ⟨ch, hch, _, hv⟩ := contract_graph_spec_gen c G hc hW h2 hinf order hperm fuel
    (Or.inr hfit) (Nat.le_of_lt hfuel)
  obtain ⟨s, pi, hs, hq, hle, hU, hS⟩ := ch_potential_spec c G ch hv h2 hinf hid t ht fuel hfuel
  refine ⟨ch, s, pi, hch, hs, hq, ?_, ?_⟩
  · intro u e he
    obtain ⟨hu, hv'⟩ := hc.arc_lt G u e he
    by_cases hlt : e.weight + pi e.target < c.inf_weight
    · have hw := hS e.target hv' (by omega)
      exact hU u _ hu (Walk.cons e he hw) hlt
    · exact Nat.le_trans (hle u) (Nat.le_of_not_lt hlt)
  · have := hU t 0 ht Walk.nil hinf
    omega

/-- Witness for C7: the square of scenario S5, contraction order 1, 3, 0, 2, target 3. -/
theorem C7_ch_potential_consistent_witness :
    ∃ ch s pi, contract_graph stdConstants 5 square [1, 3, 0, 2] = Outcome.ok ch ∧
      set_target stdConstants 5 (CHPotentialService.new stdConstants ch) 3 = Outcome.ok s ∧
      (∀ qs, (∀ x ∈ qs, x < square.size) →
        ∃ s', queries 5 s qs = Outcome.ok (qs.map pi, s')) ∧
      (∀ u e, e ∈ square.get_out_arcs u → pi u ≤ e.weight + pi e.target) ∧
      pi 3 = 0 :=
  C7_ch_potential_consistent stdConstants square [1, 3, 0, 2] 3 square_consistent
    (fun u e he => Nat.lt_of_le_of_lt (square_weight_le he) (by decide))
    (by decide) (by decide) (by decide) (by decide) (by decide) 5 (by decide) (by decide!)

end PenAstar

namespace PenAstar

open Graph

theorem eq_nil_of_forall_target {l : List Edge} (h : ∀ e ∈ l, False) : l = [] := by
  cases l with
  | nil => rfl
  | cons a t => exact (h a (List.mem_cons_self _ _)).elim

/-- Membership in the reverse lists after `disconnect_node`. -/
theorem mem_rev_disconnect_node {g : Graph} (hc : g.Consistent) (node v : Nat) (e : Edge) :
    e ∈ (g.disconnect_node node).get_rev_out_arcs v ↔
      e ∈ g.get_rev_out_arcs v ∧ v ≠ node ∧ e.target ≠ node := by
  obtain ⟨hc', _, _⟩ := disconnect_node_spec g hc node
  have he : e = (⟨e.target, e.weight⟩ : Edge) := by cases e; rfl
  rw [he, ← hc'.2.1 e.target v e.weight, ← hc.2.1 e.target v e.weight,
    mem_disconnect_node hc node e.target ⟨v, e.weight⟩]
  constructor
  · rintro ⟨h1, h2, h3⟩
    exact ⟨h1, h3, h2⟩
  · rintro ⟨h1, h2, h3⟩
    exact ⟨h1, h3, h2⟩

/-- C11: on a consistent graph, after `disconnect_node(n)` the lists
`get_out_arcs(n)` and `get_rev_out_arcs(n)` are empty, no forward or reverse list has an
entry with target `n`, `size()` is unchanged, and an entry that does not involve `n` is in
a forward (reverse) list afterwards exactly when it was there before, with its weight. -/
theorem C11_disconnect_node (g : Graph) (hc : g.Consistent) (n : Nat) :
    (g.disconnect_node n).get_out_arcs n = [] ∧
    (g.disconnect_node n).get_rev_out_arcs n = [] ∧
    (∀ u e, e ∈ (g.disconnect_node n).get_out_arcs u → e.target ≠ n) ∧
    (∀ v e, e ∈ (g.disconnect_node n).get_rev_out_arcs v → e.target ≠ n) ∧
    (g.disconnect_node n).size = g.size ∧
    (∀ u v w, u ≠ n → v ≠ n →
      ((⟨v, w⟩ : Edge) ∈ (g.disconnect_node n).get_out_arcs u ↔
        (⟨v, w⟩ : Edge) ∈ g.get_out_arcs u) ∧
      ((⟨u, w⟩ : Edge) ∈ (g.disconnect_node n).get_rev_out_arcs v ↔
        (⟨u, w⟩ : Edge) ∈ g.get_rev_out_arcs v)) := by
  refine ⟨?_, ?_, ?_, ?_, (disconnect_node_spec g hc n).2.1, ?_⟩
  · apply eq_nil_of_forall_target
    intro e he
    exact ((mem_disconnect_node hc n n e).1 he).2.1 rfl
  · apply eq_nil_of_forall_target
    intro e he
    exact ((mem_rev_disconnect_node hc n n e).1 he).2.1 rfl
  · intro u e he
    exact ((mem_disconnect_node hc n u e).1 he).2.2
  · intro v e he
    exact ((mem_rev_disconnect_node hc n v e).1 he).2.2
  · intro u v w hu hv
    constructor
    · rw [mem_disconnect_node hc n u ⟨v, w⟩]
      exact ⟨fun h => h.1, fun h => ⟨h, hu, hv⟩⟩
    · rw [mem_rev_disconnect_node hc n v ⟨u, w⟩]
      exact ⟨fun h => h.1, fun h => ⟨h, hv, hu⟩⟩

/-- Witness for C11: node 1 of the triangle of scenario S1. -/
theorem C11_disconnect_node_witness :
    (triangle.disconnect_node 1).get_out_arcs 1 = [] ∧
    (triangle.disconnect_node 1).get_rev_out_arcs 1 = [] ∧
    (∀ u e, e ∈ (triangle.disconnect_node 1).get_out_arcs u → e.target ≠ 1) ∧
    (∀ v e, e ∈ (triangle.disconnect_node 1).get_rev_out_arcs v → e.target ≠ 1) ∧
    (triangle.disconnect_node 1).size = triangle.size ∧
    (∀ u v w, u ≠ 1 → v ≠ 1 →
      ((⟨v, w⟩ : Edge) ∈ (triangle.disconnect_node 1).get_out_arcs u ↔
        (⟨v, w⟩ : Edge) ∈ triangle.get_out_arcs u) ∧
      ((⟨u, w⟩ : Edge) ∈ (triangle.disconnect_node 1).get_rev_out_arcs v ↔
        (⟨u, w⟩ : Edge) ∈ triangle.get_rev_out_arcs v)) :=
  C11_disconnect_node triangle triangle_consistent 1

end PenAstar

namespace PenAstar

open Graph

theorem order_to_ranking_length (order : List Nat) (hnd : order.Nodup)
    (hlt : ∀ x ∈ order, x < order.length) : (order_to_ranking order).length = order.length := by
  unfold order_to_ranking
  exact (ranking_fold_spec order hnd hlt (List.range order.length) _ (by simp)
    (List.nodup_range _) (fun j hj => List.mem_range.1 hj)).1

/-- Facts about an order that is a permutation of `[0, n)`. -/
theorem perm_range_facts {order : List Nat} {n : Nat} (hperm : order.Perm (List.range n)) :
    order.Nodup ∧ order.length = n ∧ (∀ x, x ∈ order ↔ x < n) ∧
      ∀ x ∈ order, x < order.length := by
  have hnd : order.Nodup := hperm.nodup_iff.2 (List.nodup_range _)
  have hlen : order.length = n := by rw [hperm.length_eq, List.length_range]
  have hmem : ∀ x, x ∈ order ↔ x < n := by
    intro x
    rw [hperm.mem_iff, List.mem_range]
  refine ⟨hnd, hlen, hmem, ?_⟩
  intro x hx
  rw [hlen]
  exact (hmem x).1 hx

/-- The ranking of a permutation, as an inverse: every node is `order[i]` for its rank
`i`. -/
theorem ranking_inverse {order : List Nat} {n : Nat} (hperm : order.Perm (List.range n))
    (v : Nat) (hv : v < n) :
    (order_to_ranking order).getD v 0 < n ∧
      order.getD ((order_to_ranking order).getD v 0) 0 = v := by
  obtain ⟨hnd, hlen, hmem, hlt⟩ := perm_range_facts hperm
  obtain ⟨i, hi, hiv⟩ := List.getElem_of_mem ((hmem v).2 hv)
  have h := rank_order_to_ranking order hnd hlt i hi
  unfold rank at h
  rw [List.getD_eq_getElem _ _ hi, hiv] at h
  rw [h]
  refine ⟨by rw [← hlen]; exact hi, ?_⟩
  rw [List.getD_eq_getElem _ _ hi, hiv]

theorem ranking_perm {order : List Nat} {n : Nat} (hperm : order.Perm (List.range n)) :
    (order_to_ranking order).Perm (List.range n) := by
  obtain ⟨hnd, hlen, hmem, hlt⟩ := perm_range_facts hperm
  have hrl : (order_to_ranking order).length = n := by
    rw [order_to_ranking_length order hnd hlt, hlen]
  have hrnd : (order_to_ranking order).Nodup := by
    rw [List.nodup_iff_injective_get]
    intro a b hab
    have ha : a.1 < n := by rw [← hrl]; exact a.2
    have hb : b.1 < n := by rw [← hrl]; exact b.2
    have h1 := (ranking_inverse hperm a.1 ha).2
    have h2 := (ranking_inverse hperm b.1 hb).2
    rw [List.getD_eq_getElem _ _ a.2] at h1
    rw [List.getD_eq_getElem _ _ b.2] at h2
    have hab' : (order_to_ranking order)[a.1] = (order_to_ranking order)[b.1] := by
      simpa [List.get_eq_getElem] using hab
    rw [hab'] at h1
    apply Fin.ext
    exact h1.symm.trans h2
  have hsub : order_to_ranking order ⊆ List.range n := by
    intro x hx
    obtain ⟨v, hv, hvx⟩ := List.getElem_of_mem hx
    rw [List.mem_range, ← hvx]
    have := (ranking_inverse hperm v (by rw [← hrl]; exact hv)).1
    rw [List.getD_eq_getElem _ _ hv] at this
    exact this
  exact (hrnd.subperm hsub).perm_of_length_le (by rw [hrl, List.length_range])

theorem contract_graph_ranking (c : Constants) (fuel : Nat) (g : Graph) (order : List Nat)
    (ch : ContractionHierarchy) (h : contract_graph c fuel g order = Outcome.ok ch) :
    ch.ranking = order_to_ranking order := by
  unfold contract_graph at h
  simp only at h
  split at h
  · simp only [Outcome.ok.injEq] at h
    rw [← h]
  · exact Outcome.noConfusion h
  · exact Outcome.noConfusion h
  · exact Outcome.noConfusion h

/-- C13: for an order that is a permutation of `[0, n)` the vector computed by
`order_to_ranking` has `n` entries with `ranking[order[i]] = i` for every `i < n`; it is a
permutation of `[0, n)` and `order[ranking[v]] = v` for every node `v`. It is the ranking
of every hierarchy that `contract_graph(g, order)` returns, and `contract_graph` does
return one on a consistent graph of `n` nodes with weights below `inf_weight` (no wrap of
sums or of the search epoch). -/
theorem C13_ranking_inverse (order : List Nat) (n : Nat) (hperm : order.Perm (List.range n)) :
    (order_to_ranking order).length = n ∧
    (∀ i, i < n → (order_to_ranking order).getD (order.getD i 0) 0 = i) ∧
    (order_to_ranking order).Perm (List.range n) ∧
    (∀ v, v < n → order.getD ((order_to_ranking order).getD v 0) 0 = v) ∧
    (∀ c fuel g ch, contract_graph c fuel g order = Outcome.ok ch →
      ch.ranking = order_to_ranking order) ∧
    (∀ (c : Constants) (g : Graph) (fuel : Nat), g.Consistent → g.WeightsBelow c →
      2 * c.inf_weight ≤ wrap32 → 0 < c.inf_weight → g.size = n → n * n + 1 < wrap32 →
      n ≤ fuel →
      ∃ ch, contract_graph c fuel g order = Outcome.ok ch ∧
        ch.ranking = order_to_ranking order) := by
  obtain ⟨hnd, hlen, hmem, hlt⟩ := perm_range_facts hperm
  refine ⟨?_, ?_, ranking_perm hperm, fun v hv => (ranking_inverse hperm v hv).2,
    fun c fuel g ch h => contract_graph_ranking c fuel g order ch h, ?_⟩
  · rw [order_to_ranking_length order hnd hlt, hlen]
  · intro i hi
    exact rank_order_to_ranking order hnd hlt i (by rw [hlen]; exact hi)
  · intro c g fuel hc hW h2 hinf hsz hbud hfuel
    obtain ⟨ch, hch, hr, _⟩ := contract_graph_spec c g hc hW h2 hinf order
      (by rw [hsz]; exact hperm) (by rw [hsz]; exact hbud) fuel (by rw [hsz]; exact hfuel)
    exact ⟨ch, hch, hr⟩

/-- Witness for C13: the order 2, 0, 1 on three nodes. -/
theorem C13_ranking_inverse_witness :
    (order_to_ranking [2, 0, 1]).length = 3 ∧
    (∀ i, i < 3 → (order_to_ranking [2, 0, 1]).getD ([2, 0, 1].getD i 0) 0 = i) ∧
    (order_to_ranking [2, 0, 1]).Perm (List.range 3) ∧
    (∀ v, v < 3 → [2, 0, 1].getD ((order_to_ranking [2, 0, 1]).getD v 0) 0 = v) ∧
    (∀ c fuel g ch, contract_graph c fuel g [2, 0, 1] = Outcome.ok ch →
      ch.ranking = order_to_ranking [2, 0, 1]) ∧
    (∀ (c : Constants) (g : Graph) (fuel : Nat), g.Consistent → g.WeightsBelow c →
      2 * c.inf_weight ≤ wrap32 → 0 < c.inf_weight → g.size = 3 → 3 * 3 + 1 < wrap32 →
      3 ≤ fuel →
      ∃ ch, contract_graph c fuel g [2, 0, 1] = Outcome.ok ch ∧
        ch.ranking = order_to_ranking [2, 0, 1]) :=
  C13_ranking_inverse [2, 0, 1] 3 (by decide)

end PenAstar

namespace PenAstar

open Graph

theorem loop_graph_consistent : loop_graph.Consistent :=
  (Graph.run_ops_consistent 2
    [GraphOp.add_edge 0 ⟨1, 3⟩, GraphOp.add_edge 1 ⟨1, 5⟩]
    (Graph.new 2) (Graph.consistent_new 2) (Graph.size_new 2)
    (by
      intro op hop
      simp only [List.mem_cons, List.mem_singleton, List.not_mem_nil, or_false] at hop
      rcases hop with h | h <;> subst h <;> simp [GraphOp.valid])).1

theorem loop_graph_weight_le {u : Nat} {e : Edge} (he : e ∈ loop_graph.get_out_arcs u) :
    e.weight ≤ 5 := by
  have hu : u < 2 := (loop_graph_consistent.arc_lt _ u e he).1
  interval_cases u
  · have h : loop_graph.get_out_arcs 0 = [⟨1, 3⟩] := by decide
    rw [h] at he
    simp only [List.mem_singleton] at he
    subst he
    simp
  · have h : loop_graph.get_out_arcs 1 = [⟨1, 5⟩] := by decide
    rw [h] at he
    simp only [List.mem_singleton] at he
    subst he
    simp

/-- The rank facts of the hierarchy that `contract_graph` returns: forward arcs climb
strictly, backward arcs do not descend. -/
theorem contract_graph_rank_spec (c : Constants) (G0 : Graph) (hc : G0.Consistent)
    (hW : G0.WeightsBelow c) (h2 : 2 * c.inf_weight ≤ wrap32) (hinf : 0 < c.inf_weight)
    (order : List Nat) (hperm : order.Perm (List.range G0.size))
    (hbud : G0.size * G0.size + 1 < wrap32) (fuel : Nat) (hfuel : G0.size ≤ fuel) :
    ∃ ch, contract_graph c fuel G0 order = Outcome.ok ch ∧
      ch.ranking = order_to_ranking order ∧
      ch.forward_graph.Consistent ∧ ch.backward_graph.Consistent ∧
      ch.forward_graph.size = G0.size ∧ ch.backward_graph.size = G0.size ∧
      (∀ a e, e ∈ ch.forward_graph.get_out_arcs a →
        rank ch.ranking a < rank ch.ranking e.target) ∧
      (∀ a e, e ∈ ch.backward_graph.get_out_arcs a →
        rank ch.ranking a ≤ rank ch.ranking e.target) := by
  obtain ⟨hnd, hlen, hmem, hlt⟩ := perm_range_facts hperm
  obtain ⟨st', hrun, hinv', _, _, _⟩ :=
    contract_loop_updown h2 hinf fuel hfuel order _
      (contractInv_init c G0 hc hW (order_to_ranking order))
      (fun x hx => (hmem x).1 hx)
      (fun x hx hxo => absurd ((hmem x).2 hx) hxo)
      (pairwise_rank_order order hnd hlt)
      (by
        have h1 : (DijkstraService.new c G0).dist_vec.t = 1 := by
          simp [DijkstraService.new, TimestampVector.new, TimestampVector.step_time, wrap32]
        simp only
        rw [h1, hlen]
        omega)
  refine ⟨⟨st'.forward_graph, st'.backward_graph, order_to_ranking order⟩, ?_, rfl,
    hinv'.hF, hinv'.hB, hinv'.hFn, hinv'.hBn, hinv'.hFr, hinv'.hBr⟩
  unfold contract_graph
  simp only
  rw [hrun]

/-- C14, counterexample: on the two-node graph with arcs 0→1 (3) and 1→1 (5) and the
order 0, 1 the backward graph of the hierarchy stores the arc 1→1, whose endpoints have
the same rank: not every stored arc `a → b` has `ranking[a] < ranking[b]`. -/
theorem C14_self_loop_counterexample :
    ∃ ch, contract_graph stdConstants 3 loop_graph [0, 1] = Outcome.ok ch ∧
      ¬ ∀ a e, e ∈ ch.backward_graph.get_out_arcs a →
        ch.ranking.getD a 0 < ch.ranking.getD e.target 0 := by
  refine ⟨⟨⟨[[⟨1, 3⟩], []], [[], [⟨0, 3⟩]]⟩, ⟨[[], [⟨1, 5⟩]], [[], [⟨1, 5⟩]]⟩, [0, 1]⟩,
    by decide, ?_⟩
  intro h
  have := h 1 ⟨1, 5⟩ (by decide)
  exact absurd this (by decide)

theorem shortcuts_inner_form (fuel : Nat) (r : Edge) :
    ∀ (os : List Edge) (ds : DijkstraService) (acc : List (Nat × Edge))
      (ds' : DijkstraService) (acc' : List (Nat × Edge)),
      shortcuts_inner fuel r os ds acc = Outcome.ok (ds', acc') →
      ∀ sc ∈ acc', sc ∈ acc ∨ (sc.1 = r.target ∧ ∃ o ∈ os, sc.2.target = o.target) := by
  intro os
  induction os with
  | nil =>
    intro ds acc ds' acc' h sc hsc
    simp only [shortcuts_inner, Outcome.ok.injEq, Prod.mk.injEq] at h
    rw [← h.2] at hsc
    exact Or.inl hsc
  | cons o os ih =>
    intro ds acc ds' acc' h sc hsc
    simp only [shortcuts_inner] at h
    split at h
    · rename_i ds1 hrun
      split at h
      · rcases ih _ _ _ _ h sc hsc with h1 | ⟨h1, o', ho', h2⟩
        · rw [List.mem_append, List.mem_singleton] at h1
          rcases h1 with h1 | h1
          · exact Or.inl h1
          · right
            rw [h1]
            exact ⟨rfl, o, List.mem_cons_self _ _, rfl⟩
        · exact Or.inr ⟨h1, o', List.mem_cons_of_mem _ ho', h2⟩
      · rcases ih _ _ _ _ h sc hsc with h1 | ⟨h1, o', ho', h2⟩
        · exact Or.inl h1
        · exact Or.inr ⟨h1, o', List.mem_cons_of_mem _ ho', h2⟩
    · exact Outcome.noConfusion h
    · exact Outcome.noConfusion h
    · exact Outcome.noConfusion h

theorem shortcuts_outer_form (c : Constants) (fuel node : Nat) (outs : List Edge) :
    ∀ (rs : List Edge) (ds : DijkstraService) (acc : List (Nat × Edge))
      (ds' : DijkstraService) (acc' : List (Nat × Edge)),
      shortcuts_outer c fuel node outs rs ds acc = Outcome.ok (ds', acc') →
      ∀ sc ∈ acc', sc ∈ acc ∨
        ((∃ r ∈ rs, sc.1 = r.target) ∧ ∃ o ∈ outs, sc.2.target = o.target) := by
  intro rs
  induction rs with
  | nil =>
    intro ds acc ds' acc' h sc hsc
    simp only [shortcuts_outer, Outcome.ok.injEq, Prod.mk.injEq] at h
    rw [← h.2] at hsc
    exact Or.inl hsc
  | cons r rs ih =>
    intro ds acc ds' acc' h sc hsc
    simp only [shortcuts_outer] at h
    split at h
    · rename_i ds1 acc1 hrun
      rcases ih _ _ _ _ h sc hsc with h1 | ⟨⟨r', hr', h1⟩, h2⟩
      · rcases shortcuts_inner_form fuel r outs _ _ _ _ hrun sc h1 with h3 | ⟨h3, h4⟩
        · exact Or.inl h3
        · exact Or.inr ⟨⟨r, List.mem_cons_self _ _, h3⟩, h4⟩
      · exact Or.inr ⟨⟨r', List.mem_cons_of_mem _ hr', h1⟩, h2⟩
    · exact Outcome.noConfusion h
    · exact Outcome.noConfusion h
    · exact Outcome.noConfusion h

/-- One call of `contract_node_and_split` that returns keeps the rank facts, whatever the
witness searches found. -/
theorem contract_node_and_split_rank {c : Constants} {n : Nat} {ranking : List Nat}
    {fuel : Nat} {st st1 : ContractState} {node : Nat} (hinv : RankInv n ranking st)
    (h : contract_node_and_split c fuel ranking st node = Outcome.ok st1) :
    RankInv n ranking st1 := by
  obtain ⟨hg, hgn, hF, hFn, hB, hBn, hFr, hBr⟩ := hinv
  unfold contract_node_and_split at h
  split at h
  · rename_i ds1 scs hrun
    simp only [Outcome.ok.injEq] at h
    have hend : ∀ sc ∈ scs, sc.1 < n ∧ sc.2.target < n := by
      intro sc hsc
      unfold get_contraction_shortcuts at hrun
      rcases shortcuts_outer_form c fuel node _ _ _ _ _ _ hrun sc hsc with h0 |
        ⟨⟨r, hr, h1⟩, o, ho, h2⟩
      · cases h0
      · rw [h1, h2, ← hgn]
        exact ⟨(hg.rev_arc_lt _ node r hr).2, (hg.arc_lt _ node o ho).2⟩
    obtain ⟨c1, c2, c3, c4, c5, c6, _, _, _, _, _, _, _, c14, c15⟩ :=
      add_shortcuts_split_spec ranking n scs { st with ds := ds1 } hg hgn hF hFn hB hBn hend
    obtain ⟨d1, d2⟩ := disconnect_node_consistent _ c1 node
    rw [← h]
    refine ⟨d1, by rw [d2]; exact c2, c3, c4, c5, c6, ?_, ?_⟩
    · intro a e he
      rcases c14 a e he with h1 | ⟨_, h1⟩
      · exact hFr a e h1
      · exact h1
    · intro a e he
      rcases c15 a e he with h1 | ⟨sc, _, h1, h2, h3⟩
      · exact hBr a e h1
      · rw [h1, h2]
        exact Nat.le_of_not_lt h3
  · exact Outcome.noConfusion h
  · exact Outcome.noConfusion h
  · exact Outcome.noConfusion h

theorem contract_loop_rank {c : Constants} {n : Nat} {ranking : List Nat} {fuel : Nat} :
    ∀ (rest : List Nat) (st st' : ContractState), RankInv n ranking st →
      contract_loop c fuel ranking rest st = Outcome.ok st' → RankInv n ranking st' := by
  intro rest
  induction rest with
  | nil =>
    intro st st' hinv h
    simp only [contract_loop, Outcome.ok.injEq] at h
    rw [← h]
    exact hinv
  | cons v rest ih =>
    intro st st' hinv h
    simp only [contract_loop] at h
    split at h
    · rename_i st1 hrun
      exact ih st1 st' (contract_node_and_split_rank hinv hrun) h
    · exact Outcome.noConfusion h
    · exact Outcome.noConfusion h
    · exact Outcome.noConfusion h

/-- Every hierarchy that `contract_graph` returns for a consistent graph has forward arcs
that climb in rank and backward arcs that do not descend; no bound on weights, sizes or
search epochs is needed. -/
theorem contract_graph_rank_any (c : Constants) (G : Graph) (order : List Nat) (fuel : Nat)
    (hc : G.Consistent) (ch : ContractionHierarchy)
    (h : contract_graph c fuel G order = Outcome.ok ch) :
    ch.ranking = order_to_ranking order ∧
    ch.backward_graph.Consistent ∧ ch.backward_graph.size = G.size ∧
    (∀ a e, e ∈ ch.forward_graph.get_out_arcs a →
      rank ch.ranking a < rank ch.ranking e.target) ∧
    (∀ a e, e ∈ ch.backward_graph.get_out_arcs a →
      rank ch.ranking a ≤ rank ch.ranking e.target) := by
  obtain ⟨s1, s2, s3, s4, _, s6, s7⟩ := split_graph_spec G hc (order_to_ranking order)
  have hinit : RankInv G.size (order_to_ranking order)
      ⟨G, (split_graph G (order_to_ranking order)).1, (split_graph G (order_to_ranking order)).2,
        DijkstraService.new c G⟩ :=
    ⟨hc, rfl, s1, s2, s3, s4, fun a e he => (s6 a e he).2,
      fun a e he => Nat.le_of_not_lt (s7 a e he).2⟩
  unfold contract_graph at h
  simp only at h
  split at h
  · rename_i st hrun
    simp only [Outcome.ok.injEq] at h
    obtain ⟨_, _, _, _, r5, r6, r7, r8⟩ := contract_loop_rank _ _ _ hinit hrun
    rw [← h]
    exact ⟨rfl, r5, r6, r7, r8⟩
  · exact Outcome.noConfusion h
  · exact Outcome.noConfusion h
  · exact Outcome.noConfusion h

/-- C14 (as amended): let `G` be a consistent graph and `order` a permutation of its nodes.
In every hierarchy that `contract_graph(G, order)` returns, every arc `a → b` stored in
`forward_graph` has `ranking[a] < ranking[b]`, and every arc `a → b` stored in
`backward_graph` has `ranking[a] < ranking[b]` or is a loop `a → a`; this needs no bound on
weights or on the search epoch. `contract_graph` does return a hierarchy when the weights
are below `inf_weight`, twice `inf_weight` fits in 32 bits and the contraction does not
exhaust the 32-bit epoch counter of its witness searches. -/
theorem C14_upward_arcs (c : Constants) (G : Graph) (order : List Nat) (fuel : Nat)
    (hc : G.Consistent) (hperm : order.Perm (List.range G.size)) :
    (∀ ch, contract_graph c fuel G order = Outcome.ok ch →
      (∀ a e, e ∈ ch.forward_graph.get_out_arcs a →
        ch.ranking.getD a 0 < ch.ranking.getD e.target 0) ∧
      (∀ a e, e ∈ ch.backward_graph.get_out_arcs a →
        ch.ranking.getD a 0 < ch.ranking.getD e.target 0 ∨ e.target = a)) ∧
    (G.WeightsBelow c → 2 * c.inf_weight ≤ wrap32 → 0 < c.inf_weight → G.size ≤ fuel →
      contract_graph_fits c fuel G order = true →
      ∃ ch, contract_graph c fuel G order = Outcome.ok ch) := by
  constructor
  · intro ch hch
    obtain ⟨hr, hB, hBn, hFr, hBr⟩ := contract_graph_rank_any c G order fuel hc ch hch
    refine ⟨hFr, ?_⟩
    intro a e he
    have hle := hBr a e he
    unfold rank at hle
    rcases Nat.lt_or_eq_of_le hle with hlt | heq
    · exact Or.inl hlt
    · right
      obtain ⟨ha, hb⟩ := hB.arc_lt _ a e he
      rw [hBn] at ha hb
      have h1 := (ranking_inverse hperm a ha).2
      have h3 := (ranking_inverse hperm e.target hb).2
      rw [hr] at heq
      rw [← heq] at h3
      exact h3.symm.trans h1
  · intro hW h2 hinf hfuel hfit
    obtain ⟨ch, hch, _, _⟩ :=
      contract_graph_spec_gen c G hc hW h2 hinf order hperm fuel (Or.inr hfit) hfuel
    exact ⟨ch, hch⟩

/-- Witness for the amended C14: the graph of the counterexample. -/
theorem C14_upward_arcs_witness :
    (∃ ch, contract_graph stdConstants 3 loop_graph [0, 1] = Outcome.ok ch) ∧
    ∀ ch, contract_graph stdConstants 3 loop_graph [0, 1] = Outcome.ok ch →
      (∀ a e, e ∈ ch.forward_graph.get_out_arcs a →
        ch.ranking.getD a 0 < ch.ranking.getD e.target 0) ∧
      (∀ a e, e ∈ ch.backward_graph.get_out_arcs a →
        ch.ranking.getD a 0 < ch.ranking.getD e.target 0 ∨ e.target = a) :=
  ⟨(C14_upward_arcs stdConstants loop_graph [0, 1] 3 loop_graph_consistent (by decide)).2
      (fun u e he => Nat.lt_of_le_of_lt (loop_graph_weight_le he) (by decide))
      (by decide) (by decide) (by decide) (by decide!),
    (C14_upward_arcs stdConstants loop_graph [0, 1] 3 loop_graph_consistent (by decide)).1⟩

end PenAstar

namespace PenAstar

/-- C16 (failing input): on the graph of scenario S2 (nodes 0, 1, 2, one arc 0→1 of weight
5), contracted in the order 0, 1, 2, the call `run(0, 2)` with the unreachable target 2
behaves the same under every interleaving: both threads leave their loops at the first test
with `tentative_dist = inf_weight` and `best_node = invalid_id`, so neither loop of
`get_path()` pushes a node and `ret.nodes.pop_back()` is called on an empty vector. No
`Path` is returned; a plain Dijkstra run reports `inf_weight`. -/
theorem C16_unreachable_pop_back :
    (∀ sched, bidirectional_meeting stdConstants 8 sched disconnected [0, 1, 2] 0 2
      = Outcome.ok (stdConstants.inf_weight, stdConstants.invalid_id)) ∧
    (∀ sched, bidirectional_run stdConstants 8 sched disconnected [0, 1, 2] 0 2
      = Outcome.empty_pop) ∧
    dijkstra_query stdConstants 8 disconnected 0 2 = Outcome.ok stdConstants.inf_weight := by
  refine ⟨?_, ?_, by decide⟩
  · intro sched
    rcases sched with _ | ⟨b1, _ | ⟨b2, rest⟩⟩
    · rfl
    · cases b1 <;> rfl
    · cases b1 <;> cases b2 <;> rfl
  · intro sched
    rcases sched with _ | ⟨b1, _ | ⟨b2, rest⟩⟩
    · rfl
    · cases b1 <;> rfl
    · cases b1 <;> cases b2 <;> rfl

end PenAstar

namespace PenAstar

/-- C12 (failing input): on the square of scenario S5 `contract_by_queue` returns a
hierarchy whose forward and backward graph have no arc at all: the final `split_graph` is
applied to the working copy `g`, in which every node has been disconnected by
`contract_node`, and not to the graph that received the shortcuts. The caller's graph keeps
its arcs. The query of `test_bottom_up_order` from 0 to 3 on this hierarchy finds no meeting
node: without path calculation it reports `inf_weight`, with it `get_path(invalid_id)`
reads outside the distance vector, while the Dijkstra distance is 4 and the hierarchy of
`contract_graph` gives 4. -/
theorem C12_queue_hierarchy_empty :
    contract_by_queue stdConstants 5 square =
      Outcome.ok (⟨Graph.new 4, Graph.new 4, [1, 3, 2, 0]⟩, square) ∧
    queue_ch_query stdConstants 5 square 0 3 false =
      Outcome.ok ⟨[], stdConstants.inf_weight⟩ ∧
    queue_ch_query stdConstants 5 square 0 3 true = Outcome.out_of_range ∧
    dijkstra_query stdConstants 5 square 0 3 = Outcome.ok 4 ∧
    ch_query stdConstants 5 square [0, 1, 2, 3] 0 3 = Outcome.ok ⟨[0, 1, 3], 4⟩ := by
  refine ⟨by rfl, by rfl, by rfl, by decide, by decide⟩

/-- C17 (failing input): on the graph of scenario S2 with source 0 and the unreachable
target 2, `run()` does not get past its first statement: `astar.run` calls `pop_back` on an
empty vector (see C16), under every interleaving of the first search. Had the search
returned the empty path of length `inf_weight`, the next statement `add_path_to_graph`
would read `path.nodes[0]` of an empty vector, the loop test
`alt_path.length <= (1 + eps) * original_path.length` would hold for the two `inf_weight`
lengths, and `apply_penalties` in the first pass would again read `path.nodes[0]`. -/
theorem C17_unreachable_penalty_run :
    (∀ sched rest, penalty_query defaultParams stdConstants 8 disconnected [0, 1, 2]
      (sched :: rest) 0 2 = Outcome.empty_pop) ∧
    PenaltyService.add_path_to_graph stdConstants disconnected
      ⟨[], stdConstants.inf_weight⟩ (Graph.new 3) = Outcome.out_of_range ∧
    (∀ sv : PenaltyService, sv.max_iterations = 20 →
      PenaltyService.run_continues defaultParams
        ⟨sv, ⟨[], stdConstants.inf_weight⟩, ⟨[], stdConstants.inf_weight⟩, 0⟩ = true) ∧
    PenaltyService.apply_penalties defaultParams stdConstants ⟨[], stdConstants.inf_weight⟩
      stdConstants.inf_weight disconnected = Outcome.out_of_range := by
  refine ⟨?_, by rfl, ?_, by rfl⟩
  · intro sched rest
    rcases sched with _ | ⟨b1, _ | ⟨b2, rest2⟩⟩
    · rfl
    · cases b1 <;> rfl
    · cases b1 <;> cases b2 <;> rfl
  · intro sv hsv
    have hw : defaultParams.within_eps stdConstants.inf_weight stdConstants.inf_weight = true := by
      decide!
    simp [PenaltyService.run_continues, hsv, hw]

/-- C18 (counterexample): on the ladder with the default parameters the candidate of the
first pass of the loop of `run()` is the original path 0→1→2→3→4→9 again, with penalised
length 5, not the second path 0→5→6→7→8→9, and `alt_graph` holds after the first pass the
five arcs of the original path, not ten (shown for the forward thread running alone and for
an alternation of the two search threads). -/
theorem C18_ladder_candidate :
    penalty_passes defaultParams stdConstants 12 ladder [0, 1, 2, 3, 4, 5, 6, 7, 8, 9] [] 1 0 9 =
      Outcome.ok (⟨[0, 1, 2, 3, 4, 9], 5⟩, ⟨[0, 1, 2, 3, 4, 9], 5⟩,
        (((((Graph.new 10).add_edge 0 ⟨1, 1⟩).add_edge 1 ⟨2, 1⟩).add_edge 2 ⟨3, 1⟩).add_edge 3
          ⟨4, 1⟩).add_edge 4 ⟨9, 1⟩) ∧
    penalty_passes defaultParams stdConstants 12 ladder [0, 1, 2, 3, 4, 5, 6, 7, 8, 9]
        [[false, true, false, true], [false, true, false, true, false, true]] 1 0 9 =
      Outcome.ok (⟨[0, 1, 2, 3, 4, 9], 5⟩, ⟨[0, 1, 2, 3, 4, 9], 5⟩,
        (((((Graph.new 10).add_edge 0 ⟨1, 1⟩).add_edge 1 ⟨2, 1⟩).add_edge 2 ⟨3, 1⟩).add_edge 3
          ⟨4, 1⟩).add_edge 4 ⟨9, 1⟩) ∧
    ((((((Graph.new 10).add_edge 0 ⟨1, 1⟩).add_edge 1 ⟨2, 1⟩).add_edge 2 ⟨3, 1⟩).add_edge 3
      ⟨4, 1⟩).add_edge 4 ⟨9, 1⟩).n_edges = 5 := by
  refine ⟨by decide!, by decide!, by decide⟩

theorem ladder_run_alone :
    penalty_query defaultParams stdConstants 12 ladder [0, 1, 2, 3, 4, 5, 6, 7, 8, 9] [] 0 9 =
      Outcome.ok ((((((Graph.new 10).add_edge 0 ⟨1, 1⟩).add_edge 1 ⟨2, 1⟩).add_edge 2
        ⟨3, 1⟩).add_edge 3 ⟨4, 1⟩).add_edge 4 ⟨9, 1⟩) := by
  decide!

theorem ladder_run_alternating :
    penalty_query defaultParams stdConstants 12 ladder [0, 1, 2, 3, 4, 5, 6, 7, 8, 9]
        [[false, true, false, true], [false, true, false, true, false, true]] 0 9 =
      Outcome.ok ((((((Graph.new 10).add_edge 0 ⟨1, 1⟩).add_edge 1 ⟨2, 1⟩).add_edge 2
        ⟨3, 1⟩).add_edge 3 ⟨4, 1⟩).add_edge 4 ⟨9, 1⟩) := by
  decide!

theorem ladder_penalised :
    PenaltyService.apply_penalties defaultParams stdConstants ⟨[0, 1, 2, 3, 4, 9], 5⟩ 5 ladder =
      Outcome.ok (ladder.change_edge_weight 8 9 2) := by
  decide!

/-- C18 (amended): on the ladder with the default parameters `apply_penalties` for the
original path 0→1→2→3→4→9 leaves the arcs of that path at weight 1 (`1 * (1 + 0.04)` is 1
after the conversion to `uint32_t`, and 1 as well when rounded to the nearest integer) and
adds the rejoin penalty `alpha * sqrt(5)`, converted to 1, to the arc 8→9 of the other path,
which then has length 6. The path 0→1→2→3→4→9 stays the shortest one, and when `run()`
returns `get_alt_graph()` holds exactly the five arcs of that path (shown for the forward
thread running alone and for an alternation of the two search threads). -/
theorem C18_ladder_run :
    PenaltyService.apply_penalties defaultParams stdConstants ⟨[0, 1, 2, 3, 4, 9], 5⟩ 5 ladder =
      Outcome.ok (ladder.change_edge_weight 8 9 2) ∧
    defaultParams.penalize 1 = 1 ∧ rounded_penalty 1 = 1 ∧ defaultParams.rejoin_penalty 5 = 1 ∧
    path_weight stdConstants (ladder.change_edge_weight 8 9 2) [0, 1, 2, 3, 4, 9] = 5 ∧
    path_weight stdConstants (ladder.change_edge_weight 8 9 2) [0, 5, 6, 7, 8, 9] = 6 ∧
    penalty_query defaultParams stdConstants 12 ladder [0, 1, 2, 3, 4, 5, 6, 7, 8, 9] [] 0 9 =
      Outcome.ok ((((((Graph.new 10).add_edge 0 ⟨1, 1⟩).add_edge 1 ⟨2, 1⟩).add_edge 2
        ⟨3, 1⟩).add_edge 3 ⟨4, 1⟩).add_edge 4 ⟨9, 1⟩) ∧
    penalty_query defaultParams stdConstants 12 ladder [0, 1, 2, 3, 4, 5, 6, 7, 8, 9]
        [[false, true, false, true], [false, true, false, true, false, true]] 0 9 =
      Outcome.ok ((((((Graph.new 10).add_edge 0 ⟨1, 1⟩).add_edge 1 ⟨2, 1⟩).add_edge 2
        ⟨3, 1⟩).add_edge 3 ⟨4, 1⟩).add_edge 4 ⟨9, 1⟩) :=
  ⟨ladder_penalised, by decide!, by decide, by decide!, by decide!, by decide!, ladder_run_alone,
    ladder_run_alternating⟩

/-- C19 (failing input): in the graph `two_detours` the candidate 0→4→1→5→6→2→3 has two
detours with respect to the original path 0→1→2→3 of length 100. The second one, 1→5→6→2,
has length 50, which is at least `delta * 100` and at most `(1 + eps)` times the Dijkstra
distance 48 between 1 and 2 in `alt_graph`, yet `is_feasible` returns false: `get_detours`
does not advance `intersection_index` when a detour ends, so it reports the first detour
0→4→1 (length 12, more than `(1 + eps) * 10`) and no other. The candidate 0→1→5→6→2→3 with
the second detour alone is accepted. -/
theorem C19_second_detour_missed :
    feasibility_query defaultParams stdConstants 10 two_detours ⟨Graph.new 7, Graph.new 7, []⟩
      ⟨[0, 4, 1, 5, 6, 2, 3], 104⟩ ⟨[0, 1, 2, 3], 100⟩ = Outcome.ok false ∧
    IsDetour [0, 4, 1, 5, 6, 2, 3] [0, 1, 2, 3] [1, 5, 6, 2] ∧
    path_weight stdConstants two_detours [1, 5, 6, 2] = 50 ∧
    defaultParams.long_enough 50 100 = true ∧
    dijkstra_query stdConstants 10
      ((((Graph.new 7).add_edge 0 ⟨1, 10⟩).add_edge 1 ⟨2, 48⟩).add_edge 2 ⟨3, 42⟩) 1 2 =
        Outcome.ok 48 ∧
    defaultParams.within_eps 50 48 = true ∧
    (PenaltyService.get_detours stdConstants two_detours (BoolSet.new 7)
      ⟨[0, 4, 1, 5, 6, 2, 3], 104⟩ ⟨[0, 1, 2, 3], 100⟩).bind (fun r => Outcome.ok r.1) =
        Outcome.ok [⟨0, 1, 12⟩] ∧
    feasibility_query defaultParams stdConstants 10 two_detours ⟨Graph.new 7, Graph.new 7, []⟩
      ⟨[0, 1, 5, 6, 2, 3], 102⟩ ⟨[0, 1, 2, 3], 100⟩ = Outcome.ok true := by
  refine ⟨by decide!, ?_, by decide, by decide!, by decide, by decide!, by rfl, by decide!⟩
  exact ⟨[0, 4], [3], 1, [5, 6], 2, rfl, rfl, by decide, by decide, by decide, by decide⟩

end PenAstar

namespace PenAstar

open BidirectionalAStarService

namespace TimestampVector

theorem set_of_length_le (v : TimestampVector) (i x : Nat) (h : v.vec.length ≤ i) :
    v.set i x = v := by
  unfold TimestampVector.set
  rw [List.set_eq_of_length_le h]

/-- An entry read after `set` is the value written or the entry read before. -/
theorem get_set_cases (v : TimestampVector) (i x j : Nat) :
    (i = j ∧ (v.set i x).get j = x) ∨ (v.set i x).get j = v.get j := by
  by_cases hij : i = j
  · by_cases hi : i < v.vec.length
    · left
      exact ⟨hij, by rw [← hij]; exact get_set_eq v i x hi⟩
    · right
      rw [set_of_length_le v i x (Nat.le_of_not_lt hi)]
  · right
    exact get_set_ne v i j x hij

/-- With every stamp older than the epoch, every read yields the default. -/
theorem get_of_stale (v : TimestampVector) (ht : 0 < v.t) (h : ∀ p ∈ v.vec, p.2 < v.t)
    (x : Nat) : v.get x = v.default_value := by
  apply get_of_not_has
  unfold TimestampVector.has
  by_cases hx : x < v.vec.length
  · have hm : v.vec.getD x (0, 0) ∈ v.vec := by
      rw [List.getD_eq_getElem _ _ hx]
      exact List.getElem_mem hx
    have := h _ hm
    simp only [decide_eq_false_iff_not]
    omega
  · rw [List.getD_eq_default _ _ (Nat.le_of_not_lt hx)]
    simp only [decide_eq_false_iff_not]
    omega

theorem stale_step_time (v : TimestampVector) (h : ∀ p ∈ v.vec, p.2 ≤ v.t)
    (ht : v.t + 1 < wrap32) :
    v.step_time.t = v.t + 1 ∧ v.step_time.default_value = v.default_value ∧
      ∀ p ∈ v.step_time.vec, p.2 < v.t + 1 := by
  refine ⟨Nat.mod_eq_of_lt ht, rfl, ?_⟩
  intro p hp
  have := h p hp
  omega

end TimestampVector

theorem CoreEq.same_core (b : BidirectionalAStarService) : CoreEq b b := ⟨rfl, rfl, rfl⟩

theorem CoreEq.trans_core {a b d : BidirectionalAStarService} (h1 : CoreEq a b) (h2 : CoreEq b d) :
    CoreEq a d :=
  ⟨h2.1.trans h1.1, h2.2.1.trans h1.2.1, h2.2.2.trans h1.2.2⟩

theorem ParInv.of_coreEq {c : Constants} {g : Graph} {T : Nat}
    {b b' : BidirectionalAStarService} (h : ParInv c g T b) (he : CoreEq b b') :
    ParInv c g T b' := by
  obtain ⟨h1, h2, h3⟩ := he
  exact
  { hg := by rw [h1]; exact h.hg
    hfd := by rw [h2]; exact h.hfd
    hrd := by rw [h3]; exact h.hrd
    hft := by rw [h2]; exact h.hft
    hrt := by rw [h3]; exact h.hrt
    hfs := by rw [h2]; exact h.hfs
    hrs := by rw [h3]; exact h.hrs
    hf := by rw [h2]; exact h.hf
    hr := by rw [h3]; exact h.hr }

theorem heur_f1_frame {fuel : Nat} {b b' : BidirectionalAStarService} {n h : Nat}
    (hh : heur_f1 fuel b n = Outcome.ok (h, b')) : CoreEq b b' := by
  unfold heur_f1 at hh
  split at hh <;> (try split at hh) <;> (try split at hh) <;>
    first
    | (cases hh; exact ⟨rfl, rfl, rfl⟩)
    | cases hh

theorem heur_r1_frame {fuel : Nat} {b b' : BidirectionalAStarService} {n h : Nat}
    (hh : heur_r1 fuel b n = Outcome.ok (h, b')) : CoreEq b b' := by
  unfold heur_r1 at hh
  split at hh <;> (try split at hh) <;> (try split at hh) <;>
    first
    | (cases hh; exact ⟨rfl, rfl, rfl⟩)
    | cases hh

theorem heur_f2_frame {fuel : Nat} {b b' : BidirectionalAStarService} {n h : Nat}
    (hh : heur_f2 fuel b n = Outcome.ok (h, b')) : CoreEq b b' := by
  unfold heur_f2 at hh
  split at hh <;> (try split at hh) <;> (try split at hh) <;>
    first
    | (cases hh; exact ⟨rfl, rfl, rfl⟩)
    | cases hh

theorem heur_r2_frame {fuel : Nat} {b b' : BidirectionalAStarService} {n h : Nat}
    (hh : heur_r2 fuel b n = Outcome.ok (h, b')) : CoreEq b b' := by
  unfold heur_r2 at hh
  split at hh <;> (try split at hh) <;> (try split at hh) <;>
    first
    | (cases hh; exact ⟨rfl, rfl, rfl⟩)
    | cases hh

/-- What one arc relaxation of `step_f` does to the graph and the parent vectors. -/
theorem relax_f_frame {fuel : Nat} {b b' : BidirectionalAStarService} {best : Nat} {arc : Edge}
    (hh : relax_f fuel b best arc = Outcome.ok b') :
    b'.g = b.g ∧ b'.par_r = b.par_r ∧
      (b'.par_f = b.par_f ∨ b'.par_f = b.par_f.set arc.target best) := by
  unfold relax_f at hh
  simp only at hh
  split at hh <;> (try split at hh) <;> (try split at hh) <;> (try split at hh) <;>
    (try split at hh) <;> (try split at hh) <;>
    first
    | (cases hh; done)
    | (cases hh; exact ⟨rfl, rfl, Or.inl rfl⟩)
    | (cases hh
       obtain ⟨h1, h2, h3⟩ := heur_f1_frame (by assumption)
       exact ⟨h1, h3, Or.inr h2⟩)

/-- What one arc relaxation of `step_r` does to the graph and the parent vectors. -/
theorem relax_r_frame {fuel : Nat} {b b' : BidirectionalAStarService} {best : Nat} {arc : Edge}
    (hh : relax_r fuel b best arc = Outcome.ok b') :
    b'.g = b.g ∧ b'.par_f = b.par_f ∧
      (b'.par_r = b.par_r ∨ b'.par_r = b.par_r.set arc.target best) := by
  unfold relax_r at hh
  simp only at hh
  split at hh <;> (try split at hh) <;> (try split at hh) <;> (try split at hh) <;>
    (try split at hh) <;> (try split at hh) <;>
    first
    | (cases hh; done)
    | (cases hh; exact ⟨rfl, rfl, Or.inl rfl⟩)
    | (cases hh
       obtain ⟨h1, h2, h3⟩ := heur_r2_frame (by assumption)
       exact ⟨h1, h2, Or.inr h3⟩)

theorem ParInv.set_par_f {c : Constants} {g : Graph} {T : Nat} {b b' : BidirectionalAStarService}
    (h : ParInv c g T b) {x p : Nat} (hp : p = c.invalid_id ∨ HasArc g p x) (hg : b'.g = b.g)
    (hr : b'.par_r = b.par_r) (hf : b'.par_f = b.par_f.set x p) : ParInv c g T b' :=
  { hg := by rw [hg]; exact h.hg
    hfd := by rw [hf]; exact h.hfd
    hrd := by rw [hr]; exact h.hrd
    hft := by rw [hf]; exact h.hft
    hrt := by rw [hr]; exact h.hrt
    hfs := by rw [hf]; exact DijkstraService.stampsLe_set _ _ _ h.hfs
    hrs := by rw [hr]; exact h.hrs
    hf := by
      intro y hy
      rw [hf] at hy ⊢
      rcases TimestampVector.get_set_cases b.par_f x p y with ⟨hxy, hget⟩ | hget
      · rw [hget] at hy ⊢
        rcases hp with hp | hp
        · exact absurd hp hy
        · rw [← hxy]; exact hp
      · rw [hget] at hy ⊢
        exact h.hf y hy
    hr := by rw [hr]; exact h.hr }

theorem ParInv.set_par_r {c : Constants} {g : Graph} {T : Nat} {b b' : BidirectionalAStarService}
    (h : ParInv c g T b) {x p : Nat} (hp : p = c.invalid_id ∨ HasArc g x p) (hg : b'.g = b.g)
    (hf : b'.par_f = b.par_f) (hr : b'.par_r = b.par_r.set x p) : ParInv c g T b' :=
  { hg := by rw [hg]; exact h.hg
    hfd := by rw [hf]; exact h.hfd
    hrd := by rw [hr]; exact h.hrd
    hft := by rw [hf]; exact h.hft
    hrt := by rw [hr]; exact h.hrt
    hfs := by rw [hf]; exact h.hfs
    hrs := by rw [hr]; exact DijkstraService.stampsLe_set _ _ _ h.hrs
    hf := by rw [hf]; exact h.hf
    hr := by
      intro y hy
      rw [hr] at hy ⊢
      rcases TimestampVector.get_set_cases b.par_r x p y with ⟨hxy, hget⟩ | hget
      · rw [hget] at hy ⊢
        rcases hp with hp | hp
        · exact absurd hp hy
        · rw [← hxy]; exact hp
      · rw [hget] at hy ⊢
        exact h.hr y hy }

theorem ParInv.relax_f {c : Constants} {g : Graph} {T : Nat} {b b' : BidirectionalAStarService}
    (h : ParInv c g T b) {fuel best : Nat} {arc : Edge} (harc : arc ∈ g.get_out_arcs best)
    (hh : BidirectionalAStarService.relax_f fuel b best arc = Outcome.ok b') :
    ParInv c g T b' := by
  obtain ⟨h1, h2, h3 | h3⟩ := relax_f_frame hh
  · exact h.of_coreEq ⟨h1, h3, h2⟩
  · exact h.set_par_f (Or.inr ⟨arc, harc, rfl⟩) h1 h2 h3

theorem ParInv.relax_r {c : Constants} {g : Graph} {T : Nat} {b b' : BidirectionalAStarService}
    (h : ParInv c g T b) (hc : g.Consistent) {fuel best : Nat} {arc : Edge}
    (harc : arc ∈ g.get_rev_out_arcs best)
    (hh : BidirectionalAStarService.relax_r fuel b best arc = Outcome.ok b') :
    ParInv c g T b' := by
  obtain ⟨h1, h2, h3 | h3⟩ := relax_r_frame hh
  · exact h.of_coreEq ⟨h1, h2, h3⟩
  · refine h.set_par_r (Or.inr ?_) h1 h2 h3
    have he : arc = (⟨arc.target, arc.weight⟩ : Edge) := by cases arc; rfl
    rw [he] at harc
    exact ⟨⟨best, arc.weight⟩, (hc.2.1 arc.target best arc.weight).2 harc, rfl⟩

/-- A loop over arcs keeps what each pass of its body keeps. -/
theorem relax_arcs_inv (P : BidirectionalAStarService → Prop)
    (body : BidirectionalAStarService → Edge → Outcome BidirectionalAStarService)
    (arcs : List Edge)
    (hbody : ∀ b arc b', arc ∈ arcs → P b → body b arc = Outcome.ok b' → P b') :
    ∀ b b', P b → relax_arcs body arcs b = Outcome.ok b' → P b' := by
  induction arcs with
  | nil =>
    intro b b' hb hh
    unfold relax_arcs at hh
    cases hh
    exact hb
  | cons arc rest ih =>
    intro b b' hb hh
    unfold relax_arcs at hh
    split at hh
    · rename_i b1 hb1
      exact ih (fun b2 a b3 ha => hbody b2 a b3 (List.mem_cons_of_mem _ ha)) b1 b'
        (hbody b arc b1 (List.mem_cons_self _ _) hb hb1) hh
    · cases hh
    · cases hh
    · cases hh

theorem ParInv.step_f {c : Constants} {g : Graph} {T : Nat} {b b' : BidirectionalAStarService}
    (h : ParInv c g T b) {fuel : Nat}
    (hh : BidirectionalAStarService.step_f fuel b = Outcome.ok b') : ParInv c g T b' := by
  unfold BidirectionalAStarService.step_f at hh
  split at hh
  · cases hh
  · rename_i best q hpop
    refine relax_arcs_inv (ParInv c g T) _ _ ?_ _ b' ?_ hh
    · intro b1 arc b2 harc hb1 hb2
      rw [h.hg] at harc
      exact hb1.relax_f harc hb2
    · exact h.of_coreEq ⟨rfl, rfl, rfl⟩

theorem ParInv.step_r {c : Constants} {g : Graph} {T : Nat} {b b' : BidirectionalAStarService}
    (h : ParInv c g T b) (hc : g.Consistent) {fuel : Nat}
    (hh : BidirectionalAStarService.step_r fuel b = Outcome.ok b') : ParInv c g T b' := by
  unfold BidirectionalAStarService.step_r at hh
  split at hh
  · cases hh
  · rename_i best q hpop
    refine relax_arcs_inv (ParInv c g T) _ _ ?_ _ b' ?_ hh
    · intro b1 arc b2 harc hb1 hb2
      rw [h.hg] at harc
      exact hb1.relax_r hc harc hb2
    · exact h.of_coreEq ⟨rfl, rfl, rfl⟩

theorem ParInv.iteration_f {c : Constants} {g : Graph} {T : Nat}
    {b b' : BidirectionalAStarService} (h : ParInv c g T b) {fuel : Nat} {go : Bool}
    (hh : BidirectionalAStarService.iteration_f c fuel b = Outcome.ok (go, b')) :
    ParInv c g T b' := by
  unfold BidirectionalAStarService.iteration_f at hh
  split at hh
  · rename_i hv b1 hheur
    have hb1 := h.of_coreEq (heur_f1_frame hheur)
    split at hh
    · split at hh
      · rename_i b2 hstep
        cases hh
        exact (hb1.step_f hstep).of_coreEq ⟨rfl, rfl, rfl⟩
      · cases hh
      · cases hh
      · cases hh
    · cases hh
      exact hb1
  · cases hh
  · cases hh
  · cases hh

theorem ParInv.iteration_r {c : Constants} {g : Graph} {T : Nat}
    {b b' : BidirectionalAStarService} (h : ParInv c g T b) (hc : g.Consistent) {fuel : Nat}
    {go : Bool} (hh : BidirectionalAStarService.iteration_r c fuel b = Outcome.ok (go, b')) :
    ParInv c g T b' := by
  unfold BidirectionalAStarService.iteration_r at hh
  split at hh
  · rename_i hv b1 hheur
    have hb1 := h.of_coreEq (heur_f2_frame hheur)
    split at hh
    · split at hh
      · rename_i b2 hstep
        cases hh
        exact (hb1.step_r hc hstep).of_coreEq ⟨rfl, rfl, rfl⟩
      · cases hh
      · cases hh
      · cases hh
    · cases hh
      exact hb1
  · cases hh
  · cases hh
  · cases hh

theorem ParInv.run_threads {c : Constants} {g : Graph} {T : Nat} (hc : g.Consistent)
    (fuel : Nat) :
    ∀ (n : Nat) (sched : List Bool) (run_f run_r : Bool) (b b' : BidirectionalAStarService),
      ParInv c g T b →
      BidirectionalAStarService.run_threads c fuel n sched run_f run_r b = Outcome.ok b' →
      ParInv c g T b' := by
  intro n
  induction n with
  | zero =>
    intro sched run_f run_r b b' _ hh
    unfold BidirectionalAStarService.run_threads at hh
    cases hh
  | succ n ih =>
    intro sched run_f run_r b b' hb hh
    unfold BidirectionalAStarService.run_threads at hh
    split at hh
    · cases hh
      exact hb
    · split at hh
      · split at hh
        · rename_i go b1 hit
          exact ih _ _ _ b1 b' (hb.iteration_f hit) hh
        · cases hh
        · cases hh
        · cases hh
      · split at hh
        · rename_i go b1 hit
          exact ih _ _ _ b1 b' (hb.iteration_r hc hit) hh
        · cases hh
        · cases hh
        · cases hh

end PenAstar

namespace PenAstar

open BidirectionalAStarService

/-- A service whose parent vectors are stale satisfies the parent invariant on any
graph. -/
theorem ParFresh.parInv {c : Constants} {T : Nat} {b : BidirectionalAStarService}
    (h : ParFresh c T b) (g : Graph) : ParInv c g T { b with g := g } :=
  { hg := rfl
    hfd := h.hfd
    hrd := h.hrd
    hft := h.hft
    hrt := h.hrt
    hfs := fun p hp => by
      have := h.hfs p hp
      have h2 : b.par_f.t = T := h.hft
      show p.2 ≤ b.par_f.t
      omega
    hrs := fun p hp => by
      have := h.hrs p hp
      have h2 : b.par_r.t = T := h.hrt
      show p.2 ≤ b.par_r.t
      omega
    hf := by
      intro x hx
      exfalso
      apply hx
      show b.par_f.get x = c.invalid_id
      rw [TimestampVector.get_of_stale _ (by rw [h.hft]; exact h.hT)
        (by rw [h.hft]; exact h.hfs), h.hfd]
    hr := by
      intro x hx
      exfalso
      apply hx
      show b.par_r.get x = c.invalid_id
      rw [TimestampVector.get_of_stale _ (by rw [h.hrt]; exact h.hT)
        (by rw [h.hrt]; exact h.hrs), h.hrd] }

theorem ParInv.run_setup {c : Constants} {g : Graph} {T : Nat}
    {b b' : BidirectionalAStarService} (h : ParInv c g T b) {fuel source target : Nat}
    (hh : BidirectionalAStarService.run_setup c fuel b source target = Outcome.ok b') :
    ParInv c g T b' := by
  unfold BidirectionalAStarService.run_setup at hh
  split at hh
  · split at hh
    · split at hh
      · split at hh
        · simp only at hh
          split at hh
          · rename_i hf1 b2 hh1
            split at hh
            · rename_i hr1 b3 hh2
              split at hh
              · rename_i hf2 b4 hh3
                split at hh
                · rename_i hf3 b6 hh4
                  split at hh
                  · rename_i hr2 b7 hh5
                    cases hh
                    have e1 := heur_f1_frame hh1
                    have e2 := heur_r1_frame hh2
                    have e3 := heur_f1_frame hh3
                    have e4 := heur_f1_frame hh4
                    have e5 := heur_r1_frame hh5
                    have hb1 : ParInv c g T
                        { b with par_f := b.par_f.set source c.invalid_id } :=
                      h.set_par_f (Or.inl rfl) rfl rfl rfl
                    have hb1' : ParInv c g T
                        { b with par_f := b.par_f.set source c.invalid_id,
                                 par_r := b.par_r.set target c.invalid_id } :=
                      hb1.set_par_r (Or.inl rfl) rfl rfl rfl
                    have hb2 : ParInv c g T b2 := hb1'.of_coreEq ⟨e1.1, e1.2.1, e1.2.2⟩
                    have hb3 : ParInv c g T b3 := hb2.of_coreEq ⟨e2.1, e2.2.1, e2.2.2⟩
                    have hb4 : ParInv c g T b4 := hb3.of_coreEq ⟨e3.1, e3.2.1, e3.2.2⟩
                    have hb6 : ParInv c g T b6 := hb4.of_coreEq ⟨e4.1, e4.2.1, e4.2.2⟩
                    have hb7 : ParInv c g T b7 := hb6.of_coreEq ⟨e5.1, e5.2.1, e5.2.2⟩
                    exact hb7.of_coreEq ⟨rfl, rfl, rfl⟩
                  all_goals cases hh
                all_goals cases hh
              all_goals cases hh
            all_goals cases hh
          all_goals cases hh
        all_goals cases hh
      all_goals cases hh
    all_goals cases hh
  all_goals cases hh

/-- The first loop of `get_path`: the nodes pushed form a chain of forward parents. -/
theorem walk_par_f_spec {c : Constants} {g : Graph} {T : Nat} {b : BidirectionalAStarService}
    (h : ParInv c g T b) :
    ∀ (fuel current : Nat) (nodes res : List Nat),
      walk_par_f c b fuel current nodes = Outcome.ok res →
      List.Chain' (fun x p => HasArc g p x) nodes →
      (∀ l, nodes.getLast? = some l → current ≠ c.invalid_id → HasArc g current l) →
      List.Chain' (fun x p => HasArc g p x) res ∧
        (current ≠ c.invalid_id → ∃ rest, res = nodes ++ current :: rest) ∧
        (current = c.invalid_id → res = nodes) := by
  intro fuel
  induction fuel with
  | zero =>
    intro current nodes res hh
    unfold walk_par_f at hh
    cases hh
  | succ fuel ih =>
    intro current nodes res hh hQ hlast
    unfold walk_par_f at hh
    split at hh
    · rename_i hcur
      cases hh
      exact ⟨hQ, fun h2 => absurd hcur h2, fun _ => rfl⟩
    · rename_i hcur
      split at hh
      · obtain ⟨h1, h2, h3⟩ := ih (b.par_f.get current) (nodes ++ [current]) res hh
          (by
            rw [List.chain'_append]
            refine ⟨hQ, List.chain'_singleton _, ?_⟩
            intro x hx y hy
            simp only [List.head?_cons, Option.mem_def, Option.some.injEq] at hy
            rw [← hy]
            exact hlast x hx hcur)
          (by
            intro l hl hne
            have hl2 : (nodes ++ [current]).getLast? = some current := by simp
            rw [hl2] at hl
            cases hl
            exact h.hf current hne)
        refine ⟨h1, fun _ => ?_, fun h4 => absurd h4 hcur⟩
        by_cases hp : b.par_f.get current = c.invalid_id
        · refine ⟨[], ?_⟩
          rw [h3 hp]
        · obtain ⟨rest, hrest⟩ := h2 hp
          refine ⟨b.par_f.get current :: rest, ?_⟩
          rw [hrest]
          simp
      · cases hh

/-- The second loop of `get_path`: the nodes pushed form a chain of reverse parents, ended
by `invalid_id`. -/
theorem walk_par_r_spec {c : Constants} {g : Graph} {T : Nat} {b : BidirectionalAStarService}
    (h : ParInv c g T b) :
    ∀ (fuel current : Nat) (pre res : List Nat),
      walk_par_r c b fuel current (pre ++ [current]) = Outcome.ok res →
      List.Chain' (HasArc g) pre →
      (current ≠ c.invalid_id → List.Chain' (HasArc g) (pre ++ [current])) →
      ∃ pre2, res = pre2 ++ [c.invalid_id] ∧ List.Chain' (HasArc g) pre2 := by
  intro fuel
  induction fuel with
  | zero =>
    intro current pre res hh
    unfold walk_par_r at hh
    cases hh
  | succ fuel ih =>
    intro current pre res hh hpre hcur
    unfold walk_par_r at hh
    split at hh
    · rename_i hc
      cases hh
      exact ⟨pre, by rw [hc], hpre⟩
    · rename_i hc
      split at hh
      · refine ih (b.par_r.get current) (pre ++ [current]) res hh (hcur hc) ?_
        intro hne
        rw [List.chain'_append]
        refine ⟨hcur hc, List.chain'_singleton _, ?_⟩
        intro x hx y hy
        have hx2 : (pre ++ [current]).getLast? = some current := by simp
        simp only [Option.mem_def] at hx
        rw [hx2] at hx
        cases hx
        simp only [List.head?_cons, Option.mem_def, Option.some.injEq] at hy
        rw [← hy]
        exact h.hr current hne
      · cases hh

/-- Every pair of consecutive nodes of the path that `get_path` returns is joined by an arc
of the searched graph. -/
theorem get_path_pairs {c : Constants} {g : Graph} {T : Nat} {b : BidirectionalAStarService}
    (h : ParInv c g T b) {fuel : Nat} {path : Path}
    (hh : BidirectionalAStarService.get_path c fuel b = Outcome.ok path) :
    List.Chain' (HasArc g) path.nodes := by
  unfold BidirectionalAStarService.get_path at hh
  split at hh
  · rename_i nodes hf
    split at hh
    · rename_i nodes2 hr
      split at hh
      · cases hh
      · rename_i hne
        cases hh
        obtain ⟨hQ, h2, h3⟩ := walk_par_f_spec h fuel b.best_node [] nodes hf List.chain'_nil
          (by intro l hl; simp at hl)
        by_cases hb : b.best_node = c.invalid_id
        · exfalso
          rw [h3 hb] at hr
          cases fuel with
          | zero =>
            unfold walk_par_r at hr
            cases hr
          | succ k =>
            unfold walk_par_r at hr
            rw [if_pos hb] at hr
            cases hr
            exact hne rfl
        · obtain ⟨rest, hrest⟩ := h2 hb
          simp only [List.nil_append] at hrest
          have hrev : nodes.reverse = rest.reverse ++ [b.best_node] := by
            rw [hrest, List.reverse_cons]
          have hchain : List.Chain' (HasArc g) nodes.reverse := by
            rw [List.chain'_reverse]
            exact hQ
          rw [hrev] at hr hchain
          obtain ⟨pre2, hres, hpre2⟩ := walk_par_r_spec h fuel b.best_node rest.reverse nodes2 hr
            (by
              rw [List.chain'_append] at hchain
              exact hchain.1)
            (fun _ => hchain)
          show List.Chain' (HasArc g) nodes2.dropLast
          rw [hres, List.dropLast_concat]
          exact hpre2
    · cases hh
    · cases hh
    · cases hh
  · cases hh
  · cases hh
  · cases hh

/-- One call `run(source, target)` on a service with stale parent vectors, searching the
consistent graph `g`: the path returned joins consecutive nodes by arcs of `g`, and the
parent vectors are stale again in the next epoch. -/
theorem bidirectional_run_pairs {c : Constants} {g : Graph} {T : Nat}
    {b : BidirectionalAStarService} (hfresh : ParFresh c T b) (hc : g.Consistent)
    (hT : T + 1 < wrap32) {fuel : Nat} {sched : List Bool} {source target : Nat}
    {path : Path} {b' : BidirectionalAStarService}
    (hh : BidirectionalAStarService.run c fuel sched { b with g := g } source target
      = Outcome.ok (path, b')) :
    List.Chain' (HasArc g) path.nodes ∧ ParFresh c (T + 1) b' := by
  unfold BidirectionalAStarService.run at hh
  split at hh
  · rename_i b1 hsetup
    have hb1 := (hfresh.parInv g).run_setup hsetup
    split at hh
    · rename_i b2 hthreads
      have hb2 := ParInv.run_threads hc fuel fuel sched true true b1 b2 hb1 hthreads
      split at hh
      · rename_i ret hpath
        cases hh
        refine ⟨get_path_pairs hb2 hpath, ?_⟩
        obtain ⟨hf1, hf2, hf3⟩ := TimestampVector.stale_step_time b2.par_f hb2.hfs
          (by rw [hb2.hft]; exact hT)
        obtain ⟨hr1, hr2, hr3⟩ := TimestampVector.stale_step_time b2.par_r hb2.hrs
          (by rw [hb2.hrt]; exact hT)
        exact
        { hT := Nat.succ_pos T
          hfd := hf2.trans hb2.hfd
          hrd := hr2.trans hb2.hrd
          hft := by rw [← hb2.hft]; exact hf1
          hrt := by rw [← hb2.hrt]; exact hr1
          hfs := by rw [← hb2.hft]; exact hf3
          hrs := by rw [← hb2.hrt]; exact hr3 }
      · cases hh
      · cases hh
      · cases hh
    · cases hh
    · cases hh
    · cases hh
  · cases hh
  · cases hh
  · cases hh

end PenAstar

namespace PenAstar

open Graph PenaltyService

theorem hasArc_iff (g : Graph) (a b : Nat) :
    HasArc g a b ↔ first_weight (g.get_out_arcs a) b ≠ none := by
  unfold HasArc
  rw [Ne, first_weight_none_iff]
  push_neg
  rfl

theorem HasArc.lt {g : Graph} (hc : g.Consistent) {a b : Nat} (h : HasArc g a b) :
    a < g.size ∧ b < g.size := by
  obtain ⟨e, he, hb⟩ := h
  have := hc.arc_lt g a e he
  rw [hb] at this
  exact this

theorem SameArcs.same_arcs (g : Graph) : SameArcs g g := fun _ _ => Iff.rfl

theorem SameArcs.trans_arcs {g pen pen' : Graph} (h1 : SameArcs g pen) (h2 : SameArcs pen pen') :
    SameArcs g pen' := fun a b => (h2 a b).trans (h1 a b)

theorem SameArcs.chain {g pen : Graph} (h : SameArcs g pen) {l : List Nat}
    (hl : List.Chain' (HasArc pen) l) : List.Chain' (HasArc g) l :=
  hl.imp (fun {a b} hab => (h a b).1 hab)

theorem SameArcs.chain_rev {g pen : Graph} (h : SameArcs g pen) {l : List Nat}
    (hl : List.Chain' (HasArc g) l) : List.Chain' (HasArc pen) l :=
  hl.imp (fun {a b} hab => (h a b).2 hab)

/-- `change_edge_weight` on an arc of a consistent graph keeps consistency and the pairs
joined by arcs. -/
theorem change_edge_weight_same {pen : Graph} (hc : pen.Consistent) {u v : Nat}
    (h : HasArc pen u v) (w : Nat) :
    (pen.change_edge_weight u v w).Consistent ∧ SameArcs pen (pen.change_edge_weight u v w) := by
  obtain ⟨hu, hv⟩ := h.lt hc
  obtain ⟨hc', hw⟩ := change_edge_weight_spec pen hc u v w hu hv
  refine ⟨hc', ?_⟩
  intro a b
  rw [hasArc_iff, hasArc_iff, hw]
  by_cases hab : a = u ∧ b = v
  · rw [if_pos hab, hab.1, hab.2]
    cases first_weight (pen.get_out_arcs u) v <;> simp
  · rw [if_neg hab]

theorem penalize_path_same (p : PenaltyParams) (c : Constants) :
    ∀ (nodes : List Nat) (pen : Graph), pen.Consistent → List.Chain' (HasArc pen) nodes →
      (penalize_path p c nodes pen).Consistent ∧ SameArcs pen (penalize_path p c nodes pen) := by
  intro nodes
  induction nodes with
  | nil =>
    intro pen hc _
    exact ⟨hc, SameArcs.same_arcs pen⟩
  | cons u rest ih =>
    intro pen hc hch
    cases rest with
    | nil => exact ⟨hc, SameArcs.same_arcs pen⟩
    | cons v rest2 =>
      unfold penalize_path
      rw [List.chain'_cons] at hch
      obtain ⟨h1, h2⟩ := change_edge_weight_same hc hch.1
        (p.penalize (pen.get_edge_weight c u v))
      obtain ⟨h3, h4⟩ := ih _ h1 (h2.chain_rev hch.2)
      exact ⟨h3, h2.trans_arcs h4⟩

theorem penalize_rejoin_arcs_same (c : Constants) (rejoin_penalty v : Nat) (prev : Option Nat) :
    ∀ (us : List Nat) (pen : Graph), pen.Consistent → (∀ u ∈ us, HasArc pen u v) →
      (penalize_rejoin_arcs c rejoin_penalty v prev us pen).Consistent ∧
        SameArcs pen (penalize_rejoin_arcs c rejoin_penalty v prev us pen) := by
  intro us
  induction us with
  | nil =>
    intro pen hc _
    exact ⟨hc, SameArcs.same_arcs pen⟩
  | cons u rest ih =>
    intro pen hc hus
    unfold penalize_rejoin_arcs
    split
    · obtain ⟨h1, h2⟩ := change_edge_weight_same hc (hus u (List.mem_cons_self _ _))
        ((pen.get_edge_weight c u v + rejoin_penalty) % wrap32)
      obtain ⟨h3, h4⟩ := ih _ h1
        (fun u' hu' => (h2 u' v).2 (hus u' (List.mem_cons_of_mem _ hu')))
      exact ⟨h3, h2.trans_arcs h4⟩
    · exact ih pen hc (fun u' hu' => hus u' (List.mem_cons_of_mem _ hu'))

theorem penalize_rejoin_same (c : Constants) (rejoin_penalty : Nat) :
    ∀ (nodes : List Nat) (prev : Option Nat) (pen : Graph), pen.Consistent →
      (penalize_rejoin c rejoin_penalty prev nodes pen).Consistent ∧
        SameArcs pen (penalize_rejoin c rejoin_penalty prev nodes pen) := by
  intro nodes
  induction nodes with
  | nil =>
    intro prev pen hc
    exact ⟨hc, SameArcs.same_arcs pen⟩
  | cons v rest ih =>
    intro prev pen hc
    unfold penalize_rejoin
    obtain ⟨h1, h2⟩ := penalize_rejoin_arcs_same c rejoin_penalty v prev
      ((pen.get_rev_out_arcs v).map Edge.target) pen hc (by
        intro u hu
        obtain ⟨e, he, heu⟩ := List.mem_map.1 hu
        have he2 : e = (⟨e.target, e.weight⟩ : Edge) := by cases e; rfl
        rw [he2] at he
        refine ⟨⟨v, e.weight⟩, ?_, rfl⟩
        rw [← heu]
        exact (hc.2.1 e.target v e.weight).2 he)
    obtain ⟨h3, h4⟩ := ih (some v) _ h1
    exact ⟨h3, h2.trans_arcs h4⟩

theorem apply_penalties_same (p : PenaltyParams) (c : Constants) (path : Path) (l : Nat)
    (pen pen' : Graph) (hc : pen.Consistent) (hch : List.Chain' (HasArc pen) path.nodes)
    (hh : apply_penalties p c path l pen = Outcome.ok pen') :
    pen'.Consistent ∧ SameArcs pen pen' := by
  unfold apply_penalties at hh
  split at hh
  · cases hh
  · cases hh
    obtain ⟨h1, h2⟩ := penalize_path_same p c path.nodes pen hc hch
    obtain ⟨h3, h4⟩ := penalize_rejoin_same c (p.rejoin_penalty l) path.nodes none _ h1
    exact ⟨h3, h2.trans_arcs h4⟩

/-- `add_path_to_graph` with a path along arcs of `g` adds arcs of `g` with their weights
in `g`. -/
theorem add_path_loop_arcs (c : Constants) (g : Graph) (hc : g.Consistent) :
    ∀ (nodes : List Nat) (alt : Graph), alt.Consistent → alt.size = g.size → ArcsFrom g alt →
      List.Chain' (HasArc g) nodes →
      (add_path_loop c g nodes alt).Consistent ∧ (add_path_loop c g nodes alt).size = g.size ∧
        ArcsFrom g (add_path_loop c g nodes alt) := by
  intro nodes
  induction nodes with
  | nil =>
    intro alt h1 h2 h3 _
    exact ⟨h1, h2, h3⟩
  | cons a rest ih =>
    intro alt h1 h2 h3 hch
    cases rest with
    | nil => exact ⟨h1, h2, h3⟩
    | cons b rest2 =>
      unfold add_path_loop
      rw [List.chain'_cons] at hch
      obtain ⟨hab, hrest⟩ := hch
      obtain ⟨ha, hb⟩ := hab.lt hc
      obtain ⟨e, he, heb⟩ := hab
      have hw : g.get_edge_weight c a b = e.weight := by
        unfold get_edge_weight
        rw [← heb, (mem_iff_first_weight hc a e).1 he]
        rfl
      have hedge : (⟨b, g.get_edge_weight c a b⟩ : Edge) = e := by
        rw [hw, ← heb]
      obtain ⟨p1, p2, _, _, p5⟩ := add_edge_props alt h1 a b (g.get_edge_weight c a b)
        (by rw [h2]; exact ha) (by rw [h2]; exact hb)
      refine ih _ p1 (by rw [p2, h2]) ?_ hrest
      intro u e' he'
      rcases p5 u e' he' with h4 | ⟨h4, h5⟩
      · exact h3 u e' h4
      · rw [h4, h5, hedge]
        exact he

theorem add_path_to_graph_arcs (c : Constants) (g : Graph) (hc : g.Consistent) (path : Path)
    (alt alt' : Graph) (h1 : alt.Consistent) (h2 : alt.size = g.size) (h3 : ArcsFrom g alt)
    (hch : List.Chain' (HasArc g) path.nodes)
    (hh : add_path_to_graph c g path alt = Outcome.ok alt') :
    alt'.Consistent ∧ alt'.size = g.size ∧ ArcsFrom g alt' := by
  unfold add_path_to_graph at hh
  split at hh
  · cases hh
  · cases hh
    exact add_path_loop_arcs c g hc path.nodes alt h1 h2 h3 hch

end PenAstar

namespace PenAstar

open Graph PenaltyService

theorem Outcome.bind_ok {α β : Type} {x : Outcome α} {f : α → Outcome β} {r : β}
    (h : (x >>= f) = Outcome.ok r) : ∃ a, x = Outcome.ok a ∧ f a = Outcome.ok r := by
  cases x with
  | ok a => exact ⟨a, rfl, h⟩
  | out_of_range => exact Outcome.noConfusion h
  | empty_pop => exact Outcome.noConfusion h
  | no_fuel => exact Outcome.noConfusion h

theorem Outcome.pure_ok {α : Type} {a r : α} (h : (pure a : Outcome α) = Outcome.ok r) :
    a = r := by
  cases h
  rfl

/-- `is_feasible` touches only `node_set` and `alt_graph_dijkstra`. -/
theorem is_feasible_frame {p : PenaltyParams} {c : Constants} {fuel : Nat}
    {s : PenaltyService} {path orig : Path} (f : Bool) (s' : PenaltyService)
    (hh : is_feasible p c fuel s path orig = Outcome.ok (f, s')) :
    s'.g = s.g ∧ s'.penalized_graph = s.penalized_graph ∧ s'.alt_graph = s.alt_graph ∧
      s'.astar = s.astar ∧ s'.max_iterations = s.max_iterations := by
  unfold is_feasible at hh
  split at hh
  · cases hh
    exact ⟨rfl, rfl, rfl, rfl, rfl⟩
  · obtain ⟨d, _, hh⟩ := Outcome.bind_ok hh
    obtain ⟨r, _, hh⟩ := Outcome.bind_ok hh
    cases hh
    exact ⟨rfl, rfl, rfl, rfl, rfl⟩

/-- One search of the penalty engine: the path runs along arcs of the input graph and the
invariant moves to the next epoch. -/
theorem get_shortest_path_spec {c : Constants} {g : Graph} {T : Nat} {sv : PenaltyService}
    (h : PenInv c g T sv) (hT : T + 1 < wrap32) {fuel : Nat} {sched : List Bool} (path : Path)
    (sv' : PenaltyService)
    (hh : get_shortest_path c fuel sched sv = Outcome.ok (path, sv')) :
    List.Chain' (HasArc g) path.nodes ∧ PenInv c g (T + 1) sv' ∧
      sv'.max_iterations = sv.max_iterations := by
  unfold get_shortest_path at hh
  obtain ⟨r, hr, hh⟩ := Outcome.bind_ok hh
  cases hh
  obtain ⟨h1, h2⟩ := bidirectional_run_pairs h.hfresh h.hpc hT hr
  exact ⟨h.hps.chain h1,
    { hg := h.hg, hpc := h.hpc, hps := h.hps, hac := h.hac, han := h.han, ha := h.ha
      hfresh := h2 }, rfl⟩

theorem penInv_new (c : Constants) (g : Graph) (hc : g.Consistent) (ch : ContractionHierarchy)
    (s t : Nat) :
    PenInv c g 1 (((PenaltyService.new c g ch).set_source s).set_target t) :=
  { hg := rfl
    hpc := hc
    hps := SameArcs.same_arcs g
    hac := consistent_new _
    han := size_new _
    ha := fun u e he => absurd he (not_mem_new _ _ _)
    hfresh :=
    { hT := Nat.one_pos
      hfd := rfl
      hrd := rfl
      hft := by
        show (TimestampVector.new g.size c.invalid_id).t = 1
        simp [TimestampVector.new, TimestampVector.step_time, wrap32]
      hrt := by
        show (TimestampVector.new g.size c.invalid_id).t = 1
        simp [TimestampVector.new, TimestampVector.step_time, wrap32]
      hfs := by
        intro p hp
        have hp2 : p ∈ (TimestampVector.new g.size c.invalid_id).vec := hp
        simp only [TimestampVector.new, TimestampVector.step_time] at hp2
        rw [(List.mem_replicate.1 hp2).2]
        exact Nat.one_pos
      hrs := by
        intro p hp
        have hp2 : p ∈ (TimestampVector.new g.size c.invalid_id).vec := hp
        simp only [TimestampVector.new, TimestampVector.step_time] at hp2
        rw [(List.mem_replicate.1 hp2).2]
        exact Nat.one_pos } }

theorem run_init_inv {c : Constants} {g : Graph} (hc : g.Consistent) {sv : PenaltyService}
    (h : PenInv c g 1 sv) (hmax : sv.max_iterations + 3 < wrap32) {fuel : Nat}
    {sched : List Bool} {st : PenaltyRun} (hh : run_init c fuel sched sv = Outcome.ok st) :
    RunInv c g st := by
  unfold run_init at hh
  obtain ⟨r, hr, hh⟩ := Outcome.bind_ok hh
  obtain ⟨alt, halt, hh⟩ := Outcome.bind_ok hh
  cases hh
  obtain ⟨h1, h2, h3⟩ := get_shortest_path_spec h
    (by unfold wrap32; omega) r.1 r.2 hr
  rw [h2.hg] at halt
  obtain ⟨a1, a2, a3⟩ := add_path_to_graph_arcs c g hc r.1 _ alt h2.hac h2.han h2.ha h1 halt
  exact
  { hinv :=
      { hg := h2.hg, hpc := h2.hpc, hps := h2.hps, hac := a1, han := a2, ha := a3
        hfresh := h2.hfresh }
    hpath := h1
    hit := Nat.zero_le _
    hmax := by
      show r.2.max_iterations + 3 < wrap32
      rw [h3]
      exact hmax }

theorem run_body_inv {p : PenaltyParams} {c : Constants} {g : Graph} (hc : g.Consistent)
    {st st' : PenaltyRun} (h : RunInv c g st) (hcont : run_continues p st = true)
    {fuel : Nat} {sched : List Bool} (hh : run_body p c fuel sched st = Outcome.ok st') :
    RunInv c g st' := by
  have hlt : st.iterations < st.service.max_iterations := by
    unfold run_continues at hcont
    simp only [Bool.and_eq_true, decide_eq_true_eq] at hcont
    exact hcont.2
  have hmax := h.hmax
  have hmod : (st.iterations + 1) % wrap32 = st.iterations + 1 :=
    Nat.mod_eq_of_lt (by omega)
  unfold run_body at hh
  obtain ⟨pen, hpen, hh⟩ := Outcome.bind_ok hh
  obtain ⟨r, hr, hh⟩ := Outcome.bind_ok hh
  obtain ⟨f, hf, hh⟩ := Outcome.bind_ok hh
  obtain ⟨p1, p2⟩ := apply_penalties_same p c st.alt_path st.original_path.length
    st.service.penalized_graph pen h.hinv.hpc (h.hinv.hps.chain_rev h.hpath) hpen
  have hsv1 : PenInv c g (st.iterations + 2) { st.service with penalized_graph := pen } :=
    { hg := h.hinv.hg, hpc := p1, hps := h.hinv.hps.trans_arcs p2, hac := h.hinv.hac
      han := h.hinv.han, ha := h.hinv.ha, hfresh := h.hinv.hfresh }
  obtain ⟨q1, q2, q3⟩ := get_shortest_path_spec hsv1 (by omega) r.1 r.2 hr
  obtain ⟨f1, f2, f3, f4, f5⟩ := is_feasible_frame f.1 f.2 hf
  have hsv2 : PenInv c g (st.iterations + 1 + 2) f.2 :=
    { hg := by rw [f1]; exact q2.hg
      hpc := by rw [f2]; exact q2.hpc
      hps := by rw [f2]; exact q2.hps
      hac := by rw [f3]; exact q2.hac
      han := by rw [f3]; exact q2.han
      ha := by rw [f3]; exact q2.ha
      hfresh := by
        rw [f4]
        have := q2.hfresh
        rw [show st.iterations + 2 + 1 = st.iterations + 1 + 2 by omega] at this
        exact this }
  have hmi : f.2.max_iterations = st.service.max_iterations := by
    rw [f5, q3]
  split at hh
  · obtain ⟨alt, halt, hh⟩ := Outcome.bind_ok hh
    cases hh
    rw [hsv2.hg] at halt
    obtain ⟨a1, a2, a3⟩ := add_path_to_graph_arcs c g hc r.1 _ alt hsv2.hac hsv2.han hsv2.ha q1
      halt
    exact
    { hinv := by
        show PenInv c g ((st.iterations + 1) % wrap32 + 2) _
        rw [hmod]
        exact
        { hg := hsv2.hg, hpc := hsv2.hpc, hps := hsv2.hps, hac := a1, han := a2, ha := a3
          hfresh := hsv2.hfresh }
      hpath := q1
      hit := by
        show (st.iterations + 1) % wrap32 ≤ f.2.max_iterations
        rw [hmod, hmi]
        omega
      hmax := by
        show f.2.max_iterations + 3 < wrap32
        rw [hmi]
        exact hmax }
  · cases hh
    exact
    { hinv := by
        show PenInv c g ((st.iterations + 1) % wrap32 + 2) _
        rw [hmod]
        exact hsv2
      hpath := q1
      hit := by
        show (st.iterations + 1) % wrap32 ≤ f.2.max_iterations
        rw [hmod, hmi]
        omega
      hmax := by
        show f.2.max_iterations + 3 < wrap32
        rw [hmi]
        exact hmax }

theorem run_loop_inv {p : PenaltyParams} {c : Constants} {g : Graph} (hc : g.Consistent)
    (fuel : Nat) :
    ∀ (k : Nat) (scheds : List (List Bool)) (st st' : PenaltyRun), RunInv c g st →
      run_loop p c fuel k scheds st = Outcome.ok st' → RunInv c g st' := by
  intro k
  induction k with
  | zero =>
    intro scheds st st' h hh
    unfold run_loop at hh
    cases hh
    exact h
  | succ k ih =>
    intro scheds st st' h hh
    unfold run_loop at hh
    split at hh
    · rename_i hcont
      obtain ⟨st1, hst1, hh⟩ := Outcome.bind_ok hh
      exact ih _ st1 st' (run_body_inv hc h hcont hst1) hh
    · cases hh
      exact h

end PenAstar

namespace PenAstar

open Graph PenaltyService

/-- The loop invariant of `run` holds after the first search and any number of passes. -/
theorem penalty_passes_on_inv {p : PenaltyParams} {c : Constants} {g : Graph}
    (hc : g.Consistent) {ch : ContractionHierarchy} {fuel : Nat} {scheds : List (List Bool)}
    {k s t : Nat} {r : Path × Path × Graph}
    (hh : penalty_passes_on p c fuel g ch scheds k s t = Outcome.ok r) :
    ArcsFrom g r.2.2 := by
  unfold penalty_passes_on at hh
  obtain ⟨st, hst, hh⟩ := Outcome.bind_ok hh
  obtain ⟨st1, hst1, hh⟩ := Outcome.bind_ok hh
  cases hh
  have h0 := run_init_inv hc (penInv_new c g hc ch s t)
      (by show 20 + 3 < wrap32; decide) hst
  exact (run_loop_inv hc fuel k _ st st1 h0 hst1).hinv.ha

/-- C20: let `g` be a consistent input graph. At the start of the loop of
`PenaltyService::run()` and after every pass of it, for every hierarchy, source, target,
float parameters and interleaving of the search threads, each arc `u → v` of `alt_graph` is
an arc of the input graph with the weight the input graph stores for it (an entry of
`g.get_out_arcs(u)`), whatever the weights of `penalized_graph` have become; the same holds
for the graph that `get_alt_graph()` returns after `run()`. -/
theorem C20_alt_graph_original_weights (p : PenaltyParams) (c : Constants) (g : Graph)
    (hc : g.Consistent) (fuel : Nat) (scheds : List (List Bool)) (s t : Nat) :
    (∀ ch k orig cand alt,
      penalty_passes_on p c fuel g ch scheds k s t = Outcome.ok (orig, cand, alt) →
      ∀ u e, e ∈ alt.get_out_arcs u → e ∈ g.get_out_arcs u) ∧
    (∀ order k orig cand alt,
      penalty_passes p c fuel g order scheds k s t = Outcome.ok (orig, cand, alt) →
      ∀ u e, e ∈ alt.get_out_arcs u → e ∈ g.get_out_arcs u) ∧
    (∀ ch sv,
      PenaltyService.run p c fuel scheds (((PenaltyService.new c g ch).set_source s).set_target t)
        = Outcome.ok sv →
      ∀ u e, e ∈ sv.get_alt_graph.get_out_arcs u → e ∈ g.get_out_arcs u) := by
  refine ⟨?_, ?_, ?_⟩
  · intro ch k orig cand alt hh
    exact penalty_passes_on_inv hc hh
  · intro order k orig cand alt hh
    unfold penalty_passes at hh
    obtain ⟨ch, _, hh⟩ := Outcome.bind_ok hh
    exact penalty_passes_on_inv hc hh
  · intro ch sv hh
    unfold PenaltyService.run at hh
    obtain ⟨st, hst, hh⟩ := Outcome.bind_ok hh
    obtain ⟨st1, hst1, hh⟩ := Outcome.bind_ok hh
    cases hh
    have h0 := run_init_inv hc (penInv_new c g hc ch s t)
      (by show 20 + 3 < wrap32; decide) hst
    exact (run_loop_inv hc fuel _ _ st st1 h0 hst1).hinv.ha

/-- Witness for C20: the penalty run from 0 to 2 on the triangle of scenario S1 reaches the
end of its first pass with the arcs 0→1 (3) and 1→2 (4) in `alt_graph`; the arc 0→1 is an
entry of the input graph. -/
theorem C20_alt_graph_original_weights_witness :
    penalty_passes defaultParams stdConstants 8 triangle [0, 1, 2] [] 1 0 2 =
      Outcome.ok (⟨[0, 1, 2], 7⟩, ⟨[0, 1, 2], 7⟩,
        ((Graph.new 3).add_edge 0 ⟨1, 3⟩).add_edge 1 ⟨2, 4⟩) ∧
    (⟨1, 3⟩ : Edge) ∈ triangle.get_out_arcs 0 :=
  ⟨by decide!,
    (C20_alt_graph_original_weights defaultParams stdConstants triangle triangle_consistent 8 []
      0 2).2.1 [0, 1, 2] 1 ⟨[0, 1, 2], 7⟩ ⟨[0, 1, 2], 7⟩
      (((Graph.new 3).add_edge 0 ⟨1, 3⟩).add_edge 1 ⟨2, 4⟩) (by decide!) 0 ⟨1, 3⟩ (by decide)⟩

end PenAstar

namespace PenAstar

/-- One call on a service that answers with `pi`: the value, and the service afterwards
still answers with `pi`. -/
theorem PotF.call {fuel n : Nat} {pi : Nat → Nat} {s : CHPotentialService}
    (h : PotF fuel n pi s) {x : Nat} (hx : x < n) :
    ∃ s', CHPotentialService.get_potential fuel s x = Outcome.ok (pi x, s') ∧
      PotF fuel n pi s' := by
  obtain ⟨s0, h0⟩ := h [x] (by simpa using hx)
  unfold CHPotentialService.queries at h0
  cases hg : CHPotentialService.get_potential fuel s x with
  | ok ps =>
    obtain ⟨p, s1⟩ := ps
    rw [hg] at h0
    simp only [CHPotentialService.queries] at h0
    have hp : p = pi x := by
      cases h0
      rfl
    refine ⟨s1, by rw [hp], ?_⟩
    intro qs hqs
    obtain ⟨s2, h2⟩ := h (x :: qs) (by
      intro y hy
      rcases List.mem_cons.1 hy with h | h
      · rw [h]; exact hx
      · exact hqs y h)
    unfold CHPotentialService.queries at h2
    rw [hg] at h2
    simp only at h2
    cases hq : CHPotentialService.queries fuel s1 qs with
    | ok r =>
      obtain ⟨ps, s3⟩ := r
      rw [hq] at h2
      simp only at h2
      refine ⟨s3, ?_⟩
      cases h2
      rfl
    | out_of_range => rw [hq] at h2; cases h2
    | empty_pop => rw [hq] at h2; cases h2
    | no_fuel => rw [hq] at h2; cases h2
  | out_of_range => rw [hg] at h0; cases h0
  | empty_pop => rw [hg] at h0; cases h0
  | no_fuel => rw [hg] at h0; cases h0

/-- The arc loop of the reverse service follows the arc loop of the forward service on the
exchanged data. -/
theorem PotSim.get_potential_arcs
    (recF : CHPotentialService → Nat → Outcome (Nat × CHPotentialService))
    (recR : ReverseCHPotentialService → Nat → Outcome (Nat × ReverseCHPotentialService))
    (hrec : ∀ r s y p s', PotSim r s → recF s y = Outcome.ok (p, s') →
      ∃ r', recR r y = Outcome.ok (p, r') ∧ PotSim r' s')
    (node : Nat) (es : List Edge) :
    ∀ r s s', PotSim r s →
      CHPotentialService.get_potential_arcs recF node es s = Outcome.ok s' →
      ∃ r', ReverseCHPotentialService.get_potential_arcs recR node es r = Outcome.ok r' ∧
        PotSim r' s' := by
  induction es with
  | nil =>
    intro r s s' hs h
    unfold CHPotentialService.get_potential_arcs at h
    cases h
    exact ⟨r, rfl, hs⟩
  | cons e es ih =>
    intro r s s' hs h
    unfold CHPotentialService.get_potential_arcs at h
    cases hg : recF s e.target with
    | ok ps =>
      obtain ⟨p, s1⟩ := ps
      rw [hg] at h
      simp only at h
      obtain ⟨r1, hr1, hs1⟩ := hrec r s e.target p s1 hs hg
      obtain ⟨r', hr', hs'⟩ := ih
        { r1 with potentials :=
            r1.potentials.set node (min (r1.potentials.get node) ((p + e.weight) % wrap32)) }
        _ s' (by
          refine ⟨hs1.1, hs1.2.1, ?_⟩
          show r1.potentials.set node _ = s1.potentials.set node _
          rw [hs1.2.2]) h
      refine ⟨r', ?_, hs'⟩
      unfold ReverseCHPotentialService.get_potential_arcs
      rw [hr1]
      exact hr'
    | out_of_range => rw [hg] at h; cases h
    | empty_pop => rw [hg] at h; cases h
    | no_fuel => rw [hg] at h; cases h

/-- A call on the reverse service follows the call on the forward service that holds the
exchanged data. -/
theorem PotSim.get_potential : ∀ (fuel : Nat) (r : ReverseCHPotentialService)
    (s : CHPotentialService) (x p : Nat) (s' : CHPotentialService), PotSim r s →
    CHPotentialService.get_potential fuel s x = Outcome.ok (p, s') →
    ∃ r', ReverseCHPotentialService.get_potential fuel r x = Outcome.ok (p, r') ∧
      PotSim r' s' := by
  intro fuel
  induction fuel with
  | zero =>
    intro r s x p s' _ h
    unfold CHPotentialService.get_potential at h
    cases h
  | succ fuel ih =>
    intro r s x p s' hs h
    unfold CHPotentialService.get_potential at h
    unfold ReverseCHPotentialService.get_potential
    rw [hs.2.2]
    by_cases hhas : s.potentials.has x = true
    · rw [if_neg (by simp [hhas])] at h
      rw [if_neg (by simp [hhas])]
      cases h
      exact ⟨r, rfl, hs⟩
    · rw [if_pos hhas] at h
      rw [if_pos hhas]
      cases hg : CHPotentialService.get_potential_arcs (CHPotentialService.get_potential fuel) x
          (s.forward_graph.get_out_arcs x)
          { s with potentials := s.potentials.set x (s.backward_search.get_dist x) } with
      | ok s1 =>
        rw [hg] at h
        simp only at h
        obtain ⟨r1, hr1, hs1⟩ := PotSim.get_potential_arcs
          (CHPotentialService.get_potential fuel)
          (ReverseCHPotentialService.get_potential fuel) ih x
          (s.forward_graph.get_out_arcs x)
          { r with potentials := s.potentials.set x (r.forward_search.get_dist x) } _ s1 (by
            refine ⟨hs.1, hs.2.1, ?_⟩
            show s.potentials.set x _ = s.potentials.set x _
            rw [hs.2.1]) hg
        rw [hs.1, hr1]
        simp only
        cases h
        refine ⟨r1, ?_, hs1⟩
        rw [hs1.2.2]
      | out_of_range => rw [hg] at h; cases h
      | empty_pop => rw [hg] at h; cases h
      | no_fuel => rw [hg] at h; cases h

/-- One call on a reverse service that answers with `pi`. -/
theorem PotR.call_rev {fuel n : Nat} {pi : Nat → Nat} {r : ReverseCHPotentialService}
    (h : PotR fuel n pi r) {x : Nat} (hx : x < n) :
    ∃ r', ReverseCHPotentialService.get_potential fuel r x = Outcome.ok (pi x, r') ∧
      PotR fuel n pi r' := by
  obtain ⟨s, hs, hf⟩ := h
  obtain ⟨s', hg, hf'⟩ := hf.call hx
  obtain ⟨r', hr', hs'⟩ := PotSim.get_potential fuel r s x _ s' hs hg
  exact ⟨r', hr', s', hs', hf'⟩

/-- After `set_target(source)` on a fresh reverse service of a valid hierarchy whose
backward arcs climb in rank or are loops, every sequence of queries returns the values of
one function `pi`, and `pi` is the least walk weight from the source in the original graph,
capped at `inf_weight`. -/
theorem rev_potential_spec (c : Constants) (G : Graph) (ch : ContractionHierarchy)
    (hv : CHValid c G ch)
    (hBr : ∀ w e, e ∈ ch.backward_graph.get_out_arcs w →
      rank ch.ranking w < rank ch.ranking e.target ∨ e.target = w)
    (h2 : 2 * c.inf_weight ≤ wrap32) (hinf : 0 < c.inf_weight)
    (hid : G.size ≤ c.invalid_id) (t : Nat) (ht : t < G.size) (fuel : Nat)
    (hfuel : G.size < fuel) :
    ∃ r pi, ReverseCHPotentialService.set_target c fuel
        (ReverseCHPotentialService.new c ch) t = Outcome.ok r ∧
      PotR fuel G.size pi r ∧
      (∀ x, pi x ≤ c.inf_weight) ∧
      (∀ x D, x < G.size → Walk G.arc t x D → D < c.inf_weight → pi x ≤ D) ∧
      (∀ x, x < G.size → pi x < c.inf_weight → Walk G.arc t x (pi x)) := by
  obtain ⟨fs, hrun, hle, hmin, hatt⟩ := backward_search_spec c ch.forward_graph
    hv.hF.targetsValid hv.hFW h2 hinf (by rw [hv.hFn]; exact hid) t (by rw [hv.hFn]; exact ht)
    fuel (by rw [hv.hFn]; exact hfuel)
  have ctx : PotCtx c G.size ch.backward_graph ch.ranking fs.get_dist :=
    { hFt := by
        intro u e he
        have := (hv.hB.arc_lt _ u e he).2
        rw [hv.hBn] at this
        exact this
      hFW := hv.hBW
      hFr := hBr
      hrk := hv.hrk
      h2 := h2
      hdB := hle }
  have hinv : PotInv G.size ch.backward_graph fs.get_dist
      { forward_graph := ch.backward_graph
        backward_graph := ch.forward_graph
        backward_search := fs
        potentials := (TimestampVector.new ch.backward_graph.size c.inf_weight).step_time
        target := t } :=
    { hF := rfl
      hlen := by
        show ((TimestampVector.new ch.backward_graph.size c.inf_weight).step_time).vec.length
          = G.size
        rw [length_fresh_potentials, hv.hBn]
      hdB := fun _ => rfl }
  have hfresh : ∀ z, ({ forward_graph := ch.backward_graph
                        backward_graph := ch.forward_graph
                        backward_search := fs
                        potentials :=
                          (TimestampVector.new ch.backward_graph.size c.inf_weight).step_time
                        target := t } : CHPotentialService).potentials.has z = true →
      PotGood ch.backward_graph fs.get_dist z
        (({ forward_graph := ch.backward_graph
            backward_graph := ch.forward_graph
            backward_search := fs
            potentials := (TimestampVector.new ch.backward_graph.size c.inf_weight).step_time
            target := t } : CHPotentialService).potentials.get z) := by
    intro z hz
    exfalso
    have : ((TimestampVector.new ch.backward_graph.size c.inf_weight).step_time).has z = true :=
      hz
    rw [has_fresh_potentials] at this
    exact Bool.noConfusion this
  have hex : ∀ x, x < G.size → ∃ p, PotGood ch.backward_graph fs.get_dist x p := by
    intro x hx
    obtain ⟨p, _, _, _, hg, _⟩ := get_potential_spec ctx fuel _ x hx (by omega) hinv
      (fun z _ hz => hfresh z hz)
    exact ⟨p, hg⟩
  obtain ⟨pi, hpi⟩ : ∃ pi : Nat → Nat, ∀ x, x < G.size →
      PotGood ch.backward_graph fs.get_dist x (pi x) := by
    classical
    refine ⟨fun y => if h : y < G.size then Classical.choose (hex y h) else 0, ?_⟩
    intro x hx
    simp only [hx, dif_pos]
    exact Classical.choose_spec (hex x hx)
  refine ⟨{ ReverseCHPotentialService.new c ch with
        forward_search := fs
        potentials := (ReverseCHPotentialService.new c ch).potentials.step_time
        target := t }, fun y => if y < G.size then pi y else 0, ?_, ?_, ?_, ?_, ?_⟩
  · unfold ReverseCHPotentialService.set_target
    have hb : (ReverseCHPotentialService.new c ch).forward_search =
        DijkstraService.new c ch.forward_graph := rfl
    rw [hb, hrun]
  · refine ⟨{ forward_graph := ch.backward_graph
              backward_graph := ch.forward_graph
              backward_search := fs
              potentials := (TimestampVector.new ch.backward_graph.size c.inf_weight).step_time
              target := t }, ⟨rfl, rfl, rfl⟩, ?_⟩
    intro qs hqs
    exact queries_spec ctx _ (by
      intro x hx
      simp only [hx, if_true]
      exact hpi x hx) fuel hfuel qs hqs _ hinv hfresh
  · intro x
    by_cases hx : x < G.size
    · have h1 := (hpi x hx).1 x 0 Walk.nil
      have h3 := hle x
      simp only [hx, if_true]
      omega
    · simp only [hx, if_false]
      omega
  · intro x D hx hw hD
    obtain ⟨m, a, b, hwa, hwb, hab⟩ := hv.hud t x D hw hD
    have h1 := (hpi x hx).1 m b hwb
    have h3 := hmin m a hwa (by omega)
    simp only [hx, if_true]
    exact Nat.le_trans h1 (by omega)
  · intro x hx hlt
    simp only [hx, if_true] at hlt ⊢
    obtain ⟨m, a, hwa, hpa⟩ := (hpi x hx).2
    rw [hpa] at hlt ⊢
    have hwb := hatt m (by omega)
    have := Walk.append (hv.hFs.walk_forward hwb) (hv.hBs.walk_backward hwa)
    rw [Nat.add_comm]
    exact this

/-- The hierarchy that `contract_graph` returns for a permutation order is valid, and its
backward arcs climb in rank or are loops. -/
theorem contract_graph_valid (c : Constants) (G : Graph) (hc : G.Consistent)
    (hW : G.WeightsBelow c) (h2 : 2 * c.inf_weight ≤ wrap32) (hinf : 0 < c.inf_weight)
    (order : List Nat) (hperm : order.Perm (List.range G.size))
    (hbud : G.size * G.size + 1 < wrap32) (fuel : Nat) (hfuel : G.size ≤ fuel) :
    ∃ ch, contract_graph c fuel G order = Outcome.ok ch ∧ CHValid c G ch ∧
      ∀ w e, e ∈ ch.backward_graph.get_out_arcs w →
        rank ch.ranking w < rank ch.ranking e.target ∨ e.target = w := by
  obtain ⟨ch, hch, hr, hv⟩ := contract_graph_spec c G hc hW h2 hinf order hperm hbud fuel hfuel
  obtain ⟨ch2, hch2, _, _, _, _, _, _, hBr⟩ :=
    contract_graph_rank_spec c G hc hW h2 hinf order hperm hbud fuel hfuel
  have hEq : ch2 = ch := by
    rw [hch] at hch2
    cases hch2
    rfl
  rw [hEq] at hBr
  refine ⟨ch, hch, hv, ?_⟩
  intro a e he
  have hle := hBr a e he
  rcases Nat.lt_or_eq_of_le hle with hlt | heq
  · exact Or.inl hlt
  · right
    obtain ⟨ha, hb⟩ := hv.hB.arc_lt _ a e he
    rw [hv.hBn] at ha hb
    have h1 := (ranking_inverse hperm a ha).2
    have h3 := (ranking_inverse hperm e.target hb).2
    unfold rank at heq
    rw [hr] at heq
    rw [← heq] at h3
    exact h3.symm.trans h1

end PenAstar

namespace PenAstar

open BidirectionalAStarService

theorem wrap32_eq : wrap32 = 4294967296 := by norm_num [wrap32]

/-- The averaged heuristic as a number, in the two cases of the unsigned subtraction. -/
theorem avg32_cases (a b x : Nat) (hab : a + b < wrap32) (hx : x < wrap32) :
    (x ≤ a + b ∧ avg32 a b x = (a + b - x) / 2) ∨
      (a + b < x ∧ avg32 a b x = (wrap32 + a + b - x) / 2) := by
  unfold avg32
  rw [wrap32_eq] at *
  omega

/-- Keys of queued nodes are at least the distance `D` of the query. -/
theorem key_lower {inf M D d rho tau : Nat} (hM : 4 * M ≤ inf) (h2 : 2 * inf ≤ wrap32)
    (hDM : D < M) (htau : tau < inf) (hrho : rho ≤ d) (hd : d < inf)
    (hsum : D ≤ rho + tau) : D ≤ d + avg32 tau D rho := by
  rcases avg32_cases tau D rho (by rw [wrap32_eq] at *; omega) (by rw [wrap32_eq] at *; omega)
    with ⟨_, h⟩ | ⟨_, h⟩ <;> rw [h] <;> rw [wrap32_eq] at * <;> omega

/-- Keys stay far below `2 ^ 32`. -/
theorem key_upper {inf M D d rho tau : Nat} (hM : 4 * M ≤ inf) (h2 : 2 * inf ≤ wrap32)
    (hDM : D < M) (htau : tau < inf) (hrho : rho ≤ d) (hd : d ≤ D + M) :
    d + avg32 tau D rho + D + M < wrap32 := by
  rcases avg32_cases tau D rho (by rw [wrap32_eq] at *; omega) (by rw [wrap32_eq] at *; omega)
    with ⟨_, h⟩ | ⟨_, h⟩ <;> rw [h] <;> rw [wrap32_eq] at * <;> omega

/-- A queued node whose key is `D` carries its exact distance. -/
theorem key_exact {inf M D d rho tau : Nat} (hM : 4 * M ≤ inf) (h2 : 2 * inf ≤ wrap32)
    (hDM : D < M) (htau : tau < inf) (hrho : rho ≤ d)
    (hsum : D ≤ rho + tau) (hkey : d + avg32 tau D rho = D) : d = rho ∧ d ≤ D := by
  rcases avg32_cases tau D rho (by rw [wrap32_eq] at *; omega) (by rw [wrap32_eq] at *; omega)
    with ⟨_, h⟩ | ⟨_, h⟩ <;> rw [h] at hkey <;> rw [wrap32_eq] at * <;> omega

/-- A node on a shortest walk at its exact distance has key `D`. -/
theorem key_on_path {inf D rho tau : Nat} (h2 : 2 * inf ≤ wrap32) (htau : tau < inf)
    (hD : D < inf) (hsum : rho + tau = D) : rho + avg32 tau D rho = D := by
  rcases avg32_cases tau D rho (by rw [wrap32_eq] at *; omega) (by rw [wrap32_eq] at *; omega)
    with ⟨_, h⟩ | ⟨_, h⟩ <;> rw [h] <;> rw [wrap32_eq] at * <;> omega

/-! ### BoolSet -/

theorem BoolSet.vec_length_set (b : BoolSet) (i : Nat) : (b.set i).vec.length = b.vec.length := by
  simp [BoolSet.set]

theorem BoolSet.has_set_self (b : BoolSet) (i : Nat) (hi : i < b.vec.length) :
    (b.set i).has i = true := by
  simp [BoolSet.has, BoolSet.set, Graph.getD_set_list, hi]

theorem BoolSet.has_set_other (b : BoolSet) (i j : Nat) (h : i ≠ j) :
    (b.set i).has j = b.has j := by
  simp [BoolSet.has, BoolSet.set, Graph.getD_set_list, h]

theorem BoolSet.has_set_of_has (b : BoolSet) (i j : Nat) (h : b.has j = true) :
    (b.set i).has j = true := by
  by_cases hij : i = j
  · subst hij
    apply BoolSet.has_set_self
    by_contra hlt
    simp [BoolSet.has, List.getD_eq_getElem?_getD, List.getElem?_eq_none (Nat.le_of_not_lt hlt)]
      at h
  · rw [BoolSet.has_set_other _ _ _ hij]
    exact h

/-! ### Walks of a consistent graph and of its reverse lists -/

theorem walk_rev_of_walk {g : Graph} (hc : g.Consistent) {x t d : Nat}
    (h : Walk (ArcRel g.get_out_arcs) x t d) : Walk (ArcRel g.get_rev_out_arcs) t x d := by
  induction h with
  | nil => exact Walk.nil
  | @snoc u d e _ ha ih =>
    have hr : (⟨u, e.weight⟩ : Edge) ∈ g.get_rev_out_arcs e.target :=
      (hc.2.1 u e.target e.weight).1 ha
    have := Walk.cons (A := ArcRel g.get_rev_out_arcs) (⟨u, e.weight⟩ : Edge) hr ih
    rw [Nat.add_comm]
    exact this

theorem walk_of_walk_rev {g : Graph} (hc : g.Consistent) {x t d : Nat}
    (h : Walk (ArcRel g.get_rev_out_arcs) t x d) : Walk (ArcRel g.get_out_arcs) x t d := by
  induction h with
  | nil => exact Walk.nil
  | @snoc u d e _ ha ih =>
    have hr : (⟨u, e.weight⟩ : Edge) ∈ g.get_out_arcs e.target :=
      (hc.2.1 e.target u e.weight).2 ha
    have := Walk.cons (A := ArcRel g.get_out_arcs) (⟨u, e.weight⟩ : Edge) hr ih
    rw [Nat.add_comm]
    exact this

/-! ### One direction of the search -/

section side

variable {c : Constants} {n : Nat} {arcs : Nat → List Edge} {src dst : Nat}
  {rho tau : Nat → Nat} {D M : Nat}

/-- Lowering `tentative_dist` (not below `D`), moving `best_node` and changes of the other
direction keep the invariant of a direction. -/
theorem SideInv.tent_mono {best : Nat} {pending : List Edge} {σ σ' : Side}
    (hinv : SideInv c n arcs src dst rho tau D M best pending σ)
    (hd : σ'.dist = σ.dist) (hp : σ'.par = σ.par) (hq : σ'.q = σ.q)
    (hc : σ'.closed = σ.closed) (h1 : D ≤ σ'.tent) (h2 : σ'.tent ≤ σ.tent) :
    SideInv c n arcs src dst rho tau D M best pending σ' := by
  obtain ⟨d, p, q, cl, co, dO, t, b⟩ := σ
  obtain ⟨d', p', q', cl', co', dO', t', b'⟩ := σ'
  simp only at hd hp hq hc h1 h2
  subst hd hp hq hc
  exact
  { hdl := hinv.hdl
    hpl := hinv.hpl
    hcl := hinv.hcl
    hsound := hinv.hsound
    hle := hinv.hle
    hq := hinv.hq
    hqn := hinv.hqn
    hdone := hinv.hdone
    hrel := by
      intro x hx e he
      rcases hinv.hrel x hx e he with h | h | h
      · exact Or.inl h
      · exact Or.inr (Or.inl h)
      · exact Or.inr (Or.inr (Nat.le_trans h2 h))
    htrack := hinv.htrack
    hsrc0 := hinv.hsrc0
    hdstm := fun h => Nat.le_trans h2 (hinv.hdstm h)
    htD := h1
    hti := Nat.le_trans h2 hinv.hti
    hpsrc := hinv.hpsrc
    hpar := hinv.hpar }

/-- An arc of the node in work that needs no update leaves the pending list. -/
theorem SideInv.skip {best : Nat} {e : Edge} {pending : List Edge} {σ : Side}
    (hinv : SideInv c n arcs src dst rho tau D M best (e :: pending) σ)
    (h : σ.dist.get e.target ≤ σ.dist.get best + e.weight ∨
      σ.tent ≤ σ.dist.get best + e.weight + tau e.target) :
    SideInv c n arcs src dst rho tau D M best pending σ :=
  { hdl := hinv.hdl
    hpl := hinv.hpl
    hcl := hinv.hcl
    hsound := hinv.hsound
    hle := hinv.hle
    hq := hinv.hq
    hqn := hinv.hqn
    hdone := hinv.hdone
    hrel := by
      intro x hx e' he'
      rcases hinv.hrel x hx e' he' with ⟨hxb, hmem⟩ | h' | h'
      · rcases List.mem_cons.1 hmem with heq | hp
        · right
          rw [heq, hxb]
          exact h
        · exact Or.inl ⟨hxb, hp⟩
      · exact Or.inr (Or.inl h')
      · exact Or.inr (Or.inr h')
    htrack := hinv.htrack
    hsrc0 := hinv.hsrc0
    hdstm := hinv.hdstm
    htD := hinv.htD
    hti := hinv.hti
    hpsrc := hinv.hpsrc
    hpar := hinv.hpar }

end side

end PenAstar

namespace PenAstar

open BidirectionalAStarService

section side

variable {c : Constants} {n : Nat} {arcs : Nat → List Edge} {src dst : Nat}
  {rho tau : Nat → Nat} {D M : Nat}

theorem Side.card_doneSet_le (n : Nat) (σ : Side) : (σ.doneSet n).card ≤ n := by
  unfold Side.doneSet
  exact Nat.le_trans (Finset.card_filter_le _ _) (by simp)

/-- The relaxation of an arc that lowers the distance of its target. -/
theorem SideInv.update {best : Nat} {e : Edge} {pending : List Edge} {σ : Side}
    (ctx : SideCtx c n arcs src dst rho tau D M)
    (hinv : SideInv c n arcs src dst rho tau D M best (e :: pending) σ)
    (hb : σ.done best) (he : e ∈ arcs best)
    (hginf : σ.dist.get best + e.weight < c.inf_weight) (htau : tau e.target < c.inf_weight)
    (hlt : σ.dist.get best + e.weight < σ.dist.get e.target)
    (hdst : e.target = dst → σ.tent ≤ σ.dist.get best + e.weight)
    (q' : MinIDQueue)
    (hq' : q' = if ¬ σ.q.contains_id e.target = true
      then σ.q.push ⟨e.target,
        σ.dist.get best + e.weight + avg32 (tau e.target) D (rho e.target)⟩
      else σ.q.decrease_key ⟨e.target,
        σ.dist.get best + e.weight + avg32 (tau e.target) D (rho e.target)⟩) :
    SideInv c n arcs src dst rho tau D M best pending
        { σ with dist := σ.dist.set e.target (σ.dist.get best + e.weight),
                 par := σ.par.set e.target best, q := q' } ∧
      ∀ x, Side.done { σ with dist := σ.dist.set e.target (σ.dist.get best + e.weight),
                              par := σ.par.set e.target best, q := q' } x ↔ σ.done x := by
  obtain ⟨hbd, hbD, hbn⟩ := hinv.hdone best hb
  obtain ⟨hvn, hwM⟩ := ctx.harcs best e he
  have hti := hinv.hti
  have hM := ctx.hM
  have hDM := ctx.hDM
  have hwalkb : Walk (ArcRel arcs) src best (σ.dist.get best) :=
    (hinv.hsound best (by omega)).2.1
  have hwalk : Walk (ArcRel arcs) src e.target (σ.dist.get best + e.weight) :=
    Walk.snoc e hwalkb he
  have hvnd : ¬ σ.done e.target := by
    intro hd
    have h1 := (hinv.hdone _ hd).1
    have h2 := ctx.hrho_le _ _ hwalk
    omega
  have hvb : e.target ≠ best := by
    intro h
    rw [h] at hlt
    omega
  have hvs : e.target ≠ src := by
    intro h
    rw [h, hinv.hsrc0] at hlt
    omega
  obtain ⟨hmem, hnd, hcont⟩ := MinIDQueue.update_spec σ.q e.target _ hinv.hqn q' hq'
  have hgv : (σ.dist.set e.target (σ.dist.get best + e.weight)).get e.target =
      σ.dist.get best + e.weight :=
    TimestampVector.get_set_eq _ _ _ (by rw [hinv.hdl]; exact hvn)
  have hgx : ∀ x, x ≠ e.target →
      (σ.dist.set e.target (σ.dist.get best + e.weight)).get x = σ.dist.get x :=
    fun x hx => TimestampVector.get_set_ne _ _ _ _ (Ne.symm hx)
  have hpv : (σ.par.set e.target best).get e.target = best :=
    TimestampVector.get_set_eq _ _ _ (by rw [hinv.hpl]; exact hvn)
  have hpx : ∀ x, x ≠ e.target → (σ.par.set e.target best).get x = σ.par.get x :=
    fun x hx => TimestampVector.get_set_ne _ _ _ _ (Ne.symm hx)
  have hmono : ∀ x, (σ.dist.set e.target (σ.dist.get best + e.weight)).get x ≤ σ.dist.get x := by
    intro x
    by_cases hx : x = e.target
    · rw [hx, hgv]
      omega
    · rw [hgx x hx]
  have hdone_iff : ∀ x, Side.done { σ with
      dist := σ.dist.set e.target (σ.dist.get best + e.weight),
      par := σ.par.set e.target best, q := q' } x ↔ σ.done x := by
    intro x
    unfold Side.done
    simp only
    constructor
    · rintro ⟨h1, h2⟩
      refine ⟨h1, ?_⟩
      cases hqc : σ.q.contains_id x with
      | false => rfl
      | true =>
        have := (hcont x).2 (Or.inr hqc)
        rw [h2] at this
        cases this
    · rintro ⟨h1, h2⟩
      refine ⟨h1, ?_⟩
      cases hqc : q'.contains_id x with
      | false => rfl
      | true =>
        rcases (hcont x).1 hqc with h | h
        · exfalso
          apply hvnd
          rw [← h]
          exact ⟨h1, h2⟩
        · rw [h2] at h
          cases h
  have hds : Side.doneSet n { σ with
      dist := σ.dist.set e.target (σ.dist.get best + e.weight),
      par := σ.par.set e.target best, q := q' } = σ.doneSet n := by
    unfold Side.doneSet
    exact Finset.filter_congr (fun x _ => hdone_iff x)
  refine ⟨?_, hdone_iff⟩
  exact
  { hdl := by
      show (σ.dist.set _ _).vec.length = n
      rw [TimestampVector.length_set]; exact hinv.hdl
    hpl := by
      show (σ.par.set _ _).vec.length = n
      rw [TimestampVector.length_set]; exact hinv.hpl
    hcl := hinv.hcl
    hsound := by
      intro x hx
      show x < n ∧ Walk (ArcRel arcs) src x ((σ.dist.set _ _).get x) ∧
        (σ.dist.set _ _).get x ≤ D + M
      have hx' : (σ.dist.set e.target (σ.dist.get best + e.weight)).get x < c.inf_weight := hx
      by_cases hxv : x = e.target
      · rw [hxv, hgv]
        exact ⟨hvn, hwalk, by omega⟩
      · rw [hgx x hxv] at hx' ⊢
        exact hinv.hsound x hx'
    hle := fun x => Nat.le_trans (hmono x) (hinv.hle x)
    hq := by
      intro p hp
      show p.id < n ∧ (σ.dist.set _ _).get p.id < c.inf_weight ∧ tau p.id < c.inf_weight ∧
        p.key = (σ.dist.set _ _).get p.id + avg32 (tau p.id) D (rho p.id)
      rcases (hmem p).1 hp with ⟨hpo, hpid⟩ | hpe
      · rw [hgx p.id hpid]
        exact hinv.hq p hpo
      · rw [hpe]
        simp only
        rw [hgv]
        exact ⟨hvn, by omega, by omega, rfl⟩
    hqn := hnd
    hdone := by
      intro x hx
      have hx0 := (hdone_iff x).1 hx
      have hxv : x ≠ e.target := fun h => hvnd (h ▸ hx0)
      show (σ.dist.set _ _).get x = rho x ∧ (σ.dist.set _ _).get x ≤ D ∧ x < n
      rw [hgx x hxv]
      exact hinv.hdone x hx0
    hrel := by
      intro x hx e' he'
      have hx0 := (hdone_iff x).1 hx
      have hxv : x ≠ e.target := fun h => hvnd (h ▸ hx0)
      show (x = best ∧ e' ∈ pending) ∨
        (σ.dist.set _ _).get e'.target ≤ (σ.dist.set _ _).get x + e'.weight ∨
        σ.tent ≤ (σ.dist.set _ _).get x + e'.weight + tau e'.target
      rw [hgx x hxv]
      rcases hinv.hrel x hx0 e' he' with ⟨hxb, hmem'⟩ | h | h
      · rcases List.mem_cons.1 hmem' with heq | hp
        · right; left
          rw [heq, hgv, hxb]
        · exact Or.inl ⟨hxb, hp⟩
      · exact Or.inr (Or.inl (Nat.le_trans (hmono _) h))
      · exact Or.inr (Or.inr h)
    htrack := by
      intro x hx
      show q'.contains_id x = true ∨ σ.closed.has x = true
      have hx' : (σ.dist.set e.target (σ.dist.get best + e.weight)).get x < c.inf_weight := hx
      by_cases hxv : x = e.target
      · exact Or.inl ((hcont x).2 (Or.inl hxv))
      · rw [hgx x hxv] at hx'
        rcases hinv.htrack x hx' with h | h
        · exact Or.inl ((hcont x).2 (Or.inr h))
        · exact Or.inr h
    hsrc0 := by
      show (σ.dist.set _ _).get src = 0
      rw [hgx src (Ne.symm hvs)]
      exact hinv.hsrc0
    hdstm := by
      intro hx
      show σ.tent ≤ (σ.dist.set _ _).get dst
      have hx' : (σ.dist.set e.target (σ.dist.get best + e.weight)).get dst < c.inf_weight := hx
      by_cases hxv : dst = e.target
      · rw [hxv, hgv]
        exact hdst hxv.symm
      · rw [hgx dst hxv] at hx' ⊢
        exact hinv.hdstm hx'
    htD := hinv.htD
    hti := hinv.hti
    hpsrc := by
      show (σ.par.set _ _).get src = c.invalid_id
      rw [hpx src (Ne.symm hvs)]
      exact hinv.hpsrc
    hpar := by
      obtain ⟨ord, ho1, ho2⟩ := hinv.hpar
      refine ⟨Function.update ord e.target n, ?_, ?_⟩
      · intro x hx
        have hx0 := (hdone_iff x).1 hx
        have hxv : x ≠ e.target := fun h => hvnd (h ▸ hx0)
        rw [Function.update_noteq hxv, hds]
        exact ho1 x hx0
      · intro x hx hxs
        have hx' : (σ.dist.set e.target (σ.dist.get best + e.weight)).get x < c.inf_weight := hx
        show Side.done _ ((σ.par.set _ _).get x) ∧
          Function.update ord e.target n ((σ.par.set _ _).get x) <
            Function.update ord e.target n x ∧
          ∃ e' ∈ arcs ((σ.par.set _ _).get x), e'.target = x ∧
            (σ.dist.set _ _).get ((σ.par.set _ _).get x) + e'.weight = (σ.dist.set _ _).get x
        by_cases hxv : x = e.target
        · rw [hxv, hpv, hgv, hgx best (Ne.symm hvb), Function.update_same,
            Function.update_noteq (Ne.symm hvb)]
          refine ⟨(hdone_iff best).2 hb, ?_, e, he, rfl, rfl⟩
          have := ho1 best hb
          have := Side.card_doneSet_le n σ
          omega
        · rw [hgx x hxv] at hx' ⊢
          rw [hpx x hxv]
          obtain ⟨hpd, hord, e', he', het, hed⟩ := ho2 x hx' hxs
          have hpv' : σ.par.get x ≠ e.target := fun h => hvnd (h ▸ hpd)
          rw [Function.update_noteq hxv, Function.update_noteq hpv', hgx _ hpv']
          exact ⟨(hdone_iff _).2 hpd, hord, e', he', het, hed⟩ }

/-- The distance update of a relaxation keeps the invariant and takes the arc off the
pending list. -/
theorem SideInv.improve {best : Nat} {e : Edge} {pending : List Edge} {σ : Side}
    (ctx : SideCtx c n arcs src dst rho tau D M)
    (hinv : SideInv c n arcs src dst rho tau D M best (e :: pending) σ)
    (hb : σ.done best) (he : e ∈ arcs best) (heur : Nat → Nat)
    (hheur : ∀ x, heur x = avg32 (tau x) D (rho x))
    (hginf : σ.dist.get best + e.weight < c.inf_weight) (htau : tau e.target < c.inf_weight)
    (hdst : e.target = dst → σ.tent ≤ σ.dist.get best + e.weight) :
    SideInv c n arcs src dst rho tau D M best pending
        (σ.improve heur best e (σ.dist.get best + e.weight)) ∧
      (∀ x, (σ.improve heur best e (σ.dist.get best + e.weight)).done x ↔ σ.done x) ∧
      (σ.improve heur best e (σ.dist.get best + e.weight)).tent = σ.tent ∧
      (σ.improve heur best e (σ.dist.get best + e.weight)).best = σ.best ∧
      (σ.improve heur best e (σ.dist.get best + e.weight)).closedO = σ.closedO ∧
      (σ.improve heur best e (σ.dist.get best + e.weight)).distO = σ.distO ∧
      (σ.improve heur best e (σ.dist.get best + e.weight)).closed = σ.closed ∧
      (∀ x, (σ.improve heur best e (σ.dist.get best + e.weight)).dist.get x ≤ σ.dist.get x) ∧
      (σ.improve heur best e (σ.dist.get best + e.weight)).dist.get e.target ≤
        σ.dist.get best + e.weight := by
  obtain ⟨hbd, hbD, hbn⟩ := hinv.hdone best hb
  obtain ⟨hvn, hwM⟩ := ctx.harcs best e he
  have hwalkb : Walk (ArcRel arcs) src best (σ.dist.get best) :=
    (hinv.hsound best (by have := ctx.hM; have := ctx.hDM; omega)).2.1
  have hwalk : Walk (ArcRel arcs) src e.target (σ.dist.get best + e.weight) :=
    Walk.snoc e hwalkb he
  have hgv : (σ.dist.set e.target (σ.dist.get best + e.weight)).get e.target =
      σ.dist.get best + e.weight :=
    TimestampVector.get_set_eq _ _ _ (by rw [hinv.hdl]; exact hvn)
  unfold Side.improve
  by_cases hl : σ.dist.get best + e.weight < σ.dist.get e.target
  · rw [if_pos hl]
    simp only
    have hk : ((σ.dist.set e.target (σ.dist.get best + e.weight)).get e.target +
        heur e.target) % wrap32 =
        σ.dist.get best + e.weight + avg32 (tau e.target) D (rho e.target) := by
      rw [hgv, hheur]
      apply Nat.mod_eq_of_lt
      have := key_upper ctx.hM ctx.h2 ctx.hDM htau (ctx.hrho_le _ _ hwalk)
        (show σ.dist.get best + e.weight ≤ D + M by omega)
      omega
    rw [hk]
    have hmono : ∀ x,
        (σ.dist.set e.target (σ.dist.get best + e.weight)).get x ≤ σ.dist.get x := by
      intro x
      by_cases hx : x = e.target
      · rw [hx, hgv]
        omega
      · rw [TimestampVector.get_set_ne _ _ _ _ (Ne.symm hx)]
    by_cases hc : σ.q.contains_id e.target = true
    · rw [if_pos hc]
      obtain ⟨h1, h2⟩ := SideInv.update ctx hinv hb he hginf htau hl hdst
        (σ.q.decrease_key ⟨e.target,
          σ.dist.get best + e.weight + avg32 (tau e.target) D (rho e.target)⟩)
        (by rw [if_neg (by simp [hc])])
      exact ⟨h1, h2, rfl, rfl, rfl, rfl, rfl, hmono, Nat.le_of_eq hgv⟩
    · rw [if_neg hc]
      obtain ⟨h1, h2⟩ := SideInv.update ctx hinv hb he hginf htau hl hdst
        (σ.q.push ⟨e.target,
          σ.dist.get best + e.weight + avg32 (tau e.target) D (rho e.target)⟩)
        (by rw [if_pos hc])
      exact ⟨h1, h2, rfl, rfl, rfl, rfl, rfl, hmono, Nat.le_of_eq hgv⟩
  · rw [if_neg hl]
    exact ⟨hinv.skip (Or.inl (by omega)), fun _ => Iff.rfl, rfl, rfl, rfl, rfl, rfl,
      fun _ => Nat.le_refl _, by omega⟩

/-- One pass of the arc loop of a step keeps the invariant of the direction, lowers
distances and the tentative distance only, and keeps the meeting node in line with the
tentative distance. -/
theorem SideInv.relax_step {best : Nat} {e : Edge} {pending : List Edge} {σ : Side}
    (ctx : SideCtx c n arcs src dst rho tau D M)
    (hinv : SideInv c n arcs src dst rho tau D M best (e :: pending) σ)
    (hb : σ.done best) (he : e ∈ arcs best) (ho : SideOther c arcs dst σ)
    (hm : σ.Meet c) (heur : Nat → Nat) (hheur : ∀ x, heur x = avg32 (tau x) D (rho x)) :
    SideInv c n arcs src dst rho tau D M best pending (σ.relax tau heur best e) ∧
      (∀ x, (σ.relax tau heur best e).done x ↔ σ.done x) ∧
      (σ.relax tau heur best e).Meet c ∧
      (σ.relax tau heur best e).closedO = σ.closedO ∧
      (σ.relax tau heur best e).distO = σ.distO ∧
      (σ.relax tau heur best e).closed = σ.closed ∧
      (∀ x, (σ.relax tau heur best e).dist.get x ≤ σ.dist.get x) ∧
      (σ.relax tau heur best e).tent ≤ σ.tent := by
  obtain ⟨hbd, hbD, hbn⟩ := hinv.hdone best hb
  obtain ⟨hvn, hwM⟩ := ctx.harcs best e he
  have hM := ctx.hM
  have hDM := ctx.hDM
  have h2 := ctx.h2
  have hti := hinv.hti
  have htl := ctx.htau_inf e.target
  have hOl := ho.hOle e.target
  have hwalkb : Walk (ArcRel arcs) src best (σ.dist.get best) :=
    (hinv.hsound best (by omega)).2.1
  have hwalk : Walk (ArcRel arcs) src e.target (σ.dist.get best + e.weight) :=
    Walk.snoc e hwalkb he
  have hg : (σ.dist.get best + e.weight) % wrap32 = σ.dist.get best + e.weight := by
    apply Nat.mod_eq_of_lt
    rw [wrap32_eq] at *
    omega
  have hgp : (σ.dist.get best + e.weight + tau e.target) % wrap32 =
      σ.dist.get best + e.weight + tau e.target := by
    apply Nat.mod_eq_of_lt
    rw [wrap32_eq] at *
    omega
  have hgo : (σ.dist.get best + e.weight + σ.distO.get e.target) % wrap32 =
      σ.dist.get best + e.weight + σ.distO.get e.target := by
    apply Nat.mod_eq_of_lt
    rw [wrap32_eq] at *
    omega
  unfold Side.relax
  simp only [hg, hgp]
  by_cases hp : σ.tent ≤ σ.dist.get best + e.weight + tau e.target
  · rw [if_pos hp]
    exact ⟨hinv.skip (Or.inr hp), fun _ => Iff.rfl, hm, rfl, rfl, rfl,
      fun _ => Nat.le_refl _, Nat.le_refl _⟩
  · rw [if_neg hp]
    unfold Side.meet
    rw [hgo]
    by_cases hmt : σ.closedO.has e.target = true ∧
        σ.dist.get best + e.weight + σ.distO.get e.target < σ.tent
    · rw [if_pos hmt]
      have hDle : D ≤ σ.dist.get best + e.weight + σ.distO.get e.target :=
        ctx.hDmin _ (Walk.append hwalk (ho.hO e.target (by omega)))
      have hinv2 : SideInv c n arcs src dst rho tau D M best (e :: pending)
          { σ with tent := σ.dist.get best + e.weight + σ.distO.get e.target,
                   best := e.target } :=
        hinv.tent_mono rfl rfl rfl rfl hDle (Nat.le_of_lt hmt.2)
      obtain ⟨h1, h3, h4, h5, h6, h7, h8, h9, h10⟩ :=
        SideInv.improve ctx hinv2 hb he heur hheur
          (show σ.dist.get best + e.weight < c.inf_weight by omega)
          (by omega) (by
            intro hd
            show σ.dist.get best + e.weight + σ.distO.get e.target ≤
              σ.dist.get best + e.weight
            rw [hd, ho.hOd]
            exact Nat.le_refl _)
      refine ⟨h1, h3, ?_, h6, h7, h8, h9, ?_⟩
      · intro _
        rw [h4, h5, h7]
        exact Nat.add_le_add_right h10 _
      · rw [h4]
        exact Nat.le_of_lt hmt.2
    · rw [if_neg hmt]
      obtain ⟨h1, h3, h4, h5, h6, h7, h8, h9, h10⟩ :=
        SideInv.improve ctx hinv hb he heur hheur (by omega) (by omega) (by
          intro hd
          by_contra hlt
          apply hmt
          rw [hd, ho.hOd]
          exact ⟨ho.hOc, by omega⟩)
      refine ⟨h1, h3, ?_, h6, h7, h8, h9, Nat.le_of_eq h4⟩
      intro hlt
      rw [h4] at hlt ⊢
      rw [h5, h7]
      have := hm hlt
      have := h9 σ.best
      omega

end side

end PenAstar

namespace PenAstar

open BidirectionalAStarService

section side

variable {c : Constants} {n : Nat} {arcs : Nat → List Edge} {src dst : Nat}
  {rho tau : Nat → Nat} {D M : Nat}

/-- Between two steps the node last in work plays no role. -/
theorem SideInv.rebase {best : Nat} {σ : Side}
    (hinv : SideInv c n arcs src dst rho tau D M best [] σ) (best' : Nat) :
    SideInv c n arcs src dst rho tau D M best' [] σ :=
  { hdl := hinv.hdl
    hpl := hinv.hpl
    hcl := hinv.hcl
    hsound := hinv.hsound
    hle := hinv.hle
    hq := hinv.hq
    hqn := hinv.hqn
    hdone := hinv.hdone
    hrel := by
      intro x hx e he
      rcases hinv.hrel x hx e he with ⟨_, h⟩ | h | h
      · cases h
      · exact Or.inr (Or.inl h)
      · exact Or.inr (Or.inr h)
    htrack := hinv.htrack
    hsrc0 := hinv.hsrc0
    hdstm := hinv.hdstm
    htD := hinv.htD
    hti := hinv.hti
    hpsrc := hinv.hpsrc
    hpar := hinv.hpar }

/-- The two potentials of a node with a finite distance entry and a finite potential to the
destination sum to at least `D`. -/
theorem SideCtx.pot_sum (ctx : SideCtx c n arcs src dst rho tau D M) {x d : Nat}
    (hx : x < n) (hw : Walk (ArcRel arcs) src x d) (hd : d < c.inf_weight)
    (ht : tau x < c.inf_weight) : rho x ≤ d ∧ D ≤ rho x + tau x := by
  have h1 := ctx.hrho_le x d hw
  refine ⟨h1, ?_⟩
  exact ctx.hDmin _ (Walk.append (ctx.hrho_walk x hx (by omega)) (ctx.htau_walk x hx ht))

/-- Keys in the queue of a direction are at least `D` and far below `2 ^ 32`. -/
theorem SideInv.key_bounds {best : Nat} {pending : List Edge} {σ : Side}
    (ctx : SideCtx c n arcs src dst rho tau D M)
    (hinv : SideInv c n arcs src dst rho tau D M best pending σ) {p : IDKeyPair}
    (hp : p ∈ σ.q.entries) : D ≤ p.key ∧ p.key + D + M < wrap32 := by
  obtain ⟨hpn, hpd, hpt, hpk⟩ := hinv.hq p hp
  obtain ⟨_, hw, hdm⟩ := hinv.hsound p.id hpd
  obtain ⟨h1, h2⟩ := ctx.pot_sum hpn hw hpd hpt
  rw [hpk]
  exact ⟨key_lower ctx.hM ctx.h2 ctx.hDM hpt h1 hpd h2,
    key_upper ctx.hM ctx.h2 ctx.hDM hpt h1 hdm⟩

/-- A queued node at its exact distance on a shortest walk has key `D`. -/
theorem SideInv.key_of_exact {best : Nat} {pending : List Edge} {σ : Side}
    (ctx : SideCtx c n arcs src dst rho tau D M)
    (hinv : SideInv c n arcs src dst rho tau D M best pending σ) {p : IDKeyPair}
    (hp : p ∈ σ.q.entries) (d' : Nat) (hw' : Walk (ArcRel arcs) p.id dst d')
    (hsum : σ.dist.get p.id + d' = D) : p.key = D := by
  obtain ⟨hpn, hpd, hpt, hpk⟩ := hinv.hq p hp
  obtain ⟨_, hw, hdm⟩ := hinv.hsound p.id hpd
  obtain ⟨h1, h2⟩ := ctx.pot_sum hpn hw hpd hpt
  have h3 := ctx.htau_le p.id d' hpn hw'
  have hM := ctx.hM
  have hDM := ctx.hDM
  rw [hpk]
  have hr : σ.dist.get p.id = rho p.id := by omega
  rw [hr]
  exact key_on_path ctx.h2 hpt (by omega) (by omega)

/-- While the tentative distance is above `D`, every node of a shortest walk is settled at
its exact distance or some queued node has key `D`. -/
theorem SideInv.frontier {best : Nat} {σ : Side}
    (ctx : SideCtx c n arcs src dst rho tau D M)
    (hinv : SideInv c n arcs src dst rho tau D M best [] σ) (hlt : D < σ.tent) :
    ∀ u d, Walk (ArcRel arcs) src u d → ∀ d', Walk (ArcRel arcs) u dst d' → d + d' = D →
      (∃ p ∈ σ.q.entries, p.key = D) ∨ (σ.done u ∧ σ.dist.get u = d) := by
  have hM := ctx.hM
  have hDM := ctx.hDM
  intro u d hw
  induction hw with
  | nil =>
    intro d' hw' hsum
    have h0 := hinv.hsrc0
    rcases hinv.htrack src (by omega) with hc | hc
    · left
      obtain ⟨p, hp, hpid⟩ := (MinIDQueue.contains_id_iff _ _).1 hc
      refine ⟨p, hp, hinv.key_of_exact ctx hp d' (by rw [hpid]; exact hw') ?_⟩
      rw [hpid, h0]
      omega
    · cases hq : σ.q.contains_id src with
      | true =>
        left
        obtain ⟨p, hp, hpid⟩ := (MinIDQueue.contains_id_iff _ _).1 hq
        refine ⟨p, hp, hinv.key_of_exact ctx hp d' (by rw [hpid]; exact hw') ?_⟩
        rw [hpid, h0]
        omega
      | false => exact Or.inr ⟨⟨hc, hq⟩, h0⟩
  | @snoc u d e hw ha ih =>
    intro d' hw' hsum
    rcases ih (e.weight + d') (Walk.cons e ha hw') (by omega) with h | ⟨hdu, hdist⟩
    · exact Or.inl h
    · obtain ⟨hvn, _⟩ := ctx.harcs u e ha
      have htl := ctx.htau_le e.target d' hvn hw'
      have hle : σ.dist.get e.target ≤ d + e.weight := by
        rcases hinv.hrel u hdu e ha with ⟨_, h⟩ | h | h
        · cases h
        · omega
        · omega
      have hfin : σ.dist.get e.target < c.inf_weight := by omega
      obtain ⟨_, hwv, _⟩ := hinv.hsound e.target hfin
      have hge := ctx.hDmin _ (Walk.append hwv hw')
      have heq : σ.dist.get e.target = d + e.weight := by omega
      rcases hinv.htrack e.target hfin with hc | hc
      · left
        obtain ⟨p, hp, hpid⟩ := (MinIDQueue.contains_id_iff _ _).1 hc
        refine ⟨p, hp, hinv.key_of_exact ctx hp d' (by rw [hpid]; exact hw') ?_⟩
        rw [hpid, heq]
        omega
      · cases hq : σ.q.contains_id e.target with
        | true =>
          left
          obtain ⟨p, hp, hpid⟩ := (MinIDQueue.contains_id_iff _ _).1 hq
          refine ⟨p, hp, hinv.key_of_exact ctx hp d' (by rw [hpid]; exact hw') ?_⟩
          rw [hpid, heq]
          omega
        | false => exact Or.inr ⟨⟨hc, hq⟩, heq⟩

/-- While the tentative distance is above `D`, the queue of a direction holds a node with
key `D`. -/
theorem SideInv.witness {best : Nat} {σ : Side}
    (ctx : SideCtx c n arcs src dst rho tau D M)
    (hinv : SideInv c n arcs src dst rho tau D M best [] σ) (hlt : D < σ.tent) :
    ∃ p ∈ σ.q.entries, p.key = D := by
  rcases hinv.frontier ctx hlt dst D ctx.hD 0 Walk.nil (by omega) with h | ⟨_, hd⟩
  · exact h
  · exfalso
    have hM := ctx.hM
    have hDM := ctx.hDM
    have := hinv.hdstm (by omega)
    omega

/-- The key at the top of the queue: at least `D`, far below `2 ^ 32`, and `D` with a
successful `pop` while the tentative distance is above `D`. -/
theorem SideInv.top_key_spec {best : Nat} {σ : Side}
    (ctx : SideCtx c n arcs src dst rho tau D M)
    (hinv : SideInv c n arcs src dst rho tau D M best [] σ) :
    D ≤ σ.top_key c ∧ σ.top_key c + D + M < wrap32 ∧
      (D < σ.tent → σ.top_key c = D ∧
        ∃ m q', σ.q.pop = some (m, q') ∧ m.key = D) := by
  have hM := ctx.hM
  have hDM := ctx.hDM
  have h2 := ctx.h2
  unfold Side.top_key MinIDQueue.peek MinIDQueue.pop
  cases hm : MinIDQueue.min_entry σ.q.entries with
  | none =>
    simp only
    refine ⟨by omega, by omega, ?_⟩
    intro hlt
    obtain ⟨p, hp, _⟩ := hinv.witness ctx hlt
    rw [(MinIDQueue.min_entry_eq_none _).1 hm] at hp
    cases hp
  | some m =>
    simp only
    obtain ⟨hmem, hmin⟩ := MinIDQueue.min_entry_spec _ m hm
    obtain ⟨h1, h3⟩ := hinv.key_bounds ctx hmem
    refine ⟨h1, h3, ?_⟩
    intro hlt
    obtain ⟨p, hp, hpk⟩ := hinv.witness ctx hlt
    have := hmin p hp
    have hk : m.key = D := by omega
    exact ⟨hk, m, _, rfl, hk⟩

end side

end PenAstar

namespace PenAstar

open BidirectionalAStarService

section side

variable {c : Constants} {n : Nat} {arcs : Nat → List Edge} {src dst : Nat}
  {rho tau : Nat → Nat} {D M : Nat}

/-- Taking the node of least key out of the queue and closing it, while its key is `D`:
the node is settled at its exact distance, and all its arcs are pending. -/
theorem SideInv.pop_min {best : Nat} {σ : Side}
    (ctx : SideCtx c n arcs src dst rho tau D M)
    (hinv : SideInv c n arcs src dst rho tau D M best [] σ)
    (m : IDKeyPair) (q' : MinIDQueue) (hpop : σ.q.pop = some (m, q')) (hkey : m.key = D) :
    SideInv c n arcs src dst rho tau D M m.id (arcs m.id)
        { σ with q := q', closed := σ.closed.set m.id } ∧
      Side.done { σ with q := q', closed := σ.closed.set m.id } m.id ∧
      (Side.doneSet n { σ with q := q', closed := σ.closed.set m.id }).card =
        (σ.doneSet n).card + 1 := by
  obtain ⟨hmem, hmin, hq'⟩ := MinIDQueue.pop_spec σ.q m q' hpop
  obtain ⟨hmn, hmd, hmt, hmk⟩ := hinv.hq m hmem
  obtain ⟨_, hmw, _⟩ := hinv.hsound m.id hmd
  obtain ⟨hr1, hr2⟩ := ctx.pot_sum hmn hmw hmd hmt
  obtain ⟨hex, hexD⟩ := key_exact ctx.hM ctx.h2 ctx.hDM hmt hr1 hr2 (by rw [← hmk]; exact hkey)
  have hcont : ∀ x, q'.contains_id x = true ↔ σ.q.contains_id x = true ∧ x ≠ m.id := by
    intro x
    rw [MinIDQueue.contains_id_iff, MinIDQueue.contains_id_iff, hq']
    constructor
    · rintro ⟨p, hp, hpx⟩
      rw [List.mem_filter] at hp
      refine ⟨⟨p, hp.1, hpx⟩, ?_⟩
      have := hp.2
      simp only [ne_eq, decide_not, Bool.not_eq_eq_eq_not, Bool.not_true,
        decide_eq_false_iff_not] at this
      rw [← hpx]
      exact this
    · rintro ⟨⟨p, hp, hpx⟩, hne⟩
      refine ⟨p, ?_, hpx⟩
      rw [List.mem_filter]
      refine ⟨hp, ?_⟩
      simp only [ne_eq, decide_not, Bool.not_eq_eq_eq_not, Bool.not_true,
        decide_eq_false_iff_not]
      rw [hpx]
      exact hne
  have hmc : σ.q.contains_id m.id = true := (MinIDQueue.contains_id_iff _ _).2 ⟨m, hmem, rfl⟩
  have hnd : ¬ σ.done m.id := by
    rintro ⟨_, h⟩
    rw [hmc] at h
    cases h
  have hml : m.id < σ.closed.vec.length := by rw [hinv.hcl]; exact hmn
  have hdone_iff : ∀ x, Side.done { σ with q := q', closed := σ.closed.set m.id } x ↔
      σ.done x ∨ x = m.id := by
    intro x
    unfold Side.done
    simp only
    constructor
    · rintro ⟨h1, h2⟩
      by_cases hx : x = m.id
      · exact Or.inr hx
      · left
        rw [BoolSet.has_set_other _ _ _ (Ne.symm hx)] at h1
        refine ⟨h1, ?_⟩
        cases hqc : σ.q.contains_id x with
        | false => rfl
        | true =>
          have := (hcont x).2 ⟨hqc, hx⟩
          rw [h2] at this
          cases this
    · rintro (⟨h1, h2⟩ | hx)
      · refine ⟨BoolSet.has_set_of_has _ _ _ h1, ?_⟩
        cases hqc : q'.contains_id x with
        | false => rfl
        | true =>
          have := ((hcont x).1 hqc).1
          rw [h2] at this
          cases this
      · rw [hx]
        refine ⟨BoolSet.has_set_self _ _ hml, ?_⟩
        cases hqc : q'.contains_id m.id with
        | false => rfl
        | true => exact absurd rfl ((hcont m.id).1 hqc).2
  have hds : Side.doneSet n { σ with q := q', closed := σ.closed.set m.id } =
      insert m.id (σ.doneSet n) := by
    unfold Side.doneSet
    ext x
    simp only [Finset.mem_filter, Finset.mem_range, Finset.mem_insert]
    rw [hdone_iff]
    constructor
    · rintro ⟨hx, h | h⟩
      · exact Or.inr ⟨hx, h⟩
      · exact Or.inl h
    · rintro (h | ⟨hx, h⟩)
      · rw [h]
        exact ⟨hmn, Or.inr rfl⟩
      · exact ⟨hx, Or.inl h⟩
  have hcard : (Side.doneSet n { σ with q := q', closed := σ.closed.set m.id }).card =
      (σ.doneSet n).card + 1 := by
    rw [hds]
    apply Finset.card_insert_of_not_mem
    unfold Side.doneSet
    simp only [Finset.mem_filter, Finset.mem_range, not_and]
    exact fun _ => hnd
  refine ⟨?_, (hdone_iff m.id).2 (Or.inr rfl), hcard⟩
  exact
  { hdl := hinv.hdl
    hpl := hinv.hpl
    hcl := by
      show (σ.closed.set m.id).vec.length = n
      rw [BoolSet.vec_length_set]; exact hinv.hcl
    hsound := hinv.hsound
    hle := hinv.hle
    hq := by
      intro p hp
      have hp' : p ∈ q'.entries := hp
      rw [hq', List.mem_filter] at hp'
      exact hinv.hq p hp'.1
    hqn := by
      show (q'.entries.map IDKeyPair.id).Nodup
      rw [hq']
      exact hinv.hqn.sublist (List.Sublist.map _ (List.filter_sublist _))
    hdone := by
      intro x hx
      rcases (hdone_iff x).1 hx with h | h
      · exact hinv.hdone x h
      · rw [h]
        exact ⟨hex, hexD, hmn⟩
    hrel := by
      intro x hx e he
      rcases (hdone_iff x).1 hx with h | h
      · rcases hinv.hrel x h e he with ⟨_, h'⟩ | h' | h'
        · cases h'
        · exact Or.inr (Or.inl h')
        · exact Or.inr (Or.inr h')
      · left
        refine ⟨h, ?_⟩
        rw [← h]
        exact he
    htrack := by
      intro x hx
      show q'.contains_id x = true ∨ (σ.closed.set m.id).has x = true
      by_cases hxm : x = m.id
      · right
        rw [hxm]
        exact BoolSet.has_set_self _ _ hml
      · rcases hinv.htrack x hx with h | h
        · exact Or.inl ((hcont x).2 ⟨h, hxm⟩)
        · exact Or.inr (BoolSet.has_set_of_has _ _ _ h)
    hsrc0 := hinv.hsrc0
    hdstm := hinv.hdstm
    htD := hinv.htD
    hti := hinv.hti
    hpsrc := hinv.hpsrc
    hpar := by
      obtain ⟨ord, ho1, ho2⟩ := hinv.hpar
      refine ⟨Function.update ord m.id (σ.doneSet n).card, ?_, ?_⟩
      · intro x hx
        rw [hcard]
        rcases (hdone_iff x).1 hx with h | h
        · have hxm : x ≠ m.id := fun h' => hnd (h' ▸ h)
          rw [Function.update_noteq hxm]
          exact Nat.lt_succ_of_lt (ho1 x h)
        · rw [h, Function.update_same]
          exact Nat.lt_succ_self _
      · intro x hx hxs
        obtain ⟨hpd, hord, e', he', het, hed⟩ := ho2 x hx hxs
        have hpm : σ.par.get x ≠ m.id := fun h' => hnd (h' ▸ hpd)
        refine ⟨(hdone_iff _).2 (Or.inl hpd), ?_, e', he', het, hed⟩
        show Function.update ord m.id (σ.doneSet n).card (σ.par.get x) <
          Function.update ord m.id (σ.doneSet n).card x
        rw [Function.update_noteq hpm]
        by_cases hxm : x = m.id
        · have hu : Function.update ord m.id (σ.doneSet n).card x = (σ.doneSet n).card := by
            rw [hxm, Function.update_same]
          rw [hu]
          exact ho1 _ hpd
        · rw [Function.update_noteq hxm]
          exact hord }

/-- What the other direction sees is untouched by the arc loop. -/
theorem SideOther.congr {σ σ' : Side} (ho : SideOther c arcs dst σ)
    (h1 : σ'.closedO = σ.closedO) (h2 : σ'.distO = σ.distO) : SideOther c arcs dst σ' :=
  { hO := by rw [h2]; exact ho.hO
    hOle := by rw [h2]; exact ho.hOle
    hOc := by rw [h1]; exact ho.hOc
    hOd := by rw [h2]; exact ho.hOd }

/-- The arc loop of a step keeps the invariant of the direction and leaves no arc
pending. -/
theorem SideInv.relax_arcs {best : Nat} (ctx : SideCtx c n arcs src dst rho tau D M)
    (heur : Nat → Nat) (hheur : ∀ x, heur x = avg32 (tau x) D (rho x)) :
    ∀ (es : List Edge) (σ : Side), (∀ e ∈ es, e ∈ arcs best) →
      SideInv c n arcs src dst rho tau D M best es σ → σ.done best →
      SideOther c arcs dst σ → σ.Meet c →
      SideInv c n arcs src dst rho tau D M best [] (σ.relax_arcs tau heur best es) ∧
        (∀ x, (σ.relax_arcs tau heur best es).done x ↔ σ.done x) ∧
        (σ.relax_arcs tau heur best es).Meet c ∧
        (σ.relax_arcs tau heur best es).closedO = σ.closedO ∧
        (σ.relax_arcs tau heur best es).distO = σ.distO ∧
        (σ.relax_arcs tau heur best es).closed = σ.closed ∧
        (∀ x, (σ.relax_arcs tau heur best es).dist.get x ≤ σ.dist.get x) ∧
        (σ.relax_arcs tau heur best es).tent ≤ σ.tent := by
  intro es
  induction es with
  | nil =>
    intro σ _ hinv _ _ hm
    exact ⟨hinv, fun _ => Iff.rfl, hm, rfl, rfl, rfl, fun _ => Nat.le_refl _, Nat.le_refl _⟩
  | cons e es ih =>
    intro σ hes hinv hb ho hm
    obtain ⟨h1, h2, h3, h4, h5, h6, h7, h8⟩ :=
      hinv.relax_step ctx hb (hes e (List.mem_cons_self _ _)) ho hm heur hheur
    obtain ⟨k1, k2, k3, k4, k5, k6, k7, k8⟩ :=
      ih (σ.relax tau heur best e) (fun e' he' => hes e' (List.mem_cons_of_mem _ he')) h1
        ((h2 best).2 hb) (ho.congr h4 h5) h3
    unfold Side.relax_arcs
    exact ⟨k1, fun x => (k2 x).trans (h2 x), k3, k4.trans h4, k5.trans h5, k6.trans h6,
      fun x => Nat.le_trans (k7 x) (h7 x), Nat.le_trans k8 h8⟩

/-- A whole step of a direction while the tentative distance is above `D`: `pop` succeeds,
the invariant is kept, and one more node is settled. -/
theorem SideInv.step_spec {best : Nat} {σ : Side}
    (ctx : SideCtx c n arcs src dst rho tau D M)
    (hinv : SideInv c n arcs src dst rho tau D M best [] σ)
    (ho : SideOther c arcs dst σ) (hm : σ.Meet c) (hlt : D < σ.tent)
    (heur : Nat → Nat) (hheur : ∀ x, heur x = avg32 (tau x) D (rho x)) :
    ∃ m q', σ.q.pop = some (m, q') ∧ m.id < n ∧
      SideInv c n arcs src dst rho tau D M 0 []
        (Side.relax_arcs tau heur m.id (arcs m.id)
          { σ with q := q', closed := σ.closed.set m.id }) ∧
      (Side.relax_arcs tau heur m.id (arcs m.id)
          { σ with q := q', closed := σ.closed.set m.id }).Meet c ∧
      (Side.relax_arcs tau heur m.id (arcs m.id)
          { σ with q := q', closed := σ.closed.set m.id }).closedO = σ.closedO ∧
      (Side.relax_arcs tau heur m.id (arcs m.id)
          { σ with q := q', closed := σ.closed.set m.id }).distO = σ.distO ∧
      (Side.relax_arcs tau heur m.id (arcs m.id)
          { σ with q := q', closed := σ.closed.set m.id }).closed = σ.closed.set m.id ∧
      (∀ x, (Side.relax_arcs tau heur m.id (arcs m.id)
          { σ with q := q', closed := σ.closed.set m.id }).dist.get x ≤ σ.dist.get x) ∧
      (Side.relax_arcs tau heur m.id (arcs m.id)
          { σ with q := q', closed := σ.closed.set m.id }).tent ≤ σ.tent ∧
      (Side.doneSet n (Side.relax_arcs tau heur m.id (arcs m.id)
          { σ with q := q', closed := σ.closed.set m.id })).card = (σ.doneSet n).card + 1 := by
  obtain ⟨_, _, htop⟩ := hinv.top_key_spec ctx
  obtain ⟨_, m, q', hpop, hkey⟩ := htop hlt
  obtain ⟨h1, h2, h3⟩ := hinv.pop_min ctx m q' hpop hkey
  obtain ⟨k1, k2, k3, k4, k5, k6, k7, k8⟩ :=
    SideInv.relax_arcs ctx heur hheur (arcs m.id)
      { σ with q := q', closed := σ.closed.set m.id } (fun _ h => h) h1 h2
      (ho.congr rfl rfl) hm
  refine ⟨m, q', hpop, (h1.hdone m.id h2).2.2, k1.rebase 0, k3, k4, k5, k6, k7, k8, ?_⟩
  rw [← h3]
  unfold Side.doneSet
  congr 1
  exact Finset.filter_congr (fun x _ => k2 x)

end side

end PenAstar

namespace PenAstar

open BidirectionalAStarService

theorem FrameF.same_f (b : BidirectionalAStarService) : FrameF b b :=
  ⟨rfl, rfl, rfl, rfl, rfl, rfl, rfl, rfl, rfl⟩

theorem FrameF.comp_f {b1 b2 b3 : BidirectionalAStarService} (h12 : FrameF b1 b2)
    (h23 : FrameF b2 b3) : FrameF b1 b3 :=
  ⟨h23.hg.trans h12.hg, h23.hs.trans h12.hs, h23.ht.trans h12.ht, h23.hkf.trans h12.hkf,
    h23.hkr.trans h12.hkr, h23.hd.trans h12.hd, h23.hp.trans h12.hp, h23.hq.trans h12.hq,
    h23.hc.trans h12.hc⟩

theorem FrameR.same_r (b : BidirectionalAStarService) : FrameR b b :=
  ⟨rfl, rfl, rfl, rfl, rfl, rfl, rfl, rfl, rfl⟩

theorem FrameR.comp_r {b1 b2 b3 : BidirectionalAStarService} (h12 : FrameR b1 b2)
    (h23 : FrameR b2 b3) : FrameR b1 b3 :=
  ⟨h23.hg.trans h12.hg, h23.hs.trans h12.hs, h23.ht.trans h12.ht, h23.hkf.trans h12.hkf,
    h23.hkr.trans h12.hkr, h23.hd.trans h12.hd, h23.hp.trans h12.hp, h23.hq.trans h12.hq,
    h23.hc.trans h12.hc⟩

section heur

variable {fuel n : Nat} {pf pr : Nat → Nat}

/-- `heur_f1(x)` with potential services that answer with `pf` and `pr`. -/
theorem heur_f1_spec {b : BidirectionalAStarService} (hp : PotsOK fuel n pf pr b) {x : Nat}
    (hx : x < n) (ht : b.target < n) :
    ∃ f r, heur_f1 fuel b x =
        Outcome.ok (avg32 (pf x) (pr b.target) (pr x), { b with pot_f1 := f, pot_r1 := r }) ∧
      PotsOK fuel n pf pr { b with pot_f1 := f, pot_r1 := r } := by
  obtain ⟨f, h1, hf⟩ := hp.hf1.call hx
  obtain ⟨r, h2, hr⟩ := hp.hr1.call_rev ht
  obtain ⟨r', h3, hr'⟩ := hr.call_rev hx
  refine ⟨f, r', ?_, ⟨hf, hp.hf2, hr', hp.hr2⟩⟩
  unfold heur_f1
  rw [h1]
  simp only
  rw [h2]
  simp only
  rw [h3]

/-- `heur_r1(x)`. -/
theorem heur_r1_spec {b : BidirectionalAStarService} (hp : PotsOK fuel n pf pr b) {x : Nat}
    (hx : x < n) (hs : b.source < n) :
    ∃ f r, heur_r1 fuel b x =
        Outcome.ok (avg32 (pr x) (pf b.source) (pf x), { b with pot_f1 := f, pot_r1 := r }) ∧
      PotsOK fuel n pf pr { b with pot_f1 := f, pot_r1 := r } := by
  obtain ⟨r, h1, hr⟩ := hp.hr1.call_rev hx
  obtain ⟨f, h2, hf⟩ := hp.hf1.call hs
  obtain ⟨f', h3, hf'⟩ := hf.call hx
  refine ⟨f', r, ?_, ⟨hf', hp.hf2, hr, hp.hr2⟩⟩
  unfold heur_r1
  rw [h1]
  simp only
  rw [h2]
  simp only
  rw [h3]

/-- `heur_f2(x)`. -/
theorem heur_f2_spec {b : BidirectionalAStarService} (hp : PotsOK fuel n pf pr b) {x : Nat}
    (hx : x < n) (ht : b.target < n) :
    ∃ f r, heur_f2 fuel b x =
        Outcome.ok (avg32 (pf x) (pr b.target) (pr x), { b with pot_f2 := f, pot_r2 := r }) ∧
      PotsOK fuel n pf pr { b with pot_f2 := f, pot_r2 := r } := by
  obtain ⟨f, h1, hf⟩ := hp.hf2.call hx
  obtain ⟨r, h2, hr⟩ := hp.hr2.call_rev ht
  obtain ⟨r', h3, hr'⟩ := hr.call_rev hx
  refine ⟨f, r', ?_, ⟨hp.hf1, hf, hp.hr1, hr'⟩⟩
  unfold heur_f2
  rw [h1]
  simp only
  rw [h2]
  simp only
  rw [h3]

/-- `heur_r2(x)`. -/
theorem heur_r2_spec {b : BidirectionalAStarService} (hp : PotsOK fuel n pf pr b) {x : Nat}
    (hx : x < n) (hs : b.source < n) :
    ∃ f r, heur_r2 fuel b x =
        Outcome.ok (avg32 (pr x) (pf b.source) (pf x), { b with pot_f2 := f, pot_r2 := r }) ∧
      PotsOK fuel n pf pr { b with pot_f2 := f, pot_r2 := r } := by
  obtain ⟨r, h1, hr⟩ := hp.hr2.call_rev hx
  obtain ⟨f, h2, hf⟩ := hp.hf2.call hs
  obtain ⟨f', h3, hf'⟩ := hf.call hx
  refine ⟨f', r, ?_, ⟨hp.hf1, hf', hp.hr1, hr⟩⟩
  unfold heur_r2
  rw [h1]
  simp only
  rw [h2]
  simp only
  rw [h3]

/-- The body of the arc loop of `step_f` acts on the forward view as `Side.relax`. -/
theorem relax_f_view {b : BidirectionalAStarService} (hp : PotsOK fuel n pf pr b)
    (best : Nat) (arc : Edge) (hv : arc.target < n) (ht : b.target < n) :
    ∃ b', relax_f fuel b best arc = Outcome.ok b' ∧ PotsOK fuel n pf pr b' ∧
      b'.viewF = b.viewF.relax pf (fun x => avg32 (pf x) (pr b.target) (pr x)) best arc ∧
      FrameF b b' := by
  obtain ⟨f, h1, hf⟩ := hp.hf1.call hv
  by_cases hprune : ((b.dist_f.get best + arc.weight) % wrap32 + pf arc.target) % wrap32 ≥
      b.tentative_dist
  · refine ⟨{ b with pot_f1 := f }, ?_, ⟨hf, hp.hf2, hp.hr1, hp.hr2⟩, ?_,
      ⟨rfl, rfl, rfl, rfl, rfl, rfl, rfl, rfl, rfl⟩⟩
    · unfold relax_f
      rw [h1]
      simp only
      rw [if_pos hprune]
    · unfold Side.relax viewF
      simp only
      rw [if_pos hprune]
  · by_cases hmeet : b.closed_r.has arc.target = true ∧
        ((b.dist_f.get best + arc.weight) % wrap32 + b.dist_r.get arc.target) % wrap32 <
          b.tentative_dist
    · by_cases himp : (b.dist_f.get best + arc.weight) % wrap32 < b.dist_f.get arc.target
      · obtain ⟨f', r', h2, hp2⟩ := heur_f1_spec (b := { b with
                    pot_f1 := f
                    tentative_dist :=
                      ((b.dist_f.get best + arc.weight) % wrap32 + b.dist_r.get arc.target) % wrap32
                    best_node := arc.target
                    dist_f := b.dist_f.set arc.target ((b.dist_f.get best + arc.weight) % wrap32)
                    par_f := b.par_f.set arc.target best })
                  ⟨hf, hp.hf2, hp.hr1, hp.hr2⟩ hv ht
        simp only at h2
        by_cases hcont : b.q_f.contains_id arc.target = true
        · refine ⟨?w1, ?a1, ?b1, ?c1, ?d1⟩
          case a1 =>
            unfold relax_f
            rw [h1]
            simp only
            rw [if_neg hprune, if_pos hmeet]
            simp only
            rw [if_pos himp, h2]
            simp only
            rw [if_pos hcont]
            exact rfl
          case b1 => exact ⟨hp2.hf1, hp2.hf2, hp2.hr1, hp2.hr2⟩
          case c1 =>
            unfold Side.relax Side.meet Side.improve viewF
            simp only
            rw [if_neg hprune, if_pos hmeet]
            simp only
            rw [if_pos himp, if_pos hcont]
          case d1 => exact ⟨rfl, rfl, rfl, rfl, rfl, rfl, rfl, rfl, rfl⟩
        · refine ⟨?w2, ?a2, ?b2, ?c2, ?d2⟩
          case a2 =>
            unfold relax_f
            rw [h1]
            simp only
            rw [if_neg hprune, if_pos hmeet]
            simp only
            rw [if_pos himp, h2]
            simp only
            rw [if_neg hcont]
            exact rfl
          case b2 => exact ⟨hp2.hf1, hp2.hf2, hp2.hr1, hp2.hr2⟩
          case c2 =>
            unfold Side.relax Side.meet Side.improve viewF
            simp only
            rw [if_neg hprune, if_pos hmeet]
            simp only
            rw [if_pos himp, if_neg hcont]
          case d2 => exact ⟨rfl, rfl, rfl, rfl, rfl, rfl, rfl, rfl, rfl⟩
      · refine ⟨?w3, ?a3, ?b3, ?c3, ?d3⟩
        case a3 =>
          unfold relax_f
          rw [h1]
          simp only
          rw [if_neg hprune, if_pos hmeet]
          simp only
          rw [if_neg himp]
          exact rfl
        case b3 => exact ⟨hf, hp.hf2, hp.hr1, hp.hr2⟩
        case c3 =>
          unfold Side.relax Side.meet Side.improve viewF
          simp only
          rw [if_neg hprune, if_pos hmeet]
          simp only
          rw [if_neg himp]
        case d3 => exact ⟨rfl, rfl, rfl, rfl, rfl, rfl, rfl, rfl, rfl⟩
    · by_cases himp : (b.dist_f.get best + arc.weight) % wrap32 < b.dist_f.get arc.target
      · obtain ⟨f', r', h2, hp2⟩ := heur_f1_spec (b := { b with
                    pot_f1 := f
                    dist_f := b.dist_f.set arc.target ((b.dist_f.get best + arc.weight) % wrap32)
                    par_f := b.par_f.set arc.target best })
                  ⟨hf, hp.hf2, hp.hr1, hp.hr2⟩ hv ht
        simp only at h2
        by_cases hcont : b.q_f.contains_id arc.target = true
        · refine ⟨?w4, ?a4, ?b4, ?c4, ?d4⟩
          case a4 =>
            unfold relax_f
            rw [h1]
            simp only
            rw [if_neg hprune, if_neg hmeet]
            simp only
            rw [if_pos himp, h2]
            simp only
            rw [if_pos hcont]
            exact rfl
          case b4 => exact ⟨hp2.hf1, hp2.hf2, hp2.hr1, hp2.hr2⟩
          case c4 =>
            unfold Side.relax Side.meet Side.improve viewF
            simp only
            rw [if_neg hprune, if_neg hmeet]
            simp only
            rw [if_pos himp, if_pos hcont]
          case d4 => exact ⟨rfl, rfl, rfl, rfl, rfl, rfl, rfl, rfl, rfl⟩
        · refine ⟨?w5, ?a5, ?b5, ?c5, ?d5⟩
          case a5 =>
            unfold relax_f
            rw [h1]
            simp only
            rw [if_neg hprune, if_neg hmeet]
            simp only
            rw [if_pos himp, h2]
            simp only
            rw [if_neg hcont]
            exact rfl
          case b5 => exact ⟨hp2.hf1, hp2.hf2, hp2.hr1, hp2.hr2⟩
          case c5 =>
            unfold Side.relax Side.meet Side.improve viewF
            simp only
            rw [if_neg hprune, if_neg hmeet]
            simp only
            rw [if_pos himp, if_neg hcont]
          case d5 => exact ⟨rfl, rfl, rfl, rfl, rfl, rfl, rfl, rfl, rfl⟩
      · refine ⟨?w6, ?a6, ?b6, ?c6, ?d6⟩
        case a6 =>
          unfold relax_f
          rw [h1]
          simp only
          rw [if_neg hprune, if_neg hmeet]
          simp only
          rw [if_neg himp]
          exact rfl
        case b6 => exact ⟨hf, hp.hf2, hp.hr1, hp.hr2⟩
        case c6 =>
          unfold Side.relax Side.meet Side.improve viewF
          simp only
          rw [if_neg hprune, if_neg hmeet]
          simp only
          rw [if_neg himp]
        case d6 => exact ⟨rfl, rfl, rfl, rfl, rfl, rfl, rfl, rfl, rfl⟩

/-- The body of the arc loop of `step_r` acts on the reverse view as `Side.relax`. -/
theorem relax_r_view {b : BidirectionalAStarService} (hp : PotsOK fuel n pf pr b)
    (best : Nat) (arc : Edge) (hv : arc.target < n) (hs : b.source < n) :
    ∃ b', relax_r fuel b best arc = Outcome.ok b' ∧ PotsOK fuel n pf pr b' ∧
      b'.viewR = b.viewR.relax pr (fun x => avg32 (pr x) (pf b.source) (pf x)) best arc ∧
      FrameR b b' := by
  obtain ⟨f, h1, hf⟩ := hp.hr2.call_rev hv
  by_cases hprune : ((b.dist_r.get best + arc.weight) % wrap32 + pr arc.target) % wrap32 ≥
      b.tentative_dist
  · refine ⟨{ b with pot_r2 := f }, ?_, ⟨hp.hf1, hp.hf2, hp.hr1, hf⟩, ?_,
      ⟨rfl, rfl, rfl, rfl, rfl, rfl, rfl, rfl, rfl⟩⟩
    · unfold relax_r
      rw [h1]
      simp only
      rw [if_pos hprune]
    · unfold Side.relax viewR
      simp only
      rw [if_pos hprune]
  · by_cases hmeet : b.closed_f.has arc.target = true ∧
        ((b.dist_r.get best + arc.weight) % wrap32 + b.dist_f.get arc.target) % wrap32 <
          b.tentative_dist
    · by_cases himp : (b.dist_r.get best + arc.weight) % wrap32 < b.dist_r.get arc.target
      · obtain ⟨f', r', h2, hp2⟩ := heur_r2_spec (b := { b with
                    pot_r2 := f
                    tentative_dist :=
                      ((b.dist_r.get best + arc.weight) % wrap32 + b.dist_f.get arc.target) % wrap32
                    best_node := arc.target
                    dist_r := b.dist_r.set arc.target ((b.dist_r.get best + arc.weight) % wrap32)
                    par_r := b.par_r.set arc.target best })
                  ⟨hp.hf1, hp.hf2, hp.hr1, hf⟩ hv hs
        simp only at h2
        by_cases hcont : b.q_r.contains_id arc.target = true
        · refine ⟨?w7, ?a7, ?b7, ?c7, ?d7⟩
          case a7 =>
            unfold relax_r
            rw [h1]
            simp only
            rw [if_neg hprune, if_pos hmeet]
            simp only
            rw [if_pos himp, h2]
            simp only
            rw [if_pos hcont]
            exact rfl
          case b7 => exact ⟨hp2.hf1, hp2.hf2, hp2.hr1, hp2.hr2⟩
          case c7 =>
            unfold Side.relax Side.meet Side.improve viewR
            simp only
            rw [if_neg hprune, if_pos hmeet]
            simp only
            rw [if_pos himp, if_pos hcont]
          case d7 => exact ⟨rfl, rfl, rfl, rfl, rfl, rfl, rfl, rfl, rfl⟩
        · refine ⟨?w8, ?a8, ?b8, ?c8, ?d8⟩
          case a8 =>
            unfold relax_r
            rw [h1]
            simp only
            rw [if_neg hprune, if_pos hmeet]
            simp only
            rw [if_pos himp, h2]
            simp only
            rw [if_neg hcont]
            exact rfl
          case b8 => exact ⟨hp2.hf1, hp2.hf2, hp2.hr1, hp2.hr2⟩
          case c8 =>
            unfold Side.relax Side.meet Side.improve viewR
            simp only
            rw [if_neg hprune, if_pos hmeet]
            simp only
            rw [if_pos himp, if_neg hcont]
          case d8 => exact ⟨rfl, rfl, rfl, rfl, rfl, rfl, rfl, rfl, rfl⟩
      · refine ⟨?w9, ?a9, ?b9, ?c9, ?d9⟩
        case a9 =>
          unfold relax_r
          rw [h1]
          simp only
          rw [if_neg hprune, if_pos hmeet]
          simp only
          rw [if_neg himp]
          exact rfl
        case b9 => exact ⟨hp.hf1, hp.hf2, hp.hr1, hf⟩
        case c9 =>
          unfold Side.relax Side.meet Side.improve viewR
          simp only
          rw [if_neg hprune, if_pos hmeet]
          simp only
          rw [if_neg himp]
        case d9 => exact ⟨rfl, rfl, rfl, rfl, rfl, rfl, rfl, rfl, rfl⟩
    · by_cases himp : (b.dist_r.get best + arc.weight) % wrap32 < b.dist_r.get arc.target
      · obtain ⟨f', r', h2, hp2⟩ := heur_r2_spec (b := { b with
                    pot_r2 := f
                    dist_r := b.dist_r.set arc.target ((b.dist_r.get best + arc.weight) % wrap32)
                    par_r := b.par_r.set arc.target best })
                  ⟨hp.hf1, hp.hf2, hp.hr1, hf⟩ hv hs
        simp only at h2
        by_cases hcont : b.q_r.contains_id arc.target = true
        · refine ⟨?w10, ?a10, ?b10, ?c10, ?d10⟩
          case a10 =>
            unfold relax_r
            rw [h1]
            simp only
            rw [if_neg hprune, if_neg hmeet]
            simp only
            rw [if_pos himp, h2]
            simp only
            rw [if_pos hcont]
            exact rfl
          case b10 => exact ⟨hp2.hf1, hp2.hf2, hp2.hr1, hp2.hr2⟩
          case c10 =>
            unfold Side.relax Side.meet Side.improve viewR
            simp only
            rw [if_neg hprune, if_neg hmeet]
            simp only
            rw [if_pos himp, if_pos hcont]
          case d10 => exact ⟨rfl, rfl, rfl, rfl, rfl, rfl, rfl, rfl, rfl⟩
        · refine ⟨?w11, ?a11, ?b11, ?c11, ?d11⟩
          case a11 =>
            unfold relax_r
            rw [h1]
            simp only
            rw [if_neg hprune, if_neg hmeet]
            simp only
            rw [if_pos himp, h2]
            simp only
            rw [if_neg hcont]
            exact rfl
          case b11 => exact ⟨hp2.hf1, hp2.hf2, hp2.hr1, hp2.hr2⟩
          case c11 =>
            unfold Side.relax Side.meet Side.improve viewR
            simp only
            rw [if_neg hprune, if_neg hmeet]
            simp only
            rw [if_pos himp, if_neg hcont]
          case d11 => exact ⟨rfl, rfl, rfl, rfl, rfl, rfl, rfl, rfl, rfl⟩
      · refine ⟨?w12, ?a12, ?b12, ?c12, ?d12⟩
        case a12 =>
          unfold relax_r
          rw [h1]
          simp only
          rw [if_neg hprune, if_neg hmeet]
          simp only
          rw [if_neg himp]
          exact rfl
        case b12 => exact ⟨hp.hf1, hp.hf2, hp.hr1, hf⟩
        case c12 =>
          unfold Side.relax Side.meet Side.improve viewR
          simp only
          rw [if_neg hprune, if_neg hmeet]
          simp only
          rw [if_neg himp]
        case d12 => exact ⟨rfl, rfl, rfl, rfl, rfl, rfl, rfl, rfl, rfl⟩

end heur

end PenAstar

namespace PenAstar

open BidirectionalAStarService

/-- The averaged heuristic of an endpoint of the query is the distance `D`. -/
theorem avg32_endpoint {inf D : Nat} (h2 : 2 * inf ≤ wrap32) (hD : D < inf) :
    avg32 D D 0 = D := by
  rcases avg32_cases D D 0 (by rw [wrap32_eq] at *; omega) (by rw [wrap32_eq]; omega)
    with ⟨_, h⟩ | ⟨_, h⟩ <;> rw [h] <;> omega

section ctx

variable {c : Constants} {n : Nat} {arcs : Nat → List Edge} {src dst : Nat}
  {rho tau : Nat → Nat} {D M : Nat}

theorem SideCtx.rho_src (ctx : SideCtx c n arcs src dst rho tau D M) : rho src = 0 :=
  Nat.le_zero.1 (ctx.hrho_le src 0 Walk.nil)

theorem SideCtx.rho_dst (ctx : SideCtx c n arcs src dst rho tau D M) : rho dst = D := by
  have h1 := ctx.hrho_le dst D ctx.hD
  have hM := ctx.hM
  have hDM := ctx.hDM
  have h2 := ctx.hDmin _ (ctx.hrho_walk dst ctx.hdst (by omega))
  omega

theorem SideCtx.tau_src (ctx : SideCtx c n arcs src dst rho tau D M) : tau src = D := by
  have h1 := ctx.htau_le src D ctx.hsrc ctx.hD
  have hM := ctx.hM
  have hDM := ctx.hDM
  have h2 := ctx.hDmin _ (ctx.htau_walk src ctx.hsrc (by omega))
  omega

end ctx

section loop

variable {fuel n : Nat} {pf pr : Nat → Nat}

/-- The arc loop of `step_f` acts on the forward view as `Side.relax_arcs`. -/
theorem relax_arcs_f_view (best : Nat) (es : List Edge) (hes : ∀ e ∈ es, e.target < n) :
    ∀ b : BidirectionalAStarService, PotsOK fuel n pf pr b → b.target < n →
      ∃ b', relax_arcs (fun st arc => relax_f fuel st best arc) es b = Outcome.ok b' ∧
        PotsOK fuel n pf pr b' ∧
        b'.viewF = b.viewF.relax_arcs pf (fun x => avg32 (pf x) (pr b.target) (pr x)) best es ∧
        FrameF b b' := by
  induction es with
  | nil =>
    intro b hp _
    exact ⟨b, rfl, hp, rfl, FrameF.same_f b⟩
  | cons e es ih =>
    intro b hp ht
    obtain ⟨b1, h1, hp1, hv1, hf1⟩ :=
      relax_f_view hp best e (hes e (List.mem_cons_self _ _)) ht
    obtain ⟨b2, h2, hp2, hv2, hf2⟩ :=
      ih (fun e' he' => hes e' (List.mem_cons_of_mem _ he')) b1 hp1 (by rw [hf1.ht]; exact ht)
    refine ⟨b2, ?_, hp2, ?_, hf1.comp_f hf2⟩
    · unfold relax_arcs
      rw [h1]
      exact h2
    · rw [hv2, hv1, hf1.ht]
      rfl

/-- `step_f()` acts on the forward view as `pop`, closing the node, and the arc loop. -/
theorem step_f_view {b : BidirectionalAStarService} (hp : PotsOK fuel n pf pr b)
    (ht : b.target < n) (m : IDKeyPair) (q' : MinIDQueue)
    (hpop : b.q_f.pop = some (m, q'))
    (harcs : ∀ e ∈ b.g.get_out_arcs m.id, e.target < n) :
    ∃ b', step_f fuel b = Outcome.ok b' ∧ PotsOK fuel n pf pr b' ∧
      b'.viewF = Side.relax_arcs pf (fun x => avg32 (pf x) (pr b.target) (pr x)) m.id
        (b.g.get_out_arcs m.id) { b.viewF with q := q', closed := b.closed_f.set m.id } ∧
      FrameF b b' := by
  have hp0 : PotsOK fuel n pf pr { b with q_f := q', closed_f := b.closed_f.set m.id } :=
    ⟨hp.hf1, hp.hf2, hp.hr1, hp.hr2⟩
  obtain ⟨b', h1, hp', hv', hf'⟩ := relax_arcs_f_view m.id (b.g.get_out_arcs m.id) harcs
    { b with q_f := q', closed_f := b.closed_f.set m.id } hp0 ht
  refine ⟨b', ?_, hp', hv', ⟨hf'.hg, hf'.hs, hf'.ht, hf'.hkf, hf'.hkr, hf'.hd, hf'.hp, hf'.hq,
    hf'.hc⟩⟩
  unfold step_f
  rw [hpop]
  exact h1

/-- The arc loop of `step_r` acts on the reverse view as `Side.relax_arcs`. -/
theorem relax_arcs_r_view (best : Nat) (es : List Edge) (hes : ∀ e ∈ es, e.target < n) :
    ∀ b : BidirectionalAStarService, PotsOK fuel n pf pr b → b.source < n →
      ∃ b', relax_arcs (fun st arc => relax_r fuel st best arc) es b = Outcome.ok b' ∧
        PotsOK fuel n pf pr b' ∧
        b'.viewR = b.viewR.relax_arcs pr (fun x => avg32 (pr x) (pf b.source) (pf x)) best es ∧
        FrameR b b' := by
  induction es with
  | nil =>
    intro b hp _
    exact ⟨b, rfl, hp, rfl, FrameR.same_r b⟩
  | cons e es ih =>
    intro b hp ht
    obtain ⟨b1, h1, hp1, hv1, hf1⟩ :=
      relax_r_view hp best e (hes e (List.mem_cons_self _ _)) ht
    obtain ⟨b2, h2, hp2, hv2, hf2⟩ :=
      ih (fun e' he' => hes e' (List.mem_cons_of_mem _ he')) b1 hp1 (by rw [hf1.hs]; exact ht)
    refine ⟨b2, ?_, hp2, ?_, hf1.comp_r hf2⟩
    · unfold relax_arcs
      rw [h1]
      exact h2
    · rw [hv2, hv1, hf1.hs]
      rfl

/-- `step_r()` acts on the reverse view as `pop`, closing the node, and the arc loop. -/
theorem step_r_view {b : BidirectionalAStarService} (hp : PotsOK fuel n pf pr b)
    (ht : b.source < n) (m : IDKeyPair) (q' : MinIDQueue)
    (hpop : b.q_r.pop = some (m, q'))
    (harcs : ∀ e ∈ b.g.get_rev_out_arcs m.id, e.target < n) :
    ∃ b', step_r fuel b = Outcome.ok b' ∧ PotsOK fuel n pf pr b' ∧
      b'.viewR = Side.relax_arcs pr (fun x => avg32 (pr x) (pf b.source) (pf x)) m.id
        (b.g.get_rev_out_arcs m.id) { b.viewR with q := q', closed := b.closed_r.set m.id } ∧
      FrameR b b' := by
  have hp0 : PotsOK fuel n pf pr { b with q_r := q', closed_r := b.closed_r.set m.id } :=
    ⟨hp.hf1, hp.hf2, hp.hr1, hp.hr2⟩
  obtain ⟨b', h1, hp', hv', hf'⟩ := relax_arcs_r_view m.id (b.g.get_rev_out_arcs m.id) harcs
    { b with q_r := q', closed_r := b.closed_r.set m.id } hp0 ht
  refine ⟨b', ?_, hp', hv', ⟨hf'.hg, hf'.hs, hf'.ht, hf'.hkf, hf'.hkr, hf'.hd, hf'.hp, hf'.hq,
    hf'.hc⟩⟩
  unfold step_r
  rw [hpop]
  exact h1

end loop

end PenAstar

namespace PenAstar

open BidirectionalAStarService

section bi

variable {c : Constants} {fuel : Nat} {g : Graph} {s t : Nat} {pf pr : Nat → Nat} {D M : Nat}

theorem meet_viewR_iff (b : BidirectionalAStarService) : b.viewR.Meet c ↔ b.viewF.Meet c := by
  unfold Side.Meet viewR viewF
  simp only
  rw [Nat.add_comm]

/-- What the forward direction knows of the reverse one. -/
theorem BiInv.otherF {b : BidirectionalAStarService} (bc : BiCtx c g s t pf pr D M)
    (hinv : BiInv c fuel g s t pf pr D M b) : SideOther c g.get_out_arcs t b.viewF :=
  { hO := fun x hx => walk_of_walk_rev bc.hc (hinv.hR.hsound x hx).2.1
    hOle := hinv.hR.hle
    hOc := hinv.hcr
    hOd := hinv.hR.hsrc0 }

/-- What the reverse direction knows of the forward one. -/
theorem BiInv.otherR {b : BidirectionalAStarService} (bc : BiCtx c g s t pf pr D M)
    (hinv : BiInv c fuel g s t pf pr D M b) : SideOther c g.get_rev_out_arcs s b.viewR :=
  { hO := fun x hx => walk_rev_of_walk bc.hc (hinv.hF.hsound x hx).2.1
    hOle := hinv.hF.hle
    hOc := hinv.hcf
    hOd := hinv.hF.hsrc0 }

/-- A change of the potential services only keeps the invariant. -/
theorem BiInv.pots {b b' : BidirectionalAStarService} (hinv : BiInv c fuel g s t pf pr D M b)
    (hp : PotsOK fuel g.size pf pr b') (hF : FrameF b b') (hR : FrameR b b')
    (ht : b'.tentative_dist = b.tentative_dist) (hb : b'.best_node = b.best_node) :
    BiInv c fuel g s t pf pr D M b' := by
  have hvF : b'.viewF = b.viewF := by
    unfold viewF
    rw [hR.hd, hR.hp, hR.hq, hR.hc, hF.hc, hF.hd, ht, hb]
  have hvR : b'.viewR = b.viewR := by
    unfold viewR
    rw [hR.hd, hR.hc, hF.hp, hF.hq, hF.hc, hF.hd, ht, hb]
  exact
  { hg := hF.hg.trans hinv.hg
    hs := hF.hs.trans hinv.hs
    ht := hF.ht.trans hinv.ht
    hpots := hp
    hF := by rw [hvF]; exact hinv.hF
    hR := by rw [hvR]; exact hinv.hR
    hmeet := by rw [hvF]; exact hinv.hmeet
    hkf := by rw [hvF, hF.hkf]; exact hinv.hkf
    hkr := by rw [hvR, hF.hkr]; exact hinv.hkr
    hk := by rw [hF.hkf, hF.hkr]; exact hinv.hk
    hcf := by rw [hR.hc]; exact hinv.hcf
    hcr := by rw [hF.hc]; exact hinv.hcr }

/-- One loop pass of the forward thread: it goes on exactly while the tentative distance
is above `D`, keeps the invariant, and settles one more node when it goes on. -/
theorem BiInv.pass_f {b : BidirectionalAStarService} (bc : BiCtx c g s t pf pr D M)
    (hinv : BiInv c fuel g s t pf pr D M b) :
    ∃ go b', BidirectionalAStarService.iteration_f c fuel b = Outcome.ok (go, b') ∧
      BiInv c fuel g s t pf pr D M b' ∧ b'.tentative_dist ≤ b.tentative_dist ∧
      (go = false → b'.tentative_dist = D ∧ b'.todo g.size = b.todo g.size) ∧
      (go = true → b'.todo g.size + 1 = b.todo g.size) := by
  have hsn : b.source < g.size := by rw [hinv.hs]; exact bc.hF.hsrc
  have htn : b.target < g.size := by rw [hinv.ht]; exact bc.hF.hdst
  have hM := bc.hF.hM
  have hDM := bc.hF.hDM
  have h2 := bc.hF.h2
  obtain ⟨f, r, h1, hp1⟩ := heur_f1_spec hinv.hpots hsn htn
  have hval : avg32 (pf b.source) (pr b.target) (pr b.source) = D := by
    rw [hinv.hs, hinv.ht, bc.hF.tau_src, bc.hF.rho_dst, bc.hF.rho_src]
    exact avg32_endpoint h2 (by omega)
  rw [hval] at h1
  obtain ⟨hF1, hF2, hFtop⟩ := hinv.hF.top_key_spec bc.hF
  obtain ⟨hR1, hR2, hRtop⟩ := hinv.hR.top_key_spec bc.hR
  have hti := hinv.hF.hti
  have htD := hinv.hF.htD
  have htv : b.viewF.tent = b.tentative_dist := rfl
  have hkf := hinv.hkf
  have hkr := hinv.hkr
  have hk := hinv.hk
  have hsum : (b.k_f + b.k_r) % wrap32 = b.k_f + b.k_r := by
    apply Nat.mod_eq_of_lt
    rw [wrap32_eq] at *
    omega
  have htd : (b.tentative_dist + D) % wrap32 = b.tentative_dist + D := by
    apply Nat.mod_eq_of_lt
    rw [wrap32_eq] at *
    omega
  by_cases hlt : D < b.tentative_dist
  · have hcond : (b.k_f + b.k_r) % wrap32 < (b.tentative_dist + D) % wrap32 := by
      rw [hsum, htd]
      have := (hFtop hlt).1
      have := (hRtop hlt).1
      omega
    have hheur : ∀ x, (fun x => avg32 (pf x) (pr b.target) (pr x)) x = avg32 (pf x) D (pr x) := by
      intro x
      show avg32 (pf x) (pr b.target) (pr x) = _
      rw [hinv.ht, bc.hF.rho_dst]
    obtain ⟨m, q', hpop, hmn, hS, hMeet, hcO, hdO, hcl, hmono, htent, hcard⟩ :=
      hinv.hF.step_spec bc.hF (hinv.otherF bc) hinv.hmeet hlt _ hheur
    obtain ⟨b2, h3, hp2, hv2, hf2⟩ := step_f_view (b := { b with pot_f1 := f, pot_r1 := r })
      hp1 htn m q' hpop (by
        intro e he
        have he' : e ∈ g.get_out_arcs m.id := by rw [← hinv.hg]; exact he
        exact (bc.hF.harcs m.id e he').1)
    have hv2' : b2.viewF = Side.relax_arcs pf (fun x => avg32 (pf x) (pr b.target) (pr x)) m.id
        (g.get_out_arcs m.id) { b.viewF with q := q', closed := b.viewF.closed.set m.id } := by
      rw [hv2, hinv.hg]
      rfl
    rw [← hv2'] at hS hMeet hcO hdO hcl hmono htent hcard
    have hcardO : (b2.viewR.doneSet g.size) = (b.viewR.doneSet g.size) := by
      unfold Side.doneSet Side.done viewR
      simp only
      rw [hf2.hc, hf2.hq]
    have hle := Side.card_doneSet_le g.size b2.viewF
    refine ⟨true, { b2 with k_f :=
      match b2.q_f.peek with
      | some p => p.key
      | none => c.inf_weight }, ?_, ?_, htent, fun h => Bool.noConfusion h, fun _ => ?_⟩
    · unfold BidirectionalAStarService.iteration_f
      rw [h1]
      simp only
      rw [if_pos hcond, h3]
      try rfl
    · exact
      { hg := hf2.hg.trans hinv.hg
        hs := hf2.hs.trans hinv.hs
        ht := hf2.ht.trans hinv.ht
        hpots := ⟨hp2.hf1, hp2.hf2, hp2.hr1, hp2.hr2⟩
        hF := hS
        hR := hinv.hR.tent_mono hf2.hd hf2.hp hf2.hq hf2.hc hS.htD htent
        hmeet := hMeet
        hkf := rfl
        hkr := by
          show b2.k_r = b2.viewR.top_key c
          rw [hf2.hkr]
          unfold Side.top_key viewR
          simp only
          rw [hf2.hq]
          exact hinv.hkr
        hk := by
          right
          show b2.k_r = D
          rw [hf2.hkr, hinv.hkr]
          exact (hRtop hlt).1
        hcf := by
          show b2.closed_f.has s = true
          have : b2.closed_f = b.closed_f.set m.id := hcl
          rw [this]
          exact BoolSet.has_set_of_has _ _ _ hinv.hcf
        hcr := by
          show b2.closed_r.has t = true
          rw [hf2.hc]
          exact hinv.hcr }
    · unfold BidirectionalAStarService.todo
      show (g.size - (b2.viewF.doneSet g.size).card) + (g.size - (b2.viewR.doneSet g.size).card)
        + 1 = _
      rw [hcardO, hcard]
      omega
  · have hcond : ¬ (b.k_f + b.k_r) % wrap32 < (b.tentative_dist + D) % wrap32 := by
      rw [hsum, htd]
      omega
    refine ⟨false, { b with pot_f1 := f, pot_r1 := r }, ?_, ?_, Nat.le_refl _,
      fun _ => ⟨by show b.tentative_dist = D; omega, rfl⟩, fun h => Bool.noConfusion h⟩
    · unfold BidirectionalAStarService.iteration_f
      rw [h1]
      simp only
      rw [if_neg hcond]
    · exact hinv.pots hp1 ⟨rfl, rfl, rfl, rfl, rfl, rfl, rfl, rfl, rfl⟩
        ⟨rfl, rfl, rfl, rfl, rfl, rfl, rfl, rfl, rfl⟩ rfl rfl

/-- One loop pass of the reverse thread: it goes on exactly while the tentative distance
is above `D`, keeps the invariant, and settles one more node when it goes on. -/
theorem BiInv.pass_r {b : BidirectionalAStarService} (bc : BiCtx c g s t pf pr D M)
    (hinv : BiInv c fuel g s t pf pr D M b) :
    ∃ go b', BidirectionalAStarService.iteration_r c fuel b = Outcome.ok (go, b') ∧
      BiInv c fuel g s t pf pr D M b' ∧ b'.tentative_dist ≤ b.tentative_dist ∧
      (go = false → b'.tentative_dist = D ∧ b'.todo g.size = b.todo g.size) ∧
      (go = true → b'.todo g.size + 1 = b.todo g.size) := by
  have hsn : b.source < g.size := by rw [hinv.hs]; exact bc.hF.hsrc
  have htn : b.target < g.size := by rw [hinv.ht]; exact bc.hF.hdst
  have hM := bc.hF.hM
  have hDM := bc.hF.hDM
  have h2 := bc.hF.h2
  obtain ⟨f, r, h1, hp1⟩ := heur_f2_spec hinv.hpots hsn htn
  have hval : avg32 (pf b.source) (pr b.target) (pr b.source) = D := by
    rw [hinv.hs, hinv.ht, bc.hF.tau_src, bc.hF.rho_dst, bc.hF.rho_src]
    exact avg32_endpoint h2 (by omega)
  rw [hval] at h1
  obtain ⟨hF1, hF2, hFtop⟩ := hinv.hF.top_key_spec bc.hF
  obtain ⟨hR1, hR2, hRtop⟩ := hinv.hR.top_key_spec bc.hR
  have hti := hinv.hF.hti
  have htD := hinv.hF.htD
  have htv : b.viewF.tent = b.tentative_dist := rfl
  have hkf := hinv.hkf
  have hkr := hinv.hkr
  have hk := hinv.hk
  have hsum : (b.k_f + b.k_r) % wrap32 = b.k_f + b.k_r := by
    apply Nat.mod_eq_of_lt
    rw [wrap32_eq] at *
    omega
  have htd : (b.tentative_dist + D) % wrap32 = b.tentative_dist + D := by
    apply Nat.mod_eq_of_lt
    rw [wrap32_eq] at *
    omega
  by_cases hlt : D < b.tentative_dist
  · have hcond : (b.k_f + b.k_r) % wrap32 < (b.tentative_dist + D) % wrap32 := by
      rw [hsum, htd]
      have := (hFtop hlt).1
      have := (hRtop hlt).1
      omega
    have hheur : ∀ x, (fun x => avg32 (pr x) (pf b.source) (pf x)) x = avg32 (pr x) D (pf x) := by
      intro x
      show avg32 (pr x) (pf b.source) (pf x) = _
      rw [hinv.hs, bc.hF.tau_src]
    obtain ⟨m, q', hpop, hmn, hS, hMeet, hcO, hdO, hcl, hmono, htent, hcard⟩ :=
      hinv.hR.step_spec bc.hR (hinv.otherR bc) ((meet_viewR_iff b).2 hinv.hmeet) hlt _ hheur
    obtain ⟨b2, h3, hp2, hv2, hf2⟩ := step_r_view (b := { b with pot_f2 := f, pot_r2 := r })
      hp1 hsn m q' hpop (by
        intro e he
        have he' : e ∈ g.get_rev_out_arcs m.id := by rw [← hinv.hg]; exact he
        exact (bc.hR.harcs m.id e he').1)
    have hv2' : b2.viewR = Side.relax_arcs pr (fun x => avg32 (pr x) (pf b.source) (pf x)) m.id
        (g.get_rev_out_arcs m.id) { b.viewR with q := q', closed := b.viewR.closed.set m.id } := by
      rw [hv2, hinv.hg]
      rfl
    rw [← hv2'] at hS hMeet hcO hdO hcl hmono htent hcard
    have hcardO : (b2.viewF.doneSet g.size) = (b.viewF.doneSet g.size) := by
      unfold Side.doneSet Side.done viewF
      simp only
      rw [hf2.hc, hf2.hq]
    have hle := Side.card_doneSet_le g.size b2.viewR
    refine ⟨true, { b2 with k_r :=
      match b2.q_r.peek with
      | some p => p.key
      | none => c.inf_weight }, ?_, ?_, htent, fun h => Bool.noConfusion h, fun _ => ?_⟩
    · unfold BidirectionalAStarService.iteration_r
      rw [h1]
      simp only
      rw [if_pos hcond, h3]
      try rfl
    · exact
      { hg := hf2.hg.trans hinv.hg
        hs := hf2.hs.trans hinv.hs
        ht := hf2.ht.trans hinv.ht
        hpots := ⟨hp2.hf1, hp2.hf2, hp2.hr1, hp2.hr2⟩
        hR := hS
        hF := hinv.hF.tent_mono hf2.hd hf2.hp hf2.hq hf2.hc hS.htD htent
        hmeet := (meet_viewR_iff _).1 hMeet
        hkr := rfl
        hkf := by
          show b2.k_f = b2.viewF.top_key c
          rw [hf2.hkf]
          unfold Side.top_key viewF
          simp only
          rw [hf2.hq]
          exact hinv.hkf
        hk := by
          left
          show b2.k_f = D
          rw [hf2.hkf, hinv.hkf]
          exact (hFtop hlt).1
        hcr := by
          show b2.closed_r.has t = true
          have : b2.closed_r = b.closed_r.set m.id := hcl
          rw [this]
          exact BoolSet.has_set_of_has _ _ _ hinv.hcr
        hcf := by
          show b2.closed_f.has s = true
          rw [hf2.hc]
          exact hinv.hcf }
    · unfold BidirectionalAStarService.todo
      show (g.size - (b2.viewF.doneSet g.size).card) + (g.size - (b2.viewR.doneSet g.size).card)
        + 1 = _
      rw [hcardO, hcard]
      omega
  · have hcond : ¬ (b.k_f + b.k_r) % wrap32 < (b.tentative_dist + D) % wrap32 := by
      rw [hsum, htd]
      omega
    refine ⟨false, { b with pot_f2 := f, pot_r2 := r }, ?_, ?_, Nat.le_refl _,
      fun _ => ⟨by show b.tentative_dist = D; omega, rfl⟩, fun h => Bool.noConfusion h⟩
    · unfold BidirectionalAStarService.iteration_r
      rw [h1]
      simp only
      rw [if_neg hcond]
    · exact hinv.pots hp1 ⟨rfl, rfl, rfl, rfl, rfl, rfl, rfl, rfl, rfl⟩
        ⟨rfl, rfl, rfl, rfl, rfl, rfl, rfl, rfl, rfl⟩ rfl rfl

end bi

end PenAstar

namespace PenAstar

open BidirectionalAStarService

section bi

variable {c : Constants} {fuel : Nat} {g : Graph} {s t : Nat} {pf pr : Nat → Nat} {D M : Nat}

/-- The two threads leave their loops under every interleaving of their loop passes, after
at most one pass per node and direction and one more pass each; the tentative distance is
then `D`. -/
theorem BiInv.run_threads_spec (bc : BiCtx c g s t pf pr D M) :
    ∀ (k : Nat) (sched : List Bool) (run_f run_r : Bool) (b : BidirectionalAStarService),
      BiInv c fuel g s t pf pr D M b →
      (run_f = false → b.tentative_dist = D) → (run_r = false → b.tentative_dist = D) →
      b.todo g.size + (if run_f = true then 1 else 0) + (if run_r = true then 1 else 0) < k →
      ∃ b', BidirectionalAStarService.run_threads c fuel k sched run_f run_r b = Outcome.ok b' ∧
        BiInv c fuel g s t pf pr D M b' ∧ b'.tentative_dist = D := by
  intro k
  induction k with
  | zero =>
    intro sched run_f run_r b _ _ _ hk
    omega
  | succ k ih =>
    intro sched run_f run_r b hinv hf hr hk
    unfold BidirectionalAStarService.run_threads
    by_cases h0 : ¬ (run_f = true) ∧ ¬ (run_r = true)
    · rw [if_pos h0]
      refine ⟨b, rfl, hinv, hf ?_⟩
      cases run_f with
      | false => rfl
      | true => exact absurd rfl h0.1
    · rw [if_neg h0]
      by_cases h1 : run_f = true ∧ (¬ (run_r = true) ∨ sched.headD true = true)
      · rw [if_pos h1]
        obtain ⟨go, b1, hit, hinv1, hle, hgo0, hgo1⟩ := hinv.pass_f bc
        rw [hit]
        simp only
        have htD := hinv1.hF.htD
        have htv : b1.viewF.tent = b1.tentative_dist := rfl
        refine ih sched.tail go run_r b1 hinv1 (fun hg => (hgo0 hg).1) ?_ ?_
        · intro hr'
          have := hr hr'
          omega
        · rw [if_pos h1.1] at hk
          cases go with
          | false =>
            have := (hgo0 rfl).2
            simp only [Bool.false_eq_true, if_false]
            omega
          | true =>
            have := hgo1 rfl
            simp only [if_true]
            omega
      · rw [if_neg h1]
        have hrr : run_r = true := by
          cases run_r with
          | true => rfl
          | false =>
            exfalso
            cases run_f with
            | true => exact h1 ⟨rfl, Or.inl (by simp)⟩
            | false => exact h0 ⟨by simp, by simp⟩
        obtain ⟨go, b1, hit, hinv1, hle, hgo0, hgo1⟩ := hinv.pass_r bc
        rw [hit]
        simp only
        have htD := hinv1.hF.htD
        have htv : b1.viewF.tent = b1.tentative_dist := rfl
        refine ih sched.tail run_f go b1 hinv1 ?_ (fun hg => (hgo0 hg).1) ?_
        · intro hf'
          have := hf hf'
          omega
        · rw [if_pos hrr] at hk
          cases go with
          | false =>
            have := (hgo0 rfl).2
            simp only [Bool.false_eq_true, if_false]
            omega
          | true =>
            have := hgo1 rfl
            simp only [if_true]
            omega

end bi

end PenAstar

namespace PenAstar

open BidirectionalAStarService

theorem TimestampVector.get_new (n d x : Nat) : (TimestampVector.new n d).get x = d := by
  rw [TimestampVector.get_of_not_has _ _ (TimestampVector.has_new n d x)]
  rfl

theorem BoolSet.has_new_false (n x : Nat) : (BoolSet.new n).has x = false := by
  simp only [BoolSet.has, BoolSet.new, List.getD_eq_getElem?_getD, List.getElem?_replicate]
  split <;> simp

theorem BoolSet.vec_length_new (n : Nat) : (BoolSet.new n).vec.length = n := by
  simp [BoolSet.new]

section side

variable {c : Constants} {n : Nat} {arcs : Nat → List Edge} {src dst : Nat}
  {rho tau : Nat → Nat} {D M : Nat}

/-- The state of a direction when the threads start satisfies its invariant. -/
theorem SideInv.at_start (ctx : SideCtx c n arcs src dst rho tau D M) (cO : BoolSet)
    (dO : TimestampVector) (bst : Nat) :
    SideInv c n arcs src dst rho tau D M 0 []
      ⟨(TimestampVector.new n c.inf_weight).set src 0,
        (TimestampVector.new n c.invalid_id).set src c.invalid_id,
        (MinIDQueue.new n).push ⟨src, D⟩, (BoolSet.new n).set src, cO, dO, c.inf_weight, bst⟩ := by
  have hM := ctx.hM
  have hDM := ctx.hDM
  have hsl : src < (TimestampVector.new n c.inf_weight).vec.length := by
    rw [TimestampVector.length_new]; exact ctx.hsrc
  have hgs : ((TimestampVector.new n c.inf_weight).set src 0).get src = 0 :=
    TimestampVector.get_set_eq _ _ _ hsl
  have hgx : ∀ x, x ≠ src → ((TimestampVector.new n c.inf_weight).set src 0).get x =
      c.inf_weight := by
    intro x hx
    rw [TimestampVector.get_set_ne _ _ _ _ (Ne.symm hx), TimestampVector.get_new]
  have hfin : ∀ x, ((TimestampVector.new n c.inf_weight).set src 0).get x < c.inf_weight →
      x = src := by
    intro x hx
    by_contra hne
    rw [hgx x hne] at hx
    omega
  have hcont : (MinIDQueue.push (MinIDQueue.new n) ⟨src, D⟩).contains_id src = true := by
    simp [MinIDQueue.contains_id, MinIDQueue.push, MinIDQueue.new]
  have hnd : ∀ x, ¬ Side.done ⟨(TimestampVector.new n c.inf_weight).set src 0,
        (TimestampVector.new n c.invalid_id).set src c.invalid_id,
        (MinIDQueue.new n).push ⟨src, D⟩, (BoolSet.new n).set src, cO, dO, c.inf_weight, bst⟩
        x := by
    rintro x ⟨h1, h2⟩
    simp only at h1 h2
    by_cases hx : x = src
    · rw [hx, hcont] at h2
      cases h2
    · rw [BoolSet.has_set_other _ _ _ (Ne.symm hx), BoolSet.has_new_false] at h1
      cases h1
  exact
  { hdl := by
      show ((TimestampVector.new n c.inf_weight).set src 0).vec.length = n
      rw [TimestampVector.length_set, TimestampVector.length_new]
    hpl := by
      show ((TimestampVector.new n c.invalid_id).set src c.invalid_id).vec.length = n
      rw [TimestampVector.length_set, TimestampVector.length_new]
    hcl := by
      show ((BoolSet.new n).set src).vec.length = n
      rw [BoolSet.vec_length_set, BoolSet.vec_length_new]
    hsound := by
      intro x hx
      have hxs := hfin x hx
      show x < n ∧ Walk (ArcRel arcs) src x
        (((TimestampVector.new n c.inf_weight).set src 0).get x) ∧
        ((TimestampVector.new n c.inf_weight).set src 0).get x ≤ D + M
      rw [hxs, hgs]
      exact ⟨ctx.hsrc, Walk.nil, Nat.zero_le _⟩
    hle := by
      intro x
      show ((TimestampVector.new n c.inf_weight).set src 0).get x ≤ c.inf_weight
      by_cases hx : x = src
      · rw [hx, hgs]
        exact Nat.zero_le _
      · rw [hgx x hx]
    hq := by
      intro p hp
      have hp' : p = ⟨src, D⟩ := by
        simpa [MinIDQueue.push, MinIDQueue.new] using hp
      rw [hp']
      show src < n ∧ ((TimestampVector.new n c.inf_weight).set src 0).get src < c.inf_weight ∧
        tau src < c.inf_weight ∧
        D = ((TimestampVector.new n c.inf_weight).set src 0).get src +
          avg32 (tau src) D (rho src)
      rw [hgs, ctx.tau_src, ctx.rho_src, avg32_endpoint ctx.h2 (by omega)]
      exact ⟨ctx.hsrc, by omega, by omega, by omega⟩
    hqn := by
      simp [MinIDQueue.push, MinIDQueue.new]
    hdone := fun x hx => absurd hx (hnd x)
    hrel := fun x hx => absurd hx (hnd x)
    htrack := by
      intro x hx
      left
      rw [hfin x hx]
      exact hcont
    hsrc0 := hgs
    hdstm := by
      intro hx
      exact absurd (hfin dst hx) (Ne.symm ctx.hne)
    htD := by
      show D ≤ c.inf_weight
      omega
    hti := Nat.le_refl _
    hpsrc := TimestampVector.get_set_eq _ _ _ (by
      rw [TimestampVector.length_new]; exact ctx.hsrc)
    hpar := by
      refine ⟨fun _ => 0, fun x hx => absurd hx (hnd x), ?_⟩
      intro x hx hxs
      exact absurd (hfin x hx) hxs }

end side

section bi

variable {c : Constants} {fuel : Nat} {g : Graph} {s t : Nat} {pf pr : Nat → Nat} {D M : Nat}

/-- The part of `run(s, t)` before the threads start, on a fresh service: it succeeds and
establishes the invariant. -/
theorem run_setup_spec (bc : BiCtx c g s t pf pr D M) (ch : ContractionHierarchy)
    (hpf : ∃ sF, CHPotentialService.set_target c fuel (CHPotentialService.new c ch) t =
      Outcome.ok sF ∧ PotF fuel g.size pf sF)
    (hpr : ∃ sR, ReverseCHPotentialService.set_target c fuel
      (ReverseCHPotentialService.new c ch) s = Outcome.ok sR ∧ PotR fuel g.size pr sR) :
    ∃ b1, BidirectionalAStarService.run_setup c fuel (BidirectionalAStarService.new c g ch) s t =
        Outcome.ok b1 ∧ BiInv c fuel g s t pf pr D M b1 := by
  obtain ⟨sF, hsF, hF⟩ := hpf
  obtain ⟨sR, hsR, hR⟩ := hpr
  have hM := bc.hF.hM
  have hDM := bc.hF.hDM
  have h2 := bc.hF.h2
  have hD : avg32 D D 0 = D := avg32_endpoint h2 (by omega)
  have hvf : avg32 (pf s) (pr t) (pr s) = D := by
    rw [bc.hF.tau_src, bc.hF.rho_dst, bc.hF.rho_src]
    exact hD
  have hvr : avg32 (pr t) (pf s) (pf t) = D := by
    rw [bc.hR.tau_src, bc.hR.rho_dst, bc.hR.rho_src]
    exact hD
  unfold BidirectionalAStarService.run_setup
  have e1 : (BidirectionalAStarService.new c g ch).pot_f1 = CHPotentialService.new c ch := rfl
  have e2 : (BidirectionalAStarService.new c g ch).pot_f2 = CHPotentialService.new c ch := rfl
  have e3 : (BidirectionalAStarService.new c g ch).pot_r1 =
      ReverseCHPotentialService.new c ch := rfl
  have e4 : (BidirectionalAStarService.new c g ch).pot_r2 =
      ReverseCHPotentialService.new c ch := rfl
  rw [e1, e2, e3, e4, hsF, hsR]
  simp only
  obtain ⟨f1, r1, k1, p1⟩ := heur_f1_spec (b := { BidirectionalAStarService.new c g ch with
      source := s, target := t
      pot_f1 := sF, pot_f2 := sF, pot_r1 := sR, pot_r2 := sR
      dist_f := (BidirectionalAStarService.new c g ch).dist_f.set s 0
      dist_r := (BidirectionalAStarService.new c g ch).dist_r.set t 0
      par_f := (BidirectionalAStarService.new c g ch).par_f.set s c.invalid_id
      par_r := (BidirectionalAStarService.new c g ch).par_r.set t c.invalid_id })
    ⟨hF, hF, hR, hR⟩ (x := s) bc.hF.hsrc bc.hF.hdst
  simp only at k1
  rw [hvf] at k1
  rw [k1]
  simp only
  obtain ⟨f2, r2, k2, p2⟩ := heur_r1_spec (b := { BidirectionalAStarService.new c g ch with
      source := s, target := t
      pot_f1 := f1, pot_f2 := sF, pot_r1 := r1, pot_r2 := sR
      dist_f := (BidirectionalAStarService.new c g ch).dist_f.set s 0
      dist_r := (BidirectionalAStarService.new c g ch).dist_r.set t 0
      par_f := (BidirectionalAStarService.new c g ch).par_f.set s c.invalid_id
      par_r := (BidirectionalAStarService.new c g ch).par_r.set t c.invalid_id
      q_f := (BidirectionalAStarService.new c g ch).q_f.push ⟨s, D⟩ })
    ⟨p1.hf1, p1.hf2, p1.hr1, p1.hr2⟩ (x := t) bc.hF.hdst bc.hF.hsrc
  simp only at k2
  rw [hvr] at k2
  rw [k2]
  simp only
  obtain ⟨f3, r3, k3, p3⟩ := heur_f1_spec (b := { BidirectionalAStarService.new c g ch with
      source := s, target := t
      pot_f1 := f2, pot_f2 := sF, pot_r1 := r2, pot_r2 := sR
      dist_f := (BidirectionalAStarService.new c g ch).dist_f.set s 0
      dist_r := (BidirectionalAStarService.new c g ch).dist_r.set t 0
      par_f := (BidirectionalAStarService.new c g ch).par_f.set s c.invalid_id
      par_r := (BidirectionalAStarService.new c g ch).par_r.set t c.invalid_id
      q_f := (BidirectionalAStarService.new c g ch).q_f.push ⟨s, D⟩
      q_r := (BidirectionalAStarService.new c g ch).q_r.push ⟨t, D⟩ })
    ⟨p2.hf1, p2.hf2, p2.hr1, p2.hr2⟩ (x := s) bc.hF.hsrc bc.hF.hdst
  simp only at k3
  rw [hvf] at k3
  rw [k3]
  simp only
  obtain ⟨f4, r4, k4, p4⟩ := heur_f1_spec (b := { BidirectionalAStarService.new c g ch with
      source := s, target := t
      pot_f1 := f3, pot_f2 := sF, pot_r1 := r3, pot_r2 := sR
      dist_f := (BidirectionalAStarService.new c g ch).dist_f.set s 0
      dist_r := (BidirectionalAStarService.new c g ch).dist_r.set t 0
      par_f := (BidirectionalAStarService.new c g ch).par_f.set s c.invalid_id
      par_r := (BidirectionalAStarService.new c g ch).par_r.set t c.invalid_id
      q_f := (BidirectionalAStarService.new c g ch).q_f.push ⟨s, D⟩
      q_r := (BidirectionalAStarService.new c g ch).q_r.push ⟨t, D⟩
      min_key_f := D
      closed_f := (BidirectionalAStarService.new c g ch).closed_f.set s
      closed_r := (BidirectionalAStarService.new c g ch).closed_r.set t })
    ⟨p3.hf1, p3.hf2, p3.hr1, p3.hr2⟩ (x := s) bc.hF.hsrc bc.hF.hdst
  simp only at k4
  rw [hvf] at k4
  rw [k4]
  simp only
  obtain ⟨f5, r5, k5, p5⟩ := heur_r1_spec (b := { BidirectionalAStarService.new c g ch with
      source := s, target := t
      pot_f1 := f4, pot_f2 := sF, pot_r1 := r4, pot_r2 := sR
      dist_f := (BidirectionalAStarService.new c g ch).dist_f.set s 0
      dist_r := (BidirectionalAStarService.new c g ch).dist_r.set t 0
      par_f := (BidirectionalAStarService.new c g ch).par_f.set s c.invalid_id
      par_r := (BidirectionalAStarService.new c g ch).par_r.set t c.invalid_id
      q_f := (BidirectionalAStarService.new c g ch).q_f.push ⟨s, D⟩
      q_r := (BidirectionalAStarService.new c g ch).q_r.push ⟨t, D⟩
      min_key_f := D
      closed_f := (BidirectionalAStarService.new c g ch).closed_f.set s
      closed_r := (BidirectionalAStarService.new c g ch).closed_r.set t
      k_f := D })
    ⟨p4.hf1, p4.hf2, p4.hr1, p4.hr2⟩ (x := t) bc.hF.hdst bc.hF.hsrc
  simp only at k5
  rw [hvr] at k5
  rw [k5]
  refine ⟨_, rfl, ?_⟩
  exact
  { hg := rfl
    hs := rfl
    ht := rfl
    hpots := ⟨p5.hf1, p5.hf2, p5.hr1, p5.hr2⟩
    hF := SideInv.at_start bc.hF _ _ _
    hR := SideInv.at_start bc.hR _ _ _
    hmeet := by
      intro h
      exact absurd h (Nat.lt_irrefl _)
    hkf := by
      show D = _
      simp [Side.top_key, viewF, MinIDQueue.peek, MinIDQueue.push, MinIDQueue.new,
        BidirectionalAStarService.new, MinIDQueue.min_entry]
    hkr := by
      show D = _
      simp [Side.top_key, viewR, MinIDQueue.peek, MinIDQueue.push, MinIDQueue.new,
        BidirectionalAStarService.new, MinIDQueue.min_entry]
    hk := Or.inl rfl
    hcf := BoolSet.has_set_self _ _ (by
      show s < (BoolSet.new g.size).vec.length
      rw [BoolSet.vec_length_new]; exact bc.hF.hsrc)
    hcr := BoolSet.has_set_self _ _ (by
      show t < (BoolSet.new g.size).vec.length
      rw [BoolSet.vec_length_new]; exact bc.hF.hdst) }

end bi

end PenAstar

namespace PenAstar

open BidirectionalAStarService

section chain

variable {arcs : Nat → List Edge} {par : Nat → Nat} {src : Nat}

theorem ParChain.head {x d : Nat} {l : List Nat} (h : ParChain arcs par src x l d) :
    ∃ r, l = x :: r := by
  cases h with
  | base => exact ⟨[], rfl⟩
  | step e _ _ _ _ => exact ⟨_, rfl⟩

theorem ParChain.getLast {x d : Nat} {l : List Nat} (h : ParChain arcs par src x l d) :
    l.getLast? = some src := by
  induction h with
  | base => rfl
  | @step x l d e _ _ _ hc ih =>
    obtain ⟨r, hr⟩ := hc.head
    rw [hr] at ih ⊢
    rw [List.getLast?_cons_cons]
    exact ih

end chain

section side

variable {c : Constants} {n : Nat} {arcs : Nat → List Edge} {src dst : Nat}
  {rho tau : Nat → Nat} {D M : Nat}

/-- From every node with a distance entry the parent entries lead to the source, along at
most `n + 1` nodes, without coming back to the node, and along arcs whose weights sum to the
distance entry. -/
theorem SideInv.par_chain {best : Nat} {pending : List Edge} {σ : Side}
    (ctx : SideCtx c n arcs src dst rho tau D M)
    (hinv : SideInv c n arcs src dst rho tau D M best pending σ) (x : Nat)
    (hx : σ.dist.get x < c.inf_weight) :
    ∃ l, ParChain arcs σ.par.get src x l (σ.dist.get x) ∧ l.length ≤ n + 1 ∧
      (∀ z ∈ l, z < n) ∧ x ∉ l.tail := by
  obtain ⟨ord, ho1, ho2⟩ := hinv.hpar
  have hM := ctx.hM
  have hDM := ctx.hDM
  have key : ∀ k y, σ.done y → ord y ≤ k →
      ∃ l, ParChain arcs σ.par.get src y l (σ.dist.get y) ∧ l.length ≤ k + 1 ∧
        (∀ z ∈ l, z < n ∧ ord z ≤ ord y) := by
    intro k
    induction k with
    | zero =>
      intro y hy hk
      obtain ⟨_, hyD, hyn⟩ := hinv.hdone y hy
      by_cases hys : y = src
      · refine ⟨[src], ?_, by simp, ?_⟩
        · rw [hys, hinv.hsrc0]
          exact ParChain.base
        · intro z hz
          simp only [List.mem_singleton] at hz
          rw [hz, hys]
          exact ⟨ctx.hsrc, Nat.le_refl _⟩
      · obtain ⟨_, hord, _⟩ := ho2 y (by omega) hys
        omega
    | succ k ih =>
      intro y hy hk
      obtain ⟨_, hyD, hyn⟩ := hinv.hdone y hy
      by_cases hys : y = src
      · refine ⟨[src], ?_, by simp, ?_⟩
        · rw [hys, hinv.hsrc0]
          exact ParChain.base
        · intro z hz
          simp only [List.mem_singleton] at hz
          rw [hz, hys]
          exact ⟨ctx.hsrc, Nat.le_refl _⟩
      · obtain ⟨hpd, hord, e, he, het, hed⟩ := ho2 y (by omega) hys
        obtain ⟨l, hl1, hl2, hl3⟩ := ih (σ.par.get y) hpd (by omega)
        refine ⟨y :: l, ?_, by simp; omega, ?_⟩
        · rw [← hed]
          exact ParChain.step e hys he het hl1
        · intro z hz
          rcases List.mem_cons.1 hz with h | h
          · rw [h]
            exact ⟨hyn, Nat.le_refl _⟩
          · obtain ⟨h1, h2⟩ := hl3 z h
            exact ⟨h1, by omega⟩
  by_cases hxs : x = src
  · refine ⟨[src], ?_, by simp, ?_, by simp⟩
    · rw [hxs, hinv.hsrc0]
      exact ParChain.base
    · intro z hz
      simp only [List.mem_singleton] at hz
      rw [hz]
      exact ctx.hsrc
  · obtain ⟨hpd, hord, e, he, het, hed⟩ := ho2 x hx hxs
    have hcard := Side.card_doneSet_le n σ
    have hlt := ho1 _ hpd
    obtain ⟨l, hl1, hl2, hl3⟩ := key (ord (σ.par.get x)) (σ.par.get x) hpd (Nat.le_refl _)
    refine ⟨x :: l, ?_, by simp; omega, ?_, ?_⟩
    · rw [← hed]
      exact ParChain.step e hxs he het hl1
    · intro z hz
      rcases List.mem_cons.1 hz with h | h
      · rw [h]
        exact (hinv.hsound x hx).1
      · exact (hl3 z h).1
    · intro hmem
      have hmem' : x ∈ l := hmem
      have := (hl3 x hmem').2
      omega

end side

/-! ### The two parent walks of `get_path` -/

theorem walk_par_f_chain {c : Constants} {n s : Nat} {arcs : Nat → List Edge}
    (b : BidirectionalAStarService) (hlen : b.par_f.vec.length = n) (hid : n ≤ c.invalid_id)
    (hps : b.par_f.get s = c.invalid_id) {x d : Nat} {l : List Nat}
    (h : ParChain arcs b.par_f.get s x l d) :
    (∀ z ∈ l, z < n) → ∀ fuel acc, l.length < fuel →
      walk_par_f c b fuel x acc = Outcome.ok (acc ++ l) := by
  induction h with
  | base =>
    intro hl fuel acc hf
    have hs : s < n := hl s (by simp)
    obtain ⟨f, rfl⟩ : ∃ f, fuel = f + 2 := ⟨fuel - 2, by simp at hf; omega⟩
    unfold walk_par_f
    rw [if_neg (by omega), if_pos (by omega), hps]
    unfold walk_par_f
    rw [if_pos rfl]
  | @step x l d e hxs _ _ hc ih =>
    intro hl fuel acc hf
    have hx : x < n := hl x (by simp)
    obtain ⟨f, rfl⟩ : ∃ f, fuel = f + 1 := ⟨fuel - 1, by simp at hf; omega⟩
    unfold walk_par_f
    rw [if_neg (by omega), if_pos (by omega),
      ih (fun z hz => hl z (List.mem_cons_of_mem _ hz)) f _ (by simp at hf; omega)]
    simp

theorem walk_par_r_chain {c : Constants} {n t : Nat} {arcs : Nat → List Edge}
    (b : BidirectionalAStarService) (hlen : b.par_r.vec.length = n) (hid : n ≤ c.invalid_id)
    (hps : b.par_r.get t = c.invalid_id) {x d : Nat} {l : List Nat}
    (h : ParChain arcs b.par_r.get t x l d) :
    (∀ z ∈ l, z < n) → ∀ fuel acc, l.length < fuel →
      walk_par_r c b fuel x acc = Outcome.ok (acc ++ l.tail ++ [c.invalid_id]) := by
  induction h with
  | base =>
    intro hl fuel acc hf
    have hs : t < n := hl t (by simp)
    obtain ⟨f, rfl⟩ : ∃ f, fuel = f + 2 := ⟨fuel - 2, by simp at hf; omega⟩
    unfold walk_par_r
    rw [if_neg (by omega), if_pos (by omega), hps]
    unfold walk_par_r
    rw [if_pos rfl]
    simp
  | @step x l d e hxs _ _ hc ih =>
    intro hl fuel acc hf
    have hx : x < n := hl x (by simp)
    obtain ⟨f, rfl⟩ : ∃ f, fuel = f + 1 := ⟨fuel - 1, by simp at hf; omega⟩
    obtain ⟨r, hr⟩ := hc.head
    unfold walk_par_r
    rw [if_neg (by omega), if_pos (by omega),
      ih (fun z hz => hl z (List.mem_cons_of_mem _ hz)) f _ (by simp at hf; omega)]
    rw [hr]
    simp

/-! ### Paths of the graph along the parent chains -/

theorem IsPath.join {g : Graph} {p r : List Nat} {d1 d2 m : Nat} (h1 : IsPath g p d1)
    (hlast : p.getLast? = some m) (h2 : IsPath g (m :: r) d2) :
    IsPath g (p ++ r) (d1 + d2) := by
  induction h1 with
  | single u =>
    simp only [List.getLast?_singleton, Option.some.injEq] at hlast
    subst hlast
    simpa using h2
  | @cons u rest d e he _ ih =>
    have hl : (e.target :: rest).getLast? = some m := by
      rw [List.getLast?_cons_cons] at hlast
      exact hlast
    have := IsPath.cons e he (ih hl)
    rw [Nat.add_assoc]
    simpa using this

theorem chain_isPath_f {g : Graph} {par : Nat → Nat} {s x d : Nat} {l : List Nat}
    (h : ParChain g.get_out_arcs par s x l d) : IsPath g l.reverse d := by
  induction h with
  | base => exact IsPath.single s
  | @step x l d e _ he het hc ih =>
    obtain ⟨r, hr⟩ := hc.head
    have hlast : l.reverse.getLast? = some (par x) := by
      rw [hr]
      simp
    have := IsPath.snoc ih hlast e he
    rw [het] at this
    simpa using this

theorem chain_isPath_r {g : Graph} (hc : g.Consistent) {par : Nat → Nat} {t x d : Nat}
    {l : List Nat} (h : ParChain g.get_rev_out_arcs par t x l d) : IsPath g l d := by
  induction h with
  | base => exact IsPath.single t
  | @step x l d e _ he het hch ih =>
    obtain ⟨r, hr⟩ := hch.head
    have he' : (⟨par x, e.weight⟩ : Edge) ∈ g.get_out_arcs x := by
      apply (hc.2.1 x (par x) e.weight).2
      have : e = ⟨x, e.weight⟩ := by
        cases e
        simp only at het
        rw [het]
      rw [← this]
      exact he
    rw [hr] at ih ⊢
    have := IsPath.cons (⟨par x, e.weight⟩ : Edge) he' ih
    rw [Nat.add_comm]
    exact this

end PenAstar

namespace PenAstar

open BidirectionalAStarService

section bi

variable {c : Constants} {fuel : Nat} {g : Graph} {s t : Nat} {pf pr : Nat → Nat} {D M : Nat}

/-- `get_path()` after the threads have left their loops with the tentative distance `D`:
the node list runs from `s` to `t` along arcs of `g` whose weights sum to `D`, and holds
the meeting node once. -/
theorem BiInv.get_path_spec {b : BidirectionalAStarService} (bc : BiCtx c g s t pf pr D M)
    (hinv : BiInv c fuel g s t pf pr D M b) (htent : b.tentative_dist = D) (k : Nat)
    (hk : g.size + 1 < k) :
    ∃ nodes, BidirectionalAStarService.get_path c k b = Outcome.ok ⟨nodes, D⟩ ∧
      nodes.head? = some s ∧ nodes.getLast? = some t ∧ nodes.count b.best_node = 1 ∧
      IsPath g nodes D := by
  have hM := bc.hF.hM
  have hDM := bc.hF.hDM
  have hmeet := hinv.hmeet (by show b.tentative_dist < c.inf_weight; omega)
  have hmeet' : b.dist_f.get b.best_node + b.dist_r.get b.best_node ≤ b.tentative_dist := hmeet
  have hfF : b.viewF.dist.get b.best_node < c.inf_weight := by
    show b.dist_f.get b.best_node < c.inf_weight
    omega
  have hfR : b.viewR.dist.get b.best_node < c.inf_weight := by
    show b.dist_r.get b.best_node < c.inf_weight
    omega
  obtain ⟨lF, cF, lenF, ltF, nmF⟩ := hinv.hF.par_chain bc.hF b.best_node hfF
  obtain ⟨lR, cR, lenR, ltR, nmR⟩ := hinv.hR.par_chain bc.hR b.best_node hfR
  have cF' : ParChain g.get_out_arcs b.par_f.get s b.best_node lF
      (b.dist_f.get b.best_node) := cF
  have cR' : ParChain g.get_rev_out_arcs b.par_r.get t b.best_node lR
      (b.dist_r.get b.best_node) := cR
  have wF := walk_par_f_chain (c := c) b hinv.hF.hpl bc.hF.hid hinv.hF.hpsrc cF' ltF k []
    (by omega)
  have wR := walk_par_r_chain (c := c) b hinv.hR.hpl bc.hF.hid hinv.hR.hpsrc cR' ltR k
    lF.reverse (by omega)
  obtain ⟨rF, hrF⟩ := cF'.head
  obtain ⟨rR, hrR⟩ := cR'.head
  have hwalkF := (hinv.hF.hsound _ hfF).2.1
  have hwalkR := walk_of_walk_rev bc.hc (hinv.hR.hsound _ hfR).2.1
  have hge : D ≤ b.dist_f.get b.best_node + b.dist_r.get b.best_node :=
    bc.hF.hDmin _ (Walk.append hwalkF hwalkR)
  have hsum : b.dist_f.get b.best_node + b.dist_r.get b.best_node = D := by omega
  refine ⟨lF.reverse ++ lR.tail, ?_, ?_, ?_, ?_, ?_⟩
  · unfold BidirectionalAStarService.get_path
    rw [wF]
    simp only [List.nil_append]
    rw [wR]
    simp only
    rw [if_neg (by simp), htent]
    congr 2
    rw [List.dropLast_concat]
  · have h1 := cF'.getLast
    rw [hrF] at h1 ⊢
    rw [List.head?_append_of_ne_nil _ (by simp)]
    rw [List.head?_reverse]
    exact h1
  · have h1 := cR'.getLast
    rw [hrR] at h1 ⊢
    simp only [List.tail_cons]
    cases rR with
    | nil =>
      simp only [List.getLast?_singleton, Option.some.injEq] at h1
      rw [hrF]
      simp only [List.append_nil, List.getLast?_reverse, List.head?_cons, Option.some.injEq]
      exact h1
    | cons a r =>
      rw [List.getLast?_cons_cons] at h1
      rw [List.getLast?_append_of_ne_nil _ (by simp)]
      exact h1
  · rw [List.count_append, List.count_reverse]
    have h1 : lF.count b.best_node = 1 := by
      rw [hrF] at nmF ⊢
      simp only [List.tail_cons] at nmF
      rw [List.count_cons_self, List.count_eq_zero_of_not_mem nmF]
    rw [h1, List.count_eq_zero_of_not_mem nmR]
  · have pF := chain_isPath_f cF'
    have pR := chain_isPath_r bc.hc cR'
    rw [hrR] at pR
    have hl : lF.reverse.getLast? = some b.best_node := by
      rw [hrF]
      simp
    have := IsPath.join pF hl pR
    rw [hsum] at this
    rw [hrR]
    exact this

end bi

end PenAstar

namespace PenAstar

open BidirectionalAStarService

theorem walk_rev_lt {g : Graph} (hc : g.Consistent) {t x d : Nat} (ht : t < g.size)
    (h : Walk (ArcRel g.get_rev_out_arcs) t x d) : x < g.size := by
  induction h with
  | nil => exact ht
  | snoc e _ ha _ => exact (hc.rev_arc_lt g _ e ha).2

/-- The setting of a query on a consistent graph with weights below `M`, an exact distance
`D` below `M` and exact potentials. -/
theorem biCtx_of_potentials (c : Constants) (g : Graph) (s t D M : Nat) (pf pr : Nat → Nat)
    (hc : g.Consistent) (hW : ∀ u, ∀ e ∈ g.get_out_arcs u, e.weight < M)
    (hM : 4 * M ≤ c.inf_weight) (h2 : 2 * c.inf_weight ≤ wrap32) (hid : g.size ≤ c.invalid_id)
    (hs : s < g.size) (ht : t < g.size) (hst : s ≠ t) (hD : IsDist g s t D) (hDM : D < M)
    (hf1 : ∀ x, pf x ≤ c.inf_weight)
    (hf2 : ∀ x d, x < g.size → Walk g.arc x t d → d < c.inf_weight → pf x ≤ d)
    (hf3 : ∀ x, x < g.size → pf x < c.inf_weight → Walk g.arc x t (pf x))
    (hr1 : ∀ x, pr x ≤ c.inf_weight)
    (hr2 : ∀ x d, x < g.size → Walk g.arc s x d → d < c.inf_weight → pr x ≤ d)
    (hr3 : ∀ x, x < g.size → pr x < c.inf_weight → Walk g.arc s x (pr x)) :
    BiCtx c g s t pf pr D M :=
  { hc := hc
    hF :=
      { hsrc := hs
        hdst := ht
        hne := hst
        hid := hid
        harcs := fun u e he => ⟨(hc.arc_lt g u e he).2, hW u e he⟩
        hD := hD.1
        hDmin := hD.2
        hDM := hDM
        hM := hM
        h2 := h2
        hrho_inf := hr1
        htau_inf := hf1
        hrho_le := by
          intro x d hw
          by_cases hd : d < c.inf_weight
          · exact hr2 x d (Walk.target_lt hc.targetsValid hs hw) hw hd
          · exact Nat.le_trans (hr1 x) (Nat.le_of_not_lt hd)
        hrho_walk := hr3
        htau_le := by
          intro x d hx hw
          by_cases hd : d < c.inf_weight
          · exact hf2 x d hx hw hd
          · exact Nat.le_trans (hf1 x) (Nat.le_of_not_lt hd)
        htau_walk := hf3 }
    hR :=
      { hsrc := ht
        hdst := hs
        hne := Ne.symm hst
        hid := hid
        harcs := by
          intro u e he
          refine ⟨(hc.rev_arc_lt g u e he).2, ?_⟩
          have h : (⟨u, e.weight⟩ : Edge) ∈ g.get_out_arcs e.target :=
            (hc.2.1 e.target u e.weight).2 he
          exact hW e.target ⟨u, e.weight⟩ h
        hD := walk_rev_of_walk hc hD.1
        hDmin := fun d hw => hD.2 d (walk_of_walk_rev hc hw)
        hDM := hDM
        hM := hM
        h2 := h2
        hrho_inf := hf1
        htau_inf := hr1
        hrho_le := by
          intro x d hw
          by_cases hd : d < c.inf_weight
          · exact hf2 x d (walk_rev_lt hc ht hw) (walk_of_walk_rev hc hw) hd
          · exact Nat.le_trans (hf1 x) (Nat.le_of_not_lt hd)
        hrho_walk := fun x hx hlt => walk_rev_of_walk hc (hf3 x hx hlt)
        htau_le := by
          intro x d hx hw
          by_cases hd : d < c.inf_weight
          · exact hr2 x d hx (walk_of_walk_rev hc hw) hd
          · exact Nat.le_trans (hr1 x) (Nat.le_of_not_lt hd)
        htau_walk := fun x hx hlt => walk_rev_of_walk hc (hr3 x hx hlt) } }

/-- The result of `run(s, t)` on a fresh service over a consistent graph and the hierarchy
of `contract_graph`, for `s ≠ t` at distance `D`, under every interleaving of the loop
passes: the threads end with the tentative distance `D` and a meeting node `m`, and
`get_path` returns a path from `s` to `t` of weight `D` that holds `m` once. -/
theorem bidirectional_run_spec (c : Constants) (g : Graph) (order : List Nat) (s t D M : Nat)
    (hc : g.Consistent) (hW : ∀ u, ∀ e ∈ g.get_out_arcs u, e.weight < M)
    (hM : 4 * M ≤ c.inf_weight) (h2 : 2 * c.inf_weight ≤ wrap32) (hid : g.size ≤ c.invalid_id)
    (hbud : g.size * g.size + 1 < wrap32) (hperm : order.Perm (List.range g.size))
    (hs : s < g.size) (ht : t < g.size) (hst : s ≠ t) (hD : IsDist g s t D) (hDM : D < M)
    (fuel : Nat) (hfuel : 2 * g.size + 3 < fuel) (sched : List Bool) :
    ∃ nodes m, bidirectional_run c fuel sched g order s t = Outcome.ok ⟨nodes, D⟩ ∧
      bidirectional_meeting c fuel sched g order s t = Outcome.ok (D, m) ∧
      nodes.head? = some s ∧ nodes.getLast? = some t ∧ nodes.count m = 1 ∧
      IsPath g nodes D := by
  have hinf : 0 < c.inf_weight := by omega
  have hWB : g.WeightsBelow c := fun u e he => by
    have := hW u e he
    omega
  obtain ⟨ch, hch, hv, hBr⟩ := contract_graph_valid c g hc hWB h2 hinf order hperm hbud fuel
    (by omega)
  obtain ⟨sF, pf, hsF, hqF, hf1, hf2, hf3⟩ :=
    ch_potential_spec c g ch hv h2 hinf hid t ht fuel (by omega)
  obtain ⟨sR, pr, hsR, hqR, hr1, hr2, hr3⟩ :=
    rev_potential_spec c g ch hv hBr h2 hinf hid s hs fuel (by omega)
  have bc := biCtx_of_potentials c g s t D M pf pr hc hW hM h2 hid hs ht hst hD hDM
    hf1 hf2 hf3 hr1 hr2 hr3
  have hpF : ∃ sF, CHPotentialService.set_target c fuel (CHPotentialService.new c ch) t =
      Outcome.ok sF ∧ PotF fuel g.size pf sF := ⟨sF, hsF, hqF⟩
  obtain ⟨b1, hsetup, hinv1⟩ := run_setup_spec bc ch hpF ⟨sR, hsR, hqR⟩
  obtain ⟨b2, hrun, hinv2, htent⟩ := hinv1.run_threads_spec bc fuel sched true true b1
    (fun h => Bool.noConfusion h) (fun h => Bool.noConfusion h) (by
      unfold BidirectionalAStarService.todo
      simp only [if_true]
      omega)
  obtain ⟨nodes, hpath, hhead, hlast, hcount, hisp⟩ :=
    hinv2.get_path_spec bc htent fuel (by omega)
  refine ⟨nodes, b2.best_node, ?_, ?_, hhead, hlast, hcount, hisp⟩
  · unfold bidirectional_run BidirectionalAStarService.run
    rw [hch]
    simp only
    rw [hsetup]
    simp only
    rw [hrun]
    simp only
    rw [hpath]
  · unfold bidirectional_meeting
    rw [hch]
    simp only
    rw [hsetup]
    simp only
    rw [hrun]
    simp only
    rw [htent]

end PenAstar

namespace PenAstar

open BidirectionalAStarService

/-- On the triangle the distance from node 0 to node 2 is 7. -/
theorem triangle_isDist : IsDist triangle 0 2 7 := by
  have h0 : Walk triangle.arc 0 0 0 := Walk.nil
  have h1 : Walk triangle.arc 0 1 (0 + 3) :=
    Walk.snoc (⟨1, 3⟩ : Edge) h0 (by unfold Graph.arc; decide)
  have h2 : Walk triangle.arc 0 2 (0 + 3 + 4) :=
    Walk.snoc (⟨2, 4⟩ : Edge) h1 (by unfold Graph.arc; decide)
  refine ⟨h2, ?_⟩
  have key : ∀ x d, Walk triangle.arc 0 x d →
      (x = 0 → 0 ≤ d) ∧ (x = 1 → 3 ≤ d) ∧ (x = 2 → 7 ≤ d) := by
    intro x d hw
    induction hw with
    | nil => exact ⟨fun _ => Nat.le_refl _, fun h => by omega, fun h => by omega⟩
    | @snoc u d e _ he ih =>
      have he' : e ∈ triangle.get_out_arcs u := he
      have hu : u < 3 := (triangle_consistent.arc_lt _ u e he').1
      interval_cases u
      · have h : triangle.get_out_arcs 0 = [⟨1, 3⟩, ⟨2, 10⟩] := by decide
        rw [h] at he'
        simp only [List.mem_cons, List.mem_singleton, List.not_mem_nil, or_false] at he'
        rcases he' with h | h <;> subst h <;> simp
      · have h : triangle.get_out_arcs 1 = [⟨2, 4⟩] := by decide
        rw [h] at he'
        simp only [List.mem_singleton] at he'
        subst he'
        have := ih.2.1 rfl
        simp
        omega
      · have h : triangle.get_out_arcs 2 = [] := by decide
        rw [h] at he'
        simp at he'
  intro d' hw
  exact (key 2 d' hw).2.2 rfl

/-- The path of `run(s, t)` when no thread is suspended inside a pass of its loop: on a
consistent graph `g` whose weights and whose distance `D` from `s` to `t` lie in a safe
subrange (below `M` with `4 * M ≤ inf_weight`), with the hierarchy that `contract_graph`
builds for a permutation order and `s ≠ t`, `t` reachable from `s`,
`BidirectionalAStarService::run(s, t)` on a fresh service returns under every interleaving
of whole loop passes of its two threads; the node list of the returned Path starts with `s`,
ends with `t`, holds the meeting node `best_node` exactly once, joins consecutive nodes by
arcs of `g` whose weights sum to the returned length, and this length is the value of
`tentative_dist` when the threads have ended (it is the distance `D`). -/
theorem bidirectional_path_whole_passes (c : Constants) (g : Graph) (order : List Nat) (s t D M : Nat)
    (hc : g.Consistent) (hW : ∀ u, ∀ e ∈ g.get_out_arcs u, e.weight < M)
    (hM : 4 * M ≤ c.inf_weight) (h2 : 2 * c.inf_weight ≤ wrap32) (hid : g.size ≤ c.invalid_id)
    (hbud : g.size * g.size + 1 < wrap32) (hperm : order.Perm (List.range g.size))
    (hs : s < g.size) (ht : t < g.size) (hst : s ≠ t) (hD : IsDist g s t D) (hDM : D < M)
    (fuel : Nat) (hfuel : 2 * g.size + 3 < fuel) (sched : List Bool) :
    ∃ p td m, bidirectional_run c fuel sched g order s t = Outcome.ok p ∧
      bidirectional_meeting c fuel sched g order s t = Outcome.ok (td, m) ∧
      p.nodes.head? = some s ∧ p.nodes.getLast? = some t ∧ p.nodes.count m = 1 ∧
      IsPath g p.nodes p.length ∧ p.length = td ∧ td = D := by
  obtain ⟨nodes, m, hrun, hmeet, hhead, hlast, hcount, hisp⟩ :=
    bidirectional_run_spec c g order s t D M hc hW hM h2 hid hbud hperm hs ht hst hD hDM
      fuel hfuel sched
  exact ⟨⟨nodes, D⟩, D, m, hrun, hmeet, hhead, hlast, hcount, hisp, rfl, rfl⟩

end PenAstar

namespace PenAstar

/-! ### TimestampVector: reset by step_time -/

/-- Along a sequence of calls the epoch counts the `step_time()` calls, no stamp is newer
than the epoch, and the default value stays. -/
theorem TimestampVector.run_ops_epoch (ops : List TimestampOp) :
    ∀ (v : TimestampVector), (∀ p ∈ v.vec, p.2 ≤ v.t) →
      v.t + TimestampOp.steps ops < wrap32 →
      (v.run_ops ops).t = v.t + TimestampOp.steps ops ∧
      (v.run_ops ops).default_value = v.default_value ∧
      (v.run_ops ops).vec.length = v.vec.length ∧
      ∀ p ∈ (v.run_ops ops).vec, p.2 ≤ (v.run_ops ops).t := by
  induction ops with
  | nil =>
    intro v h _
    exact ⟨rfl, rfl, rfl, h⟩
  | cons op ops ih =>
    intro v h ht
    cases op with
    | set index value =>
      have h1 : ∀ p ∈ (v.set index value).vec, p.2 ≤ (v.set index value).t := by
        intro p hp
        simp only [TimestampVector.set] at hp ⊢
        rcases List.mem_or_eq_of_mem_set hp with hp | hp
        · exact h p hp
        · rw [hp]
      have := ih (v.set index value) h1 ht
      simpa [TimestampVector.run_ops, TimestampOp.apply, TimestampOp.steps,
        TimestampVector.set] using this
    | step_time =>
      simp only [TimestampOp.steps] at ht
      obtain ⟨e1, e2, e3⟩ := TimestampVector.stale_step_time v h (by omega)
      have h1 : ∀ p ∈ v.step_time.vec, p.2 ≤ v.step_time.t := by
        intro p hp
        have := e3 p hp
        omega
      have := ih v.step_time h1 (by rw [e1]; omega)
      rw [e1, e2] at this
      have hl : v.step_time.vec.length = v.vec.length := rfl
      rw [hl] at this
      simp only [TimestampVector.run_ops, List.foldl_cons, TimestampOp.apply, TimestampOp.steps]
      simp only [TimestampVector.run_ops] at this
      refine ⟨by omega, this.2.1, this.2.2.1, this.2.2.2⟩

/-- C24: take a `TimestampVector` of any size and default value, and any sequence of `set`
calls (at indices of the vector) and `step_time()` calls after its construction, with fewer
than `2 ^ 32 - 2` `step_time()` calls in it, so that the `uint32_t` epoch is not exhausted.
Immediately after one more `step_time()`, `has(i)` is false and `get(i)` returns the
configured default value, for every index `i`. -/
theorem C24_timestamp_reset (size default_value : Nat) (ops : List TimestampOp)
    (_hv : ∀ op ∈ ops, op.valid size) (hsteps : TimestampOp.steps ops + 2 < wrap32) (i : Nat) :
    (((TimestampVector.new size default_value).run_ops ops).step_time).has i = false ∧
    (((TimestampVector.new size default_value).run_ops ops).step_time).get i = default_value := by
  have h0 : ∀ p ∈ (TimestampVector.new size default_value).vec,
      p.2 ≤ (TimestampVector.new size default_value).t := by
    intro p hp
    simp only [TimestampVector.new, TimestampVector.step_time] at hp ⊢
    rw [List.eq_of_mem_replicate hp]
    exact Nat.zero_le _
  have ht0 : (TimestampVector.new size default_value).t = 1 := by
    simp [TimestampVector.new, TimestampVector.step_time, wrap32]
  obtain ⟨e1, e2, _, e4⟩ := TimestampVector.run_ops_epoch ops _ h0 (by rw [ht0]; omega)
  rw [ht0] at e1
  obtain ⟨s1, s2, s3⟩ := TimestampVector.stale_step_time _ e4 (by rw [e1]; omega)
  have hstale : ∀ p ∈ (((TimestampVector.new size default_value).run_ops ops).step_time).vec,
      p.2 < (((TimestampVector.new size default_value).run_ops ops).step_time).t := by
    intro p hp
    rw [s1]
    exact s3 p hp
  have hpos : 0 < (((TimestampVector.new size default_value).run_ops ops).step_time).t := by
    rw [s1]; omega
  have hget := TimestampVector.get_of_stale _ hpos hstale i
  rw [s2, e2] at hget
  refine ⟨?_, hget⟩
  unfold TimestampVector.has
  by_cases hx : i < (((TimestampVector.new size default_value).run_ops ops).step_time).vec.length
  · have hm : (((TimestampVector.new size default_value).run_ops ops).step_time).vec.getD i (0, 0)
        ∈ (((TimestampVector.new size default_value).run_ops ops).step_time).vec := by
      rw [List.getD_eq_getElem _ _ hx]
      exact List.getElem_mem hx
    have := hstale _ hm
    simp only [decide_eq_false_iff_not]
    omega
  · rw [List.getD_eq_default _ _ (Nat.le_of_not_lt hx)]
    simp only [decide_eq_false_iff_not]
    omega

/-- Witness for C24: a vector of three entries with default 9, after `set(1, 5)`,
`step_time()`, `set(0, 7)`. -/
theorem C24_timestamp_reset_witness :
    (((TimestampVector.new 3 9).run_ops
        [TimestampOp.set 1 5, TimestampOp.step_time, TimestampOp.set 0 7]).step_time).has 0
      = false ∧
    (((TimestampVector.new 3 9).run_ops
        [TimestampOp.set 1 5, TimestampOp.step_time, TimestampOp.set 0 7]).step_time).get 0
      = 9 :=
  C24_timestamp_reset 3 9 [TimestampOp.set 1 5, TimestampOp.step_time, TimestampOp.set 0 7]
    (by
      intro op hop
      simp only [List.mem_cons, List.mem_singleton, List.not_mem_nil, or_false] at hop
      rcases hop with h | h | h <;> subst h <;> simp [TimestampOp.valid])
    (by decide) 0

/-! ### BoolSet: clear -/

/-- Resetting the ids of a list leaves no id of the list set, and sets none. -/
theorem BoolSet.reset_list (ids : List Nat) :
    ∀ (v : List Bool) (i : Nat),
      (ids.foldl (fun v id => v.set id false) v).getD i false =
        if i ∈ ids then false else v.getD i false := by
  induction ids with
  | nil => intro v i; simp
  | cons a ids ih =>
    intro v i
    rw [List.foldl_cons, ih]
    by_cases h1 : i ∈ ids
    · simp [h1]
    · simp only [h1, if_false, List.mem_cons, or_false]
      rw [Graph.getD_set_list]
      by_cases h2 : i = a
      · subst h2
        by_cases hl : i < v.length
        · simp [hl]
        · simp [hl, List.getD_eq_getElem?_getD, List.getElem?_eq_none (Nat.le_of_not_lt hl)]
      · have : ¬ (a = i ∧ a < v.length) := fun h => h2 h.1.symm
        simp [this, h2]

/-- Along a sequence of calls every id that is set is in the delete list. -/
theorem BoolSet.run_ops_listed (ops : List BoolSetOp) :
    ∀ (b : BoolSet), (∀ i, b.has i = true → i ∈ b.delete_list) →
      ∀ i, (b.run_ops ops).has i = true → i ∈ (b.run_ops ops).delete_list := by
  induction ops with
  | nil => intro b h; exact h
  | cons op ops ih =>
    intro b h
    cases op with
    | set id =>
      apply ih (b.set id)
      intro i hi
      by_cases hid : id = i
      · subst hid
        simp [BoolSet.set]
      · rw [BoolSet.has_set_other _ _ _ hid] at hi
        simp only [BoolSet.set, List.mem_append, List.mem_singleton]
        exact Or.inl (h i hi)
    | clear =>
      apply ih b.clear
      intro i hi
      exfalso
      simp only [BoolSet.has, BoolSet.clear] at hi
      rw [BoolSet.reset_list] at hi
      by_cases hm : i ∈ b.delete_list.reverse
      · simp [hm] at hi
      · rw [if_neg hm] at hi
        exact hm (List.mem_reverse.2 (h i hi))

/-- C25: take a `BoolSet` of any size and any sequence of `set` calls (with ids below the
size) and `clear()` calls after its construction. Immediately after one more `clear()`,
`has(i)` is false for every id `i` and the delete list is empty. -/
theorem C25_boolset_clear (size : Nat) (ops : List BoolSetOp)
    (_hv : ∀ op ∈ ops, op.valid size) (i : Nat) :
    (((BoolSet.new size).run_ops ops).clear).has i = false ∧
    (((BoolSet.new size).run_ops ops).clear).delete_list = [] := by
  refine ⟨?_, rfl⟩
  have hl := BoolSet.run_ops_listed ops (BoolSet.new size)
    (fun i hi => by rw [BoolSet.has_new_false] at hi; cases hi) i
  simp only [BoolSet.has, BoolSet.clear]
  rw [BoolSet.reset_list]
  by_cases hm : i ∈ ((BoolSet.new size).run_ops ops).delete_list.reverse
  · simp [hm]
  · rw [if_neg hm]
    cases hh : ((BoolSet.new size).run_ops ops).vec.getD i false with
    | false => rfl
    | true => exact absurd (List.mem_reverse.2 (hl hh)) hm

/-- Witness for C25: a set for four ids after `set(2)`, `set(0)`, `clear()`, `set(3)`. -/
theorem C25_boolset_clear_witness :
    (((BoolSet.new 4).run_ops
        [BoolSetOp.set 2, BoolSetOp.set 0, BoolSetOp.clear, BoolSetOp.set 3]).clear).has 3
      = false ∧
    (((BoolSet.new 4).run_ops
        [BoolSetOp.set 2, BoolSetOp.set 0, BoolSetOp.clear, BoolSetOp.set 3]).clear).delete_list
      = [] :=
  C25_boolset_clear 4 [BoolSetOp.set 2, BoolSetOp.set 0, BoolSetOp.clear, BoolSetOp.set 3]
    (by
      intro op hop
      simp only [List.mem_cons, List.mem_singleton, List.not_mem_nil, or_false] at hop
      rcases hop with h | h | h | h <;> subst h <;> simp [BoolSetOp.valid])
    3

/-! ### main: the return value -/

/-- C27 (failing inputs): `main` ends with `return 0` and never reads `return_code`. In run
mode with a source vector of two entries and a target vector of one entry,
`run_penalty_mode` returns 1 and `main` returns 0; in generate mode, sub-mode `random`
without `--limit`, and with the unknown sub-mode `grid`, `generate_vectors` returns 1 and
`main` returns 0. An unknown mode and a missing mode give 1, a run with vectors of equal
length gives 0. -/
theorem C27_main_returns_zero :
    run_penalty_mode ⟨["penalty", "run"], none, none, some [0, 1], some [2], none, none⟩ = 1 ∧
    main ⟨["penalty", "run"], none, none, some [0, 1], some [2], none, none⟩ = 0 ∧
    generate_vectors ⟨["penalty", "generate", "random"], none, none, none, none, none, none⟩
      = 1 ∧
    main ⟨["penalty", "generate", "random"], none, none, none, none, none, none⟩ = 0 ∧
    generate_vectors ⟨["penalty", "generate", "grid"], none, none, none, none, none, some 5⟩
      = 1 ∧
    main ⟨["penalty", "generate", "grid"], none, none, none, none, none, some 5⟩ = 0 ∧
    main ⟨["penalty", "walk"], none, none, none, none, none, none⟩ = 1 ∧
    main ⟨["penalty"], none, none, none, none, none, none⟩ = 1 ∧
    main ⟨["penalty", "run"], none, none, some [0, 1], some [2, 3], none, none⟩ = 0 := by
  refine ⟨by decide, by decide, by decide, by decide, by decide, by decide, by decide,
    by decide, by decide⟩

/-! ### get_detours: scenario S6 and a second detour -/

/-- C30 (failing input): on `detour_example` with the original path 0→1→2→3→4, the candidate
0→1→5→6→3→4 of scenario S6 yields the single entry (1, 3, 9). For the candidate
0→1→5→6→3→7→4 the piece 3→7→4 is a second detour, of length 11, but `get_detours` returns
the entry (1, 3, 9) alone: `intersection_index` is not advanced when a detour ends, so the
node after the first detour is compared with the stale entry 3 and opens a detour that is
never closed. -/
theorem C30_detours_after_first :
    detours_of stdConstants detour_example ⟨[0, 1, 5, 6, 3, 4], 11⟩ ⟨[0, 1, 2, 3, 4], 4⟩
      = Outcome.ok [⟨1, 3, 9⟩] ∧
    detours_of stdConstants detour_example ⟨[0, 1, 5, 6, 3, 7, 4], 20⟩ ⟨[0, 1, 2, 3, 4], 4⟩
      = Outcome.ok [⟨1, 3, 9⟩] ∧
    IsDetour [0, 1, 5, 6, 3, 7, 4] [0, 1, 2, 3, 4] [1, 5, 6, 3] ∧
    IsDetour [0, 1, 5, 6, 3, 7, 4] [0, 1, 2, 3, 4] [3, 7, 4] ∧
    path_weight stdConstants detour_example [1, 5, 6, 3] = 9 ∧
    path_weight stdConstants detour_example [3, 7, 4] = 11 := by
  refine ⟨by decide, by decide, ?_, ?_, by decide, by decide⟩
  · exact ⟨[0], [7, 4], 1, [5, 6], 3, rfl, rfl, by simp, by simp, by simp, by simp⟩
  · exact ⟨[0, 1, 5, 6], [], 3, [7], 4, rfl, rfl, by simp, by simp, by simp, by simp⟩

end PenAstar

namespace PenAstar

open DijkstraService

/-! ### Dijkstra-rank nodes -/

/-- A full search from `s` on a fresh service terminates with the shortest distance in
every entry: the weight of a lightest walk for a reachable node, `inf_weight` otherwise. -/
theorem dijkstra_distances_spec (c : Constants) (g : Graph) (s : Nat)
    (hTV : g.TargetsValid) (hs : s < g.size) (hid : g.size ≤ c.invalid_id)
    (hsum : ∀ n d, IsDist g s n d → d < c.inf_weight) (hnw : NoWrapFrom c g s)
    (fuel : Nat) (hfuel : g.size < fuel) :
    ∃ st, run_until_done fuel (set_source c (DijkstraService.new c g) s) = Outcome.ok st ∧
      ∀ n, (Reachable g s n → IsDist g s n (st.get_dist n)) ∧
        (¬ Reachable g s n → st.get_dist n = c.inf_weight) := by
  have hinf : 0 < c.inf_weight := hsum s 0 ⟨Walk.nil, fun _ _ => Nat.zero_le _⟩
  have hnowrap : ∀ u d, Walk (g.arc_avoiding c.invalid_id) s u d →
      (∀ d', Walk (g.arc_avoiding c.invalid_id) s u d' → d ≤ d') → d < c.inf_weight →
      ∀ e ∈ g.get_out_arcs u, d + e.weight < wrap32 := by
    intro u d hw hmin hlt e he
    refine hnw u d ⟨(walk_avoiding_iff hTV hid _ _ _).1 hw, ?_⟩ hlt e he
    intro d' hd'
    exact hmin d' ((walk_avoiding_iff hTV hid _ _ _).2 hd')
  obtain ⟨b1, st, hrun, hex, hqe⟩ := Exact.run_until_done hTV hnowrap fuel 0 _
    (Exact.init c g s hs hinf) (by
      have : (set_source c (DijkstraService.new c g) s).search_space = [] := rfl
      rw [this]; simpa using hfuel)
  refine ⟨st, hrun, ?_⟩
  intro n
  constructor
  · intro hr
    obtain ⟨d0, hd0⟩ := exists_isDist hr
    have hlt := hsum n d0 hd0
    rcases hex.walk_cases ((walk_avoiding_iff hTV hid _ _ _).2 hd0.1) with
      ⟨hn, hle⟩ | ⟨p, hp, _⟩ | hge
    · have hw := (hex.sound.hval n (hex.hS n hn).1).2.2
      have hw2 := (walk_avoiding_iff hTV hid _ _ _).1 hw
      have := hd0.2 _ hw2
      have heq : st.get_dist n = d0 := by unfold get_dist; omega
      rw [heq]
      exact hd0
    · rw [hqe] at hp
      simp at hp
    · omega
  · intro hnr
    cases hh : st.dist_vec.has n with
    | true =>
      exfalso
      exact hnr ⟨_, (walk_avoiding_iff hTV hid _ _ _).1 (hex.sound.hval n hh).2.2⟩
    | false =>
      unfold get_dist
      rw [TimestampVector.get_of_not_has _ _ hh, hex.sound.hdef]

theorem pair_le_total (a b : Nat × Nat) : pair_le a b ∨ pair_le b a := by
  unfold pair_le
  omega

theorem pair_le_trans (a b d : Nat × Nat) (h1 : pair_le a b) (h2 : pair_le b d) :
    pair_le a d := by
  unfold pair_le at *
  omega

theorem pair_le_antisymm (a b : Nat × Nat) (h1 : pair_le a b) (h2 : pair_le b a) : a = b := by
  unfold pair_le at *
  apply Prod.ext <;> omega

/-- The sort by `pair_le` yields the one sorted arrangement of its input. -/
theorem insertionSort_pair_le_eq (l d : List (Nat × Nat)) (hperm : l.Perm d)
    (hsorted : l.Sorted pair_le) : d.insertionSort pair_le = l := by
  haveI : IsTotal (Nat × Nat) pair_le := ⟨pair_le_total⟩
  haveI : IsTrans (Nat × Nat) pair_le := ⟨pair_le_trans⟩
  haveI : IsAntisymm (Nat × Nat) pair_le := ⟨pair_le_antisymm⟩
  exact List.eq_of_perm_of_sorted ((List.perm_insertionSort pair_le d).trans hperm.symm)
    (List.sorted_insertionSort pair_le d) hsorted

/-- The doubling loop, started at index `2 ^ k`, appends the entries at the indices
`2 ^ k, 2 ^ (k + 1), ...` below the size and stops at the first power `2 ^ K` that is not
below the size. -/
theorem rank_loop_spec (dist : List (Nat × Nat)) :
    ∀ (fuel k : Nat) (ret : List Nat), dist.length - 2 ^ k < fuel →
      ∃ K, k ≤ K ∧ (∀ j, k ≤ j → j < K → 2 ^ j < dist.length) ∧
        dist.length ≤ 2 ^ K ∧
        rank_loop dist fuel (2 ^ k) ret = Outcome.ok
          (ret ++ (List.range' k (K - k)).map (fun j => (dist.getD (2 ^ j) (0, 0)).2)) := by
  intro fuel
  induction fuel with
  | zero =>
    intro k ret h
    exact absurd h (Nat.not_lt_zero _)
  | succ fuel ih =>
    intro k ret h
    unfold rank_loop
    by_cases hlt : 2 ^ k < dist.length
    · rw [if_pos hlt]
      have h2 : 2 ^ k * 2 = 2 ^ (k + 1) := by rw [pow_succ]
      rw [h2]
      obtain ⟨K, hK, hall, hend, hrun⟩ := ih (k + 1)
        (ret ++ [(dist.getD (2 ^ k) (0, 0)).2]) (by
          have hp : 0 < 2 ^ k := Nat.two_pow_pos k
          rw [pow_succ]; omega)
      refine ⟨K, by omega, ?_, hend, ?_⟩
      · intro j hj1 hj2
        by_cases hjk : j = k
        · rw [hjk]; exact hlt
        · exact hall j (by omega) hj2
      · rw [hrun]
        have h3 : K - k = (K - (k + 1)) + 1 := by omega
        rw [h3, List.range'_succ]
        simp
    · rw [if_neg hlt]
      refine ⟨k, Nat.le_refl _, ?_, by omega, ?_⟩
      · intro j hj1 hj2
        omega
      · simp

/-- Every entry of the sorted distance vector pairs a node with its distance. -/
theorem rank_pairs_entry (n : Nat) (δ : Nat → Nat) (l : List (Nat × Nat))
    (hperm : l.Perm ((List.range n).map (fun i => (δ i, i)))) (j : Nat) (hj : j < n) :
    (l.getD j (0, 0)).1 = δ (l.getD j (0, 0)).2 ∧ (l.getD j (0, 0)).2 < n := by
  have hlen : l.length = n := by rw [hperm.length_eq]; simp
  have hm : l.getD j (0, 0) ∈ l := by
    rw [List.getD_eq_getElem _ _ (by omega)]
    exact List.getElem_mem _
  have hm2 := hperm.subset hm
  simp only [List.mem_map, List.mem_range] at hm2
  obtain ⟨i, hi, he⟩ := hm2
  rw [← he]
  exact ⟨rfl, hi⟩

/-- In a vector sorted by `pair_le` the distances do not decrease. -/
theorem sorted_pair_le_fst (l : List (Nat × Nat)) (hsorted : l.Sorted pair_le) (i j : Nat)
    (hij : i ≤ j) (hj : j < l.length) : (l.getD i (0, 0)).1 ≤ (l.getD j (0, 0)).1 := by
  rw [List.getD_eq_getElem _ _ (by omega), List.getD_eq_getElem _ _ hj]
  rcases Nat.eq_or_lt_of_le hij with h | h
  · subst h; exact Nat.le_refl _
  · have := List.pairwise_iff_getElem.1 hsorted i j (by omega) hj h
    unfold pair_le at this
    omega

/-- C26: let `g` be a graph with at most `2 ^ 30` nodes whose arcs lead to nodes, `s` a node,
no shortest-path sum from `s` reaching `inf_weight` and no relaxation wrapping, and let
`δ n` be the Dijkstra distance of `n` from `s` (the least walk weight, `inf_weight` for an
unreachable node). Let `l` be the nodes paired with their distance and sorted ascending by
(distance, node id). Then `get_dijkstra_rank_nodes(g, s)` returns a vector with exactly one
entry for every `k = 0, 1, 2, ...` with `2 ^ k` below the node count, its entry `k` is the
node at the 0-based position `2 ^ k` of `l`, and the distances of its entries from `s` do
not decrease. -/
theorem C26_dijkstra_rank_nodes (c : Constants) (g : Graph) (s : Nat)
    (hTV : g.TargetsValid) (hs : s < g.size) (hid : g.size ≤ c.invalid_id)
    (hsum : ∀ n d, IsDist g s n d → d < c.inf_weight) (hnw : NoWrapFrom c g s)
    (_hsize : g.size ≤ 2 ^ 30) (δ : Nat → Nat)
    (hδ : ∀ n, (Reachable g s n → IsDist g s n (δ n)) ∧
      (¬ Reachable g s n → δ n = c.inf_weight))
    (l : List (Nat × Nat)) (hperm : l.Perm ((List.range g.size).map (fun i => (δ i, i))))
    (hsorted : l.Sorted pair_le) (fuel : Nat) (hfuel : g.size < fuel) :
    ∃ r, get_dijkstra_rank_nodes c fuel g s = Outcome.ok r ∧
      (∀ k, k < r.length ↔ 2 ^ k < g.size) ∧
      (∀ k, 2 ^ k < g.size → r.getD k 0 = (l.getD (2 ^ k) (0, 0)).2) ∧
      (∀ j k, j ≤ k → k < r.length → δ (r.getD j 0) ≤ δ (r.getD k 0)) := by
  obtain ⟨st, hrun, hst⟩ := dijkstra_distances_spec c g s hTV hs hid hsum hnw fuel hfuel
  have hdist : ∀ n, st.get_dist n = δ n := by
    intro n
    by_cases hr : Reachable g s n
    · have h1 := (hst n).1 hr
      have h2 := (hδ n).1 hr
      have := h1.2 _ h2.1
      have := h2.2 _ h1.1
      omega
    · rw [(hst n).2 hr, (hδ n).2 hr]
  have hlen : l.length = g.size := by rw [hperm.length_eq]; simp
  have hsort : ((List.range g.size).map (fun i => (st.get_dist i, i))).insertionSort pair_le
      = l := by
    apply insertionSort_pair_le_eq _ _ _ hsorted
    have : (fun i => (st.get_dist i, i)) = (fun i => (δ i, i)) := by
      funext i; rw [hdist]
    rw [this]
    exact hperm
  obtain ⟨K, _, hall, hend, hloop⟩ := rank_loop_spec l fuel 0 [] (by rw [hlen]; omega)
  rw [hlen] at hall hend
  have hres : get_dijkstra_rank_nodes c fuel g s = Outcome.ok
      ((List.range' 0 K).map (fun j => (l.getD (2 ^ j) (0, 0)).2)) := by
    unfold get_dijkstra_rank_nodes
    have hrun2 : ((DijkstraService.new c g).set_source c s).run_until_done fuel
        = Outcome.ok st := hrun
    rw [hrun2]
    simp only
    rw [hsort]
    have h1 : (1 : Nat) = 2 ^ 0 := rfl
    rw [h1, hloop]
    simp
  have hiff : ∀ k, k < K ↔ 2 ^ k < g.size := by
    intro k
    constructor
    · intro hk; exact hall k (Nat.zero_le _) hk
    · intro hk
      by_contra hge
      have : 2 ^ K ≤ 2 ^ k := Nat.pow_le_pow_right (by decide) (Nat.le_of_not_lt hge)
      omega
  have hget : ∀ k, k < K →
      ((List.range' 0 K).map (fun j => (l.getD (2 ^ j) (0, 0)).2)).getD k 0
        = (l.getD (2 ^ k) (0, 0)).2 := by
    intro k hk
    rw [List.getD_eq_getElem _ _ (by simpa using hk)]
    simp [List.getElem_range']
  refine ⟨_, hres, ?_, ?_, ?_⟩
  · intro k
    rw [← hiff k]
    simp
  · intro k hk
    exact hget k ((hiff k).2 hk)
  · intro j k hjk hk
    have hk2 : k < K := by simpa using hk
    rw [hget k hk2, hget j (by omega)]
    have hpk := (hiff k).1 hk2
    have hpj := (hiff j).1 (by omega)
    rw [← (rank_pairs_entry g.size δ l hperm (2 ^ k) hpk).1,
      ← (rank_pairs_entry g.size δ l hperm (2 ^ j) hpj).1]
    exact sorted_pair_le_fst l hsorted _ _ (Nat.pow_le_pow_right (by decide) hjk)
      (by rw [hlen]; exact hpk)

/-- On the triangle the distances from node 0 are 0, 3 and 7. -/
theorem triangle_distances (n : Nat) :
    (Reachable triangle 0 n →
      IsDist triangle 0 n (if n = 0 then 0 else if n = 1 then 3 else if n = 2 then 7
        else stdConstants.inf_weight)) ∧
    (¬ Reachable triangle 0 n →
      (if n = 0 then 0 else if n = 1 then 3 else if n = 2 then 7
        else stdConstants.inf_weight) = stdConstants.inf_weight) := by
  obtain ⟨st, hrun, hst⟩ := dijkstra_distances_spec stdConstants triangle 0
    triangle_consistent.targetsValid (by decide) (by decide)
    (fun n d h => by
      have := (triangle_dist_le h).2
      have h2 : stdConstants.inf_weight = 2147483647 := rfl
      omega)
    (fun u d h _ e he => by
      have := (triangle_dist_le h).2
      have := triangle_weight_le he
      have h2 : wrap32 = 4294967296 := by decide
      omega)
    4 (by decide)
  have hval : ∀ k, st.get_dist k =
      (match run_until_done 4 (set_source stdConstants (DijkstraService.new stdConstants triangle) 0)
        with
        | Outcome.ok x => x.get_dist k
        | _ => 0) := by
    intro k
    rw [hrun]
  have h0 : st.get_dist 0 = 0 := (hval 0).trans (by decide)
  have h1 : st.get_dist 1 = 3 := (hval 1).trans (by decide)
  have h2 : st.get_dist 2 = 7 := (hval 2).trans (by decide)
  constructor
  · intro hr
    have hn : n < 3 := Walk.target_lt triangle_consistent.targetsValid (by decide) hr.choose_spec
    have := (hst n).1 hr
    interval_cases n
    · rw [h0] at this; exact this
    · rw [h1] at this; exact this
    · rw [h2] at this; exact this
  · intro hnr
    have h00 : Reachable triangle 0 0 := ⟨0, Walk.nil⟩
    have h01 : Reachable triangle 0 1 := by
      by_contra hc
      have := (hst 1).2 hc
      rw [h1] at this
      exact absurd this (by decide)
    have h02 : Reachable triangle 0 2 := by
      by_contra hc
      have := (hst 2).2 hc
      rw [h2] at this
      exact absurd this (by decide)
    have hn0 : n ≠ 0 := fun h => hnr (h ▸ h00)
    have hn1 : n ≠ 1 := fun h => hnr (h ▸ h01)
    have hn2 : n ≠ 2 := fun h => hnr (h ▸ h02)
    simp [hn0, hn1, hn2]

/-- Witness for C26: the triangle of scenario S1 with source 0. Sorted by distance the nodes
are 0, 1, 2 (distances 0, 3, 7); the positions 1 and 2 give the result `[1, 2]`. -/
theorem C26_dijkstra_rank_nodes_witness :
    ∃ r, get_dijkstra_rank_nodes stdConstants 4 triangle 0 = Outcome.ok r ∧
      (∀ k, k < r.length ↔ 2 ^ k < triangle.size) ∧
      (∀ k, 2 ^ k < triangle.size →
        r.getD k 0 = (([(0, 0), (3, 1), (7, 2)] : List (Nat × Nat)).getD (2 ^ k) (0, 0)).2) ∧
      (∀ j k, j ≤ k → k < r.length →
        (fun n => if n = 0 then 0 else if n = 1 then 3 else if n = 2 then 7
          else stdConstants.inf_weight) (r.getD j 0) ≤
        (fun n => if n = 0 then 0 else if n = 1 then 3 else if n = 2 then 7
          else stdConstants.inf_weight) (r.getD k 0)) :=
  C26_dijkstra_rank_nodes stdConstants triangle 0 triangle_consistent.targetsValid
    (by decide) (by decide)
    (fun n d h => by
      have := (triangle_dist_le h).2
      have h2 : stdConstants.inf_weight = 2147483647 := rfl
      omega)
    (fun u d h _ e he => by
      have := (triangle_dist_le h).2
      have := triangle_weight_le he
      have h2 : wrap32 = 4294967296 := by decide
      omega)
    (by decide)
    (fun n => if n = 0 then 0 else if n = 1 then 3 else if n = 2 then 7
      else stdConstants.inf_weight)
    triangle_distances [(0, 0), (3, 1), (7, 2)] (by decide)
    (by simp [List.Sorted, pair_le]) 4 (by decide)

end PenAstar

namespace PenAstar

open DijkstraService

/-! ### The witness search at its cut-off -/

namespace DijkstraService

/-- Between two steps, a walk lighter than `inf_weight` and than every queued key ends in a
settled node whose entry is at most the walk's weight. -/
theorem Exact.settled_below {c : Constants} {g : Graph} {bl src best : Nat}
    {s : DijkstraService} (h : Exact c g bl src best [] s) {x d : Nat}
    (hw : Walk (g.arc_avoiding bl) src x d) (hd : d < c.inf_weight)
    (hq : ∀ p ∈ s.queue.entries, d < p.key) :
    x ∈ s.search_space ∧ s.dist_vec.get x ≤ d := by
  rcases h.walk_cases hw with h1 | ⟨p, hp, hpk⟩ | h3
  · exact h1
  · have := hq p hp
    omega
  · omega

/-- Between two steps on a graph with positive weights, the end node of a walk lighter than
`inf_weight` and not heavier than any queued key has an entry of at most the walk's
weight. -/
theorem Exact.entry_at_bound {c : Constants} {g : Graph} {bl src best : Nat}
    {s : DijkstraService} (h : Exact c g bl src best [] s)
    (hpos : ∀ u, ∀ e ∈ g.get_out_arcs u, 0 < e.weight) {x d : Nat}
    (hw : Walk (g.arc_avoiding bl) src x d) (hd : d < c.inf_weight)
    (hq : ∀ p ∈ s.queue.entries, d ≤ p.key) :
    s.dist_vec.get x ≤ d := by
  cases hw with
  | nil => rw [h.hsrc.2.1]
  | @snoc u d0 e hw1 ha =>
    have hp := hpos u e ha.1
    obtain ⟨hu, hle⟩ := h.settled_below hw1 (by omega) (fun p hp' => by
      have := hq p hp'
      omega)
    rcases h.hrel _ hu e ha with ⟨_, hm⟩ | hr
    · simp at hm
    · omega

/-- What a search that has stopped for `target` knows about the walks to `target`: the
entry of `target` is at most the weight of every walk lighter than `max_dist`, and on a
graph with positive weights of every walk not heavier than `max_dist`. -/
theorem Exact.dist_le_of_stop {c : Constants} {g : Graph} {bl src best : Nat}
    {s : DijkstraService} (h : Exact c g bl src best [] s) (target : Nat)
    (hstop : target ∈ s.search_space ∨ s.queue.entries = [] ∨
      ∃ cur ∈ s.search_space, s.max_dist ≤ s.dist_vec.get cur)
    {d : Nat} (hw : Walk (g.arc_avoiding bl) src target d) (hd : d < c.inf_weight) :
    (d < s.max_dist → s.dist_vec.get target ≤ d) ∧
    ((∀ u, ∀ e ∈ g.get_out_arcs u, 0 < e.weight) → d ≤ s.max_dist →
      s.dist_vec.get target ≤ d) := by
  rcases hstop with h1 | h1 | ⟨cur, hcur, hge⟩
  · have := (h.hS target h1).2.2 d hw
    exact ⟨fun _ => this, fun _ _ => this⟩
  · have := (h.settled_below hw hd (by rw [h1]; simp)).2
    exact ⟨fun _ => this, fun _ _ => this⟩
  · constructor
    · intro hlt
      exact (h.settled_below hw hd (fun p hp => by
        have := h.hmono cur hcur p hp
        omega)).2
    · intro hpos hle
      exact h.entry_at_bound hpos hw hd (fun p hp => by
        have := h.hmono cur hcur p hp
        omega)

/-- The loop of `run_until_target_found` terminates with the invariant, and it has stopped
because `target` is settled, the queue is empty, or a settled node has reached
`max_dist`. -/
theorem Exact.run_until_target_found_loop_stop {c : Constants} {g : Graph} {bl src : Nat}
    (hTV : g.TargetsValid)
    (hnowrap : ∀ u d, Walk (g.arc_avoiding bl) src u d →
      (∀ d', Walk (g.arc_avoiding bl) src u d' → d ≤ d') → d < c.inf_weight →
      ∀ e ∈ g.get_out_arcs u, d + e.weight < wrap32)
    (target : Nat) (fuel : Nat) (b0 : Nat) (s : DijkstraService)
    (h : Exact c g bl src b0 [] s)
    (hne : s.queue.entries ≠ []) (hfuel : g.size - s.search_space.length ≤ fuel) :
    ∃ b1 s', DijkstraService.run_until_target_found_loop target fuel s = Outcome.ok s' ∧
      Exact c g bl src b1 [] s' ∧ s'.dist_vec.t = s.dist_vec.t ∧
      (StampsLe s → StampsLe s') ∧ s'.max_dist = s.max_dist ∧
      (target ∈ s'.search_space ∨ s'.queue.entries = [] ∨
        ∃ cur ∈ s'.search_space, s'.max_dist ≤ s'.dist_vec.get cur) := by
  induction fuel generalizing b0 s with
  | zero =>
    exfalso
    cases hstep : s.step with
    | none => exact step_ne_none hne hstep
    | some r =>
      obtain ⟨cur, s1⟩ := r
      obtain ⟨h1, hS1, _⟩ := h.step hTV hnowrap hstep
      have hc := h1.card_le
      rw [hS1, List.length_append, List.length_singleton] at hc
      omega
  | succ fuel ih =>
    unfold DijkstraService.run_until_target_found_loop
    cases hstep : s.step with
    | none => exact absurd hstep (step_ne_none hne)
    | some r =>
      obtain ⟨cur, s1⟩ := r
      obtain ⟨h1, hS1, _⟩ := h.step hTV hnowrap hstep
      obtain ⟨ht1, hst1⟩ := epoch_step hstep
      have hm1 := max_dist_step hstep
      have hcS : cur ∈ s1.search_space := by rw [hS1]; simp
      simp only
      by_cases hct : cur = target
      · rw [if_pos hct]
        exact ⟨cur, s1, rfl, h1, ht1, hst1, hm1, Or.inl (hct ▸ hcS)⟩
      · rw [if_neg hct]
        by_cases hstop : (s1.queue.empty || decide (s1.dist_vec.get cur ≥ s1.max_dist)) = true
        · rw [if_pos hstop]
          refine ⟨cur, s1, rfl, h1, ht1, hst1, hm1, ?_⟩
          rw [Bool.or_eq_true] at hstop
          rcases hstop with he | hge
          · exact Or.inr (Or.inl ((MinIDQueue.empty_iff _).1 he))
          · exact Or.inr (Or.inr ⟨cur, hcS, of_decide_eq_true hge⟩)
        · rw [if_neg hstop]
          have hne1 : s1.queue.entries ≠ [] := by
            intro hq
            apply hstop
            rw [Bool.or_eq_true]
            exact Or.inl ((MinIDQueue.empty_iff _).2 hq)
          have hc := h1.card_le
          obtain ⟨b1, s', hr, he, ht, hs, hm, hst⟩ := ih cur s1 h1 hne1 (by
            rw [hS1, List.length_append, List.length_singleton]
            omega)
          exact ⟨b1, s', hr, he, by rw [ht, ht1], fun hh => hs (hst1 hh), by rw [hm, hm1], hst⟩

/-- `run_until_target_found` terminates with the invariant and a reason to stop. -/
theorem Exact.run_until_target_found_stop {c : Constants} {g : Graph} {bl src : Nat}
    (hTV : g.TargetsValid)
    (hnowrap : ∀ u d, Walk (g.arc_avoiding bl) src u d →
      (∀ d', Walk (g.arc_avoiding bl) src u d' → d ≤ d') → d < c.inf_weight →
      ∀ e ∈ g.get_out_arcs u, d + e.weight < wrap32)
    (target : Nat) (fuel : Nat) (b0 : Nat) (s : DijkstraService)
    (h : Exact c g bl src b0 [] s) (hfuel : g.size ≤ fuel) :
    ∃ b1 s', DijkstraService.run_until_target_found fuel s target = Outcome.ok s' ∧
      Exact c g bl src b1 [] s' ∧ s'.dist_vec.t = s.dist_vec.t ∧
      (StampsLe s → StampsLe s') ∧ s'.max_dist = s.max_dist ∧
      (target ∈ s'.search_space ∨ s'.queue.entries = [] ∨
        ∃ cur ∈ s'.search_space, s'.max_dist ≤ s'.dist_vec.get cur) := by
  unfold DijkstraService.run_until_target_found
  by_cases hcond : (s.is_settled target || s.queue.empty) = true
  · rw [if_pos hcond]
    refine ⟨b0, s, rfl, h, rfl, id, rfl, ?_⟩
    rw [Bool.or_eq_true] at hcond
    rcases hcond with hs | he
    · left
      unfold DijkstraService.is_settled at hs
      rw [Bool.and_eq_true] at hs
      rcases h.hcov target hs.1 with h1 | h1
      · exact h1
      · rw [h1] at hs
        simp at hs
    · exact Or.inr (Or.inl ((MinIDQueue.empty_iff _).1 he))
  · rw [if_neg hcond]
    apply h.run_until_target_found_loop_stop hTV hnowrap target fuel b0 s _ (by omega)
    intro hq
    apply hcond
    rw [Bool.or_eq_true]
    exact Or.inr ((MinIDQueue.empty_iff _).2 hq)

end DijkstraService

/-! ### Shortcuts: exactly the pairs without a witness -/

/-- The witness searches from one in-neighbour: every shortcut added stands for a pair
without a lighter walk that avoids `node` (without one of at most the same weight when the
weights are positive), and every pair without a shortcut has a walk avoiding `node` that is
not heavier. -/
theorem shortcuts_inner_tight {c : Constants} {g : Graph} (hTV : g.TargetsValid)
    (hW : g.WeightsBelow c) (h2 : 2 * c.inf_weight ≤ wrap32) (node : Nat) (r : Edge)
    (hr : r.weight < c.inf_weight) (fuel : Nat) (hfuel : g.size ≤ fuel)
    (os : List Edge) (hos : ∀ o ∈ os, o ∈ g.get_out_arcs node) :
    ∀ (b0 : Nat) (ds : DijkstraService) (acc : List (Nat × Edge)),
      Exact c g node r.target b0 [] ds → StampsLe ds →
      ∃ b1 ds' new, shortcuts_inner fuel r os ds acc = Outcome.ok (ds', acc ++ new) ∧
        Exact c g node r.target b1 [] ds' ∧ ds'.dist_vec.t = ds.dist_vec.t ∧ StampsLe ds' ∧
        (∀ sc ∈ new, ∃ o ∈ os, sc = (r.target, (⟨o.target, r.weight + o.weight⟩ : Edge)) ∧
          r.weight + o.weight < c.inf_weight ∧
          (∀ d, Walk (g.arc_avoiding node) r.target o.target d → r.weight + o.weight ≤ d) ∧
          ((∀ u, ∀ e ∈ g.get_out_arcs u, 0 < e.weight) →
            ∀ d, Walk (g.arc_avoiding node) r.target o.target d → r.weight + o.weight < d)) ∧
        (∀ o ∈ os, r.weight + o.weight < c.inf_weight →
          (r.target, (⟨o.target, r.weight + o.weight⟩ : Edge)) ∈ new ∨
          ∃ d, d ≤ r.weight + o.weight ∧ Walk (g.arc_avoiding node) r.target o.target d) := by
  induction os with
  | nil =>
    intro b0 ds acc h hst
    exact ⟨b0, ds, [], by simp [shortcuts_inner], h, rfl, hst, by simp, by simp⟩
  | cons o os ih =>
    intro b0 ds acc h hst
    have ho := hW node o (hos o (List.mem_cons_self _ _))
    have hsum : (r.weight + o.weight) % wrap32 = r.weight + o.weight :=
      Nat.mod_eq_of_lt (by omega)
    obtain ⟨b1, ds1, hrun, h1, ht1, hst1, hm1, hstop⟩ :=
      (h.set_max_dist ((r.weight + o.weight) % wrap32)).run_until_target_found_stop hTV
        (nowrap_of_weightsBelow hW h2 node r.target) o.target fuel b0 _ hfuel
    have hmax : ds1.max_dist = r.weight + o.weight := by
      rw [hm1]
      exact hsum
    have hst1' := hst1 hst
    have ht1' : ds1.dist_vec.t = ds.dist_vec.t := ht1
    have hih := ih (fun o' ho' => hos o' (List.mem_cons_of_mem _ ho'))
    unfold shortcuts_inner
    rw [hrun]
    simp only
    rw [hsum]
    by_cases hgt : ds1.get_dist o.target > r.weight + o.weight
    · rw [if_pos hgt]
      obtain ⟨b2, ds2, new, hr2, h2', ht2, hst2, hs2, hc2⟩ :=
        hih b1 ds1 (acc ++ [(r.target, ⟨o.target, r.weight + o.weight⟩)]) h1 hst1'
      have hlt : r.weight + o.weight < c.inf_weight := by
        have := h1.sound.get_le_inf o.target
        unfold get_dist at hgt
        omega
      refine ⟨b2, ds2, (r.target, ⟨o.target, r.weight + o.weight⟩) :: new, ?_, h2',
        by rw [ht2, ht1'], hst2, ?_, ?_⟩
      · rw [hr2]; simp
      · intro sc hsc
        simp only [List.mem_cons] at hsc
        rcases hsc with hsc | hsc
        · refine ⟨o, List.mem_cons_self _ _, hsc, hlt, ?_, ?_⟩
          · intro d hw
            by_contra hd
            have := (h1.dist_le_of_stop o.target hstop hw (by omega)).1 (by omega)
            unfold get_dist at hgt
            omega
          · intro hpos d hw
            by_contra hd
            have := (h1.dist_le_of_stop o.target hstop hw (by omega)).2 hpos (by omega)
            unfold get_dist at hgt
            omega
        · obtain ⟨o', ho', h3⟩ := hs2 sc hsc
          exact ⟨o', List.mem_cons_of_mem _ ho', h3⟩
      · intro o' ho' hlt'
        simp only [List.mem_cons] at ho'
        rcases ho' with ho' | ho'
        · left; rw [ho']; simp
        · rcases hc2 o' ho' hlt' with h3 | h3
          · left; exact List.mem_cons_of_mem _ h3
          · exact Or.inr h3
    · rw [if_neg hgt]
      obtain ⟨b2, ds2, new, hr2, h2', ht2, hst2, hs2, hc2⟩ := hih b1 ds1 acc h1 hst1'
      refine ⟨b2, ds2, new, hr2, h2', by rw [ht2, ht1'], hst2, ?_, ?_⟩
      · intro sc hsc
        obtain ⟨o', ho', h3⟩ := hs2 sc hsc
        exact ⟨o', List.mem_cons_of_mem _ ho', h3⟩
      · intro o' ho' hlt'
        simp only [List.mem_cons] at ho'
        rcases ho' with ho' | ho'
        · right
          subst ho'
          have hle : ds1.dist_vec.get o'.target ≤ r.weight + o'.weight := by
            unfold get_dist at hgt
            omega
          cases hh : ds1.dist_vec.has o'.target with
          | true => exact ⟨_, hle, (h1.sound.hval _ hh).2.2⟩
          | false =>
            rw [TimestampVector.get_of_not_has _ _ hh, h1.sound.hdef] at hle
            omega
        · exact hc2 o' ho' hlt'

/-- The loop of `get_contraction_shortcuts` over the in-arcs, with the same account of the
shortcuts. -/
theorem shortcuts_outer_tight {c : Constants} {g : Graph} (hc : g.Consistent)
    (hW : g.WeightsBelow c) (h2 : 2 * c.inf_weight ≤ wrap32) (hinf : 0 < c.inf_weight)
    (node : Nat) (fuel : Nat) (hfuel : g.size ≤ fuel)
    (rs : List Edge) (hrs : ∀ r ∈ rs, r ∈ g.get_rev_out_arcs node) :
    ∀ (ds : DijkstraService) (acc : List (Nat × Edge)),
      Clean c g ds → ds.dist_vec.t + rs.length < wrap32 →
      ∃ ds' new, shortcuts_outer c fuel node (g.get_out_arcs node) rs ds acc
          = Outcome.ok (ds', acc ++ new) ∧
        Clean c g ds' ∧ ds'.dist_vec.t = ds.dist_vec.t + rs.length ∧
        (∀ sc ∈ new, ∃ r ∈ rs, ∃ o ∈ g.get_out_arcs node,
          sc = (r.target, (⟨o.target, r.weight + o.weight⟩ : Edge)) ∧
          r.weight + o.weight < c.inf_weight ∧
          (∀ d, Walk (g.arc_avoiding node) r.target o.target d → r.weight + o.weight ≤ d) ∧
          ((∀ u, ∀ e ∈ g.get_out_arcs u, 0 < e.weight) →
            ∀ d, Walk (g.arc_avoiding node) r.target o.target d → r.weight + o.weight < d)) ∧
        (∀ r ∈ rs, ∀ o ∈ g.get_out_arcs node, r.weight + o.weight < c.inf_weight →
          (r.target, (⟨o.target, r.weight + o.weight⟩ : Edge)) ∈ new ∨
          ∃ d, d ≤ r.weight + o.weight ∧ Walk (g.arc_avoiding node) r.target o.target d) := by
  induction rs with
  | nil =>
    intro ds acc h _
    exact ⟨ds, [], by simp [shortcuts_outer], h, by simp, by simp, by simp⟩
  | cons r rs ih =>
    intro ds acc h ht
    have hTV := hc.targetsValid
    have hrm := hrs r (List.mem_cons_self _ _)
    have hrlt := (hc.rev_arc_lt g node r hrm).2
    have hrw : r.weight < c.inf_weight := by
      have h3 : (⟨node, r.weight⟩ : Edge) ∈ g.get_out_arcs r.target := (hc.2.1 _ _ _).2 hrm
      exact hW r.target ⟨node, r.weight⟩ h3
    have hex := Exact.init_clean node r.target (h.set_blacklisted node) rfl hrlt hinf
    have hst := (stampsLe_set_source c _ r.target (h.set_blacklisted node).stampsLe)
    obtain ⟨b1, ds1, new1, hr1, h1, ht1, hst1, hs1, hc1⟩ :=
      shortcuts_inner_tight hTV hW h2 node r hrw fuel hfuel (g.get_out_arcs node)
        (fun o ho => ho) 0 _ acc hex hst.1
    simp only [List.length_cons] at ht
    have ht1' : ds1.dist_vec.t = ds.dist_vec.t := by rw [ht1]; rfl
    obtain ⟨hcl, htf⟩ := h1.sound.finish hst1 (by rw [ht1']; omega)
    obtain ⟨ds2, new2, hr2, hcl2, ht2, hs2, hc2⟩ :=
      ih (fun r' hr' => hrs r' (List.mem_cons_of_mem _ hr')) (ds1.finish c) (acc ++ new1) hcl
        (by rw [htf, ht1']; omega)
    unfold shortcuts_outer
    rw [hr1]
    simp only
    refine ⟨ds2, new1 ++ new2, ?_, hcl2, ?_, ?_, ?_⟩
    · rw [hr2]; simp
    · rw [ht2, htf, ht1']; simp only [List.length_cons]; omega
    · intro sc hsc
      rw [List.mem_append] at hsc
      rcases hsc with hsc | hsc
      · obtain ⟨o, ho, h3⟩ := hs1 sc hsc
        exact ⟨r, List.mem_cons_self _ _, o, ho, h3⟩
      · obtain ⟨r', hr', h3⟩ := hs2 sc hsc
        exact ⟨r', List.mem_cons_of_mem _ hr', h3⟩
    · intro r' hr' o ho hlt
      simp only [List.mem_cons] at hr'
      rcases hr' with hr' | hr'
      · subst hr'
        rcases hc1 o ho hlt with h3 | h3
        · left; exact List.mem_append_left _ h3
        · exact Or.inr h3
      · rcases hc2 r' hr' o ho hlt with h3 | h3
        · left; exact List.mem_append_right _ h3
        · exact Or.inr h3

end PenAstar

namespace PenAstar

open DijkstraService

/-! ### C28: the shortcut list of a node -/

/-- Two entries of one adjacency list with the same target are the same entry. -/
theorem entry_unique {l : List Edge} (hn : (l.map Edge.target).Nodup) {x y : Edge}
    (hx : x ∈ l) (hy : y ∈ l) (h : x.target = y.target) : x = y :=
  List.inj_on_of_nodup_map hn hx hy h

/-- C28 (counterexample): in `tie_graph` node 1 has the in-arc 0→1 and the out-arc 1→2, both
of weight 1, and the walk 0→4→2 avoids node 1 with weight 2 = 1 + 1. The distance from 0 to
2 without node 1 is therefore not greater than the sum, yet `get_contraction_shortcuts`
lists the shortcut 0→2 of weight 2: the witness search pops node 3 at distance 2, which
reaches `max_dist`, before node 4, whose arc of weight 0 would have reached node 2. -/
theorem C28_tie_is_shortcut :
    shortcuts_of stdConstants 6 tie_graph 1 = Outcome.ok [(0, ⟨2, 2⟩)] ∧
    (⟨1, 1⟩ : Edge) ∈ tie_graph.get_out_arcs 0 ∧ (⟨2, 1⟩ : Edge) ∈ tie_graph.get_out_arcs 1 ∧
    Walk (tie_graph.arc_avoiding 1) 0 2 2 := by
  refine ⟨by decide, by decide, by decide, ?_⟩
  have h0 : Walk (tie_graph.arc_avoiding 1) 0 0 0 := Walk.nil
  have h1 : Walk (tie_graph.arc_avoiding 1) 0 4 (0 + 2) :=
    Walk.snoc (⟨4, 2⟩ : Edge) h0 ⟨by decide, by decide⟩
  exact Walk.snoc (⟨2, 0⟩ : Edge) h1 ⟨by decide, by decide⟩

/-- C28 (amended): let `g` be a consistent graph with weights below `M`, `2 * M ≤ inf_weight`,
and `ds` a service between two searches. `get_contraction_shortcuts(g, v, ds)` terminates;
every entry of its list is `u → w` with weight `weight(u,v) + weight(v,w)` for an in-arc
`u → v` and an out-arc `v → w`; and for every such pair: if every walk from `u` to `w` that
does not enter `v` is heavier than `weight(u,v) + weight(v,w)`, the shortcut is listed; if
the shortcut is listed, no walk from `u` to `w` that does not enter `v` is lighter than
`weight(u,v) + weight(v,w)`; and when all weights of `g` are positive, the shortcut is
listed if and only if every such walk is heavier than `weight(u,v) + weight(v,w)`. -/
theorem C28_shortcut_list (c : Constants) (g : Graph) (M : Nat) (hc : g.Consistent)
    (hW : ∀ u, ∀ e ∈ g.get_out_arcs u, e.weight < M) (hM : 2 * M ≤ c.inf_weight)
    (hinf : 0 < c.inf_weight) (h2 : 2 * c.inf_weight ≤ wrap32) (v : Nat) (fuel : Nat)
    (hfuel : g.size ≤ fuel) (ds : DijkstraService) (hcl : Clean c g { ds with g := g })
    (ht : ds.dist_vec.t + g.size < wrap32) :
    ∃ ds' scs, get_contraction_shortcuts c fuel g v ds = Outcome.ok (ds', scs) ∧
      (∀ sc ∈ scs, ∃ u w a b, (⟨v, a⟩ : Edge) ∈ g.get_out_arcs u ∧
        (⟨w, b⟩ : Edge) ∈ g.get_out_arcs v ∧ sc = (u, (⟨w, a + b⟩ : Edge))) ∧
      ∀ u w a b, (⟨v, a⟩ : Edge) ∈ g.get_out_arcs u → (⟨w, b⟩ : Edge) ∈ g.get_out_arcs v →
        ((∀ d, Walk (g.arc_avoiding v) u w d → a + b < d) →
          (u, (⟨w, a + b⟩ : Edge)) ∈ scs) ∧
        ((u, (⟨w, a + b⟩ : Edge)) ∈ scs → ∀ d, Walk (g.arc_avoiding v) u w d → a + b ≤ d) ∧
        ((∀ x, ∀ e ∈ g.get_out_arcs x, 0 < e.weight) →
          ((u, (⟨w, a + b⟩ : Edge)) ∈ scs ↔
            ∀ d, Walk (g.arc_avoiding v) u w d → a + b < d)) := by
  have hWB : g.WeightsBelow c := fun u e he => by
    have := hW u e he
    omega
  have hrl := rev_out_length_le hc v
  obtain ⟨ds', new, hr, _, _, hs, hcmp⟩ :=
    shortcuts_outer_tight hc hWB h2 hinf v fuel hfuel (g.get_rev_out_arcs v)
      (fun r hr => hr) { ds with g := g } [] hcl (by
        have : ({ ds with g := g } : DijkstraService).dist_vec.t = ds.dist_vec.t := rfl
        omega)
  have hrun : get_contraction_shortcuts c fuel g v ds = Outcome.ok (ds', new) := by
    unfold get_contraction_shortcuts
    rw [hr]
    simp
  -- a listed entry for the pair (u, w) comes from the two arcs of the pair
  have hpair : ∀ u w a b, (⟨v, a⟩ : Edge) ∈ g.get_out_arcs u →
      (⟨w, b⟩ : Edge) ∈ g.get_out_arcs v → (u, (⟨w, a + b⟩ : Edge)) ∈ new →
      (∀ d, Walk (g.arc_avoiding v) u w d → a + b ≤ d) ∧
      ((∀ x, ∀ e ∈ g.get_out_arcs x, 0 < e.weight) →
        ∀ d, Walk (g.arc_avoiding v) u w d → a + b < d) := by
    intro u w a b hin hout hmem
    obtain ⟨r, hr', o, ho', heq, _, h3, h4⟩ := hs _ hmem
    have hr2 : (⟨u, a⟩ : Edge) ∈ g.get_rev_out_arcs v := (hc.2.1 _ _ _).1 hin
    simp only [Prod.mk.injEq, Edge.mk.injEq] at heq
    obtain ⟨hu, hw, _⟩ := heq
    have e1 : r = ⟨u, a⟩ := entry_unique (hc.2.2.2 v) hr' hr2 hu.symm
    have e2 : o = ⟨w, b⟩ := entry_unique (hc.2.2.1 v) ho' hout hw.symm
    subst e1
    subst e2
    exact ⟨h3, h4⟩
  refine ⟨ds', new, hrun, ?_, ?_⟩
  · intro sc hsc
    obtain ⟨r, hr', o, ho', heq, _⟩ := hs sc hsc
    refine ⟨r.target, o.target, r.weight, o.weight, (hc.2.1 _ _ _).2 hr', ho', heq⟩
  · intro u w a b hin hout
    have hr2 : (⟨u, a⟩ : Edge) ∈ g.get_rev_out_arcs v := (hc.2.1 _ _ _).1 hin
    have ha : a < M := hW u _ hin
    have hb : b < M := hW v _ hout
    have hfwd : (∀ d, Walk (g.arc_avoiding v) u w d → a + b < d) →
        (u, (⟨w, a + b⟩ : Edge)) ∈ new := by
      intro hall
      rcases hcmp ⟨u, a⟩ hr2 ⟨w, b⟩ hout (by show a + b < c.inf_weight; omega) with h3 | h3
      · exact h3
      · obtain ⟨d, hd, hw⟩ := h3
        have := hall d hw
        exact absurd hd (by show ¬ d ≤ a + b; omega)
    refine ⟨hfwd, fun hmem => (hpair u w a b hin hout hmem).1, ?_⟩
    intro hpos
    exact ⟨fun hmem => (hpair u w a b hin hout hmem).2 hpos, hfwd⟩

/-- Witness for C28: node 1 of the triangle of scenario S1 (in-arc 0→1 of weight 3, out-arc
1→2 of weight 4, positive weights); the arc 0→2 of weight 10 is the only walk from 0 to 2
that avoids node 1. -/
theorem C28_shortcut_list_witness :
    ∃ ds' scs, get_contraction_shortcuts stdConstants 3 triangle 1
        (DijkstraService.new stdConstants triangle) = Outcome.ok (ds', scs) ∧
      (∀ sc ∈ scs, ∃ u w a b, (⟨1, a⟩ : Edge) ∈ triangle.get_out_arcs u ∧
        (⟨w, b⟩ : Edge) ∈ triangle.get_out_arcs 1 ∧ sc = (u, (⟨w, a + b⟩ : Edge))) ∧
      ∀ u w a b, (⟨1, a⟩ : Edge) ∈ triangle.get_out_arcs u →
        (⟨w, b⟩ : Edge) ∈ triangle.get_out_arcs 1 →
        ((∀ d, Walk (triangle.arc_avoiding 1) u w d → a + b < d) →
          (u, (⟨w, a + b⟩ : Edge)) ∈ scs) ∧
        ((u, (⟨w, a + b⟩ : Edge)) ∈ scs →
          ∀ d, Walk (triangle.arc_avoiding 1) u w d → a + b ≤ d) ∧
        ((∀ x, ∀ e ∈ triangle.get_out_arcs x, 0 < e.weight) →
          ((u, (⟨w, a + b⟩ : Edge)) ∈ scs ↔
            ∀ d, Walk (triangle.arc_avoiding 1) u w d → a + b < d)) :=
  C28_shortcut_list stdConstants triangle 11 triangle_consistent
    (fun _ _ he => Nat.lt_of_le_of_lt (triangle_weight_le he) (by decide))
    (by decide) (by decide) (by decide) 1 3 (by decide)
    (DijkstraService.new stdConstants triangle) (clean_new stdConstants triangle) (by decide)

end PenAstar

namespace PenAstar

open Graph DijkstraService

/-! ### C29: contracting a node keeps the distances between the other nodes -/

/-- The working graph after the shortcut loop of `contract_node_and_split` is the graph
`contract_node` builds: the shortcuts added in turn; the service is not touched. -/
theorem add_shortcuts_split_graph (ranking : List Nat) (scs : List (Nat × Edge)) :
    ∀ (st : ContractState),
      (add_shortcuts_split ranking st scs).g =
        scs.foldl (fun acc sc => acc.add_edge sc.1 sc.2) st.g ∧
      (add_shortcuts_split ranking st scs).ds = st.ds := by
  induction scs with
  | nil => intro st; exact ⟨rfl, rfl⟩
  | cons sc scs ih =>
    intro st
    simp only [add_shortcuts_split, List.foldl_cons]
    exact ih _

/-- The loop invariant of `contract_graph` for a working graph taken as its own reference,
with the two output graphs of `split_graph` and a service between two searches. -/
theorem contractInv_self (c : Constants) (g : Graph) (hc : g.Consistent)
    (hW : g.WeightsBelow c) (ranking : List Nat) (ds : DijkstraService)
    (hds : Clean c g { ds with g := g }) :
    ContractInv c g.size g ranking
      ⟨g, (split_graph g ranking).1, (split_graph g ranking).2, ds⟩ := by
  obtain ⟨s1, s2, s3, s4, s5, s6, s7⟩ := split_graph_spec g hc ranking
  exact
  { hg := hc
    hgn := rfl
    hF := s1
    hFn := s2
    hB := s3
    hBn := s4
    hgW := hW
    hFW := fun a e he => hW a e (s6 a e he).1
    hBW := fun w x hx => hW x.target (⟨w, x.weight⟩ : Edge) (s7 w x hx).1
    hdom := s5
    hgs := fun a e he => Walk.single e he
    hFs := fun a e he => Walk.single e (s6 a e he).1
    hBs := fun w x hx => Walk.single (⟨w, x.weight⟩ : Edge) (s7 w x hx).1
    hFr := fun a e he => (s6 a e he).2
    hBr := fun w x hx => Nat.le_of_not_lt (s7 w x hx).2
    hds := hds }

/-- A walk along arcs that are walks of `G0` is a walk of `G0` of the same weight. -/
theorem SoundArcs.walk {G0 g : Graph} (h : SoundArcs G0 g) {a b D : Nat}
    (hw : Walk g.arc a b D) : Walk G0.arc a b D := by
  induction hw with
  | nil => exact Walk.nil
  | snoc e _ ha ih => exact Walk.append ih (h _ e ha)

/-- C29: let `g` be a consistent working graph with weights below `inf_weight`, `ds` a
service between two searches, and `v` a node. `contract_node(g, v)` and
`contract_node_and_split(g, v, ...)` (with any two output graphs and any ranking)
terminate with the same working graph `g1`, and for all nodes `a`, `b` different from `v`
and every `D` below `inf_weight`: `D` is the shortest-path distance from `a` to `b` in `g1`
if and only if it is the shortest-path distance from `a` to `b` in `g` before the call. -/
theorem C29_contract_node_distances (c : Constants) (g : Graph) (hc : g.Consistent)
    (hW : g.WeightsBelow c) (h2 : 2 * c.inf_weight ≤ wrap32) (hinf : 0 < c.inf_weight)
    (ds : DijkstraService) (hds : Clean c g { ds with g := g })
    (ht : ds.dist_vec.t + g.size < wrap32) (v : Nat) (fuel : Nat) (hfuel : g.size ≤ fuel)
    (ranking : List Nat) (F B : Graph) :
    ∃ g1 ds1 scs st1, contract_node c fuel g v ds = Outcome.ok (g1, ds1, scs) ∧
      contract_node_and_split c fuel ranking ⟨g, F, B, ds⟩ v = Outcome.ok st1 ∧ st1.g = g1 ∧
      ∀ a b, a ≠ v → b ≠ v → ∀ D, D < c.inf_weight → (IsDist g a b D ↔ IsDist g1 a b D) := by
  have hinv := contractInv_self c g hc hW ranking ds hds
  obtain ⟨st1, hrun, hinv1, hstep⟩ :=
    contract_node_and_split_spec h2 hinf _ hinv v fuel hfuel ht
  unfold contract_node_and_split at hrun
  simp only at hrun
  cases hq : get_contraction_shortcuts c fuel g v ds with
  | out_of_range => rw [hq] at hrun; cases hrun
  | empty_pop => rw [hq] at hrun; cases hrun
  | no_fuel => rw [hq] at hrun; cases hrun
  | ok r =>
    obtain ⟨ds1, scs⟩ := r
    rw [hq] at hrun
    simp only [Outcome.ok.injEq] at hrun
    have hg1 : st1.g = (scs.foldl (fun acc sc => acc.add_edge sc.1 sc.2) g).disconnect_node v := by
      rw [← hrun]
      simp only
      rw [(add_shortcuts_split_graph ranking scs _).1]
    refine ⟨st1.g, ds1, scs,
      ⟨(add_shortcuts_split ranking ⟨g, F, B, ds1⟩ scs).g.disconnect_node v,
        (add_shortcuts_split ranking ⟨g, F, B, ds1⟩ scs).forward_graph,
        (add_shortcuts_split ranking ⟨g, F, B, ds1⟩ scs).backward_graph,
        (add_shortcuts_split ranking ⟨g, F, B, ds1⟩ scs).ds⟩, ?_, ?_, ?_, ?_⟩
    · unfold contract_node
      rw [hq, hg1]
      rfl
    · unfold contract_node_and_split
      simp only
      rw [hq]
    · simp only
      rw [hg1, (add_shortcuts_split_graph ranking scs _).1]
    · intro a b ha hb D hD
      have hdown : ∀ d, Walk st1.g.arc a b d → Walk g.arc a b d :=
        fun d hw => hinv1.hgs.walk hw
      have hup : ∀ d, d < c.inf_weight → Walk g.arc a b d →
          ∃ d', d' ≤ d ∧ Walk st1.g.arc a b d' :=
        fun d hd hw => (hstep.transfer hinv ha hw hd).1 hb
      constructor
      · intro h
        obtain ⟨d', hd', hw'⟩ := hup D hD h.1
        have := h.2 d' (hdown d' hw')
        have he : d' = D := by omega
        rw [he] at hw'
        exact ⟨hw', fun d'' hw'' => h.2 d'' (hdown d'' hw'')⟩
      · intro h
        refine ⟨hdown D h.1, ?_⟩
        intro d' hw'
        by_contra hlt
        obtain ⟨d'', hd'', hw''⟩ := hup d' (by omega) hw'
        have := h.2 d'' hw''
        omega

/-- Witness for C29: contracting node 1 of the triangle of scenario S1 with a newly
constructed service. -/
theorem C29_contract_node_distances_witness :
    ∃ g1 ds1 scs st1,
      contract_node stdConstants 3 triangle 1 (DijkstraService.new stdConstants triangle)
        = Outcome.ok (g1, ds1, scs) ∧
      contract_node_and_split stdConstants 3 [0, 1, 2]
        ⟨triangle, Graph.new 3, Graph.new 3, DijkstraService.new stdConstants triangle⟩ 1
        = Outcome.ok st1 ∧ st1.g = g1 ∧
      ∀ a b, a ≠ 1 → b ≠ 1 → ∀ D, D < stdConstants.inf_weight →
        (IsDist triangle a b D ↔ IsDist g1 a b D) :=
  C29_contract_node_distances stdConstants triangle triangle_consistent
    (fun _ _ he => Nat.lt_of_le_of_lt (triangle_weight_le he) (by decide))
    (by decide) (by decide) (DijkstraService.new stdConstants triangle)
    (clean_new stdConstants triangle) (by decide) 1 3 (by decide) [0, 1, 2] (Graph.new 3)
    (Graph.new 3)

end PenAstar

namespace PenAstar

open DijkstraService

/-! ### The forward search of XBDVService simulates DijkstraService -/

theorem KeepBwd.same_bwd (x : XBDVService) : KeepBwd x x := ⟨rfl, rfl, rfl, rfl, rfl, rfl⟩

theorem KeepBwd.then_bwd {x x1 x2 : XBDVService} (h1 : KeepBwd x x1) (h2 : KeepBwd x1 x2) :
    KeepBwd x x2 :=
  ⟨h2.hg.trans h1.hg, h2.hds.trans h1.hds, h2.hq.trans h1.hq, h2.hd.trans h1.hd,
    h2.hp.trans h1.hp, h2.hs.trans h1.hs⟩

theorem relax_blacklisted (s : DijkstraService) (best : Nat) (e : Edge) :
    (s.relax best e).blacklisted = s.blacklisted := by
  unfold DijkstraService.relax
  split
  · rfl
  · split <;> rfl

theorem relax_fwd_sim {x : XBDVService} {s : DijkstraService} (h : SimF x s) (best : Nat)
    (e : Edge) (hbl : e.target ≠ s.blacklisted) :
    SimF (x.relax_fwd best e) (s.relax best e) ∧ KeepBwd x (x.relax_fwd best e) := by
  obtain ⟨hg, hd, hp, hq, hs⟩ := h
  unfold XBDVService.relax_fwd DijkstraService.relax
  rw [if_neg hbl, hd, hp, hq]
  by_cases hlt : (x.dist_vec_fwd.get best + e.weight) % wrap32 < x.dist_vec_fwd.get e.target
  · rw [if_pos hlt, if_pos hlt]
    exact ⟨⟨hg, rfl, rfl, rfl, hs⟩, ⟨rfl, rfl, rfl, rfl, rfl, rfl⟩⟩
  · rw [if_neg hlt, if_neg hlt]
    exact ⟨⟨hg, hd, hp, hq, hs⟩, ⟨rfl, rfl, rfl, rfl, rfl, rfl⟩⟩

theorem relax_fwd_foldl_sim (best : Nat) (arcs : List Edge) :
    ∀ (x : XBDVService) (s : DijkstraService), SimF x s →
      (∀ e ∈ arcs, e.target ≠ s.blacklisted) →
      SimF (arcs.foldl (fun st e => XBDVService.relax_fwd st best e) x)
        (arcs.foldl (fun st e => DijkstraService.relax st best e) s) ∧
      KeepBwd x (arcs.foldl (fun st e => XBDVService.relax_fwd st best e) x) := by
  induction arcs with
  | nil => intro x s h _; exact ⟨h, KeepBwd.same_bwd x⟩
  | cons e rest ih =>
    intro x s h hbl
    obtain ⟨h1, k1⟩ := relax_fwd_sim h best e (hbl e (List.mem_cons_self _ _))
    obtain ⟨h2, k2⟩ := ih _ _ h1 (fun e' he' => by
      rw [relax_blacklisted]
      exact hbl e' (List.mem_cons_of_mem _ he'))
    exact ⟨h2, k1.then_bwd k2⟩

/-- A step of the forward search is the step of the Dijkstra service it simulates, when the
popped node is not yet in the search space. -/
theorem step_forward_sim {x : XBDVService} {s : DijkstraService} (h : SimF x s)
    {cur : Nat} {s1 : DijkstraService} (hstep : s.step = some (cur, s1))
    (hnew : cur ∉ s.search_space)
    (hbl : ∀ e ∈ s.g.get_out_arcs cur, e.target ≠ s.blacklisted) :
    ∃ x1, x.step_forward_search = Outcome.ok (cur, x1) ∧ SimF x1 s1 ∧ KeepBwd x x1 := by
  unfold DijkstraService.step at hstep
  unfold XBDVService.step_forward_search
  rw [← h.hq]
  cases hpop : s.queue.pop with
  | none => rw [hpop] at hstep; simp at hstep
  | some r =>
    obtain ⟨m, q'⟩ := r
    rw [hpop] at hstep
    simp only [Option.some.injEq, Prod.mk.injEq] at hstep
    obtain ⟨hc, hs1⟩ := hstep
    subst hc
    simp only
    have hins : set_insert x.search_space_fwd m.id = s.search_space ++ [m.id] := by
      unfold set_insert
      rw [← h.hs, if_neg hnew]
    have h0 : SimF { x with queue_fwd := q', search_space_fwd := set_insert x.search_space_fwd m.id }
        { s with queue := q', search_space := s.search_space ++ [m.id] } :=
      ⟨h.hg, h.hd, h.hp, rfl, hins.symm⟩
    obtain ⟨h2, k2⟩ := relax_fwd_foldl_sim m.id (s.g.get_out_arcs m.id) _ _ h0 hbl
    have harcs : x.g.get_out_arcs m.id = s.g.get_out_arcs m.id := by rw [h.hg]
    rw [harcs]
    refine ⟨_, rfl, ?_, ?_⟩
    · rw [← hs1]
      exact h2
    · exact ⟨k2.hg, k2.hds, k2.hq, k2.hd, k2.hp, k2.hs⟩

theorem DirB.of_keepBwd {c : Constants} {g : Graph} {src : Nat} {x x1 : XBDVService}
    (h : DirB c g src x) (k : KeepBwd x x1) : DirB c g src x1 := by
  obtain ⟨s, b, hex, hd, hp, hs, hq⟩ := h
  refine ⟨s, b, hex, by rw [k.hd]; exact hd, by rw [k.hp]; exact hp, by rw [k.hs]; exact hs, ?_⟩
  rw [k.hq]
  exact hq

theorem muB_of_keepBwd (n : Nat) {x x1 : XBDVService} (k : KeepBwd x x1) :
    muB n x1 = muB n x := by
  unfold muB
  rw [k.hq, k.hs]

/-- One forward half-pass of the bidirectional loop: it terminates, keeps the search a
Dijkstra search (or clears its queue), and with a non-empty queue it uses up one of the
passes the search can make. -/
theorem pass_fwd_spec {c : Constants} {g : Graph} {src : Nat} (hTV : g.TargetsValid)
    (hid : g.size ≤ c.invalid_id)
    (hnowrap : ∀ u d, Walk (g.arc_avoiding c.invalid_id) src u d →
      (∀ d', Walk (g.arc_avoiding c.invalid_id) src u d' → d ≤ d') → d < c.inf_weight →
      ∀ e ∈ g.get_out_arcs u, d + e.weight < wrap32)
    (max_dist : Nat) (x : XBDVService) (hg : x.g = g) (h : DirF c g src x) :
    ∃ x1, XBDVService.pass_fwd max_dist x = Outcome.ok x1 ∧ DirF c g src x1 ∧ KeepBwd x x1 ∧
      (x.queue_fwd.entries ≠ [] → muF g.size x1 < muF g.size x) ∧
      (x.queue_fwd.entries = [] → muF g.size x1 = 0) := by
  unfold XBDVService.pass_fwd
  by_cases he : x.queue_fwd.empty = true
  · have hq := (MinIDQueue.empty_iff _).1 he
    rw [if_neg (by simp [he])]
    refine ⟨x, rfl, h, KeepBwd.same_bwd x, fun hne => absurd hq hne, fun _ => ?_⟩
    unfold muF
    rw [if_pos hq]
  · have hq : x.queue_fwd.entries ≠ [] := fun hq => he ((MinIDQueue.empty_iff _).2 hq)
    rw [if_pos (by simpa using he)]
    obtain ⟨s, b, hex, hd, hp, hs, hqs⟩ := h
    have hqe : x.queue_fwd = s.queue := by
      rcases hqs with h1 | h1
      · exact absurd h1 hq
      · exact h1
    have hsim : SimF x s := ⟨hex.sound.hg.trans hg.symm, hd, hp, hqe.symm, hs⟩
    cases hstep : s.step with
    | none => exact absurd hstep (step_ne_none (by rw [← hqe]; exact hq))
    | some r =>
      obtain ⟨cur, s1⟩ := r
      obtain ⟨h1, hS1, hcont⟩ := hex.step hTV hnowrap hstep
      have hnew : cur ∉ s.search_space := by
        intro hin
        have := (hex.hS cur hin).2.1
        rw [this] at hcont
        cases hcont
      have hbl : ∀ e ∈ s.g.get_out_arcs cur, e.target ≠ s.blacklisted := by
        intro e he'
        rw [hex.sound.hg] at he'
        rw [hex.sound.hbl]
        have := hTV cur e he'
        omega
      obtain ⟨x1, hx1, hsim1, k1⟩ := step_forward_sim hsim hstep hnew hbl
      rw [hx1]
      simp only
      have hcard := h1.card_le
      rw [hS1, List.length_append, List.length_singleton] at hcard
      have hlen1 : x1.search_space_fwd.length = x.search_space_fwd.length + 1 := by
        rw [← hsim1.hs, hS1, List.length_append, List.length_singleton, hs]
      have hmu : muF g.size x = g.size + 1 - x.search_space_fwd.length := by
        unfold muF
        rw [if_neg hq]
      by_cases hgt : x1.dist_vec_fwd.get cur > max_dist
      · rw [if_pos hgt]
        refine ⟨_, rfl, ⟨s1, cur, h1, hsim1.hd, hsim1.hp, hsim1.hs, Or.inl rfl⟩,
          ⟨k1.hg, k1.hds, k1.hq, k1.hd, k1.hp, k1.hs⟩, fun _ => ?_, fun h0 => absurd h0 hq⟩
        have : muF g.size { x1 with queue_fwd := x1.queue_fwd.clear } = 0 := by
          unfold muF
          exact if_pos rfl
        rw [this, hmu, ← hs]
        omega
      · rw [if_neg hgt]
        refine ⟨x1, rfl, ⟨s1, cur, h1, hsim1.hd, hsim1.hp, hsim1.hs, Or.inr hsim1.hq.symm⟩,
          k1, fun _ => ?_, fun h0 => absurd h0 hq⟩
        rw [hmu]
        unfold muF
        split
        · rw [← hs]; omega
        · rw [hlen1, ← hs]; omega

end PenAstar

namespace PenAstar

open DijkstraService

/-! ### The backward search of XBDVService simulates DijkstraService on the reversed graph -/

theorem KeepFwd.same_fwd (x : XBDVService) : KeepFwd x x := ⟨rfl, rfl, rfl, rfl, rfl, rfl⟩

theorem KeepFwd.then_fwd {x x1 x2 : XBDVService} (h1 : KeepFwd x x1) (h2 : KeepFwd x1 x2) :
    KeepFwd x x2 :=
  ⟨h2.hg.trans h1.hg, h2.hds.trans h1.hds, h2.hq.trans h1.hq, h2.hd.trans h1.hd,
    h2.hp.trans h1.hp, h2.hs.trans h1.hs⟩

theorem relax_bwd_sim {x : XBDVService} {s : DijkstraService} (h : SimB x s) (best : Nat)
    (e : Edge) (hbl : e.target ≠ s.blacklisted) :
    SimB (x.relax_bwd best e) (s.relax best e) ∧ KeepFwd x (x.relax_bwd best e) := by
  obtain ⟨hg, hd, hp, hq, hs⟩ := h
  unfold XBDVService.relax_bwd DijkstraService.relax
  rw [if_neg hbl, hd, hp, hq]
  by_cases hlt : (x.dist_vec_bwd.get best + e.weight) % wrap32 < x.dist_vec_bwd.get e.target
  · rw [if_pos hlt, if_pos hlt]
    exact ⟨⟨hg, rfl, rfl, rfl, hs⟩, ⟨rfl, rfl, rfl, rfl, rfl, rfl⟩⟩
  · rw [if_neg hlt, if_neg hlt]
    exact ⟨⟨hg, hd, hp, hq, hs⟩, ⟨rfl, rfl, rfl, rfl, rfl, rfl⟩⟩

theorem relax_bwd_foldl_sim (best : Nat) (arcs : List Edge) :
    ∀ (x : XBDVService) (s : DijkstraService), SimB x s →
      (∀ e ∈ arcs, e.target ≠ s.blacklisted) →
      SimB (arcs.foldl (fun st e => XBDVService.relax_bwd st best e) x)
        (arcs.foldl (fun st e => DijkstraService.relax st best e) s) ∧
      KeepFwd x (arcs.foldl (fun st e => XBDVService.relax_bwd st best e) x) := by
  induction arcs with
  | nil => intro x s h _; exact ⟨h, KeepFwd.same_fwd x⟩
  | cons e rest ih =>
    intro x s h hbl
    obtain ⟨h1, k1⟩ := relax_bwd_sim h best e (hbl e (List.mem_cons_self _ _))
    obtain ⟨h2, k2⟩ := ih _ _ h1 (fun e' he' => by
      rw [relax_blacklisted]
      exact hbl e' (List.mem_cons_of_mem _ he'))
    exact ⟨h2, k1.then_fwd k2⟩

/-- A step of the backward search is the step of the Dijkstra service it simulates, when the
popped node is not yet in the search space. -/
theorem step_backward_sim {x : XBDVService} {s : DijkstraService} (h : SimB x s)
    {cur : Nat} {s1 : DijkstraService} (hstep : s.step = some (cur, s1))
    (hnew : cur ∉ s.search_space)
    (hbl : ∀ e ∈ s.g.get_out_arcs cur, e.target ≠ s.blacklisted) :
    ∃ x1, x.step_backward_search = Outcome.ok (cur, x1) ∧ SimB x1 s1 ∧ KeepFwd x x1 := by
  unfold DijkstraService.step at hstep
  unfold XBDVService.step_backward_search
  rw [← h.hq]
  cases hpop : s.queue.pop with
  | none => rw [hpop] at hstep; simp at hstep
  | some r =>
    obtain ⟨m, q'⟩ := r
    rw [hpop] at hstep
    simp only [Option.some.injEq, Prod.mk.injEq] at hstep
    obtain ⟨hc, hs1⟩ := hstep
    subst hc
    simp only
    have hins : set_insert x.search_space_bwd m.id = s.search_space ++ [m.id] := by
      unfold set_insert
      rw [← h.hs, if_neg hnew]
    have h0 : SimB { x with queue_bwd := q', search_space_bwd := set_insert x.search_space_bwd m.id }
        { s with queue := q', search_space := s.search_space ++ [m.id] } :=
      ⟨h.hg, h.hd, h.hp, rfl, hins.symm⟩
    obtain ⟨h2, k2⟩ := relax_bwd_foldl_sim m.id (s.g.get_out_arcs m.id) _ _ h0 hbl
    have harcs : x.g.get_rev_out_arcs m.id = s.g.get_out_arcs m.id := by rw [h.hg]; rfl
    rw [harcs]
    refine ⟨_, rfl, ?_, ?_⟩
    · rw [← hs1]
      exact h2
    · exact ⟨k2.hg, k2.hds, k2.hq, k2.hd, k2.hp, k2.hs⟩

theorem DirF.of_keepFwd {c : Constants} {g : Graph} {src : Nat} {x x1 : XBDVService}
    (h : DirF c g src x) (k : KeepFwd x x1) : DirF c g src x1 := by
  obtain ⟨s, b, hex, hd, hp, hs, hq⟩ := h
  refine ⟨s, b, hex, by rw [k.hd]; exact hd, by rw [k.hp]; exact hp, by rw [k.hs]; exact hs, ?_⟩
  rw [k.hq]
  exact hq

theorem muF_of_keepFwd (n : Nat) {x x1 : XBDVService} (k : KeepFwd x x1) :
    muF n x1 = muF n x := by
  unfold muF
  rw [k.hq, k.hs]

/-- One backward half-pass of the bidirectional loop: it terminates, keeps the search a
Dijkstra search on the reversed graph (or clears its queue), and with a non-empty queue it uses up one of the
passes the search can make. -/
theorem pass_bwd_spec {c : Constants} {g : Graph} {src : Nat} (hTV : g.reverse.TargetsValid)
    (hid : g.reverse.size ≤ c.invalid_id)
    (hnowrap : ∀ u d, Walk (g.reverse.arc_avoiding c.invalid_id) src u d →
      (∀ d', Walk (g.reverse.arc_avoiding c.invalid_id) src u d' → d ≤ d') → d < c.inf_weight →
      ∀ e ∈ g.reverse.get_out_arcs u, d + e.weight < wrap32)
    (max_dist : Nat) (x : XBDVService) (hg : x.g = g) (h : DirB c g src x) :
    ∃ x1, XBDVService.pass_bwd max_dist x = Outcome.ok x1 ∧ DirB c g src x1 ∧ KeepFwd x x1 ∧
      (x.queue_bwd.entries ≠ [] → muB g.reverse.size x1 < muB g.reverse.size x) ∧
      (x.queue_bwd.entries = [] → muB g.reverse.size x1 = 0) := by
  unfold XBDVService.pass_bwd
  by_cases he : x.queue_bwd.empty = true
  · have hq := (MinIDQueue.empty_iff _).1 he
    rw [if_neg (by simp [he])]
    refine ⟨x, rfl, h, KeepFwd.same_fwd x, fun hne => absurd hq hne, fun _ => ?_⟩
    unfold muB
    rw [if_pos hq]
  · have hq : x.queue_bwd.entries ≠ [] := fun hq => he ((MinIDQueue.empty_iff _).2 hq)
    rw [if_pos (by simpa using he)]
    obtain ⟨s, b, hex, hd, hp, hs, hqs⟩ := h
    have hqe : x.queue_bwd = s.queue := by
      rcases hqs with h1 | h1
      · exact absurd h1 hq
      · exact h1
    have hsim : SimB x s := ⟨hex.sound.hg.trans (by rw [hg]), hd, hp, hqe.symm, hs⟩
    cases hstep : s.step with
    | none => exact absurd hstep (step_ne_none (by rw [← hqe]; exact hq))
    | some r =>
      obtain ⟨cur, s1⟩ := r
      obtain ⟨h1, hS1, hcont⟩ := hex.step hTV hnowrap hstep
      have hnew : cur ∉ s.search_space := by
        intro hin
        have := (hex.hS cur hin).2.1
        rw [this] at hcont
        cases hcont
      have hbl : ∀ e ∈ s.g.get_out_arcs cur, e.target ≠ s.blacklisted := by
        intro e he'
        rw [hex.sound.hg] at he'
        rw [hex.sound.hbl]
        have := hTV cur e he'
        omega
      obtain ⟨x1, hx1, hsim1, k1⟩ := step_backward_sim hsim hstep hnew hbl
      rw [hx1]
      simp only
      have hcard := h1.card_le
      rw [hS1, List.length_append, List.length_singleton] at hcard
      have hlen1 : x1.search_space_bwd.length = x.search_space_bwd.length + 1 := by
        rw [← hsim1.hs, hS1, List.length_append, List.length_singleton, hs]
      have hmu : muB g.reverse.size x = g.reverse.size + 1 - x.search_space_bwd.length := by
        unfold muB
        rw [if_neg hq]
      by_cases hgt : x1.dist_vec_bwd.get cur > max_dist
      · rw [if_pos hgt]
        refine ⟨_, rfl, ⟨s1, cur, h1, hsim1.hd, hsim1.hp, hsim1.hs, Or.inl rfl⟩,
          ⟨k1.hg, k1.hds, k1.hq, k1.hd, k1.hp, k1.hs⟩, fun _ => ?_, fun h0 => absurd h0 hq⟩
        have : muB g.reverse.size { x1 with queue_bwd := x1.queue_bwd.clear } = 0 := by
          unfold muB
          exact if_pos rfl
        rw [this, hmu, ← hs]
        omega
      · rw [if_neg hgt]
        refine ⟨x1, rfl, ⟨s1, cur, h1, hsim1.hd, hsim1.hp, hsim1.hs, Or.inr hsim1.hq.symm⟩,
          k1, fun _ => ?_, fun h0 => absurd h0 hq⟩
        rw [hmu]
        unfold muB
        split
        · rw [← hs]; omega
        · rw [hlen1, ← hs]; omega

end PenAstar

namespace PenAstar

open DijkstraService

/-! ### The reversed graph -/

theorem Graph.reverse_consistent {g : Graph} (hc : g.Consistent) : g.reverse.Consistent :=
  ⟨hc.1.symm, fun u v w => (hc.2.1 v u w).symm, hc.2.2.2, hc.2.2.1⟩

theorem Graph.reverse_size {g : Graph} (hc : g.Consistent) : g.reverse.size = g.size :=
  hc.1.symm

theorem Graph.reverse_weightsBelow {c : Constants} {g : Graph} (hc : g.Consistent)
    (hW : g.WeightsBelow c) : g.reverse.WeightsBelow c := by
  intro u e he
  have h2 : (⟨u, e.weight⟩ : Edge) ∈ g.get_out_arcs e.target := (hc.2.1 e.target u e.weight).2 he
  exact hW e.target (⟨u, e.weight⟩ : Edge) h2

/-- A path of the reversed graph, read backwards, is a path of the graph. -/
theorem IsPath.of_reverse {g : Graph} (hc : g.Consistent) {q : List Nat} {d : Nat}
    (h : IsPath g.reverse q d) : IsPath g q.reverse d := by
  induction h with
  | single u => exact IsPath.single u
  | @cons u rest d e he _ ih =>
    have harc : (⟨u, e.weight⟩ : Edge) ∈ g.get_out_arcs e.target :=
      (hc.2.1 e.target u e.weight).2 he
    have hl : (e.target :: rest).reverse.getLast? = some e.target := by simp
    have := IsPath.snoc ih hl (⟨u, e.weight⟩ : Edge) harc
    rw [Nat.add_comm]
    simpa using this

/-! ### The loop of run_dijkstra_bidirectional -/

/-- The bidirectional loop terminates within the passes the two searches can make and
leaves both searches as Dijkstra searches (possibly with a cleared queue); the graph and the
Dijkstra service of the optimal path are not touched. -/
theorem bidirectional_loop_spec {c : Constants} {g : Graph} {s t : Nat} (hc : g.Consistent)
    (hW : g.WeightsBelow c) (h2 : 2 * c.inf_weight ≤ wrap32) (hid : g.size ≤ c.invalid_id)
    (max_dist : Nat) :
    ∀ (fuel : Nat) (x : XBDVService), x.g = g → DirF c g s x → DirB c g t x →
      muF g.size x + muB g.size x < fuel →
      ∃ x1, XBDVService.bidirectional_loop max_dist fuel x = Outcome.ok x1 ∧ x1.g = g ∧
        DirF c g s x1 ∧ DirB c g t x1 ∧ x1.dijkstra_service = x.dijkstra_service := by
  have hrs := Graph.reverse_size hc
  intro fuel
  induction fuel with
  | zero => intro x _ _ _ h; exact absurd h (Nat.not_lt_zero _)
  | succ fuel ih =>
    intro x hg hF hB hmu
    unfold XBDVService.bidirectional_loop
    by_cases hcond : ¬ x.queue_fwd.empty = true ∨ ¬ x.queue_bwd.empty = true
    · rw [if_pos hcond]
      obtain ⟨x1, hp1, hF1, k1, m1, m1'⟩ := pass_fwd_spec hc.targetsValid hid
        (nowrap_of_weightsBelow hW h2 c.invalid_id s) max_dist x hg hF
      have hB1 := hB.of_keepBwd k1
      have hg1 : x1.g = g := k1.hg.trans hg
      obtain ⟨x2, hp2, hB2, k2, m2, m2'⟩ := pass_bwd_spec
        (Graph.reverse_consistent hc).targetsValid (by rw [hrs]; exact hid)
        (nowrap_of_weightsBelow (Graph.reverse_weightsBelow hc hW) h2 c.invalid_id t)
        max_dist x1 hg1 hB1
      rw [hrs] at m2 m2'
      have hF2 := hF1.of_keepFwd k2
      have hg2 : x2.g = g := k2.hg.trans hg1
      rw [hp1]
      simp only
      rw [hp2]
      simp only
      have e1 : muB g.size x1 = muB g.size x := muB_of_keepBwd g.size k1
      have e2 : muF g.size x2 = muF g.size x1 := muF_of_keepFwd g.size k2
      have hdec : muF g.size x2 + muB g.size x2 < muF g.size x + muB g.size x := by
        have hb2 : muB g.size x2 ≤ muB g.size x1 := by
          by_cases hq : x1.queue_bwd.entries = []
          · rw [m2' hq]; exact Nat.zero_le _
          · exact Nat.le_of_lt (m2 hq)
        have hf1 : muF g.size x1 ≤ muF g.size x := by
          by_cases hq : x.queue_fwd.entries = []
          · rw [m1' hq]; exact Nat.zero_le _
          · exact Nat.le_of_lt (m1 hq)
        rcases hcond with hne | hne
        · have := m1 (fun hq => hne ((MinIDQueue.empty_iff _).2 hq))
          omega
        · have hq1 : x1.queue_bwd.entries ≠ [] := by
            rw [k1.hq]
            exact fun hq => hne ((MinIDQueue.empty_iff _).2 hq)
          have := m2 hq1
          omega
      obtain ⟨x3, hr, hg3, hF3, hB3, hds3⟩ := ih x2 hg2 hF2 hB2 (by omega)
      exact ⟨x3, hr, hg3, hF3, hB3, by rw [hds3, k2.hds, k1.hds]⟩
    · rw [if_neg hcond]
      exact ⟨x, rfl, hg, hF, hB, rfl⟩

/-- The state at the start of the bidirectional loop on a service whose two searches are
as constructed. -/
theorem bidirectional_init_spec {c : Constants} {g : Graph} {s t : Nat} (hc : g.Consistent)
    (hs : s < g.size) (ht : t < g.size) (hinf : 0 < c.inf_weight) (ds : DijkstraService) :
    DirF c g s
      (XBDVService.bidirectional_init c { XBDVService.new c g with dijkstra_service := ds } s t) ∧
    DirB c g t
      (XBDVService.bidirectional_init c { XBDVService.new c g with dijkstra_service := ds } s t) ∧
    muF g.size
      (XBDVService.bidirectional_init c { XBDVService.new c g with dijkstra_service := ds } s t)
      ≤ g.size + 1 ∧
    muB g.size
      (XBDVService.bidirectional_init c { XBDVService.new c g with dijkstra_service := ds } s t)
      ≤ g.size + 1 := by
  have hrs := Graph.reverse_size hc
  refine ⟨⟨_, 0, Exact.init c g s hs hinf, rfl, rfl, rfl, Or.inr rfl⟩,
    ⟨_, 0, Exact.init c g.reverse t (by rw [hrs]; exact ht) hinf, ?_, ?_, rfl, Or.inr rfl⟩,
    ?_, ?_⟩
  · simp only [set_source, DijkstraService.new, XBDVService.bidirectional_init,
      XBDVService.new, hrs]
  · simp only [set_source, DijkstraService.new, XBDVService.bidirectional_init,
      XBDVService.new, hrs]
  · unfold muF
    split <;> omega
  · unfold muB
    split <;> omega

/-! ### get_implicit_path -/

theorem follow_parents_eq (c : Constants) (s : DijkstraService) :
    ∀ (fuel cur : Nat) (acc : List Nat),
      XBDVService.follow_parents c s.parent_vec fuel cur acc =
        DijkstraService.get_path_loop c s fuel cur acc := by
  intro fuel
  induction fuel with
  | zero => intro cur acc; rfl
  | succ fuel ih =>
    intro cur acc
    unfold XBDVService.follow_parents DijkstraService.get_path_loop
    by_cases h1 : cur = c.invalid_id
    · rw [if_pos h1, if_pos h1]
    · rw [if_neg h1, if_neg h1]
      by_cases h2 : cur < s.parent_vec.vec.length
      · rw [if_pos h2, if_pos h2, ih]
      · rw [if_neg h2, if_neg h2]

/-- For a node settled by both searches `get_implicit_path` returns a path of `g` from the
source to the target whose weight is the returned length, the sum of the two distance
entries of the node. -/
theorem implicit_path_spec {c : Constants} {g : Graph} {s t : Nat} (hc : g.Consistent)
    (h2 : 2 * c.inf_weight ≤ wrap32) (hid : g.size ≤ c.invalid_id) (hs : s < g.size)
    (ht : t < g.size) {x : XBDVService} (hF : DirF c g s x) (hB : DirB c g t x)
    (via : Nat) (hvf : via ∈ x.search_space_fwd) (hvb : via ∈ x.search_space_bwd)
    (fuel : Nat) (hfuel : g.size + 2 ≤ fuel) :
    ∃ nodes, x.get_implicit_path c fuel via = Outcome.ok
        ⟨nodes, x.dist_vec_fwd.get via + x.dist_vec_bwd.get via⟩ ∧
      IsPath g nodes (x.dist_vec_fwd.get via + x.dist_vec_bwd.get via) ∧
      nodes.head? = some s ∧ nodes.getLast? = some t ∧
      x.dist_vec_fwd.get via + x.dist_vec_bwd.get via < 2 * c.inf_weight := by
  have hrs := Graph.reverse_size hc
  obtain ⟨sf, bf, hexf, hdf, hpf, hsf, _⟩ := hF
  obtain ⟨sb, bb, hexb, hdb, hpb, hsb, _⟩ := hB
  rw [← hsf] at hvf
  rw [← hsb] at hvb
  have hhasf := (hexf.hS via hvf).1
  have hhasb := (hexb.hS via hvb).1
  obtain ⟨hvlt, hdflt, _⟩ := hexf.sound.hval via hhasf
  obtain ⟨_, hdblt, _⟩ := hexb.sound.hval via hhasb
  have hcf := hexf.card_le
  have hcb := hexb.card_le
  rw [hrs] at hcb
  have hif : sf.search_space.indexOf via < sf.search_space.length := List.indexOf_lt_length.2 hvf
  have hib : sb.search_space.indexOf via < sb.search_space.length := List.indexOf_lt_length.2 hvb
  obtain ⟨p, hp1, hp2, hp3, hp4⟩ :=
    hexf.get_path_loop hs hid (sf.search_space.indexOf via) via hvf (Nat.le_refl _)
  obtain ⟨q, hq1, hq2, hq3, hq4⟩ :=
    hexb.get_path_loop (by rw [hrs]; exact ht) (by rw [hrs]; exact hid)
      (sb.search_space.indexOf via) via hvb (Nat.le_refl _)
  rw [hdf] at hp1 hdflt
  rw [hdb] at hq1 hdblt
  have hq1' := IsPath.of_reverse hc hq1
  -- the backward part starts with the via node
  have hqne : q ≠ [] := hq1.ne_nil
  obtain ⟨r, hr⟩ : ∃ r, q.reverse = via :: r := by
    have : q.reverse.head? = some via := by rw [List.head?_reverse]; exact hq3
    cases hqr : q.reverse with
    | nil => rw [hqr] at this; simp at this
    | cons a r =>
      rw [hqr] at this
      simp only [List.head?_cons, Option.some.injEq] at this
      exact ⟨r, by rw [this]⟩
  have hpd : p = p.dropLast ++ [via] := by
    have := List.dropLast_append_getLast? via hp3
    exact this.symm
  have hnodes : p.dropLast ++ q.reverse = p ++ r := by
    rw [hr]
    conv_rhs => rw [hpd]
    simp
  rw [hr] at hq1'
  have hpath := IsPath.join hp1 hp3 hq1'
  refine ⟨p ++ r, ?_, hpath, ?_, ?_, by omega⟩
  · unfold XBDVService.get_implicit_path
    have hl1 : via < x.dist_vec_fwd.vec.length := by
      rw [← hdf, hexf.sound.hlen]; exact hvlt
    have hl2 : via < x.dist_vec_bwd.vec.length := by
      rw [← hdb, hexb.sound.hlen, hrs]; exact hvlt
    rw [if_pos ⟨hl1, hl2⟩, ← hpf, follow_parents_eq, hp4 fuel [] (by omega)]
    simp only [List.nil_append, List.reverse_reverse]
    rw [← hpb, follow_parents_eq]
    have hstep : DijkstraService.get_path_loop c sb (fuel + 1) via p.dropLast =
        DijkstraService.get_path_loop c sb fuel (sb.parent_vec.get via) p := by
      conv_lhs => unfold DijkstraService.get_path_loop
      rw [if_neg (by omega), if_pos (by rw [hexb.sound.hplen, hrs]; exact hvlt)]
      rw [← hpd]
    rw [← hstep, hq4 (fuel + 1) p.dropLast (by omega), hnodes]
    simp only
    rw [Nat.mod_eq_of_lt (by omega)]
  · cases p with
    | nil => exact absurd rfl hp1.ne_nil
    | cons a p' => simpa using hp2
  · rw [← hnodes, List.getLast?_append_of_ne_nil _ (by rw [hr]; simp), List.getLast?_reverse]
    exact hq2

end PenAstar

namespace PenAstar

/-! ### Paths, sharing and plateau length -/

theorem IsPath.to_walk {g : Graph} {p : List Nat} {d : Nat} (h : IsPath g p d) :
    ∀ s t, p.head? = some s → p.getLast? = some t → Walk g.arc s t d := by
  induction h with
  | single u =>
    intro s t hs ht
    simp only [List.head?_cons, Option.some.injEq] at hs
    simp only [List.getLast?_singleton, Option.some.injEq] at ht
    subst hs
    subst ht
    exact Walk.nil
  | @cons u rest d e he _ ih =>
    intro s t hs ht
    simp only [List.head?_cons, Option.some.injEq] at hs
    subst hs
    have ht' : (e.target :: rest).getLast? = some t := by
      rw [List.getLast?_cons_cons] at ht
      exact ht
    exact Walk.cons e he (ih e.target t rfl ht')

theorem get_edge_weight_of_mem {g : Graph} (hc : g.Consistent) (c : Constants) {u : Nat}
    {e : Edge} (he : e ∈ g.get_out_arcs u) : g.get_edge_weight c u e.target = e.weight := by
  unfold Graph.get_edge_weight
  rw [(Graph.mem_iff_first_weight hc u e).1 he]
  rfl

theorem sharing_le {g : Graph} (hc : g.Consistent) (c : Constants) (comp : List Nat)
    {p : List Nat} {d : Nat} (h : IsPath g p d) : sharing c g comp p ≤ d := by
  induction h with
  | single u => simp [sharing]
  | @cons u rest d e he _ ih =>
    unfold sharing
    rw [get_edge_weight_of_mem hc c he]
    split <;> omega

theorem get_sharing_loop_eq (c : Constants) (g : Graph) (comp : List Nat) :
    ∀ (rest : List Nat) (prev acc : Nat), acc + sharing c g comp (prev :: rest) < wrap32 →
      XBDVService.get_sharing_loop c g comp prev rest acc =
        acc + sharing c g comp (prev :: rest) := by
  intro rest
  induction rest with
  | nil =>
    intro prev acc _
    simp [XBDVService.get_sharing_loop, sharing]
  | cons node rest ih =>
    intro prev acc hlt
    unfold XBDVService.get_sharing_loop
    unfold sharing at hlt ⊢
    by_cases hin : node ∈ comp
    · rw [if_pos hin] at hlt ⊢
      rw [if_pos hin]
      rw [Nat.mod_eq_of_lt (by omega), ih node _ (by omega)]
      omega
    · rw [if_neg hin] at hlt ⊢
      rw [if_neg hin]
      rw [ih node _ (by omega)]
      omega

/-- On a path of the graph whose weight does not wrap, `get_sharing` is the sharing. -/
theorem get_sharing_eq {g : Graph} (hc : g.Consistent) (c : Constants) {x : XBDVService}
    (hg : x.g = g) (path : Path) {d : Nat} (h : IsPath g path.nodes d) (hd : d < wrap32)
    (comp : Path) :
    x.get_sharing c path comp = sharing c g comp.nodes path.nodes := by
  have hle := sharing_le hc c comp.nodes h
  unfold XBDVService.get_sharing
  cases hn : path.nodes with
  | nil => rw [hn] at h; exact absurd rfl h.ne_nil
  | cons first rest =>
    simp only
    rw [hn] at hle
    rw [hg, get_sharing_loop_eq c g comp.nodes rest first 0 (by omega)]
    omega

theorem plateau_loop_le {g : Graph} (hc : g.Consistent) (c : Constants) {x : XBDVService}
    (hg : x.g = g) :
    ∀ (nodes : List Nat) (prev : Nat) (st : XBDVService.PlateauState) (d : Nat),
      IsPath g (prev :: nodes) d → st.current_plateau_length + d < wrap32 →
      (XBDVService.plateau_loop c x prev nodes st).current_plateau_length ≤
          st.current_plateau_length + d ∧
        (XBDVService.plateau_loop c x prev nodes st).max_plateau_length ≤
          max st.max_plateau_length (st.current_plateau_length + d) := by
  intro nodes
  induction nodes with
  | nil =>
    intro prev st d _ _
    unfold XBDVService.plateau_loop
    exact ⟨Nat.le_add_right _ _, Nat.le_max_left _ _⟩
  | cons node rest ih =>
    intro prev st d h hlt
    cases h with
    | @cons _ _ d' e he hrest =>
      unfold XBDVService.plateau_loop
      have hw : x.g.get_edge_weight c prev e.target = e.weight := by
        rw [hg]; exact get_edge_weight_of_mem hc c he
      by_cases hin : e.target ∈ x.search_space_fwd ∧ e.target ∈ x.search_space_bwd
      · rw [if_pos hin]
        by_cases hp : st.in_plateau = true
        · rw [if_neg (by simp [hp])]
          have := ih e.target
            { st with current_plateau_length :=
                (st.current_plateau_length + x.g.get_edge_weight c prev e.target) % wrap32 }
            d' hrest (by
              simp only
              rw [hw, Nat.mod_eq_of_lt (by omega)]
              omega)
          simp only at this
          rw [hw, Nat.mod_eq_of_lt (by omega)] at this
          rw [hw, Nat.mod_eq_of_lt (by omega)]
          refine ⟨by omega, ?_⟩
          have h2 := this.2
          have e1 : st.current_plateau_length + e.weight + d' =
              st.current_plateau_length + (e.weight + d') := by omega
          rw [e1] at h2
          exact h2
        · rw [if_pos (by simp [hp])]
          have := ih e.target { st with in_plateau := true } d' hrest (by simp only; omega)
          simp only at this
          refine ⟨by omega, ?_⟩
          have h2 := this.2
          have : max st.max_plateau_length (st.current_plateau_length + d') ≤
              max st.max_plateau_length (st.current_plateau_length + (e.weight + d')) :=
            max_le_max (Nat.le_refl _) (by omega)
          omega
      · rw [if_neg hin]
        have := ih e.target
          { current_plateau_length := 0
            max_plateau_length :=
              if st.current_plateau_length > st.max_plateau_length then
                st.current_plateau_length
              else st.max_plateau_length
            in_plateau := false } d' hrest (by simp only; omega)
        simp only at this
        refine ⟨by omega, ?_⟩
        have h2 := this.2
        have h3 : max (if st.current_plateau_length > st.max_plateau_length then
              st.current_plateau_length else st.max_plateau_length) (0 + d') ≤
            max st.max_plateau_length (st.current_plateau_length + (e.weight + d')) := by
          split <;> simp only [Nat.max_def] <;> split <;> split <;> omega
        omega

/-- The plateau length of a path of the graph is at most its weight. -/
theorem get_plateau_length_le {g : Graph} (hc : g.Consistent) (c : Constants)
    {x : XBDVService} (hg : x.g = g) {path : Path} {d : Nat} (h : IsPath g path.nodes d)
    (hd : d < wrap32) : x.get_plateau_length c path ≤ d := by
  unfold XBDVService.get_plateau_length
  cases hn : path.nodes with
  | nil => rw [hn] at h; exact absurd rfl h.ne_nil
  | cons first rest =>
    rw [hn] at h
    have key : ∀ b : Bool,
        (XBDVService.plateau_loop c x first rest ⟨0, 0, b⟩).current_plateau_length ≤ d ∧
        (XBDVService.plateau_loop c x first rest ⟨0, 0, b⟩).max_plateau_length ≤ d := by
      intro b
      have := plateau_loop_le hc c hg rest first ⟨0, 0, b⟩ d h (by simp only; omega)
      simp only [Nat.zero_add] at this
      refine ⟨this.1, ?_⟩
      have h2 := this.2
      simp only [Nat.max_def] at h2
      split at h2 <;> omega
    have hstep : XBDVService.plateau_loop c x 0 (first :: rest) ⟨0, 0, false⟩ =
        XBDVService.plateau_loop c x first rest ⟨0, 0, true⟩ ∨
        XBDVService.plateau_loop c x 0 (first :: rest) ⟨0, 0, false⟩ =
        XBDVService.plateau_loop c x first rest ⟨0, 0, false⟩ := by
      by_cases hin : first ∈ x.search_space_fwd ∧ first ∈ x.search_space_bwd
      · left
        conv_lhs => unfold XBDVService.plateau_loop
        rw [if_pos hin]
        simp
      · right
        conv_lhs => unfold XBDVService.plateau_loop
        rw [if_neg hin]
        simp
    simp only
    rcases hstep with h1 | h1
    · rw [h1]
      have := key true
      split <;> omega
    · rw [h1]
      have := key false
      split <;> omega

/-- Without wrap and with the plateau no longer than the path, `sort_function` is the sort
key. -/
theorem sort_function_eq {g : Graph} (hc : g.Consistent) (c : Constants) {x : XBDVService}
    (hg : x.g = g) (optimal : Path) {q : Path} (h : IsPath g q.nodes q.length)
    (hlen : 3 * q.length < wrap32) :
    x.sort_function c optimal q = sort_key c x optimal q ∧
      sort_key c x optimal q ≤ 3 * q.length := by
  have hw : wrap32 = 4294967296 := rfl
  have h1 := get_sharing_eq hc c hg q h (by omega) optimal
  have h2 := sharing_le hc c optimal.nodes h
  have h3 := get_plateau_length_le hc c hg h (by omega)
  unfold XBDVService.sort_function sort_key
  rw [h1, hg]
  rw [hw] at hlen ⊢
  generalize sharing c g optimal.nodes q.nodes = sh at h2 ⊢
  generalize x.get_plateau_length c q = pl at h3 ⊢
  omega

/-! ### sort_paths -/

theorem swap_perm_aux (d a : Path) : ∀ (l : List Path) (j : Nat), j < l.length →
    ((l.getD j d) :: l.set j a).Perm (a :: l) := by
  intro l
  induction l with
  | nil => intro j hj; simp at hj
  | cons b l ih =>
    intro j hj
    cases j with
    | zero =>
      simp only [List.getD_cons_zero, List.set_cons_zero]
      exact List.Perm.swap _ _ _
    | succ k =>
      simp only [List.getD_cons_succ, List.set_cons_succ]
      simp only [List.length_cons, Nat.add_lt_add_iff_right] at hj
      have h1 : (l.getD k d :: b :: l.set k a).Perm (b :: l.getD k d :: l.set k a) :=
        List.Perm.swap _ _ _
      have h2 : (b :: l.getD k d :: l.set k a).Perm (b :: a :: l) :=
        List.Perm.cons b (ih k hj)
      exact (h1.trans h2).trans (List.Perm.swap _ _ _)

theorem swap_perm (d : Path) : ∀ (l : List Path) (i j : Nat), i < l.length → j < l.length →
    ((l.set i (l.getD j d)).set j (l.getD i d)).Perm l := by
  intro l
  induction l with
  | nil => intro i j hi; simp at hi
  | cons a l ih =>
    intro i j hi hj
    cases i with
    | zero =>
      cases j with
      | zero => simp
      | succ j =>
        simp only [List.getD_cons_succ, List.set_cons_zero, List.set_cons_succ,
          List.getD_cons_zero]
        simp only [List.length_cons, Nat.add_lt_add_iff_right] at hj
        exact swap_perm_aux d a l j hj
    | succ i =>
      simp only [List.length_cons, Nat.add_lt_add_iff_right] at hi
      cases j with
      | zero =>
        simp only [List.getD_cons_zero, List.set_cons_succ, List.set_cons_zero,
          List.getD_cons_succ]
        exact swap_perm_aux d a l i hi
      | succ j =>
        simp only [List.length_cons, Nat.add_lt_add_iff_right] at hj
        simp only [List.getD_cons_succ, List.set_cons_succ]
        exact List.Perm.cons a (ih i j hi hj)

theorem swap_getD (d : Path) (l : List Path) (i j k : Nat) (hi : i < l.length)
    (hj : j < l.length) :
    ((l.set i (l.getD j d)).set j (l.getD i d)).getD k d =
      if k = j then l.getD i d else if k = i then l.getD j d else l.getD k d := by
  simp only [List.getD_eq_getElem?_getD, List.getElem?_set, List.length_set]
  by_cases h1 : k = j
  · subst h1
    simp [hj]
  · rw [if_neg h1, if_neg (fun h => h1 h.symm)]
    by_cases h2 : k = i
    · subst h2
      simp [hi]
    · rw [if_neg h2, if_neg (fun h => h2 h.symm)]

/-- Invariant of the inner loop of `sort_paths` before index `j`, for a scan that started
at `i` with the pair `(0, B)`. -/
theorem min_index_loop_spec (key : Path → Nat) (paths : List Path) (B i : Nat) :
    ∀ (count j : Nat) (m : Nat × Nat), i ≤ j →
      (∀ k, j ≤ k → k < j + count → key (paths.getD k ⟨[], 0⟩) < B) →
      (∀ k, i ≤ k → k < j → m.2 ≤ key (paths.getD k ⟨[], 0⟩)) →
      (j = i ∧ m.2 = B ∨ (i ≤ m.1 ∧ m.1 < j ∧ m.2 = key (paths.getD m.1 ⟨[], 0⟩))) →
      (∀ k, i ≤ k → k < j + count →
        (XBDVService.min_index_loop key paths j count m).2 ≤ key (paths.getD k ⟨[], 0⟩)) ∧
      (j + count = i ∧ (XBDVService.min_index_loop key paths j count m).2 = B ∨
        (i ≤ (XBDVService.min_index_loop key paths j count m).1 ∧
          (XBDVService.min_index_loop key paths j count m).1 < j + count ∧
          (XBDVService.min_index_loop key paths j count m).2 =
            key (paths.getD (XBDVService.min_index_loop key paths j count m).1 ⟨[], 0⟩))) := by
  intro count
  induction count with
  | zero =>
    intro j m _ _ h1 h2
    unfold XBDVService.min_index_loop
    simp only [Nat.add_zero]
    exact ⟨h1, h2⟩
  | succ count ih =>
    intro j m hij hB h1 h2
    unfold XBDVService.min_index_loop
    have hkj := hB j (Nat.le_refl _) (by omega)
    have e1 : j + (count + 1) = j + 1 + count := by omega
    rw [e1]
    by_cases hlt : key (paths.getD j ⟨[], 0⟩) < m.2
    · rw [if_pos hlt]
      apply ih (j + 1) _ (by omega)
      · intro k hk1 hk2
        exact hB k (by omega) (by omega)
      · intro k hk1 hk2
        simp only
        by_cases hk : k = j
        · rw [hk]
        · have := h1 k hk1 (by omega)
          omega
      · right
        exact ⟨hij, Nat.lt_succ_self _, rfl⟩
    · rw [if_neg hlt]
      apply ih (j + 1) _ (by omega)
      · intro k hk1 hk2
        exact hB k (by omega) (by omega)
      · intro k hk1 hk2
        by_cases hk : k = j
        · rw [hk]; omega
        · exact h1 k hk1 (by omega)
      · right
        rcases h2 with ⟨_, h3⟩ | ⟨h3, h4, h5⟩
        · omega
        · exact ⟨h3, by omega, h5⟩

/-- The outer loop of `sort_paths`, when every key is below `inf_weight`: a permutation
whose keys do not decrease. -/
theorem sort_paths_loop_spec (c : Constants) (key : Path → Nat) :
    ∀ (count i : Nat) (paths : List Path), i + count = paths.length →
      (∀ q ∈ paths, key q < c.inf_weight) →
      (∀ a b, a < i → a < b → b < paths.length →
        key (paths.getD a ⟨[], 0⟩) ≤ key (paths.getD b ⟨[], 0⟩)) →
      (XBDVService.sort_paths_loop c key i count paths).Perm paths ∧
      ∀ a b, a < b → b < paths.length →
        key ((XBDVService.sort_paths_loop c key i count paths).getD a ⟨[], 0⟩) ≤
          key ((XBDVService.sort_paths_loop c key i count paths).getD b ⟨[], 0⟩) := by
  intro count
  induction count with
  | zero =>
    intro i paths hlen _ hsorted
    unfold XBDVService.sort_paths_loop
    refine ⟨List.Perm.refl _, ?_⟩
    intro a b hab hb
    exact hsorted a b (by omega) hab hb
  | succ count ih =>
    intro i paths hlen hB hsorted
    unfold XBDVService.sort_paths_loop
    simp only
    have hmem : ∀ k, k < paths.length → paths.getD k ⟨[], 0⟩ ∈ paths := by
      intro k hk
      rw [List.getD_eq_getElem _ _ hk]
      exact List.getElem_mem _
    obtain ⟨hmin, hidx⟩ := min_index_loop_spec key paths c.inf_weight i (count + 1) i
      (0, c.inf_weight) (Nat.le_refl _)
      (fun k _ hk2 => hB _ (hmem k (by omega)))
      (fun k hk1 hk2 => by omega)
      (Or.inl ⟨rfl, rfl⟩)
    generalize XBDVService.min_index_loop key paths i (count + 1) (0, c.inf_weight) = r
      at hmin hidx
    rcases hidx with ⟨h0, _⟩ | ⟨hi1, hi2, hi3⟩
    · omega
    · have hil : i < paths.length := by omega
      have hrl : r.1 < paths.length := by omega
      have hperm := swap_perm ⟨[], 0⟩ paths i r.1 hil hrl
      have hget := fun k => swap_getD ⟨[], 0⟩ paths i r.1 k hil hrl
      generalize hp' : (paths.set i (paths.getD r.1 ⟨[], 0⟩)).set r.1 (paths.getD i ⟨[], 0⟩)
        = paths' at hperm hget
      have hlen' : paths'.length = paths.length := hperm.length_eq
      obtain ⟨hp2, hs2⟩ := ih (i + 1) paths' (by omega)
        (fun q hq => hB q (hperm.mem_iff.1 hq))
        (by
          intro a b ha hab hb
          rw [hlen'] at hb
          rw [hget a, hget b]
          by_cases hai : a = i
          · -- position i holds the minimum
            subst hai
            have hbi : ¬ b = a := by omega
            by_cases har : a = r.1
            · rw [if_pos har]
              by_cases hbr : b = r.1
              · omega
              · rw [if_neg hbr, if_neg hbi]
                have h5 := hmin b (by omega) (by omega)
                rw [hi3, ← har] at h5
                exact h5
            · rw [if_neg har, if_pos rfl, ← hi3]
              by_cases hbr : b = r.1
              · rw [if_pos hbr]
                exact hmin a (Nat.le_refl _) (by omega)
              · rw [if_neg hbr, if_neg hbi]
                exact hmin b (by omega) (by omega)
          · have hai' : a < i := by omega
            have har : ¬ a = r.1 := by omega
            rw [if_neg har, if_neg hai]
            by_cases hbr : b = r.1
            · rw [if_pos hbr]
              exact hsorted a i hai' hai' hil
            · rw [if_neg hbr]
              by_cases hbi : b = i
              · rw [if_pos hbi]
                exact hsorted a r.1 hai' (by omega) hrl
              · rw [if_neg hbi]
                exact hsorted a b hai' hab hb)
      refine ⟨hp2.trans hperm, ?_⟩
      intro a b hab hb
      exact hs2 a b hab (by omega)

/-- When every key is below `inf_weight`, `sort_paths` returns a permutation of its input
in which the keys do not decrease. -/
theorem sort_paths_spec (c : Constants) (x : XBDVService) (optimal : Path)
    (paths : List Path)
    (hB : ∀ q ∈ paths, x.sort_function c optimal q < c.inf_weight) :
    (x.sort_paths c paths optimal).Perm paths ∧
      (x.sort_paths c paths optimal).Pairwise
        (fun a b => x.sort_function c optimal a ≤ x.sort_function c optimal b) := by
  unfold XBDVService.sort_paths
  obtain ⟨hp, hs⟩ := sort_paths_loop_spec c (x.sort_function c optimal) paths.length 0 paths
    (by omega) hB (fun a b ha _ _ => by omega)
  refine ⟨hp, ?_⟩
  generalize XBDVService.sort_paths_loop c (x.sort_function c optimal) 0 paths.length paths
    = r at hp hs
  rw [List.pairwise_iff_get]
  intro a b hab
  have hbl : b.1 < paths.length := by rw [← hp.length_eq]; exact b.2
  have := hs a.1 b.1 hab hbl
  rw [List.getD_eq_getElem _ _ a.2, List.getD_eq_getElem _ _ b.2] at this
  exact this

theorem min_index_loop_lt (key : Path → Nat) (paths : List Path) (n : Nat) :
    ∀ (count j : Nat) (m : Nat × Nat), m.1 < n → j + count ≤ n →
      (XBDVService.min_index_loop key paths j count m).1 < n := by
  intro count
  induction count with
  | zero =>
    intro j m hm _
    unfold XBDVService.min_index_loop
    exact hm
  | succ count ih =>
    intro j m hm hj
    unfold XBDVService.min_index_loop
    apply ih (j + 1) _ _ (by omega)
    split
    · simp only; omega
    · exact hm

/-- The outer loop of `sort_paths` returns a permutation of its input. -/
theorem sort_paths_loop_perm (c : Constants) (key : Path → Nat) :
    ∀ (count i : Nat) (paths : List Path), i + count = paths.length →
      (XBDVService.sort_paths_loop c key i count paths).Perm paths := by
  intro count
  induction count with
  | zero =>
    intro i paths _
    unfold XBDVService.sort_paths_loop
    exact List.Perm.refl _
  | succ count ih =>
    intro i paths hlen
    unfold XBDVService.sort_paths_loop
    simp only
    have hr := min_index_loop_lt key paths paths.length (count + 1) i (0, c.inf_weight)
      (by simp only; omega) (by omega)
    have hperm := swap_perm ⟨[], 0⟩ paths i
      (XBDVService.min_index_loop key paths i (count + 1) (0, c.inf_weight)).1 (by omega) hr
    exact (ih (i + 1) _ (by rw [hperm.length_eq]; omega)).trans hperm

theorem sort_paths_perm (c : Constants) (x : XBDVService) (optimal : Path)
    (paths : List Path) : (x.sort_paths c paths optimal).Perm paths := by
  unfold XBDVService.sort_paths
  exact sort_paths_loop_perm c _ paths.length 0 paths (by omega)

end PenAstar

namespace PenAstar

open DijkstraService

/-! ### run_bdv on a newly constructed service -/

theorem DijkstraService.with_g (ds : DijkstraService) (g : Graph) (h : ds.g = g) :
    ({ ds with g := g } : DijkstraService) = ds := by
  cases ds
  simp only at h
  subst h
  rfl

/-- A walk along the parent entries of a search stops at a settled node. -/
theorem walk_range_spec {c : Constants} {g : Graph} {src b : Nat} {s : DijkstraService}
    (h : Exact c g c.invalid_id src b [] s) (weight : Nat → Nat → Nat) (t : Nat) :
    ∀ (k x : Nat), x ∈ s.search_space → s.search_space.indexOf x ≤ k →
      ∀ (fuel d : Nat), k + 1 ≤ fuel →
        ∃ y dd, XBDVService.walk_range c s.parent_vec weight t fuel x d = Outcome.ok (y, dd) ∧
          y ∈ s.search_space := by
  intro k
  induction k with
  | zero =>
    intro x hx hk fuel d hf
    obtain ⟨f, rfl⟩ : ∃ f, fuel = f + 1 := ⟨fuel - 1, by omega⟩
    unfold XBDVService.walk_range
    by_cases hd : d < t
    · rw [if_pos hd]
      have hhas := (h.hS x hx).1
      have hxlt := (h.sound.hval x hhas).1
      rw [if_pos (by rw [h.sound.hplen]; exact hxlt)]
      by_cases hp : s.parent_vec.get x = c.invalid_id
      · rw [if_pos hp]; exact ⟨x, d, rfl, hx⟩
      · exfalso
        have hxs : x ≠ src := fun e => hp (by rw [e]; exact h.hsrc.2.2)
        obtain ⟨_, b2, _⟩ := h.hpar x hhas hxs
        have := b2 hx
        omega
    · rw [if_neg hd]; exact ⟨x, d, rfl, hx⟩
  | succ k ih =>
    intro x hx hk fuel d hf
    obtain ⟨f, rfl⟩ : ∃ f, fuel = f + 1 := ⟨fuel - 1, by omega⟩
    unfold XBDVService.walk_range
    by_cases hd : d < t
    · rw [if_pos hd]
      have hhas := (h.hS x hx).1
      have hxlt := (h.sound.hval x hhas).1
      rw [if_pos (by rw [h.sound.hplen]; exact hxlt)]
      by_cases hp : s.parent_vec.get x = c.invalid_id
      · rw [if_pos hp]; exact ⟨x, d, rfl, hx⟩
      · rw [if_neg hp]
        have hxs : x ≠ src := fun e => hp (by rw [e]; exact h.hsrc.2.2)
        obtain ⟨b1, b2, _⟩ := h.hpar x hhas hxs
        have := b2 hx
        exact ih (s.parent_vec.get x) b1 (by omega) f _ (by omega)
    · rw [if_neg hd]; exact ⟨x, d, rfl, hx⟩

/-- The first four statements of `run_bdv` on a new service: they terminate with the
Dijkstra path to the target, of shortest length when the distance is below `inf_weight`,
and leave the Dijkstra service clean at epoch 2. -/
theorem optimal_path_spec {c : Constants} {g : Graph} {s t : Nat} (hc : g.Consistent)
    (hW : g.WeightsBelow c) (h2 : 2 * c.inf_weight ≤ wrap32) (hid : g.size ≤ c.invalid_id)
    (hs : s < g.size) (ht : t < g.size) (hinf : 0 < c.inf_weight) (fuel : Nat)
    (hfuel : g.size + 1 ≤ fuel) :
    ∃ opt ds1, XBDVService.optimal_path c fuel (XBDVService.new c g) s t =
        Outcome.ok (opt, { XBDVService.new c g with dijkstra_service := ds1 }) ∧
      Clean c g ds1 ∧ ds1.blacklisted = c.invalid_id ∧ ds1.dist_vec.t = 2 ∧
      (∀ D, IsDist g s t D → D < c.inf_weight →
        opt.length = D ∧ IsPath g opt.nodes opt.length ∧ opt.nodes.head? = some s ∧
          opt.nodes.getLast? = some t) := by
  have hTV := hc.targetsValid
  have hnowrap := nowrap_of_weightsBelow hW h2 c.invalid_id s
  have hex0 := Exact.init_clean c.invalid_id s (clean_new c g) rfl hs hinf
  obtain ⟨b1, st, hrun, hex, hend⟩ := Exact.run_until_target_found hTV hnowrap t fuel 0 _
    hex0 rfl (by
      have : (set_source c (DijkstraService.new c g) s).search_space = [] := rfl
      rw [this]; simp only [List.length_nil]; omega)
  obtain ⟨b1', st', hrun', _, hteq, hst⟩ := Exact.run_until_target_found_any hTV hnowrap t
    fuel 0 _ hex0 (by omega)
  rw [hrun] at hrun'
  have hstst : st = st' := by
    injection hrun'
  subst hstst
  have hst0 : StampsLe (set_source c (DijkstraService.new c g) s) :=
    (stampsLe_set_source c _ s (clean_new c g).stampsLe).1
  have ht1 : st.dist_vec.t = 1 := by
    rw [hteq]
    rfl
  obtain ⟨hclean, hfin⟩ := hex.sound.finish (hst hst0) (by
    rw [ht1]; decide)
  have hopt : ∀ D, IsDist g s t D → D < c.inf_weight →
      t ∈ st.search_space ∧ st.dist_vec.get t = D := by
    intro D hD hlt
    have hnS : t ∈ st.search_space ∧ st.dist_vec.get t ≤ D := by
      rcases hex.walk_cases ((walk_avoiding_iff hTV hid _ _ _).2 hD.1) with
        hn1 | ⟨p, hp, hpk⟩ | hge
      · exact hn1
      · rcases hend with hin | hq
        · refine ⟨hin, ?_⟩
          exact (hex.hS t hin).2.2 _ ((walk_avoiding_iff hTV hid _ _ _).2 hD.1)
        · rw [hq] at hp
          simp at hp
      · omega
    refine ⟨hnS.1, ?_⟩
    have hw := (hex.sound.hval t (hex.hS t hnS.1).1).2.2
    have hw2 := (walk_avoiding_iff hTV hid _ _ _).1 hw
    have hge := hD.2 _ hw2
    omega
  unfold XBDVService.optimal_path
  dsimp only
  rw [DijkstraService.with_g (XBDVService.new c g).dijkstra_service (XBDVService.new c g).g rfl]
  have e1 : (XBDVService.new c g).dijkstra_service = DijkstraService.new c g := rfl
  rw [e1, hrun]
  simp only
  by_cases hin : t ∈ st.search_space
  · obtain ⟨p, hp1, hp2, hp3, hp4⟩ := hex.get_path hs hid t hin fuel hfuel
    rw [hp1]
    simp only
    refine ⟨⟨p, st.dist_vec.get t⟩, st.finish c, rfl, hclean, rfl, by rw [hfin, ht1], ?_⟩
    intro D hD hlt
    exact ⟨(hopt D hD hlt).2, hp2, hp3, hp4⟩
  · have hh : st.dist_vec.has t = false := by
      cases hh : st.dist_vec.has t with
      | true =>
        exfalso
        rcases hex.hcov t hh with h1 | h1
        · exact hin h1
        · rcases hend with h3 | h3
          · exact hin h3
          · obtain ⟨p, hp, _⟩ := (MinIDQueue.contains_id_iff _ _).1 h1
            rw [h3] at hp
            simp at hp
      | false => rfl
    have hg : st.get_dist t = c.inf_weight := by
      unfold get_dist
      rw [TimestampVector.get_of_not_has _ _ hh, hex.sound.hdef]
    have hgp : DijkstraService.get_path c fuel st t = Outcome.ok ⟨[], c.inf_weight⟩ := by
      unfold DijkstraService.get_path
      rw [if_pos (by rw [hex.sound.hlen]; exact ht), if_pos hg, hg]
    rw [hgp]
    simp only
    refine ⟨⟨[], c.inf_weight⟩, st.finish c, rfl, hclean, rfl, by rw [hfin, ht1], ?_⟩
    intro D hD hlt
    exact absurd (hopt D hD hlt).1 hin

/-- The T-test terminates for a node settled by both searches, changes nothing but the
Dijkstra service and leaves that clean, one epoch later. -/
theorem t_test_spec {c : Constants} {g : Graph} {s t : Nat} (hc : g.Consistent)
    (hW : g.WeightsBelow c) (h2 : 2 * c.inf_weight ≤ wrap32)
    (hinf : 0 < c.inf_weight) {x : XBDVService} (hg : x.g = g) (hF : DirF c g s x)
    (hB : DirB c g t x) (hcl : Clean c g x.dijkstra_service)
    (hbl : x.dijkstra_service.blacklisted = c.invalid_id)
    (hep : x.dijkstra_service.dist_vec.t + 1 < wrap32) (via : Nat)
    (hvf : via ∈ x.search_space_fwd) (hvb : via ∈ x.search_space_bwd) (tr fuel : Nat)
    (hfuel : g.size + 1 ≤ fuel) :
    ∃ passed ds1, XBDVService.test_local_optimality_approximation c fuel x via tr =
        Outcome.ok (passed, { x with dijkstra_service := ds1 }) ∧
      Clean c g ds1 ∧ ds1.blacklisted = c.invalid_id ∧
      ds1.dist_vec.t = x.dijkstra_service.dist_vec.t + 1 := by
  have hrs := Graph.reverse_size hc
  have hTV := hc.targetsValid
  obtain ⟨sf, bf, hexf, _, hpf, hsf, _⟩ := hF
  obtain ⟨sb, bb, hexb, _, hpb, hsb, _⟩ := hB
  rw [← hsf] at hvf
  rw [← hsb] at hvb
  have hcf := hexf.card_le
  have hcb := hexb.card_le
  rw [hrs] at hcb
  have hif : sf.search_space.indexOf via < sf.search_space.length := List.indexOf_lt_length.2 hvf
  have hib : sb.search_space.indexOf via < sb.search_space.length := List.indexOf_lt_length.2 hvb
  obtain ⟨xn, d1, hw1, hxn⟩ := walk_range_spec hexf
    (fun new_x cur => x.g.get_edge_weight c new_x cur) tr (sf.search_space.indexOf via) via hvf
    (Nat.le_refl _) fuel 0 (by omega)
  obtain ⟨yn, d2, hw2, hyn⟩ := walk_range_spec hexb
    (fun new_y cur => x.g.get_edge_weight c cur new_y) tr (sb.search_space.indexOf via) via hvb
    (Nat.le_refl _) fuel 0 (by omega)
  have hxlt : xn < g.size := (hexf.sound.hval xn (hexf.hS xn hxn).1).1
  have hylt : yn < g.size := by
    have := (hexb.sound.hval yn (hexb.hS yn hyn).1).1
    rw [hrs] at this
    exact this
  have hex0 := Exact.init_clean c.invalid_id xn hcl hbl hxlt hinf
  obtain ⟨b1, st, hrun, hex, hteq, hst⟩ := Exact.run_until_target_found_any hTV
    (nowrap_of_weightsBelow hW h2 c.invalid_id xn) yn fuel 0 _ hex0 (by omega)
  have hst0 := (stampsLe_set_source c _ xn hcl.stampsLe).1
  have ht1 : st.dist_vec.t = x.dijkstra_service.dist_vec.t := by
    rw [hteq]
    rfl
  obtain ⟨hclean, hfin⟩ := hex.sound.finish (hst hst0) (by rw [ht1]; exact hep)
  unfold XBDVService.test_local_optimality_approximation
  rw [← hpf, hw1]
  simp only
  rw [← hpb, hw2]
  simp only
  rw [if_pos ⟨by rw [hcl.hlen]; exact hxlt, by rw [hcl.hlen]; exact hylt⟩]
  rw [DijkstraService.with_g x.dijkstra_service x.g (hcl.hg.trans hg.symm), hrun]
  simp only
  exact ⟨_, st.finish c, rfl, hclean, rfl, by rw [hfin, ht1]⟩

/-- The loop of `run_bdv` over the search-space cut terminates, changes nothing but the
Dijkstra service, and every path it adds to `alternative_paths` is a candidate. -/
theorem select_loop_spec (p : XBDVParams) (run_t_test : Bool) {c : Constants} {g : Graph}
    {s t : Nat} (hc : g.Consistent) (hW : g.WeightsBelow c) (h2 : 2 * c.inf_weight ≤ wrap32)
    (hid : g.size ≤ c.invalid_id) (hs : s < g.size) (ht : t < g.size)
    (hinf : 0 < c.inf_weight) (optimal : Path) (fuel : Nat) (hfuel : g.size + 2 ≤ fuel) :
    ∀ (cut : List Nat) (considered alternative : List Path) (x : XBDVService),
      x.g = g → DirF c g s x → DirB c g t x → Clean c g x.dijkstra_service →
      x.dijkstra_service.blacklisted = c.invalid_id →
      x.dijkstra_service.dist_vec.t + cut.length < wrap32 →
      (∀ v ∈ cut, v ∈ x.search_space_fwd ∧ v ∈ x.search_space_bwd ∧
        p.below_stretch ((x.dist_vec_fwd.get v + x.dist_vec_bwd.get v) % wrap32)
          optimal.length = true) →
      (∀ q ∈ alternative, Candidate p c g s t optimal q) →
      ∃ considered1 alternative1 ds1,
        XBDVService.select_loop p run_t_test c fuel optimal cut considered alternative x =
          Outcome.ok (considered1, alternative1, { x with dijkstra_service := ds1 }) ∧
        ∀ q ∈ alternative1, Candidate p c g s t optimal q := by
  intro cut
  induction cut with
  | nil =>
    intro considered alternative x _ _ _ _ _ _ _ halt
    exact ⟨considered, alternative, x.dijkstra_service, rfl, halt⟩
  | cons via rest ih =>
    intro considered alternative x hg hF hB hcl hbl hep hcut halt
    obtain ⟨hvf, hvb, hstr⟩ := hcut via (List.mem_cons_self _ _)
    have hrest : ∀ v ∈ rest, v ∈ x.search_space_fwd ∧ v ∈ x.search_space_bwd ∧
        p.below_stretch ((x.dist_vec_fwd.get v + x.dist_vec_bwd.get v) % wrap32)
          optimal.length = true := fun v hv => hcut v (List.mem_cons_of_mem _ hv)
    rw [List.length_cons] at hep
    obtain ⟨nodes, hip, hpath, hhead, hlast, hlen⟩ :=
      implicit_path_spec hc h2 hid hs ht hF hB via hvf hvb fuel hfuel
    unfold XBDVService.select_loop
    rw [hip]
    simp only
    by_cases hcons : (⟨nodes, x.dist_vec_fwd.get via + x.dist_vec_bwd.get via⟩ : Path)
        ∈ considered
    · rw [if_neg (by simpa using hcons)]
      exact ih considered alternative x hg hF hB hcl hbl (by omega) hrest halt
    · rw [if_pos hcons]
      by_cases hsh : XBDVService.test_limited_sharing p c x
          ⟨nodes, x.dist_vec_fwd.get via + x.dist_vec_bwd.get via⟩ optimal = true
      · rw [if_neg (by simpa using hsh)]
        have hcand : Candidate p c g s t optimal
            ⟨nodes, x.dist_vec_fwd.get via + x.dist_vec_bwd.get via⟩ := by
          refine ⟨hpath, hhead, hlast, hlen, ?_, ?_⟩
          · rw [Nat.mod_eq_of_lt (by omega)] at hstr
            exact hstr
          · unfold XBDVService.test_limited_sharing at hsh
            rw [get_sharing_eq hc c hg ⟨nodes, _⟩ hpath (by omega) optimal] at hsh
            exact hsh
        have halt' : ∀ q ∈ alternative ++
            [(⟨nodes, x.dist_vec_fwd.get via + x.dist_vec_bwd.get via⟩ : Path)],
            Candidate p c g s t optimal q := by
          intro q hq
          rw [List.mem_append, List.mem_singleton] at hq
          rcases hq with hq | hq
          · exact halt q hq
          · rw [hq]; exact hcand
        cases run_t_test with
        | false =>
          rw [if_neg (by simp)]
          exact ih _ _ x hg hF hB hcl hbl (by omega) hrest halt'
        | true =>
          rw [if_pos rfl]
          obtain ⟨passed, ds1, htt, hcl1, hbl1, hep1⟩ := t_test_spec hc hW h2 hinf hg hF hB
            hcl hbl (by omega) via hvf hvb (p.t_range optimal.length) fuel (by omega)
          rw [htt]
          simp only
          cases passed with
          | false =>
            rw [if_pos (by simp)]
            obtain ⟨c1, a1, ds2, hr, ha⟩ := ih (considered ++ [⟨nodes, _⟩]) alternative
              { x with dijkstra_service := ds1 } hg hF hB hcl1 hbl1
              (by simp only; rw [hep1]; omega) hrest halt
            exact ⟨c1, a1, ds2, hr, ha⟩
          | true =>
            rw [if_neg (by simp)]
            obtain ⟨c1, a1, ds2, hr, ha⟩ := ih (considered ++ [⟨nodes, _⟩])
              (alternative ++ [⟨nodes, _⟩])
              { x with dijkstra_service := ds1 } hg hF hB hcl1 hbl1
              (by simp only; rw [hep1]; omega) hrest halt'
            exact ⟨c1, a1, ds2, hr, ha⟩
      · rw [if_pos (by simpa using hsh)]
        exact ih _ _ x hg hF hB hcl hbl (by omega) hrest halt

/-- The part of `run_bdv` before the sort, on a new service: it terminates, and every path
of `alternative_paths` is a candidate with respect to the Dijkstra path. -/
theorem run_bdv_candidates_spec (p : XBDVParams) (run_t_test : Bool) {c : Constants}
    {g : Graph} {s t : Nat} (hc : g.Consistent) (hW : g.WeightsBelow c)
    (h2 : 2 * c.inf_weight ≤ wrap32) (hid : g.size ≤ c.invalid_id)
    (hsz : g.size + 3 < wrap32) (hs : s < g.size) (ht : t < g.size)
    (hinf : 0 < c.inf_weight) (hit : ∀ l, (p.iteration l).Perm l) (fuel : Nat)
    (hfuel : 2 * g.size + 3 ≤ fuel) :
    ∃ opt x1 cands x3,
      XBDVService.optimal_path c fuel (XBDVService.new c g) s t = Outcome.ok (opt, x1) ∧
      XBDVService.run_bdv_candidates p run_t_test c fuel (XBDVService.new c g) s t =
        Outcome.ok (opt, cands, x3) ∧
      x3.g = g ∧ (∀ q ∈ cands, Candidate p c g s t opt q) ∧
      (∀ D, IsDist g s t D → D < c.inf_weight →
        opt.length = D ∧ IsPath g opt.nodes opt.length ∧ opt.nodes.head? = some s ∧
          opt.nodes.getLast? = some t) := by
  obtain ⟨opt, ds1, hopt, hcl, hbl, hep, hD⟩ :=
    optimal_path_spec hc hW h2 hid hs ht hinf fuel (by omega)
  obtain ⟨hF0, hB0, hm1, hm2⟩ := bidirectional_init_spec hc hs ht hinf ds1
  obtain ⟨x2, hloop, hg2, hF2, hB2, hds2⟩ := bidirectional_loop_spec hc hW h2 hid
    (p.max_dist opt.length) fuel _ rfl hF0 hB0 (by omega)
  have hds2' : x2.dijkstra_service = ds1 := hds2
  have hcutmem : ∀ v ∈ XBDVService.search_space_cut p x2 opt.length,
      v ∈ x2.search_space_fwd ∧ v ∈ x2.search_space_bwd ∧
        p.below_stretch ((x2.dist_vec_fwd.get v + x2.dist_vec_bwd.get v) % wrap32)
          opt.length = true := by
    intro v hv
    unfold XBDVService.search_space_cut at hv
    rw [List.mem_filter, Bool.and_eq_true, decide_eq_true_eq] at hv
    exact ⟨(hit _).mem_iff.1 hv.1, hv.2.1, hv.2.2⟩
  have hcutlen : (XBDVService.search_space_cut p x2 opt.length).length ≤ g.size := by
    unfold XBDVService.search_space_cut
    refine Nat.le_trans (List.length_filter_le _ _) ?_
    rw [(hit _).length_eq]
    obtain ⟨sf, _, hexf, _, _, hsf, _⟩ := hF2
    rw [← hsf]
    exact hexf.card_le
  obtain ⟨c1, a1, ds3, hsel, hcand⟩ := select_loop_spec p run_t_test hc hW h2 hid hs ht hinf
    opt fuel (by omega) (XBDVService.search_space_cut p x2 opt.length) [] [] x2 hg2 hF2 hB2
    (by rw [hds2']; exact hcl) (by rw [hds2']; exact hbl)
    (by rw [hds2', hep]; omega) hcutmem (fun q hq => by simp at hq)
  refine ⟨opt, _, a1, { x2 with dijkstra_service := ds3 }, hopt, ?_, hg2, hcand, hD⟩
  unfold XBDVService.run_bdv_candidates
  rw [hopt]
  simp only
  unfold XBDVService.run_dijkstra_bidirectional
  rw [hloop]
  simp only
  rw [hsel]

end PenAstar

namespace PenAstar

open DijkstraService

/-! ### The example graphs of the X-BDV claims -/

theorem ladder_consistent : ladder.Consistent :=
  (Graph.run_ops_consistent 10
    [GraphOp.add_edge 0 ⟨1, 1⟩, GraphOp.add_edge 1 ⟨2, 1⟩, GraphOp.add_edge 2 ⟨3, 1⟩,
      GraphOp.add_edge 3 ⟨4, 1⟩, GraphOp.add_edge 4 ⟨9, 1⟩, GraphOp.add_edge 0 ⟨5, 1⟩,
      GraphOp.add_edge 5 ⟨6, 1⟩, GraphOp.add_edge 6 ⟨7, 1⟩, GraphOp.add_edge 7 ⟨8, 1⟩,
      GraphOp.add_edge 8 ⟨9, 1⟩]
    (Graph.new 10) (Graph.consistent_new 10) (Graph.size_new 10)
    (by
      intro op hop
      simp only [List.mem_cons, List.mem_singleton, List.not_mem_nil, or_false] at hop
      rcases hop with h | h | h | h | h | h | h | h | h | h <;> subst h <;>
        simp [GraphOp.valid])).1

theorem ladder_weight_le {u : Nat} {e : Edge} (he : e ∈ ladder.get_out_arcs u) :
    e.weight ≤ 1 := by
  have hu : u < 10 := (ladder_consistent.arc_lt _ u e he).1
  have key : ∀ u < 10, ∀ e ∈ ladder.get_out_arcs u, e.weight ≤ 1 := by decide
  exact key u hu e he

theorem three_routes_consistent : three_routes.Consistent :=
  (Graph.run_ops_consistent 9
    [GraphOp.add_edge 0 ⟨1, 5⟩, GraphOp.add_edge 1 ⟨8, 5⟩, GraphOp.add_edge 0 ⟨2, 5⟩,
      GraphOp.add_edge 2 ⟨3, 3⟩, GraphOp.add_edge 3 ⟨4, 2⟩, GraphOp.add_edge 4 ⟨8, 1⟩,
      GraphOp.add_edge 0 ⟨5, 1⟩, GraphOp.add_edge 5 ⟨6, 5⟩, GraphOp.add_edge 6 ⟨7, 5⟩,
      GraphOp.add_edge 7 ⟨8, 1⟩]
    (Graph.new 9) (Graph.consistent_new 9) (Graph.size_new 9)
    (by
      intro op hop
      simp only [List.mem_cons, List.mem_singleton, List.not_mem_nil, or_false] at hop
      rcases hop with h | h | h | h | h | h | h | h | h | h <;> subst h <;>
        simp [GraphOp.valid])).1

theorem three_routes_weight_le {u : Nat} {e : Edge} (he : e ∈ three_routes.get_out_arcs u) :
    e.weight ≤ 5 := by
  have hu : u < 9 := (three_routes_consistent.arc_lt _ u e he).1
  have key : ∀ u < 9, ∀ e ∈ three_routes.get_out_arcs u, e.weight ≤ 5 := by decide
  exact key u hu e he

theorem three_routes_dist_le {D : Nat} (h : IsDist three_routes 0 8 D) : D ≤ 10 := by
  have h0 : Walk three_routes.arc 0 0 0 := Walk.nil
  have h1 : Walk three_routes.arc 0 1 (0 + 5) :=
    Walk.snoc (⟨1, 5⟩ : Edge) h0 (by unfold Graph.arc; decide)
  have h2 : Walk three_routes.arc 0 8 (0 + 5 + 5) :=
    Walk.snoc (⟨8, 5⟩ : Edge) h1 (by unfold Graph.arc; decide)
  exact h.2 _ h2

/-! ### C21 -/

/-- C21 (counterexample): on the graph `long_shared` the optimal path from 0 to 3 is 0→1→3
of length `L = 20000007`, and `run_bdv(0, 3, false)` with the default `gamma = 0.8` returns
the path 0→1→2→3, whose sharing with the optimal path is 16000006: this is not below
`0.8 * L = 16000005.6`, and not below the product of `L` with the `float` nearest to 0.8
(`13421773 / 2^24`) either. The test is evaluated in single precision, where `L` converts to
20000008 and the product rounds to 16000007. -/
theorem C21_sharing_not_below_gamma_L :
    xbdv_optimal stdConstants 30 long_shared 0 3 = Outcome.ok ⟨[0, 1, 3], 20000007⟩ ∧
    xbdv_query defaultXBDV false stdConstants 30 long_shared 0 3 =
      Outcome.ok [⟨[0, 1, 2, 3], 20000008⟩] ∧
    sharing stdConstants long_shared [0, 1, 3] [0, 1, 2, 3] = 16000006 ∧
    ¬ (5 * 16000006 < 4 * 20000007) ∧
    (F32.round 8 10).val = 13421773 / 16777216 ∧
    ¬ ((16000006 : ℚ) < 13421773 / 16777216 * 20000007) ∧
    (F32.of_nat 20000007).val = 20000008 ∧
    (F32.mul (F32.round 8 10) (F32.of_nat 20000007)).val = 16000007 ∧
    defaultXBDV.limited_sharing 16000006 20000007 = true := by
  have e1 : (F32.of_nat 20000007).val = 20000008 := by
    have hn : (F32.of_nat 20000007).num = 335544454217728 := by decide!
    have hd : (F32.of_nat 20000007).den = 16777216 := by decide!
    unfold F32.val
    rw [hn, hd]
    norm_num
  have e2 : (F32.mul (F32.round 8 10) (F32.of_nat 20000007)).val = 16000007 := by
    have hn : (F32.mul (F32.round 8 10) (F32.of_nat 20000007)).num
        = 604463174259837628053219966976 := by
      decide!
    have hd : (F32.mul (F32.round 8 10) (F32.of_nat 20000007)).den
        = 37778931862957161709568 := by
      decide!
    unfold F32.val
    rw [hn, hd]
    norm_num
  refine ⟨by decide!, by decide!, by decide!, by decide, gamma_val.2, by norm_num, e1, e2,
    by decide!⟩

/-- C21 (amended): let `g` be a consistent graph with weights below `inf_weight`, `s` and `t`
nodes, `alpha`, `eps` and `gamma` any non-negative `float` arguments and the iteration order
of the set any order that visits every element once. `run_bdv(s, t, run_t_test, ...)` on a
new service terminates, and every path `q` it returns passed the single-precision comparison
`float(sharing(q, P₀)) < gamma * float(L)`, so that
`(1 - 2^-24) * sharing(q, P₀) < (1 + 2^-24)^2 * gamma * L`: the sharing is below `gamma * L`
up to a relative rounding error of less than `2^-22`. Here `P₀` is the path the initial
Dijkstra search returns (the shortest path from `s` to `t` when the distance is below
`inf_weight`), `L` its length, and `sharing(q, P₀)` the sum over `i ≥ 1` of the weight of the
arc `q[i-1] → q[i]` for the `i` whose node `q[i]` lies on `P₀`; `q` is a path of `g` from `s`
to `t`. -/
theorem C21_sharing_bound (alpha eps gamma : F32) (it : List Nat → List Nat)
    (run_t_test : Bool) (c : Constants) (g : Graph)
    (s t : Nat) (hg : 0 < gamma.den) (hc : g.Consistent) (hW : g.WeightsBelow c)
    (hinf : 0 < c.inf_weight)
    (h2 : 2 * c.inf_weight ≤ wrap32) (hid : g.size ≤ c.invalid_id)
    (hsz : g.size + 3 < wrap32) (hs : s < g.size) (ht : t < g.size)
    (hit : ∀ l, (it l).Perm l) (fuel : Nat) (hfuel : 2 * g.size + 3 ≤ fuel) :
    ∃ opt x1 res,
      XBDVService.optimal_path c fuel (XBDVService.new c g) s t = Outcome.ok (opt, x1) ∧
      xbdv_query (float_xbdv alpha eps gamma it) run_t_test c fuel g s t = Outcome.ok res ∧
      (∀ D, IsDist g s t D → D < c.inf_weight →
        opt.length = D ∧ IsPath g opt.nodes opt.length ∧ opt.nodes.head? = some s ∧
          opt.nodes.getLast? = some t) ∧
      ∀ q ∈ res,
        F32.lt (F32.of_nat (sharing c g opt.nodes q.nodes))
          (F32.mul gamma (F32.of_nat opt.length)) = true ∧
        (1 - 1 / 16777216) * (sharing c g opt.nodes q.nodes : ℚ) <
          (1 + 1 / 16777216) * ((1 + 1 / 16777216) * (opt.length : ℚ) * gamma.val) ∧
        IsPath g q.nodes q.length ∧ q.nodes.head? = some s ∧ q.nodes.getLast? = some t := by
  obtain ⟨opt, x1, cands, x3, hopt, hrun, _, hcand, hD⟩ :=
    run_bdv_candidates_spec (float_xbdv alpha eps gamma it) run_t_test hc hW h2 hid hsz hs ht
      hinf hit fuel hfuel
  refine ⟨opt, x1, x3.sort_paths c cands opt, hopt, ?_, hD, ?_⟩
  · unfold xbdv_query XBDVService.run_bdv
    rw [hrun]
  · intro q hq
    have hq' := (sort_paths_perm c x3 opt cands).mem_iff.1 hq
    have h := hcand q hq'
    exact ⟨h.hshare, limited_sharing_bound it alpha eps gamma hg _ _ h.hshare, h.hpath,
      h.hhead, h.hlast⟩

/-- Witness for C21: the ladder of scenario S3 from node 0 to node 9 with the default
arguments and the T-test. -/
theorem C21_sharing_bound_witness :
    ∃ opt x1 res,
      XBDVService.optimal_path stdConstants 23 (XBDVService.new stdConstants ladder) 0 9
        = Outcome.ok (opt, x1) ∧
      xbdv_query defaultXBDV true stdConstants 23 ladder 0 9 = Outcome.ok res ∧
      (∀ D, IsDist ladder 0 9 D → D < stdConstants.inf_weight →
        opt.length = D ∧ IsPath ladder opt.nodes opt.length ∧ opt.nodes.head? = some 0 ∧
          opt.nodes.getLast? = some 9) ∧
      ∀ q ∈ res,
        F32.lt (F32.of_nat (sharing stdConstants ladder opt.nodes q.nodes))
          (F32.mul (F32.round 8 10) (F32.of_nat opt.length)) = true ∧
        (1 - 1 / 16777216) * (sharing stdConstants ladder opt.nodes q.nodes : ℚ) <
          (1 + 1 / 16777216) * ((1 + 1 / 16777216) * (opt.length : ℚ) * (F32.round 8 10).val) ∧
        IsPath ladder q.nodes q.length ∧ q.nodes.head? = some 0 ∧ q.nodes.getLast? = some 9 :=
  C21_sharing_bound (F32.round 25 100) (F32.round 25 100) (F32.round 8 10) (fun s => s) true
    stdConstants ladder 0 9 (by decide!) ladder_consistent
    (fun _ _ he => Nat.lt_of_le_of_lt (ladder_weight_le he) (by decide))
    (by decide) (by decide) (by decide) (by decide) (by decide) (by decide)
    (fun l => List.Perm.refl l) 23 (by decide)

/-! ### C22 -/

/-- C22 (counterexample): on the ladder of scenario S3 the initial Dijkstra search of
`run_bdv(0, 9)` returns the path 0→1→2→3→4→9 of length 5, and `run_bdv(0, 9)` with the
defaults `alpha = 0.25`, `eps = 0.25`, `gamma = 0.8` returns one path only, 0→5→6→7→8→9:
the path 0→1→2→3→4→9 is not returned. Its sharing with itself is 5, and `5 < 0.8 * 5` is
false. -/
theorem C22_ladder_optimal_not_returned :
    xbdv_optimal stdConstants 30 ladder 0 9 = Outcome.ok ⟨[0, 1, 2, 3, 4, 9], 5⟩ ∧
    (∃ res, xbdv_query defaultXBDV true stdConstants 30 ladder 0 9 = Outcome.ok res ∧
      res.length = 1 ∧ (⟨[0, 1, 2, 3, 4, 9], 5⟩ : Path) ∉ res) ∧
    sharing stdConstants ladder [0, 1, 2, 3, 4, 9] [0, 1, 2, 3, 4, 9] = 5 ∧
    defaultXBDV.limited_sharing 5 5 = false := by
  refine ⟨by decide!, ⟨[⟨[0, 5, 6, 7, 8, 9], 5⟩], by decide!, rfl, by decide⟩, by decide,
    by decide⟩

/-- C22 (amended): on the ladder of scenario S3, `run_bdv(0, 9)` with the defaults
`alpha = 0.25`, `eps = 0.25`, `gamma = 0.8` returns exactly one path, 0→5→6→7→8→9 of
length 5, the one of the two paths that the initial Dijkstra search did not return; this
holds with and without the T-test and for the set visited in insertion order or in reverse
insertion order. The returned path shares with the Dijkstra path 0→1→2→3→4→9 its last arc
only (sharing 1, and `1 < 0.8 * 5`). -/
theorem C22_ladder_alternative :
    xbdv_query defaultXBDV true stdConstants 30 ladder 0 9
      = Outcome.ok [⟨[0, 5, 6, 7, 8, 9], 5⟩] ∧
    xbdv_query defaultXBDV false stdConstants 30 ladder 0 9
      = Outcome.ok [⟨[0, 5, 6, 7, 8, 9], 5⟩] ∧
    xbdv_query defaultXBDV_rev true stdConstants 30 ladder 0 9
      = Outcome.ok [⟨[0, 5, 6, 7, 8, 9], 5⟩] ∧
    xbdv_query defaultXBDV_rev false stdConstants 30 ladder 0 9
      = Outcome.ok [⟨[0, 5, 6, 7, 8, 9], 5⟩] ∧
    xbdv_optimal stdConstants 30 ladder 0 9 = Outcome.ok ⟨[0, 1, 2, 3, 4, 9], 5⟩ ∧
    sharing stdConstants ladder [0, 1, 2, 3, 4, 9] [0, 5, 6, 7, 8, 9] = 1 ∧
    defaultXBDV.limited_sharing 1 5 = true := by
  refine ⟨by decide!, by decide!, by decide!, by decide!, by decide!, by decide, by decide⟩

/-! ### C23 -/

/-- C23 (counterexample): on the graph `three_routes`, `run_bdv(0, 8)` with the defaults
and the T-test returns the paths 0→2→3→4→8 and 0→5→6→7→8 in this order. Their keys with the
plateau of the specification (the longest run of interior nodes in both search spaces:
3 + 2 = 5 and 5 + 5 = 10) are `2 * 11 + 1 - 5 = 18` and `2 * 12 + 1 - 10 = 15`, which
decrease; `sort_function` computes 12 and 13, because `get_plateau_length` also counts the
arcs at the two end nodes. On the graph `heavy_routes`, `run_bdv(0, 4)` without the T-test
returns 0→2→4 before 0→3→4, for the set visited in insertion order and in reverse insertion
order, although `sort_function` is 2200000000 for the first and 1450000000 for the second:
the first key is not below `inf_weight = 2147483647`, the start value of `min_key`, so that
the last pass of `sort_paths` swaps the last entry with entry 0. -/
theorem C23_order_violated :
    xbdv_keys defaultXBDV true stdConstants 30 three_routes 0 8 =
      Outcome.ok [(⟨[0, 2, 3, 4, 8], 11⟩, 18, 12), (⟨[0, 5, 6, 7, 8], 12⟩, 15, 13)] ∧
    xbdv_query defaultXBDV true stdConstants 30 three_routes 0 8 =
      Outcome.ok [⟨[0, 2, 3, 4, 8], 11⟩, ⟨[0, 5, 6, 7, 8], 12⟩] ∧
    xbdv_keys defaultXBDV false stdConstants 30 heavy_routes 0 4 =
      Outcome.ok [(⟨[0, 2, 4], 1300000000⟩, 3500000000, 2200000000),
        (⟨[0, 3, 4], 1350000000⟩, 2800000000, 1450000000)] ∧
    xbdv_keys defaultXBDV_rev false stdConstants 30 heavy_routes 0 4 =
      Outcome.ok [(⟨[0, 2, 4], 1300000000⟩, 3500000000, 2200000000),
        (⟨[0, 3, 4], 1350000000⟩, 2800000000, 1450000000)] ∧
    xbdv_query defaultXBDV false stdConstants 30 heavy_routes 0 4 =
      Outcome.ok [⟨[0, 2, 4], 1300000000⟩, ⟨[0, 3, 4], 1350000000⟩] := by
  refine ⟨by decide!, by decide!, by decide!, by decide!, by decide!⟩

/-- C23 (amended): let `g` be a consistent graph with weights below `inf_weight`, `s` and `t`
nodes with `6 * d(s, t) < inf_weight` when `t` is reachable, and the float comparisons any
parameters with `d < (1 + eps) * l` only for `d ≤ 2 * l`. `run_bdv(s, t, ...)` on a new
service terminates; the vector it returns is a permutation of the vector `alternative_paths`
of the candidates that passed the tests, and it is ordered by non-decreasing key
`2 * length(p) + sharing(p, P₀) - plateau(p)`, where `plateau(p)` is the value of
`get_plateau_length`: the longest run of consecutive nodes of `p`, the end nodes included,
that belong to both search spaces. `sort_function` computes this key without wrap-around. -/
theorem C23_sorted_by_key (p : XBDVParams) (run_t_test : Bool) (c : Constants) (g : Graph)
    (s t : Nat) (hc : g.Consistent) (hW : g.WeightsBelow c) (hinf : 0 < c.inf_weight)
    (h2 : 2 * c.inf_weight ≤ wrap32) (hid : g.size ≤ c.invalid_id)
    (hsz : g.size + 3 < wrap32) (hs : s < g.size) (ht : t < g.size)
    (hit : ∀ l, (p.iteration l).Perm l)
    (hstr : ∀ d l, p.below_stretch d l = true → d ≤ 2 * l)
    (hsafe : ∀ D, IsDist g s t D → 6 * D < c.inf_weight)
    (fuel : Nat) (hfuel : 2 * g.size + 3 ≤ fuel) :
    ∃ opt cands x3 res,
      XBDVService.run_bdv_candidates p run_t_test c fuel (XBDVService.new c g) s t =
        Outcome.ok (opt, cands, x3) ∧
      xbdv_query p run_t_test c fuel g s t = Outcome.ok res ∧
      res.Perm cands ∧
      res.Pairwise (fun a b => sort_key c x3 opt a ≤ sort_key c x3 opt b) ∧
      ∀ q ∈ res, x3.sort_function c opt q = sort_key c x3 opt q := by
  obtain ⟨opt, x1, cands, x3, _, hrun, hg3, hcand, hD⟩ :=
    run_bdv_candidates_spec p run_t_test hc hW h2 hid hsz hs ht hinf hit fuel hfuel
  have hkey : ∀ q ∈ cands, x3.sort_function c opt q = sort_key c x3 opt q ∧
      x3.sort_function c opt q < c.inf_weight := by
    intro q hq
    have h := hcand q hq
    have hr : Reachable g s t := ⟨_, h.hpath.to_walk s t h.hhead h.hlast⟩
    obtain ⟨D, hDist⟩ := exists_isDist hr
    have h6 := hsafe D hDist
    have hoD := (hD D hDist (by omega)).1
    have hle := hstr _ _ h.hstretch
    rw [hoD] at hle
    obtain ⟨e1, e2⟩ := sort_function_eq hc c hg3 opt h.hpath (by omega)
    exact ⟨e1, by rw [e1]; omega⟩
  obtain ⟨hperm, hsorted⟩ := sort_paths_spec c x3 opt cands (fun q hq => (hkey q hq).2)
  refine ⟨opt, cands, x3, x3.sort_paths c cands opt, hrun, ?_, hperm, ?_, ?_⟩
  · unfold xbdv_query XBDVService.run_bdv
    rw [hrun]
  · refine hsorted.imp_of_mem ?_
    intro a b ha hb hab
    rw [(hkey a (hperm.mem_iff.1 ha)).1, (hkey b (hperm.mem_iff.1 hb)).1] at hab
    exact hab
  · intro q hq
    exact (hkey q (hperm.mem_iff.1 hq)).1

/-- Witness for C23: the graph `three_routes` from node 0 to node 8 with the default
parameters and the T-test. -/
theorem C23_sorted_by_key_witness :
    ∃ opt cands x3 res,
      XBDVService.run_bdv_candidates defaultXBDV true stdConstants 21
        (XBDVService.new stdConstants three_routes) 0 8 = Outcome.ok (opt, cands, x3) ∧
      xbdv_query defaultXBDV true stdConstants 21 three_routes 0 8 = Outcome.ok res ∧
      res.Perm cands ∧
      res.Pairwise (fun a b =>
        sort_key stdConstants x3 opt a ≤ sort_key stdConstants x3 opt b) ∧
      ∀ q ∈ res, x3.sort_function stdConstants opt q = sort_key stdConstants x3 opt q :=
  C23_sorted_by_key defaultXBDV true stdConstants three_routes 0 8 three_routes_consistent
    (fun _ _ he => Nat.lt_of_le_of_lt (three_routes_weight_le he) (by decide))
    (by decide) (by decide) (by decide) (by decide) (by decide) (by decide)
    (fun l => List.Perm.refl l)
    (fun d l h => below_stretch_le _ _ _ d l h)
    (fun D h => by
      have := three_routes_dist_le h
      have h6 : stdConstants.inf_weight = 2147483647 := rfl
      omega)
    21 (by decide)

end PenAstar

namespace PenAstar

open DijkstraService

/-- C33 (failing input): on the graph `long_detour` (arcs 0→1 (100), 1→2 (1), 0→2 (1)),
contracted in the order 0, 1, 2, the query `run(0, 2)` evaluates the averaged heuristic
`heur_f1` at node 1 while the arc 0→1 is relaxed in the first pass of the forward thread.
The potentials are `pot_f1(1) = 1`, `pot_r1(2) = 1` and `pot_r1(1) = 100`, so the
expression is `(1 + 1 - 100) / 2`, which is `-49` over the integers; the unsigned 32-bit
computation wraps and yields `2147483599`, and node 1 enters the forward queue with the key
`100 + 2147483599`. -/
theorem C33_averaged_heuristic_wraps :
    forward_heuristic stdConstants 8 long_detour [0, 1, 2] 0 2 1
      = Outcome.ok (1, 1, 100, 2147483599) ∧
    averaged_int 1 1 100 = -49 ∧
    BidirectionalAStarService.avg32 1 1 100 = 2147483599 ∧
    first_forward_pass stdConstants 8 long_detour [0, 1, 2] 0 2
      = Outcome.ok [⟨1, 2147483699⟩, ⟨2, 1⟩] := by
  refine ⟨by decide!, by decide, by decide, by decide!⟩

/-- C39 (failing input): on a `BucketQueue` of size 1, after `push({0, 5})` and `pop()`,
which returns the pair `{0, 5}` and leaves the bucket map empty, `contains_id(0)` is still
true: `pop` does not reset the entry of the popped id in the index table. After
`push({0, 5})` and `erase_id(0)` it is false. -/
theorem C39_contains_id_after_pop :
    (∃ q1 q2, (BucketQueue.new stdConstants 1).push ⟨0, 5⟩ = Outcome.ok q1 ∧
      q1.pop = Outcome.ok (⟨0, 5⟩, q2) ∧ q2.empty = true ∧
      q2.contains_id stdConstants 0 = true) ∧
    (∃ q1 q2, (BucketQueue.new stdConstants 1).push ⟨0, 5⟩ = Outcome.ok q1 ∧
      q1.erase_id stdConstants 0 = Outcome.ok q2 ∧ q2.empty = true ∧
      q2.contains_id stdConstants 0 = false) := by
  refine ⟨⟨⟨[(5, [0])], [0], [5]⟩, ⟨[], [0], [5]⟩, by decide, by decide, by decide, by decide⟩,
    ⟨⟨[(5, [0])], [0], [5]⟩, ⟨[], [4294967295], [5]⟩, by decide, by decide, by decide,
      by decide⟩⟩

theorem get_random_st_vectors_succ (generator : Nat → Nat) (n graph_size : Nat) :
    get_random_st_vectors generator (n + 1) graph_size =
      ((get_random_st_vectors generator n graph_size).1 ++
          [uniform_int_distribution 0 graph_size (generator (2 * n))],
        (get_random_st_vectors generator n graph_size).2 ++
          [uniform_int_distribution 0 graph_size (generator (2 * n + 1))]) := by
  unfold get_random_st_vectors
  rw [List.range_succ, List.foldl_append]
  rfl

theorem get_random_st_vectors_spec (generator : Nat → Nat) (graph_size : Nat) :
    ∀ n, (get_random_st_vectors generator n graph_size).1.length = n ∧
      (get_random_st_vectors generator n graph_size).2.length = n ∧
      (∀ x ∈ (get_random_st_vectors generator n graph_size).1, x ≤ graph_size) ∧
      (∀ x ∈ (get_random_st_vectors generator n graph_size).2, x ≤ graph_size) := by
  have hle : ∀ raw, uniform_int_distribution 0 graph_size raw ≤ graph_size := by
    intro raw
    unfold uniform_int_distribution
    have := Nat.mod_lt raw (show 0 < graph_size + 1 by omega)
    simp only [Nat.sub_zero, Nat.zero_add]
    omega
  intro n
  induction n with
  | zero => simp [get_random_st_vectors]
  | succ n ih =>
    rw [get_random_st_vectors_succ]
    obtain ⟨h1, h2, h3, h4⟩ := ih
    refine ⟨by simp [h1], by simp [h2], ?_, ?_⟩
    · intro x hx
      rcases List.mem_append.1 hx with h | h
      · exact h3 x h
      · rw [List.mem_singleton] at h
        rw [h]
        exact hle _
    · intro x hx
      rcases List.mem_append.1 hx with h | h
      · exact h4 x h
      · rw [List.mem_singleton] at h
        rw [h]
        exact hle _

/-- C40 (failing input): `get_random_st_vectors(1, 1)` with an engine whose outputs are 1
returns the source vector `[1]` and the target vector `[1]`, and 1 is not a node id of a
graph of size 1. The distribution is constructed with the bounds `(0, graph_size)` and its
range is closed, so every draw can be `graph_size` itself: for every `n` and `graph_size`
there is an engine for which all `n` sources and targets are `graph_size`. What holds for
every engine is that both vectors have length `n` and every entry is at most
`graph_size`. -/
theorem C40_random_vectors_reach_graph_size :
    get_random_st_vectors (fun _ => 1) 1 1 = ([1], [1]) ∧ ¬ (1 < 1) ∧
    (∀ n graph_size,
      (∀ x ∈ (get_random_st_vectors (fun _ => graph_size) n graph_size).1, x = graph_size) ∧
      (∀ x ∈ (get_random_st_vectors (fun _ => graph_size) n graph_size).2, x = graph_size)) ∧
    (∀ generator n graph_size,
      (get_random_st_vectors generator n graph_size).1.length = n ∧
      (get_random_st_vectors generator n graph_size).2.length = n ∧
      (∀ x ∈ (get_random_st_vectors generator n graph_size).1, x ≤ graph_size) ∧
      (∀ x ∈ (get_random_st_vectors generator n graph_size).2, x ≤ graph_size)) := by
  refine ⟨by decide, by decide, ?_, fun generator n graph_size =>
    get_random_st_vectors_spec generator graph_size n⟩
  intro n graph_size
  have hd : uniform_int_distribution 0 graph_size graph_size = graph_size := by
    unfold uniform_int_distribution
    simp only [Nat.sub_zero, Nat.zero_add]
    exact Nat.mod_eq_of_lt (Nat.lt_succ_self _)
  induction n with
  | zero => simp [get_random_st_vectors]
  | succ n ih =>
    rw [get_random_st_vectors_succ]
    simp only [hd]
    constructor
    · intro x hx
      rcases List.mem_append.1 hx with h | h
      · exact ih.1 x h
      · simpa using h
    · intro x hx
      rcases List.mem_append.1 hx with h | h
      · exact ih.2 x h
      · simpa using h

end PenAstar

namespace PenAstar

open DijkstraService

/-- C35 (failing input): on the triangle of scenario S1, after `set_source(0)`,
`run_until_done()` and `finish()`, the parent vector still holds the entry 0 for node 1
(while `get_dist(1)` is `inf_weight`): `finish()` advances the epoch of the distance vector
and does not advance the epoch of the parent vector. -/
theorem C35_parent_entry_survives :
    parent_after_finish stdConstants 4 triangle 0 1
      = Outcome.ok (true, 0, stdConstants.inf_weight) := by
  decide

/-- What `finish()` does: it advances the epoch of the distance vector and leaves the
parent vector as it is; it empties the queue and the search-space log and resets the
blacklist to `invalid_id` and `max_dist` to `inf_weight`. When no stamp of the distance
vector is newer than its epoch, the epoch counter does not wrap and the default of the
distance vector is `inf_weight`, then afterwards `get_dist(n)` is `inf_weight` for every
`n` and `get_path(n)` is the empty path of length `inf_weight` for every node `n`. -/
theorem finish_resets_distances (c : Constants) (s : DijkstraService)
    (hst : StampsLe s) (ht : s.dist_vec.t + 1 < wrap32)
    (hdef : s.dist_vec.default_value = c.inf_weight) :
    (s.finish c).dist_vec = s.dist_vec.step_time ∧
    (s.finish c).parent_vec = s.parent_vec ∧
    (s.finish c).queue.empty = true ∧
    (s.finish c).search_space = [] ∧
    (s.finish c).blacklisted = c.invalid_id ∧
    (s.finish c).max_dist = c.inf_weight ∧
    (∀ n, (s.finish c).get_dist n = c.inf_weight) ∧
    (∀ fuel n, n < s.dist_vec.vec.length →
      (s.finish c).get_path c fuel n = Outcome.ok ⟨[], c.inf_weight⟩) := by
  obtain ⟨h1, h2, h3⟩ := TimestampVector.stale_step_time s.dist_vec hst ht
  have hd : ∀ n, (s.finish c).get_dist n = c.inf_weight := by
    intro n
    show s.dist_vec.step_time.get n = c.inf_weight
    rw [TimestampVector.get_of_stale _ (by rw [h1]; omega) (by rw [h1]; exact h3), h2, hdef]
  refine ⟨rfl, rfl, rfl, rfl, rfl, rfl, hd, ?_⟩
  intro fuel n hn
  unfold DijkstraService.get_path
  have hlen : (s.finish c).dist_vec.vec.length = s.dist_vec.vec.length := rfl
  rw [hlen, if_pos hn, if_pos (hd n), hd n]

end PenAstar

namespace PenAstar

open Graph

/-- Adding a list of arcs with `add_edge`, none of which meets a stored or listed arc with
the same end nodes and another weight: the stored arcs afterwards are the stored arcs
before and the listed arcs. -/
theorem add_edges_spec (n : Nat) :
    ∀ (scs : List (Nat × Edge)) (g0 : Graph), g0.Consistent → g0.size = n →
      (∀ sc ∈ scs, sc.1 < n ∧ sc.2.target < n) →
      (∀ sc ∈ scs, ∀ w, first_weight (g0.get_out_arcs sc.1) sc.2.target = some w →
        w = sc.2.weight) →
      (∀ x ∈ scs, ∀ y ∈ scs, x.1 = y.1 → x.2.target = y.2.target → x.2.weight = y.2.weight) →
      (scs.foldl (fun r sc => r.add_edge sc.1 sc.2) g0).Consistent ∧
      (scs.foldl (fun r sc => r.add_edge sc.1 sc.2) g0).size = n ∧
      ∀ a b w,
        first_weight ((scs.foldl (fun r sc => r.add_edge sc.1 sc.2) g0).get_out_arcs a) b
            = some w ↔
          first_weight (g0.get_out_arcs a) b = some w ∨ (a, (⟨b, w⟩ : Edge)) ∈ scs := by
  intro scs
  induction scs with
  | nil =>
    intro g0 hc hn _ _ _
    exact ⟨hc, hn, fun a b w => by simp⟩
  | cons sc rest ih =>
    intro g0 hc hn hr hw hf
    have hsc := hr sc (List.mem_cons_self _ _)
    obtain ⟨hc1, hw1⟩ := add_edge_spec g0 hc sc.1 sc.2 (by rw [hn]; exact hsc.1)
      (by rw [hn]; exact hsc.2)
    have hm : merged_weight (first_weight (g0.get_out_arcs sc.1) sc.2.target) sc.2.weight
        = sc.2.weight := by
      cases h0 : first_weight (g0.get_out_arcs sc.1) sc.2.target with
      | none => rfl
      | some w0 =>
        have := hw sc (List.mem_cons_self _ _) w0 h0
        simp only [merged_weight]
        omega
    rw [hm] at hw1
    obtain ⟨i1, i2, i3⟩ := ih (g0.add_edge sc.1 sc.2) hc1
      (by rw [size_add_edge]; exact hn)
      (fun x hx => hr x (List.mem_cons_of_mem _ hx))
      (by
        intro x hx w hxw
        rw [hw1] at hxw
        by_cases hab : x.1 = sc.1 ∧ x.2.target = sc.2.target
        · rw [if_pos hab] at hxw
          cases hxw
          exact hf sc (List.mem_cons_self _ _) x (List.mem_cons_of_mem _ hx) hab.1.symm
            hab.2.symm
        · rw [if_neg hab] at hxw
          exact hw x (List.mem_cons_of_mem _ hx) w hxw)
      (fun x hx y hy => hf x (List.mem_cons_of_mem _ hx) y (List.mem_cons_of_mem _ hy))
    refine ⟨i1, i2, ?_⟩
    intro a b w
    rw [List.foldl_cons, i3, hw1, List.mem_cons]
    by_cases hab : a = sc.1 ∧ b = sc.2.target
    · rw [if_pos hab]
      constructor
      · rintro (h | h)
        · cases h
          right; left
          rw [hab.1, hab.2]
        · exact Or.inr (Or.inr h)
      · rintro (h | h | h)
        · left
          rw [hab.1, hab.2] at h
          rw [hw sc (List.mem_cons_self _ _) w h]
        · left
          rw [← h]
        · exact Or.inr h
    · rw [if_neg hab]
      constructor
      · rintro (h | h)
        · exact Or.inl h
        · exact Or.inr (Or.inr h)
      · rintro (h | h | h)
        · exact Or.inl h
        · exfalso
          apply hab
          rw [← h]
          exact ⟨rfl, rfl⟩
        · exact Or.inr h

/-- The arcs that `join_graphs` adds, node by node. -/
theorem join_graphs_eq_foldl (a b : Graph) :
    join_graphs a b =
      ((List.range a.size).flatMap (fun n =>
        (a.get_out_arcs n).map (fun e => (n, e)) ++
          (b.get_out_arcs n).map (fun e => (e.target, (⟨n, e.weight⟩ : Edge))))).foldl
        (fun r sc => r.add_edge sc.1 sc.2) (Graph.new a.size) := by
  unfold join_graphs
  generalize Graph.new a.size = init
  induction (List.range a.size) generalizing init with
  | nil => rfl
  | cons n ns ih =>
    simp only [List.foldl_cons, List.flatMap_cons, List.foldl_append]
    rw [ih, List.foldl_map, List.foldl_map]

theorem weight_unique {g : Graph} (hc : g.Consistent) {a : Nat} {e e' : Edge}
    (he : e ∈ g.get_out_arcs a) (he' : e' ∈ g.get_out_arcs a) (ht : e'.target = e.target) :
    e' = e := by
  rw [mem_iff_first_weight hc] at he he'
  rw [ht, he] at he'
  cases e; cases e'
  simp only at ht he'
  simp only [Option.some.injEq] at he'
  simp [ht, he']

theorem join_split_spec (g : Graph) (hc : g.Consistent) (ranking : List Nat) :
    (join_graphs (split_graph g ranking).1 (split_graph g ranking).2).Consistent ∧
    (join_graphs (split_graph g ranking).1 (split_graph g ranking).2).size = g.size ∧
    ∀ u e, e ∈ (join_graphs (split_graph g ranking).1 (split_graph g ranking).2).get_out_arcs u ↔
      e ∈ g.get_out_arcs u := by
  obtain ⟨hF, hFn, hB, hBn, hdom, hFa, hBa⟩ := split_graph_spec g hc ranking
  generalize (split_graph g ranking).1 = F at *
  generalize (split_graph g ranking).2 = B at *
  have hmem : ∀ a e, (a, e) ∈ (List.range F.size).flatMap (fun n =>
      (F.get_out_arcs n).map (fun e => (n, e)) ++
        (B.get_out_arcs n).map (fun e => (e.target, (⟨n, e.weight⟩ : Edge)))) ↔
      e ∈ g.get_out_arcs a := by
    intro a e
    simp only [List.mem_flatMap, List.mem_range, List.mem_append, List.mem_map, Prod.mk.injEq]
    constructor
    · rintro ⟨m, _, ⟨e1, he1, h1, h2⟩ | ⟨e1, he1, h1, h2⟩⟩
      · rw [← h1, ← h2]
        exact (hFa m e1 he1).1
      · rw [← h1, ← h2]
        exact (hBa m e1 he1).1
    · intro he
      have hd := hdom a e he
      by_cases hr : rank ranking a < rank ranking e.target
      · rw [if_pos hr] at hd
        obtain ⟨e', he', ht, _⟩ := hd
        have := weight_unique hc he (hFa a e' he').1 ht
        rw [this] at he'
        exact ⟨a, (hF.arc_lt F a e he').1, Or.inl ⟨e, he', rfl, rfl⟩⟩
      · rw [if_neg hr] at hd
        obtain ⟨e', he', ht, _⟩ := hd
        have h1 := (hBa e.target e' he').1
        rw [ht] at h1
        have h2 := weight_unique hc he h1 rfl
        refine ⟨e.target, (hB.arc_lt B _ e' he').1.trans_eq (hBn.trans hFn.symm),
          Or.inr ⟨e', he', ht, ?_⟩⟩
        rw [← h2]
  rw [join_graphs_eq_foldl]
  obtain ⟨j1, j2, j3⟩ := add_edges_spec F.size _ (Graph.new F.size) (consistent_new _)
    (size_new _)
    (by
      intro sc hsc
      have h1 := (hmem sc.1 sc.2).1 hsc
      have h2 := hc.arc_lt g _ _ h1
      rw [hFn]
      exact h2)
    (by
      intro sc _ w hw
      exfalso
      have h1 : (⟨sc.2.target, w⟩ : Edge) ∈ (Graph.new F.size).get_out_arcs sc.1 :=
        ((consistent_new F.size).mem_out_iff _ _ _ _).2 hw
      exact not_mem_new _ _ _ h1)
    (by
      intro x hx y hy h1 h2
      have hx1 := (hmem x.1 x.2).1 hx
      have hy1 := (hmem y.1 y.2).1 hy
      rw [← h1] at hy1
      rw [weight_unique hc hx1 hy1 h2.symm])
  refine ⟨j1, j2.trans hFn, ?_⟩
  intro u e
  rw [mem_iff_first_weight j1, j3]
  constructor
  · rintro (h | h)
    · exfalso
      have h1 : (⟨e.target, e.weight⟩ : Edge) ∈ (Graph.new F.size).get_out_arcs u :=
        ((consistent_new F.size).mem_out_iff _ _ _ _).2 h
      exact not_mem_new _ _ _ h1
    · exact (hmem u _).1 h
  · intro h
    right
    exact (hmem u _).2 h

/-- C38: for every consistent graph `g` and every `ranking`,
`join_graphs(split_graph(g, ranking).first, split_graph(g, ranking).second)` is a consistent
graph of the size of `g` whose weighted arcs are exactly those of `g`: an arc `u → v` with
weight `w` is stored in the joined graph if and only if it is stored in `g`, and each
adjacency list of the joined graph is a reordering of the list of `g`. The ranking need not
be a permutation and `g` may have loops. -/
theorem C38_split_then_join (g : Graph) (hc : g.Consistent) (ranking : List Nat) :
    (join_graphs (split_graph g ranking).1 (split_graph g ranking).2).Consistent ∧
    (join_graphs (split_graph g ranking).1 (split_graph g ranking).2).size = g.size ∧
    (∀ u v w, (⟨v, w⟩ : Edge) ∈ (join_graphs (split_graph g ranking).1
        (split_graph g ranking).2).get_out_arcs u ↔ (⟨v, w⟩ : Edge) ∈ g.get_out_arcs u) ∧
    (∀ u, ((join_graphs (split_graph g ranking).1 (split_graph g ranking).2).get_out_arcs
        u).Perm (g.get_out_arcs u)) := by
  obtain ⟨h1, h2, h3⟩ := join_split_spec g hc ranking
  refine ⟨h1, h2, fun u v w => h3 u _, ?_⟩
  intro u
  rw [List.perm_ext_iff_of_nodup (List.Nodup.of_map _ (h1.2.2.1 u))
    (List.Nodup.of_map _ (hc.2.2.1 u))]
  intro e
  exact h3 u e

/-- Witness for C38: the triangle of scenario S1 with the ranking 0, 1, 2; the arc 1→2 of
weight 4 is stored in the joined graph. -/
theorem C38_split_then_join_witness :
    triangle.Consistent ∧
    (⟨2, 4⟩ : Edge) ∈ (join_graphs (split_graph triangle [0, 1, 2]).1
      (split_graph triangle [0, 1, 2]).2).get_out_arcs 1 :=
  ⟨triangle_consistent,
    ((C38_split_then_join triangle triangle_consistent [0, 1, 2]).2.2.1 1 2 4).2 (by decide)⟩

end PenAstar

namespace PenAstar

open CHPotentialService

theorem unmarked_le_of_has {n : Nat} {v v' : TimestampVector}
    (h : ∀ z, v.has z = true → v'.has z = true) : unmarked n v' ≤ unmarked n v := by
  unfold unmarked
  apply Finset.card_le_card
  intro z hz
  simp only [Finset.mem_filter, Finset.mem_range] at hz ⊢
  refine ⟨hz.1, ?_⟩
  cases hh : v.has z with
  | false => rfl
  | true => rw [h z hh] at hz; exact absurd hz.2 (by simp)

theorem unmarked_lt_of_has {n : Nat} {v v' : TimestampVector}
    (h : ∀ z, v.has z = true → v'.has z = true) {x : Nat} (hx : x < n)
    (h0 : v.has x = false) (h1 : v'.has x = true) : unmarked n v' < unmarked n v := by
  unfold unmarked
  apply Finset.card_lt_card
  rw [Finset.ssubset_iff_of_subset]
  · refine ⟨x, ?_, ?_⟩
    · simp only [Finset.mem_filter, Finset.mem_range]
      exact ⟨hx, h0⟩
    · simp only [Finset.mem_filter, Finset.mem_range, not_and]
      intro _
      rw [h1]
      simp
  · intro z hz
    simp only [Finset.mem_filter, Finset.mem_range] at hz ⊢
    refine ⟨hz.1, ?_⟩
    cases hh : v.has z with
    | false => rfl
    | true => rw [h z hh] at hz; exact absurd hz.2 (by simp)

theorem unmarked_le (n : Nat) (v : TimestampVector) : unmarked n v ≤ n := by
  unfold unmarked
  calc ((Finset.range n).filter (fun z => v.has z = false)).card
      ≤ (Finset.range n).card := Finset.card_filter_le _ _
    _ = n := Finset.card_range n

theorem PotKeep.same_pot (s : CHPotentialService) : PotKeep s s :=
  ⟨rfl, rfl, rfl, rfl, rfl, fun _ h => ⟨h, rfl⟩⟩

theorem PotKeep.then_pot {s s1 s2 : CHPotentialService} (h1 : PotKeep s s1)
    (h2 : PotKeep s1 s2) : PotKeep s s2 :=
  ⟨h2.hF.trans h1.hF, h2.hB.trans h1.hB, h2.hS.trans h1.hS, h2.hT.trans h1.hT,
    h2.hlen.trans h1.hlen, fun z hz =>
      ⟨(h2.hmemo z (h1.hmemo z hz).1).1,
        (h2.hmemo z (h1.hmemo z hz).1).2.trans (h1.hmemo z hz).2⟩⟩

/-- Writing the memo entry of a node that has one keeps every entry of another node. -/
theorem PotKeep.set_memo (s : CHPotentialService) (node v : Nat) (z : Nat) (hz : z ≠ node) :
    ({ s with potentials := s.potentials.set node v } : CHPotentialService).potentials.has z
        = s.potentials.has z ∧
    ({ s with potentials := s.potentials.set node v } : CHPotentialService).potentials.get z
        = s.potentials.get z :=
  ⟨TimestampVector.has_set_ne _ _ _ _ (fun h => hz h.symm),
    TimestampVector.get_set_ne _ _ _ _ (fun h => hz h.symm)⟩

/-- The loop of `get_potential` over the up-arcs of `node` terminates when the recursive
calls do, and changes no memo entry of another node that was present. -/
theorem get_potential_arcs_total {n : Nat} (K : Nat) {F : Graph}
    (rec : CHPotentialService → Nat → Outcome (Nat × CHPotentialService))
    (node : Nat) (hnode : node < n)
    (IH : ∀ s y, y < n → s.potentials.vec.length = n → s.forward_graph = F →
      unmarked n s.potentials < K → ∃ p s', rec s y = Outcome.ok (p, s') ∧ PotKeep s s')
    (es : List Edge) (hes : ∀ e ∈ es, e.target < n) :
    ∀ s, s.potentials.vec.length = n → s.forward_graph = F →
      s.potentials.has node = true → unmarked n s.potentials < K →
      ∃ s', get_potential_arcs rec node es s = Outcome.ok s' ∧
        s'.forward_graph = s.forward_graph ∧ s'.backward_graph = s.backward_graph ∧
        s'.backward_search = s.backward_search ∧ s'.target = s.target ∧
        s'.potentials.vec.length = s.potentials.vec.length ∧
        s'.potentials.has node = true ∧
        ∀ z, z ≠ node → s.potentials.has z = true →
          s'.potentials.has z = true ∧ s'.potentials.get z = s.potentials.get z := by
  induction es with
  | nil =>
    intro s _ _ hh _
    exact ⟨s, rfl, rfl, rfl, rfl, rfl, rfl, hh, fun z _ hz => ⟨hz, rfl⟩⟩
  | cons e es ih =>
    intro s hlen hF hh hK
    obtain ⟨p, s1, hrec, hk⟩ := IH s e.target (hes e (List.mem_cons_self _ _)) hlen hF hK
    unfold get_potential_arcs
    rw [hrec]
    simp only
    have hh1 := (hk.hmemo node hh).1
    have hlen1 : s1.potentials.vec.length = n := hk.hlen.trans hlen
    have hhas2 : ∀ z, s1.potentials.has z = true →
        (s1.potentials.set node
          (min (s1.potentials.get node) ((p + e.weight) % wrap32))).has z = true := by
      intro z hz
      by_cases hzn : z = node
      · rw [hzn]
        exact TimestampVector.has_set_eq _ _ _ (by rw [hlen1]; exact hnode)
      · rw [TimestampVector.has_set_ne _ _ _ _ (fun h => hzn h.symm)]
        exact hz
    obtain ⟨s', hrun, a1, a2, a3, a4, a5, a6, a7⟩ := ih
      (fun e' he' => hes e' (List.mem_cons_of_mem _ he'))
      { s1 with potentials :=
          s1.potentials.set node (min (s1.potentials.get node) ((p + e.weight) % wrap32)) }
      (by
        show (s1.potentials.set node _).vec.length = n
        rw [TimestampVector.length_set]
        exact hlen1)
      (hk.hF.trans hF)
      (hhas2 node hh1)
      (by
        have h1 : unmarked n (s1.potentials.set node
            (min (s1.potentials.get node) ((p + e.weight) % wrap32))) ≤
            unmarked n s1.potentials := unmarked_le_of_has hhas2
        have h2 : unmarked n s1.potentials ≤ unmarked n s.potentials :=
          unmarked_le_of_has (fun z hz => (hk.hmemo z hz).1)
        exact Nat.lt_of_le_of_lt (h1.trans h2) hK)
    refine ⟨s', hrun, a1.trans hk.hF, a2.trans hk.hB, a3.trans hk.hS, a4.trans hk.hT, ?_, a6,
      ?_⟩
    · rw [a5]
      show (s1.potentials.set node _).vec.length = _
      rw [TimestampVector.length_set]
      exact hk.hlen
    · intro z hzn hz
      obtain ⟨m1, m2⟩ := hk.hmemo z hz
      obtain ⟨q1, q2⟩ := PotKeep.set_memo s1 node
        (min (s1.potentials.get node) ((p + e.weight) % wrap32)) z hzn
      obtain ⟨r1, r2⟩ := a7 z hzn (by rw [q1]; exact m1)
      exact ⟨r1, r2.trans (q2.trans m2)⟩

/-- `get_potential` terminates with more units of fuel than there are nodes without a memo
entry; afterwards the node has a memo entry, which is the value returned, and every memo
entry that was present is unchanged. -/
theorem get_potential_total {n : Nat} {F : Graph}
    (hFt : ∀ u e, e ∈ F.get_out_arcs u → e.target < n) :
    ∀ fuel s x, x < n → s.potentials.vec.length = n → s.forward_graph = F →
      unmarked n s.potentials < fuel →
      ∃ p s', get_potential fuel s x = Outcome.ok (p, s') ∧ PotKeep s s' ∧
        s'.potentials.has x = true ∧ s'.potentials.get x = p := by
  intro fuel
  induction fuel with
  | zero =>
    intro s x _ _ _ h
    omega
  | succ fuel ih =>
    intro s x hx hlen hF hK
    unfold get_potential
    by_cases hhas : s.potentials.has x = true
    · rw [if_neg (by simp [hhas])]
      exact ⟨_, s, rfl, PotKeep.same_pot s, hhas, rfl⟩
    · rw [if_pos hhas]
      have hhas0 : s.potentials.has x = false := by simpa using hhas
      have hxl : x < s.potentials.vec.length := by rw [hlen]; exact hx
      have hmono : ∀ z, s.potentials.has z = true →
          (s.potentials.set x (s.backward_search.get_dist x)).has z = true := by
        intro z hz
        by_cases hzx : z = x
        · rw [hzx] at hz
          rw [hhas0] at hz
          cases hz
        · rw [TimestampVector.has_set_ne _ _ _ _ (fun h => hzx h.symm)]
          exact hz
      have hlt : unmarked n (s.potentials.set x (s.backward_search.get_dist x)) <
          unmarked n s.potentials :=
        unmarked_lt_of_has hmono hx hhas0 (TimestampVector.has_set_eq _ _ _ hxl)
      obtain ⟨s', hrun, a1, a2, a3, a4, a5, a6, a7⟩ :=
        get_potential_arcs_total fuel (get_potential fuel) x hx
          (fun s1 y hy hl hf hk => by
            obtain ⟨p, s2, h1, h2, _, _⟩ := ih s1 y hy hl hf hk
            exact ⟨p, s2, h1, h2⟩)
          (s.forward_graph.get_out_arcs x)
          (fun e he => hFt x e (by rw [← hF]; exact he))
          { s with potentials := s.potentials.set x (s.backward_search.get_dist x) }
          (by
            show (s.potentials.set x _).vec.length = n
            rw [TimestampVector.length_set]
            exact hlen)
          hF (TimestampVector.has_set_eq _ _ _ hxl)
          (show unmarked n (s.potentials.set x (s.backward_search.get_dist x)) < fuel by omega)
      rw [hrun]
      refine ⟨_, s', rfl, ⟨a1, a2, a3, a4, ?_, ?_⟩, a6, rfl⟩
      · rw [a5]
        show (s.potentials.set x _).vec.length = _
        rw [TimestampVector.length_set]
      · intro z hz
        have hzx : z ≠ x := by
          intro h
          rw [h, hhas0] at hz
          cases hz
        obtain ⟨q1, q2⟩ := PotKeep.set_memo s x (s.backward_search.get_dist x) z hzx
        obtain ⟨r1, r2⟩ := a7 z hzx (by rw [q1]; exact hz)
        exact ⟨r1, r2.trans q2⟩

/-- C37: let every arc of the forward and of the backward graph of the hierarchy lead to a
node below `n`, the size of the memo vectors. In every state of a `CHPotentialService` or a
`ReverseCHPotentialService` on the hierarchy (whatever the target and the calls made so
far), the recursive `get_potential(x)` terminates for every node `x`, with a recursion
depth of at most `n`; afterwards `x` has a memo entry, which is the value returned, every
memo entry that was present before the call is unchanged, and a later call
`get_potential(x)` returns the memoised value without changing the service. The recursion
marks a node before it descends, so this holds for every ranking. -/
theorem C37_potential_memoised (ch : ContractionHierarchy) (n : Nat)
    (hF : ∀ u e, e ∈ ch.forward_graph.get_out_arcs u → e.target < n)
    (hB : ∀ u e, e ∈ ch.backward_graph.get_out_arcs u → e.target < n) :
    (∀ (s : CHPotentialService) (fuel x : Nat), s.forward_graph = ch.forward_graph →
      s.potentials.vec.length = n → n < fuel → x < n →
      ∃ p s', s.get_potential fuel x = Outcome.ok (p, s') ∧
        s'.potentials.has x = true ∧ s'.potentials.get x = p ∧
        (∀ z, s.potentials.has z = true →
          s'.potentials.has z = true ∧ s'.potentials.get z = s.potentials.get z) ∧
        s'.get_potential fuel x = Outcome.ok (p, s')) ∧
    (∀ (r : ReverseCHPotentialService) (fuel x : Nat), r.ch = ch →
      r.potentials.vec.length = n → n < fuel → x < n →
      ∃ p r', r.get_potential fuel x = Outcome.ok (p, r') ∧
        r'.potentials.has x = true ∧ r'.potentials.get x = p ∧
        (∀ z, r.potentials.has z = true →
          r'.potentials.has z = true ∧ r'.potentials.get z = r.potentials.get z) ∧
        r'.get_potential fuel x = Outcome.ok (p, r')) := by
  constructor
  · intro s fuel x hsF hlen hfuel hx
    obtain ⟨p, s', hrun, hk, hh, hg⟩ := get_potential_total hF fuel s x hx hlen hsF
      (Nat.lt_of_le_of_lt (unmarked_le n _) hfuel)
    refine ⟨p, s', hrun, hh, hg, hk.hmemo, ?_⟩
    obtain ⟨f, hf⟩ : ∃ f, fuel = f + 1 := ⟨fuel - 1, by omega⟩
    rw [hf]
    unfold get_potential
    rw [if_neg (by simp [hh]), hg]
  · intro r fuel x hrch hlen hfuel hx
    have hsim : PotSim r r.mirror := ⟨rfl, rfl, rfl⟩
    obtain ⟨p, s', hrun, hk, hh, hg⟩ := get_potential_total hB fuel r.mirror x hx hlen
      (by show r.ch.backward_graph = _; rw [hrch])
      (Nat.lt_of_le_of_lt (unmarked_le n _) hfuel)
    obtain ⟨r', hr', hsim'⟩ := PotSim.get_potential fuel r r.mirror x p s' hsim hrun
    have hpot : r'.potentials = s'.potentials := hsim'.2.2
    refine ⟨p, r', hr', by rw [hpot]; exact hh, by rw [hpot]; exact hg, ?_, ?_⟩
    · intro z hz
      rw [hpot]
      exact hk.hmemo z hz
    · obtain ⟨f, hf⟩ : ∃ f, fuel = f + 1 := ⟨fuel - 1, by omega⟩
      rw [hf]
      unfold ReverseCHPotentialService.get_potential
      rw [if_neg (by rw [hpot]; simp [hh]), hpot, hg]

/-- Witness for C37: the forward service on the hierarchy whose two graphs are the triangle
of scenario S1, in its state after construction, and node 0. -/
theorem C37_potential_memoised_witness :
    ∃ p s', (CHPotentialService.new stdConstants ⟨triangle, triangle, [0, 1, 2]⟩).get_potential
        4 0 = Outcome.ok (p, s') ∧
      s'.potentials.has 0 = true ∧ s'.potentials.get 0 = p ∧
      (∀ z, (CHPotentialService.new stdConstants
          ⟨triangle, triangle, [0, 1, 2]⟩).potentials.has z = true →
        s'.potentials.has z = true ∧
          s'.potentials.get z = (CHPotentialService.new stdConstants
            ⟨triangle, triangle, [0, 1, 2]⟩).potentials.get z) ∧
      s'.get_potential 4 0 = Outcome.ok (p, s') :=
  (C37_potential_memoised ⟨triangle, triangle, [0, 1, 2]⟩ 3
    (fun u e he => (triangle_consistent.arc_lt _ u e he).2)
    (fun u e he => (triangle_consistent.arc_lt _ u e he).2)).1
    (CHPotentialService.new stdConstants ⟨triangle, triangle, [0, 1, 2]⟩) 4 0 rfl
    (by decide) (by decide) (by decide)

end PenAstar

namespace PenAstar

open Graph PenaltyService

/-! ### Weights after `apply_penalties` -/

theorem path_arcs_cons (u v : Nat) (rest : List Nat) :
    path_arcs (u :: v :: rest) = (u, v) :: path_arcs (v :: rest) := rfl

theorem mem_path_arcs {a b : Nat} {l : List Nat} (h : (a, b) ∈ path_arcs l) :
    a ∈ l ∧ b ∈ l.tail :=
  List.of_mem_zip h

/-- `change_edge_weight` on an arc of a consistent graph, in terms of stored weights. -/
theorem change_weight_of_arc {pen : Graph} (hc : pen.Consistent) {u v : Nat}
    (h : HasArc pen u v) (f : Nat → Nat) :
    (pen.change_edge_weight u v
        (f ((first_weight (pen.get_out_arcs u) v).getD 0))).Consistent ∧
    ∀ a b, first_weight ((pen.change_edge_weight u v
        (f ((first_weight (pen.get_out_arcs u) v).getD 0))).get_out_arcs a) b =
      if a = u ∧ b = v then (first_weight (pen.get_out_arcs a) b).map f
      else first_weight (pen.get_out_arcs a) b := by
  obtain ⟨hu, hv⟩ := h.lt hc
  obtain ⟨hc', hw⟩ := change_edge_weight_spec pen hc u v
    (f ((first_weight (pen.get_out_arcs u) v).getD 0)) hu hv
  refine ⟨hc', ?_⟩
  intro a b
  rw [hw]
  by_cases hab : a = u ∧ b = v
  · rw [if_pos hab, if_pos hab, hab.1, hab.2]
    cases first_weight (pen.get_out_arcs u) v <;> rfl
  · rw [if_neg hab, if_neg hab]

theorem get_edge_weight_of_arc (c : Constants) {pen : Graph} {u v : Nat} (h : HasArc pen u v) :
    pen.get_edge_weight c u v = (first_weight (pen.get_out_arcs u) v).getD 0 := by
  unfold get_edge_weight
  rw [hasArc_iff] at h
  cases hw : first_weight (pen.get_out_arcs u) v with
  | none => exact absurd hw h
  | some w => rfl

/-- First loop of `apply_penalties` on a simple path: the weight of each arc of the path is
replaced by its penalised value, every other weight is kept. -/
theorem penalize_path_weights (p : PenaltyParams) (c : Constants) :
    ∀ (l : List Nat) (pen : Graph), pen.Consistent → List.Chain' (HasArc pen) l → l.Nodup →
      ∀ a b, first_weight ((penalize_path p c l pen).get_out_arcs a) b =
        if (a, b) ∈ path_arcs l then (first_weight (pen.get_out_arcs a) b).map p.penalize
        else first_weight (pen.get_out_arcs a) b := by
  intro l
  induction l with
  | nil =>
    intro pen _ _ _ a b
    simp [penalize_path, path_arcs]
  | cons u rest ih =>
    intro pen hc hch hnd a b
    cases rest with
    | nil => simp [penalize_path, path_arcs]
    | cons v rest2 =>
      unfold penalize_path
      rw [List.chain'_cons] at hch
      rw [get_edge_weight_of_arc c hch.1]
      obtain ⟨hc1, hw1⟩ := change_weight_of_arc hc hch.1 p.penalize
      obtain ⟨_, hs1⟩ := change_edge_weight_same hc hch.1
        (p.penalize ((first_weight (pen.get_out_arcs u) v).getD 0))
      rw [ih _ hc1 (hs1.chain_rev hch.2) (List.nodup_cons.1 hnd).2, hw1, path_arcs_cons]
      have hu : u ∉ v :: rest2 := (List.nodup_cons.1 hnd).1
      by_cases hab : a = u ∧ b = v
      · have hn : (a, b) ∉ path_arcs (v :: rest2) := by
          intro h
          rw [hab.1] at h
          exact hu (mem_path_arcs h).1
        rw [if_neg hn, if_pos hab,
          if_pos (by rw [hab.1, hab.2]; exact List.mem_cons_self _ _)]
      · rw [if_neg hab]
        have hne : (a, b) ≠ (u, v) := by
          intro h
          cases h
          exact hab ⟨rfl, rfl⟩
        by_cases hm : (a, b) ∈ path_arcs (v :: rest2)
        · rw [if_pos hm, if_pos (List.mem_cons_of_mem _ hm)]
        · rw [if_neg hm, if_neg (by
            intro h
            rcases List.mem_cons.1 h with h | h
            · exact hne h
            · exact hm h)]

/-- First loop of `apply_penalties`, for any path: no weight gets smaller when the
penalised value of a weight is never below the weight. -/
theorem penalize_path_mono (p : PenaltyParams) (c : Constants) (hp : ∀ w, w ≤ p.penalize w) :
    ∀ (l : List Nat) (pen : Graph), pen.Consistent → List.Chain' (HasArc pen) l →
      ∀ a b w, first_weight (pen.get_out_arcs a) b = some w →
        ∃ w', first_weight ((penalize_path p c l pen).get_out_arcs a) b = some w' ∧ w ≤ w' := by
  intro l
  induction l with
  | nil =>
    intro pen _ _ a b w h
    exact ⟨w, h, Nat.le_refl _⟩
  | cons u rest ih =>
    intro pen hc hch a b w h
    cases rest with
    | nil => exact ⟨w, h, Nat.le_refl _⟩
    | cons v rest2 =>
      unfold penalize_path
      rw [List.chain'_cons] at hch
      rw [get_edge_weight_of_arc c hch.1]
      obtain ⟨hc1, hw1⟩ := change_weight_of_arc hc hch.1 p.penalize
      obtain ⟨_, hs1⟩ := change_edge_weight_same hc hch.1
        (p.penalize ((first_weight (pen.get_out_arcs u) v).getD 0))
      have h1 : ∃ w1, first_weight ((pen.change_edge_weight u v (p.penalize
          ((first_weight (pen.get_out_arcs u) v).getD 0))).get_out_arcs a) b = some w1 ∧
          w ≤ w1 := by
        rw [hw1]
        by_cases hab : a = u ∧ b = v
        · rw [if_pos hab, h]
          exact ⟨p.penalize w, rfl, hp w⟩
        · rw [if_neg hab]
          exact ⟨w, h, Nat.le_refl _⟩
      obtain ⟨w1, hw1', hle1⟩ := h1
      obtain ⟨w', hw', hle'⟩ := ih _ hc1 (hs1.chain_rev hch.2) a b w1 hw1'
      exact ⟨w', hw', hle1.trans hle'⟩

/-- Inner loop of the second loop of `apply_penalties` over a duplicate-free list `us` of
sources of arcs into `v`: the arcs `u → v` with `u` in the list and `u` not the
predecessor get the rejoin penalty added, every other weight is kept. -/
theorem penalize_rejoin_arcs_weights (c : Constants) (r v : Nat) (prev : Option Nat) :
    ∀ (us : List Nat) (pen : Graph), pen.Consistent → (∀ u ∈ us, HasArc pen u v) → us.Nodup →
      (penalize_rejoin_arcs c r v prev us pen).Consistent ∧
      ∀ a b, first_weight ((penalize_rejoin_arcs c r v prev us pen).get_out_arcs a) b =
        if b = v ∧ a ∈ us ∧ (prev = none ∨ some a ≠ prev) then
          (first_weight (pen.get_out_arcs a) b).map (fun w => (w + r) % wrap32)
        else first_weight (pen.get_out_arcs a) b := by
  intro us
  induction us with
  | nil =>
    intro pen hc _ _
    refine ⟨hc, fun a b => ?_⟩
    simp [penalize_rejoin_arcs]
  | cons u rest ih =>
    intro pen hc hus hnd
    have hu : u ∉ rest := (List.nodup_cons.1 hnd).1
    have harc := hus u (List.mem_cons_self _ _)
    unfold penalize_rejoin_arcs
    by_cases hcond : prev = none ∨ some u ≠ prev
    · rw [if_pos hcond, get_edge_weight_of_arc c harc]
      obtain ⟨hc1, hw1⟩ := change_weight_of_arc hc harc (fun w => (w + r) % wrap32)
      obtain ⟨_, hs1⟩ := change_edge_weight_same hc harc
        (((first_weight (pen.get_out_arcs u) v).getD 0 + r) % wrap32)
      obtain ⟨hc2, hw2⟩ := ih _ hc1
        (fun u' hu' => (hs1 u' v).2 (hus u' (List.mem_cons_of_mem _ hu')))
        (List.nodup_cons.1 hnd).2
      refine ⟨hc2, fun a b => ?_⟩
      rw [hw2, hw1]
      by_cases hab : a = u ∧ b = v
      · have hn : ¬ (b = v ∧ a ∈ rest ∧ (prev = none ∨ some a ≠ prev)) := by
          intro h
          rw [hab.1] at h
          exact hu h.2.1
        rw [if_neg hn, if_pos hab, if_pos ⟨hab.2, by rw [hab.1]; exact List.mem_cons_self _ _,
          by rw [hab.1]; exact hcond⟩]
      · rw [if_neg hab]
        have hiff : (b = v ∧ a ∈ u :: rest ∧ (prev = none ∨ some a ≠ prev)) ↔
            (b = v ∧ a ∈ rest ∧ (prev = none ∨ some a ≠ prev)) := by
          constructor
          · rintro ⟨h1, h2, h3⟩
            rcases List.mem_cons.1 h2 with h | h
            · exact absurd ⟨h, h1⟩ hab
            · exact ⟨h1, h, h3⟩
          · rintro ⟨h1, h2, h3⟩
            exact ⟨h1, List.mem_cons_of_mem _ h2, h3⟩
        by_cases hm : b = v ∧ a ∈ rest ∧ (prev = none ∨ some a ≠ prev)
        · rw [if_pos hm, if_pos (hiff.2 hm)]
        · rw [if_neg hm, if_neg (fun h => hm (hiff.1 h))]
    · rw [if_neg hcond]
      obtain ⟨hc2, hw2⟩ := ih pen hc
        (fun u' hu' => hus u' (List.mem_cons_of_mem _ hu')) (List.nodup_cons.1 hnd).2
      refine ⟨hc2, fun a b => ?_⟩
      rw [hw2]
      have hiff : (b = v ∧ a ∈ u :: rest ∧ (prev = none ∨ some a ≠ prev)) ↔
          (b = v ∧ a ∈ rest ∧ (prev = none ∨ some a ≠ prev)) := by
        constructor
        · rintro ⟨h1, h2, h3⟩
          rcases List.mem_cons.1 h2 with h | h
          · rw [h] at h3
            exact absurd h3 hcond
          · exact ⟨h1, h, h3⟩
        · rintro ⟨h1, h2, h3⟩
          exact ⟨h1, List.mem_cons_of_mem _ h2, h3⟩
      by_cases hm : b = v ∧ a ∈ rest ∧ (prev = none ∨ some a ≠ prev)
      · rw [if_pos hm, if_pos (hiff.2 hm)]
      · rw [if_neg hm, if_neg (fun h => hm (hiff.1 h))]

/-- One pass of the second loop of `apply_penalties`, for the node `v` with predecessor
`prev`: every arc into `v` that does not come from the predecessor gets the rejoin penalty
added, every other weight is kept. -/
theorem rejoin_node_weights (c : Constants) (r v : Nat) (prev : Option Nat) (pen : Graph)
    (hc : pen.Consistent) :
    (penalize_rejoin_arcs c r v prev ((pen.get_rev_out_arcs v).map Edge.target) pen).Consistent ∧
    ∀ a b, first_weight ((penalize_rejoin_arcs c r v prev
        ((pen.get_rev_out_arcs v).map Edge.target) pen).get_out_arcs a) b =
      if b = v ∧ (prev = none ∨ some a ≠ prev) then
        (first_weight (pen.get_out_arcs a) b).map (fun w => (w + r) % wrap32)
      else first_weight (pen.get_out_arcs a) b := by
  have hmem : ∀ u, u ∈ (pen.get_rev_out_arcs v).map Edge.target ↔ HasArc pen u v := by
    intro u
    constructor
    · intro hu
      obtain ⟨e, he, heu⟩ := List.mem_map.1 hu
      have he2 : e = (⟨e.target, e.weight⟩ : Edge) := by cases e; rfl
      rw [he2] at he
      refine ⟨⟨v, e.weight⟩, ?_, rfl⟩
      rw [← heu]
      exact (hc.2.1 e.target v e.weight).2 he
    · rintro ⟨e, he, hev⟩
      have he2 : e = (⟨v, e.weight⟩ : Edge) := by cases e; simp at hev; simp [hev]
      rw [he2] at he
      exact List.mem_map.2 ⟨⟨u, e.weight⟩, (hc.2.1 u v e.weight).1 he, rfl⟩
  obtain ⟨h1, h2⟩ := penalize_rejoin_arcs_weights c r v prev
    ((pen.get_rev_out_arcs v).map Edge.target) pen hc (fun u hu => (hmem u).1 hu)
    (hc.2.2.2 v)
  refine ⟨h1, fun a b => ?_⟩
  rw [h2]
  by_cases hb : b = v ∧ (prev = none ∨ some a ≠ prev)
  · rw [if_pos hb]
    by_cases ha : a ∈ (pen.get_rev_out_arcs v).map Edge.target
    · rw [if_pos ⟨hb.1, ha, hb.2⟩]
    · rw [if_neg (fun h => ha h.2.1)]
      have hn : first_weight (pen.get_out_arcs a) b = none := by
        by_contra hne
        apply ha
        rw [hmem, hasArc_iff, ← hb.1]
        exact hne
      rw [hn]
      rfl
  · rw [if_neg hb, if_neg (fun h => hb ⟨h.1, h.2.2⟩)]

end PenAstar

namespace PenAstar

open Graph PenaltyService

/-- Second loop of `apply_penalties` on a simple path: the arcs into a node of the path
that are not arcs of the path get the rejoin penalty added, every other weight is kept.
`prev` is the node before the part of the path still to be handled. -/
theorem penalize_rejoin_weights (c : Constants) (r : Nat) :
    ∀ (nodes : List Nat) (prev : Option Nat) (pen : Graph), (prev.toList ++ nodes).Nodup →
      pen.Consistent →
      (penalize_rejoin c r prev nodes pen).Consistent ∧
      ∀ a b, first_weight ((penalize_rejoin c r prev nodes pen).get_out_arcs a) b =
        if b ∈ nodes ∧ (a, b) ∉ path_arcs (prev.toList ++ nodes) then
          (first_weight (pen.get_out_arcs a) b).map (fun w => (w + r) % wrap32)
        else first_weight (pen.get_out_arcs a) b := by
  intro nodes
  induction nodes with
  | nil =>
    intro prev pen _ hc
    refine ⟨hc, fun a b => ?_⟩
    simp [penalize_rejoin]
  | cons v rest ih =>
    intro prev pen hnd hc
    unfold penalize_rejoin
    obtain ⟨hc1, hw1⟩ := rejoin_node_weights c r v prev pen hc
    have hnd2 : (v :: rest).Nodup := (List.nodup_append.1 hnd).2.1
    obtain ⟨hc2, hw2⟩ := ih (some v) _ (by simpa using hnd2) hc1
    refine ⟨hc2, fun a b => ?_⟩
    rw [hw2, hw1]
    have hv : v ∉ rest := (List.nodup_cons.1 hnd2).1
    have hsome : (some v).toList ++ rest = v :: rest := rfl
    rw [hsome]
    by_cases hb : b = v
    · subst hb
      rw [if_neg (fun h => hv h.1)]
      have hiff : (prev = none ∨ some a ≠ prev) ↔
          (a, b) ∉ path_arcs (prev.toList ++ b :: rest) := by
        cases prev with
        | none =>
          simp only [true_or, Option.toList_none, List.nil_append, true_iff]
          intro h
          exact hv (mem_path_arcs h).2
        | some q =>
          have hq : (some q).toList ++ b :: rest = q :: b :: rest := rfl
          rw [hq, path_arcs_cons]
          constructor
          · intro h hm
            rcases List.mem_cons.1 hm with h1 | h1
            · cases h1
              rcases h with h | h
              · cases h
              · exact h rfl
            · exact hv (mem_path_arcs h1).2
          · intro h
            right
            intro h1
            cases h1
            exact h (List.mem_cons_self _ _)
      by_cases hcond : prev = none ∨ some a ≠ prev
      · rw [if_pos ⟨rfl, hcond⟩, if_pos ⟨List.mem_cons_self _ _, hiff.1 hcond⟩]
      · rw [if_neg (fun h => hcond h.2), if_neg (fun h => hcond (hiff.2 h.2))]
    · have hin : (if b = v ∧ (prev = none ∨ some a ≠ prev) then
          (first_weight (pen.get_out_arcs a) b).map (fun w => (w + r) % wrap32)
          else first_weight (pen.get_out_arcs a) b) = first_weight (pen.get_out_arcs a) b :=
        if_neg (fun h => hb h.1)
      rw [hin]
      have hiff : (b ∈ rest ∧ (a, b) ∉ path_arcs (v :: rest)) ↔
          (b ∈ v :: rest ∧ (a, b) ∉ path_arcs (prev.toList ++ v :: rest)) := by
        have hpa : (a, b) ∈ path_arcs (prev.toList ++ v :: rest) ↔
            (a, b) ∈ path_arcs (v :: rest) := by
          cases prev with
          | none => rfl
          | some q =>
            have hq : (some q).toList ++ v :: rest = q :: v :: rest := rfl
            rw [hq, path_arcs_cons, List.mem_cons]
            constructor
            · rintro (h | h)
              · cases h
                exact absurd rfl hb
              · exact h
            · intro h
              exact Or.inr h
        rw [hpa]
        constructor
        · rintro ⟨h1, h2⟩
          exact ⟨List.mem_cons_of_mem _ h1, h2⟩
        · rintro ⟨h1, h2⟩
          rcases List.mem_cons.1 h1 with h | h
          · exact absurd h hb
          · exact ⟨h, h2⟩
      by_cases hm : b ∈ rest ∧ (a, b) ∉ path_arcs (v :: rest)
      · rw [if_pos hm, if_pos (hiff.1 hm)]
      · rw [if_neg hm, if_neg (fun h => hm (hiff.2 h))]

/-- Second loop of `apply_penalties`, for any path: when every stored weight leaves room
for one rejoin penalty per node of the path, no weight gets smaller and no addition
wraps. -/
theorem penalize_rejoin_mono (c : Constants) (r : Nat) :
    ∀ (nodes : List Nat) (prev : Option Nat) (pen : Graph), pen.Consistent →
      (∀ a b w, first_weight (pen.get_out_arcs a) b = some w →
        w + nodes.length * r < wrap32) →
      ∀ a b w, first_weight (pen.get_out_arcs a) b = some w →
        ∃ w', first_weight ((penalize_rejoin c r prev nodes pen).get_out_arcs a) b = some w' ∧
          w ≤ w' ∧ w' ≤ w + nodes.length * r := by
  intro nodes
  induction nodes with
  | nil =>
    intro prev pen _ _ a b w h
    exact ⟨w, h, Nat.le_refl _, by simp⟩
  | cons v rest ih =>
    intro prev pen hc hfit a b w h
    unfold penalize_rejoin
    obtain ⟨hc1, hw1⟩ := rejoin_node_weights c r v prev pen hc
    have hlen : (v :: rest).length * r = rest.length * r + r := by
      rw [List.length_cons, Nat.succ_mul]
    have hstep : ∀ a b w, first_weight (pen.get_out_arcs a) b = some w →
        ∃ w1, first_weight ((penalize_rejoin_arcs c r v prev
          ((pen.get_rev_out_arcs v).map Edge.target) pen).get_out_arcs a) b = some w1 ∧
          w ≤ w1 ∧ w1 ≤ w + r := by
      intro a b w h
      rw [hw1]
      by_cases hcond : b = v ∧ (prev = none ∨ some a ≠ prev)
      · rw [if_pos hcond, h]
        have := hfit a b w h
        rw [hlen] at this
        refine ⟨(w + r) % wrap32, rfl, ?_, ?_⟩
        · rw [Nat.mod_eq_of_lt (by omega)]
          omega
        · rw [Nat.mod_eq_of_lt (by omega)]
      · rw [if_neg hcond]
        exact ⟨w, h, Nat.le_refl _, by omega⟩
    have hfit1 : ∀ a b w1, first_weight ((penalize_rejoin_arcs c r v prev
        ((pen.get_rev_out_arcs v).map Edge.target) pen).get_out_arcs a) b = some w1 →
        w1 + rest.length * r < wrap32 := by
      intro a b w1 h1
      rw [hw1] at h1
      by_cases hcond : b = v ∧ (prev = none ∨ some a ≠ prev)
      · rw [if_pos hcond] at h1
        cases h0 : first_weight (pen.get_out_arcs a) b with
        | none => rw [h0] at h1; cases h1
        | some w0 =>
          rw [h0] at h1
          simp only [Option.map_some', Option.some.injEq] at h1
          have := hfit a b w0 h0
          rw [hlen] at this
          have hm : (w0 + r) % wrap32 = w0 + r := Nat.mod_eq_of_lt (by omega)
          omega
      · rw [if_neg hcond] at h1
        have := hfit a b w1 h1
        rw [hlen] at this
        omega
    obtain ⟨w1, h1, hle1, hub1⟩ := hstep a b w h
    obtain ⟨w', h', hle', hub'⟩ := ih (some v) _ hc1 hfit1 a b w1 h1
    exact ⟨w', h', hle1.trans hle', by rw [hlen]; omega⟩

/-- `apply_penalties` on a simple path, in terms of stored weights: the arcs of the path get
the penalised weight, the other arcs into a node of the path get the rejoin penalty added,
every other weight is kept. -/
theorem apply_penalties_weights (p : PenaltyParams) (c : Constants) (path : Path) (L : Nat)
    (pen pen' : Graph) (hc : pen.Consistent) (hch : List.Chain' (HasArc pen) path.nodes)
    (hnd : path.nodes.Nodup) (hh : apply_penalties p c path L pen = Outcome.ok pen') :
    pen'.Consistent ∧
    ∀ a b, first_weight (pen'.get_out_arcs a) b =
      if (a, b) ∈ path_arcs path.nodes then
        (first_weight (pen.get_out_arcs a) b).map p.penalize
      else if b ∈ path.nodes then
        (first_weight (pen.get_out_arcs a) b).map (fun w => (w + p.rejoin_penalty L) % wrap32)
      else first_weight (pen.get_out_arcs a) b := by
  unfold apply_penalties at hh
  split at hh
  · cases hh
  · cases hh
    obtain ⟨h1, _⟩ := penalize_path_same p c path.nodes pen hc hch
    have h2 := penalize_path_weights p c path.nodes pen hc hch hnd
    obtain ⟨h3, h4⟩ := penalize_rejoin_weights c (p.rejoin_penalty L) path.nodes none _
      (by simpa using hnd) h1
    refine ⟨h3, fun a b => ?_⟩
    rw [h4, h2]
    have hnone : (none : Option Nat).toList ++ path.nodes = path.nodes := rfl
    rw [hnone]
    by_cases hpa : (a, b) ∈ path_arcs path.nodes
    · rw [if_neg (fun h => h.2 hpa), if_pos hpa, if_pos hpa]
    · rw [if_neg hpa, if_neg hpa]
      by_cases hb : b ∈ path.nodes
      · rw [if_pos ⟨hb, hpa⟩, if_pos hb]
      · rw [if_neg (fun h => hb h.1), if_neg hb]

end PenAstar

namespace PenAstar

open Graph PenaltyService

theorem mem_path_arcs_iff (a b : Nat) :
    ∀ l : List Nat, (a, b) ∈ path_arcs l ↔ ∃ i, l[i]? = some a ∧ l[i + 1]? = some b := by
  intro l
  induction l with
  | nil => simp [path_arcs]
  | cons u rest ih =>
    cases rest with
    | nil => simp [path_arcs]
    | cons v rest2 =>
      rw [path_arcs_cons, List.mem_cons, ih]
      constructor
      · rintro (h | ⟨i, h1, h2⟩)
        · cases h
          exact ⟨0, rfl, by simp⟩
        · exact ⟨i + 1, by simpa using h1, by simpa using h2⟩
      · rintro ⟨i, h1, h2⟩
        cases i with
        | zero =>
          left
          simp only [List.getElem?_cons_zero, Option.some.injEq, zero_add,
            List.getElem?_cons_succ] at h1 h2
          rw [h1, h2]
        | succ j =>
          right
          exact ⟨j, by simpa using h1, by simpa using h2⟩

theorem nodup_index_unique {l : List Nat} (hnd : l.Nodup) {i j v : Nat}
    (hi : l[i]? = some v) (hj : l[j]? = some v) : i = j := by
  have h := List.nodup_iff_getElem?_ne_getElem?.1 hnd
  rcases Nat.lt_trichotomy i j with h1 | h1 | h1
  · exfalso
    have hjl : j < l.length := by
      by_contra hn
      rw [List.getElem?_eq_none (Nat.le_of_not_lt hn)] at hj
      cases hj
    exact h i j h1 hjl (hi.trans hj.symm)
  · exact h1
  · exfalso
    have hil : i < l.length := by
      by_contra hn
      rw [List.getElem?_eq_none (Nat.le_of_not_lt hn)] at hi
      cases hi
    exact h j i h1 hil (hj.trans hi.symm)

theorem mem_of_index {l : List Nat} {i v : Nat} (h : l[i]? = some v) : v ∈ l :=
  List.mem_iff_getElem?.2 ⟨i, h⟩

theorem hasArc_triangle_path : List.Chain' (HasArc triangle) [0, 1, 2] := by
  refine List.Chain'.cons ⟨⟨1, 3⟩, by decide, rfl⟩
    (List.Chain'.cons ⟨⟨2, 4⟩, by decide, rfl⟩ (List.chain'_singleton _))

/-- C31: let `pen` be a consistent graph and `[p0, …, pk]` a simple path along arcs of
`pen`, and let `pen'` be the graph after `apply_penalties(path, L)` with the rejoin penalty
`r`. Then (1) every arc `u → pi` with `i = 0` or `u ≠ p(i-1)` and weight `w` has the
weight `(w + r) mod 2^32` afterwards, which is `w + r` when the sum does not wrap: the
rejoin penalty is added once, and for `i = 0` this covers every arc into `p0`; (2) an arc
`p(i-1) → pi` of the path with weight `w` has the weight `penalize(w)` afterwards, without
rejoin penalty; (3) an arc whose target is not on the path is stored unchanged; (4) `pen'`
is consistent: the reverse list of `v` stores `u` with weight `w` exactly when the forward
list of `u` stores `v` with weight `w`, so each change is made in both entries. -/
theorem C31_rejoin_penalty_arcs (p : PenaltyParams) (c : Constants) (path : Path) (L : Nat)
    (pen pen' : Graph) (hc : pen.Consistent) (hch : List.Chain' (HasArc pen) path.nodes)
    (hnd : path.nodes.Nodup) (hh : apply_penalties p c path L pen = Outcome.ok pen') :
    (∀ i v u w, path.nodes[i]? = some v → (⟨v, w⟩ : Edge) ∈ pen.get_out_arcs u →
      (i = 0 ∨ path.nodes[i - 1]? ≠ some u) →
      (⟨v, (w + p.rejoin_penalty L) % wrap32⟩ : Edge) ∈ pen'.get_out_arcs u ∧
      (w + p.rejoin_penalty L < wrap32 →
        (⟨v, w + p.rejoin_penalty L⟩ : Edge) ∈ pen'.get_out_arcs u)) ∧
    (∀ i v u w, path.nodes[i + 1]? = some v → path.nodes[i]? = some u →
      (⟨v, w⟩ : Edge) ∈ pen.get_out_arcs u →
      (⟨v, p.penalize w⟩ : Edge) ∈ pen'.get_out_arcs u) ∧
    (∀ u e, e.target ∉ path.nodes → (e ∈ pen'.get_out_arcs u ↔ e ∈ pen.get_out_arcs u)) ∧
    (∀ u v w, (⟨v, w⟩ : Edge) ∈ pen'.get_out_arcs u ↔
      (⟨u, w⟩ : Edge) ∈ pen'.get_rev_out_arcs v) := by
  obtain ⟨hc', hw⟩ := apply_penalties_weights p c path L pen pen' hc hch hnd hh
  refine ⟨?_, ?_, ?_, hc'.2.1⟩
  · intro i v u w hi he hcond
    have hnp : (u, v) ∉ path_arcs path.nodes := by
      intro hm
      obtain ⟨j, hj1, hj2⟩ := (mem_path_arcs_iff u v path.nodes).1 hm
      have hij := nodup_index_unique hnd hi hj2
      rcases hcond with h0 | h1
      · omega
      · apply h1
        rw [hij]
        simpa using hj1
    have hres : (⟨v, (w + p.rejoin_penalty L) % wrap32⟩ : Edge) ∈ pen'.get_out_arcs u := by
      rw [hc'.mem_out_iff, hw, if_neg hnp, if_pos (mem_of_index hi),
        (hc.mem_out_iff _ _ _ _).1 he]
      rfl
    refine ⟨hres, fun hlt => ?_⟩
    rw [Nat.mod_eq_of_lt hlt] at hres
    exact hres
  · intro i v u w hv hu he
    rw [hc'.mem_out_iff, hw,
      if_pos ((mem_path_arcs_iff u v path.nodes).2 ⟨i, hu, hv⟩), (hc.mem_out_iff _ _ _ _).1 he]
    rfl
  · intro u e ht
    rw [mem_iff_first_weight hc', mem_iff_first_weight hc, hw,
      if_neg (fun h => ht (List.mem_of_mem_tail (mem_path_arcs h).2)), if_neg ht]

/-- Witness for C31: `apply_penalties` for the path 0→1→2 on the triangle of scenario S1
with the rejoin penalty 1; the arc 0→2 of weight 10 enters the path at node 2 and has the
weight 11 afterwards. -/
theorem C31_rejoin_penalty_arcs_witness :
    ∃ pen', apply_penalties defaultParams stdConstants ⟨[0, 1, 2], 7⟩ 7 triangle
        = Outcome.ok pen' ∧
      (⟨2, 11⟩ : Edge) ∈ pen'.get_out_arcs 0 :=
  ⟨_, rfl,
    ((C31_rejoin_penalty_arcs defaultParams stdConstants ⟨[0, 1, 2], 7⟩ 7 triangle _
      triangle_consistent hasArc_triangle_path (by decide) rfl).1 2 2 0 10 rfl (by decide)
      (Or.inr (by decide))).1⟩

/-- C32 (counterexample): on the graph with the single arc 0→1 of weight 15,
`apply_penalties` for the path 0→1 with the default `penalty_factor = 0.04` stores the
weight 15 for the arc: the product 15.6 is converted to `uint32_t` by truncation, while
rounding to the nearest integer gives 16. -/
theorem C32_product_is_truncated :
    apply_penalties defaultParams stdConstants ⟨[0, 1], 15⟩ 15 short_arc
      = Outcome.ok ⟨[[⟨1, 15⟩], []], [[], [⟨0, 15⟩]]⟩ ∧
    rounded_penalty 15 = 16 := by
  refine ⟨by decide!, by decide⟩

theorem float_one_val : 0 < (F32.of_nat 1).den ∧ (F32.of_nat 1).val = 1 := by
  have hn : (F32.of_nat 1).num = 16777216 := by decide!
  have hd : (F32.of_nat 1).den = 16777216 := by decide!
  refine ⟨by rw [hd]; decide, ?_⟩
  unfold F32.val
  rw [hn, hd]
  norm_num

/-- The single-precision product `float(w) * (1.0f + penalty_factor)` lies within
`(1 ± 2^-24)^3` of `w * (1 + penalty_factor)`. -/
theorem penalty_product_spec (penalty_factor : F32) (hpf : 0 < penalty_factor.den) (w : Nat) :
    0 < (F32.mul (F32.of_nat w) (F32.add (F32.of_nat 1) penalty_factor)).den ∧
    (1 - 1 / 16777216) ^ 3 * ((w : ℚ) * (1 + penalty_factor.val)) ≤
      (F32.mul (F32.of_nat w) (F32.add (F32.of_nat 1) penalty_factor)).val ∧
    (F32.mul (F32.of_nat w) (F32.add (F32.of_nat 1) penalty_factor)).val ≤
      (1 + 1 / 16777216) ^ 3 * ((w : ℚ) * (1 + penalty_factor.val)) := by
  obtain ⟨h1, v1⟩ := float_one_val
  obtain ⟨a0, a1, a2⟩ := F32.add_spec (F32.of_nat 1) penalty_factor h1 hpf
  rw [v1] at a1 a2
  obtain ⟨m0, m1, m2⟩ := F32.mul_of_nat_spec w _ a0
  have hw : (0 : ℚ) ≤ w := Nat.cast_nonneg w
  have hp := F32.val_nonneg penalty_factor
  refine ⟨m0, le_trans ?_ m1, le_trans m2 ?_⟩
  · have h : (1 - 1 / 16777216 : ℚ) * (1 - 1 / 16777216) * (w : ℚ) *
        ((1 - 1 / 16777216) * (1 + penalty_factor.val)) ≤
        (1 - 1 / 16777216) * (1 - 1 / 16777216) * (w : ℚ) *
          (F32.add (F32.of_nat 1) penalty_factor).val :=
      mul_le_mul_of_nonneg_left a1 (by positivity)
    calc (1 - 1 / 16777216 : ℚ) ^ 3 * ((w : ℚ) * (1 + penalty_factor.val))
        = (1 - 1 / 16777216) * (1 - 1 / 16777216) * (w : ℚ) *
            ((1 - 1 / 16777216) * (1 + penalty_factor.val)) := by ring
      _ ≤ _ := h
      _ = _ := by ring
  · have h : (1 + 1 / 16777216 : ℚ) * (1 + 1 / 16777216) * (w : ℚ) *
        (F32.add (F32.of_nat 1) penalty_factor).val ≤
        (1 + 1 / 16777216) * (1 + 1 / 16777216) * (w : ℚ) *
          ((1 + 1 / 16777216) * (1 + penalty_factor.val)) :=
      mul_le_mul_of_nonneg_left a2 (by positivity)
    calc (1 + 1 / 16777216 : ℚ) * ((1 + 1 / 16777216) * (w : ℚ) *
          (F32.add (F32.of_nat 1) penalty_factor).val)
        = (1 + 1 / 16777216) * (1 + 1 / 16777216) * (w : ℚ) *
            (F32.add (F32.of_nat 1) penalty_factor).val := by ring
      _ ≤ _ := h
      _ = _ := by ring

/-- C32 (amended): let `pen` be a consistent graph, `path` a simple path along arcs of
`pen`, and `penalty_factor`, `eps`, `delta` any non-negative `float` members. After
`apply_penalties` every arc `(u, v)` of the path with weight `w` has, in the forward list of
`u` and in the reverse list of `v`, the weight `k` obtained by truncating the single-precision
product `x = float(w) * (1.0f + penalty_factor)`: `k ≤ x < k + 1`, where `x` lies within the
factors `(1 ± 2^-24)^3` of `w * (1 + penalty_factor)`. The weight is not the product rounded
to the nearest integer, and for the default factor 0.04 it is not always `⌊1.04 w⌋` either:
the weight 225 becomes 233 while `⌊1.04 * 225⌋ = 234` (`1.0f + 0.04f` is
`8724152 / 2^23 < 1.04`); with the default factor `k` is never below `w`. -/
theorem C32_path_arcs_penalised (penalty_factor eps delta : F32) (c : Constants) (path : Path)
    (L : Nat) (pen pen' : Graph) (hpf : 0 < penalty_factor.den) (hc : pen.Consistent)
    (hch : List.Chain' (HasArc pen) path.nodes) (hnd : path.nodes.Nodup)
    (hh : apply_penalties (float_params penalty_factor eps delta) c path L pen
      = Outcome.ok pen') :
    (∀ i u v w, path.nodes[i]? = some u → path.nodes[i + 1]? = some v →
      (⟨v, w⟩ : Edge) ∈ pen.get_out_arcs u →
      (⟨v, (F32.mul (F32.of_nat w) (F32.add (F32.of_nat 1) penalty_factor)).to_uint32⟩ : Edge)
        ∈ pen'.get_out_arcs u ∧
      (⟨u, (F32.mul (F32.of_nat w) (F32.add (F32.of_nat 1) penalty_factor)).to_uint32⟩ : Edge)
        ∈ pen'.get_rev_out_arcs v) ∧
    (∀ w : Nat,
      ((F32.mul (F32.of_nat w) (F32.add (F32.of_nat 1) penalty_factor)).to_uint32 : ℚ) ≤
        (F32.mul (F32.of_nat w) (F32.add (F32.of_nat 1) penalty_factor)).val ∧
      (F32.mul (F32.of_nat w) (F32.add (F32.of_nat 1) penalty_factor)).val <
        ((F32.mul (F32.of_nat w) (F32.add (F32.of_nat 1) penalty_factor)).to_uint32 : ℚ) + 1 ∧
      (1 - 1 / 16777216) ^ 3 * ((w : ℚ) * (1 + penalty_factor.val)) ≤
        (F32.mul (F32.of_nat w) (F32.add (F32.of_nat 1) penalty_factor)).val ∧
      (F32.mul (F32.of_nat w) (F32.add (F32.of_nat 1) penalty_factor)).val ≤
        (1 + 1 / 16777216) ^ 3 * ((w : ℚ) * (1 + penalty_factor.val))) ∧
    (F32.add (F32.of_nat 1) (F32.round 4 100)).val = 8724152 / 8388608 ∧
    (F32.mul (F32.of_nat 225) (F32.add (F32.of_nat 1) (F32.round 4 100))).to_uint32 = 233 ∧
    225 * 104 / 100 = 234 ∧ rounded_penalty 225 = 234 ∧
    (∀ w : Nat,
      w ≤ (F32.mul (F32.of_nat w) (F32.add (F32.of_nat 1) (F32.round 4 100))).to_uint32) := by
  obtain ⟨hc', hw⟩ :=
    apply_penalties_weights (float_params penalty_factor eps delta) c path L pen pen' hc hch
      hnd hh
  refine ⟨?_, ?_, one_plus_factor_val.2, by decide!, by decide, by decide, penalize_ge⟩
  · intro i u v w hu hv he
    have h1 : (⟨v, (float_params penalty_factor eps delta).penalize w⟩ : Edge)
        ∈ pen'.get_out_arcs u := by
      rw [hc'.mem_out_iff, hw,
        if_pos ((mem_path_arcs_iff u v path.nodes).2 ⟨i, hu, hv⟩),
        (hc.mem_out_iff _ _ _ _).1 he]
      rfl
    exact ⟨h1, (hc'.2.1 u v _).1 h1⟩
  · intro w
    obtain ⟨m0, m1, m2⟩ := penalty_product_spec penalty_factor hpf w
    obtain ⟨t1, t2⟩ := F32.to_uint32_spec _ m0
    exact ⟨t1, t2, m1, m2⟩

theorem triangle_penalised :
    apply_penalties (float_params (F32.round 4 100) (F32.round 1 10) (F32.round 1 10))
      stdConstants ⟨[0, 1, 2], 7⟩ 7 triangle
      = Outcome.ok ⟨[[⟨1, 3⟩, ⟨2, 11⟩], [⟨2, 4⟩], []], [[], [⟨0, 3⟩], [⟨1, 4⟩, ⟨0, 11⟩]]⟩ := by
  decide!

/-- Witness for C32 (amended): the path 0→1→2 on the triangle of scenario S1 with the
default members; the arc 1→2 of weight 4 keeps the weight `⌊4.16⌋ = 4`. -/
theorem C32_path_arcs_penalised_witness :
    0 < (F32.round 4 100).den ∧
    (⟨2, (F32.mul (F32.of_nat 4) (F32.add (F32.of_nat 1) (F32.round 4 100))).to_uint32⟩ : Edge)
      ∈ (⟨[[⟨1, 3⟩, ⟨2, 11⟩], [⟨2, 4⟩], []], [[], [⟨0, 3⟩], [⟨1, 4⟩, ⟨0, 11⟩]]⟩ :
        Graph).get_out_arcs 1 :=
  ⟨by decide!,
    ((C32_path_arcs_penalised (F32.round 4 100) (F32.round 1 10) (F32.round 1 10) stdConstants
      ⟨[0, 1, 2], 7⟩ 7 triangle _ (by decide!) triangle_consistent hasArc_triangle_path
      (by decide) triangle_penalised).1 1 1 2 4 rfl rfl (by decide)).1⟩

end PenAstar

namespace PenAstar

open Graph PenaltyService

theorem WeightsGe.same_weights (g : Graph) : WeightsGe g g :=
  fun _ _ w h => ⟨w, h, Nat.le_refl _⟩

theorem WeightsGe.then_weights {g pen pen' : Graph} (h1 : WeightsGe g pen)
    (h2 : WeightsGe pen pen') : WeightsGe g pen' := by
  intro a b w h
  obtain ⟨w1, hw1, hle1⟩ := h1 a b w h
  obtain ⟨w2, hw2, hle2⟩ := h2 a b w1 hw1
  exact ⟨w2, hw2, hle1.trans hle2⟩

theorem WeightsGe.at_least {g pen : Graph} (hg : g.Consistent) (hp : pen.Consistent)
    (h : WeightsGe g pen) : WeightsAtLeast g pen := by
  intro a e he
  obtain ⟨w', hw', hle⟩ := h a e.target e.weight ((mem_iff_first_weight hg a e).1 he)
  exact ⟨⟨e.target, w'⟩, (hp.mem_out_iff _ _ _ _).2 hw', rfl, hle⟩

theorem size_penalize_path (p : PenaltyParams) (c : Constants) :
    ∀ (l : List Nat) (pen : Graph), (penalize_path p c l pen).size = pen.size := by
  intro l
  induction l with
  | nil => intro pen; rfl
  | cons u rest ih =>
    intro pen
    cases rest with
    | nil => rfl
    | cons v rest2 =>
      unfold penalize_path
      rw [ih, size_change_edge_weight]

/-- `apply_penalties` lowers no weight when the penalised value of a weight is never below
the weight and the additions of the second loop do not wrap. -/
theorem apply_penalties_mono (p : PenaltyParams) (c : Constants) (hp : ∀ w, w ≤ p.penalize w)
    (path : Path) (L : Nat) (pen pen' : Graph) (hc : pen.Consistent)
    (hch : List.Chain' (HasArc pen) path.nodes)
    (hfit : rejoin_fits p c path L pen = true)
    (hh : apply_penalties p c path L pen = Outcome.ok pen') : WeightsGe pen pen' := by
  unfold apply_penalties at hh
  split at hh
  · cases hh
  · cases hh
    obtain ⟨h1, _⟩ := penalize_path_same p c path.nodes pen hc hch
    have h2 := penalize_path_mono p c hp path.nodes pen hc hch
    have hfit2 : ∀ a b w,
        first_weight ((penalize_path p c path.nodes pen).get_out_arcs a) b = some w →
        w + path.nodes.length * p.rejoin_penalty L < wrap32 := by
      intro a b w hw
      have hm : (⟨b, w⟩ : Edge) ∈ (penalize_path p c path.nodes pen).get_out_arcs a :=
        (h1.mem_out_iff _ _ _ _).2 hw
      have ha : a < pen.size := by
        rw [← size_penalize_path p c path.nodes pen]
        exact (h1.arc_lt _ a _ hm).1
      unfold rejoin_fits at hfit
      rw [List.all_eq_true] at hfit
      have h3 := hfit a (List.mem_range.2 ha)
      rw [List.all_eq_true] at h3
      have h4 := h3 _ hm
      simpa using h4
    intro a b w hw
    obtain ⟨w1, hw1, hle1⟩ := h2 a b w hw
    obtain ⟨w2, hw2, hle2, _⟩ := penalize_rejoin_mono c (p.rejoin_penalty L) path.nodes none _
      h1 hfit2 a b w1 hw1
    exact ⟨w2, hw2, hle1.trans hle2⟩

theorem get_shortest_path_pen {c : Constants} {fuel : Nat} {sched : List Bool}
    {sv : PenaltyService} (path : Path) (sv' : PenaltyService)
    (hh : get_shortest_path c fuel sched sv = Outcome.ok (path, sv')) :
    sv'.penalized_graph = sv.penalized_graph := by
  unfold get_shortest_path at hh
  obtain ⟨r, _, hh⟩ := Outcome.bind_ok hh
  cases hh
  rfl

theorem run_init_pen {c : Constants} {fuel : Nat} {sched : List Bool} {sv : PenaltyService}
    {st : PenaltyRun} (hh : run_init c fuel sched sv = Outcome.ok st) :
    st.service.penalized_graph = sv.penalized_graph := by
  unfold run_init at hh
  obtain ⟨r, hr, hh⟩ := Outcome.bind_ok hh
  obtain ⟨alt, _, hh⟩ := Outcome.bind_ok hh
  cases hh
  exact get_shortest_path_pen r.1 r.2 hr

/-- One pass of the loop of `run` replaces `penalized_graph` by the result of
`apply_penalties`. -/
theorem run_body_pen {p : PenaltyParams} {c : Constants} {fuel : Nat} {sched : List Bool}
    {st st' : PenaltyRun} (hh : run_body p c fuel sched st = Outcome.ok st') :
    apply_penalties p c st.alt_path st.original_path.length st.service.penalized_graph
      = Outcome.ok st'.service.penalized_graph := by
  unfold run_body at hh
  obtain ⟨pen, hpen, hh⟩ := Outcome.bind_ok hh
  obtain ⟨r, hr, hh⟩ := Outcome.bind_ok hh
  obtain ⟨f, hf, hh⟩ := Outcome.bind_ok hh
  have h1 : r.2.penalized_graph = pen := get_shortest_path_pen r.1 r.2 hr
  obtain ⟨_, f2, _⟩ := is_feasible_frame f.1 f.2 hf
  rw [hpen]
  split at hh
  · obtain ⟨alt, _, hh⟩ := Outcome.bind_ok hh
    cases hh
    show Outcome.ok pen = Outcome.ok f.2.penalized_graph
    rw [f2, h1]
  · cases hh
    show Outcome.ok pen = Outcome.ok f.2.penalized_graph
    rw [f2, h1]

/-- The weights of `penalized_graph` stay at least the weights of the input graph along the
loop of `run`, as long as no addition of `apply_penalties` wraps. -/
theorem run_loop_weights {p : PenaltyParams} {c : Constants} {g : Graph} (hc : g.Consistent)
    (hp : ∀ w, w ≤ p.penalize w) (fuel : Nat) :
    ∀ (k : Nat) (scheds : List (List Bool)) (st st' : PenaltyRun), RunInv c g st →
      WeightsGe g st.service.penalized_graph →
      run_loop p c fuel k scheds st = Outcome.ok st' →
      run_fits p c fuel k scheds st = true →
      WeightsGe g st'.service.penalized_graph := by
  intro k
  induction k with
  | zero =>
    intro scheds st st' _ hge hh _
    unfold run_loop at hh
    cases hh
    exact hge
  | succ k ih =>
    intro scheds st st' h hge hh hfit
    unfold run_loop at hh
    unfold run_fits at hfit
    split at hh
    · rename_i hcont
      rw [if_pos hcont] at hfit
      obtain ⟨st1, hst1, hh⟩ := Outcome.bind_ok hh
      rw [hst1] at hfit
      simp only [Bool.and_eq_true] at hfit
      have hpen := run_body_pen hst1
      have hmono := apply_penalties_mono p c hp st.alt_path st.original_path.length
        st.service.penalized_graph st1.service.penalized_graph h.hinv.hpc
        (h.hinv.hps.chain_rev h.hpath) hfit.1 hpen
      exact ih _ st1 st' (run_body_inv hc h hcont hst1) (hge.then_weights hmono) hh hfit.2
    · cases hh
      exact hge

/-- C34: let `g` be a consistent input graph and let the penalised value of a weight never
be below the weight (as for the factor `1 + penalty_factor`). At the start of the loop of
`PenaltyService::run()` and after every pass of it, as long as no addition of
`apply_penalties` wraps, `penalized_graph` stores an arc between two nodes exactly when `g`
does, and every arc of `g` has in `penalized_graph` a weight that is at least its weight in
`g`. After `reset()` the penalized graph is the input graph again, with the same arcs and
the same weights. -/
theorem C34_penalized_graph_weights (p : PenaltyParams) (c : Constants) (g : Graph)
    (hc : g.Consistent) (hp : ∀ w, w ≤ p.penalize w) (fuel : Nat)
    (scheds : List (List Bool)) (s t : Nat) (ch : ContractionHierarchy) (k : Nat)
    (sv : PenaltyService)
    (hrun : penalty_service_after p c fuel g ch scheds k s t = Outcome.ok sv)
    (hfit : penalty_run_fits p c fuel g ch scheds k s t = true) :
    SameArcs g sv.penalized_graph ∧ WeightsAtLeast g sv.penalized_graph ∧
    (sv.reset c).penalized_graph = g := by
  unfold penalty_service_after at hrun
  obtain ⟨st, hst, hrun⟩ := Outcome.bind_ok hrun
  obtain ⟨st1, hst1, hrun⟩ := Outcome.bind_ok hrun
  cases hrun
  unfold penalty_run_fits at hfit
  rw [hst] at hfit
  simp only at hfit
  have h0 := run_init_inv hc (penInv_new c g hc ch s t)
      (by show 20 + 3 < wrap32; decide) hst
  have hinv := run_loop_inv hc fuel k _ st st1 h0 hst1
  have hge0 : WeightsGe g st.service.penalized_graph := by
    rw [run_init_pen hst]
    exact WeightsGe.same_weights g
  have hge := run_loop_weights hc hp fuel k _ st st1 h0 hge0 hst1 hfit
  refine ⟨hinv.hinv.hps, hge.at_least hc hinv.hinv.hpc, ?_⟩
  show st1.service.g = g
  exact hinv.hinv.hg

theorem Outcome.exists_of_is_ok {α : Type} {x : Outcome α} (h : x.is_ok = true) :
    ∃ a, x = Outcome.ok a := by
  cases x with
  | ok a => exact ⟨a, rfl⟩
  | out_of_range => cases h
  | empty_pop => cases h
  | no_fuel => cases h

theorem triangle_run_is_ok :
    (penalty_service_after defaultParams stdConstants 8 triangle
      ⟨triangle, Graph.new 3, [0, 1, 2]⟩ [] 3 0 2).is_ok = true := by
  decide!

/-- Witness for C34: three passes of the penalty run from 0 to 2 on the triangle of
scenario S1, with the hierarchy whose forward graph is the triangle. -/
theorem C34_penalized_graph_weights_witness :
    ∃ sv, penalty_service_after defaultParams stdConstants 8 triangle
        ⟨triangle, Graph.new 3, [0, 1, 2]⟩ [] 3 0 2 = Outcome.ok sv ∧
      SameArcs triangle sv.penalized_graph ∧ WeightsAtLeast triangle sv.penalized_graph ∧
      (sv.reset stdConstants).penalized_graph = triangle :=
  (Outcome.exists_of_is_ok triangle_run_is_ok).elim (fun sv hsv =>
    ⟨sv, hsv, C34_penalized_graph_weights defaultParams stdConstants triangle
      triangle_consistent penalize_ge 8 [] 0 2
      ⟨triangle, Graph.new 3, [0, 1, 2]⟩ 3 sv hsv (by decide!)⟩)

end PenAstar

namespace PenAstar

open DijkstraService

/-! ### The forward search of CHQueryService simulates DijkstraService -/

theorem KeepQB.same_qb (q : CHQueryService) : KeepQB q q := ⟨rfl, rfl, rfl, rfl⟩

theorem KeepQB.then_qb {q q1 q2 : CHQueryService} (h1 : KeepQB q q1) (h2 : KeepQB q1 q2) :
    KeepQB q q2 :=
  ⟨h2.hch.trans h1.hch, h2.hq.trans h1.hq, h2.hd.trans h1.hd, h2.hs.trans h1.hs⟩

theorem query_relax_forward_sim {q : CHQueryService} {s : DijkstraService} (h : SimQF q s)
    (best : Nat) (e : Edge) (hbl : e.target ≠ s.blacklisted) :
    SimQF (q.relax_forward best e) (s.relax best e) ∧ KeepQB q (q.relax_forward best e) ∧
      (q.relax_forward best e).tentative_dist = q.tentative_dist ∧
      (q.relax_forward best e).forward_search_space = q.forward_search_space := by
  obtain ⟨hg, hd, hq, hs⟩ := h
  unfold CHQueryService.relax_forward DijkstraService.relax
  rw [if_neg hbl, hd, hq]
  by_cases hlt : (q.dist_vec_forward.get best + e.weight) % wrap32 < q.dist_vec_forward.get e.target
  · rw [if_pos hlt, if_pos hlt]
    exact ⟨⟨hg, rfl, rfl, hs⟩, ⟨rfl, rfl, rfl, rfl⟩, rfl, rfl⟩
  · rw [if_neg hlt, if_neg hlt]
    exact ⟨⟨hg, hd, hq, hs⟩, ⟨rfl, rfl, rfl, rfl⟩, rfl, rfl⟩

theorem query_relax_forward_foldl_sim (best : Nat) (arcs : List Edge) :
    ∀ (q : CHQueryService) (s : DijkstraService), SimQF q s →
      (∀ e ∈ arcs, e.target ≠ s.blacklisted) →
      SimQF (arcs.foldl (fun st e => CHQueryService.relax_forward st best e) q)
        (arcs.foldl (fun st e => DijkstraService.relax st best e) s) ∧
      KeepQB q (arcs.foldl (fun st e => CHQueryService.relax_forward st best e) q) ∧
      (arcs.foldl (fun st e => CHQueryService.relax_forward st best e) q).tentative_dist
        = q.tentative_dist ∧
      (arcs.foldl (fun st e => CHQueryService.relax_forward st best e) q).forward_search_space
        = q.forward_search_space := by
  induction arcs with
  | nil => intro q s h _; exact ⟨h, KeepQB.same_qb q, rfl, rfl⟩
  | cons e rest ih =>
    intro q s h hbl
    obtain ⟨h1, k1, t1, f1⟩ := query_relax_forward_sim h best e (hbl e (List.mem_cons_self _ _))
    obtain ⟨h2, k2, t2, f2⟩ := ih _ _ h1 (fun e' he' => by
      rw [relax_blacklisted]
      exact hbl e' (List.mem_cons_of_mem _ he'))
    exact ⟨h2, k1.then_qb k2, t2.trans t1, f2.trans f1⟩

/-- A call of `step_forward` is the step of the Dijkstra service it simulates, together
with the test of the popped node against the backward search. -/
theorem query_step_forward_sim {q : CHQueryService} {s : DijkstraService} (h : SimQF q s)
    {cur : Nat} {s1 : DijkstraService} (hstep : s.step = some (cur, s1))
    (hbl : ∀ e ∈ s.g.get_out_arcs cur, e.target ≠ s.blacklisted)
    (hcur : cur < q.forward_search_space.vec.length) :
    ∃ q1, q.step_forward = Outcome.ok q1 ∧ SimQF q1 s1 ∧ KeepQB q q1 ∧
      q1.forward_search_space.vec.length = q.forward_search_space.vec.length ∧
      q1.tentative_dist =
        if q.backward_search_space.has cur = true ∧
          (q.dist_vec_forward.get cur + q.dist_vec_backward.get cur) % wrap32 < q.tentative_dist
        then (q.dist_vec_forward.get cur + q.dist_vec_backward.get cur) % wrap32
        else q.tentative_dist := by
  unfold DijkstraService.step at hstep
  unfold CHQueryService.step_forward
  rw [← h.hq]
  cases hpop : s.queue.pop with
  | none => rw [hpop] at hstep; simp at hstep
  | some r =>
    obtain ⟨m, q'⟩ := r
    rw [hpop] at hstep
    simp only [Option.some.injEq, Prod.mk.injEq] at hstep
    obtain ⟨hc, hs1⟩ := hstep
    subst hc
    simp only
    have harcs : q.ch.forward_graph.get_out_arcs m.id = s.g.get_out_arcs m.id := by rw [h.hg]
    rw [harcs]
    have hss : ∀ x ∈ s.search_space ++ [m.id],
        (q.forward_search_space.set m.id).has x = true := by
      intro x hx
      rcases List.mem_append.1 hx with h1 | h1
      · exact BoolSet.has_set_of_has _ _ _ (h.hs x h1)
      · rw [List.mem_singleton] at h1
        rw [h1]
        exact BoolSet.has_set_self _ _ hcur
    by_cases hb : q.backward_search_space.has m.id = true
    · rw [if_pos hb]
      by_cases hlt : (q.dist_vec_forward.get m.id + q.dist_vec_backward.get m.id) % wrap32
          < q.tentative_dist
      · have h0 : SimQF (CHQueryService.meet { q with forward_queue := q', forward_search_space := q.forward_search_space.set m.id } m.id)
            { s with queue := q', search_space := s.search_space ++ [m.id] } := by
          unfold CHQueryService.meet
          rw [if_pos hlt]
          exact ⟨h.hg, h.hd, rfl, hss⟩
        obtain ⟨h2, k2, t2, f2⟩ := query_relax_forward_foldl_sim m.id (s.g.get_out_arcs m.id) _ _ h0 hbl
        refine ⟨_, rfl, by rw [← hs1]; exact h2, ?_, ?_, ?_⟩
        · refine ⟨k2.hch.trans ?_, k2.hq.trans ?_, k2.hd.trans ?_, k2.hs.trans ?_⟩ <;>
          · unfold CHQueryService.meet
            rw [if_pos hlt]
        · rw [f2]
          unfold CHQueryService.meet
          rw [if_pos hlt]
          exact BoolSet.vec_length_set _ _
        · rw [t2, if_pos ⟨hb, hlt⟩]
          unfold CHQueryService.meet
          rw [if_pos hlt]
      · have h0 : SimQF (CHQueryService.meet { q with forward_queue := q', forward_search_space := q.forward_search_space.set m.id } m.id)
            { s with queue := q', search_space := s.search_space ++ [m.id] } := by
          unfold CHQueryService.meet
          rw [if_neg hlt]
          exact ⟨h.hg, h.hd, rfl, hss⟩
        obtain ⟨h2, k2, t2, f2⟩ := query_relax_forward_foldl_sim m.id (s.g.get_out_arcs m.id) _ _ h0 hbl
        refine ⟨_, rfl, by rw [← hs1]; exact h2, ?_, ?_, ?_⟩
        · refine ⟨k2.hch.trans ?_, k2.hq.trans ?_, k2.hd.trans ?_, k2.hs.trans ?_⟩ <;>
          · unfold CHQueryService.meet
            rw [if_neg hlt]
        · rw [f2]
          unfold CHQueryService.meet
          rw [if_neg hlt]
          exact BoolSet.vec_length_set _ _
        · rw [t2, if_neg (fun h => hlt h.2)]
          unfold CHQueryService.meet
          rw [if_neg hlt]
    · rw [if_neg hb]
      have h0 : SimQF { q with forward_queue := q', forward_search_space := q.forward_search_space.set m.id }
          { s with queue := q', search_space := s.search_space ++ [m.id] } :=
        ⟨h.hg, h.hd, rfl, hss⟩
      obtain ⟨h2, k2, t2, f2⟩ := query_relax_forward_foldl_sim m.id (s.g.get_out_arcs m.id) _ _ h0 hbl
      refine ⟨_, rfl, by rw [← hs1]; exact h2, ⟨k2.hch, k2.hq, k2.hd, k2.hs⟩, ?_, ?_⟩
      · rw [f2]
        exact BoolSet.vec_length_set _ _
      · rw [t2, if_neg (fun h => hb h.1)]

end PenAstar

namespace PenAstar

open DijkstraService

/-! ### The backward search of CHQueryService simulates DijkstraService -/

theorem KeepQF.same_qf (q : CHQueryService) : KeepQF q q := ⟨rfl, rfl, rfl, rfl⟩

theorem KeepQF.then_qf {q q1 q2 : CHQueryService} (h1 : KeepQF q q1) (h2 : KeepQF q1 q2) :
    KeepQF q q2 :=
  ⟨h2.hch.trans h1.hch, h2.hq.trans h1.hq, h2.hd.trans h1.hd, h2.hs.trans h1.hs⟩

theorem query_relax_backward_sim {q : CHQueryService} {s : DijkstraService} (h : SimQB q s)
    (best : Nat) (e : Edge) (hbl : e.target ≠ s.blacklisted) :
    SimQB (q.relax_backward best e) (s.relax best e) ∧ KeepQF q (q.relax_backward best e) ∧
      (q.relax_backward best e).tentative_dist = q.tentative_dist ∧
      (q.relax_backward best e).backward_search_space = q.backward_search_space := by
  obtain ⟨hg, hd, hq, hs⟩ := h
  unfold CHQueryService.relax_backward DijkstraService.relax
  rw [if_neg hbl, hd, hq]
  by_cases hlt : (q.dist_vec_backward.get best + e.weight) % wrap32 < q.dist_vec_backward.get e.target
  · rw [if_pos hlt, if_pos hlt]
    exact ⟨⟨hg, rfl, rfl, hs⟩, ⟨rfl, rfl, rfl, rfl⟩, rfl, rfl⟩
  · rw [if_neg hlt, if_neg hlt]
    exact ⟨⟨hg, hd, hq, hs⟩, ⟨rfl, rfl, rfl, rfl⟩, rfl, rfl⟩

theorem query_relax_backward_foldl_sim (best : Nat) (arcs : List Edge) :
    ∀ (q : CHQueryService) (s : DijkstraService), SimQB q s →
      (∀ e ∈ arcs, e.target ≠ s.blacklisted) →
      SimQB (arcs.foldl (fun st e => CHQueryService.relax_backward st best e) q)
        (arcs.foldl (fun st e => DijkstraService.relax st best e) s) ∧
      KeepQF q (arcs.foldl (fun st e => CHQueryService.relax_backward st best e) q) ∧
      (arcs.foldl (fun st e => CHQueryService.relax_backward st best e) q).tentative_dist
        = q.tentative_dist ∧
      (arcs.foldl (fun st e => CHQueryService.relax_backward st best e) q).backward_search_space
        = q.backward_search_space := by
  induction arcs with
  | nil => intro q s h _; exact ⟨h, KeepQF.same_qf q, rfl, rfl⟩
  | cons e rest ih =>
    intro q s h hbl
    obtain ⟨h1, k1, t1, f1⟩ := query_relax_backward_sim h best e (hbl e (List.mem_cons_self _ _))
    obtain ⟨h2, k2, t2, f2⟩ := ih _ _ h1 (fun e' he' => by
      rw [relax_blacklisted]
      exact hbl e' (List.mem_cons_of_mem _ he'))
    exact ⟨h2, k1.then_qf k2, t2.trans t1, f2.trans f1⟩

/-- A call of `step_backward` is the step of the Dijkstra service it simulates, together
with the test of the popped node against the forward search. -/
theorem query_step_backward_sim {q : CHQueryService} {s : DijkstraService} (h : SimQB q s)
    {cur : Nat} {s1 : DijkstraService} (hstep : s.step = some (cur, s1))
    (hbl : ∀ e ∈ s.g.get_out_arcs cur, e.target ≠ s.blacklisted)
    (hcur : cur < q.backward_search_space.vec.length) :
    ∃ q1, q.step_backward = Outcome.ok q1 ∧ SimQB q1 s1 ∧ KeepQF q q1 ∧
      q1.backward_search_space.vec.length = q.backward_search_space.vec.length ∧
      q1.tentative_dist =
        if q.forward_search_space.has cur = true ∧
          (q.dist_vec_forward.get cur + q.dist_vec_backward.get cur) % wrap32 < q.tentative_dist
        then (q.dist_vec_forward.get cur + q.dist_vec_backward.get cur) % wrap32
        else q.tentative_dist := by
  unfold DijkstraService.step at hstep
  unfold CHQueryService.step_backward
  rw [← h.hq]
  cases hpop : s.queue.pop with
  | none => rw [hpop] at hstep; simp at hstep
  | some r =>
    obtain ⟨m, q'⟩ := r
    rw [hpop] at hstep
    simp only [Option.some.injEq, Prod.mk.injEq] at hstep
    obtain ⟨hc, hs1⟩ := hstep
    subst hc
    simp only
    have harcs : q.ch.backward_graph.get_out_arcs m.id = s.g.get_out_arcs m.id := by rw [h.hg]
    rw [harcs]
    have hss : ∀ x ∈ s.search_space ++ [m.id],
        (q.backward_search_space.set m.id).has x = true := by
      intro x hx
      rcases List.mem_append.1 hx with h1 | h1
      · exact BoolSet.has_set_of_has _ _ _ (h.hs x h1)
      · rw [List.mem_singleton] at h1
        rw [h1]
        exact BoolSet.has_set_self _ _ hcur
    by_cases hb : q.forward_search_space.has m.id = true
    · rw [if_pos hb]
      by_cases hlt : (q.dist_vec_forward.get m.id + q.dist_vec_backward.get m.id) % wrap32
          < q.tentative_dist
      · have h0 : SimQB (CHQueryService.meet { q with backward_queue := q', backward_search_space := q.backward_search_space.set m.id } m.id)
            { s with queue := q', search_space := s.search_space ++ [m.id] } := by
          unfold CHQueryService.meet
          rw [if_pos hlt]
          exact ⟨h.hg, h.hd, rfl, hss⟩
        obtain ⟨h2, k2, t2, f2⟩ := query_relax_backward_foldl_sim m.id (s.g.get_out_arcs m.id) _ _ h0 hbl
        refine ⟨_, rfl, by rw [← hs1]; exact h2, ?_, ?_, ?_⟩
        · refine ⟨k2.hch.trans ?_, k2.hq.trans ?_, k2.hd.trans ?_, k2.hs.trans ?_⟩ <;>
          · unfold CHQueryService.meet
            rw [if_pos hlt]
        · rw [f2]
          unfold CHQueryService.meet
          rw [if_pos hlt]
          exact BoolSet.vec_length_set _ _
        · rw [t2, if_pos ⟨hb, hlt⟩]
          unfold CHQueryService.meet
          rw [if_pos hlt]
      · have h0 : SimQB (CHQueryService.meet { q with backward_queue := q', backward_search_space := q.backward_search_space.set m.id } m.id)
            { s with queue := q', search_space := s.search_space ++ [m.id] } := by
          unfold CHQueryService.meet
          rw [if_neg hlt]
          exact ⟨h.hg, h.hd, rfl, hss⟩
        obtain ⟨h2, k2, t2, f2⟩ := query_relax_backward_foldl_sim m.id (s.g.get_out_arcs m.id) _ _ h0 hbl
        refine ⟨_, rfl, by rw [← hs1]; exact h2, ?_, ?_, ?_⟩
        · refine ⟨k2.hch.trans ?_, k2.hq.trans ?_, k2.hd.trans ?_, k2.hs.trans ?_⟩ <;>
          · unfold CHQueryService.meet
            rw [if_neg hlt]
        · rw [f2]
          unfold CHQueryService.meet
          rw [if_neg hlt]
          exact BoolSet.vec_length_set _ _
        · rw [t2, if_neg (fun h => hlt h.2)]
          unfold CHQueryService.meet
          rw [if_neg hlt]
    · rw [if_neg hb]
      have h0 : SimQB { q with backward_queue := q', backward_search_space := q.backward_search_space.set m.id }
          { s with queue := q', search_space := s.search_space ++ [m.id] } :=
        ⟨h.hg, h.hd, rfl, hss⟩
      obtain ⟨h2, k2, t2, f2⟩ := query_relax_backward_foldl_sim m.id (s.g.get_out_arcs m.id) _ _ h0 hbl
      refine ⟨_, rfl, by rw [← hs1]; exact h2, ⟨k2.hch, k2.hq, k2.hd, k2.hs⟩, ?_, ?_⟩
      · rw [f2]
        exact BoolSet.vec_length_set _ _
      · rw [t2, if_neg (fun h => hb h.1)]

end PenAstar

namespace PenAstar

open DijkstraService

theorem QCtx.nowrapF {c : Constants} {F B : Graph} {n : Nat} (ctx : QCtx c F B n) (s : Nat) :
    ∀ u d, Walk (F.arc_avoiding c.invalid_id) s u d →
      (∀ d', Walk (F.arc_avoiding c.invalid_id) s u d' → d ≤ d') → d < c.inf_weight →
      ∀ e ∈ F.get_out_arcs u, d + e.weight < wrap32 := by
  intro u d _ _ hd e he
  have := ctx.hFW u e he
  have := ctx.h2
  omega

theorem QCtx.nowrapB {c : Constants} {F B : Graph} {n : Nat} (ctx : QCtx c F B n) (t : Nat) :
    ∀ u d, Walk (B.arc_avoiding c.invalid_id) t u d →
      (∀ d', Walk (B.arc_avoiding c.invalid_id) t u d' → d ≤ d') → d < c.inf_weight →
      ∀ e ∈ B.get_out_arcs u, d + e.weight < wrap32 := by
  intro u d _ _ hd e he
  have := ctx.hBW u e he
  have := ctx.h2
  omega

theorem step_pop {s s1 : DijkstraService} {cur : Nat} (h : s.step = some (cur, s1)) :
    ∃ m q', s.queue.pop = some (m, q') ∧ m.id = cur := by
  unfold DijkstraService.step at h
  cases hpop : s.queue.pop with
  | none => rw [hpop] at h; simp at h
  | some r =>
    obtain ⟨m, q'⟩ := r
    rw [hpop] at h
    simp only [Option.some.injEq, Prod.mk.injEq] at h
    exact ⟨m, q', rfl, h.1⟩

/-- The entry of the node that `step` pops is the weight of a walk from the source, below
`inf_weight`, and no walk from the source to the node is lighter. -/
theorem DijkstraService.Exact.popped {c : Constants} {g : Graph} {bl src b0 : Nat} {s s1 : DijkstraService}
    (h : Exact c g bl src b0 [] s)
    (hnowrap : ∀ u d, Walk (g.arc_avoiding bl) src u d →
      (∀ d', Walk (g.arc_avoiding bl) src u d' → d ≤ d') → d < c.inf_weight →
      ∀ e ∈ g.get_out_arcs u, d + e.weight < wrap32)
    {cur : Nat} (hstep : s.step = some (cur, s1)) :
    cur < g.size ∧ s.dist_vec.get cur < c.inf_weight ∧
    Walk (g.arc_avoiding bl) src cur (s.dist_vec.get cur) ∧
    ∀ d', Walk (g.arc_avoiding bl) src cur d' → s.dist_vec.get cur ≤ d' := by
  obtain ⟨m, q', hpop, hm⟩ := step_pop hstep
  have hex := h.pop hnowrap hpop
  have hin : m.id ∈ s.search_space ++ [m.id] := by simp
  have h1 := hex.hS m.id hin
  have h2 := hex.sound.hval m.id h1.1
  rw [← hm]
  exact ⟨h2.1, h2.2.1, h2.2.2, h1.2.2⟩

/-- The forward half of a pass of the loop of `query` keeps the invariant; a search that
is not done settles one more node. -/
theorem pass_forward_inv {c : Constants} {F B : Graph} {n s t T : Nat} (ctx : QCtx c F B n)
    {fd bd : Bool} {q : CHQueryService} {sF sB : DijkstraService}
    (h : QInv c F B n s t T fd bd q sF sB) :
    ∃ q1 fd1 sF1, CHQueryService.pass_forward fd q = Outcome.ok (q1, fd1) ∧
      QInv c F B n s t T fd1 bd q1 sF1 sB ∧
      (fd = true → fd1 = true ∧ sF1.search_space.length = sF.search_space.length) ∧
      (fd = false → sF1.search_space.length = sF.search_space.length + 1) := by
  unfold CHQueryService.pass_forward
  cases hfd : fd with
  | true =>
    rw [if_neg (by simp)]
    refine ⟨q, true, sF, rfl, ?_, (fun _ => ⟨rfl, rfl⟩), (fun h0 => by cases h0)⟩
    rw [hfd] at h
    exact h
  | false =>
    rw [if_pos (by simp)]
    obtain ⟨bF, hexF⟩ := h.hexF
    obtain ⟨bB, hexB⟩ := h.hexB
    have hq := h.hqF hfd
    cases hstep : sF.step with
    | none => exact absurd hstep (step_ne_none hq)
    | some r =>
      obtain ⟨cur, sF1⟩ := r
      obtain ⟨hex1, hS1, _⟩ := hexF.step ctx.hFTV (ctx.nowrapF s) hstep
      obtain ⟨hcn, hcinf, hcw, hcmin⟩ := hexF.popped (ctx.nowrapF s) hstep
      have hblk : ∀ e ∈ sF.g.get_out_arcs cur, e.target ≠ sF.blacklisted := by
        intro e he
        rw [hexF.sound.hg] at he
        rw [hexF.sound.hbl]
        have h1 := ctx.hFTV cur e he
        have h2 := ctx.hFn
        have h3 := ctx.hid
        omega
      obtain ⟨q1, hq1, hsim1, k1, hl1, ht1⟩ := query_step_forward_sim h.hsimF hstep hblk
        (by rw [h.hfl, ← ctx.hFn]; exact hcn)
      rw [hq1]
      simp only
      obtain ⟨he1, hs1⟩ := epoch_step hstep
      have hdf : q.dist_vec_forward.get cur = sF.dist_vec.get cur := by rw [h.hsimF.hd]
      have hdb : q.dist_vec_backward.get cur = sB.dist_vec.get cur := by rw [h.hsimB.hd]
      -- the value of `tentative_dist` afterwards
      have hτle : q1.tentative_dist ≤ q.tentative_dist := by
        rw [ht1]
        split
        · rename_i hc
          exact Nat.le_of_lt hc.2
        · exact Nat.le_refl _
      have hbinf : sB.dist_vec.get cur ≤ c.inf_weight := hexB.sound.get_le_inf cur
      have hsum : (q.dist_vec_forward.get cur + q.dist_vec_backward.get cur) % wrap32 =
          sF.dist_vec.get cur + sB.dist_vec.get cur := by
        rw [hdf, hdb]
        apply Nat.mod_eq_of_lt
        have := ctx.h2
        omega
      rw [hsum] at ht1
      have hsimB1 : SimQB q1 sB :=
        ⟨h.hsimB.hg.trans (by rw [k1.hch]), h.hsimB.hd.trans k1.hd.symm,
          h.hsimB.hq.trans k1.hq.symm, fun x hx => by rw [k1.hs]; exact h.hsimB.hs x hx⟩
      refine ⟨q1, q1.forward_stop, sF1, rfl, ?_, (fun h0 => by cases h0), fun _ => ?_⟩
      · exact
        { hexF := ⟨cur, hex1⟩
          hexB := ⟨bB, hexB⟩
          hsimF := hsim1
          hsimB := hsimB1
          hfl := hl1.trans h.hfl
          hbl := by rw [k1.hs]; exact h.hbl
          htF := he1.trans h.htF
          htB := h.htB
          hsF := hs1 h.hsF
          hsB := h.hsB
          hqF := by
            intro hstop
            unfold CHQueryService.forward_stop at hstop
            rw [Bool.or_eq_false_iff] at hstop
            intro hemp
            have : q1.forward_queue.empty = true := by
              rw [MinIDQueue.empty_iff, ← hsim1.hq]
              exact hemp
            rw [this] at hstop
            cases hstop.1
          hqB := h.hqB
          hdF := by
            intro hstop v a hw ha
            have hw' := (walk_avoiding_iff ctx.hFTV (by rw [ctx.hFn]; exact ctx.hid) s v a).2 hw
            rcases hex1.walk_cases hw' with ⟨hv, _⟩ | ⟨p, hp, hpk⟩ | hge
            · exact hv
            · exfalso
              unfold CHQueryService.forward_stop at hstop
              rw [Bool.or_eq_true] at hstop
              rw [hsim1.hq] at hp
              rcases hstop with h0 | h0
              · rw [MinIDQueue.empty_iff] at h0
                rw [h0] at hp
                simp at hp
              · unfold MinIDQueue.peek at h0
                cases hmin : MinIDQueue.min_entry q1.forward_queue.entries with
                | none =>
                  rw [(MinIDQueue.min_entry_eq_none _).1 hmin] at hp
                  simp at hp
                | some p0 =>
                  rw [hmin] at h0
                  simp only [gt_iff_lt, decide_eq_true_eq] at h0
                  have := (MinIDQueue.min_entry_spec _ _ hmin).2 p hp
                  omega
            · exfalso
              have := h.hle
              omega
          hdB := by
            intro hb v b hw hb'
            exact h.hdB hb v b hw (Nat.lt_of_lt_of_le hb' hτle)
          hmeet := by
            intro v hvF hvB a b hwa hwb
            rw [hS1] at hvF
            rcases List.mem_append.1 hvF with hv | hv
            · exact hτle.trans (h.hmeet v hv hvB a b hwa hwb)
            · rw [List.mem_singleton] at hv
              subst hv
              have hflag : q.backward_search_space.has v = true := h.hsimB.hs v hvB
              have ha := hcmin a
                ((walk_avoiding_iff ctx.hFTV (by rw [ctx.hFn]; exact ctx.hid) s v a).2 hwa)
              have hb := (hexB.hS v hvB).2.2 b
                ((walk_avoiding_iff ctx.hBTV (by rw [ctx.hBn]; exact ctx.hid) t v b).2 hwb)
              rw [ht1]
              split
              · omega
              · rename_i hc
                have : ¬ (sF.dist_vec.get v + sB.dist_vec.get v < q.tentative_dist) :=
                  fun h3 => hc ⟨hflag, h3⟩
                omega
          hle := hτle.trans h.hle
          hup := by
            rw [ht1]
            split
            · rename_i hc
              right
              have hhasB : sB.dist_vec.has cur = true := by
                cases hh : sB.dist_vec.has cur with
                | true => rfl
                | false =>
                  exfalso
                  have h3 := hc.2
                  rw [TimestampVector.get_of_not_has _ _ hh, hexB.sound.hdef] at h3
                  have := h.hle
                  omega
              have hvB := hexB.sound.hval cur hhasB
              exact ⟨cur, _, _,
                (walk_avoiding_iff ctx.hFTV (by rw [ctx.hFn]; exact ctx.hid) s cur _).1 hcw,
                (walk_avoiding_iff ctx.hBTV (by rw [ctx.hBn]; exact ctx.hid) t cur _).1
                  hvB.2.2, rfl⟩
            · exact h.hup }
      · rw [hS1, List.length_append, List.length_singleton]

end PenAstar

namespace PenAstar

open DijkstraService

/-- The backward half of a pass of the loop of `query` keeps the invariant; a search that
is not done settles one more node. -/
theorem pass_backward_inv {c : Constants} {F B : Graph} {n s t T : Nat} (ctx : QCtx c F B n)
    {fd bd : Bool} {q : CHQueryService} {sF sB : DijkstraService}
    (h : QInv c F B n s t T fd bd q sF sB) :
    ∃ q1 bd1 sB1, CHQueryService.pass_backward bd q = Outcome.ok (q1, bd1) ∧
      QInv c F B n s t T fd bd1 q1 sF sB1 ∧
      (bd = true → bd1 = true ∧ sB1.search_space.length = sB.search_space.length) ∧
      (bd = false → sB1.search_space.length = sB.search_space.length + 1) := by
  unfold CHQueryService.pass_backward
  cases hbd : bd with
  | true =>
    rw [if_neg (by simp)]
    refine ⟨q, true, sB, rfl, ?_, (fun _ => ⟨rfl, rfl⟩), (fun h0 => by cases h0)⟩
    rw [hbd] at h
    exact h
  | false =>
    rw [if_pos (by simp)]
    obtain ⟨bB, hexB⟩ := h.hexB
    obtain ⟨bF, hexF⟩ := h.hexF
    have hq := h.hqB hbd
    cases hstep : sB.step with
    | none => exact absurd hstep (step_ne_none hq)
    | some r =>
      obtain ⟨cur, sB1⟩ := r
      obtain ⟨hex1, hS1, _⟩ := hexB.step ctx.hBTV (ctx.nowrapB t) hstep
      obtain ⟨hcn, hcinf, hcw, hcmin⟩ := hexB.popped (ctx.nowrapB t) hstep
      have hblk : ∀ e ∈ sB.g.get_out_arcs cur, e.target ≠ sB.blacklisted := by
        intro e he
        rw [hexB.sound.hg] at he
        rw [hexB.sound.hbl]
        have h1 := ctx.hBTV cur e he
        have h2 := ctx.hBn
        have h3 := ctx.hid
        omega
      obtain ⟨q1, hq1, hsim1, k1, hl1, ht1⟩ := query_step_backward_sim h.hsimB hstep hblk
        (by rw [h.hbl, ← ctx.hBn]; exact hcn)
      rw [hq1]
      simp only
      obtain ⟨he1, hs1⟩ := epoch_step hstep
      have hdb : q.dist_vec_backward.get cur = sB.dist_vec.get cur := by rw [h.hsimB.hd]
      have hdf : q.dist_vec_forward.get cur = sF.dist_vec.get cur := by rw [h.hsimF.hd]
      -- the value of `tentative_dist` afterwards
      have hτle : q1.tentative_dist ≤ q.tentative_dist := by
        rw [ht1]
        split
        · rename_i hc
          exact Nat.le_of_lt hc.2
        · exact Nat.le_refl _
      have hfinf : sF.dist_vec.get cur ≤ c.inf_weight := hexF.sound.get_le_inf cur
      have hsum : (q.dist_vec_forward.get cur + q.dist_vec_backward.get cur) % wrap32 =
          sF.dist_vec.get cur + sB.dist_vec.get cur := by
        rw [hdf, hdb]
        apply Nat.mod_eq_of_lt
        have := ctx.h2
        omega
      rw [hsum] at ht1
      have hsimF1 : SimQF q1 sF :=
        ⟨h.hsimF.hg.trans (by rw [k1.hch]), h.hsimF.hd.trans k1.hd.symm,
          h.hsimF.hq.trans k1.hq.symm, fun x hx => by rw [k1.hs]; exact h.hsimF.hs x hx⟩
      refine ⟨q1, q1.backward_stop, sB1, rfl, ?_, (fun h0 => by cases h0), fun _ => ?_⟩
      · exact
        { hexB := ⟨cur, hex1⟩
          hexF := ⟨bF, hexF⟩
          hsimB := hsim1
          hsimF := hsimF1
          hbl := hl1.trans h.hbl
          hfl := by rw [k1.hs]; exact h.hfl
          htB := he1.trans h.htB
          htF := h.htF
          hsB := hs1 h.hsB
          hsF := h.hsF
          hqB := by
            intro hstop
            unfold CHQueryService.backward_stop at hstop
            rw [Bool.or_eq_false_iff] at hstop
            intro hemp
            have : q1.backward_queue.empty = true := by
              rw [MinIDQueue.empty_iff, ← hsim1.hq]
              exact hemp
            rw [this] at hstop
            cases hstop.1
          hqF := h.hqF
          hdB := by
            intro hstop v a hw ha
            have hw' := (walk_avoiding_iff ctx.hBTV (by rw [ctx.hBn]; exact ctx.hid) t v a).2 hw
            rcases hex1.walk_cases hw' with ⟨hv, _⟩ | ⟨p, hp, hpk⟩ | hge
            · exact hv
            · exfalso
              unfold CHQueryService.backward_stop at hstop
              rw [Bool.or_eq_true] at hstop
              rw [hsim1.hq] at hp
              rcases hstop with h0 | h0
              · rw [MinIDQueue.empty_iff] at h0
                rw [h0] at hp
                simp at hp
              · unfold MinIDQueue.peek at h0
                cases hmin : MinIDQueue.min_entry q1.backward_queue.entries with
                | none =>
                  rw [(MinIDQueue.min_entry_eq_none _).1 hmin] at hp
                  simp at hp
                | some p0 =>
                  rw [hmin] at h0
                  simp only [gt_iff_lt, decide_eq_true_eq] at h0
                  have := (MinIDQueue.min_entry_spec _ _ hmin).2 p hp
                  omega
            · exfalso
              have := h.hle
              omega
          hdF := by
            intro hb v b hw hb'
            exact h.hdF hb v b hw (Nat.lt_of_lt_of_le hb' hτle)
          hmeet := by
            intro v hvF hvB a b hwa hwb
            rw [hS1] at hvB
            rcases List.mem_append.1 hvB with hv | hv
            · exact hτle.trans (h.hmeet v hvF hv a b hwa hwb)
            · rw [List.mem_singleton] at hv
              subst hv
              have hflag : q.forward_search_space.has v = true := h.hsimF.hs v hvF
              have ha := (hexF.hS v hvF).2.2 a
                ((walk_avoiding_iff ctx.hFTV (by rw [ctx.hFn]; exact ctx.hid) s v a).2 hwa)
              have hb := hcmin b
                ((walk_avoiding_iff ctx.hBTV (by rw [ctx.hBn]; exact ctx.hid) t v b).2 hwb)
              rw [ht1]
              split
              · omega
              · rename_i hc
                have : ¬ (sF.dist_vec.get v + sB.dist_vec.get v < q.tentative_dist) :=
                  fun h3 => hc ⟨hflag, h3⟩
                omega
          hle := hτle.trans h.hle
          hup := by
            rw [ht1]
            split
            · rename_i hc
              right
              have hhasF : sF.dist_vec.has cur = true := by
                cases hh : sF.dist_vec.has cur with
                | true => rfl
                | false =>
                  exfalso
                  have h3 := hc.2
                  rw [TimestampVector.get_of_not_has _ _ hh, hexF.sound.hdef] at h3
                  have := h.hle
                  omega
              have hvF := hexF.sound.hval cur hhasF
              exact ⟨cur, _, _,
                (walk_avoiding_iff ctx.hFTV (by rw [ctx.hFn]; exact ctx.hid) s cur _).1
                  hvF.2.2,
                (walk_avoiding_iff ctx.hBTV (by rw [ctx.hBn]; exact ctx.hid) t cur _).1 hcw,
                rfl⟩
            · exact h.hup }
      · rw [hS1, List.length_append, List.length_singleton]


end PenAstar

namespace PenAstar

open DijkstraService

/-- The loop of `query` terminates within `2 n + 1` passes and leaves both searches done. -/
theorem query_loop_spec {c : Constants} {F B : Graph} {n s t T : Nat} (ctx : QCtx c F B n) :
    ∀ (fuel : Nat) (fd bd : Bool) (q : CHQueryService) (sF sB : DijkstraService),
      QInv c F B n s t T fd bd q sF sB →
      (n - sF.search_space.length) + (n - sB.search_space.length) < fuel →
      ∃ q' sF' sB', CHQueryService.query_loop fuel fd bd q = Outcome.ok q' ∧
        QInv c F B n s t T true true q' sF' sB' := by
  intro fuel
  induction fuel with
  | zero => intro fd bd q sF sB _ h; omega
  | succ fuel ih =>
    intro fd bd q sF sB h hfuel
    unfold CHQueryService.query_loop
    by_cases hgo : ¬ (fd = true) ∨ ¬ (bd = true)
    · rw [if_pos hgo]
      obtain ⟨q1, fd1, sF1, hp1, hinv1, hf1, hf2⟩ := pass_forward_inv ctx h
      rw [hp1]
      simp only
      obtain ⟨q2, bd1, sB1, hp2, hinv2, hb1, hb2⟩ := pass_backward_inv ctx hinv1
      rw [hp2]
      simp only
      apply ih fd1 bd1 q2 sF1 sB1 hinv2
      obtain ⟨bF, hexF⟩ := hinv2.hexF
      obtain ⟨bB, hexB⟩ := hinv2.hexB
      have hcF := hexF.card_le
      have hcB := hexB.card_le
      rw [ctx.hFn] at hcF
      rw [ctx.hBn] at hcB
      cases hfd : fd with
      | true =>
        have h1 := (hf1 hfd).2
        cases hbd : bd with
        | true =>
          rw [hfd, hbd] at hgo
          simp at hgo
        | false =>
          have h2 := hb2 hbd
          omega
      | false =>
        have h1 := hf2 hfd
        cases hbd : bd with
        | true =>
          have h2 := (hb1 hbd).2
          omega
        | false =>
          have h2 := hb2 hbd
          omega
    · rw [if_neg hgo]
      have hfd : fd = true := by
        cases fd with
        | true => rfl
        | false => exact absurd (Or.inl (by simp)) hgo
      have hbd : bd = true := by
        cases bd with
        | true => rfl
        | false => exact absurd (Or.inr (by simp)) hgo
      subst hfd
      subst hbd
      exact ⟨q, sF, sB, rfl, h⟩

/-- With both searches done, `tentative_dist` is the least weight of an up-down walk,
capped at `inf_weight`. -/
theorem QInv.isMeet {c : Constants} {F B : Graph} {n s t T : Nat} {q : CHQueryService}
    {sF sB : DijkstraService} (h : QInv c F B n s t T true true q sF sB) :
    IsMeet c F B s t q.tentative_dist := by
  refine ⟨h.hle, ?_, h.hup⟩
  intro v a b hwa hwb
  by_contra hlt
  have h1 := h.hdF rfl v a hwa (by omega)
  have h2 := h.hdB rfl v b hwb (by omega)
  have := h.hmeet v h1 h2 a b hwa hwb
  omega

theorem IsMeet.unique_meet {c : Constants} {F B : Graph} {s t r r' : Nat}
    (h : IsMeet c F B s t r) (h' : IsMeet c F B s t r') : r = r' := by
  have key : ∀ {x y : Nat}, IsMeet c F B s t x → IsMeet c F B s t y → x ≤ y := by
    intro x y hx hy
    rcases hy.2.2 with h1 | ⟨v, a, b, ha, hb, h1⟩
    · rw [h1]
      exact hx.1
    · rw [h1]
      exact hx.2.1 v a b ha hb
  exact Nat.le_antisymm (key h h') (key h' h)

end PenAstar

namespace PenAstar

open DijkstraService

/-- The setup of `query(s, t)` on a service between two queries starts two Dijkstra
searches. -/
theorem query_setup_inv {c : Constants} {F B : Graph} {n T : Nat} (ctx : QCtx c F B n)
    {q : CHQueryService} (h : QClean c F B n T q) {s t : Nat} (hs : s < n) (ht : t < n) :
    ∃ sF sB, QInv c F B n s t T false false (CHQueryService.query_setup c q s t) sF sB ∧
      sF.search_space = [] ∧ sB.search_space = [] := by
  have hcF : Clean c F ⟨F, q.dist_vec_forward, TimestampVector.new n c.invalid_id,
      q.forward_queue, c.invalid_id, c.inf_weight, []⟩ :=
    { hg := rfl
      ht := by show 0 < q.dist_vec_forward.t; rw [h.htF]; exact h.hT
      hlen := by show q.dist_vec_forward.vec.length = F.size; rw [h.hlF, ctx.hFn]
      hplen := by
        show (TimestampVector.new n c.invalid_id).vec.length = F.size
        rw [TimestampVector.length_new, ctx.hFn]
      hdef := h.hdF
      hstamp := by
        intro p hp
        show p.2 < q.dist_vec_forward.t
        rw [h.htF]
        exact h.hsF p hp
      hq := h.hqF
      hS := rfl }
  have hcB : Clean c B ⟨B, q.dist_vec_backward, TimestampVector.new n c.invalid_id,
      q.backward_queue, c.invalid_id, c.inf_weight, []⟩ :=
    { hg := rfl
      ht := by show 0 < q.dist_vec_backward.t; rw [h.htB]; exact h.hT
      hlen := by show q.dist_vec_backward.vec.length = B.size; rw [h.hlB, ctx.hBn]
      hplen := by
        show (TimestampVector.new n c.invalid_id).vec.length = B.size
        rw [TimestampVector.length_new, ctx.hBn]
      hdef := h.hdB
      hstamp := by
        intro p hp
        show p.2 < q.dist_vec_backward.t
        rw [h.htB]
        exact h.hsB p hp
      hq := h.hqB
      hS := rfl }
  have hexF := Exact.init_clean c.invalid_id s hcF rfl (by rw [ctx.hFn]; exact hs) ctx.hinf
  have hexB := Exact.init_clean c.invalid_id t hcB rfl (by rw [ctx.hBn]; exact ht) ctx.hinf
  refine ⟨set_source c ⟨F, q.dist_vec_forward, TimestampVector.new n c.invalid_id,
      q.forward_queue, c.invalid_id, c.inf_weight, []⟩ s,
    set_source c ⟨B, q.dist_vec_backward, TimestampVector.new n c.invalid_id,
      q.backward_queue, c.invalid_id, c.inf_weight, []⟩ t, ?_, rfl, rfl⟩
  exact
  { hexF := ⟨0, hexF⟩
    hexB := ⟨0, hexB⟩
    hsimF := ⟨h.hF.symm, rfl, rfl, fun x hx => by cases hx⟩
    hsimB := ⟨h.hB.symm, rfl, rfl, fun x hx => by cases hx⟩
    hfl := h.hfl
    hbl := h.hbl
    htF := h.htF
    htB := h.htB
    hsF := (stampsLe_set_source c _ s hcF.stampsLe).1
    hsB := (stampsLe_set_source c _ t hcB.stampsLe).1
    hqF := by
      intro _
      show (q.forward_queue.push ⟨s, 0⟩).entries ≠ []
      simp [MinIDQueue.push]
    hqB := by
      intro _
      show (q.backward_queue.push ⟨t, 0⟩).entries ≠ []
      simp [MinIDQueue.push]
    hdF := fun h0 => by cases h0
    hdB := fun h0 => by cases h0
    hmeet := fun v hv => by cases hv
    hle := Nat.le_refl _
    hup := Or.inl rfl }

/-- The cleanup of `query` leaves the service ready for the next query, in the next
epoch. -/
theorem query_cleanup_clean {c : Constants} {F B : Graph} {n s t T : Nat} (ctx : QCtx c F B n)
    {fd bd : Bool} {q : CHQueryService} {sF sB : DijkstraService}
    (h : QInv c F B n s t T fd bd q sF sB) (hT : T + 1 < wrap32) :
    QClean c F B n (T + 1) (CHQueryService.query_cleanup q) := by
  obtain ⟨bF, hexF⟩ := h.hexF
  obtain ⟨bB, hexB⟩ := h.hexB
  have hdF : q.dist_vec_forward = sF.dist_vec := h.hsimF.hd.symm
  have hdB : q.dist_vec_backward = sB.dist_vec := h.hsimB.hd.symm
  obtain ⟨f1, f2, f3⟩ := TimestampVector.stale_step_time sF.dist_vec h.hsF
    (by rw [h.htF]; exact hT)
  obtain ⟨b1, b2, b3⟩ := TimestampVector.stale_step_time sB.dist_vec h.hsB
    (by rw [h.htB]; exact hT)
  rw [h.htF] at f1 f3
  rw [h.htB] at b1 b3
  exact
  { hF := by
      show q.ch.forward_graph = F
      rw [← h.hsimF.hg]
      exact hexF.sound.hg
    hB := by
      show q.ch.backward_graph = B
      rw [← h.hsimB.hg]
      exact hexB.sound.hg
    hfl := h.hfl
    hbl := h.hbl
    hqF := rfl
    hqB := rfl
    htF := by show q.dist_vec_forward.step_time.t = T + 1; rw [hdF]; exact f1
    htB := by show q.dist_vec_backward.step_time.t = T + 1; rw [hdB]; exact b1
    hT := Nat.succ_pos _
    hlF := by
      show q.dist_vec_forward.step_time.vec.length = n
      rw [hdF]
      exact hexF.sound.hlen.trans ctx.hFn
    hlB := by
      show q.dist_vec_backward.step_time.vec.length = n
      rw [hdB]
      exact hexB.sound.hlen.trans ctx.hBn
    hdF := by
      show q.dist_vec_forward.step_time.default_value = c.inf_weight
      rw [hdF, f2]
      exact hexF.sound.hdef
    hdB := by
      show q.dist_vec_backward.step_time.default_value = c.inf_weight
      rw [hdB, b2]
      exact hexB.sound.hdef
    hsF := by
      intro p hp
      have hp2 : p ∈ q.dist_vec_forward.step_time.vec := hp
      rw [hdF] at hp2
      exact f3 p hp2
    hsB := by
      intro p hp
      have hp2 : p ∈ q.dist_vec_backward.step_time.vec := hp
      rw [hdB] at hp2
      exact b3 p hp2 }

/-- A call `query(s, t)` on a service between two queries terminates, returns the least
weight of an up-down walk (capped at `inf_weight`) and leaves the service ready for the
next query. -/
theorem query_spec {c : Constants} {F B : Graph} {n T : Nat} (ctx : QCtx c F B n)
    {q : CHQueryService} (h : QClean c F B n T q) (hT : T + 1 < wrap32) {s t : Nat}
    (hs : s < n) (ht : t < n) {fuel : Nat} (hfuel : 2 * n < fuel) :
    ∃ r q', CHQueryService.query c fuel q s t = Outcome.ok (r, q') ∧ IsMeet c F B s t r ∧
      QClean c F B n (T + 1) q' := by
  obtain ⟨sF, sB, hinv, hF0, hB0⟩ := query_setup_inv ctx h hs ht
  obtain ⟨q', sF', sB', hrun, hinv'⟩ := query_loop_spec ctx fuel false false _ sF sB hinv
    (by rw [hF0, hB0]; simp only [List.length_nil]; omega)
  unfold CHQueryService.query
  rw [hrun]
  exact ⟨_, _, rfl, hinv'.isMeet, query_cleanup_clean ctx hinv' hT⟩

/-- A newly constructed query service is ready for a query, in epoch 1. -/
theorem qclean_new (c : Constants) (g : Graph) (ch : ContractionHierarchy) :
    QClean c ch.forward_graph ch.backward_graph g.size 1 (CHQueryService.new c g ch) :=
  { hF := rfl
    hB := rfl
    hfl := BoolSet.vec_length_new _
    hbl := BoolSet.vec_length_new _
    hqF := rfl
    hqB := rfl
    htF := by
      show (TimestampVector.new g.size c.inf_weight).t = 1
      simp [TimestampVector.new, TimestampVector.step_time, wrap32]
    htB := by
      show (TimestampVector.new g.size c.inf_weight).t = 1
      simp [TimestampVector.new, TimestampVector.step_time, wrap32]
    hT := Nat.one_pos
    hlF := TimestampVector.length_new _ _
    hlB := TimestampVector.length_new _ _
    hdF := rfl
    hdB := rfl
    hsF := by
      intro p hp
      have hp2 : p ∈ (TimestampVector.new g.size c.inf_weight).vec := hp
      simp only [TimestampVector.new, TimestampVector.step_time] at hp2
      rw [(List.mem_replicate.1 hp2).2]
      exact Nat.one_pos
    hsB := by
      intro p hp
      have hp2 : p ∈ (TimestampVector.new g.size c.inf_weight).vec := hp
      simp only [TimestampVector.new, TimestampVector.step_time] at hp2
      rw [(List.mem_replicate.1 hp2).2]
      exact Nat.one_pos }

end PenAstar

namespace PenAstar

open DijkstraService

/-- The inner loop of `dijkstra_on_ch` for the node `x` of the forward search space. -/
theorem best_meet_inner (fs bs : DijkstraService) (x : Nat) :
    ∀ (ys : List Nat) (acc : Nat × Nat),
      (ys.foldl (fun acc2 y =>
        if x = y then
          if (fs.get_dist x + bs.get_dist y) % wrap32 < acc2.1 then
            ((fs.get_dist x + bs.get_dist y) % wrap32, x)
          else acc2
        else acc2) acc).1 ≤ acc.1 ∧
      (x ∈ ys → (ys.foldl (fun acc2 y =>
        if x = y then
          if (fs.get_dist x + bs.get_dist y) % wrap32 < acc2.1 then
            ((fs.get_dist x + bs.get_dist y) % wrap32, x)
          else acc2
        else acc2) acc).1 ≤ (fs.get_dist x + bs.get_dist x) % wrap32) ∧
      ((ys.foldl (fun acc2 y =>
        if x = y then
          if (fs.get_dist x + bs.get_dist y) % wrap32 < acc2.1 then
            ((fs.get_dist x + bs.get_dist y) % wrap32, x)
          else acc2
        else acc2) acc).1 = acc.1 ∨
        (x ∈ ys ∧ (ys.foldl (fun acc2 y =>
          if x = y then
            if (fs.get_dist x + bs.get_dist y) % wrap32 < acc2.1 then
              ((fs.get_dist x + bs.get_dist y) % wrap32, x)
            else acc2
          else acc2) acc).1 = (fs.get_dist x + bs.get_dist x) % wrap32)) := by
  intro ys
  induction ys with
  | nil => intro acc; simp
  | cons y rest ih =>
    intro acc
    simp only [List.foldl_cons]
    by_cases hxy : x = y
    · subst hxy
      rw [if_pos rfl]
      by_cases hlt : (fs.get_dist x + bs.get_dist x) % wrap32 < acc.1
      · rw [if_pos hlt]
        obtain ⟨h1, _, h3⟩ := ih ((fs.get_dist x + bs.get_dist x) % wrap32, x)
        simp only at h1 h3
        refine ⟨by omega, fun _ => h1, ?_⟩
        right
        refine ⟨List.mem_cons_self _ _, ?_⟩
        rcases h3 with h | h
        · exact h
        · exact h.2
      · rw [if_neg hlt]
        obtain ⟨h1, _, h3⟩ := ih acc
        refine ⟨h1, fun _ => by omega, ?_⟩
        rcases h3 with h | h
        · exact Or.inl h
        · exact Or.inr ⟨List.mem_cons_self _ _, h.2⟩
    · rw [if_neg hxy]
      obtain ⟨h1, h2, h3⟩ := ih acc
      refine ⟨h1, ?_, ?_⟩
      · intro hm
        rcases List.mem_cons.1 hm with h | h
        · exact absurd h hxy
        · exact h2 h
      · rcases h3 with h | h
        · exact Or.inl h
        · exact Or.inr ⟨List.mem_cons_of_mem _ h.1, h.2⟩

/-- The double loop of `dijkstra_on_ch`: the least sum of the two distance entries over the
nodes in both search spaces, when it is below the initial value. -/
theorem best_meet_spec (fs bs : DijkstraService) :
    ∀ (xs : List Nat) (init : Nat × Nat),
      (xs.foldl (fun acc x => bs.search_space.foldl (fun acc2 y =>
        if x = y then
          if (fs.get_dist x + bs.get_dist y) % wrap32 < acc2.1 then
            ((fs.get_dist x + bs.get_dist y) % wrap32, x)
          else acc2
        else acc2) acc) init).1 ≤ init.1 ∧
      (∀ x ∈ xs, x ∈ bs.search_space →
        (xs.foldl (fun acc x => bs.search_space.foldl (fun acc2 y =>
          if x = y then
            if (fs.get_dist x + bs.get_dist y) % wrap32 < acc2.1 then
              ((fs.get_dist x + bs.get_dist y) % wrap32, x)
            else acc2
          else acc2) acc) init).1 ≤ (fs.get_dist x + bs.get_dist x) % wrap32) ∧
      ((xs.foldl (fun acc x => bs.search_space.foldl (fun acc2 y =>
        if x = y then
          if (fs.get_dist x + bs.get_dist y) % wrap32 < acc2.1 then
            ((fs.get_dist x + bs.get_dist y) % wrap32, x)
          else acc2
        else acc2) acc) init).1 = init.1 ∨
        ∃ x ∈ xs, x ∈ bs.search_space ∧
          (xs.foldl (fun acc x => bs.search_space.foldl (fun acc2 y =>
            if x = y then
              if (fs.get_dist x + bs.get_dist y) % wrap32 < acc2.1 then
                ((fs.get_dist x + bs.get_dist y) % wrap32, x)
              else acc2
            else acc2) acc) init).1 = (fs.get_dist x + bs.get_dist x) % wrap32) := by
  intro xs
  induction xs with
  | nil => intro init; simp
  | cons x rest ih =>
    intro init
    simp only [List.foldl_cons]
    obtain ⟨i1, i2, i3⟩ := best_meet_inner fs bs x bs.search_space init
    obtain ⟨h1, h2, h3⟩ := ih (bs.search_space.foldl (fun acc2 y =>
        if x = y then
          if (fs.get_dist x + bs.get_dist y) % wrap32 < acc2.1 then
            ((fs.get_dist x + bs.get_dist y) % wrap32, x)
          else acc2
        else acc2) init)
    refine ⟨h1.trans i1, ?_, ?_⟩
    · intro z hz hzb
      rcases List.mem_cons.1 hz with h | h
      · subst h
        exact h1.trans (i2 hzb)
      · exact h2 z h hzb
    · rcases h3 with h | ⟨z, hz, hzb, h⟩
      · rcases i3 with h' | h'
        · exact Or.inl (h.trans h')
        · exact Or.inr ⟨x, List.mem_cons_self _ _, h'.1, h.trans h'.2⟩
      · exact Or.inr ⟨z, List.mem_cons_of_mem _ hz, hzb, h⟩

/-- `dijkstra_on_ch` with two fresh services on the graphs of the hierarchy terminates and
returns the least weight of an up-down walk, capped at `inf_weight`. -/
theorem ch_distance_spec {c : Constants} {ch : ContractionHierarchy} {n : Nat}
    (ctx : QCtx c ch.forward_graph ch.backward_graph n) {s t : Nat} (hs : s < n) (ht : t < n)
    (fuel : Nat) (hfuel : n < fuel) :
    ∃ r, ch_distance c fuel ch s t = Outcome.ok r ∧
      IsMeet c ch.forward_graph ch.backward_graph s t r := by
  obtain ⟨bF, fs, hrunF, hexF, hqF⟩ := Exact.run_until_done ctx.hFTV (ctx.nowrapF s) fuel 0 _
    (Exact.init c ch.forward_graph s (by rw [ctx.hFn]; exact hs) ctx.hinf) (by
      have : (set_source c (DijkstraService.new c ch.forward_graph) s).search_space = [] := rfl
      rw [this, ctx.hFn]
      simpa using hfuel)
  obtain ⟨bB, bs, hrunB, hexB, hqB⟩ := Exact.run_until_done ctx.hBTV (ctx.nowrapB t) fuel 0 _
    (Exact.init c ch.backward_graph t (by rw [ctx.hBn]; exact ht) ctx.hinf) (by
      have : (set_source c (DijkstraService.new c ch.backward_graph) t).search_space = [] := rfl
      rw [this, ctx.hBn]
      simpa using hfuel)
  unfold ch_distance dijkstra_on_ch
  rw [hrunF, hrunB]
  simp only [Bool.false_eq_true, if_false]
  refine ⟨_, rfl, ?_⟩
  obtain ⟨m1, m2, m3⟩ := best_meet_spec fs bs fs.search_space (c.inf_weight, c.invalid_id)
  have hidF : ch.forward_graph.size ≤ c.invalid_id := by rw [ctx.hFn]; exact ctx.hid
  have hidB : ch.backward_graph.size ≤ c.invalid_id := by rw [ctx.hBn]; exact ctx.hid
  have hsum : ∀ x, x ∈ fs.search_space → x ∈ bs.search_space →
      (fs.get_dist x + bs.get_dist x) % wrap32 = fs.dist_vec.get x + bs.dist_vec.get x := by
    intro x hx hy
    have h1 := (hexF.sound.hval x (hexF.hS x hx).1).2.1
    have h2 := (hexB.sound.hval x (hexB.hS x hy).1).2.1
    have := ctx.h2
    unfold get_dist
    exact Nat.mod_eq_of_lt (by omega)
  refine ⟨m1, ?_, ?_⟩
  · intro v a b hwa hwb
    show (best_meet fs bs (c.inf_weight, c.invalid_id)).1 ≤ a + b
    unfold best_meet
    by_cases hlt : a < c.inf_weight ∧ b < c.inf_weight
    · have hvF : v ∈ fs.search_space ∧ fs.dist_vec.get v ≤ a := by
        rcases hexF.walk_cases ((walk_avoiding_iff ctx.hFTV hidF s v a).2 hwa) with
          h | ⟨p, hp, _⟩ | h
        · exact h
        · rw [hqF] at hp
          simp at hp
        · omega
      have hvB : v ∈ bs.search_space ∧ bs.dist_vec.get v ≤ b := by
        rcases hexB.walk_cases ((walk_avoiding_iff ctx.hBTV hidB t v b).2 hwb) with
          h | ⟨p, hp, _⟩ | h
        · exact h
        · rw [hqB] at hp
          simp at hp
        · omega
      have := m2 v hvF.1 hvB.1
      rw [hsum v hvF.1 hvB.1] at this
      omega
    · simp only at m1
      omega
  · show (best_meet fs bs (c.inf_weight, c.invalid_id)).1 = c.inf_weight ∨ _
    unfold best_meet
    rcases m3 with h | ⟨x, hx, hy, h⟩
    · exact Or.inl h
    · right
      rw [hsum x hx hy] at h
      exact ⟨x, _, _,
        (walk_avoiding_iff ctx.hFTV hidF s x _).1 (hexF.sound.hval x (hexF.hS x hx).1).2.2,
        (walk_avoiding_iff ctx.hBTV hidB t x _).1 (hexB.sound.hval x (hexB.hS x hy).1).2.2, h⟩

end PenAstar

namespace PenAstar

open DijkstraService

/-- Every call of a sequence of queries on one service returns the distance of
`dijkstra_on_ch` for its pair. -/
theorem query_sequence_spec {c : Constants} {ch : ContractionHierarchy} {n : Nat}
    (ctx : QCtx c ch.forward_graph ch.backward_graph n) {fuel : Nat} (hfuel : 2 * n < fuel) :
    ∀ (qs : List (Nat × Nat)) (T : Nat) (q : CHQueryService),
      QClean c ch.forward_graph ch.backward_graph n T q → T + qs.length < wrap32 →
      (∀ st ∈ qs, st.1 < n ∧ st.2 < n) →
      ∃ rs q', CHQueryService.query_sequence c fuel q qs = Outcome.ok (rs, q') ∧
        List.Forall₂ (fun st r => ch_distance c fuel ch st.1 st.2 = Outcome.ok r) qs rs := by
  intro qs
  induction qs with
  | nil =>
    intro T q _ _ _
    exact ⟨[], q, rfl, List.Forall₂.nil⟩
  | cons st rest ih =>
    intro T q hq hT hst
    have h1 := hst st (List.mem_cons_self _ _)
    rw [List.length_cons] at hT
    obtain ⟨r, q1, hrun, hmeet, hq1⟩ := query_spec ctx hq (by omega) h1.1 h1.2 hfuel
    obtain ⟨rs, q2, hrest, hall⟩ := ih (T + 1) q1 hq1 (by omega)
      (fun st' hst' => hst st' (List.mem_cons_of_mem _ hst'))
    obtain ⟨r', hr', hmeet'⟩ := ch_distance_spec ctx h1.1 h1.2 fuel (by omega)
    have hrr : r' = r := hmeet'.unique_meet hmeet
    unfold CHQueryService.query_sequence
    rw [hrun]
    simp only
    rw [hrest]
    exact ⟨r :: rs, q2, rfl, List.Forall₂.cons (by rw [hr', hrr]) hall⟩

/-- C36: let the forward and the backward graph of the hierarchy `ch` have the `n` nodes
of `g`, arcs that lead to nodes and weights below `inf_weight`, with `n ≤ invalid_id` and
`2 * inf_weight ≤ 2 ^ 32`. For every sequence of fewer than `2 ^ 32 - 2` queries
`(s1, t1), (s2, t2), …` between nodes, issued one after the other on one newly constructed
`CHQueryService`, every call terminates and the `i`-th call returns the distance that
`dijkstra_on_ch(si, ti)` returns with two fresh services on the graphs of `ch`, whatever
queries were issued before it. -/
theorem C36_query_matches_dijkstra_on_ch (c : Constants) (g : Graph) (ch : ContractionHierarchy)
    (n : Nat) (ctx : QCtx c ch.forward_graph ch.backward_graph n) (hg : g.size = n)
    (fuel : Nat) (hfuel : 2 * n < fuel) (qs : List (Nat × Nat))
    (hqs : ∀ st ∈ qs, st.1 < n ∧ st.2 < n) (hlen : qs.length + 2 < wrap32) :
    ∃ rs q', CHQueryService.query_sequence c fuel (CHQueryService.new c g ch) qs
        = Outcome.ok (rs, q') ∧
      List.Forall₂ (fun st r => ch_distance c fuel ch st.1 st.2 = Outcome.ok r) qs rs := by
  have h0 := qclean_new c g ch
  rw [hg] at h0
  exact query_sequence_spec ctx hfuel qs 1 _ h0 (by omega) hqs

/-- The graphs of the hierarchy with the triangle of scenario S1 as forward graph and no
arc in the backward graph meet the conditions of the query. -/
theorem triangle_hierarchy_ctx :
    QCtx stdConstants triangle (Graph.new 3) 3 :=
  { hFTV := fun u e he => (triangle_consistent.arc_lt _ u e he).2
    hBTV := fun u e he => absurd he (not_mem_new _ _ _)
    hFn := rfl
    hBn := rfl
    hid := by decide
    hFW := fun u e he => Nat.lt_of_le_of_lt (triangle_weight_le he) (by decide)
    hBW := fun u e he => absurd he (not_mem_new _ _ _)
    h2 := by decide
    hinf := by decide }

/-- Witness for C36: the queries (0, 2), (1, 2), (2, 0), (0, 2) on the hierarchy with the
triangle of scenario S1 as forward graph. -/
theorem C36_query_matches_dijkstra_on_ch_witness :
    ∃ rs q', CHQueryService.query_sequence stdConstants 7
        (CHQueryService.new stdConstants triangle ⟨triangle, Graph.new 3, [0, 1, 2]⟩)
        [(0, 2), (1, 2), (2, 0), (0, 2)] = Outcome.ok (rs, q') ∧
      List.Forall₂ (fun st r => ch_distance stdConstants 7
        ⟨triangle, Graph.new 3, [0, 1, 2]⟩ st.1 st.2 = Outcome.ok r)
        [(0, 2), (1, 2), (2, 0), (0, 2)] rs :=
  C36_query_matches_dijkstra_on_ch stdConstants triangle ⟨triangle, Graph.new 3, [0, 1, 2]⟩ 3
    triangle_hierarchy_ctx rfl 7 (by decide) [(0, 2), (1, 2), (2, 0), (0, 2)]
    (by decide) (by decide)

end PenAstar

namespace PenAstar

/-! ### C15: the two assignments of the meeting update are not atomic -/

/-- C15 (failing input): on the graph with the arcs 0→1 (3), 1→2 (1), 0→2 (10), with the
hierarchy of the contraction order 0, 1, 2, `run(0, 2)` returns the node list 0→2 with the
length 4 when the forward thread is suspended between `tentative_dist = g + dist_r.get(2)`
and `best_node = 2` while it relaxes the arc 0→2, and resumes after the reverse thread has
found the meeting at node 0 (`tentative_dist = 4`, `best_node = 0`) and has left its loop:
the forward thread then overwrites `best_node` with 2. The arc 0→2 has weight 10, so the
weights of the returned node list do not sum to the returned length; the distance from 0
to 2 is 4, along 0→1→2, which is what `run(0, 2)` returns when the forward thread is never
suspended. -/
theorem C15_torn_meeting_update :
    fine_query stdConstants 8 40
        [true, true, true, false, false, false, false, false, false, false, false, false]
        race_graph [0, 1, 2] 0 2 = Outcome.ok ⟨[0, 2], 4⟩ ∧
    path_weight stdConstants race_graph [0, 2] = 10 ∧
    dijkstra_query stdConstants 8 race_graph 0 2 = Outcome.ok 4 ∧
    path_weight stdConstants race_graph [0, 1, 2] = 4 ∧
    fine_query stdConstants 8 40 [] race_graph [0, 1, 2] 0 2 = Outcome.ok ⟨[0, 1, 2], 4⟩ := by
  refine ⟨by decide!, by decide!, by decide!, by decide!, by decide!⟩

end PenAstar

namespace PenAstar

namespace BidirectionalAStarService

/-! ### The statement-level threads refine the loop passes -/

/-- The move that ends with the last statement of the loop body returns what that
statement returns. -/
theorem moved_of_update (pos : ThreadPos) (b' : BidirectionalAStarService) :
    ∀ x : Outcome BidirectionalAStarService, x = Outcome.ok b' →
      (match x with
        | Outcome.ok b2 => Outcome.ok (pos, b2)
        | Outcome.out_of_range => Outcome.out_of_range
        | Outcome.empty_pop => Outcome.empty_pop
        | Outcome.no_fuel => Outcome.no_fuel :
          Outcome (ThreadPos × BidirectionalAStarService)) = Outcome.ok (pos, b') := by
  intro x h
  subst h
  rfl

/-- The body of the loop of `step_f` in terms of its last statement `update_f`. -/
theorem relax_f_eq (fuel : Nat) (b : BidirectionalAStarService) (best : Nat) (arc : Edge) :
    relax_f fuel b best arc =
      match b.pot_f1.get_potential fuel arc.target with
      | Outcome.ok (p, pf) =>
        if ((b.dist_f.get best + arc.weight) % wrap32 + p) % wrap32 ≥ b.tentative_dist then
          Outcome.ok { b with pot_f1 := pf }
        else if b.closed_r.has arc.target ∧
            ((b.dist_f.get best + arc.weight) % wrap32 + b.dist_r.get arc.target) % wrap32
              < b.tentative_dist then
          update_f fuel
            { b with pot_f1 := pf, tentative_dist := ((b.dist_f.get best + arc.weight) % wrap32 + b.dist_r.get arc.target) % wrap32, best_node := arc.target }
            best arc ((b.dist_f.get best + arc.weight) % wrap32)
        else update_f fuel { b with pot_f1 := pf } best arc
          ((b.dist_f.get best + arc.weight) % wrap32)
      | Outcome.out_of_range => Outcome.out_of_range
      | Outcome.empty_pop => Outcome.empty_pop
      | Outcome.no_fuel => Outcome.no_fuel := by
  unfold relax_f
  cases hp : b.pot_f1.get_potential fuel arc.target with
  | ok r =>
    obtain ⟨p, pf⟩ := r
    simp only
    by_cases hprune : ((b.dist_f.get best + arc.weight) % wrap32 + p) % wrap32 ≥ b.tentative_dist
    · rw [if_pos hprune, if_pos hprune]
    · rw [if_neg hprune, if_neg hprune]
      by_cases hmeet : b.closed_r.has arc.target ∧
          ((b.dist_f.get best + arc.weight) % wrap32 + b.dist_r.get arc.target) % wrap32
            < b.tentative_dist
      · rw [if_pos hmeet, if_pos hmeet]
        rfl
      · rw [if_neg hmeet, if_neg hmeet]
        rfl
  | out_of_range => rfl
  | empty_pop => rfl
  | no_fuel => rfl

/-- Relaxing one arc in `step_f` is one or two moves of the forward thread: the body of the
loop, split at the point between the two assignments of the meeting update. -/
theorem relax_f_moves (c : Constants) (fuel : Nat) (b b' : BidirectionalAStarService)
    (best : Nat) (arc : Edge) (rest : List Edge)
    (h : relax_f fuel b best arc = Outcome.ok b') :
    advance_f c fuel b (ThreadPos.in_step best (arc :: rest)) =
        Outcome.ok (ThreadPos.in_step best rest, b') ∨
    ∃ g bm, advance_f c fuel b (ThreadPos.in_step best (arc :: rest)) =
        Outcome.ok (ThreadPos.at_store best arc g rest, bm) ∧
      advance_f c fuel bm (ThreadPos.at_store best arc g rest) =
        Outcome.ok (ThreadPos.in_step best rest, b') := by
  rw [relax_f_eq] at h
  simp only [advance_f]
  cases hp : b.pot_f1.get_potential fuel arc.target with
  | ok r =>
    obtain ⟨p, pf⟩ := r
    rw [hp] at h
    simp only at h ⊢
    by_cases hprune : ((b.dist_f.get best + arc.weight) % wrap32 + p) % wrap32 ≥ b.tentative_dist
    · rw [if_pos hprune] at h ⊢
      left
      obtain rfl := Outcome.ok.inj h
      rfl
    · rw [if_neg hprune] at h ⊢
      by_cases hmeet : b.closed_r.has arc.target ∧
          ((b.dist_f.get best + arc.weight) % wrap32 + b.dist_r.get arc.target) % wrap32
            < b.tentative_dist
      · rw [if_pos hmeet] at h ⊢
        right
        refine ⟨_, _, rfl, ?_⟩
        simp only [advance_f]
        exact moved_of_update _ _ _ h
      · rw [if_neg hmeet] at h ⊢
        left
        exact moved_of_update _ _ _ h
  | out_of_range => rw [hp] at h; exact Outcome.noConfusion h
  | empty_pop => rw [hp] at h; exact Outcome.noConfusion h
  | no_fuel => rw [hp] at h; exact Outcome.noConfusion h

/-- The loop of `step_f` over the arcs of the popped node, followed by the update of `k_f`,
is a run of the forward thread that is not suspended. -/
theorem relax_arcs_f_pass (c : Constants) (fuel best : Nat) :
    ∀ (arcs : List Edge) (b b' : BidirectionalAStarService),
      relax_arcs (fun st arc => relax_f fuel st best arc) arcs b = Outcome.ok b' →
      ∃ n, pass_f c fuel n (ThreadPos.in_step best arcs) b =
        Outcome.ok (ThreadPos.at_test, { b' with k_f :=
          match b'.q_f.peek with
          | some p => p.key
          | none => c.inf_weight }) := by
  intro arcs
  induction arcs with
  | nil =>
    intro b b' h
    simp only [relax_arcs, Outcome.ok.injEq] at h
    rw [← h]
    exact ⟨1, rfl⟩
  | cons arc rest ih =>
    intro b b' h
    simp only [relax_arcs] at h
    split at h
    · rename_i b1 hb1
      obtain ⟨n, hn⟩ := ih b1 b' h
      rcases relax_f_moves c fuel b b1 best arc rest hb1 with h1 | ⟨g, bm, h1, h2⟩
      · refine ⟨n + 1, ?_⟩
        simp only [pass_f]
        rw [h1]
        exact hn
      · refine ⟨n + 2, ?_⟩
        simp only [pass_f]
        rw [h1]
        simp only
        rw [h2]
        exact hn
    · exact Outcome.noConfusion h
    · exact Outcome.noConfusion h
    · exact Outcome.noConfusion h

/-- A pass of the loop of `thread_function_f` (`iteration_f`) is a run of the forward thread
of the statement-level model from one loop test to the next without a switch: the
interleavings of whole passes are among the runs of `run_threads_fine`. -/
theorem iteration_f_pass (c : Constants) (fuel : Nat) (b b' : BidirectionalAStarService)
    (go : Bool) (h : iteration_f c fuel b = Outcome.ok (go, b')) :
    ∃ n, pass_f c fuel n ThreadPos.at_test b =
      Outcome.ok (if go then ThreadPos.at_test else ThreadPos.done, b') := by
  unfold iteration_f at h
  split at h
  · rename_i hv b1 hh
    split at h
    · rename_i hcond
      split at h
      · rename_i b2 hstep
        simp only [Outcome.ok.injEq, Prod.mk.injEq] at h
        obtain ⟨hgo, hb⟩ := h
        unfold step_f at hstep
        split at hstep
        · exact Outcome.noConfusion hstep
        · rename_i best q hpop
          obtain ⟨n, hn⟩ := relax_arcs_f_pass c fuel best.id _ _ _ hstep
          refine ⟨n + 1, ?_⟩
          simp only [pass_f, advance_f]
          rw [hh]
          simp only
          rw [if_pos hcond, hpop]
          simp only
          rw [hn, ← hgo, ← hb]
          rfl
      · exact Outcome.noConfusion h
      · exact Outcome.noConfusion h
      · exact Outcome.noConfusion h
    · rename_i hcond
      simp only [Outcome.ok.injEq, Prod.mk.injEq] at h
      obtain ⟨hgo, hb⟩ := h
      refine ⟨1, ?_⟩
      simp only [pass_f, advance_f]
      rw [hh]
      simp only
      rw [if_neg hcond, ← hgo, ← hb]
      rfl
  · exact Outcome.noConfusion h
  · exact Outcome.noConfusion h
  · exact Outcome.noConfusion h

/-- The body of the loop of `step_r` in terms of its last statement `update_r`. -/
theorem relax_r_eq (fuel : Nat) (b : BidirectionalAStarService) (best : Nat) (arc : Edge) :
    relax_r fuel b best arc =
      match b.pot_r2.get_potential fuel arc.target with
      | Outcome.ok (p, pf) =>
        if ((b.dist_r.get best + arc.weight) % wrap32 + p) % wrap32 ≥ b.tentative_dist then
          Outcome.ok { b with pot_r2 := pf }
        else if b.closed_f.has arc.target ∧
            ((b.dist_r.get best + arc.weight) % wrap32 + b.dist_f.get arc.target) % wrap32
              < b.tentative_dist then
          update_r fuel
            { b with pot_r2 := pf, tentative_dist := ((b.dist_r.get best + arc.weight) % wrap32 + b.dist_f.get arc.target) % wrap32, best_node := arc.target }
            best arc ((b.dist_r.get best + arc.weight) % wrap32)
        else update_r fuel { b with pot_r2 := pf } best arc
          ((b.dist_r.get best + arc.weight) % wrap32)
      | Outcome.out_of_range => Outcome.out_of_range
      | Outcome.empty_pop => Outcome.empty_pop
      | Outcome.no_fuel => Outcome.no_fuel := by
  unfold relax_r
  cases hp : b.pot_r2.get_potential fuel arc.target with
  | ok r =>
    obtain ⟨p, pf⟩ := r
    simp only
    by_cases hprune : ((b.dist_r.get best + arc.weight) % wrap32 + p) % wrap32 ≥ b.tentative_dist
    · rw [if_pos hprune, if_pos hprune]
    · rw [if_neg hprune, if_neg hprune]
      by_cases hmeet : b.closed_f.has arc.target ∧
          ((b.dist_r.get best + arc.weight) % wrap32 + b.dist_f.get arc.target) % wrap32
            < b.tentative_dist
      · rw [if_pos hmeet, if_pos hmeet]
        rfl
      · rw [if_neg hmeet, if_neg hmeet]
        rfl
  | out_of_range => rfl
  | empty_pop => rfl
  | no_fuel => rfl

/-- Relaxing one arc in `step_r` is one or two moves of the reverse thread: the body of the
loop, split at the point between the two assignments of the meeting update. -/
theorem relax_r_moves (c : Constants) (fuel : Nat) (b b' : BidirectionalAStarService)
    (best : Nat) (arc : Edge) (rest : List Edge)
    (h : relax_r fuel b best arc = Outcome.ok b') :
    advance_r c fuel b (ThreadPos.in_step best (arc :: rest)) =
        Outcome.ok (ThreadPos.in_step best rest, b') ∨
    ∃ g bm, advance_r c fuel b (ThreadPos.in_step best (arc :: rest)) =
        Outcome.ok (ThreadPos.at_store best arc g rest, bm) ∧
      advance_r c fuel bm (ThreadPos.at_store best arc g rest) =
        Outcome.ok (ThreadPos.in_step best rest, b') := by
  rw [relax_r_eq] at h
  simp only [advance_r]
  cases hp : b.pot_r2.get_potential fuel arc.target with
  | ok r =>
    obtain ⟨p, pf⟩ := r
    rw [hp] at h
    simp only at h ⊢
    by_cases hprune : ((b.dist_r.get best + arc.weight) % wrap32 + p) % wrap32 ≥ b.tentative_dist
    · rw [if_pos hprune] at h ⊢
      left
      obtain rfl := Outcome.ok.inj h
      rfl
    · rw [if_neg hprune] at h ⊢
      by_cases hmeet : b.closed_f.has arc.target ∧
          ((b.dist_r.get best + arc.weight) % wrap32 + b.dist_f.get arc.target) % wrap32
            < b.tentative_dist
      · rw [if_pos hmeet] at h ⊢
        right
        refine ⟨_, _, rfl, ?_⟩
        simp only [advance_r]
        exact moved_of_update _ _ _ h
      · rw [if_neg hmeet] at h ⊢
        left
        exact moved_of_update _ _ _ h
  | out_of_range => rw [hp] at h; exact Outcome.noConfusion h
  | empty_pop => rw [hp] at h; exact Outcome.noConfusion h
  | no_fuel => rw [hp] at h; exact Outcome.noConfusion h

/-- The loop of `step_r` over the arcs of the popped node, followed by the update of `k_r`,
is a run of the reverse thread that is not suspended. -/
theorem relax_arcs_r_pass (c : Constants) (fuel best : Nat) :
    ∀ (arcs : List Edge) (b b' : BidirectionalAStarService),
      relax_arcs (fun st arc => relax_r fuel st best arc) arcs b = Outcome.ok b' →
      ∃ n, pass_r c fuel n (ThreadPos.in_step best arcs) b =
        Outcome.ok (ThreadPos.at_test, { b' with k_r :=
          match b'.q_r.peek with
          | some p => p.key
          | none => c.inf_weight }) := by
  intro arcs
  induction arcs with
  | nil =>
    intro b b' h
    simp only [relax_arcs, Outcome.ok.injEq] at h
    rw [← h]
    exact ⟨1, rfl⟩
  | cons arc rest ih =>
    intro b b' h
    simp only [relax_arcs] at h
    split at h
    · rename_i b1 hb1
      obtain ⟨n, hn⟩ := ih b1 b' h
      rcases relax_r_moves c fuel b b1 best arc rest hb1 with h1 | ⟨g, bm, h1, h2⟩
      · refine ⟨n + 1, ?_⟩
        simp only [pass_r]
        rw [h1]
        exact hn
      · refine ⟨n + 2, ?_⟩
        simp only [pass_r]
        rw [h1]
        simp only
        rw [h2]
        exact hn
    · exact Outcome.noConfusion h
    · exact Outcome.noConfusion h
    · exact Outcome.noConfusion h

/-- A pass of the loop of `thread_function_r` (`iteration_r`) is a run of the reverse thread
of the statement-level model from one loop test to the next without a switch: the
interleavings of whole passes are among the runs of `run_threads_fine`. -/
theorem iteration_r_pass (c : Constants) (fuel : Nat) (b b' : BidirectionalAStarService)
    (go : Bool) (h : iteration_r c fuel b = Outcome.ok (go, b')) :
    ∃ n, pass_r c fuel n ThreadPos.at_test b =
      Outcome.ok (if go then ThreadPos.at_test else ThreadPos.done, b') := by
  unfold iteration_r at h
  split at h
  · rename_i hv b1 hh
    split at h
    · rename_i hcond
      split at h
      · rename_i b2 hstep
        simp only [Outcome.ok.injEq, Prod.mk.injEq] at h
        obtain ⟨hgo, hb⟩ := h
        unfold step_r at hstep
        split at hstep
        · exact Outcome.noConfusion hstep
        · rename_i best q hpop
          obtain ⟨n, hn⟩ := relax_arcs_r_pass c fuel best.id _ _ _ hstep
          refine ⟨n + 1, ?_⟩
          simp only [pass_r, advance_r]
          rw [hh]
          simp only
          rw [if_pos hcond, hpop]
          simp only
          rw [hn, ← hgo, ← hb]
          rfl
      · exact Outcome.noConfusion h
      · exact Outcome.noConfusion h
      · exact Outcome.noConfusion h
    · rename_i hcond
      simp only [Outcome.ok.injEq, Prod.mk.injEq] at h
      obtain ⟨hgo, hb⟩ := h
      refine ⟨1, ?_⟩
      simp only [pass_r, advance_r]
      rw [hh]
      simp only
      rw [if_neg hcond, ← hgo, ← hb]
      rfl
  · exact Outcome.noConfusion h
  · exact Outcome.noConfusion h
  · exact Outcome.noConfusion h

end BidirectionalAStarService

end PenAstar

